import Mathlib

/-!
# Game Maker archive patcher (`game_maker.c`): planner, parser and writer

A shallow embedding of `src/src/game_maker.c` / `game_maker.h`.

Conventions of the embedding

* The platform is LP64: `size_t` is an unsigned 64-bit integer, `off_t` a signed 64-bit
  integer.  A `size_t` value is a `Nat` kept below `2^64` by `size_wrap`; an `off_t` value is
  an `Int` kept in `[-2^63, 2^63)` by `off_wrap` (two's complement).
* A C array that is terminated by an element whose `section` is `GM_END` is the `List` of the
  elements before that terminator; a pointer into the array is the list of the elements from
  the pointer to the terminator.  Elements of such a list never carry `GM_END`.
* `entry_count` / `tpag_count` are the lengths of the lists `entries` / `tpag`.
* The members of the C unions `meta` are separate fields; the code only ever reads the member
  that belongs to the section of the chunk.
* A byte is a `Nat` below 256, a file is a `List Nat`.
* Memory allocation is assumed to succeed (`calloc(0, n)` returns a usable pointer).
-/

set_option autoImplicit false

/-! ## Machine integers -/

/-- Conversion of an integer to `size_t` (unsigned, 64 bit): reduction modulo `2^64`.  The
value is returned as it is when it already is in range. -/
def size_wrap (n : Int) : Nat :=
  if 0 ≤ n ∧ n < 18446744073709551616 then n.toNat else (n % 18446744073709551616).toNat

/-- Conversion of an integer to `off_t` (signed, 64 bit, two's complement).  The value is
returned as it is when it already is in range. -/
def off_wrap (n : Int) : Int :=
  if -9223372036854775808 ≤ n ∧ n < 9223372036854775808 then n
  else (n + 9223372036854775808) % 18446744073709551616 - 9223372036854775808

/-- Conversion of an integer to `uint32_t`: reduction modulo `2^32`. -/
def u32_wrap (n : Int) : Nat :=
  if 0 ≤ n ∧ n < 4294967296 then n.toNat else (n % 4294967296).toNat

def INT32_MAX : Nat := 2147483647
def UINT32_MAX : Nat := 4294967295

/-! ## Data model (`game_maker.h`) -/

inductive gm_filetype where
  | GM_UNKNOWN | GM_PNG | GM_WAVE | GM_OGG | GM_TXT
  deriving DecidableEq, Repr

inductive gm_section where
  | GM_END
  | GM_GEN8 | GM_OPTN | GM_EXTN | GM_SOND | GM_SPRT | GM_BGND | GM_PATH | GM_SCPT | GM_SHDR
  | GM_FONT | GM_TMLN | GM_OBJT | GM_ROOM | GM_DAFL | GM_TPAG | GM_CODE | GM_VARI | GM_FUNC
  | GM_STRG | GM_TXTR | GM_AUDO | GM_AGRP | GM_LANG | GM_GLOB | GM_EMBI | GM_TGIN
  deriving DecidableEq, Repr

inductive gm_patch_src where
  | GM_SRC_MEM | GM_SRC_FILE
  deriving DecidableEq, Repr

/-- The values of `errno` the library sets itself; `EIO` stands for whatever the C library
left in `errno` after a failed I/O call. -/
inductive gm_errno where
  | EINVAL | ENOSYS | ERANGE | EIO
  deriving DecidableEq, Repr

/-- Return value `0` (`ok`) or `-1` together with the `errno` that was set. -/
inductive gm_status where
  | ok
  | error (errno : gm_errno)
  deriving DecidableEq, Repr

structure gm_patch_sprt_entry where
  tpag_index : Nat
  x : Nat
  y : Nat
  width : Nat
  height : Nat
  txtr_index : Nat
  deriving DecidableEq, Repr

/-- Record `struct gm_patch`.  `data` holds the replacement bytes: the memory at `src.data`
for `GM_SRC_MEM`, the content of the file `src.filename` for `GM_SRC_FILE`.  `width`, `height`
are `meta.txtr`; `name`, `entries` are `meta.sprt` (`name` without its terminating NUL). -/
structure gm_patch where
  sect : gm_section
  index : Nat
  type : gm_filetype
  patch_src : gm_patch_src
  size : Nat
  data : List Nat
  width : Nat
  height : Nat
  name : List Nat
  entries : List gm_patch_sprt_entry
  deriving DecidableEq, Repr

structure gm_tpag where
  x : Nat
  y : Nat
  width : Nat
  height : Nat
  txtr_index : Nat
  deriving DecidableEq, Repr

/-- Record `struct gm_entry`.  `unknown1 … height` are `meta.txtr`; `name` (the bytes of the
allocated string before its terminating NUL) and `tpag` are `meta.sprt`. -/
structure gm_entry where
  offset : Int
  size : Nat
  type : gm_filetype
  unknown1 : Nat
  unknown2 : Nat
  width : Nat
  height : Nat
  name : List Nat
  tpag : List gm_tpag
  deriving DecidableEq, Repr

structure gm_index where
  sect : gm_section
  offset : Int
  size : Nat
  entries : List gm_entry
  deriving DecidableEq, Repr

/-- Record `struct gm_patched_entry`; `entry` is the parsed entry the C pointer refers to. -/
structure gm_patched_entry where
  offset : Int
  size : Nat
  patch : Option gm_patch
  entry : gm_entry
  deriving DecidableEq, Repr

/-- Record `struct gm_patched_index`; `index` is the parsed chunk the C pointer refers to. -/
structure gm_patched_index where
  sect : gm_section
  offset : Int
  size : Nat
  entries : List gm_patched_entry
  index : gm_index
  deriving DecidableEq, Repr

open gm_section gm_filetype gm_errno

/-! ## Patch planner -/

/-- The sections `gm_shift_tail` knows how to move (the `case GM_TXTR: case GM_AUDO:`). -/
def gm_movable (s : gm_section) : Bool :=
  match s with
  | GM_TXTR => true
  | GM_AUDO => true
  | _ => false

/-- Function `gm_get_section`: position of the first chunk with the given section. -/
def gm_get_section : List gm_patched_index → gm_section → Option Nat
  | [], _ => none
  | c :: rest, s =>
    if c.sect = s then some 0 else (gm_get_section rest s).map (· + 1)

/-- The body of the loop of `gm_shift_tail` for one movable chunk. -/
def gm_shift_chunk (c : gm_patched_index) (offset : Int) : gm_patched_index :=
  { c with
    offset := off_wrap (c.offset + offset)
    entries := c.entries.map fun e => { e with offset := off_wrap (e.offset + offset) } }

/-- Function `gm_shift_tail`: moves every chunk from the pointer on by `offset`; stops with
`ENOSYS` at the first chunk that is neither TXTR nor AUDO, the chunks before it stay moved. -/
def gm_shift_tail : List gm_patched_index → Int → gm_status × List gm_patched_index
  | [], _ => (gm_status.ok, [])
  | c :: rest, offset =>
    if gm_movable c.sect then
      let r := gm_shift_tail rest offset
      (r.1, gm_shift_chunk c offset :: r.2)
    else
      (gm_status.error ENOSYS, c :: rest)

/-- C string comparison `strcmp(a, b) == 0`: both are compared up to their first NUL. -/
def gm_streq (a b : List Nat) : Bool :=
  a.takeWhile (· ≠ 0) = b.takeWhile (· ≠ 0)

/-- The inner loop of the SPRT case of `gm_patch_entry`: every tuple of the patch must name
an existing TPAG of the sprite and agree with it in all five components. -/
def gm_sprt_check (entry : gm_entry) : List gm_patch_sprt_entry → Bool
  | [] => true
  | p :: ps =>
    match entry.tpag.get? p.tpag_index with
    | none => false
    | some t =>
      if t.x ≠ p.x ∨ t.y ≠ p.y ∨ t.width ≠ p.width ∨ t.height ≠ p.height ∨
          t.txtr_index ≠ p.txtr_index then false
      else gm_sprt_check entry ps

/-- The outer loop of the SPRT case of `gm_patch_entry`; `found` is the flag of the code. -/
def gm_patch_sprt (patch : gm_patch) : List gm_patched_entry → Bool → gm_status
  | [], found => if found then gm_status.ok else gm_status.error EINVAL
  | e :: es, found =>
    if gm_streq e.entry.name patch.name then
      if gm_sprt_check e.entry patch.entries then gm_patch_sprt patch es true
      else gm_status.error EINVAL
    else gm_patch_sprt patch es found

/-- The sibling loop of `gm_patch_entry`: every entry whose offset is greater than the
patched entry's offset moves by `offset`. -/
def gm_shift_siblings (entries : List gm_patched_entry) (pivot : Int) (offset : Int) :
    List gm_patched_entry :=
  entries.map fun other =>
    if other.offset > pivot then { other with offset := off_wrap (other.offset + offset) }
    else other

/-- Function `gm_patch_entry`.  The argument list is the array from `index` on, the result is
the return status and the array from `index` on after the call. -/
def gm_patch_entry : List gm_patched_index → gm_patch → gm_status × List gm_patched_index
  | [], _ => (gm_status.error ENOSYS, [])
  | c :: rest, patch =>
    if gm_movable c.sect then
      match c.entries.get? patch.index with
      | none => (gm_status.error EINVAL, c :: rest)
      | some entry =>
        if entry.patch.isSome then (gm_status.error EINVAL, c :: rest)
        else if entry.entry.type ≠ patch.type then (gm_status.error EINVAL, c :: rest)
        else if c.sect = GM_TXTR ∧
            (entry.entry.width ≠ patch.width ∨ entry.entry.height ≠ patch.height) then
          (gm_status.error EINVAL, c :: rest)
        else
          let offset : Int := off_wrap (size_wrap ((patch.size : Int) - entry.entry.size))
          let entries1 := c.entries.set patch.index
            { entry with size := patch.size, patch := some patch }
          let c1 : gm_patched_index :=
            { c with
              size := size_wrap ((c.size : Int) + offset)
              entries := gm_shift_siblings entries1 entry.offset offset }
          let r := gm_shift_tail rest offset
          (r.1, c1 :: r.2)
    else if c.sect = GM_SPRT then
      (gm_patch_sprt patch c.entries false, c :: rest)
    else
      (gm_status.error ENOSYS, c :: rest)

/-- Function `gm_form_size`: `size += index->size + 8` over the chunks, in `size_t`. -/
def gm_form_size (index : List gm_patched_index) : Nat :=
  index.foldl (fun size c => size_wrap ((size : Int) + size_wrap ((c.size : Int) + 8))) 0

/-- The call `gm_patch_entry(&patched[k], patch)` on the whole array: the chunks before
position `k` are out of reach of the callee. -/
def gm_patch_at (patched : List gm_patched_index) (k : Nat) (patch : gm_patch) :
    gm_status × List gm_patched_index :=
  let r := gm_patch_entry (patched.drop k) patch
  (r.1, patched.take k ++ r.2)

/-- The signed size difference `off_t offset = patch->size - entry->entry->size`. -/
def gm_delta (patch : gm_patch) (entry : gm_patched_entry) : Int :=
  off_wrap (size_wrap ((patch.size : Int) - entry.entry.size))

/-- The patched chunk after a successful TXTR/AUDO patch. -/
def gm_patched_chunk (c : gm_patched_index) (patch : gm_patch) (entry : gm_patched_entry) :
    gm_patched_index :=
  { c with
    size := size_wrap ((c.size : Int) + gm_delta patch entry)
    entries := gm_shift_siblings
      (c.entries.set patch.index { entry with size := patch.size, patch := some patch })
      entry.offset (gm_delta patch entry) }


/-- The "build patch index" loop of `gm_patch_archive`: the planned index starts as a mirror
of the parsed one. -/
def gm_build_patched (index : List gm_index) : List gm_patched_index :=
  index.map fun c =>
    { sect := c.sect
      offset := c.offset
      size := c.size
      entries := c.entries.map fun e =>
        { offset := e.offset, size := e.size, patch := none, entry := e }
      index := c }

/-- The "adjust patch index" loop of `gm_patch_archive`: patches are applied in order, each to
the first chunk of its section; the loop stops at the first failure. -/
def gm_apply_patches :
    List gm_patched_index → List gm_patch → gm_status × List gm_patched_index
  | patched, [] => (gm_status.ok, patched)
  | patched, patch :: rest =>
    match gm_get_section patched patch.sect with
    | none => (gm_status.error EINVAL, patched)
    | some k =>
      match gm_patch_at patched k patch with
      | (gm_status.ok, patched1) => gm_apply_patches patched1 rest
      | (gm_status.error e, patched1) => (gm_status.error e, patched1)

/-! ## Reading -/

/-- Call `fread(buf, n, 1, fp)` on a stream over `file` standing at `pos`: the `n` bytes read,
or `none` when the call does not return 1 (`n = 0`, or fewer than `n` bytes are left). -/
def gm_fread (file : List Nat) (pos n : Nat) : Option (List Nat) :=
  if n = 0 then none
  else if pos + n ≤ file.length then some ((file.drop pos).take n)
  else none

/-- Macro `U32LE_FROM_BUF(buf + k)`; for bytes (values below 256) the shifts and ors are the
positional sum. -/
def U32LE_FROM_BUF (buf : List Nat) (k : Nat) : Nat :=
  buf.getD k 0 + 256 * buf.getD (k + 1) 0 + 65536 * buf.getD (k + 2) 0 +
    16777216 * buf.getD (k + 3) 0

/-- Macro `U16LE_FROM_BUF(buf + k)`. -/
def U16LE_FROM_BUF (buf : List Nat) (k : Nat) : Nat :=
  buf.getD k 0 + 256 * buf.getD (k + 1) 0

/-- Macro `WRITE_U32LE`: the four bytes of `(uint32_t)n`. -/
def WRITE_U32LE (n : Int) : List Nat :=
  [u32_wrap n % 256, u32_wrap n / 256 % 256, u32_wrap n / 65536 % 256,
    u32_wrap n / 16777216 % 256]

/-- Four ASCII characters as bytes. -/
def gm_magic (a b c d : Char) : List Nat := [a.toNat, b.toNat, c.toNat, d.toNat]

/-- Function `gm_section_name`; `none` is the `NULL` of the `default` case. -/
def gm_section_name (s : gm_section) : Option (List Nat) :=
  match s with
  | GM_GEN8 => some (gm_magic 'G' 'E' 'N' '8')
  | GM_OPTN => some (gm_magic 'O' 'P' 'T' 'N')
  | GM_EXTN => some (gm_magic 'E' 'X' 'T' 'N')
  | GM_SOND => some (gm_magic 'S' 'O' 'N' 'D')
  | GM_SPRT => some (gm_magic 'S' 'P' 'R' 'T')
  | GM_BGND => some (gm_magic 'B' 'G' 'N' 'D')
  | GM_PATH => some (gm_magic 'P' 'A' 'T' 'H')
  | GM_SCPT => some (gm_magic 'S' 'C' 'P' 'T')
  | GM_SHDR => some (gm_magic 'S' 'H' 'D' 'R')
  | GM_FONT => some (gm_magic 'F' 'O' 'N' 'T')
  | GM_TMLN => some (gm_magic 'T' 'M' 'L' 'N')
  | GM_OBJT => some (gm_magic 'O' 'B' 'J' 'T')
  | GM_ROOM => some (gm_magic 'R' 'O' 'O' 'M')
  | GM_DAFL => some (gm_magic 'D' 'A' 'F' 'L')
  | GM_TPAG => some (gm_magic 'T' 'P' 'A' 'G')
  | GM_CODE => some (gm_magic 'C' 'O' 'D' 'E')
  | GM_VARI => some (gm_magic 'V' 'A' 'R' 'I')
  | GM_FUNC => some (gm_magic 'F' 'U' 'N' 'C')
  | GM_STRG => some (gm_magic 'S' 'T' 'R' 'G')
  | GM_TXTR => some (gm_magic 'T' 'X' 'T' 'R')
  | GM_AUDO => some (gm_magic 'A' 'U' 'D' 'O')
  | GM_AGRP => some (gm_magic 'A' 'G' 'R' 'P')
  | GM_LANG => some (gm_magic 'L' 'A' 'N' 'G')
  | GM_GLOB => some (gm_magic 'G' 'L' 'O' 'B')
  | GM_EMBI => some (gm_magic 'E' 'M' 'B' 'I')
  | GM_TGIN => some (gm_magic 'T' 'G' 'I' 'N')
  | GM_END => none

/-- The tags in the order in which `gm_parse_section` tries them. -/
def gm_section_order : List gm_section :=
  [GM_GEN8, GM_OPTN, GM_EXTN, GM_SOND, GM_SPRT, GM_BGND, GM_PATH, GM_SCPT, GM_SHDR, GM_FONT,
   GM_TMLN, GM_OBJT, GM_ROOM, GM_DAFL, GM_TPAG, GM_CODE, GM_VARI, GM_FUNC, GM_STRG, GM_TXTR,
   GM_AUDO, GM_AGRP, GM_LANG, GM_GLOB, GM_EMBI, GM_TGIN]

/-- The `if … else if …` chain of `gm_parse_section` over a list of candidate tags. -/
def gm_parse_chain (name : List Nat) : List gm_section → gm_section
  | [] => GM_END
  | s :: rest =>
    if gm_section_name s = some (name.take 4) then s else gm_parse_chain name rest

/-- Function `gm_parse_section`: `memcmp` of the first four bytes against each tag. -/
def gm_parse_section (name : List Nat) : gm_section :=
  gm_parse_chain name gm_section_order

/-- Result `struct png_info` of the PNG sniffer. -/
structure png_info where
  filesize : Nat
  width : Nat
  height : Nat
  deriving DecidableEq, Repr

/-- The PNG sniffer `parse_png_info` of `png_info.h` is not part of these sources; the readers
take it as a parameter: given the file and the stream position it yields the size and the
dimensions of the image that starts there, or fails. -/
abbrev png_sniffer := List Nat → Nat → Option png_info

/-- The first loop of `gm_read_index_txtr` / `gm_read_index_audo`: `count` consecutive 32-bit
offsets starting at `pos`, each at most `INT32_MAX`. -/
def gm_read_offsets (game : List Nat) : Nat → Nat → Option (List Nat)
  | _, 0 => some []
  | pos, count + 1 =>
    match gm_fread game pos 4 with
    | none => none
    | some buffer =>
      if U32LE_FROM_BUF buffer 0 > INT32_MAX then none
      else
        match gm_read_offsets game (pos + 4) count with
        | none => none
        | some rest => some (U32LE_FROM_BUF buffer 0 :: rest)

/-- The body of the second loop of `gm_read_index_txtr` for the info descriptor at
`info_offset`. -/
def gm_read_txtr_entry (png : png_sniffer) (game : List Nat) (info_offset : Nat) :
    Option gm_entry :=
  match gm_fread game info_offset 12 with
  | none => none
  | some buffer =>
    if U32LE_FROM_BUF buffer 0 > 1 then none
    else if U32LE_FROM_BUF buffer 4 > 0 then none
    else if U32LE_FROM_BUF buffer 8 > INT32_MAX then none
    else
      match png game (U32LE_FROM_BUF buffer 8) with
      | none => none
      | some info =>
        some
          { offset := (U32LE_FROM_BUF buffer 8 : Nat)
            size := info.filesize
            type := GM_PNG
            unknown1 := U32LE_FROM_BUF buffer 0
            unknown2 := U32LE_FROM_BUF buffer 4
            width := info.width
            height := info.height
            name := []
            tpag := [] }

/-- A loop that runs a reader over a table of offsets and fails at the first failure. -/
def gm_read_entries (read : Nat → Option gm_entry) : List Nat → Option (List gm_entry)
  | [] => some []
  | o :: rest =>
    match read o with
    | none => none
    | some e =>
      match gm_read_entries read rest with
      | none => none
      | some es => some (e :: es)

/-- Function `gm_read_index_txtr`; `pos` is the stream position, just after the chunk header.
The result is the array `entries` that the function stores in the section. -/
def gm_read_index_txtr (png : png_sniffer) (game : List Nat) (pos : Nat) :
    Option (List gm_entry) :=
  match gm_fread game pos 4 with
  | none => none
  | some buffer =>
    match gm_read_offsets game (pos + 4) (U32LE_FROM_BUF buffer 0) with
    | none => none
    | some info_offsets => gm_read_entries (gm_read_txtr_entry png game) info_offsets

/-- The classification of the first `hdrsize` bytes of an audio blob. -/
def gm_audo_type (buffer : List Nat) (hdrsize : Nat) : gm_filetype :=
  if hdrsize ≥ 12 ∧ buffer.take 4 = gm_magic 'R' 'I' 'F' 'F' ∧
      (buffer.drop 8).take 4 = gm_magic 'W' 'A' 'V' 'E' then GM_WAVE
  else if hdrsize ≥ 4 ∧ buffer.take 4 = gm_magic 'O' 'g' 'g' 'S' then GM_OGG
  else GM_UNKNOWN

/-- The body of the second loop of `gm_read_index_audo` for the blob at `offset`. -/
def gm_read_audo_entry (game : List Nat) (offset : Nat) : Option gm_entry :=
  match gm_fread game offset 4 with
  | none => none
  | some buffer =>
    match gm_fread game (offset + 4)
        (if U32LE_FROM_BUF buffer 0 < 12 then U32LE_FROM_BUF buffer 0 else 12) with
    | none => none
    | some hdr =>
      some
        { offset := ((offset + 4 : Nat) : Int)
          size := U32LE_FROM_BUF buffer 0
          type := gm_audo_type hdr
            (if U32LE_FROM_BUF buffer 0 < 12 then U32LE_FROM_BUF buffer 0 else 12)
          unknown1 := 0
          unknown2 := 0
          width := 0
          height := 0
          name := []
          tpag := [] }

/-- Function `gm_read_index_audo`; `pos` is the stream position after the chunk header. -/
def gm_read_index_audo (game : List Nat) (pos : Nat) : Option (List gm_entry) :=
  match gm_fread game pos 4 with
  | none => none
  | some buffer =>
    match gm_read_offsets game (pos + 4) (U32LE_FROM_BUF buffer 0) with
    | none => none
    | some offsets => gm_read_entries (gm_read_audo_entry game) offsets

/-- The 22-byte TPAG record at `tpag_offset`. -/
def gm_read_tpag (game : List Nat) (tpag_offset : Nat) : Option gm_tpag :=
  match gm_fread game tpag_offset 22 with
  | none => none
  | some tpag_buffer =>
    some
      { x := U16LE_FROM_BUF tpag_buffer 0
        y := U16LE_FROM_BUF tpag_buffer 2
        width := U16LE_FROM_BUF tpag_buffer 4
        height := U16LE_FROM_BUF tpag_buffer 6
        txtr_index := U16LE_FROM_BUF tpag_buffer 20 }

/-- The TPAG loop of `gm_read_index_sprt` over the offsets held in `buffer`, the bytes that
`fread(buffer, tpag_buffer_size, 1, game)` has read.  An index behind them (possible when
`tpag_count * 4` has wrapped) reads stale or foreign memory: undefined, the model fails. -/
def gm_read_tpags (game : List Nat) (buffer : List Nat) : Nat → Nat → Option (List gm_tpag)
  | _, 0 => some []
  | tpag_index, n + 1 =>
    if buffer.length < tpag_index * 4 + 4 then none
    else
      match gm_read_tpag game (U32LE_FROM_BUF buffer (tpag_index * 4)) with
      | none => none
      | some t =>
        match gm_read_tpags game buffer (tpag_index + 1) n with
        | none => none
        | some ts => some (t :: ts)

/-- The body of the loop of `gm_read_index_sprt` for the sprite record at `offset`.  The other
fields of the entry keep the zero of `calloc`.  `tpag_buffer_size = tpag_count * 4` is a
product of `uint32_t` values. -/
def gm_read_sprt_entry (game : List Nat) (offset : Nat) : Option gm_entry :=
  match gm_fread game offset 80 with
  | none => none
  | some buffer =>
    if U32LE_FROM_BUF buffer 0 > INT32_MAX ∧ U32LE_FROM_BUF buffer 0 ≥ 4 then none
    else if U32LE_FROM_BUF buffer 76 > INT32_MAX then none
    else
      match gm_fread game (offset + 80) (u32_wrap ((U32LE_FROM_BUF buffer 76 : Int) * 4)) with
      | none => none
      | some tpag_offsets =>
        match gm_read_tpags game tpag_offsets 0 (U32LE_FROM_BUF buffer 76) with
        | none => none
        | some tpag =>
          match gm_fread game (u32_wrap ((U32LE_FROM_BUF buffer 0 : Int) - 4)) 4 with
          | none => none
          | some lenbuf =>
            if U32LE_FROM_BUF lenbuf 0 = UINT32_MAX then none
            else
              match gm_fread game (u32_wrap ((U32LE_FROM_BUF buffer 0 : Int) - 4) + 4)
                  (U32LE_FROM_BUF lenbuf 0) with
              | none => none
              | some str =>
                some
                  { offset := 0
                    size := 0
                    type := GM_UNKNOWN
                    unknown1 := 0
                    unknown2 := 0
                    width := 0
                    height := 0
                    name := str
                    tpag := tpag }

/-- The loop of `gm_read_index_sprt`: the table slot at `pos` is read, the sprite record it
points to is parsed, and the stream returns to the next slot. -/
def gm_read_sprt_loop (game : List Nat) : Nat → Nat → Option (List gm_entry)
  | _, 0 => some []
  | pos, count + 1 =>
    match gm_fread game pos 4 with
    | none => none
    | some buffer =>
      match gm_read_sprt_entry game (U32LE_FROM_BUF buffer 0) with
      | none => none
      | some e =>
        match gm_read_sprt_loop game (pos + 4) count with
        | none => none
        | some es => some (e :: es)

/-- Function `gm_read_index_sprt`; `pos` is the stream position after the chunk header. -/
def gm_read_index_sprt (game : List Nat) (pos : Nat) : Option (List gm_entry) :=
  match gm_fread game pos 4 with
  | none => none
  | some buffer => gm_read_sprt_loop game (pos + 4) (U32LE_FROM_BUF buffer 0)

/-- The `switch (section_type)` of `gm_read_index`. -/
def gm_read_section (png : png_sniffer) (game : List Nat) (s : gm_section) (pos : Nat) :
    Option (List gm_entry) :=
  match s with
  | GM_SPRT => gm_read_index_sprt game pos
  | GM_TXTR => gm_read_index_txtr png game pos
  | GM_AUDO => gm_read_index_audo game pos
  | _ => some []

/-- The initial `capacity` of the chunk array of `gm_read_index`. -/
def gm_index_capacity : Nat := 32

/-- The `while (offset < end_offset)` loop of `gm_read_index`.  At the head of the loop the
stream stands at `offset`.  `count` is the number of chunks stored so far.  The array has
`gm_index_capacity` elements; when all of them are in use and another chunk header was read and
checked, the array is grown (`if (count >= capacity)`), which runs into the mis-addressed
`memset` and leaves the new elements uninitialised: undefined behaviour, the model fails
there.  `fuel` bounds the number of iterations; every iteration advances `offset` by at least
8. -/
def gm_read_index_loop (png : png_sniffer) (game : List Nat) (end_offset : Nat) :
    Nat → Nat → Nat → Option (List gm_index)
  | 0, _, _ => none
  | fuel + 1, offset, count =>
    if offset < end_offset then
      match gm_fread game offset 8 with
      | none => none
      | some buffer =>
        if gm_parse_section buffer = GM_END then none
        else if U32LE_FROM_BUF buffer 4 > INT32_MAX - 8 ∨
            offset > INT32_MAX - 8 - U32LE_FROM_BUF buffer 4 then none
        else if offset + U32LE_FROM_BUF buffer 4 + 8 > end_offset then none
        else if count ≥ gm_index_capacity then none
        else
          match gm_read_section png game (gm_parse_section buffer) (offset + 8) with
          | none => none
          | some entries =>
            match gm_read_index_loop png game end_offset fuel
                (offset + (U32LE_FROM_BUF buffer 4 + 8)) (count + 1) with
            | none => none
            | some rest =>
              some
                ({ sect := gm_parse_section buffer
                   offset := (offset : Int)
                   size := U32LE_FROM_BUF buffer 4
                   entries := entries } :: rest)
    else some []

/-- Function `gm_read_index`: the chunk array, or `none` for the `NULL` result. -/
def gm_read_index (png : png_sniffer) (game : List Nat) : Option (List gm_index) :=
  match gm_fread game 0 8 with
  | none => none
  | some buffer =>
    if buffer.take 4 ≠ gm_magic 'F' 'O' 'R' 'M' then none
    else
      gm_read_index_loop png game (U32LE_FROM_BUF buffer 4 + 8)
        (U32LE_FROM_BUF buffer 4 + 1) 8 0

/-- Function `gm_index_length`: the number of elements in front of the terminating zero
element.  `gm_read_index` writes no terminating element, it relies on the zeroed elements of
`calloc` behind the chunks: an array in which all `gm_index_capacity` elements hold chunks has
none, and the loop reads behind the array, which is undefined behaviour (`none`). -/
def gm_index_length (index : List gm_index) : Option Nat :=
  if index.length < gm_index_capacity then some index.length else none

/-! ## Writing -/

/-- The state of the output side while the new archive is written: the bytes of the temporary
file, the position of its stream, and the injected fault.  `fault = some n` means that the
next `n` I/O calls succeed and the one after them fails; `none` means that no call fails. -/
structure gm_out where
  data : List Nat
  pos : Nat
  fault : Option Nat
  deriving DecidableEq, Repr

/-- One call into the C library that can fail for reasons outside the program. -/
def gm_io (s : gm_out) : Option gm_out :=
  match s.fault with
  | none => some s
  | some 0 => none
  | some (n + 1) => some { s with fault := some n }

/-- The content of a file after `bytes` were written at position `pos`; a write behind the end
of the file leaves a gap of zero bytes. -/
def gm_file_write (data : List Nat) (pos : Nat) (bytes : List Nat) : List Nat :=
  data.take pos ++ List.replicate (pos - data.length) 0 ++ bytes ++
    data.drop (pos + bytes.length)

/-- Call `fseeko(tmp, offset, SEEK_SET)`: fails for a negative offset. -/
def gm_fseeko (offset : Int) (s : gm_out) : Option gm_out :=
  if offset < 0 then none
  else
    match gm_io s with
    | none => none
    | some s1 => some { s1 with pos := offset.toNat }

/-- Call `fwrite(bytes, n, 1, tmp)` with `n` the length of `bytes`; it does not return 1
when `n = 0`. -/
def gm_fwrite (bytes : List Nat) (s : gm_out) : Option gm_out :=
  if bytes.length = 0 then none
  else
    match gm_io s with
    | none => none
    | some s1 =>
      some { s1 with data := gm_file_write s1.data s1.pos bytes, pos := s1.pos + bytes.length }

/-- The constant `BUFSIZ` of `<stdio.h>` (glibc). -/
def BUFSIZ : Nat := 8192

/-- The `while (size > 0)` loop of `gm_copydata`; `srcpos` is the position of the source
stream.  `fuel` bounds the iterations; every iteration takes at least one byte off `size`. -/
def gm_copy_loop (src : List Nat) : Nat → Nat → Nat → gm_out → Option gm_out
  | 0, _, size, s => if size > 0 then none else some s
  | fuel + 1, srcpos, size, s =>
    if size > 0 then
      match gm_io s with
      | none => none
      | some s1 =>
        match gm_fread src srcpos (if size ≥ BUFSIZ then BUFSIZ else size) with
        | none => none
        | some buf =>
          match gm_fwrite buf s1 with
          | none => none
          | some s2 =>
            gm_copy_loop src fuel (srcpos + (if size ≥ BUFSIZ then BUFSIZ else size))
              (size - (if size ≥ BUFSIZ then BUFSIZ else size)) s2
    else some s

/-- Function `gm_copydata(src, srcoff, tmp, dstoff, size)`. -/
def gm_copydata (src : List Nat) (srcoff : Int) (dstoff : Int) (size : Nat) (s : gm_out) :
    Option gm_out :=
  if srcoff < 0 then none
  else
    match gm_io s with
    | none => none
    | some s1 =>
      match gm_fseeko dstoff s1 with
      | none => none
      | some s2 => gm_copy_loop src size srcoff.toNat size s2

/-- Function `gm_write_patch_data`.  For `GM_SRC_MEM` the `size` bytes at `src.data` are
written (the memory has to hold that many bytes); for `GM_SRC_FILE` the file is opened and its
first `size` bytes are copied to the current position. -/
def gm_write_patch_data (patch : gm_patch) (s : gm_out) : Option gm_out :=
  match patch.patch_src with
  | gm_patch_src.GM_SRC_MEM =>
    if patch.data.length < patch.size then none
    else gm_fwrite (patch.data.take patch.size) s
  | gm_patch_src.GM_SRC_FILE =>
    match gm_io s with
    | none => none
    | some s1 => gm_copydata patch.data 0 (s1.pos : Int) patch.size s1

/-- Function `gm_write_hdr`. -/
def gm_write_hdr (magic : Option (List Nat)) (size : Nat) (s : gm_out) : Option gm_out :=
  match magic with
  | none => none
  | some m =>
    if size > UINT32_MAX then none
    else gm_fwrite (m.take 4 ++ WRITE_U32LE (size : Int)) s

/-- A loop of the writer that performs one step per element and stops at the first failure. -/
def gm_write_each {α : Type} (step : α → gm_out → Option gm_out) :
    List α → gm_out → Option gm_out
  | [], s => some s
  | a :: rest, s =>
    match step a s with
    | none => none
    | some s1 => gm_write_each step rest s1

/-- The payload loop of the TXTR case for one entry. -/
def gm_write_txtr_entry (game : List Nat) (entry : gm_patched_entry) (s : gm_out) :
    Option gm_out :=
  match entry.patch with
  | some patch =>
    match gm_fseeko entry.offset s with
    | none => none
    | some s1 => gm_write_patch_data patch s1
  | none => gm_copydata game entry.entry.offset entry.offset entry.size s

/-- The payload loop of the AUDO case for one entry. -/
def gm_write_audo_entry (game : List Nat) (entry : gm_patched_entry) (s : gm_out) :
    Option gm_out :=
  match entry.patch with
  | some patch =>
    match gm_fseeko (entry.offset - 4) s with
    | none => none
    | some s1 =>
      match gm_fwrite (WRITE_U32LE (patch.size : Int)) s1 with
      | none => none
      | some s2 => gm_write_patch_data patch s2
  | none =>
    gm_copydata game (entry.entry.offset - 4) (entry.offset - 4)
      (size_wrap ((entry.size : Int) + 4)) s

/-- The value `fileinfo_offset + i * 12` of the TXTR case, before `WRITE_U32LE` truncates it:
`fileinfo_offset` is the 32-bit value `(uint32_t)ptr->offset + 12 + 4 * ptr->entry_count`. -/
def gm_fileinfo_offset (ptr : gm_patched_index) (i : Nat) : Int :=
  (u32_wrap ((u32_wrap ptr.offset : Int) + 12 + 4 * (ptr.entries.length : Int)) : Int) +
    (i : Int) * 12

/-- The body of the chunk loop of `gm_patch_archive` after the chunk header was written. -/
def gm_write_section (game : List Nat) (ptr : gm_patched_index) (s : gm_out) : Option gm_out :=
  match ptr.sect with
  | GM_TXTR =>
    match gm_fwrite (WRITE_U32LE (ptr.entries.length : Int)) s with
    | none => none
    | some s1 =>
      match gm_write_each (fun i => gm_fwrite (WRITE_U32LE (gm_fileinfo_offset ptr i)))
          (List.range ptr.entries.length) s1 with
      | none => none
      | some s2 =>
        match gm_write_each
            (fun (entry : gm_patched_entry) =>
              gm_fwrite (WRITE_U32LE (entry.entry.unknown1 : Int) ++
                WRITE_U32LE (entry.entry.unknown2 : Int) ++ WRITE_U32LE entry.offset))
            ptr.entries s2 with
        | none => none
        | some s3 => gm_write_each (gm_write_txtr_entry game) ptr.entries s3
  | GM_AUDO =>
    match gm_fwrite (WRITE_U32LE (ptr.entries.length : Int)) s with
    | none => none
    | some s1 =>
      match gm_write_each
          (fun (entry : gm_patched_entry) => gm_fwrite (WRITE_U32LE (entry.offset - 4)))
          ptr.entries s1 with
      | none => none
      | some s2 => gm_write_each (gm_write_audo_entry game) ptr.entries s2
  | _ => gm_copydata game ptr.index.offset ptr.offset (size_wrap ((ptr.size : Int) + 8)) s

/-- The body of the chunk loop of `gm_patch_archive`. -/
def gm_write_chunk (game : List Nat) (ptr : gm_patched_index) (s : gm_out) : Option gm_out :=
  match gm_fseeko ptr.offset s with
  | none => none
  | some s1 =>
    match gm_write_hdr (gm_section_name ptr.sect) ptr.size s1 with
    | none => none
    | some s2 => gm_write_section game ptr s2

/-- The "write new archive" part of `gm_patch_archive`, from the FORM header to the last
chunk. -/
def gm_write_archive (game : List Nat) (patched : List gm_patched_index) (s : gm_out) :
    Option gm_out :=
  match gm_write_hdr (some (gm_magic 'F' 'O' 'R' 'M')) (gm_form_size patched) s with
  | none => none
  | some s1 => gm_write_each (gm_write_chunk game) patched s1

/-- The two files `gm_patch_archive` touches: the archive `filename` and the temporary file
`filename.tmp`, each with its content, or `none` when the file does not exist. -/
structure gm_fs where
  target : Option (List Nat)
  tmp : Option (List Nat)
  deriving DecidableEq, Repr

/-- The `error:` path of `gm_patch_archive`: both streams are closed, the temporary file is
unlinked and the status is `-1`; the archive file is whatever it is at that point. -/
def gm_archive_error (target : Option (List Nat)) : gm_status × gm_fs :=
  (gm_status.error EIO, { target := target, tmp := none })

/-- The `error:` path of `gm_patch_archive` when it is entered after `fclose(game)` succeeded:
`game` (and, after `fclose(tmp)` succeeded, `tmp`) still holds the closed stream, only a failed
`fclose` sets its variable to `NULL`; so `if (game) fclose(game)` closes a stream a second
time, which is undefined behaviour.  The model reports the failure with the file system as it
is when the undefined call is made: `unlink(tmpname)` is not reached and the temporary file
stays. -/
def gm_archive_closed_twice (target : Option (List Nat)) (tmp : List Nat) :
    gm_status × gm_fs :=
  (gm_status.error EIO, { target := target, tmp := some tmp })

/-- The commit of `gm_patch_archive` after the last chunk was written: `fclose(game)`,
`fclose(tmp)`, `unlink(filename)`, `rename(tmpname, filename)`.  A failed `fclose(game)` sets
`game = NULL` and takes the `error:` path with `tmp` still open; every later failure takes it
with closed streams in `game` or `tmp`. -/
def gm_commit (game : List Nat) (s : gm_out) : gm_status × gm_fs :=
  match gm_io s with
  | none => gm_archive_error (some game)
  | some s1 =>
    match gm_io s1 with
    | none => gm_archive_closed_twice (some game) s.data
    | some s2 =>
      match gm_io s2 with
      | none => gm_archive_closed_twice (some game) s.data
      | some s3 =>
        match gm_io s3 with
        | none => gm_archive_closed_twice none s.data
        | some _ => (gm_status.ok, { target := some s.data, tmp := none })

/-- Function `gm_patch_archive` on the file system `fs`, with the PNG sniffer and the injected
fault as parameters.  The fault counts the I/O calls from `fopen(tmpname, "wb")` on.  The
result is the return status and the file system afterwards.  `errno` is tracked for the
failures of the planning phase; every other failure reports `EIO`.  The planned index is
built from the chunks of the parsed index, the `count` that `gm_index_length` returns for a
terminated array; for the array of `gm_index_capacity` chunks, which has no terminating
element, that call is undefined and the model goes on with the number of chunks. -/
def gm_patch_archive (png : png_sniffer) (fault : Option Nat) (fs : gm_fs)
    (patches : List gm_patch) : gm_status × gm_fs :=
  match fs.target with
  | none => gm_archive_error none
  | some game =>
    match gm_read_index png game with
    | none => gm_archive_error (some game)
    | some index =>
      match gm_apply_patches (gm_build_patched index) patches with
      | (gm_status.error e, _) => (gm_status.error e, { target := some game, tmp := none })
      | (gm_status.ok, patched) =>
        match gm_io { data := [], pos := 0, fault := fault } with
        | none => gm_archive_error (some game)
        | some s0 =>
          match gm_write_archive game patched s0 with
          | none => gm_archive_error (some game)
          | some s1 => gm_commit game s1

/-! ## Properties used to state the theorems -/

/-- An `off_t` value: a signed 64-bit integer. -/
def gm_off_ok (x : Int) : Prop := -9223372036854775808 ≤ x ∧ x < 9223372036854775808

instance (x : Int) : Decidable (gm_off_ok x) := by unfold gm_off_ok; infer_instance

/-- Every offset of the planned index is an `off_t` value and every chunk size is a `size_t`
value. -/
def gm_typed (patched : List gm_patched_index) : Prop :=
  ∀ c ∈ patched, gm_off_ok c.offset ∧ c.size < 18446744073709551616 ∧
    ∀ e ∈ c.entries, gm_off_ok e.offset

instance (patched : List gm_patched_index) : Decidable (gm_typed patched) := by
  unfold gm_typed; infer_instance

/-- The validation of a TXTR/AUDO patch against the chunk `c`: the index is in range, the
entry is not yet patched, the types agree and, for TXTR, the dimensions agree. -/
def gm_patch_valid (c : gm_patched_index) (patch : gm_patch) : Prop :=
  ∃ e, c.entries[patch.index]? = some e ∧ e.patch = none ∧ e.entry.type = patch.type ∧
    (c.sect = GM_TXTR → e.entry.width = patch.width ∧ e.entry.height = patch.height)

/-- The layout of a planned index: chunk offsets, chunk sizes and entry offsets. -/
def gm_layout (patched : List gm_patched_index) : List (Int × Nat × List Int) :=
  patched.map fun c => (c.offset, c.size, c.entries.map fun e => e.offset)

/-- Every TXTR entry that carries a patch carries one with the entry's original width and
height. -/
def gm_dims_inv (patched : List gm_patched_index) : Prop :=
  ∀ d ∈ patched, d.sect = GM_TXTR → ∀ x ∈ d.entries, ∀ p, x.patch = some p →
    p.width = x.entry.width ∧ p.height = x.entry.height

/-- The parsed chunks tile the range from `start` to `stop`: each chunk begins where the one
before it ends, header included, and none ends behind `INT32_MAX`. -/
def gm_tiles : Nat → List gm_index → Nat → Prop
  | start, [], stop => stop ≤ start
  | start, c :: rest, stop =>
    c.offset = (start : Int) ∧ start + c.size + 8 ≤ stop ∧ start + c.size + 8 ≤ INT32_MAX ∧
      gm_tiles (start + c.size + 8) rest stop

/-- The planned chunks are contiguous from `start` on, in `off_t` arithmetic: each chunk
begins at the `off_t` value of the end of the chunk before it. -/
def gm_ptiles : Int → List gm_patched_index → Prop
  | _, [] => True
  | start, c :: rest => c.offset = start ∧ gm_ptiles (off_wrap (start + 8 + c.size)) rest

/-- A sequence of calls `gm_patch_entry(&patched[k], patch)` that all return 0: the planned
index after the last call, or `none` when one of the calls fails. -/
def gm_patch_seq : List gm_patched_index → List (Nat × gm_patch) →
    Option (List gm_patched_index)
  | patched, [] => some patched
  | patched, call :: rest =>
    match gm_patch_at patched call.1 call.2 with
    | (gm_status.ok, patched1) => gm_patch_seq patched1 rest
    | (gm_status.error _, _) => none

/-- The exact sum of `payload_size + 8` over the planned chunks. -/
def gm_size_sum (patched : List gm_patched_index) : Int :=
  (patched.map fun c => (c.size : Int) + 8).sum

/-- The first chunk of the parsed index with the given section. -/
def gm_index_section : List gm_index → gm_section → Option gm_index
  | [], _ => none
  | c :: rest, s => if c.sect = s then some c else gm_index_section rest s

/-- The growth a patch asks for: for a TXTR/AUDO patch whose entry exists, the patch size
minus the original size of the entry; 0 for every other patch. -/
def gm_patch_growth (index : List gm_index) (patch : gm_patch) : Int :=
  match gm_index_section index patch.sect with
  | none => 0
  | some c =>
    if gm_movable c.sect then
      match c.entries[patch.index]? with
      | none => 0
      | some e => (patch.size : Int) - (e.size : Int)
    else 0

/-- The sum of the growths of a patch list. -/
def gm_total_growth (index : List gm_index) (patches : List gm_patch) : Int :=
  (patches.map fun p => gm_patch_growth index p).sum

/-- The planned index mirrors the parsed one: same sections in the same order, and every
planned entry refers to the parsed entry at its position. -/
def gm_mirrors (index : List gm_index) (patched : List gm_patched_index) : Prop :=
  patched.map (fun c => (c.sect, c.index, c.entries.map fun e => e.entry)) =
    index.map fun c => (c.sect, c, c.entries)

/-- Every element of the file is a byte. -/
def gm_bytes_ok (file : List Nat) : Prop := ∀ b ∈ file, b < 256

/-- The entry payloads of a TXTR (`lead = 0`) or AUDO (`lead = 4`, the size prefix) chunk
follow each other in table order from `start` to `stop`: each payload, with its `lead` bytes,
begins at or behind the end of the piece before it, is not empty, and every byte of the file
between two pieces is zero. -/
def gm_entries_packed (game : List Nat) (lead : Nat) : Nat → List gm_entry → Nat → Prop
  | start, [], stop => start = stop
  | start, e :: rest, stop =>
    (lead : Int) ≤ e.offset ∧ start ≤ (e.offset - lead).toNat ∧ 0 < lead + e.size ∧
      (∀ i < (e.offset - lead).toNat, start ≤ i → game[i]? = some 0) ∧
      gm_entries_packed game lead ((e.offset - lead).toNat + lead + e.size) rest stop

/-- A parsed chunk has the layout the writer produces.  TXTR: the count, the table of info
offsets that point to the info descriptors right behind the table, the descriptors in table
order, the payloads in table order up to the end of the chunk.  AUDO: the count, the table,
the blobs in table order up to the end of the chunk.  Other chunks: no condition. -/
def gm_chunk_packed (game : List Nat) (c : gm_index) : Prop :=
  match c.sect with
  | GM_TXTR =>
    (∀ i < c.entries.length,
      U32LE_FROM_BUF game (c.offset.toNat + 12 + 4 * i) =
        c.offset.toNat + 12 + 4 * c.entries.length + 12 * i) ∧
    gm_entries_packed game 0 (c.offset.toNat + 12 + 16 * c.entries.length) c.entries
      (c.offset.toNat + 8 + c.size)
  | GM_AUDO =>
    gm_entries_packed game 4 (c.offset.toNat + 12 + 4 * c.entries.length) c.entries
      (c.offset.toNat + 8 + c.size)
  | _ => True

/-- Every chunk of the parsed index has the layout the writer produces. -/
def gm_packed (game : List Nat) (index : List gm_index) : Prop :=
  ∀ c ∈ index, gm_chunk_packed game c

/-- Every chunk of `l`, and every entry of a TXTR or AUDO chunk of `l` (for AUDO together with
the 4-byte size field before the blob), is planned at or behind the position `stop`. -/
def gm_planned_behind (stop : Nat) (l : List gm_patched_index) : Prop :=
  ∀ d ∈ l, (stop : Int) ≤ d.offset ∧
    (d.sect = GM_TXTR → ∀ e ∈ d.entries, (stop : Int) ≤ e.offset) ∧
    (d.sect = GM_AUDO → ∀ e ∈ d.entries, (stop : Int) ≤ e.offset - 4)

/-- The five components of a patch tuple agree with the stored TPAG. -/
def gm_tpag_agrees (t : gm_tpag) (p : gm_patch_sprt_entry) : Prop :=
  t.x = p.x ∧ t.y = p.y ∧ t.width = p.width ∧ t.height = p.height ∧
    t.txtr_index = p.txtr_index

/-- The sprite `entry` passes the validation of a SPRT patch: every tuple of the patch names a
TPAG index below the sprite's `tpag_count` and agrees with the TPAG stored there. -/
def gm_sprite_agrees (entry : gm_entry) (patch : gm_patch) : Prop :=
  ∀ p ∈ patch.entries, p.tpag_index < entry.tpag.length ∧
    ∀ t, entry.tpag[p.tpag_index]? = some t → gm_tpag_agrees t p

/-- The planned index after a sequence of calls `gm_patch_entry(&patched[k], patch)`, whatever
each of them returns. -/
def gm_patch_run : List gm_patched_index → List (Nat × gm_patch) → List gm_patched_index
  | patched, [] => patched
  | patched, call :: rest => gm_patch_run (gm_patch_at patched call.1 call.2).2 rest

/-- The chunk `d1` has the section of `d`, and every entry of `d` that carries a patch
carries the same patch in `d1`. -/
def gm_keeps_patches (d d1 : gm_patched_index) : Prop :=
  d1.sect = d.sect ∧
    ∀ (i : Nat) (e : gm_patched_entry) (p : gm_patch), d.entries[i]? = some e →
      e.patch = some p → ∃ e1, d1.entries[i]? = some e1 ∧ e1.patch = some p

/-- The first byte of the region of a planned entry: the payload offset, for AUDO the 4-byte
size field before it. -/
def gm_region_start (s : gm_section) (e : gm_patched_entry) : Int :=
  if s = GM_AUDO then e.offset - 4 else e.offset

/-- The end of the region of a planned entry. -/
def gm_region_end (e : gm_patched_entry) : Int := e.offset + (e.size : Int)

/-- Every entry offset of the chunk lies between the chunk offset and the end of the chunk,
both excluded. -/
def gm_entries_inside (c : gm_patched_index) : Prop :=
  ∀ e ∈ c.entries, c.offset < e.offset ∧ e.offset < c.offset + 8 + (c.size : Int)

/-- The regions of two different entries of the chunk do not overlap. -/
def gm_entries_disjoint (c : gm_patched_index) : Prop :=
  ∀ (i j : Nat) (a b : gm_patched_entry), i ≠ j → c.entries[i]? = some a →
    c.entries[j]? = some b →
    gm_region_end a ≤ gm_region_start c.sect b ∨ gm_region_end b ≤ gm_region_start c.sect a

/-- Every region of the chunk lies inside the payload of the chunk, no entry is empty, and an
entry without a patch has the size of the parsed entry. -/
def gm_regions_inside (c : gm_patched_index) : Prop :=
  ∀ e ∈ c.entries, c.offset + 8 ≤ gm_region_start c.sect e ∧
    gm_region_end e ≤ c.offset + 8 + (c.size : Int) ∧ 0 < e.size ∧
    (e.patch = none → e.size = e.entry.size)

/-- The regions of every TXTR and AUDO chunk lie inside the payload and do not overlap. -/
def gm_regions_ok (patched : List gm_patched_index) : Prop :=
  ∀ c ∈ patched, gm_movable c.sect = true → gm_regions_inside c ∧ gm_entries_disjoint c

/-- The file `data` holds `bytes` at position `pos`. -/
def gm_holds (data : List Nat) (pos : Nat) (bytes : List Nat) : Prop :=
  (data.drop pos).take bytes.length = bytes

/-- The regions of the planned entries follow each other in table order from `start` on and
end at or before `stop`: each region (with `lead` bytes before the payload offset) begins at
or behind the end of the region before it. -/
def gm_entries_ordered (lead : Int) : Int → List gm_patched_entry → Int → Prop
  | start, [], stop => start ≤ stop
  | start, e :: rest, stop =>
    start ≤ e.offset - lead ∧ gm_entries_ordered lead (e.offset + (e.size : Int)) rest stop

/-- The bytes the writer puts at the planned offset of a TXTR entry: the replacement bytes
for a patched entry, else the `size` bytes of the input at the parsed offset. -/
def gm_txtr_payload (game : List Nat) (e : gm_patched_entry) : List Nat :=
  match e.patch with
  | some q => q.data.take q.size
  | none => (game.drop e.entry.offset.toNat).take e.size

/-- The bytes the writer puts 4 bytes before the planned offset of an AUDO entry: the size
field and the replacement bytes for a patched entry, else the `size + 4` bytes of the input
from 4 bytes before the parsed offset. -/
def gm_audo_payload (game : List Nat) (e : gm_patched_entry) : List Nat :=
  match e.patch with
  | some q => WRITE_U32LE (q.size : Int) ++ q.data.take q.size
  | none => (game.drop (e.entry.offset - 4).toNat).take (e.size + 4)

/-- Every planned entry has the size of the patch it carries, or the size of the parsed entry
when it carries none. -/
def gm_sizes_inv (patched : List gm_patched_index) : Prop :=
  ∀ c ∈ patched, ∀ e ∈ c.entries,
    (∀ q, e.patch = some q → e.size = q.size) ∧ (e.patch = none → e.size = e.entry.size)

/-- The planned entry is where the parsed entry is and has its size; when it carries a patch,
the patch has that size and its bytes are the bytes the file holds at the entry. -/
def gm_entry_settled (game : List Nat) (pe : gm_patched_entry) : Prop :=
  pe.offset = pe.entry.offset ∧ pe.size = pe.entry.size ∧
    ∀ q, pe.patch = some q → q.size = pe.entry.size ∧ q.size ≤ q.data.length ∧
      q.data.take q.size = (game.drop pe.entry.offset.toNat).take q.size

/-- The plan moves nothing and replaces nothing: every planned chunk has the offset and size
of the parsed chunk and every planned entry is settled. -/
def gm_settled (game : List Nat) (planned : List gm_patched_index) : Prop :=
  ∀ p ∈ planned, p.offset = p.index.offset ∧ p.size = p.index.size ∧
    ∀ pe ∈ p.entries, gm_entry_settled game pe

/-! ## The scan of the chunk headers -/

/-- The stream positions at which the `while (offset < end_offset)` loop of `gm_read_index`
reads a chunk header (`fread(buffer, 8, 1, game)`), in the order of the reads: the loop of
`gm_read_index_loop` with the position of every header read recorded. -/
def gm_scan_offsets (png : png_sniffer) (game : List Nat) (end_offset : Nat) :
    Nat → Nat → Nat → List Nat
  | 0, _, _ => []
  | fuel + 1, offset, count =>
    if offset < end_offset then
      offset ::
        match gm_fread game offset 8 with
        | none => []
        | some buffer =>
          if gm_parse_section buffer = GM_END then []
          else if U32LE_FROM_BUF buffer 4 > INT32_MAX - 8 ∨
              offset > INT32_MAX - 8 - U32LE_FROM_BUF buffer 4 then []
          else if offset + U32LE_FROM_BUF buffer 4 + 8 > end_offset then []
          else if count ≥ gm_index_capacity then []
          else
            match gm_read_section png game (gm_parse_section buffer) (offset + 8) with
            | none => []
            | some _ =>
              gm_scan_offsets png game end_offset fuel
                (offset + (U32LE_FROM_BUF buffer 4 + 8)) (count + 1)
    else []

/-- The positions of the chunk headers that `gm_read_index` reads on `game`. -/
def gm_scan (png : png_sniffer) (game : List Nat) : List Nat :=
  match gm_fread game 0 8 with
  | none => []
  | some buffer =>
    if buffer.take 4 ≠ gm_magic 'F' 'O' 'R' 'M' then []
    else
      gm_scan_offsets png game (U32LE_FROM_BUF buffer 4 + 8) (U32LE_FROM_BUF buffer 4 + 1) 8 0

/-! ## Patch files -/

/-- Function `gm_read_audo_info` on an open patch file with content `data`: the first (up to)
12 bytes are classified and the size is that of the file.  `fault` tells whether `fstat` or the
read reports an error. -/
def gm_read_audo_info (fault : Bool) (data : List Nat) (patch : gm_patch) : Option gm_patch :=
  if fault then none
  else
    some
      { patch with
        type := gm_audo_type (data.take 12) (if data.length < 12 then data.length else 12)
        sect := GM_AUDO
        size := data.length }

/-- The classification of an audio blob of `size` bytes that starts with the bytes `blob`, as
the format description words it: WAVE exactly when the blob has at least 12 bytes, bytes 0..3
are `RIFF` and bytes 8..11 are `WAVE`; otherwise OGG exactly when it has at least 4 bytes and
bytes 0..3 are `OggS`; otherwise UNKNOWN. -/
def gm_audo_classified (blob : List Nat) (size : Nat) (t : gm_filetype) : Prop :=
  (t = GM_WAVE ↔
    size ≥ 12 ∧ blob.take 4 = gm_magic 'R' 'I' 'F' 'F' ∧
      (blob.drop 8).take 4 = gm_magic 'W' 'A' 'V' 'E') ∧
  (t = GM_OGG ↔
    ¬ (size ≥ 12 ∧ blob.take 4 = gm_magic 'R' 'I' 'F' 'F' ∧
      (blob.drop 8).take 4 = gm_magic 'W' 'A' 'V' 'E') ∧
    size ≥ 4 ∧ blob.take 4 = gm_magic 'O' 'g' 'g' 'S') ∧
  (t = GM_UNKNOWN ↔
    ¬ (size ≥ 12 ∧ blob.take 4 = gm_magic 'R' 'I' 'F' 'F' ∧
      (blob.drop 8).take 4 = gm_magic 'W' 'A' 'V' 'E') ∧
    ¬ (size ≥ 4 ∧ blob.take 4 = gm_magic 'O' 'g' 'g' 'S'))

/-! ## Sprite records -/

/-- The five fields that `gm_read_index_sprt` takes from the 22-byte TPAG record stored at
offset `t`: the 16-bit values at `t`, `t + 2`, `t + 4`, `t + 6` and `t + 20`. -/
def gm_tpag_at (game : List Nat) (t : Nat) : gm_tpag :=
  { x := U16LE_FROM_BUF game t
    y := U16LE_FROM_BUF game (t + 2)
    width := U16LE_FROM_BUF game (t + 4)
    height := U16LE_FROM_BUF game (t + 6)
    txtr_index := U16LE_FROM_BUF game (t + 20) }

/-- The position at which `gm_read_index_sprt` reads the length of the name of the sprite
record at `r`: `str_offset - 4` in `uint32_t`, with `str_offset` the 32-bit value at `r`. -/
def gm_sprt_name_pos (game : List Nat) (r : Nat) : Nat :=
  u32_wrap ((U32LE_FROM_BUF game r : Int) - 4)

/-! ## Dumping -/

/-- Function `gm_extension`. -/
def gm_extension (type : gm_filetype) : String :=
  match type with
  | GM_PNG => ".png"
  | GM_WAVE => ".wav"
  | GM_OGG => ".ogg"
  | _ => ".bin"

/-- Function `gm_join_path` with the separator of POSIX systems. -/
def gm_join_path (comps : List String) : String := String.intercalate "/" comps

/-- The text that `snprintf` produces for the format `"%04" PRIuPTR "%s"`: the decimal digits
of `i`, filled up with `0` on the left to a width of 4, then `ext`. -/
def gm_dump_name (i : Nat) (ext : String) : String :=
  String.mk (List.replicate (4 - (Nat.toDigits 10 i).length) '0' ++ Nat.toDigits 10 i) ++ ext

/-- The size of the buffer `filename` of `gm_dump_files`, `GM_LEN(SIZE_MAX) + 4`: with glibc on
a 64-bit system `SIZE_MAX` is spelled `(18446744073709551615UL)`, 24 characters and the
terminating NUL. -/
def gm_filename_size : Nat := 29

/-- The `switch (index->section)` of `gm_dump_files`: the directory of the chunk, `none` for
the `continue` of the `default` case. -/
def gm_dump_dir (s : gm_section) : Option String :=
  match s with
  | GM_TXTR => some "txtr"
  | GM_AUDO => some "audo"
  | _ => none

/-- The body of the entry loop of `gm_dump_files` for entry `i` of a chunk that is dumped into
`subdir`: the file that was written (path and content) and what is left of the fault budget.
`fopen` and `fclose` are calls that can fail for reasons outside the program. -/
def gm_dump_entry (game : List Nat) (subdir : String) (i : Nat) (entry : gm_entry)
    (fault : Option Nat) : Option ((String × List Nat) × Option Nat) :=
  if (gm_dump_name i (gm_extension entry.type)).length ≥ gm_filename_size then none
  else
    match gm_io { data := [], pos := 0, fault := fault } with
    | none => none
    | some s1 =>
      match gm_copydata game entry.offset 0 entry.size s1 with
      | none => none
      | some s2 =>
        match gm_io s2 with
        | none => none
        | some s3 =>
          some ((gm_join_path [subdir, gm_dump_name i (gm_extension entry.type)], s3.data),
            s3.fault)

/-- The entry loop of `gm_dump_files` from entry `i` on. -/
def gm_dump_entries (game : List Nat) (subdir : String) :
    Nat → List gm_entry → Option Nat → Option (List (String × List Nat) × Option Nat)
  | _, [], fault => some ([], fault)
  | i, entry :: rest, fault =>
    match gm_dump_entry game subdir i entry fault with
    | none => none
    | some (file, fault1) =>
      match gm_dump_entries game subdir (i + 1) rest fault1 with
      | none => none
      | some (files, fault2) => some (file :: files, fault2)

/-- Function `gm_dump_files`: the files written, in the order of the writes, each with its
path and its content, or `none` for the return value -1.  `gm_mkpath` is a call that can fail
for reasons outside the program. -/
def gm_dump_files (game : List Nat) (outdir : String) :
    List gm_index → Option Nat → Option (List (String × List Nat))
  | [], _ => some []
  | c :: rest, fault =>
    match gm_dump_dir c.sect with
    | none => gm_dump_files game outdir rest fault
    | some dir =>
      match gm_io { data := [], pos := 0, fault := fault } with
      | none => none
      | some s1 =>
        match gm_dump_entries game (gm_join_path [outdir, dir]) 0 c.entries s1.fault with
        | none => none
        | some (files, fault1) =>
          match gm_dump_files game outdir rest fault1 with
          | none => none
          | some more => some (files ++ more)

/-- The file name of entry `i` of type `t` in the words of the description: the decimal
representation of `i`, left-padded with `0` to at least 4 characters, followed by `.png` for
PNG, `.wav` for WAVE, `.ogg` for OGG and `.bin` for every other type. -/
def gm_listing_name (i : Nat) (t : gm_filetype) : String :=
  String.mk (List.replicate (4 - (Nat.repr i).length) '0') ++ Nat.repr i ++
    (if t = GM_PNG then ".png" else if t = GM_WAVE then ".wav"
     else if t = GM_OGG then ".ogg" else ".bin")

/-- The files of the entries of one chunk, from entry `i` on, in the words of the description:
the name of the entry under `subdir`, with the `entry.size` bytes of the archive that start at
`entry.offset`. -/
def gm_listing_entries (game : List Nat) (subdir : String) :
    Nat → List gm_entry → List (String × List Nat)
  | _, [] => []
  | i, e :: rest =>
    (subdir ++ "/" ++ gm_listing_name i e.type, (game.drop e.offset.toNat).take e.size) ::
      gm_listing_entries game subdir (i + 1) rest

/-- The files of a dump in the words of the description: files for TXTR chunks under
`<outdir>/txtr`, for AUDO chunks under `<outdir>/audo`, and for no other chunk. -/
def gm_dump_listing (game : List Nat) (outdir : String) :
    List gm_index → List (String × List Nat)
  | [] => []
  | c :: rest =>
    (if c.sect = GM_TXTR then gm_listing_entries game (outdir ++ "/" ++ "txtr") 0 c.entries
     else if c.sect = GM_AUDO then gm_listing_entries game (outdir ++ "/" ++ "audo") 0 c.entries
     else []) ++ gm_dump_listing game outdir rest

/-- The entries of the TXTR and AUDO chunks lie inside the file. -/
def gm_dumpable (game : List Nat) (index : List gm_index) : Prop :=
  ∀ c ∈ index, c.sect = GM_TXTR ∨ c.sect = GM_AUDO →
    c.entries.length ≤ 18446744073709551615 ∧
    ∀ e ∈ c.entries, 0 ≤ e.offset ∧ e.offset + (e.size : Int) ≤ (game.length : Int)

/-! ## Valid chunk sequences -/

/-- The chunks `l` are what the file holds from `offset` up to `end_offset`: at `offset`
stands a header with a known tag and a payload size within the bounds that `gm_read_index`
demands, the section reader accepts the payload and yields the entries, the descriptor carries
the tag, the header offset and the payload size, and the next chunk starts behind the
payload; behind the last chunk `end_offset` is reached. -/
def gm_chunks_at (png : png_sniffer) (game : List Nat) (end_offset : Nat) :
    Nat → List gm_index → Bool
  | offset, [] => decide (end_offset ≤ offset)
  | offset, c :: rest =>
    match gm_fread game offset 8 with
    | none => false
    | some buffer =>
      decide (offset < end_offset ∧ gm_parse_section buffer ≠ GM_END ∧
        c.sect = gm_parse_section buffer ∧ c.offset = (offset : Int) ∧
        c.size = U32LE_FROM_BUF buffer 4 ∧ c.size ≤ INT32_MAX - 8 ∧
        offset ≤ INT32_MAX - 8 - c.size ∧ offset + c.size + 8 ≤ end_offset ∧
        gm_read_section png game c.sect (offset + 8) = some c.entries) &&
      gm_chunks_at png game end_offset (offset + (c.size + 8)) rest

/-! ## Patches from a directory -/

/-- The C library's `isspace` in the "C" locale: the space and the characters 9 to 13. -/
def gm_isspace (c : Char) : Bool :=
  decide (c.toNat = 32 ∨ (9 ≤ c.toNat ∧ c.toNat ≤ 13))

/-- The value of a run of decimal digits. -/
def gm_digits_value (ds : List Char) : Nat :=
  ds.foldl (fun acc d => 10 * acc + (d.toNat - 48)) 0

def LONG_MAX : Int := 9223372036854775807
def LONG_MIN : Int := -9223372036854775808

/-- The part of a string behind an optional sign. -/
def gm_strip_sign (body : List Char) : List Char :=
  match body with
  | '-' :: r => r
  | '+' :: r => r
  | _ => body

/-- The C library's `strtol(s, &endptr, 10)`: white space is skipped, an optional sign is
read, then the longest run of decimal digits.  The result is the value, clamped to the range
of `long`, and the rest of the string behind the digits (`endptr`); without a digit it is 0 and
the whole string. -/
def gm_strtol (s : List Char) : Int × List Char :=
  if (gm_strip_sign (s.dropWhile gm_isspace)).takeWhile Char.isDigit = [] then (0, s)
  else
    let v : Int :=
      if (s.dropWhile gm_isspace).head? = some '-' then
        - (gm_digits_value ((gm_strip_sign (s.dropWhile gm_isspace)).takeWhile Char.isDigit) : Int)
      else gm_digits_value ((gm_strip_sign (s.dropWhile gm_isspace)).takeWhile Char.isDigit)
    (if v > LONG_MAX then LONG_MAX else if v < LONG_MIN then LONG_MIN else v,
      (gm_strip_sign (s.dropWhile gm_isspace)).dropWhile Char.isDigit)

/-- The C library's `strcasecmp(a, b) == 0` in the "C" locale. -/
def gm_strcasecmp_eq (a b : List Char) : Bool :=
  a.map Char.toLower = b.map Char.toLower

/-- The test of `gm_patch_scan_dir` on the name of a directory entry: the index of the patch,
or `none` when the file is ignored.  `endptr == entry->d_name` holds when `endptr` has not
moved, that is when the rest is as long as the name. -/
def gm_scan_name (d_name : String) (exts : List String) : Option Nat :=
  if ¬ (exts.any fun ext => gm_strcasecmp_eq (gm_strtol d_name.data).2 ext.data) ∨
      (gm_strtol d_name.data).2.length = d_name.data.length ∨
      (gm_strtol d_name.data).1 < 0 ∨ (gm_strtol d_name.data).1 > (UINT32_MAX : Int) then none
  else some (gm_strtol d_name.data).1.toNat

/-- An element of the zeroed patch buffer of `gm_patch_archive_from_dir`. -/
def gm_patch_zero : gm_patch :=
  { sect := GM_END, index := 0, type := GM_UNKNOWN, patch_src := gm_patch_src.GM_SRC_MEM,
    size := 0, data := [], width := 0, height := 0, name := [], entries := [] }

/-- Function `gm_read_txtr_info` on an open patch file with content `data`. -/
def gm_read_txtr_info (png : png_sniffer) (data : List Nat) (patch : gm_patch) :
    Option gm_patch :=
  match png data 0 with
  | none => none
  | some info =>
    some
      { patch with
        sect := GM_TXTR
        type := GM_PNG
        size := info.filesize
        width := info.width
        height := info.height }

/-- The `for (;;)` loop of `gm_patch_scan_dir` over the entries that `readdir` yields, each
with its name and the content of the file.  Failures of the calls into the system (`readdir`,
`fopen`, `realloc`) are not modelled. -/
def gm_scan_entries (exts : List String) (read_info : List Nat → gm_patch → Option gm_patch) :
    List gm_patch → List (String × List Nat) → Option (List gm_patch)
  | pbuf, [] => some pbuf
  | pbuf, (d_name, data) :: rest =>
    match gm_scan_name d_name exts with
    | none => gm_scan_entries exts read_info pbuf rest
    | some index =>
      match read_info data
          { gm_patch_zero with
            index := index, patch_src := gm_patch_src.GM_SRC_FILE, data := data } with
      | none => none
      | some patch => gm_scan_entries exts read_info (pbuf ++ [patch]) rest

/-- Function `gm_patch_scan_dir`: `dir` is the listing of the subdirectory, `none` when it
does not exist (`ENOENT`); the result is the patch buffer, `none` for the return value -1. -/
def gm_patch_scan_dir (pbuf : List gm_patch) (dir : Option (List (String × List Nat)))
    (exts : List String) (read_info : List Nat → gm_patch → Option gm_patch) :
    Option (List gm_patch) :=
  match dir with
  | none => some pbuf
  | some entries => gm_scan_entries exts read_info pbuf entries

/-- The extensions that `gm_patch_archive_from_dir` passes for the directory `txtr`. -/
def gm_txtr_exts : List String := [".png", ".dat"]

/-- The extensions that `gm_patch_archive_from_dir` passes for the directory `audo`. -/
def gm_audo_exts : List String := [".wav", ".ogg", ".dat"]

/-- The patch list that `gm_patch_archive_from_dir` builds from the two subdirectories. -/
def gm_dir_patches (png : png_sniffer) (txtr audo : Option (List (String × List Nat))) :
    Option (List gm_patch) :=
  match gm_patch_scan_dir [] txtr gm_txtr_exts (gm_read_txtr_info png) with
  | none => none
  | some pbuf => gm_patch_scan_dir pbuf audo gm_audo_exts (gm_read_audo_info false)

/-- The names that `gm_patch_scan_dir` accepts with index `i`: white space, an optional sign,
a non-empty run of decimal digits with value `i ≤ UINT32_MAX` (behind a minus sign only the
value 0), and a rest that equals one of the extensions up to the case of the letters. -/
def gm_accepted_name (name : List Char) (exts : List String) (i : Nat) : Prop :=
  ∃ ws sg ds e : List Char, name = ws ++ sg ++ ds ++ e ∧
    (∀ c ∈ ws, gm_isspace c = true) ∧ (sg = [] ∨ sg = ['+'] ∨ sg = ['-']) ∧
    ds ≠ [] ∧ (∀ c ∈ ds, c.isDigit = true) ∧ gm_digits_value ds = i ∧ i ≤ UINT32_MAX ∧
    (sg = ['-'] → i = 0) ∧
    ∃ ext ∈ exts, e.map Char.toLower = ext.data.map Char.toLower

/-! ## Properties used to state the order of patches -/

/-- The planned index is ready for patches in either order: in every TXTR and AUDO chunk the
regions of different entries do not overlap, no entry is empty, an entry without a patch has
the size of the parsed entry, and the offsets and sizes are below `2^61`, so that no sum of an
offset and two size differences leaves the range of `off_t`. -/
def gm_order_ready (patched : List gm_patched_index) : Prop :=
  ∀ c ∈ patched, gm_movable c.sect = true →
    gm_entries_disjoint c ∧
    ∀ e ∈ c.entries, 0 < e.size ∧ (e.patch = none → e.size = e.entry.size) ∧
      0 ≤ e.offset ∧ e.offset < 2305843009213693952 ∧ e.size < 2305843009213693952 ∧
      e.entry.size < 2305843009213693952

/-- The planned index after a successful TXTR/AUDO patch of the entry `e` of the chunk `c` at
position `k`: the chunks before `k`, the patched chunk, and the later chunks moved. -/
def gm_patched_at (patched : List gm_patched_index) (k : Nat) (c : gm_patched_index)
    (p : gm_patch) (e : gm_patched_entry) : List gm_patched_index :=
  patched.take k ++ gm_patched_chunk c p e ::
    (patched.drop (k + 1)).map fun x => gm_shift_chunk x (gm_delta p e)
/-! ## The bytes the writer puts out when nothing is patched -/

/-- The positions of the file that the chunk loop of `gm_patch_archive` writes for the parsed
chunk `c` when nothing is patched.  TXTR: the chunk header, the count, the two tables, and the
payload of every image.  AUDO: the chunk header, the count, the offset table, and for every
blob its size field and its payload.  Any other chunk: the header and the `size` bytes behind
it. -/
def gm_chunk_covers (c : gm_index) (i : Nat) : Prop :=
  match c.sect with
  | GM_TXTR =>
    (c.offset ≤ (i : Int) ∧ (i : Int) < c.offset + 12 + 16 * (c.entries.length : Int)) ∨
      ∃ e ∈ c.entries, e.offset ≤ (i : Int) ∧ (i : Int) < e.offset + (e.size : Int)
  | GM_AUDO =>
    (c.offset ≤ (i : Int) ∧ (i : Int) < c.offset + 12 + 4 * (c.entries.length : Int)) ∨
      ∃ e ∈ c.entries, e.offset - 4 ≤ (i : Int) ∧ (i : Int) < e.offset + (e.size : Int)
  | _ => c.offset ≤ (i : Int) ∧ (i : Int) < c.offset + 8 + (c.size : Int)

/-- The positions of the file that `gm_patch_archive` writes when nothing is patched: the
FORM header and what the chunk loop writes for each chunk. -/
def gm_covers (index : List gm_index) (i : Nat) : Prop :=
  i < 8 ∨ ∃ c ∈ index, gm_chunk_covers c i

/-- The file holds every byte the writer copies for the chunk `c`: the payload of every image
that is not empty, every blob, every other chunk up to its end.  (The headers and tables of a
TXTR or AUDO chunk are in the file when the chunk was parsed.) -/
def gm_chunk_fits (game : List Nat) (c : gm_index) : Prop :=
  match c.sect with
  | GM_TXTR => ∀ e ∈ c.entries, 0 < e.size → e.offset + (e.size : Int) ≤ (game.length : Int)
  | GM_AUDO => ∀ e ∈ c.entries, e.offset + (e.size : Int) ≤ (game.length : Int)
  | _ => c.offset + 8 + (c.size : Int) ≤ (game.length : Int)

/-- The info-offset table of a TXTR chunk is the one the writer produces: entry `i` of the
table points to the descriptor `i` right behind the table. -/
def gm_chunk_canonical (game : List Nat) (c : gm_index) : Prop :=
  c.sect = GM_TXTR → ∀ i < c.entries.length,
    U32LE_FROM_BUF game (c.offset.toNat + 12 + 4 * i) =
      c.offset.toNat + 12 + 4 * c.entries.length + 12 * i

/-- Byte `i` of the output `d` is there and is byte `i` of `game`. -/
def gm_agree (game d : List Nat) (i : Nat) : Prop :=
  i < d.length ∧ d[i]? = game[i]?

/-- The output `d` is no longer than `game`, and each of its bytes is the byte of `game` at
that position or zero. -/
def gm_sound (game d : List Nat) : Prop :=
  ∀ i, i < d.length → i < game.length ∧ (d[i]? = game[i]? ∨ d[i]? = some 0)

/-- The step from the output `d` to the output `d1` keeps every byte that agrees with `game`
and keeps the output sound. -/
def gm_ext (game d d1 : List Nat) : Prop :=
  (∀ i, gm_agree game d i → gm_agree game d1 i) ∧ (gm_sound game d → gm_sound game d1)

/-! ## The archive that a run has written, read once more -/

/-- The parsed entry that a planned entry stands for in the written archive: the parsed entry
of the input at the planned offset and with the planned size. -/
def gm_reindex_entry (e : gm_patched_entry) : gm_entry :=
  { e.entry with offset := e.offset, size := e.size }

/-- The parsed chunk that a planned chunk stands for in the written archive. -/
def gm_reindex_chunk (p : gm_patched_index) : gm_index :=
  { sect := p.sect, offset := p.offset, size := p.size,
    entries := p.entries.map gm_reindex_entry }

/-- The parsed index that a planned index stands for in the written archive. -/
def gm_reindex (planned : List gm_patched_index) : List gm_index :=
  planned.map gm_reindex_chunk

/-- The planned entry with the parsed entry of the written archive in the place of the parsed
entry of the input. -/
def gm_frozen_entry (e : gm_patched_entry) : gm_patched_entry :=
  { e with entry := gm_reindex_entry e }

/-- The planned chunk with the parsed chunk and entries of the written archive in the place of
those of the input. -/
def gm_frozen_chunk (p : gm_patched_index) : gm_patched_index :=
  { p with entries := p.entries.map gm_frozen_entry, index := gm_reindex_chunk p }

/-- The planned index over the written archive: the same layout and the same patches. -/
def gm_frozen (planned : List gm_patched_index) : List gm_patched_index :=
  planned.map gm_frozen_chunk

/-- The patch that entry `i` of chunk `k` of a planned index carries. -/
def gm_marks (st : List gm_patched_index) (k i : Nat) : Option gm_patch :=
  ((st[k]?).bind fun c => c.entries[i]?).bind fun e => e.patch

/-- The planned index over the written archive with the patches `M` in the place of those of
`fin`. -/
def gm_overlay (fin : List gm_patched_index) (M : Nat → Nat → Option gm_patch) :
    List gm_patched_index :=
  fin.mapIdx fun k pf =>
    { gm_frozen_chunk pf with
      entries := pf.entries.mapIdx fun i ef => { gm_frozen_entry ef with patch := M k i } }

/-- The written archive `out` holds, where the plan puts them, the bytes that the writer
copies from the input `game` for the planned chunk `p`: the payload of every unpatched image,
the size field and payload of every unpatched blob, and every other chunk as a whole. -/
def gm_chunk_copied (game out : List Nat) (p : gm_patched_index) : Prop :=
  match p.sect with
  | GM_TXTR => ∀ e ∈ p.entries, e.patch = none →
      (out.drop e.offset.toNat).take e.size = (game.drop e.entry.offset.toNat).take e.size
  | GM_AUDO => ∀ e ∈ p.entries, e.patch = none →
      (out.drop (e.offset - 4).toNat).take (e.size + 4) =
        (game.drop (e.entry.offset - 4).toNat).take (e.size + 4)
  | _ => (out.drop p.offset.toNat).take (p.size + 8) =
      (game.drop p.index.offset.toNat).take (p.size + 8)

/-- The planned chunks follow each other from `start` on in exact arithmetic: each chunk
begins where the chunk before it ends. -/
def gm_xtiles : Int → List gm_patched_index → Prop
  | _, [] => True
  | start, p :: rest => p.offset = start ∧ gm_xtiles (start + 8 + (p.size : Int)) rest

/-- The entry regions of a planned TXTR or AUDO chunk follow each other in table order, from
the end of the tables to the end of the chunk, without overlap. -/
def gm_chunk_orderly (p : gm_patched_index) : Prop :=
  match p.sect with
  | GM_TXTR =>
    gm_entries_ordered ((0 : Nat) : Int) (p.offset + 12 + 16 * (p.entries.length : Int))
      p.entries (p.offset + 8 + (p.size : Int))
  | GM_AUDO =>
    gm_entries_ordered ((4 : Nat) : Int) (p.offset + 12 + 4 * (p.entries.length : Int))
      p.entries (p.offset + 8 + (p.size : Int))
  | _ => True

/-- The answer of the PNG sniffer depends only on the bytes of the image: an image all of
whose bytes are in its file is recognised, with the same size and dimensions, wherever the
same bytes stand. -/
def gm_png_local (png : png_sniffer) : Prop :=
  ∀ (g g1 : List Nat) (p p1 : Nat) (info : png_info), png g p = some info →
    ((g.drop p).take info.filesize).length = info.filesize →
    (g1.drop p1).take info.filesize = (g.drop p).take info.filesize → png g1 p1 = some info

/-- The replacement bytes of a patch are what the patch declares: there are `size` of them;
for a TXTR patch the PNG sniffer finds in them an image of `size` bytes with the declared
width and height; for an AUDO patch they are not empty and classify as the declared type. -/
def gm_patch_declared (png : png_sniffer) (q : gm_patch) : Prop :=
  q.size ≤ q.data.length ∧
  (q.sect = GM_TXTR → ∀ (g : List Nat) (p : Nat),
    (g.drop p).take q.size = q.data.take q.size →
    png g p = some { filesize := q.size, width := q.width, height := q.height }) ∧
  (q.sect = GM_AUDO → 0 < q.size ∧
    gm_audo_type (q.data.take (if q.size < 12 then q.size else 12))
      (if q.size < 12 then q.size else 12) = q.type)

/-- The sprite reader finds in every file that holds the chunks of `game` other than TXTR and
AUDO at their offsets what it finds in `game`: the sprite records, and the TPAG records and
names they point to, lie in those chunks. -/
def gm_sprites_outside (game : List Nat) (index : List gm_index) : Prop :=
  ∀ c ∈ index, c.sect = GM_SPRT → ∀ out : List Nat,
    (∀ d ∈ index, d.sect ≠ GM_TXTR → d.sect ≠ GM_AUDO → ∀ i : Nat, d.offset ≤ (i : Int) →
      (i : Int) < d.offset + 8 + (d.size : Int) → out[i]? = game[i]?) →
    gm_read_index_sprt out (c.offset.toNat + 8) =
      gm_read_index_sprt game (c.offset.toNat + 8)

/-- Every patch that a planned entry carries is one of `patches`, names the section of the
chunk, and has the type of the parsed entry and, for TXTR, its width and height. -/
def gm_marks_ok (index : List gm_index) (patches : List gm_patch)
    (st : List gm_patched_index) : Prop :=
  ∀ (k i : Nat) (q : gm_patch), gm_marks st k i = some q →
    q ∈ patches ∧ ∃ c e0, index[k]? = some c ∧ c.sect = q.sect ∧ gm_movable c.sect = true ∧
      c.entries[i]? = some e0 ∧ e0.type = q.type ∧
      (c.sect = GM_TXTR → e0.width = q.width ∧ e0.height = q.height)

/-! ## Concrete planned indexes used as examples -/

/-- A parsed TXTR entry: a 64×64 PNG of 1234 bytes at offset 36. -/
def ex_png : gm_entry :=
  { offset := 36, size := 1234, type := GM_PNG, unknown1 := 0, unknown2 := 0,
    width := 64, height := 64, name := [], tpag := [] }

/-- The planned entry of `ex_png` before any patch. -/
def ex_png_planned : gm_patched_entry :=
  { offset := 36, size := 1234, patch := none, entry := ex_png }

/-- A TXTR chunk at offset 8 that holds `ex_png` only. -/
def ex_txtr : gm_patched_index :=
  { sect := GM_TXTR, offset := 8, size := 1254, entries := [ex_png_planned],
    index := { sect := GM_TXTR, offset := 8, size := 1254, entries := [ex_png] } }

/-- An opaque STRG chunk that follows `ex_txtr`. -/
def ex_strg : gm_patched_index :=
  { sect := GM_STRG, offset := 1270, size := 4, entries := [],
    index := { sect := GM_STRG, offset := 1270, size := 4, entries := [] } }

/-- A parsed AUDO entry: a blob of 40 bytes whose size prefix is at offset 1290. -/
def ex_wave : gm_entry :=
  { offset := 1294, size := 40, type := GM_WAVE, unknown1 := 0, unknown2 := 0,
    width := 0, height := 0, name := [], tpag := [] }

/-- An AUDO chunk that follows `ex_txtr`. -/
def ex_audo : gm_patched_index :=
  { sect := GM_AUDO, offset := 1270, size := 56,
    entries := [{ offset := 1294, size := 40, patch := none, entry := ex_wave }],
    index := { sect := GM_AUDO, offset := 1270, size := 56, entries := [ex_wave] } }

/-- A replacement for `ex_png` with the same dimensions and the same size. -/
def ex_patch_same : gm_patch :=
  { sect := GM_TXTR, index := 0, type := GM_PNG, patch_src := gm_patch_src.GM_SRC_MEM,
    size := 1234, data := List.replicate 1234 1, width := 64, height := 64, name := [],
    entries := [] }

/-- A replacement for `ex_png` with the same dimensions and 1500 bytes. -/
def ex_patch_larger : gm_patch :=
  { sect := GM_TXTR, index := 0, type := GM_PNG, patch_src := gm_patch_src.GM_SRC_MEM,
    size := 1500, data := List.replicate 1500 1, width := 64, height := 64, name := [],
    entries := [] }

/-- A replacement for `ex_png` with other dimensions. -/
def ex_patch_dims : gm_patch :=
  { sect := GM_TXTR, index := 0, type := GM_PNG, patch_src := gm_patch_src.GM_SRC_MEM,
    size := 1234, data := List.replicate 1234 1, width := 64, height := 32, name := [],
    entries := [] }

/-! ## Concrete archives used as examples -/

/-- A stand-in for the PNG sniffer in the examples: the "image" at `pos` stores its size, its
width and its height in its first three bytes. -/
def ex_sniffer : png_sniffer := fun game pos =>
  match game.drop pos with
  | size :: width :: height :: _ =>
    some { filesize := size, width := width, height := height }
  | _ => none

/-- An archive with a TXTR chunk (one 64×64 image of 4 bytes at offset 36), a STRG chunk and
an empty AUDO chunk, in this order. -/
def ex_archive_txtr_strg_audo : List Nat :=
  [70, 79, 82, 77, 56, 0, 0, 0,
   84, 88, 84, 82, 24, 0, 0, 0,
   1, 0, 0, 0, 24, 0, 0, 0,
   0, 0, 0, 0, 0, 0, 0, 0, 36, 0, 0, 0,
   4, 64, 64, 9,
   83, 84, 82, 71, 4, 0, 0, 0, 1, 2, 3, 4,
   65, 85, 68, 79, 4, 0, 0, 0, 0, 0, 0, 0]

/-- The parsed entry of the image of `ex_archive_txtr_strg_audo`. -/
def ex_image : gm_entry :=
  { offset := 36, size := 4, type := GM_PNG, unknown1 := 0, unknown2 := 0,
    width := 64, height := 64, name := [], tpag := [] }

/-- The parsed index of `ex_archive_txtr_strg_audo`. -/
def ex_index_txtr_strg_audo : List gm_index :=
  [{ sect := GM_TXTR, offset := 8, size := 24, entries := [ex_image] },
   { sect := GM_STRG, offset := 40, size := 4, entries := [] },
   { sect := GM_AUDO, offset := 52, size := 4, entries := [] }]

/-- A replacement of 5 bytes for the image of `ex_archive_txtr_strg_audo`. -/
def ex_patch_image : gm_patch :=
  { sect := GM_TXTR, index := 0, type := GM_PNG, patch_src := gm_patch_src.GM_SRC_MEM,
    size := 5, data := [5, 64, 64, 1, 2], width := 64, height := 64, name := [],
    entries := [] }

/-- The planned TXTR chunk of `ex_archive_txtr_strg_audo` before any patch. -/
def ex_planned_txtr : gm_patched_index :=
  { sect := GM_TXTR, offset := 8, size := 24,
    entries := [{ offset := 36, size := 4, patch := none, entry := ex_image }],
    index := { sect := GM_TXTR, offset := 8, size := 24, entries := [ex_image] } }

/-- The planned STRG chunk of `ex_archive_txtr_strg_audo`. -/
def ex_planned_strg : gm_patched_index :=
  { sect := GM_STRG, offset := 40, size := 4, entries := [],
    index := { sect := GM_STRG, offset := 40, size := 4, entries := [] } }

/-- The smallest archive: a FORM header with payload size 0 and no chunk. -/
def ex_archive_empty : List Nat := [70, 79, 82, 77, 0, 0, 0, 0]

/-- An archive with a STRG chunk, a TXTR chunk (one 64×64 image of 4 bytes at offset 48) and
an AUDO chunk (one Ogg blob of 4 bytes whose size prefix is at offset 68), in this order. -/
def ex_archive : List Nat :=
  [70, 79, 82, 77, 68, 0, 0, 0,
   83, 84, 82, 71, 4, 0, 0, 0, 1, 2, 3, 4,
   84, 88, 84, 82, 24, 0, 0, 0,
   1, 0, 0, 0, 36, 0, 0, 0,
   0, 0, 0, 0, 0, 0, 0, 0, 48, 0, 0, 0,
   4, 64, 64, 9,
   65, 85, 68, 79, 16, 0, 0, 0,
   1, 0, 0, 0, 68, 0, 0, 0,
   4, 0, 0, 0, 79, 103, 103, 83]

/-- The parsed image entry of `ex_archive`. -/
def ex_archive_image : gm_entry :=
  { offset := 48, size := 4, type := GM_PNG, unknown1 := 0, unknown2 := 0,
    width := 64, height := 64, name := [], tpag := [] }

/-- The parsed audio entry of `ex_archive`. -/
def ex_archive_ogg : gm_entry :=
  { offset := 72, size := 4, type := GM_OGG, unknown1 := 0, unknown2 := 0,
    width := 0, height := 0, name := [], tpag := [] }

/-- The parsed index of `ex_archive`. -/
def ex_archive_index : List gm_index :=
  [{ sect := GM_STRG, offset := 8, size := 4, entries := [] },
   { sect := GM_TXTR, offset := 20, size := 24, entries := [ex_archive_image] },
   { sect := GM_AUDO, offset := 52, size := 16, entries := [ex_archive_ogg] }]

/-- The file system that holds `ex_archive` and no temporary file. -/
def ex_fs : gm_fs := { target := some ex_archive, tmp := none }

/-- An archive with one AUDO chunk whose only blob (1 byte, at offset 25) is separated from
the offset table by one byte of value 255, at offset 24. -/
def ex_archive_gap : List Nat :=
  [70, 79, 82, 77, 22, 0, 0, 0,
   65, 85, 68, 79, 14, 0, 0, 0,
   1, 0, 0, 0, 25, 0, 0, 0,
   255,
   1, 0, 0, 0, 7]

/-- The bytes of `ex_archive_gap` with the byte at offset 24 replaced by 0. -/
def ex_archive_gap_zeroed : List Nat :=
  [70, 79, 82, 77, 22, 0, 0, 0,
   65, 85, 68, 79, 14, 0, 0, 0,
   1, 0, 0, 0, 25, 0, 0, 0,
   0,
   1, 0, 0, 0, 7]

/-- An archive whose AUDO chunk lists one blob that lies inside the payload of the STRG chunk
before it: the table entry is 16, the size field at 16 is 1, the blob is the byte 170 at
offset 20. -/
def ex_archive_alias : List Nat :=
  [70, 79, 82, 77, 32, 0, 0, 0,
   83, 84, 82, 71, 8, 0, 0, 0,
   1, 0, 0, 0, 170, 0, 0, 0,
   65, 85, 68, 79, 8, 0, 0, 0,
   1, 0, 0, 0, 16, 0, 0, 0]

/-- The parsed STRG chunk of `ex_archive_alias`. -/
def ex_alias_strg : gm_index := { sect := GM_STRG, offset := 8, size := 8, entries := [] }

/-- A replacement of the same size for the blob of `ex_archive_alias`. -/
def ex_patch_alias : gm_patch :=
  { sect := GM_AUDO, index := 0, type := GM_UNKNOWN, patch_src := gm_patch_src.GM_SRC_MEM,
    size := 1, data := [187], width := 0, height := 0, name := [], entries := [] }

/-- The bytes of `ex_archive_alias` with the byte at offset 20 replaced by 187. -/
def ex_archive_alias_patched : List Nat :=
  [70, 79, 82, 77, 32, 0, 0, 0,
   83, 84, 82, 71, 8, 0, 0, 0,
   1, 0, 0, 0, 187, 0, 0, 0,
   65, 85, 68, 79, 8, 0, 0, 0,
   1, 0, 0, 0, 16, 0, 0, 0]

/-- The parsed index of `ex_archive_alias`. -/
def ex_alias_index : List gm_index :=
  [ex_alias_strg,
   { sect := GM_AUDO, offset := 24, size := 8,
     entries := [{ offset := 20, size := 1, type := GM_UNKNOWN, unknown1 := 0, unknown2 := 0,
                   width := 0, height := 0, name := [], tpag := [] }] }]

/-- The parsed STRG chunk of `ex_archive`. -/
def ex_archive_strg : gm_index := { sect := GM_STRG, offset := 8, size := 4, entries := [] }

/-- The archive that `gm_patch_archive` writes for `ex_archive` and the patch
`ex_patch_image`: the image has 5 bytes and the AUDO chunk begins one byte later. -/
def ex_archive_patched : List Nat :=
  [70, 79, 82, 77, 69, 0, 0, 0,
   83, 84, 82, 71, 4, 0, 0, 0, 1, 2, 3, 4,
   84, 88, 84, 82, 25, 0, 0, 0,
   1, 0, 0, 0, 36, 0, 0, 0,
   0, 0, 0, 0, 0, 0, 0, 0, 48, 0, 0, 0,
   5, 64, 64, 1, 2,
   65, 85, 68, 79, 16, 0, 0, 0,
   1, 0, 0, 0, 69, 0, 0, 0,
   4, 0, 0, 0, 79, 103, 103, 83]

/-- A sprite named "spr" whose TPAG 0 is `(x = 10, y = 20, w = 32, h = 32, txtr = 0)`. -/
def ex_sprite : gm_entry :=
  { offset := 0, size := 0, type := GM_UNKNOWN, unknown1 := 0, unknown2 := 0, width := 0,
    height := 0, name := [115, 112, 114],
    tpag := [{ x := 10, y := 20, width := 32, height := 32, txtr_index := 0 }] }

/-- A planned SPRT chunk that holds `ex_sprite`. -/
def ex_planned_sprt : gm_patched_index :=
  { sect := GM_SPRT, offset := 8, size := 100,
    entries := [{ offset := 0, size := 0, patch := none, entry := ex_sprite }],
    index := { sect := GM_SPRT, offset := 8, size := 100, entries := [ex_sprite] } }

/-- A SPRT patch for "spr" that names TPAG 0 with the stored coordinates. -/
def ex_patch_sprt_same : gm_patch :=
  { sect := GM_SPRT, index := 0, type := GM_PNG, patch_src := gm_patch_src.GM_SRC_MEM,
    size := 0, data := [], width := 0, height := 0, name := [115, 112, 114],
    entries := [{ tpag_index := 0, x := 10, y := 20, width := 32, height := 32,
                  txtr_index := 0 }] }

/-- A SPRT patch for "spr" that names TPAG 0 as `(10, 20, 32, 16, 0)`. -/
def ex_patch_sprt_other : gm_patch :=
  { sect := GM_SPRT, index := 0, type := GM_PNG, patch_src := gm_patch_src.GM_SRC_MEM,
    size := 0, data := [], width := 0, height := 0, name := [115, 112, 114],
    entries := [{ tpag_index := 0, x := 10, y := 20, width := 32, height := 16,
                  txtr_index := 0 }] }

/-- A patch that replaces the image of `ex_archive` by zero bytes. -/
def ex_patch_image_empty : gm_patch :=
  { sect := GM_TXTR, index := 0, type := GM_PNG, patch_src := gm_patch_src.GM_SRC_MEM,
    size := 0, data := [], width := 64, height := 64, name := [], entries := [] }

/-- An archive with an empty TXTR chunk and an AUDO chunk whose table lists a blob inside the
TXTR chunk: the table entry is 12, so the size field is the size field of the TXTR header and
the blob is the 4 bytes of the TXTR count at offset 16. -/
def ex_archive_txtr_alias : List Nat :=
  [70, 79, 82, 77, 28, 0, 0, 0,
   84, 88, 84, 82, 4, 0, 0, 0,
   0, 0, 0, 0,
   65, 85, 68, 79, 8, 0, 0, 0,
   1, 0, 0, 0, 12, 0, 0, 0]

/-- A replacement of 4 bytes for the blob of `ex_archive_txtr_alias`. -/
def ex_patch_txtr_alias : gm_patch :=
  { sect := GM_AUDO, index := 0, type := GM_UNKNOWN, patch_src := gm_patch_src.GM_SRC_MEM,
    size := 4, data := [9, 9, 9, 9], width := 0, height := 0, name := [], entries := [] }

/-- The archive written for `ex_archive_txtr_alias` and `ex_patch_txtr_alias`. -/
def ex_archive_txtr_alias_patched : List Nat :=
  [70, 79, 82, 77, 28, 0, 0, 0,
   84, 88, 84, 82, 4, 0, 0, 0,
   9, 9, 9, 9,
   65, 85, 68, 79, 8, 0, 0, 0,
   1, 0, 0, 0, 12, 0, 0, 0]

/-- An archive with one AUDO chunk whose table lists the same blob twice: both entries are
28, the size field at 28 is 4, the blob is `[1, 2, 3, 4]` at offset 32. -/
def ex_archive_audo_twice : List Nat :=
  [70, 79, 82, 77, 28, 0, 0, 0,
   65, 85, 68, 79, 20, 0, 0, 0,
   2, 0, 0, 0, 28, 0, 0, 0, 28, 0, 0, 0,
   4, 0, 0, 0, 1, 2, 3, 4]

/-- The planned TXTR chunk of `ex_archive` after `ex_patch_image` was applied. -/
def ex_archive_txtr_planned : gm_patched_index :=
  { sect := GM_TXTR, offset := 20, size := 25,
    entries := [{ offset := 48, size := 5, patch := some ex_patch_image,
                  entry := ex_archive_image }],
    index := { sect := GM_TXTR, offset := 20, size := 24, entries := [ex_archive_image] } }

/-- The planned AUDO chunk of `ex_archive` after `ex_patch_image` was applied: the chunk and
its blob are one byte further back. -/
def ex_archive_audo_planned : gm_patched_index :=
  { sect := GM_AUDO, offset := 53, size := 16,
    entries := [{ offset := 73, size := 4, patch := none, entry := ex_archive_ogg }],
    index := { sect := GM_AUDO, offset := 52, size := 16, entries := [ex_archive_ogg] } }

/-- A patch for the blob of `ex_archive` that is declared as Ogg but does not begin with
"OggS". -/
def ex_patch_ogg_other : gm_patch :=
  { sect := GM_AUDO, index := 0, type := GM_OGG, patch_src := gm_patch_src.GM_SRC_MEM,
    size := 4, data := [1, 2, 3, 4], width := 0, height := 0, name := [], entries := [] }

/-- The archive written for `ex_archive` and `ex_patch_ogg_other`. -/
def ex_archive_ogg_other : List Nat :=
  [70, 79, 82, 77, 68, 0, 0, 0,
   83, 84, 82, 71, 4, 0, 0, 0, 1, 2, 3, 4,
   84, 88, 84, 82, 24, 0, 0, 0,
   1, 0, 0, 0, 36, 0, 0, 0,
   0, 0, 0, 0, 0, 0, 0, 0, 48, 0, 0, 0,
   4, 64, 64, 9,
   65, 85, 68, 79, 16, 0, 0, 0,
   1, 0, 0, 0, 68, 0, 0, 0,
   4, 0, 0, 0, 1, 2, 3, 4]

/-- A patch that replaces the blob of `ex_archive` by an Ogg blob of 5 bytes. -/
def ex_patch_ogg_longer : gm_patch :=
  { sect := GM_AUDO, index := 0, type := GM_OGG, patch_src := gm_patch_src.GM_SRC_MEM,
    size := 5, data := [79, 103, 103, 83, 7], width := 0, height := 0, name := [],
    entries := [] }

/-- The archive written for `ex_archive` and `ex_patch_ogg_longer`. -/
def ex_archive_ogg_longer : List Nat :=
  [70, 79, 82, 77, 69, 0, 0, 0,
   83, 84, 82, 71, 4, 0, 0, 0, 1, 2, 3, 4,
   84, 88, 84, 82, 24, 0, 0, 0,
   1, 0, 0, 0, 36, 0, 0, 0,
   0, 0, 0, 0, 0, 0, 0, 0, 48, 0, 0, 0,
   4, 64, 64, 9,
   65, 85, 68, 79, 17, 0, 0, 0,
   1, 0, 0, 0, 68, 0, 0, 0,
   5, 0, 0, 0, 79, 103, 103, 83, 7]

/-- The parsed blob of `ex_archive_ogg_longer`. -/
def ex_ogg_longer : gm_entry :=
  { offset := 72, size := 5, type := GM_OGG, unknown1 := 0, unknown2 := 0, width := 0,
    height := 0, name := [], tpag := [] }

/-- The parsed index of `ex_archive_ogg_longer`. -/
def ex_index_ogg_longer : List gm_index :=
  [{ sect := GM_STRG, offset := 8, size := 4, entries := [] },
   { sect := GM_TXTR, offset := 20, size := 24, entries := [ex_archive_image] },
   { sect := GM_AUDO, offset := 52, size := 17, entries := [ex_ogg_longer] }]

/-- The plan of `ex_patch_ogg_longer` on `ex_archive_ogg_longer`. -/
def ex_planned_ogg_longer : List gm_patched_index :=
  [{ sect := GM_STRG, offset := 8, size := 4, entries := [],
     index := { sect := GM_STRG, offset := 8, size := 4, entries := [] } },
   { sect := GM_TXTR, offset := 20, size := 24,
     entries := [{ offset := 48, size := 4, patch := none, entry := ex_archive_image }],
     index := { sect := GM_TXTR, offset := 20, size := 24, entries := [ex_archive_image] } },
   { sect := GM_AUDO, offset := 52, size := 17,
     entries := [{ offset := 72, size := 5, patch := some ex_patch_ogg_longer,
                   entry := ex_ogg_longer }],
     index := { sect := GM_AUDO, offset := 52, size := 17, entries := [ex_ogg_longer] } }]

/-- The archive `ex_archive` with the tag of its second chunk in lower case (`txtr`). -/
def ex_archive_lower : List Nat :=
  [70, 79, 82, 77, 68, 0, 0, 0,
   83, 84, 82, 71, 4, 0, 0, 0, 1, 2, 3, 4,
   116, 120, 116, 114, 24, 0, 0, 0,
   1, 0, 0, 0, 36, 0, 0, 0,
   0, 0, 0, 0, 0, 0, 0, 0, 48, 0, 0, 0,
   4, 64, 64, 9,
   65, 85, 68, 79, 16, 0, 0, 0,
   1, 0, 0, 0, 68, 0, 0, 0,
   4, 0, 0, 0, 79, 103, 103, 83]

/-- The archive `ex_archive` with `unknown1 = 2` in the info descriptor of its image (the byte
at offset 36). -/
def ex_archive_unknown1 : List Nat :=
  [70, 79, 82, 77, 68, 0, 0, 0,
   83, 84, 82, 71, 4, 0, 0, 0, 1, 2, 3, 4,
   84, 88, 84, 82, 24, 0, 0, 0,
   1, 0, 0, 0, 36, 0, 0, 0,
   2, 0, 0, 0, 0, 0, 0, 0, 48, 0, 0, 0,
   4, 64, 64, 9,
   65, 85, 68, 79, 16, 0, 0, 0,
   1, 0, 0, 0, 68, 0, 0, 0,
   4, 0, 0, 0, 79, 103, 103, 83]

/-- A 13-byte WAVE blob: `RIFF`, four bytes, `WAVE`, one byte. -/
def ex_blob_wave : List Nat := [82, 73, 70, 70, 1, 2, 3, 4, 87, 65, 86, 69, 9]

/-- The blob `ex_blob_wave` with other bytes 4..7 and another tail after byte 11. -/
def ex_blob_wave_other : List Nat := [82, 73, 70, 70, 0, 0, 0, 0, 87, 65, 86, 69, 7, 7]

/-- An empty AUDO patch before its file was looked at. -/
def ex_patch_blank : gm_patch :=
  { sect := GM_AUDO, index := 0, type := GM_UNKNOWN, patch_src := gm_patch_src.GM_SRC_FILE,
    size := 0, data := [], width := 0, height := 0, name := [], entries := [] }

/-- The patch that `gm_read_audo_info` makes of `ex_patch_blank` for the file
`ex_blob_wave`. -/
def ex_patch_wave : gm_patch :=
  { sect := GM_AUDO, index := 0, type := GM_WAVE, patch_src := gm_patch_src.GM_SRC_FILE,
    size := 13, data := [], width := 0, height := 0, name := [], entries := [] }

/-- The patch that `gm_read_audo_info` makes of `ex_patch_blank` for the file
`ex_blob_wave_other`. -/
def ex_patch_wave_other : gm_patch :=
  { sect := GM_AUDO, index := 0, type := GM_WAVE, patch_src := gm_patch_src.GM_SRC_FILE,
    size := 14, data := [], width := 0, height := 0, name := [], entries := [] }

/-- An archive with one SPRT chunk that holds one sprite: the sprite record is at offset 24,
its only TPAG record (x = 10, y = 20, width = 32, height = 32, texture 0) at offset 108, and
its name "spr" at offset 134, behind the length field at offset 130. -/
def ex_archive_sprt : List Nat :=
  [70, 79, 82, 77, 130, 0, 0, 0,
   83, 80, 82, 84, 122, 0, 0, 0,
   1, 0, 0, 0, 24, 0, 0, 0,
   134, 0, 0, 0, 0, 0, 0, 0, 0, 0, 0, 0, 0, 0, 0, 0, 0, 0, 0, 0,
   0, 0, 0, 0, 0, 0, 0, 0, 0, 0, 0, 0, 0, 0, 0, 0, 0, 0, 0, 0,
   0, 0, 0, 0, 0, 0, 0, 0, 0, 0, 0, 0, 0, 0, 0, 0, 0, 0, 0, 0,
   0, 0, 0, 0, 0, 0, 0, 0, 0, 0, 0, 0, 0, 0, 0, 0, 1, 0, 0, 0,
   108, 0, 0, 0,
   10, 0, 20, 0, 32, 0, 32, 0, 0, 0, 0, 0, 0, 0, 0, 0, 0, 0, 0, 0, 0, 0,
   3, 0, 0, 0, 115, 112, 114, 0]

/-- The first 130 bytes of an archive with one SPRT chunk: one sprite record at offset 24
whose `name_string_offset` is 0 and whose only TPAG record is at offset 108. -/
def ex_sprt_big_head : List Nat :=
  [70, 79, 82, 77, 122, 0, 0, 0,
   83, 80, 82, 84, 114, 0, 0, 0,
   1, 0, 0, 0, 24, 0, 0, 0,
   0, 0, 0, 0, 0, 0, 0, 0, 0, 0, 0, 0, 0, 0, 0, 0, 0, 0, 0, 0,
   0, 0, 0, 0, 0, 0, 0, 0, 0, 0, 0, 0, 0, 0, 0, 0, 0, 0, 0, 0,
   0, 0, 0, 0, 0, 0, 0, 0, 0, 0, 0, 0, 0, 0, 0, 0, 0, 0, 0, 0,
   0, 0, 0, 0, 0, 0, 0, 0, 0, 0, 0, 0, 0, 0, 0, 0, 1, 0, 0, 0,
   108, 0, 0, 0,
   10, 0, 20, 0, 32, 0, 32, 0, 0, 0, 0, 0, 0, 0, 0, 0, 0, 0, 0, 0, 0, 0]

/-- A file of 4 GiB + 1 byte: `ex_sprt_big_head`, zero bytes up to offset 4294967292, there
the 32-bit value 1 and, at offset 4294967296, the byte 65. -/
def ex_archive_sprt_big : List Nat :=
  ex_sprt_big_head ++ (List.replicate 4294967162 0 ++ [1, 0, 0, 0, 65])

/-- The sprite that `gm_read_index_sprt` makes of the record of `ex_archive_sprt_big`. -/
def ex_sprite_big : gm_entry :=
  { offset := 0, size := 0, type := GM_UNKNOWN, unknown1 := 0, unknown2 := 0, width := 0,
    height := 0, name := [65],
    tpag := [{ x := 10, y := 20, width := 32, height := 32, txtr_index := 0 }] }

/-- The first 54 bytes of an archive with one SPRT chunk whose only table slot (offset 20)
holds the sprite-record offset 2147483648: FORM header, chunk header, count, table, the TPAG
record (offset 24) and the name "spr" (offset 50) behind its length field (offset 46). -/
def ex_sprt_far_head : List Nat :=
  [70, 79, 82, 77, 46, 0, 0, 0,
   83, 80, 82, 84, 38, 0, 0, 0,
   1, 0, 0, 0, 0, 0, 0, 128,
   10, 0, 20, 0, 32, 0, 32, 0, 0, 0, 0, 0, 0, 0, 0, 0, 0, 0, 0, 0, 0, 0,
   3, 0, 0, 0, 115, 112, 114, 0]

/-- The sprite record of `ex_archive_sprt_far` (name at 50, one TPAG) and its TPAG table (one
slot that holds 24). -/
def ex_sprt_far_record : List Nat :=
  [50, 0, 0, 0, 0, 0, 0, 0, 0, 0, 0, 0, 0, 0, 0, 0, 0, 0, 0, 0,
   0, 0, 0, 0, 0, 0, 0, 0, 0, 0, 0, 0, 0, 0, 0, 0, 0, 0, 0, 0,
   0, 0, 0, 0, 0, 0, 0, 0, 0, 0, 0, 0, 0, 0, 0, 0, 0, 0, 0, 0,
   0, 0, 0, 0, 0, 0, 0, 0, 0, 0, 0, 0, 0, 0, 0, 0, 1, 0, 0, 0,
   24, 0, 0, 0]

/-- A file of 2 GiB + 84 bytes: `ex_sprt_far_head`, zero bytes up to offset 2147483648, and
there the sprite record `ex_sprt_far_record`. -/
def ex_archive_sprt_far : List Nat :=
  ex_sprt_far_head ++ (List.replicate 2147483594 0 ++ ex_sprt_far_record)

/-- The index that `gm_read_index` makes of `ex_archive_sprt_far`. -/
def ex_index_sprt_far : List gm_index :=
  [{ sect := GM_SPRT, offset := 8, size := 38, entries := [ex_sprite] }]

/-- A FORM header whose size field is `INT32_MAX - 7`, followed by an empty STRG chunk. -/
def ex_archive_form_big : List Nat :=
  [70, 79, 82, 77, 248, 255, 255, 127,
   83, 84, 82, 71, 0, 0, 0, 0]

/-- The patch that `gm_read_audo_info` makes of `ex_patch_blank` for a file that holds the
Ogg blob of `ex_archive`. -/
def ex_patch_ogg_back : gm_patch :=
  { sect := GM_AUDO, index := 0, type := GM_OGG, patch_src := gm_patch_src.GM_SRC_FILE,
    size := 4, data := [], width := 0, height := 0, name := [], entries := [] }

/-- An archive with one AUDO chunk whose only blob, at table offset 24, has size 0. -/
def ex_archive_audo_empty : List Nat :=
  [70, 79, 82, 77, 20, 0, 0, 0,
   65, 85, 68, 79, 12, 0, 0, 0,
   1, 0, 0, 0, 24, 0, 0, 0,
   0, 0, 0, 0]

/-- An archive with one AUDO chunk whose only blob, at table offset 24, has the 3 bytes
`Ogg`. -/
def ex_archive_audo_short : List Nat :=
  [70, 79, 82, 77, 23, 0, 0, 0,
   65, 85, 68, 79, 15, 0, 0, 0,
   1, 0, 0, 0, 24, 0, 0, 0,
   3, 0, 0, 0, 79, 103, 103]

/-- The archive `ex_archive_sprt` with `tpag_count = 0` in its sprite record and without the
TPAG table: the record is at offset 24, the name "spr" at offset 108 behind its length field
at offset 104. -/
def ex_archive_sprt_bare : List Nat :=
  [70, 79, 82, 77, 104, 0, 0, 0,
   83, 80, 82, 84, 96, 0, 0, 0,
   1, 0, 0, 0, 24, 0, 0, 0,
   108, 0, 0, 0, 0, 0, 0, 0, 0, 0, 0, 0, 0, 0, 0, 0, 0, 0, 0, 0,
   0, 0, 0, 0, 0, 0, 0, 0, 0, 0, 0, 0, 0, 0, 0, 0, 0, 0, 0, 0,
   0, 0, 0, 0, 0, 0, 0, 0, 0, 0, 0, 0, 0, 0, 0, 0, 0, 0, 0, 0,
   0, 0, 0, 0, 0, 0, 0, 0, 0, 0, 0, 0, 0, 0, 0, 0, 0, 0, 0, 0,
   3, 0, 0, 0, 115, 112, 114, 0]

/-- An archive of `n` empty STRG chunks. -/
def ex_archive_chunks (n : Nat) : List Nat :=
  [70, 79, 82, 77] ++ WRITE_U32LE ((8 * n : Nat) : Int) ++
    (List.replicate n [83, 84, 82, 71, 0, 0, 0, 0]).flatten

/-- The descriptors of the chunks of `ex_archive_chunks n`. -/
def ex_index_chunks (n : Nat) : List gm_index :=
  (List.range n).map fun k =>
    { sect := GM_STRG, offset := ((8 + 8 * k : Nat) : Int), size := 0, entries := [] }

/-- The patch that `gm_patch_scan_dir` makes of an `audo` file with the given index that holds
the bytes `OggS`. -/
def ex_patch_scanned (index : Nat) : gm_patch :=
  { sect := GM_AUDO, index := index, type := GM_OGG, patch_src := gm_patch_src.GM_SRC_FILE,
    size := 4, data := [79, 103, 103, 83], width := 0, height := 0, name := [], entries := [] }

/-- A parsed 64×64 image of 10 bytes at the given offset. -/
def ex_img (offset : Int) : gm_entry :=
  { offset := offset, size := 10, type := GM_PNG, unknown1 := 0, unknown2 := 0,
    width := 64, height := 64, name := [], tpag := [] }

/-- A planned TXTR chunk with two images of 10 bytes each, at the offsets 100 and 110. -/
def ex_txtr_pair : gm_patched_index :=
  { sect := GM_TXTR, offset := 8, size := 112,
    entries := [{ offset := 100, size := 10, patch := none, entry := ex_img 100 },
                { offset := 110, size := 10, patch := none, entry := ex_img 110 }],
    index := { sect := GM_TXTR, offset := 8, size := 112,
               entries := [ex_img 100, ex_img 110] } }

/-- A patch for image 0 whose size field is `2^64 - 90`. -/
def ex_patch_huge : gm_patch :=
  { sect := GM_TXTR, index := 0, type := GM_PNG, patch_src := gm_patch_src.GM_SRC_MEM,
    size := 18446744073709551526, data := [], width := 64, height := 64, name := [],
    entries := [] }

/-- A patch of 20 bytes for the image with the given index. -/
def ex_patch_img (index : Nat) : gm_patch :=
  { sect := GM_TXTR, index := index, type := GM_PNG, patch_src := gm_patch_src.GM_SRC_MEM,
    size := 20, data := List.replicate 20 7, width := 64, height := 64, name := [],
    entries := [] }

/-- An archive whose TXTR chunk lists two images: the info descriptor of the first one points
at offset 4, into the FORM header (for `ex_sniffer` an image of 48 bytes), the second image has
4 bytes at offset 52. -/
def ex_archive_form_alias : List Nat :=
  [70, 79, 82, 77, 48, 0, 0, 0,
   84, 88, 84, 82, 40, 0, 0, 0,
   2, 0, 0, 0, 28, 0, 0, 0, 40, 0, 0, 0,
   0, 0, 0, 0, 0, 0, 0, 0, 4, 0, 0, 0,
   0, 0, 0, 0, 0, 0, 0, 0, 52, 0, 0, 0,
   4, 64, 64, 9]

/-- A replacement of 5 bytes for the second image of `ex_archive_form_alias`. -/
def ex_patch_form_alias : gm_patch :=
  { sect := GM_TXTR, index := 1, type := GM_PNG, patch_src := gm_patch_src.GM_SRC_MEM,
    size := 5, data := [5, 64, 64, 1, 2], width := 64, height := 64, name := [],
    entries := [] }

/-- The archive written for `ex_archive_form_alias` and `ex_patch_form_alias`. -/
def ex_archive_form_alias_patched : List Nat :=
  [70, 79, 82, 77, 48, 0, 0, 0,
   84, 88, 84, 82, 40, 0, 0, 0,
   2, 0, 0, 0, 28, 0, 0, 0, 40, 0, 0, 0,
   0, 0, 0, 0, 0, 0, 0, 0, 4, 0, 0, 0,
   0, 0, 0, 0, 0, 0, 0, 0, 52, 0, 0, 0,
   5, 64, 64, 1, 2]

/-- An archive with one AUDO chunk of two blobs of 2 bytes each that lie in the file in the
reverse order of the offset table: the table lists the size field at offset 34 first and the
one at offset 28 second. -/
def ex_archive_swapped : List Nat :=
  [70, 79, 82, 77, 32, 0, 0, 0,
   65, 85, 68, 79, 24, 0, 0, 0,
   2, 0, 0, 0, 34, 0, 0, 0, 28, 0, 0, 0,
   2, 0, 0, 0, 5, 6,
   2, 0, 0, 0, 7, 8]

/-- The parsed index of `ex_archive_swapped`. -/
def ex_index_swapped : List gm_index :=
  [{ sect := GM_AUDO, offset := 8, size := 24,
     entries :=
      [{ offset := 38, size := 2, type := GM_UNKNOWN, unknown1 := 0, unknown2 := 0,
         width := 0, height := 0, name := [], tpag := [] },
       { offset := 32, size := 2, type := GM_UNKNOWN, unknown1 := 0, unknown2 := 0,
         width := 0, height := 0, name := [], tpag := [] }] }]

/-- An archive with one TXTR chunk whose info-offset table points to a descriptor that does
not follow the table at once: the table entry is 28, four zero bytes lie between the table and
the descriptor, the image of 4 bytes is at offset 40. -/
def ex_archive_table : List Nat :=
  [70, 79, 82, 77, 36, 0, 0, 0,
   84, 88, 84, 82, 28, 0, 0, 0,
   1, 0, 0, 0, 28, 0, 0, 0,
   0, 0, 0, 0,
   0, 0, 0, 0, 0, 0, 0, 0, 40, 0, 0, 0,
   4, 64, 64, 9]

/-- The file written for `ex_archive_table` and no patch: the table entry is 24 and the
descriptor is at offset 24. -/
def ex_archive_table_written : List Nat :=
  [70, 79, 82, 77, 36, 0, 0, 0,
   84, 88, 84, 82, 28, 0, 0, 0,
   1, 0, 0, 0, 24, 0, 0, 0,
   0, 0, 0, 0, 0, 0, 0, 0, 40, 0, 0, 0,
   0, 0, 0, 0,
   4, 64, 64, 9]

/-- The archive `ex_archive` followed by one more byte, which no chunk holds. -/
def ex_archive_tail : List Nat := ex_archive ++ [0]

/-- An archive whose only chunk, a STRG chunk of 4 bytes, misses its last two bytes: the file
ends at offset 18. -/
def ex_archive_short : List Nat :=
  [70, 79, 82, 77, 12, 0, 0, 0,
   83, 84, 82, 71, 4, 0, 0, 0, 1, 2]

/-- A stand-in for the PNG sniffer that judges an image by its own bytes: it reads the file
size, width and height from the first three bytes of the image and rejects an image of fewer
than 3 bytes. -/
def ex_sniffer_sized : png_sniffer := fun game pos =>
  match game.drop pos with
  | size :: width :: height :: _ =>
    if 3 ≤ size then some { filesize := size, width := width, height := height } else none
  | _ => none

/-- The archive written for `ex_archive` and the patches `ex_patch_image` and
`ex_patch_ogg_longer`: the image and the blob have 5 bytes each, and the AUDO chunk is one
byte further back. -/
def ex_archive_repatched : List Nat :=
  [70, 79, 82, 77, 70, 0, 0, 0,
   83, 84, 82, 71, 4, 0, 0, 0, 1, 2, 3, 4,
   84, 88, 84, 82, 25, 0, 0, 0,
   1, 0, 0, 0, 36, 0, 0, 0,
   0, 0, 0, 0, 0, 0, 0, 0, 48, 0, 0, 0,
   5, 64, 64, 1, 2,
   65, 85, 68, 79, 17, 0, 0, 0,
   1, 0, 0, 0, 69, 0, 0, 0,
   5, 0, 0, 0, 79, 103, 103, 83, 7]

/-- The plan for `ex_archive` and the patches `ex_patch_image` and `ex_patch_ogg_longer`. -/
def ex_planned_repatched : List gm_patched_index :=
  [{ sect := GM_STRG, offset := 8, size := 4, entries := [],
     index := { sect := GM_STRG, offset := 8, size := 4, entries := [] } },
   { sect := GM_TXTR, offset := 20, size := 25,
     entries := [{ offset := 48, size := 5, patch := some ex_patch_image,
                   entry := ex_archive_image }],
     index := { sect := GM_TXTR, offset := 20, size := 24, entries := [ex_archive_image] } },
   { sect := GM_AUDO, offset := 53, size := 17,
     entries := [{ offset := 73, size := 5, patch := some ex_patch_ogg_longer,
                   entry := ex_archive_ogg }],
     index := { sect := GM_AUDO, offset := 52, size := 16, entries := [ex_archive_ogg] } }]

/-- A replacement for the image of `ex_archive` that is declared with 5 bytes, of which the
sniffer counts 4 as the image. -/
def ex_patch_image_short : gm_patch :=
  { sect := GM_TXTR, index := 0, type := GM_PNG, patch_src := gm_patch_src.GM_SRC_MEM,
    size := 5, data := [4, 64, 64, 1, 2], width := 64, height := 64, name := [],
    entries := [] }

/-- The archive written for `ex_archive` and `ex_patch_image_short`. -/
def ex_archive_image_short : List Nat :=
  [70, 79, 82, 77, 69, 0, 0, 0,
   83, 84, 82, 71, 4, 0, 0, 0, 1, 2, 3, 4,
   84, 88, 84, 82, 25, 0, 0, 0,
   1, 0, 0, 0, 36, 0, 0, 0,
   0, 0, 0, 0, 0, 0, 0, 0, 48, 0, 0, 0,
   4, 64, 64, 1, 2,
   65, 85, 68, 79, 16, 0, 0, 0,
   1, 0, 0, 0, 69, 0, 0, 0,
   4, 0, 0, 0, 79, 103, 103, 83]

/-- The archive written for `ex_archive_image_short` and `ex_patch_image_short`: the TXTR
chunk has grown by one more byte, which is a zero byte that nothing writes. -/
def ex_archive_image_short_twice : List Nat :=
  [70, 79, 82, 77, 70, 0, 0, 0,
   83, 84, 82, 71, 4, 0, 0, 0, 1, 2, 3, 4,
   84, 88, 84, 82, 26, 0, 0, 0,
   1, 0, 0, 0, 36, 0, 0, 0,
   0, 0, 0, 0, 0, 0, 0, 0, 48, 0, 0, 0,
   4, 64, 64, 1, 2, 0,
   65, 85, 68, 79, 16, 0, 0, 0,
   1, 0, 0, 0, 70, 0, 0, 0,
   4, 0, 0, 0, 79, 103, 103, 83]

/-- A replacement for the image of `ex_archive` that is declared as 64×64 and whose bytes say
65×64. -/
def ex_patch_image_wide : gm_patch :=
  { sect := GM_TXTR, index := 0, type := GM_PNG, patch_src := gm_patch_src.GM_SRC_MEM,
    size := 5, data := [5, 65, 64, 1, 2], width := 64, height := 64, name := [],
    entries := [] }

/-- The archive written for `ex_archive` and `ex_patch_image_wide`. -/
def ex_archive_image_wide : List Nat :=
  [70, 79, 82, 77, 69, 0, 0, 0,
   83, 84, 82, 71, 4, 0, 0, 0, 1, 2, 3, 4,
   84, 88, 84, 82, 25, 0, 0, 0,
   1, 0, 0, 0, 36, 0, 0, 0,
   0, 0, 0, 0, 0, 0, 0, 0, 48, 0, 0, 0,
   5, 65, 64, 1, 2,
   65, 85, 68, 79, 16, 0, 0, 0,
   1, 0, 0, 0, 69, 0, 0, 0,
   4, 0, 0, 0, 79, 103, 103, 83]

/-- A replacement of zero bytes, from a file, for the blob of `ex_archive`. -/
def ex_patch_ogg_none : gm_patch :=
  { sect := GM_AUDO, index := 0, type := GM_OGG, patch_src := gm_patch_src.GM_SRC_FILE,
    size := 0, data := [], width := 0, height := 0, name := [], entries := [] }

/-- The archive written for `ex_archive` and `ex_patch_ogg_none`: the blob is empty. -/
def ex_archive_ogg_none : List Nat :=
  [70, 79, 82, 77, 64, 0, 0, 0,
   83, 84, 82, 71, 4, 0, 0, 0, 1, 2, 3, 4,
   84, 88, 84, 82, 24, 0, 0, 0,
   1, 0, 0, 0, 36, 0, 0, 0,
   0, 0, 0, 0, 0, 0, 0, 0, 48, 0, 0, 0,
   4, 64, 64, 9,
   65, 85, 68, 79, 12, 0, 0, 0,
   1, 0, 0, 0, 68, 0, 0, 0,
   0, 0, 0, 0]

/-- An archive with a SPRT chunk and an AUDO chunk.  The sprite record is at offset 24 and its
only TPAG record at offset 108, as in `ex_archive_sprt`; its `name_string_offset` is 154,
inside the blob of the AUDO chunk: the blob is the 8 bytes at offset 150, the length field 1 of
the name and the name "A". -/
def ex_archive_sprt_named : List Nat :=
  [70, 79, 82, 77, 150, 0, 0, 0,
   83, 80, 82, 84, 114, 0, 0, 0,
   1, 0, 0, 0, 24, 0, 0, 0,
   154, 0, 0, 0, 0, 0, 0, 0, 0, 0, 0, 0, 0, 0, 0, 0, 0, 0, 0, 0,
   0, 0, 0, 0, 0, 0, 0, 0, 0, 0, 0, 0, 0, 0, 0, 0, 0, 0, 0, 0,
   0, 0, 0, 0, 0, 0, 0, 0, 0, 0, 0, 0, 0, 0, 0, 0, 0, 0, 0, 0,
   0, 0, 0, 0, 0, 0, 0, 0, 0, 0, 0, 0, 0, 0, 0, 0, 1, 0, 0, 0,
   108, 0, 0, 0,
   10, 0, 20, 0, 32, 0, 32, 0, 0, 0, 0, 0, 0, 0, 0, 0, 0, 0, 0, 0, 0, 0,
   65, 85, 68, 79, 20, 0, 0, 0,
   1, 0, 0, 0, 146, 0, 0, 0,
   8, 0, 0, 0, 1, 0, 0, 0, 65, 0, 0, 0]

/-- A replacement of 8 bytes for the blob of `ex_archive_sprt_named`, with 200 where the
length field of the sprite name is. -/
def ex_patch_name : gm_patch :=
  { sect := GM_AUDO, index := 0, type := GM_UNKNOWN, patch_src := gm_patch_src.GM_SRC_MEM,
    size := 8, data := [200, 0, 0, 0, 65, 0, 0, 0], width := 0, height := 0, name := [],
    entries := [] }

/-- The archive written for `ex_archive_sprt_named` and `ex_patch_name`. -/
def ex_archive_sprt_renamed : List Nat :=
  [70, 79, 82, 77, 150, 0, 0, 0,
   83, 80, 82, 84, 114, 0, 0, 0,
   1, 0, 0, 0, 24, 0, 0, 0,
   154, 0, 0, 0, 0, 0, 0, 0, 0, 0, 0, 0, 0, 0, 0, 0, 0, 0, 0, 0,
   0, 0, 0, 0, 0, 0, 0, 0, 0, 0, 0, 0, 0, 0, 0, 0, 0, 0, 0, 0,
   0, 0, 0, 0, 0, 0, 0, 0, 0, 0, 0, 0, 0, 0, 0, 0, 0, 0, 0, 0,
   0, 0, 0, 0, 0, 0, 0, 0, 0, 0, 0, 0, 0, 0, 0, 0, 1, 0, 0, 0,
   108, 0, 0, 0,
   10, 0, 20, 0, 32, 0, 32, 0, 0, 0, 0, 0, 0, 0, 0, 0, 0, 0, 0, 0, 0, 0,
   65, 85, 68, 79, 20, 0, 0, 0,
   1, 0, 0, 0, 146, 0, 0, 0,
   8, 0, 0, 0, 200, 0, 0, 0, 65, 0, 0, 0]

/-- An archive with a SPRT chunk, the one of `ex_archive_sprt`, and behind it an AUDO chunk
with one Ogg blob of 4 bytes at offset 158. -/
def ex_archive_sprt_audo : List Nat :=
  [70, 79, 82, 77, 154, 0, 0, 0,
   83, 80, 82, 84, 122, 0, 0, 0,
   1, 0, 0, 0, 24, 0, 0, 0,
   134, 0, 0, 0, 0, 0, 0, 0, 0, 0, 0, 0, 0, 0, 0, 0, 0, 0, 0, 0,
   0, 0, 0, 0, 0, 0, 0, 0, 0, 0, 0, 0, 0, 0, 0, 0, 0, 0, 0, 0,
   0, 0, 0, 0, 0, 0, 0, 0, 0, 0, 0, 0, 0, 0, 0, 0, 0, 0, 0, 0,
   0, 0, 0, 0, 0, 0, 0, 0, 0, 0, 0, 0, 0, 0, 0, 0, 1, 0, 0, 0,
   108, 0, 0, 0,
   10, 0, 20, 0, 32, 0, 32, 0, 0, 0, 0, 0, 0, 0, 0, 0, 0, 0, 0, 0, 0, 0,
   3, 0, 0, 0, 115, 112, 114, 0,
   65, 85, 68, 79, 16, 0, 0, 0,
   1, 0, 0, 0, 154, 0, 0, 0,
   4, 0, 0, 0, 79, 103, 103, 83]

/-- The parsed blob of `ex_archive_sprt_audo`. -/
def ex_sprt_audo_ogg : gm_entry :=
  { offset := 158, size := 4, type := GM_OGG, unknown1 := 0, unknown2 := 0, width := 0,
    height := 0, name := [], tpag := [] }

/-- The parsed index of `ex_archive_sprt_audo`. -/
def ex_index_sprt_audo : List gm_index :=
  [{ sect := GM_SPRT, offset := 8, size := 122, entries := [ex_sprite] },
   { sect := GM_AUDO, offset := 138, size := 16, entries := [ex_sprt_audo_ogg] }]

/-- The plan for `ex_archive_sprt_audo` and the patch `ex_patch_ogg_longer`. -/
def ex_planned_sprt_audo : List gm_patched_index :=
  [{ sect := GM_SPRT, offset := 8, size := 122,
     entries := [{ offset := 0, size := 0, patch := none, entry := ex_sprite }],
     index := { sect := GM_SPRT, offset := 8, size := 122, entries := [ex_sprite] } },
   { sect := GM_AUDO, offset := 138, size := 17,
     entries := [{ offset := 158, size := 5, patch := some ex_patch_ogg_longer,
                   entry := ex_sprt_audo_ogg }],
     index := { sect := GM_AUDO, offset := 138, size := 16, entries := [ex_sprt_audo_ogg] } }]

/-- The archive written for `ex_archive_sprt_audo` and `ex_patch_ogg_longer`. -/
def ex_archive_sprt_audo_patched : List Nat :=
  [70, 79, 82, 77, 155, 0, 0, 0,
   83, 80, 82, 84, 122, 0, 0, 0,
   1, 0, 0, 0, 24, 0, 0, 0,
   134, 0, 0, 0, 0, 0, 0, 0, 0, 0, 0, 0, 0, 0, 0, 0, 0, 0, 0, 0,
   0, 0, 0, 0, 0, 0, 0, 0, 0, 0, 0, 0, 0, 0, 0, 0, 0, 0, 0, 0,
   0, 0, 0, 0, 0, 0, 0, 0, 0, 0, 0, 0, 0, 0, 0, 0, 0, 0, 0, 0,
   0, 0, 0, 0, 0, 0, 0, 0, 0, 0, 0, 0, 0, 0, 0, 0, 1, 0, 0, 0,
   108, 0, 0, 0,
   10, 0, 20, 0, 32, 0, 32, 0, 0, 0, 0, 0, 0, 0, 0, 0, 0, 0, 0, 0, 0, 0,
   3, 0, 0, 0, 115, 112, 114, 0,
   65, 85, 68, 79, 17, 0, 0, 0,
   1, 0, 0, 0, 154, 0, 0, 0,
   5, 0, 0, 0, 79, 103, 103, 83, 7]
/-! ## Facts about the planner -/

theorem size_wrap_eq (n : Int) : size_wrap n = (n % 18446744073709551616).toNat := by
  unfold size_wrap; split <;> omega

theorem off_wrap_eq (n : Int) :
    off_wrap n = (n + 9223372036854775808) % 18446744073709551616 - 9223372036854775808 := by
  unfold off_wrap; split <;> omega

theorem u32_wrap_eq (n : Int) : u32_wrap n = (n % 4294967296).toNat := by
  unfold u32_wrap; split <;> omega

theorem size_wrap_exact (n : Int) (h0 : 0 ≤ n) (h1 : n < 18446744073709551616) :
    (size_wrap n : Int) = n := by
  rw [size_wrap_eq]; omega

theorem off_wrap_exact (n : Int) (h0 : -9223372036854775808 ≤ n) (h1 : n < 9223372036854775808) :
    off_wrap n = n := by
  rw [off_wrap_eq]; omega

theorem gm_drop_eq_cons {α : Type} (l : List α) (k : Nat) (c : α) (hc : l[k]? = some c) :
    l.drop k = c :: l.drop (k + 1) := by
  obtain ⟨hk, hv⟩ := List.getElem?_eq_some_iff.mp hc
  rw [List.drop_eq_getElem_cons hk, hv]

theorem gm_split_at {α : Type} (l : List α) (k : Nat) (c : α) (hc : l[k]? = some c) :
    l = l.take k ++ c :: l.drop (k + 1) := by
  rw [← gm_drop_eq_cons l k c hc, List.take_append_drop]

theorem gm_shift_tail_length (l : List gm_patched_index) (offset : Int) :
    (gm_shift_tail l offset).2.length = l.length := by
  induction l with
  | nil => simp [gm_shift_tail]
  | cons c rest ih =>
    unfold gm_shift_tail
    split <;> simp [ih]

theorem gm_shift_tail_ok_iff (l : List gm_patched_index) (offset : Int) :
    (gm_shift_tail l offset).1 = gm_status.ok ↔ ∀ c ∈ l, gm_movable c.sect = true := by
  induction l with
  | nil => simp [gm_shift_tail]
  | cons c rest ih =>
    unfold gm_shift_tail
    by_cases h : gm_movable c.sect = true
    · simp [h, ih]
    · simp [h]

theorem gm_shift_tail_ok_eq (l : List gm_patched_index) (offset : Int)
    (h : (gm_shift_tail l offset).1 = gm_status.ok) :
    (gm_shift_tail l offset).2 = l.map fun c => gm_shift_chunk c offset := by
  induction l with
  | nil => simp [gm_shift_tail]
  | cons c rest ih =>
    unfold gm_shift_tail at h ⊢
    by_cases hm : gm_movable c.sect = true
    · simp only [hm, if_true] at h ⊢
      simp [ih h]
    · simp [hm] at h

theorem gm_patched_chunk_sect (c : gm_patched_index) (patch : gm_patch)
    (entry : gm_patched_entry) : (gm_patched_chunk c patch entry).sect = c.sect := by
  cases c; rfl

theorem gm_patched_chunk_offset (c : gm_patched_index) (patch : gm_patch)
    (entry : gm_patched_entry) : (gm_patched_chunk c patch entry).offset = c.offset := by
  cases c; rfl

theorem gm_patched_chunk_index (c : gm_patched_index) (patch : gm_patch)
    (entry : gm_patched_entry) : (gm_patched_chunk c patch entry).index = c.index := by
  cases c; rfl

theorem gm_patched_chunk_size (c : gm_patched_index) (patch : gm_patch)
    (entry : gm_patched_entry) :
    (gm_patched_chunk c patch entry).size = size_wrap ((c.size : Int) + gm_delta patch entry) := by
  simp only [gm_patched_chunk]

theorem gm_patched_chunk_entries (c : gm_patched_index) (patch : gm_patch)
    (entry : gm_patched_entry) :
    (gm_patched_chunk c patch entry).entries = gm_shift_siblings
      (c.entries.set patch.index { entry with size := patch.size, patch := some patch })
      entry.offset (gm_delta patch entry) := by
  cases c; rfl

theorem gm_shift_chunk_sect (c : gm_patched_index) (offset : Int) :
    (gm_shift_chunk c offset).sect = c.sect := by
  cases c; rfl

theorem gm_shift_chunk_size (c : gm_patched_index) (offset : Int) :
    (gm_shift_chunk c offset).size = c.size := by
  cases c; rfl

theorem gm_shift_chunk_index (c : gm_patched_index) (offset : Int) :
    (gm_shift_chunk c offset).index = c.index := by
  cases c; rfl

theorem gm_shift_chunk_offset (c : gm_patched_index) (offset : Int) :
    (gm_shift_chunk c offset).offset = off_wrap (c.offset + offset) := by
  simp only [gm_shift_chunk]

theorem gm_shift_chunk_entries (c : gm_patched_index) (offset : Int) :
    (gm_shift_chunk c offset).entries =
      c.entries.map fun e => { e with offset := off_wrap (e.offset + offset) } := by
  cases c; rfl

theorem gm_patch_entry_ok (c : gm_patched_index) (rest : List gm_patched_index)
    (patch : gm_patch) (hmov : gm_movable c.sect = true)
    (h : (gm_patch_entry (c :: rest) patch).1 = gm_status.ok) :
    ∃ entry, c.entries[patch.index]? = some entry ∧ entry.patch = none ∧
      entry.entry.type = patch.type ∧
      (c.sect = GM_TXTR → entry.entry.width = patch.width ∧ entry.entry.height = patch.height) ∧
      (∀ x ∈ rest, gm_movable x.sect = true) ∧
      (gm_patch_entry (c :: rest) patch).2 =
        gm_patched_chunk c patch entry :: rest.map fun x => gm_shift_chunk x (gm_delta patch entry) := by
  unfold gm_patch_entry at h ⊢
  simp only [hmov, if_true] at h ⊢
  rw [List.get?_eq_getElem?] at h ⊢
  cases he : c.entries[patch.index]? with
  | none => simp [he] at h
  | some entry =>
    simp only [he] at h ⊢
    by_cases h1 : entry.patch.isSome = true
    · simp [h1] at h
    · simp only [h1] at h ⊢
      by_cases h2 : entry.entry.type ≠ patch.type
      · simp [h2] at h
      · simp only [h2] at h ⊢
        by_cases h3 : c.sect = GM_TXTR ∧
            (entry.entry.width ≠ patch.width ∨ entry.entry.height ≠ patch.height)
        · simp [h3] at h
        · simp only [h3, if_false] at h ⊢
          refine ⟨entry, rfl, ?_, ?_, ?_, ?_, ?_⟩
          · simpa using h1
          · simpa using h2
          · intro hs
            simp only [hs, true_and, not_or, not_not] at h3
            exact h3
          · exact (gm_shift_tail_ok_iff _ _).mp h
          · simp only [gm_shift_tail_ok_eq _ _ h]
            rfl

theorem gm_patch_at_ok (patched : List gm_patched_index) (k : Nat) (patch : gm_patch)
    (c : gm_patched_index) (hc : patched[k]? = some c) (hmov : gm_movable c.sect = true)
    (h : (gm_patch_at patched k patch).1 = gm_status.ok) :
    ∃ entry, c.entries[patch.index]? = some entry ∧ entry.patch = none ∧
      entry.entry.type = patch.type ∧
      (c.sect = GM_TXTR → entry.entry.width = patch.width ∧ entry.entry.height = patch.height) ∧
      (∀ x ∈ patched.drop (k + 1), gm_movable x.sect = true) ∧
      (gm_patch_at patched k patch).2 =
        patched.take k ++ gm_patched_chunk c patch entry ::
          (patched.drop (k + 1)).map fun x => gm_shift_chunk x (gm_delta patch entry) := by
  have hk : k < patched.length := (List.getElem?_eq_some_iff.mp hc).1
  have hd : patched.drop k = c :: patched.drop (k + 1) := gm_drop_eq_cons patched k c hc
  unfold gm_patch_at at h ⊢
  simp only [hd] at h ⊢
  obtain ⟨entry, h1, h2, h3, h4, h5, h6⟩ := gm_patch_entry_ok c _ patch hmov h
  exact ⟨entry, h1, h2, h3, h4, h5, by rw [h6]⟩

/-- C2. Postcondition of a successful TXTR/AUDO patch: with `delta` the signed difference
between the patch size and the original size of the entry, the entry has the patch size and
carries the patch at its old offset, the chunk size has changed by `delta`, the other entries
of the chunk behind the entry and all later chunks with all their entries have moved by
`delta` and nothing else has changed.  Sizes and offsets are `size_t` and `off_t` fields: the
sums are the ones of the machine, exact whenever they are representable. -/
theorem gm_patch_entry_postcondition (patched : List gm_patched_index) (k : Nat)
    (patch : gm_patch) (c : gm_patched_index) (e : gm_patched_entry)
    (hc : patched[k]? = some c) (hmov : gm_movable c.sect = true)
    (he : c.entries[patch.index]? = some e)
    (hok : (gm_patch_at patched k patch).1 = gm_status.ok) :
    (gm_patch_at patched k patch).2.length = patched.length ∧
    (∀ j, j < k → (gm_patch_at patched k patch).2[j]? = patched[j]?) ∧
    (∃ c1, (gm_patch_at patched k patch).2[k]? = some c1 ∧
      c1.sect = c.sect ∧ c1.offset = c.offset ∧ c1.index = c.index ∧
      c1.size = size_wrap ((c.size : Int) + gm_delta patch e) ∧
      (0 ≤ (c.size : Int) + gm_delta patch e →
        (c.size : Int) + gm_delta patch e < 18446744073709551616 →
        (c1.size : Int) = (c.size : Int) + gm_delta patch e) ∧
      c1.entries.length = c.entries.length ∧
      c1.entries[patch.index]? =
        some { offset := e.offset, size := patch.size, patch := some patch, entry := e.entry } ∧
      ∀ (i : Nat) (o : gm_patched_entry), i ≠ patch.index → c.entries[i]? = some o →
        c1.entries[i]? = some
          (if o.offset > e.offset then
            { o with offset := off_wrap (o.offset + gm_delta patch e) }
           else o)) ∧
    (∀ j c0, k < j → patched[j]? = some c0 →
      ∃ c1, (gm_patch_at patched k patch).2[j]? = some c1 ∧
        c1.sect = c0.sect ∧ c1.size = c0.size ∧ c1.index = c0.index ∧
        c1.offset = off_wrap (c0.offset + gm_delta patch e) ∧
        c1.entries.length = c0.entries.length ∧
        ∀ (i : Nat) (o : gm_patched_entry), c0.entries[i]? = some o →
          c1.entries[i]? = some { o with offset := off_wrap (o.offset + gm_delta patch e) }) ∧
    ((patch.size : Int) < 9223372036854775808 → (e.entry.size : Int) < 9223372036854775808 →
      gm_delta patch e = (patch.size : Int) - e.entry.size) ∧
    (∀ x : Int, gm_off_ok (x + gm_delta patch e) →
      off_wrap (x + gm_delta patch e) = x + gm_delta patch e) := by
  obtain ⟨entry, h1, -, -, -, -, h6⟩ := gm_patch_at_ok patched k patch c hc hmov hok
  have hee : entry = e := by rw [he] at h1; exact (Option.some.inj h1).symm
  subst hee
  have hk : k < patched.length := (List.getElem?_eq_some_iff.mp hc).1
  have hi : patch.index < c.entries.length := (List.getElem?_eq_some_iff.mp he).1
  have hlt : (List.take k patched).length = k := by simp; omega
  rw [h6]
  refine ⟨?_, ?_, ?_, ?_, ?_, ?_⟩
  · simp; omega
  · intro j hj
    rw [List.getElem?_append_left (by omega)]
    simp [List.getElem?_take, hj]
  · refine ⟨gm_patched_chunk c patch entry, ?_, ?_, ?_, ?_, ?_, ?_, ?_, ?_, ?_⟩
    · rw [List.getElem?_append_right (by omega)]
      simp [hlt]
    · exact gm_patched_chunk_sect _ _ _
    · exact gm_patched_chunk_offset _ _ _
    · exact gm_patched_chunk_index _ _ _
    · exact gm_patched_chunk_size _ _ _
    · intro h0 h1
      rw [gm_patched_chunk_size]
      exact size_wrap_exact _ h0 h1
    · rw [gm_patched_chunk_entries]; simp [gm_shift_siblings]
    · rw [gm_patched_chunk_entries]
      simp [gm_shift_siblings, List.getElem?_map, List.getElem?_set, hi]
    · intro i o hne ho
      rw [gm_patched_chunk_entries]
      simp only [gm_shift_siblings, List.getElem?_map, List.getElem?_set]
      simp [Ne.symm hne, ho]
  · intro j c0 hj hc0
    refine ⟨gm_shift_chunk c0 (gm_delta patch entry), ?_, ?_, ?_, ?_, ?_, ?_, ?_⟩
    · rw [List.getElem?_append_right (by omega)]
      obtain ⟨m, rfl⟩ : ∃ m, j = k + 1 + m := ⟨j - (k + 1), by omega⟩
      have : k + 1 + m - (List.take k patched).length = m + 1 := by omega
      rw [this]
      simp [List.getElem?_map, List.getElem?_drop, hc0]
    · exact gm_shift_chunk_sect _ _
    · exact gm_shift_chunk_size _ _
    · exact gm_shift_chunk_index _ _
    · exact gm_shift_chunk_offset _ _
    · rw [gm_shift_chunk_entries]; simp
    · intro i o ho
      rw [gm_shift_chunk_entries]
      simp [List.getElem?_map, ho]
  · intro hp hs
    unfold gm_delta
    rw [off_wrap_eq, size_wrap_eq]
    omega
  · intro x hx
    unfold gm_off_ok at hx
    exact off_wrap_exact _ hx.1 hx.2

/-- C2 (witness). A 64×64 PNG of 1234 bytes is replaced by one of 1500 bytes in a TXTR chunk
that is followed by an AUDO chunk. -/
theorem gm_patch_entry_postcondition_witness :
    ([ex_txtr, ex_audo][0]? = some ex_txtr ∧ gm_movable ex_txtr.sect = true ∧
      ex_txtr.entries[ex_patch_larger.index]? = some ex_png_planned ∧
      (gm_patch_at [ex_txtr, ex_audo] 0 ex_patch_larger).1 = gm_status.ok) ∧
    ((gm_patch_at [ex_txtr, ex_audo] 0 ex_patch_larger).2.length = [ex_txtr, ex_audo].length ∧
    (∀ j, j < 0 → (gm_patch_at [ex_txtr, ex_audo] 0 ex_patch_larger).2[j]? = [ex_txtr, ex_audo][j]?) ∧
    (∃ c1, (gm_patch_at [ex_txtr, ex_audo] 0 ex_patch_larger).2[0]? = some c1 ∧
      c1.sect = ex_txtr.sect ∧ c1.offset = ex_txtr.offset ∧ c1.index = ex_txtr.index ∧
      c1.size = size_wrap ((ex_txtr.size : Int) + gm_delta ex_patch_larger ex_png_planned) ∧
      (0 ≤ (ex_txtr.size : Int) + gm_delta ex_patch_larger ex_png_planned →
        (ex_txtr.size : Int) + gm_delta ex_patch_larger ex_png_planned < 18446744073709551616 →
        (c1.size : Int) = (ex_txtr.size : Int) + gm_delta ex_patch_larger ex_png_planned) ∧
      c1.entries.length = ex_txtr.entries.length ∧
      c1.entries[ex_patch_larger.index]? =
        some { offset := ex_png_planned.offset, size := ex_patch_larger.size, patch := some ex_patch_larger, entry := ex_png_planned.entry } ∧
      ∀ (i : Nat) (o : gm_patched_entry), i ≠ ex_patch_larger.index → ex_txtr.entries[i]? = some o →
        c1.entries[i]? = some
          (if o.offset > ex_png_planned.offset then
            { o with offset := off_wrap (o.offset + gm_delta ex_patch_larger ex_png_planned) }
           else o)) ∧
    (∀ j c0, 0 < j → [ex_txtr, ex_audo][j]? = some c0 →
      ∃ c1, (gm_patch_at [ex_txtr, ex_audo] 0 ex_patch_larger).2[j]? = some c1 ∧
        c1.sect = c0.sect ∧ c1.size = c0.size ∧ c1.index = c0.index ∧
        c1.offset = off_wrap (c0.offset + gm_delta ex_patch_larger ex_png_planned) ∧
        c1.entries.length = c0.entries.length ∧
        ∀ (i : Nat) (o : gm_patched_entry), c0.entries[i]? = some o →
          c1.entries[i]? = some { o with offset := off_wrap (o.offset + gm_delta ex_patch_larger ex_png_planned) }) ∧
    ((ex_patch_larger.size : Int) < 9223372036854775808 → (ex_png_planned.entry.size : Int) < 9223372036854775808 →
      gm_delta ex_patch_larger ex_png_planned = (ex_patch_larger.size : Int) - ex_png_planned.entry.size) ∧
    (∀ x : Int, gm_off_ok (x + gm_delta ex_patch_larger ex_png_planned) →
      off_wrap (x + gm_delta ex_patch_larger ex_png_planned) = x + gm_delta ex_patch_larger ex_png_planned)) :=
  ⟨by decide,
    gm_patch_entry_postcondition [ex_txtr, ex_audo] 0 ex_patch_larger ex_txtr ex_png_planned
      (by decide) (by decide) (by decide) (by decide)⟩

theorem gm_patch_entry_valid (c : gm_patched_index) (rest : List gm_patched_index)
    (patch : gm_patch) (e : gm_patched_entry) (hmov : gm_movable c.sect = true)
    (he : c.entries[patch.index]? = some e) (hp : e.patch = none)
    (ht : e.entry.type = patch.type)
    (hd : c.sect = GM_TXTR → e.entry.width = patch.width ∧ e.entry.height = patch.height) :
    gm_patch_entry (c :: rest) patch =
      ((gm_shift_tail rest (gm_delta patch e)).1,
        gm_patched_chunk c patch e :: (gm_shift_tail rest (gm_delta patch e)).2) := by
  unfold gm_patch_entry
  simp only [hmov, if_true]
  rw [List.get?_eq_getElem?, he]
  have h3 : ¬ (c.sect = GM_TXTR ∧
      (e.entry.width ≠ patch.width ∨ e.entry.height ≠ patch.height)) := by
    rintro ⟨hs, hne⟩
    obtain ⟨hw, hh⟩ := hd hs
    rcases hne with hne | hne
    · exact hne hw
    · exact hne hh
  simp only [hp, Option.isSome_none, Bool.false_eq_true, if_false, ht, ne_eq, not_true_eq_false,
    h3]
  rfl

theorem gm_patch_at_eq (patched : List gm_patched_index) (k : Nat) (patch : gm_patch)
    (c : gm_patched_index) (hc : patched[k]? = some c) :
    gm_patch_at patched k patch =
      ((gm_patch_entry (c :: patched.drop (k + 1)) patch).1,
        patched.take k ++ (gm_patch_entry (c :: patched.drop (k + 1)) patch).2) := by
  have hk : k < patched.length := (List.getElem?_eq_some_iff.mp hc).1
  have hd : patched.drop k = c :: patched.drop (k + 1) := gm_drop_eq_cons patched k c hc
  unfold gm_patch_at
  simp only [hd]

theorem gm_delta_same_size (patch : gm_patch) (e : gm_patched_entry)
    (h : patch.size = e.entry.size) : gm_delta patch e = 0 := by
  unfold gm_delta
  rw [off_wrap_eq, size_wrap_eq, h]
  omega

theorem gm_shift_chunk_zero (c : gm_patched_index) (ho : gm_off_ok c.offset)
    (he : ∀ e ∈ c.entries, gm_off_ok e.offset) : gm_shift_chunk c 0 = c := by
  unfold gm_off_ok at ho
  have h1 : off_wrap (c.offset + 0) = c.offset := by
    rw [off_wrap_eq]; omega
  have h2 : (c.entries.map fun e : gm_patched_entry => { e with offset := off_wrap (e.offset + 0) })
      = c.entries := by
    conv_rhs => rw [← List.map_id c.entries]
    apply List.map_congr_left
    intro e hm
    have := he e hm
    unfold gm_off_ok at this
    have h3 : off_wrap (e.offset + 0) = e.offset := by
      rw [off_wrap_eq]; omega
    rw [h3]
    rfl
  unfold gm_shift_chunk
  rw [h1, h2]

theorem gm_shift_tail_movable (l : List gm_patched_index) (offset : Int)
    (h : ∀ c ∈ l, gm_movable c.sect = true) :
    gm_shift_tail l offset = (gm_status.ok, l.map fun c => gm_shift_chunk c offset) := by
  have h1 := (gm_shift_tail_ok_iff l offset).mpr h
  have h2 := gm_shift_tail_ok_eq l offset h1
  exact Prod.ext h1 h2

theorem gm_layout_append (a b : List gm_patched_index) :
    gm_layout (a ++ b) = gm_layout a ++ gm_layout b := by
  simp [gm_layout]

theorem gm_layout_cons (c : gm_patched_index) (b : List gm_patched_index) :
    gm_layout (c :: b) = (c.offset, c.size, c.entries.map fun e => e.offset) :: gm_layout b := by
  simp [gm_layout]

theorem gm_shift_siblings_zero_offsets (entries : List gm_patched_entry) (pivot : Int)
    (h : ∀ e ∈ entries, gm_off_ok e.offset) :
    (gm_shift_siblings entries pivot 0).map (fun e => e.offset) =
      entries.map fun e => e.offset := by
  unfold gm_shift_siblings
  rw [List.map_map]
  apply List.map_congr_left
  intro e hm
  have := h e hm
  unfold gm_off_ok at this
  have h3 : off_wrap (e.offset + 0) = e.offset := by
    rw [off_wrap_eq]; omega
  simp only [Function.comp]
  split
  · exact h3
  · rfl

theorem gm_set_offsets (entries : List gm_patched_entry) (i : Nat) (e e1 : gm_patched_entry)
    (he : entries[i]? = some e) (ho : e1.offset = e.offset) :
    (entries.set i e1).map (fun x => x.offset) = entries.map fun x => x.offset := by
  apply List.ext_getElem?
  intro j
  simp only [List.getElem?_map, List.getElem?_set]
  by_cases hij : i = j
  · subst hij
    have hi : i < entries.length := (List.getElem?_eq_some_iff.mp he).1
    simp [hi, he, ho]
  · simp [hij]

/-- C8 (amended). A same-size replacement that passes validation succeeds and moves nothing,
provided every chunk after the TXTR chunk is TXTR or AUDO. -/
theorem gm_patch_same_size_moves_nothing (patched : List gm_patched_index) (k : Nat)
    (patch : gm_patch) (c : gm_patched_index) (e : gm_patched_entry)
    (hty : gm_typed patched) (hc : patched[k]? = some c) (hs : c.sect = GM_TXTR)
    (he : c.entries[patch.index]? = some e) (hp : e.patch = none)
    (ht : e.entry.type = patch.type)
    (hw : e.entry.width = patch.width) (hh : e.entry.height = patch.height)
    (hsz : patch.size = e.entry.size)
    (hrest : ∀ x ∈ patched.drop (k + 1), gm_movable x.sect = true) :
    (gm_patch_at patched k patch).1 = gm_status.ok ∧
      gm_layout (gm_patch_at patched k patch).2 = gm_layout patched := by
  have hmov : gm_movable c.sect = true := by rw [hs]; rfl
  have hk : k < patched.length := (List.getElem?_eq_some_iff.mp hc).1
  have hcm : c ∈ patched := List.getElem?_mem hc
  have hd0 := gm_delta_same_size patch e hsz
  rw [gm_patch_at_eq patched k patch c hc,
    gm_patch_entry_valid c _ patch e hmov he hp ht (fun _ => ⟨hw, hh⟩), hd0,
    gm_shift_tail_movable _ _ hrest]
  refine ⟨rfl, ?_⟩
  have hsplit := gm_split_at patched k c hc
  conv_rhs => rw [hsplit]
  simp only [gm_layout_append, gm_layout_cons]
  have hA : ((gm_patched_chunk c patch e).offset, (gm_patched_chunk c patch e).size,
      (gm_patched_chunk c patch e).entries.map fun x => x.offset) =
      (c.offset, c.size, c.entries.map fun x => x.offset) := by
    obtain ⟨-, hsize, hent⟩ := hty c hcm
    have h1 : size_wrap ((c.size : Int) + 0) = c.size := by
      rw [size_wrap_eq]; omega
    have h2 : ∀ x ∈ c.entries.set patch.index { e with size := patch.size, patch := some patch },
        gm_off_ok x.offset := by
      intro x hx
      rcases List.mem_or_eq_of_mem_set hx with h | h
      · exact hent x h
      · rw [h]
        exact hent e (List.getElem?_mem he)
    rw [gm_patched_chunk_offset, gm_patched_chunk_size, gm_patched_chunk_entries, hd0, h1,
      gm_shift_siblings_zero_offsets _ _ h2,
      gm_set_offsets c.entries patch.index e { e with size := patch.size, patch := some patch }
        he rfl]
  have hB : (patched.drop (k + 1)).map (fun x => gm_shift_chunk x 0) = patched.drop (k + 1) := by
    conv_rhs => rw [← List.map_id (patched.drop (k + 1))]
    apply List.map_congr_left
    intro x hx
    have hxm : x ∈ patched := List.mem_of_mem_drop hx
    obtain ⟨h1, -, h3⟩ := hty x hxm
    exact gm_shift_chunk_zero x h1 h3
  rw [hA, hB]

/-- C8 (counterexample). A same-size replacement that passes validation is refused with
`ENOSYS` when a STRG chunk follows the TXTR chunk. -/
theorem gm_patch_same_size_refused :
    gm_typed [ex_txtr, ex_strg] ∧ [ex_txtr, ex_strg][0]? = some ex_txtr ∧
      ex_txtr.sect = GM_TXTR ∧
      ex_txtr.entries[ex_patch_same.index]? = some ex_png_planned ∧
      ex_png_planned.patch = none ∧ ex_png_planned.entry.type = ex_patch_same.type ∧
      ex_patch_same.type = GM_PNG ∧
      ex_png_planned.entry.width = ex_patch_same.width ∧
      ex_png_planned.entry.height = ex_patch_same.height ∧
      ex_patch_same.size = ex_png_planned.entry.size ∧
      (gm_patch_at [ex_txtr, ex_strg] 0 ex_patch_same).1 = gm_status.error ENOSYS := by
  decide

/-- C8 (witness). The hypotheses of `gm_patch_same_size_moves_nothing` hold for a TXTR chunk
followed by an AUDO chunk. -/
theorem gm_patch_same_size_moves_nothing_witness :
    (gm_patch_at [ex_txtr, ex_audo] 0 ex_patch_same).1 = gm_status.ok ∧
      gm_layout (gm_patch_at [ex_txtr, ex_audo] 0 ex_patch_same).2 =
        gm_layout [ex_txtr, ex_audo] :=
  gm_patch_same_size_moves_nothing [ex_txtr, ex_audo] 0 ex_patch_same ex_txtr ex_png_planned
    (by decide) (by decide) (by decide) (by decide) (by decide) (by decide) (by decide)
    (by decide) (by decide) (by decide)

/-! ## The dimension invariant -/

theorem gm_dims_inv_nil : gm_dims_inv [] := by
  intro d hd
  cases hd

theorem gm_dims_inv_cons (c : gm_patched_index) (l : List gm_patched_index) :
    gm_dims_inv (c :: l) ↔
      (c.sect = GM_TXTR → ∀ x ∈ c.entries, ∀ p, x.patch = some p →
        p.width = x.entry.width ∧ p.height = x.entry.height) ∧ gm_dims_inv l := by
  unfold gm_dims_inv
  simp only [List.mem_cons, forall_eq_or_imp]

theorem gm_dims_inv_append (a b : List gm_patched_index) :
    gm_dims_inv (a ++ b) ↔ gm_dims_inv a ∧ gm_dims_inv b := by
  unfold gm_dims_inv
  simp only [List.mem_append]
  constructor
  · intro h
    exact ⟨fun d hd => h d (Or.inl hd), fun d hd => h d (Or.inr hd)⟩
  · rintro ⟨h1, h2⟩ d (hd | hd)
    · exact h1 d hd
    · exact h2 d hd

theorem gm_dims_inv_build (index : List gm_index) : gm_dims_inv (gm_build_patched index) := by
  intro d hd _ x hx p hp
  unfold gm_build_patched at hd
  obtain ⟨c, -, rfl⟩ := List.mem_map.mp hd
  obtain ⟨e, -, rfl⟩ := List.mem_map.mp hx
  cases hp

theorem gm_dims_shift_chunk (c : gm_patched_index) (offset : Int)
    (h : c.sect = GM_TXTR → ∀ x ∈ c.entries, ∀ p, x.patch = some p →
      p.width = x.entry.width ∧ p.height = x.entry.height) :
    (gm_shift_chunk c offset).sect = GM_TXTR → ∀ x ∈ (gm_shift_chunk c offset).entries,
      ∀ p, x.patch = some p → p.width = x.entry.width ∧ p.height = x.entry.height := by
  rw [gm_shift_chunk_sect, gm_shift_chunk_entries]
  intro hs x hx p hp
  obtain ⟨y, hy, rfl⟩ := List.mem_map.mp hx
  exact h hs y hy p hp

theorem gm_dims_inv_shift_tail (l : List gm_patched_index) (offset : Int)
    (h : gm_dims_inv l) : gm_dims_inv (gm_shift_tail l offset).2 := by
  induction l with
  | nil => simpa [gm_shift_tail] using h
  | cons c rest ih =>
    rw [gm_dims_inv_cons] at h
    unfold gm_shift_tail
    split
    · rw [gm_dims_inv_cons]
      exact ⟨gm_dims_shift_chunk c offset h.1, ih h.2⟩
    · rw [gm_dims_inv_cons]
      exact h

theorem gm_dims_inv_patch_entry (l : List gm_patched_index) (patch : gm_patch)
    (h : gm_dims_inv l) : gm_dims_inv (gm_patch_entry l patch).2 := by
  cases l with
  | nil => simpa [gm_patch_entry] using h
  | cons c rest =>
    by_cases hmov : gm_movable c.sect = true
    · cases he : c.entries[patch.index]? with
      | none =>
        simp only [gm_patch_entry, hmov, if_true, List.get?_eq_getElem?, he]
        exact h
      | some entry =>
        simp only [gm_patch_entry, hmov, if_true, List.get?_eq_getElem?, he]
        split
        · exact h
        · split
          · exact h
          · split
            · exact h
            · rename_i h1 h2 h3
              rw [gm_dims_inv_cons] at h ⊢
              refine ⟨?_, gm_dims_inv_shift_tail _ _ h.2⟩
              intro hs x hx p hp
              simp only [gm_shift_siblings] at hx hs
              obtain ⟨y, hy, rfl⟩ := List.mem_map.mp hx
              have hyp : ∀ z : gm_patched_entry, z.patch = some p →
                  (z ∈ c.entries ∨ z = { entry with size := patch.size, patch := some patch }) →
                  p.width = z.entry.width ∧ p.height = z.entry.height := by
                intro z hz hmem
                rcases hmem with hm | hm
                · exact h.1 hs z hm p hz
                · subst hm
                  simp only [Option.some.injEq] at hz
                  subst hz
                  simp only [hs, true_and, not_or, not_not] at h3
                  exact ⟨h3.1.symm, h3.2.symm⟩
              have hmem := List.mem_or_eq_of_mem_set hy
              by_cases hgt : y.offset > entry.offset
              · simp only [hgt, if_true] at hp ⊢
                exact hyp y hp hmem
              · simp only [hgt, if_false] at hp ⊢
                exact hyp y hp hmem
    · simp only [gm_patch_entry, hmov, Bool.false_eq_true, if_false]
      split
      · exact h
      · exact h

theorem gm_dims_inv_patch_at (patched : List gm_patched_index) (k : Nat) (patch : gm_patch)
    (h : gm_dims_inv patched) : gm_dims_inv (gm_patch_at patched k patch).2 := by
  unfold gm_patch_at
  rw [← List.take_append_drop k patched, gm_dims_inv_append] at h
  rw [gm_dims_inv_append]
  exact ⟨h.1, gm_dims_inv_patch_entry _ _ h.2⟩

theorem gm_dims_inv_apply (patches : List gm_patch) (patched : List gm_patched_index)
    (h : gm_dims_inv patched) : gm_dims_inv (gm_apply_patches patched patches).2 := by
  induction patches generalizing patched with
  | nil => simpa [gm_apply_patches] using h
  | cons patch rest ih =>
    unfold gm_apply_patches
    split
    · exact h
    · rename_i k hk
      have h1 := gm_dims_inv_patch_at patched k patch h
      split
      · rename_i p1 heq
        rw [heq] at h1
        exact ih p1 h1
      · rename_i e p1 heq
        rw [heq] at h1
        exact h1

theorem gm_patch_entry_dims_mismatch (c : gm_patched_index) (rest : List gm_patched_index)
    (patch : gm_patch) (e : gm_patched_entry) (hs : c.sect = GM_TXTR)
    (he : c.entries[patch.index]? = some e)
    (hne : e.entry.width ≠ patch.width ∨ e.entry.height ≠ patch.height) :
    gm_patch_entry (c :: rest) patch = (gm_status.error EINVAL, c :: rest) := by
  have hmov : gm_movable c.sect = true := by rw [hs]; rfl
  simp only [gm_patch_entry, hmov, if_true, List.get?_eq_getElem?, he]
  split
  · rfl
  · split
    · rfl
    · rw [if_pos ⟨hs, hne⟩]

/-- C10. TXTR dimension check: a patch whose width or height differs from the parsed entry's
is refused with `EINVAL` and the planned index stays as it is; hence in every planned index
that `gm_patch_archive` builds from a parsed index and a patch list, every TXTR entry that
carries a patch carries one with the entry's original width and height. -/
theorem gm_txtr_dimension_check (c : gm_patched_index) (rest : List gm_patched_index)
    (patch : gm_patch) (e : gm_patched_entry) (index : List gm_index)
    (patches : List gm_patch) (hs : c.sect = GM_TXTR)
    (he : c.entries[patch.index]? = some e)
    (hne : e.entry.width ≠ patch.width ∨ e.entry.height ≠ patch.height) :
    gm_patch_entry (c :: rest) patch = (gm_status.error EINVAL, c :: rest) ∧
      ∀ d ∈ (gm_apply_patches (gm_build_patched index) patches).2, d.sect = GM_TXTR →
        ∀ x ∈ d.entries, ∀ p, x.patch = some p →
          p.width = x.entry.width ∧ p.height = x.entry.height :=
  ⟨gm_patch_entry_dims_mismatch c rest patch e hs he hne,
    gm_dims_inv_apply patches _ (gm_dims_inv_build index)⟩

/-- C10 (witness). A 64×32 replacement for a 64×64 texture. -/
theorem gm_txtr_dimension_check_witness :
    (ex_txtr.sect = GM_TXTR ∧ ex_txtr.entries[ex_patch_dims.index]? = some ex_png_planned ∧
      (ex_png_planned.entry.width ≠ ex_patch_dims.width ∨
        ex_png_planned.entry.height ≠ ex_patch_dims.height)) ∧
    (gm_patch_entry [ex_txtr, ex_audo] ex_patch_dims =
        (gm_status.error EINVAL, [ex_txtr, ex_audo]) ∧
      ∀ d ∈ (gm_apply_patches (gm_build_patched [ex_txtr.index, ex_audo.index])
          [ex_patch_larger]).2, d.sect = GM_TXTR →
        ∀ x ∈ d.entries, ∀ p, x.patch = some p →
          p.width = x.entry.width ∧ p.height = x.entry.height) :=
  ⟨by decide,
    gm_txtr_dimension_check ex_txtr [ex_audo] ex_patch_dims ex_png_planned
      [ex_txtr.index, ex_audo.index] [ex_patch_larger] (by decide) (by decide) (by decide)⟩

/-! ## The cascade -/

theorem gm_shift_tail_refused (l : List gm_patched_index) (offset : Int)
    (d : gm_patched_index) (hd : d ∈ l) (hm : gm_movable d.sect = false) :
    (gm_shift_tail l offset).1 = gm_status.error ENOSYS := by
  induction l with
  | nil => cases hd
  | cons c rest ih =>
    unfold gm_shift_tail
    by_cases hc : gm_movable c.sect = true
    · simp only [hc, if_true]
      rcases List.mem_cons.mp hd with h | h
      · rw [h, hc] at hm
        cases hm
      · exact ih h
    · simp only [hc, Bool.false_eq_true, if_false]

theorem gm_patch_at_refused (st : List gm_patched_index) (k : Nat) (p : gm_patch)
    (c d : gm_patched_index) (j : Nat) (hc : st[k]? = some c)
    (hmov : gm_movable c.sect = true) (hvalid : gm_patch_valid c p) (hj : k < j)
    (hd : st[j]? = some d) (hdm : gm_movable d.sect = false) :
    (gm_patch_at st k p).1 = gm_status.error ENOSYS := by
  obtain ⟨e, he, hp, ht, hdim⟩ := hvalid
  rw [gm_patch_at_eq st k p c hc, gm_patch_entry_valid c _ p e hmov he hp ht hdim]
  apply gm_shift_tail_refused _ _ d _ hdm
  obtain ⟨m, rfl⟩ : ∃ m, j = k + 1 + m := ⟨j - (k + 1), by omega⟩
  apply List.getElem?_mem (n := m)
  rw [List.getElem?_drop]
  exact hd

theorem gm_apply_patches_append (ps rest : List gm_patch) (init st : List gm_patched_index)
    (h : gm_apply_patches init ps = (gm_status.ok, st)) :
    gm_apply_patches init (ps ++ rest) = gm_apply_patches st rest := by
  induction ps generalizing init with
  | nil =>
    simp only [gm_apply_patches, Prod.mk.injEq, true_and] at h
    rw [List.nil_append, h]
  | cons p ps ih =>
    rw [List.cons_append]
    unfold gm_apply_patches at h
    conv_lhs => unfold gm_apply_patches
    cases hk : gm_get_section init p.sect with
    | none => simp only [hk] at h; cases h
    | some k =>
      simp only [hk] at h ⊢
      cases hr : gm_patch_at init k p with
      | mk r1 r2 =>
        cases r1 with
        | ok =>
          simp only [hr] at h ⊢
          exact ih r2 h
        | error e =>
          simp only [hr] at h
          cases h

theorem gm_apply_patches_refused (st : List gm_patched_index) (p : gm_patch)
    (qs : List gm_patch) (k : Nat) (e : gm_errno) (hk : gm_get_section st p.sect = some k)
    (h : (gm_patch_at st k p).1 = gm_status.error e) :
    (gm_apply_patches st (p :: qs)).1 = gm_status.error e := by
  unfold gm_apply_patches
  simp only [hk]
  cases hr : gm_patch_at st k p with
  | mk r1 r2 =>
    rw [hr] at h
    simp only at h
    subst h
    rfl

theorem gm_patch_archive_plan_error (png : png_sniffer) (fault : Option Nat) (fs : gm_fs)
    (game : List Nat) (index : List gm_index) (patches : List gm_patch) (e : gm_errno)
    (hfs : fs.target = some game) (hparse : gm_read_index png game = some index)
    (h : (gm_apply_patches (gm_build_patched index) patches).1 = gm_status.error e) :
    gm_patch_archive png fault fs patches =
      (gm_status.error e, { target := some game, tmp := none }) := by
  unfold gm_patch_archive
  simp only [hfs, hparse]
  cases hr : gm_apply_patches (gm_build_patched index) patches with
  | mk r1 r2 =>
    rw [hr] at h
    simp only at h
    subst h
    rfl

/-- C9. Cascade across an unmovable section is refused: when a chunk that is neither TXTR nor
AUDO lies after the chunk a valid TXTR/AUDO patch is applied to, `gm_patch_entry` fails with
`ENOSYS`, and `gm_patch_archive` fails with it, leaves the archive file as it was and leaves
no temporary file. -/
theorem gm_cascade_refused (png : png_sniffer) (fault : Option Nat) (fs : gm_fs)
    (game : List Nat) (index : List gm_index) (ps qs : List gm_patch) (p : gm_patch)
    (st : List gm_patched_index) (k j : Nat) (c d : gm_patched_index)
    (hfs : fs.target = some game) (hparse : gm_read_index png game = some index)
    (hps : gm_apply_patches (gm_build_patched index) ps = (gm_status.ok, st))
    (hk : gm_get_section st p.sect = some k) (hc : st[k]? = some c)
    (hmov : gm_movable c.sect = true) (hvalid : gm_patch_valid c p)
    (hj : k < j) (hd : st[j]? = some d) (hdm : gm_movable d.sect = false) :
    (gm_patch_at st k p).1 = gm_status.error ENOSYS ∧
      gm_patch_archive png fault fs (ps ++ p :: qs) =
        (gm_status.error ENOSYS, { target := fs.target, tmp := none }) := by
  have h1 := gm_patch_at_refused st k p c d j hc hmov hvalid hj hd hdm
  refine ⟨h1, ?_⟩
  rw [hfs]
  apply gm_patch_archive_plan_error png fault fs game index _ ENOSYS hfs hparse
  rw [gm_apply_patches_append ps (p :: qs) _ st hps]
  exact gm_apply_patches_refused st p qs k ENOSYS hk h1

/-- C9 (witness). A STRG chunk sits between the patched TXTR chunk and an AUDO chunk. -/
theorem gm_cascade_refused_witness :
    ((({ target := some ex_archive_txtr_strg_audo, tmp := none } : gm_fs).target =
        some ex_archive_txtr_strg_audo ∧
      gm_read_index ex_sniffer ex_archive_txtr_strg_audo = some ex_index_txtr_strg_audo ∧
      gm_apply_patches (gm_build_patched ex_index_txtr_strg_audo) [] =
        (gm_status.ok, gm_build_patched ex_index_txtr_strg_audo) ∧
      gm_get_section (gm_build_patched ex_index_txtr_strg_audo) ex_patch_image.sect = some 0 ∧
      (gm_build_patched ex_index_txtr_strg_audo)[0]? = some ex_planned_txtr ∧
      gm_movable ex_planned_txtr.sect = true ∧ gm_patch_valid ex_planned_txtr ex_patch_image ∧
      0 < 1 ∧ (gm_build_patched ex_index_txtr_strg_audo)[1]? = some ex_planned_strg ∧
      gm_movable ex_planned_strg.sect = false)) ∧
    ((gm_patch_at (gm_build_patched ex_index_txtr_strg_audo) 0 ex_patch_image).1 =
        gm_status.error ENOSYS ∧
      gm_patch_archive ex_sniffer none { target := some ex_archive_txtr_strg_audo, tmp := none }
          ([] ++ ex_patch_image :: []) =
        (gm_status.error ENOSYS,
          { target := ({ target := some ex_archive_txtr_strg_audo, tmp := none } : gm_fs).target,
            tmp := none })) :=
  have hv : gm_patch_valid ex_planned_txtr ex_patch_image :=
    ⟨{ offset := 36, size := 4, patch := none, entry := ex_image }, by decide, by decide,
      by decide, by decide⟩
  ⟨⟨by decide, by decide, by decide, by decide, by decide, by decide, hv, by decide, by decide,
      by decide⟩,
    gm_cascade_refused ex_sniffer none { target := some ex_archive_txtr_strg_audo, tmp := none }
      ex_archive_txtr_strg_audo ex_index_txtr_strg_audo [] [] ex_patch_image
      (gm_build_patched ex_index_txtr_strg_audo) 0 1 ex_planned_txtr ex_planned_strg
      (by decide) (by decide) (by decide) (by decide) (by decide) (by decide) hv (by decide)
      (by decide) (by decide)⟩

/-! ## Failures of `gm_patch_archive` -/

theorem gm_commit_cases (game : List Nat) (s : gm_out)
    (h : (gm_commit game s).1 ≠ gm_status.ok) :
    (gm_commit game s).2 = { target := some game, tmp := none } ∧ gm_io s = none ∨
      ∃ s2, gm_io s = some s2 ∧
        ((gm_commit game s).2 = { target := some game, tmp := some s.data } ∧
            (gm_io s2 = none ∨ ∃ s3, gm_io s2 = some s3 ∧ gm_io s3 = none) ∨
          (gm_commit game s).2 = { target := none, tmp := some s.data } ∧
            ∃ s3 s4, gm_io s2 = some s3 ∧ gm_io s3 = some s4 ∧ gm_io s4 = none) := by
  unfold gm_commit at h ⊢
  cases h1 : gm_io s with
  | none =>
    left
    exact ⟨rfl, rfl⟩
  | some s2 =>
    right
    refine ⟨s2, rfl, ?_⟩
    simp only [h1] at h ⊢
    cases h2 : gm_io s2 with
    | none =>
      left
      exact ⟨rfl, Or.inl rfl⟩
    | some s3 =>
      simp only [h2] at h ⊢
      cases h3 : gm_io s3 with
      | none =>
        left
        exact ⟨rfl, Or.inr ⟨s3, rfl, h3⟩⟩
      | some s4 =>
        simp only [h3] at h ⊢
        cases h4 : gm_io s4 with
        | none =>
          right
          exact ⟨rfl, s3, s4, rfl, h3, h4⟩
        | some s5 =>
          simp only [h4] at h
          exact absurd rfl h

/-- C6. Failures of `gm_patch_archive`.  A failure up to and including `fclose(game)` leaves
the archive file as it was and no temporary file.  A failure of one of the calls behind it,
`fclose(tmp)`, `unlink(filename)` or `rename(tmpname, filename)`, enters the `error:` path
with closed streams; there the temporary file is not removed: it stays with the bytes
written, next to the original archive file, or, after the failed `rename`, in place of the
archive file, which is gone. -/
theorem gm_patch_archive_atomic (png : png_sniffer) (fault : Option Nat) (fs : gm_fs)
    (patches : List gm_patch)
    (h : (gm_patch_archive png fault fs patches).1 ≠ gm_status.ok) :
    (gm_patch_archive png fault fs patches).2 = { target := fs.target, tmp := none } ∨
      ∃ game index patched s0 s1 s2, fs.target = some game ∧
        gm_read_index png game = some index ∧
        gm_apply_patches (gm_build_patched index) patches = (gm_status.ok, patched) ∧
        gm_io { data := [], pos := 0, fault := fault } = some s0 ∧
        gm_write_archive game patched s0 = some s1 ∧ gm_io s1 = some s2 ∧
        ((gm_patch_archive png fault fs patches).2 =
              { target := some game, tmp := some s1.data } ∧
            (gm_io s2 = none ∨ ∃ s3, gm_io s2 = some s3 ∧ gm_io s3 = none) ∨
          (gm_patch_archive png fault fs patches).2 =
              { target := none, tmp := some s1.data } ∧
            ∃ s3 s4, gm_io s2 = some s3 ∧ gm_io s3 = some s4 ∧ gm_io s4 = none) := by
  unfold gm_patch_archive at h ⊢
  cases hfs : fs.target with
  | none => exact Or.inl rfl
  | some game =>
    simp only [hfs] at h ⊢
    cases hparse : gm_read_index png game with
    | none => exact Or.inl rfl
    | some index =>
      simp only [hparse] at h ⊢
      cases hplan : gm_apply_patches (gm_build_patched index) patches with
      | mk r patched =>
        cases r with
        | error e => exact Or.inl rfl
        | ok =>
          simp only [hplan] at h ⊢
          cases hopen : gm_io { data := [], pos := 0, fault := fault } with
          | none => exact Or.inl rfl
          | some s0 =>
            simp only [hopen] at h ⊢
            cases hwrite : gm_write_archive game patched s0 with
            | none => exact Or.inl rfl
            | some s1 =>
              simp only [hwrite] at h ⊢
              rcases gm_commit_cases game s1 h with ⟨hc, _⟩ | ⟨s2, h2, hc⟩
              · exact Or.inl hc
              · exact Or.inr ⟨game, index, patched, s0, s1, s2, rfl, hparse, hplan, rfl,
                  hwrite, h2, hc⟩

/-- C6 (witness). The archive without chunks is patched with the empty patch list; the calls
after the archive was read are `fopen` of the temporary file, `fwrite` of the FORM header,
`fclose(game)`, `fclose(tmp)`, `unlink`, `rename`.  When the fourth call, `fclose(tmp)`,
fails, the run fails and the temporary file is left behind with the bytes written. -/
theorem gm_patch_archive_atomic_witness :
    gm_patch_archive ex_sniffer (some 3) { target := some ex_archive_empty, tmp := none } [] =
        (gm_status.error EIO,
          { target := some ex_archive_empty, tmp := some ex_archive_empty }) ∧
    ((gm_patch_archive ex_sniffer (some 3)
        { target := some ex_archive_empty, tmp := none } []).2 =
          { target := ({ target := some ex_archive_empty, tmp := none } : gm_fs).target,
            tmp := none } ∨
      ∃ game index patched s0 s1 s2,
        ({ target := some ex_archive_empty, tmp := none } : gm_fs).target = some game ∧
        gm_read_index ex_sniffer game = some index ∧
        gm_apply_patches (gm_build_patched index) [] = (gm_status.ok, patched) ∧
        gm_io { data := [], pos := 0, fault := some 3 } = some s0 ∧
        gm_write_archive game patched s0 = some s1 ∧ gm_io s1 = some s2 ∧
        ((gm_patch_archive ex_sniffer (some 3)
            { target := some ex_archive_empty, tmp := none } []).2 =
              { target := some game, tmp := some s1.data } ∧
            (gm_io s2 = none ∨ ∃ s3, gm_io s2 = some s3 ∧ gm_io s3 = none) ∨
          (gm_patch_archive ex_sniffer (some 3)
            { target := some ex_archive_empty, tmp := none } []).2 =
              { target := none, tmp := some s1.data } ∧
            ∃ s3 s4, gm_io s2 = some s3 ∧ gm_io s3 = some s4 ∧ gm_io s4 = none)) :=
  ⟨by decide,
    gm_patch_archive_atomic ex_sniffer (some 3)
      { target := some ex_archive_empty, tmp := none } [] (by decide)⟩

/-- The failures of the commit on the archive without chunks, call by call: a failed
`fclose(game)` (third call) is cleaned up; a failed `fclose(tmp)` or `unlink` leaves the
temporary file next to the archive; a failed `rename` leaves only the temporary file; without
a failure the archive is replaced. -/
theorem gm_patch_archive_commit_failures :
    gm_patch_archive ex_sniffer (some 2) { target := some ex_archive_empty, tmp := none } [] =
        (gm_status.error EIO, { target := some ex_archive_empty, tmp := none }) ∧
      gm_patch_archive ex_sniffer (some 4) { target := some ex_archive_empty, tmp := none } [] =
        (gm_status.error EIO,
          { target := some ex_archive_empty, tmp := some ex_archive_empty }) ∧
      gm_patch_archive ex_sniffer (some 5) { target := some ex_archive_empty, tmp := none } [] =
        (gm_status.error EIO, { target := none, tmp := some ex_archive_empty }) ∧
      gm_patch_archive ex_sniffer (some 6) { target := some ex_archive_empty, tmp := none } [] =
        (gm_status.ok, { target := some ex_archive_empty, tmp := none }) := by
  decide

/-! ## Contiguity of the chunks -/

theorem gm_read_index_loop_tiles (png : png_sniffer) (game : List Nat) (stop : Nat)
    (fuel offset count : Nat) (l : List gm_index)
    (h : gm_read_index_loop png game stop fuel offset count = some l) :
    gm_tiles offset l stop := by
  induction fuel generalizing offset count l with
  | zero => simp [gm_read_index_loop] at h
  | succ fuel ih =>
    unfold gm_read_index_loop at h
    split at h
    · split at h
      · cases h
      · rename_i buffer hb
        split at h
        · cases h
        · split at h
          · cases h
          · split at h
            · cases h
            · split at h
              · cases h
              · split at h
                · cases h
                · rename_i entries he
                  split at h
                  · cases h
                  · rename_i rest hr
                    simp only [Option.some.injEq] at h
                    subst h
                    have := ih _ _ _ hr
                    rename_i hlt _ hsec hrange hfit hcap _ _
                    simp only [gm_tiles]
                    unfold INT32_MAX at hrange ⊢
                    refine ⟨trivial, by omega, by omega, ?_⟩
                    have e : offset + U32LE_FROM_BUF buffer 4 + 8 =
                        offset + (U32LE_FROM_BUF buffer 4 + 8) := by omega
                    rw [e]
                    exact this
    · simp only [Option.some.injEq] at h
      subst h
      simp only [gm_tiles]
      omega

theorem gm_read_index_tiles (png : png_sniffer) (game : List Nat) (index : List gm_index)
    (h : gm_read_index png game = some index) :
    ∃ buffer, gm_fread game 0 8 = some buffer ∧
      gm_tiles 8 index (U32LE_FROM_BUF buffer 4 + 8) := by
  unfold gm_read_index at h
  split at h
  · cases h
  · rename_i buffer hb
    split at h
    · cases h
    · exact ⟨buffer, hb, gm_read_index_loop_tiles _ _ _ _ _ _ _ h⟩

theorem gm_ptiles_build (start stop : Nat) (index : List gm_index)
    (h : gm_tiles start index stop) : gm_ptiles (start : Int) (gm_build_patched index) := by
  induction index generalizing start with
  | nil => simp [gm_build_patched, gm_ptiles]
  | cons c rest ih =>
    simp only [gm_tiles] at h
    obtain ⟨h1, -, h3, h4⟩ := h
    simp only [gm_build_patched, List.map_cons, gm_ptiles]
    refine ⟨h1, ?_⟩
    have := ih _ h4
    simp only [gm_build_patched] at this
    have e : off_wrap ((start : Int) + 8 + (c.size : Int)) = ((start + c.size + 8 : Nat) : Int) := by
      unfold INT32_MAX at h3
      rw [off_wrap_eq]
      omega
    rw [e]
    exact this

theorem gm_ptiles_shift (post : List gm_patched_index) (t delta : Int)
    (h : gm_ptiles t post) :
    gm_ptiles (off_wrap (t + delta)) (post.map fun x => gm_shift_chunk x delta) := by
  induction post generalizing t with
  | nil => simp [gm_ptiles]
  | cons c rest ih =>
    simp only [gm_ptiles] at h
    obtain ⟨h1, h2⟩ := h
    simp only [List.map_cons, gm_ptiles]
    rw [gm_shift_chunk_offset, gm_shift_chunk_size]
    refine ⟨by rw [h1], ?_⟩
    have := ih _ h2
    have e : off_wrap (off_wrap (t + delta) + 8 + (c.size : Int)) =
        off_wrap (off_wrap (t + 8 + (c.size : Int)) + delta) := by
      simp only [off_wrap_eq]
      omega
    rw [e]
    exact this

theorem gm_ptiles_prefix (pre tail tail1 : List gm_patched_index) (s : Int)
    (h : gm_ptiles s (pre ++ tail))
    (ht : ∀ t, gm_ptiles t tail → gm_ptiles t tail1) : gm_ptiles s (pre ++ tail1) := by
  induction pre generalizing s with
  | nil => exact ht s h
  | cons c rest ih =>
    simp only [List.cons_append, gm_ptiles] at h ⊢
    exact ⟨h.1, ih _ h.2⟩

theorem gm_ptiles_patch_at (patched : List gm_patched_index) (k : Nat) (patch : gm_patch)
    (s : Int) (h : gm_ptiles s patched)
    (hok : (gm_patch_at patched k patch).1 = gm_status.ok) :
    gm_ptiles s (gm_patch_at patched k patch).2 := by
  cases hc : patched[k]? with
  | none =>
    -- the pointer is at the terminator
    have hlen : patched.length ≤ k := by
      by_contra hlt
      rw [List.getElem?_eq_getElem (by omega)] at hc
      cases hc
    unfold gm_patch_at at hok
    rw [List.drop_of_length_le hlen] at hok
    simp [gm_patch_entry] at hok
  | some c =>
    by_cases hmov : gm_movable c.sect = true
    · obtain ⟨entry, -, -, -, -, -, h6⟩ := gm_patch_at_ok patched k patch c hc hmov hok
      rw [h6]
      have hsplit := gm_split_at patched k c hc
      rw [hsplit] at h
      apply gm_ptiles_prefix _ _ _ _ h
      intro t ht
      simp only [gm_ptiles] at ht ⊢
      rw [gm_patched_chunk_offset, gm_patched_chunk_size]
      refine ⟨ht.1, ?_⟩
      have := gm_ptiles_shift _ _ (gm_delta patch entry) ht.2
      have e : off_wrap (t + 8 + (size_wrap ((c.size : Int) + gm_delta patch entry) : Int)) =
          off_wrap (off_wrap (t + 8 + (c.size : Int)) + gm_delta patch entry) := by
        simp only [off_wrap_eq, size_wrap_eq]
        omega
      rw [e]
      exact this
    · -- SPRT and the other sections: nothing changes
      rw [gm_patch_at_eq patched k patch c hc] at hok ⊢
      have hsame : (gm_patch_entry (c :: patched.drop (k + 1)) patch).2 =
          c :: patched.drop (k + 1) := by
        simp only [gm_patch_entry, hmov, Bool.false_eq_true, if_false]
        split <;> rfl
      simp only [hsame]
      rw [← gm_split_at patched k c hc]
      exact h

theorem gm_ptiles_patch_seq (calls : List (Nat × gm_patch)) (patched st : List gm_patched_index)
    (s : Int) (h : gm_ptiles s patched) (hseq : gm_patch_seq patched calls = some st) :
    gm_ptiles s st := by
  induction calls generalizing patched with
  | nil =>
    simp only [gm_patch_seq, Option.some.injEq] at hseq
    rw [← hseq]
    exact h
  | cons call rest ih =>
    unfold gm_patch_seq at hseq
    cases hr : gm_patch_at patched call.1 call.2 with
    | mk r1 r2 =>
      cases r1 with
      | ok =>
        simp only [hr] at hseq
        have h1 := gm_ptiles_patch_at patched call.1 call.2 s h (by rw [hr])
        rw [hr] at h1
        exact ih r2 h1 hseq
      | error e =>
        simp only [hr] at hseq
        cases hseq

theorem gm_ptiles_index (l : List gm_patched_index) (s : Int) (h : gm_ptiles s l) :
    (∀ c, l[0]? = some c → c.offset = s) ∧
      ∀ k a b, l[k]? = some a → l[k + 1]? = some b →
        b.offset = off_wrap (a.offset + 8 + (a.size : Int)) := by
  induction l generalizing s with
  | nil =>
    constructor
    · intro c hc; simp at hc
    · intro k a b ha; simp at ha
  | cons c rest ih =>
    simp only [gm_ptiles] at h
    obtain ⟨h1, h2⟩ := h
    obtain ⟨ih1, ih2⟩ := ih _ h2
    constructor
    · intro c0 hc0
      simp only [List.getElem?_cons_zero, Option.some.injEq] at hc0
      rw [← hc0]
      exact h1
    · intro k a b ha hb
      cases k with
      | zero =>
        simp only [List.getElem?_cons_zero, Option.some.injEq] at ha
        simp only [List.getElem?_cons_succ] at hb
        rw [← ha, h1]
        exact ih1 b hb
      | succ k =>
        simp only [List.getElem?_cons_succ] at ha hb
        exact ih2 k a b ha hb

theorem gm_apply_patches_seq (patches : List gm_patch) (init st : List gm_patched_index)
    (h : gm_apply_patches init patches = (gm_status.ok, st)) :
    ∃ calls, gm_patch_seq init calls = some st := by
  induction patches generalizing init with
  | nil =>
    simp only [gm_apply_patches, Prod.mk.injEq, true_and] at h
    exact ⟨[], by rw [← h]; rfl⟩
  | cons p ps ih =>
    unfold gm_apply_patches at h
    cases hk : gm_get_section init p.sect with
    | none => simp only [hk] at h; cases h
    | some k =>
      simp only [hk] at h
      cases hr : gm_patch_at init k p with
      | mk r1 r2 =>
        cases r1 with
        | ok =>
          simp only [hr] at h
          obtain ⟨calls, hc⟩ := ih r2 h
          refine ⟨(k, p) :: calls, ?_⟩
          unfold gm_patch_seq
          simp only [hr]
          exact hc
        | error e =>
          simp only [hr] at h
          cases h

/-- C3. Chunk contiguity is an invariant of planning: in the planned index built from a
successfully parsed archive, after any sequence of `gm_patch_entry` calls that all return 0,
the first chunk is at offset 8 and every next chunk is at the offset of the chunk before it
plus 8 plus that chunk's payload size.  The sum is the one of `off_t`; it is the exact sum
whenever that is an `off_t` value. -/
theorem gm_chunks_contiguous (png : png_sniffer) (game : List Nat) (index : List gm_index)
    (calls : List (Nat × gm_patch)) (st : List gm_patched_index)
    (hparse : gm_read_index png game = some index)
    (hseq : gm_patch_seq (gm_build_patched index) calls = some st) :
    (∀ c, st[0]? = some c → c.offset = 8) ∧
      (∀ k a b, st[k]? = some a → st[k + 1]? = some b →
        b.offset = off_wrap (a.offset + 8 + (a.size : Int))) ∧
      (∀ k a b, st[k]? = some a → st[k + 1]? = some b →
        gm_off_ok (a.offset + 8 + (a.size : Int)) →
        b.offset = a.offset + 8 + (a.size : Int)) := by
  obtain ⟨buffer, -, ht⟩ := gm_read_index_tiles png game index hparse
  have h1 := gm_ptiles_build 8 _ index ht
  have h2 := gm_ptiles_patch_seq calls _ st _ h1 hseq
  obtain ⟨h3, h4⟩ := gm_ptiles_index st _ h2
  refine ⟨h3, h4, ?_⟩
  intro k a b ha hb hok
  rw [h4 k a b ha hb]
  unfold gm_off_ok at hok
  exact off_wrap_exact _ hok.1 hok.2

/-- C3 (witness). The image of `ex_archive` is replaced by one of 5 bytes. -/
theorem gm_chunks_contiguous_witness :
    (gm_read_index ex_sniffer ex_archive = some ex_archive_index ∧
      gm_patch_seq (gm_build_patched ex_archive_index) [(1, ex_patch_image)] =
        some (gm_patch_at (gm_build_patched ex_archive_index) 1 ex_patch_image).2) ∧
    ((∀ c, (gm_patch_at (gm_build_patched ex_archive_index) 1 ex_patch_image).2[0]? = some c →
        c.offset = 8) ∧
      (∀ k a b, (gm_patch_at (gm_build_patched ex_archive_index) 1 ex_patch_image).2[k]? =
          some a →
        (gm_patch_at (gm_build_patched ex_archive_index) 1 ex_patch_image).2[k + 1]? = some b →
        b.offset = off_wrap (a.offset + 8 + (a.size : Int))) ∧
      (∀ k a b, (gm_patch_at (gm_build_patched ex_archive_index) 1 ex_patch_image).2[k]? =
          some a →
        (gm_patch_at (gm_build_patched ex_archive_index) 1 ex_patch_image).2[k + 1]? = some b →
        gm_off_ok (a.offset + 8 + (a.size : Int)) →
        b.offset = a.offset + 8 + (a.size : Int))) :=
  ⟨by decide,
    gm_chunks_contiguous ex_sniffer ex_archive ex_archive_index [(1, ex_patch_image)]
      (gm_patch_at (gm_build_patched ex_archive_index) 1 ex_patch_image).2 (by decide)
      (by decide)⟩

/-! ## The planned index mirrors the parsed index -/

theorem gm_mirrors_build (index : List gm_index) : gm_mirrors index (gm_build_patched index) := by
  unfold gm_mirrors gm_build_patched
  rw [List.map_map]
  apply List.map_congr_left
  intro c _
  simp only [Function.comp, List.map_map]
  have : (c.entries.map ((fun e : gm_patched_entry => e.entry) ∘ fun e : gm_entry =>
      ({ offset := e.offset, size := e.size, patch := none, entry := e } : gm_patched_entry))) =
      c.entries := by
    conv_rhs => rw [← List.map_id c.entries]
    apply List.map_congr_left
    intro e _
    rfl
  rw [this]

theorem gm_shift_chunk_key (c : gm_patched_index) (offset : Int) :
    ((gm_shift_chunk c offset).sect, (gm_shift_chunk c offset).index,
      (gm_shift_chunk c offset).entries.map fun e => e.entry) =
    (c.sect, c.index, c.entries.map fun e => e.entry) := by
  rw [gm_shift_chunk_sect, gm_shift_chunk_index, gm_shift_chunk_entries, List.map_map]
  rfl

theorem gm_shift_tail_keys (l : List gm_patched_index) (offset : Int) :
    (gm_shift_tail l offset).2.map (fun c => (c.sect, c.index, c.entries.map fun e => e.entry)) =
      l.map fun c => (c.sect, c.index, c.entries.map fun e => e.entry) := by
  induction l with
  | nil => simp [gm_shift_tail]
  | cons c rest ih =>
    unfold gm_shift_tail
    split
    · simp only [List.map_cons, ih, gm_shift_chunk_key]
    · rfl

theorem gm_set_entries_key (entries : List gm_patched_entry) (i : Nat)
    (e e1 : gm_patched_entry) (he : entries[i]? = some e) (ho : e1.entry = e.entry) :
    (entries.set i e1).map (fun x => x.entry) = entries.map fun x => x.entry := by
  apply List.ext_getElem?
  intro j
  simp only [List.getElem?_map, List.getElem?_set]
  by_cases hij : i = j
  · subst hij
    have hi : i < entries.length := (List.getElem?_eq_some_iff.mp he).1
    simp [hi, he, ho]
  · simp [hij]

theorem gm_shift_siblings_key (entries : List gm_patched_entry) (pivot offset : Int) :
    (gm_shift_siblings entries pivot offset).map (fun x => x.entry) =
      entries.map fun x => x.entry := by
  unfold gm_shift_siblings
  rw [List.map_map]
  apply List.map_congr_left
  intro e _
  simp only [Function.comp]
  split <;> rfl

theorem gm_patch_entry_keys (l : List gm_patched_index) (patch : gm_patch) :
    (gm_patch_entry l patch).2.map
        (fun c => (c.sect, c.index, c.entries.map fun e => e.entry)) =
      l.map fun c => (c.sect, c.index, c.entries.map fun e => e.entry) := by
  cases l with
  | nil => simp [gm_patch_entry]
  | cons c rest =>
    by_cases hmov : gm_movable c.sect = true
    · cases he : c.entries[patch.index]? with
      | none => simp only [gm_patch_entry, hmov, if_true, List.get?_eq_getElem?, he]
      | some entry =>
        simp only [gm_patch_entry, hmov, if_true, List.get?_eq_getElem?, he]
        split
        · rfl
        · split
          · rfl
          · split
            · rfl
            · simp only [List.map_cons, gm_shift_tail_keys, gm_shift_siblings_key]
              rw [gm_set_entries_key c.entries patch.index entry
                { entry with size := patch.size, patch := some patch } he rfl]
    · simp only [gm_patch_entry, hmov, Bool.false_eq_true, if_false]
      split <;> rfl

theorem gm_mirrors_patch_at (index : List gm_index) (patched : List gm_patched_index)
    (k : Nat) (patch : gm_patch) (h : gm_mirrors index patched) :
    gm_mirrors index (gm_patch_at patched k patch).2 := by
  unfold gm_mirrors at h ⊢
  unfold gm_patch_at
  rw [List.map_append, gm_patch_entry_keys, ← List.map_append, List.take_append_drop]
  exact h

theorem gm_mirrors_apply (index : List gm_index) (patches : List gm_patch)
    (patched : List gm_patched_index) (h : gm_mirrors index patched) :
    gm_mirrors index (gm_apply_patches patched patches).2 := by
  induction patches generalizing patched with
  | nil => simpa [gm_apply_patches] using h
  | cons patch rest ih =>
    unfold gm_apply_patches
    split
    · exact h
    · rename_i k hk
      have h1 := gm_mirrors_patch_at index patched k patch h
      split
      · rename_i p1 heq
        rw [heq] at h1
        exact ih p1 h1
      · rename_i e p1 heq
        rw [heq] at h1
        exact h1

theorem gm_mirrors_section (index : List gm_index) (st : List gm_patched_index)
    (s : gm_section) (k : Nat) (c : gm_patched_index) (h : gm_mirrors index st)
    (hk : gm_get_section st s = some k) (hc : st[k]? = some c) :
    gm_index_section index s = some c.index ∧ c.sect = s ∧ c.index.sect = c.sect ∧
      c.index.entries = c.entries.map fun e => e.entry := by
  induction st generalizing index k with
  | nil => simp [gm_get_section] at hk
  | cons d rest ih =>
    unfold gm_mirrors at h
    cases index with
    | nil => simp at h
    | cons ic irest =>
      simp only [List.map_cons, List.cons.injEq, Prod.mk.injEq] at h
      obtain ⟨⟨h1, h2, h3⟩, h4⟩ := h
      unfold gm_get_section at hk
      unfold gm_index_section
      by_cases hs : d.sect = s
      · simp only [hs, if_true, Option.some.injEq] at hk
        subst hk
        simp only [List.getElem?_cons_zero, Option.some.injEq] at hc
        subst hc
        have hics : ic.sect = s := by rw [← h1]; exact hs
        simp only [hics, if_true]
        refine ⟨by rw [h2], hs, ?_, ?_⟩
        · rw [h2, hics, hs]
        · rw [h2, h3]
      · simp only [hs, if_false] at hk
        have hs1 : ¬ ic.sect = s := by rw [← h1]; exact hs
        simp only [hs1, if_false]
        cases hg : gm_get_section rest s with
        | none => simp [hg] at hk
        | some k1 =>
          simp only [hg, Option.map_some', Option.some.injEq] at hk
          subst hk
          simp only [List.getElem?_cons_succ] at hc
          exact ih irest k1 h4 hg hc

theorem gm_size_sum_append (a b : List gm_patched_index) :
    gm_size_sum (a ++ b) = gm_size_sum a + gm_size_sum b := by
  simp [gm_size_sum]

theorem gm_size_sum_cons (c : gm_patched_index) (b : List gm_patched_index) :
    gm_size_sum (c :: b) = (c.size : Int) + 8 + gm_size_sum b := by
  simp [gm_size_sum]

theorem gm_size_sum_shift (l : List gm_patched_index) (offset : Int) :
    gm_size_sum (l.map fun x => gm_shift_chunk x offset) = gm_size_sum l := by
  induction l with
  | nil => rfl
  | cons c rest ih =>
    rw [List.map_cons, gm_size_sum_cons, gm_size_sum_cons, ih, gm_shift_chunk_size]

theorem gm_form_size_fold (l : List gm_patched_index) (acc : Nat)
    (hacc : acc < 18446744073709551616) :
    l.foldl (fun size c => size_wrap ((size : Int) + size_wrap ((c.size : Int) + 8))) acc =
      size_wrap ((acc : Int) + gm_size_sum l) := by
  induction l generalizing acc with
  | nil =>
    simp only [List.foldl_nil, gm_size_sum, List.map_nil, List.sum_nil, add_zero]
    rw [size_wrap_eq]
    omega
  | cons c rest ih =>
    rw [List.foldl_cons, gm_size_sum_cons]
    have hlt : size_wrap ((acc : Int) + size_wrap ((c.size : Int) + 8)) <
        18446744073709551616 := by
      rw [size_wrap_eq]
      omega
    rw [ih _ hlt]
    simp only [size_wrap_eq]
    omega

theorem gm_form_size_eq (l : List gm_patched_index) :
    gm_form_size l = size_wrap (gm_size_sum l) := by
  unfold gm_form_size
  rw [gm_form_size_fold l 0 (by omega)]
  simp

theorem gm_size_sum_build (start stop : Nat) (index : List gm_index)
    (h : gm_tiles start index stop) (hs : start ≤ stop) :
    gm_size_sum (gm_build_patched index) = (stop : Int) - start := by
  induction index generalizing start with
  | nil =>
    simp only [gm_tiles] at h
    simp only [gm_build_patched, List.map_nil, gm_size_sum, List.sum_nil]
    omega
  | cons c rest ih =>
    simp only [gm_tiles] at h
    obtain ⟨-, h2, -, h4⟩ := h
    have := ih _ h4 h2
    simp only [gm_build_patched, List.map_cons] at this ⊢
    rw [gm_size_sum_cons, this]
    push_cast
    omega

theorem gm_get_section_some (st : List gm_patched_index) (s : gm_section) (k : Nat)
    (h : gm_get_section st s = some k) : ∃ c, st[k]? = some c := by
  induction st generalizing k with
  | nil => simp [gm_get_section] at h
  | cons d rest ih =>
    unfold gm_get_section at h
    by_cases hs : d.sect = s
    · simp only [hs, if_true, Option.some.injEq] at h
      subst h
      exact ⟨d, by simp⟩
    · simp only [hs, if_false] at h
      cases hg : gm_get_section rest s with
      | none => simp [hg] at h
      | some k1 =>
        simp only [hg, Option.map_some', Option.some.injEq] at h
        subst h
        obtain ⟨c, hc⟩ := ih k1 hg
        exact ⟨c, by simpa using hc⟩

theorem gm_patch_at_unmovable (st : List gm_patched_index) (k : Nat) (p : gm_patch)
    (c : gm_patched_index) (hc : st[k]? = some c) (hmov : ¬ gm_movable c.sect = true) :
    (gm_patch_at st k p).2 = st := by
  rw [gm_patch_at_eq st k p c hc]
  have hsame : (gm_patch_entry (c :: st.drop (k + 1)) p).2 = c :: st.drop (k + 1) := by
    simp only [gm_patch_entry, hmov, Bool.false_eq_true, if_false]
    split <;> rfl
  simp only [hsame]
  exact (gm_split_at st k c hc).symm

theorem gm_wrap_step (csize psize esize : Nat) :
    ((size_wrap ((csize : Int) + off_wrap (size_wrap ((psize : Int) - (esize : Int)))) : Int) -
      ((csize : Int) + ((psize : Int) - (esize : Int)))) % 18446744073709551616 = 0 := by
  simp only [size_wrap_eq, off_wrap_eq]
  omega

theorem gm_growth_step (index : List gm_index) (st : List gm_patched_index) (p : gm_patch)
    (k : Nat) (hm : gm_mirrors index st) (hk : gm_get_section st p.sect = some k)
    (hok : (gm_patch_at st k p).1 = gm_status.ok) :
    (gm_size_sum (gm_patch_at st k p).2 - (gm_size_sum st + gm_patch_growth index p)) %
      18446744073709551616 = 0 := by
  obtain ⟨c, hc⟩ := gm_get_section_some st p.sect k hk
  obtain ⟨hi1, hi2, hi3, hi4⟩ := gm_mirrors_section index st p.sect k c hm hk hc
  by_cases hmov : gm_movable c.sect = true
  · obtain ⟨e, he, -, -, -, -, h6⟩ := gm_patch_at_ok st k p c hc hmov hok
    have hg : gm_patch_growth index p = (p.size : Int) - (e.entry.size : Int) := by
      unfold gm_patch_growth
      rw [hi1]
      simp only [hi3, hmov, if_true, hi4, List.getElem?_map, he, Option.map_some']
    have hs : gm_size_sum st = gm_size_sum (st.take k) + ((c.size : Int) + 8 +
        gm_size_sum (st.drop (k + 1))) := by
      conv_lhs => rw [gm_split_at st k c hc]
      rw [gm_size_sum_append, gm_size_sum_cons]
    have hs1 : gm_size_sum (gm_patch_at st k p).2 = gm_size_sum (st.take k) +
        ((size_wrap ((c.size : Int) + gm_delta p e) : Int) + 8 +
        gm_size_sum (st.drop (k + 1))) := by
      rw [h6, gm_size_sum_append, gm_size_sum_cons, gm_size_sum_shift, gm_patched_chunk_size]
    have hw := gm_wrap_step c.size p.size e.entry.size
    rw [hs, hs1, hg]
    unfold gm_delta
    generalize size_wrap ((c.size : Int) + off_wrap (size_wrap ((p.size : Int) - (e.entry.size : Int)))) = w at hw ⊢
    omega
  · have hg : gm_patch_growth index p = 0 := by
      unfold gm_patch_growth
      rw [hi1]
      simp only [hi3, hmov, Bool.false_eq_true, if_false]
    rw [gm_patch_at_unmovable st k p c hc hmov, hg]
    simp

theorem gm_growth_apply (index : List gm_index) (patches : List gm_patch)
    (init st : List gm_patched_index) (hm : gm_mirrors index init)
    (h : gm_apply_patches init patches = (gm_status.ok, st)) :
    (gm_size_sum st - (gm_size_sum init + gm_total_growth index patches)) %
      18446744073709551616 = 0 := by
  induction patches generalizing init with
  | nil =>
    simp only [gm_apply_patches, Prod.mk.injEq, true_and] at h
    rw [h]
    simp [gm_total_growth]
  | cons p ps ih =>
    unfold gm_apply_patches at h
    cases hk : gm_get_section init p.sect with
    | none => simp only [hk] at h; cases h
    | some k =>
      simp only [hk] at h
      cases hr : gm_patch_at init k p with
      | mk r1 r2 =>
        cases r1 with
        | ok =>
          simp only [hr] at h
          have h1 := gm_growth_step index init p k hm hk (by rw [hr])
          have h2 := gm_mirrors_patch_at index init k p hm
          simp only [hr] at h1 h2
          have h3 := ih r2 h2 h
          simp only [gm_total_growth, List.map_cons, List.sum_cons] at h3 ⊢
          omega
        | error e =>
          simp only [hr] at h
          cases h

theorem gm_u32_roundtrip (n : Nat) (h : n ≤ UINT32_MAX) (m : List Nat) (hm : m.length = 4) :
    U32LE_FROM_BUF (m ++ WRITE_U32LE (n : Int)) 4 = n := by
  unfold UINT32_MAX at h
  have hw : u32_wrap (n : Int) = n := by
    rw [u32_wrap_eq]
    omega
  match m, hm with
  | [a, b, c, d], _ =>
    simp only [U32LE_FROM_BUF, WRITE_U32LE, hw, List.cons_append, List.nil_append,
      List.getD_cons_succ, List.getD_cons_zero]
    omega

theorem gm_io_data (s s1 : gm_out) (h : gm_io s = some s1) :
    s1.data = s.data ∧ s1.pos = s.pos := by
  unfold gm_io at h
  split at h
  · simp only [Option.some.injEq] at h; subst h; exact ⟨rfl, rfl⟩
  · cases h
  · simp only [Option.some.injEq] at h; subst h; exact ⟨rfl, rfl⟩

theorem gm_fwrite_data (bytes : List Nat) (s s1 : gm_out) (h : gm_fwrite bytes s = some s1) :
    s1.data = gm_file_write s.data s.pos bytes ∧ s1.pos = s.pos + bytes.length := by
  unfold gm_fwrite at h
  split at h
  · cases h
  · split at h
    · cases h
    · rename_i s2 hs2
      obtain ⟨h1, h2⟩ := gm_io_data s s2 hs2
      simp only [Option.some.injEq] at h
      subst h
      simp only [h1, h2, and_self]

theorem gm_write_hdr_data (m : List Nat) (size : Nat) (s s1 : gm_out) (hm : m.length = 4)
    (h : gm_write_hdr (some m) size s = some s1) :
    size ≤ UINT32_MAX ∧ s1.data = gm_file_write s.data s.pos (m ++ WRITE_U32LE (size : Int)) ∧
      s1.pos = s.pos + 8 := by
  unfold gm_write_hdr at h
  simp only at h
  split at h
  · cases h
  · rename_i hle
    have hm4 : m.take 4 = m := by
      rw [List.take_of_length_le (by omega)]
    rw [hm4] at h
    obtain ⟨hd, hp⟩ := gm_fwrite_data _ _ _ h
    refine ⟨by omega, hd, ?_⟩
    rw [hp]
    simp [WRITE_U32LE, hm]

theorem gm_file_write_empty (bytes : List Nat) : gm_file_write [] 0 bytes = bytes := by
  simp [gm_file_write]

theorem gm_form_size_facts (png : png_sniffer) (game : List Nat) (index : List gm_index)
    (patches : List gm_patch) (planned : List gm_patched_index) (buffer : List Nat)
    (hb : gm_fread game 0 8 = some buffer)
    (hparse : gm_read_index png game = some index)
    (hplan : gm_apply_patches (gm_build_patched index) patches = (gm_status.ok, planned)) :
    (∀ (fault : Option Nat) (s1 : gm_out),
        gm_write_hdr (some (gm_magic 'F' 'O' 'R' 'M')) (gm_form_size planned)
          { data := [], pos := 0, fault := fault } = some s1 →
        s1.data = gm_magic 'F' 'O' 'R' 'M' ++ WRITE_U32LE (gm_form_size planned : Int) ∧
          U32LE_FROM_BUF s1.data 4 = gm_form_size planned) ∧
      gm_form_size planned = size_wrap (gm_size_sum planned) ∧
      (gm_size_sum planned < 18446744073709551616 →
        (gm_form_size planned : Int) = gm_size_sum planned) ∧
      ((gm_form_size planned : Int) -
          ((U32LE_FROM_BUF buffer 4 : Int) + gm_total_growth index patches)) %
        18446744073709551616 = 0 ∧
      (0 ≤ (U32LE_FROM_BUF buffer 4 : Int) + gm_total_growth index patches →
        (U32LE_FROM_BUF buffer 4 : Int) + gm_total_growth index patches <
          18446744073709551616 →
        (gm_form_size planned : Int) =
          (U32LE_FROM_BUF buffer 4 : Int) + gm_total_growth index patches) := by
  obtain ⟨buffer1, hb1, ht⟩ := gm_read_index_tiles png game index hparse
  rw [hb] at hb1
  simp only [Option.some.injEq] at hb1
  subst hb1
  have hsum := gm_size_sum_build 8 _ index ht (by omega)
  have hgrow := gm_growth_apply index patches _ planned (gm_mirrors_build index) hplan
  have hform := gm_form_size_eq planned
  have hnonneg : 0 ≤ gm_size_sum planned := by
    unfold gm_size_sum
    apply List.sum_nonneg
    intro x hx
    obtain ⟨c, -, rfl⟩ := List.mem_map.mp hx
    omega
  refine ⟨?_, hform, ?_, ?_, ?_⟩
  · intro fault s1 h
    have hlen : (gm_magic 'F' 'O' 'R' 'M').length = 4 := by simp [gm_magic]
    obtain ⟨hle, hd, -⟩ := gm_write_hdr_data _ _ _ _ hlen h
    rw [gm_file_write_empty] at hd
    refine ⟨hd, ?_⟩
    rw [hd]
    exact gm_u32_roundtrip _ hle _ hlen
  · intro hlt
    rw [hform]
    exact size_wrap_exact _ hnonneg hlt
  · rw [hform, size_wrap_eq]
    rw [hsum] at hgrow
    push_cast at hgrow ⊢
    omega
  · intro h0 h1
    rw [hform, size_wrap_eq]
    rw [hsum] at hgrow
    push_cast at hgrow ⊢
    omega

/-! ## The writer without faults, on an output that agrees with the input -/

theorem gm_take_drop_zeros (game : List Nat) (L k : Nat)
    (hz : ∀ i, L ≤ i → i < L + k → game[i]? = some 0) :
    (game.drop L).take k = List.replicate k 0 := by
  apply List.ext_getElem?
  intro i
  by_cases hi : i < k
  · rw [List.getElem?_take, if_pos hi, List.getElem?_drop, hz (L + i) (by omega) (by omega),
      List.getElem?_replicate, if_pos hi]
  · rw [List.getElem?_take, if_neg hi, List.getElem?_replicate, if_neg hi]

theorem gm_file_write_sync (game : List Nat) (L P n : Nat) (hL : L ≤ game.length)
    (hn : P + n ≤ game.length)
    (hz : ∀ i, L ≤ i → i < P → game[i]? = some 0) :
    gm_file_write (game.take L) P ((game.drop P).take n) = game.take (max L (P + n)) := by
  unfold gm_file_write
  have hlen1 : (game.take L).length = L := by rw [List.length_take]; omega
  have hlen2 : ((game.drop P).take n).length = n := by
    rw [List.length_take, List.length_drop]; omega
  rw [hlen1, hlen2]
  by_cases hPL : P ≤ L
  · have e1 : (game.take L).take P = game.take P := by
      rw [List.take_take, Nat.min_eq_left hPL]
    have e2 : P - L = 0 := by omega
    have e3 : (game.take L).drop (P + n) = (game.drop (P + n)).take (L - (P + n)) := by
      rw [List.drop_take]
    rw [e1, e2, e3, List.replicate_zero, List.append_nil, ← List.take_add, ← List.take_add]
    congr 1
    omega
  · obtain ⟨Q, rfl⟩ : ∃ Q, P = L + Q := ⟨P - L, by omega⟩
    have e1 : (game.take L).take (L + Q) = game.take L := by
      rw [List.take_take, Nat.min_eq_right (by omega)]
    have e3 : (game.take L).drop (L + Q + n) = [] := by
      rw [List.drop_eq_nil_iff, hlen1]; omega
    have e2 : L + Q - L = Q := by omega
    have e4 : List.replicate Q 0 = (game.drop L).take Q := by
      rw [gm_take_drop_zeros game L Q]
      intro i h1 h2
      exact hz i h1 h2
    have e5 : max L (L + Q + n) = L + Q + n := by omega
    rw [e1, e2, e3, e4, List.append_nil, ← List.take_add, ← List.take_add, e5]

theorem gm_io_nofault (d : List Nat) (p : Nat) :
    gm_io { data := d, pos := p, fault := none } = some { data := d, pos := p, fault := none } :=
  rfl

theorem gm_fseeko_nofault (offset : Int) (d : List Nat) (p : Nat) (h : 0 ≤ offset) :
    gm_fseeko offset { data := d, pos := p, fault := none } =
      some { data := d, pos := offset.toNat, fault := none } := by
  unfold gm_fseeko
  rw [if_neg (by omega)]
  rfl

theorem gm_fwrite_nofault (bytes : List Nat) (d : List Nat) (p : Nat) (h : 0 < bytes.length) :
    gm_fwrite bytes { data := d, pos := p, fault := none } =
      some { data := gm_file_write d p bytes, pos := p + bytes.length, fault := none } := by
  unfold gm_fwrite
  rw [if_neg (by omega)]
  rfl

theorem gm_fread_some (file : List Nat) (pos n : Nat) (h0 : 0 < n) (h : pos + n ≤ file.length) :
    gm_fread file pos n = some ((file.drop pos).take n) := by
  unfold gm_fread
  rw [if_neg (by omega), if_pos h]

theorem gm_fread_eq (file : List Nat) (pos n : Nat) (b : List Nat)
    (h : gm_fread file pos n = some b) :
    0 < n ∧ pos + n ≤ file.length ∧ b = (file.drop pos).take n ∧ b.length = n := by
  unfold gm_fread at h
  split at h
  · cases h
  · split at h
    · simp only [Option.some.injEq] at h
      subst h
      refine ⟨by omega, by assumption, rfl, ?_⟩
      rw [List.length_take, List.length_drop]
      omega
    · cases h

theorem gm_fwrite_sync (game : List Nat) (L P n : Nat) (h0 : 0 < n) (hL : L ≤ game.length)
    (hn : P + n ≤ game.length) (hz : ∀ i, L ≤ i → i < P → game[i]? = some 0) :
    gm_fwrite ((game.drop P).take n) { data := game.take L, pos := P, fault := none } =
      some { data := game.take (max L (P + n)), pos := P + n, fault := none } := by
  have hlen : ((game.drop P).take n).length = n := by
    rw [List.length_take, List.length_drop]; omega
  rw [gm_fwrite_nofault _ _ _ (by omega), gm_file_write_sync game L P n hL hn hz, hlen]

theorem gm_copy_loop_sync (game : List Nat) (fuel size L P : Nat) (hf : size ≤ fuel)
    (hL : L ≤ game.length) (hn : P + size ≤ game.length)
    (hz : ∀ i, L ≤ i → i < P → game[i]? = some 0) :
    gm_copy_loop game fuel P size { data := game.take L, pos := P, fault := none } =
      some { data := game.take (if size = 0 then L else max L (P + size)), pos := P + size,
             fault := none } := by
  induction fuel generalizing size L P with
  | zero =>
    have : size = 0 := by omega
    subst this
    simp [gm_copy_loop]
  | succ fuel ih =>
    unfold gm_copy_loop
    by_cases hs : size > 0
    · have hB : 0 < BUFSIZ := by unfold BUFSIZ; omega
      rw [if_pos hs, gm_io_nofault]
      simp only
      generalize hc : (if size ≥ BUFSIZ then BUFSIZ else size) = chunk
      have hc1 : 0 < chunk ∧ chunk ≤ size := by
        rw [← hc]; split <;> omega
      rw [gm_fread_some game P chunk hc1.1 (by omega)]
      simp only
      rw [gm_fwrite_sync game L P chunk hc1.1 hL (by omega) hz]
      simp only
      rw [ih (size - chunk) (max L (P + chunk)) (P + chunk) (by omega) (by omega) (by omega)
        (by intro i h1 h2; omega)]
      have e1 : P + chunk + (size - chunk) = P + size := by omega
      have e2 : (if size - chunk = 0 then max L (P + chunk)
          else max (max L (P + chunk)) (P + chunk + (size - chunk))) =
          (if size = 0 then L else max L (P + size)) := by
        split <;> split <;> omega
      rw [e1] at e2 ⊢
      rw [e2]
    · have : size = 0 := by omega
      subst this
      simp

theorem gm_getD_drop (l : List Nat) (p k : Nat) : (l.drop p).getD k 0 = l.getD (p + k) 0 := by
  simp [List.getD_eq_getElem?_getD, List.getElem?_drop]

theorem gm_getD_take (l : List Nat) (n k : Nat) (h : k < n) :
    (l.take n).getD k 0 = l.getD k 0 := by
  simp [List.getD_eq_getElem?_getD, List.getElem?_take, h]

theorem gm_u32_of_fread (file : List Nat) (pos n k : Nat) (b : List Nat)
    (h : gm_fread file pos n = some b) (hk : k + 4 ≤ n) :
    U32LE_FROM_BUF b k = U32LE_FROM_BUF file (pos + k) := by
  obtain ⟨-, -, rfl, -⟩ := gm_fread_eq file pos n b h
  unfold U32LE_FROM_BUF
  rw [gm_getD_take _ _ _ (by omega), gm_getD_take _ _ _ (by omega),
    gm_getD_take _ _ _ (by omega), gm_getD_take _ _ _ (by omega), gm_getD_drop, gm_getD_drop,
    gm_getD_drop, gm_getD_drop]
  simp only [Nat.add_assoc]

theorem gm_getD_lt (file : List Nat) (hb : gm_bytes_ok file) (k : Nat) : file.getD k 0 < 256 := by
  rw [List.getD_eq_getElem?_getD]
  cases h : file[k]? with
  | none => simp
  | some v =>
    simp only [Option.getD_some]
    exact hb v (List.getElem?_mem h)

theorem gm_take4 (file : List Nat) (p : Nat) (hp : p + 4 ≤ file.length) :
    (file.drop p).take 4 =
      [file.getD p 0, file.getD (p + 1) 0, file.getD (p + 2) 0, file.getD (p + 3) 0] := by
  apply List.ext_getElem?
  intro i
  have h0 : ∀ j, j < 4 → file[p + j]? = some (file.getD (p + j) 0) := by
    intro j hj
    rw [List.getD_eq_getElem?_getD, List.getElem?_eq_getElem (by omega)]
    simp
  rw [List.getElem?_take, List.getElem?_drop]
  match i with
  | 0 => simpa using h0 0 (by omega)
  | 1 => simpa using h0 1 (by omega)
  | 2 => simpa using h0 2 (by omega)
  | 3 => simpa using h0 3 (by omega)
  | n + 4 => simp

theorem gm_u32_lt (file : List Nat) (hb : gm_bytes_ok file) (p : Nat) :
    U32LE_FROM_BUF file p < 4294967296 := by
  unfold U32LE_FROM_BUF
  have h0 := gm_getD_lt file hb p
  have h1 := gm_getD_lt file hb (p + 1)
  have h2 := gm_getD_lt file hb (p + 2)
  have h3 := gm_getD_lt file hb (p + 3)
  omega

theorem gm_write_u32_read (file : List Nat) (hb : gm_bytes_ok file) (p : Nat)
    (hp : p + 4 ≤ file.length) :
    WRITE_U32LE (U32LE_FROM_BUF file p : Int) = (file.drop p).take 4 := by
  have hlt := gm_u32_lt file hb p
  have hw : u32_wrap (U32LE_FROM_BUF file p : Int) = U32LE_FROM_BUF file p := by
    rw [u32_wrap_eq]; omega
  rw [gm_take4 file p hp]
  unfold WRITE_U32LE
  rw [hw]
  unfold U32LE_FROM_BUF
  have h0 := gm_getD_lt file hb p
  have h1 := gm_getD_lt file hb (p + 1)
  have h2 := gm_getD_lt file hb (p + 2)
  have h3 := gm_getD_lt file hb (p + 3)
  generalize file.getD p 0 = a at *
  generalize file.getD (p + 1) 0 = b at *
  generalize file.getD (p + 2) 0 = c at *
  generalize file.getD (p + 3) 0 = d at *
  have e0 : (a + 256 * b + 65536 * c + 16777216 * d) % 256 = a := by omega
  have e1 : (a + 256 * b + 65536 * c + 16777216 * d) / 256 % 256 = b := by omega
  have e2 : (a + 256 * b + 65536 * c + 16777216 * d) / 65536 % 256 = c := by omega
  have e3 : (a + 256 * b + 65536 * c + 16777216 * d) / 16777216 % 256 = d := by omega
  rw [e0, e1, e2, e3]

/-! ## Inversion of the readers -/

theorem gm_parse_chain_name (name : List Nat) (l : List gm_section)
    (h : gm_parse_chain name l ≠ GM_END) :
    gm_section_name (gm_parse_chain name l) = some (name.take 4) := by
  induction l with
  | nil => exact absurd rfl h
  | cons s rest ih =>
    unfold gm_parse_chain at h ⊢
    split
    · assumption
    · rename_i hne
      rw [if_neg hne] at h
      exact ih h

theorem gm_section_name_parse (buffer : List Nat) (h : gm_parse_section buffer ≠ GM_END) :
    gm_section_name (gm_parse_section buffer) = some (buffer.take 4) :=
  gm_parse_chain_name buffer _ h

theorem gm_read_index_loop_step (png : png_sniffer) (game : List Nat) (stop : Nat)
    (fuel offset count : Nat) (c : gm_index) (rest : List gm_index)
    (h : gm_read_index_loop png game stop fuel offset count = some (c :: rest)) :
    ∃ fuel1 buffer, fuel = fuel1 + 1 ∧ count < gm_index_capacity ∧ offset < stop ∧
      gm_fread game offset 8 = some buffer ∧
      gm_parse_section buffer ≠ GM_END ∧ c.sect = gm_parse_section buffer ∧
      c.offset = (offset : Int) ∧ c.size = U32LE_FROM_BUF buffer 4 ∧
      c.size + 8 ≤ INT32_MAX ∧ offset + c.size + 8 ≤ INT32_MAX ∧ offset + c.size + 8 ≤ stop ∧
      gm_read_section png game c.sect (offset + 8) = some c.entries ∧
      gm_read_index_loop png game stop fuel1 (offset + (c.size + 8)) (count + 1) = some rest := by
  cases fuel with
  | zero => simp [gm_read_index_loop] at h
  | succ fuel =>
    unfold gm_read_index_loop at h
    split at h
    · split at h
      · cases h
      · rename_i buffer hb
        split at h
        · cases h
        · split at h
          · cases h
          · split at h
            · cases h
            · split at h
              · cases h
              · split at h
                · cases h
                · rename_i entries he
                  split at h
                  · cases h
                  · rename_i rest1 hr
                    rename_i hlt _ hsec hrange hfit hcap _ _
                    simp only [Option.some.injEq, List.cons.injEq] at h
                    obtain ⟨h1, h2⟩ := h
                    subst h1 h2
                    unfold INT32_MAX at hrange ⊢
                    exact ⟨fuel, buffer, rfl, by omega, hlt, hb, hsec, rfl, rfl, rfl,
                      by simp only; omega, by simp only; omega, by simp only; omega, he, hr⟩
    · cases h

theorem gm_read_index_loop_nil (png : png_sniffer) (game : List Nat) (stop : Nat)
    (fuel offset count : Nat)
    (h : gm_read_index_loop png game stop fuel offset count = some []) : stop ≤ offset := by
  have := gm_read_index_loop_tiles png game stop fuel offset count [] h
  simpa [gm_tiles] using this

theorem gm_read_offsets_spec (game : List Nat) (pos count : Nat) (offs : List Nat)
    (h : gm_read_offsets game pos count = some offs) :
    offs.length = count ∧
      ∀ i, i < count → offs[i]? = some (U32LE_FROM_BUF game (pos + 4 * i)) ∧
        U32LE_FROM_BUF game (pos + 4 * i) ≤ INT32_MAX ∧ pos + 4 * i + 4 ≤ game.length := by
  induction count generalizing pos offs with
  | zero =>
    simp only [gm_read_offsets, Option.some.injEq] at h
    subst h
    exact ⟨rfl, fun i hi => absurd hi (by omega)⟩
  | succ n ih =>
    unfold gm_read_offsets at h
    split at h
    · cases h
    · rename_i buffer hb
      split at h
      · cases h
      · rename_i hle
        split at h
        · cases h
        · rename_i rest hr
          simp only [Option.some.injEq] at h
          subst h
          obtain ⟨h1, h3⟩ := ih (pos + 4) rest hr
          obtain ⟨-, hb2, -, -⟩ := gm_fread_eq game pos 4 buffer hb
          have hu := gm_u32_of_fread game pos 4 0 buffer hb (by omega)
          rw [Nat.add_zero] at hu
          refine ⟨by simp [h1], ?_⟩
          intro i hi
          cases i with
          | zero =>
            simp only [List.getElem?_cons_zero, Nat.mul_zero, Nat.add_zero]
            rw [← hu]
            exact ⟨rfl, by omega, hb2⟩
          | succ i =>
            simp only [List.getElem?_cons_succ]
            have := h3 i (by omega)
            have e : pos + 4 + 4 * i = pos + 4 * (i + 1) := by omega
            rw [e] at this
            exact this

theorem gm_read_entries_spec (read : Nat → Option gm_entry) (offs : List Nat)
    (es : List gm_entry) (h : gm_read_entries read offs = some es) :
    List.Forall₂ (fun o e => read o = some e) offs es := by
  induction offs generalizing es with
  | nil =>
    simp only [gm_read_entries, Option.some.injEq] at h
    subst h
    exact List.Forall₂.nil
  | cons o rest ih =>
    unfold gm_read_entries at h
    split at h
    · cases h
    · rename_i e he
      split at h
      · cases h
      · rename_i es1 hes
        simp only [Option.some.injEq] at h
        subst h
        exact List.Forall₂.cons he (ih es1 hes)

/-! ## The pieces of the writer on an output that agrees with the input -/

theorem gm_copydata_sync (game : List Nat) (L P size pos : Nat) (hL : L ≤ game.length)
    (hn : P + size ≤ game.length) (hz : ∀ i, L ≤ i → i < P → game[i]? = some 0) :
    gm_copydata game (P : Int) (P : Int) size { data := game.take L, pos := pos, fault := none } =
      some { data := game.take (if size = 0 then L else max L (P + size)), pos := P + size,
             fault := none } := by
  unfold gm_copydata
  rw [if_neg (by omega), gm_io_nofault]
  simp only
  rw [gm_fseeko_nofault _ _ _ (by omega)]
  simp only [Int.toNat_ofNat]
  exact gm_copy_loop_sync game size size L P (Nat.le_refl _) hL hn hz

theorem gm_write_hdr_sync (game : List Nat) (hb : gm_bytes_ok game) (L C : Nat) (m : List Nat)
    (size : Nat) (hm : m = (game.drop C).take 4) (hs : size = U32LE_FROM_BUF game (C + 4))
    (hL : L ≤ game.length) (hC : C + 8 ≤ game.length)
    (hz : ∀ i, L ≤ i → i < C → game[i]? = some 0) :
    gm_write_hdr (some m) size { data := game.take L, pos := C, fault := none } =
      some { data := game.take (max L (C + 8)), pos := C + 8, fault := none } := by
  have hlt := gm_u32_lt game hb (C + 4)
  unfold gm_write_hdr
  simp only
  rw [if_neg (by unfold UINT32_MAX; omega)]
  have hm4 : m.take 4 = m := by
    rw [hm, List.take_take, Nat.min_self]
  have hbytes : m ++ WRITE_U32LE (size : Int) = (game.drop C).take (4 + 4) := by
    rw [List.take_add, List.drop_drop, hm, hs, gm_write_u32_read game hb (C + 4) (by omega)]
  rw [hm4, hbytes]
  exact gm_fwrite_sync game L C 8 (by omega) hL hC hz

theorem gm_write_records_sync {α : Type} (game : List Nat) (g : α → List Nat) (r : Nat)
    (hr : 0 < r) (xs : List α) (base : Nat) (hbase : base ≤ game.length)
    (h : ∀ i x, xs[i]? = some x →
      g x = (game.drop (base + r * i)).take r ∧ base + r * i + r ≤ game.length) :
    gm_write_each (fun x => gm_fwrite (g x)) xs
        { data := game.take base, pos := base, fault := none } =
      some { data := game.take (base + r * xs.length), pos := base + r * xs.length,
             fault := none } := by
  induction xs generalizing base with
  | nil => simp [gm_write_each]
  | cons x rest ih =>
    unfold gm_write_each
    obtain ⟨h1, h2⟩ := h 0 x (by simp)
    rw [Nat.mul_zero, Nat.add_zero] at h1 h2
    rw [h1, gm_fwrite_sync game base base r hr hbase h2 (by intro i h3 h4; omega)]
    simp only
    have e : max base (base + r) = base + r := by omega
    rw [e, ih (base + r) h2]
    · have e2 : base + r + r * rest.length = base + r * (rest.length + 1) := by
        rw [Nat.mul_add]; omega
      rw [e2]
      rfl
    · intro i y hy
      have := h (i + 1) y (by simpa using hy)
      have e3 : base + r * (i + 1) = base + r + r * i := by rw [Nat.mul_add]; omega
      rw [e3] at this
      exact this

theorem gm_entries_packed_le (game : List Nat) (lead : Nat) (start : Nat) (es : List gm_entry)
    (stop : Nat) (h : gm_entries_packed game lead start es stop) : start ≤ stop := by
  induction es generalizing start with
  | nil =>
    simp only [gm_entries_packed] at h
    omega
  | cons e rest ih =>
    simp only [gm_entries_packed] at h
    obtain ⟨-, h2, -, -, h5⟩ := h
    have := ih _ h5
    omega

theorem gm_write_txtr_payloads_sync (game : List Nat) (es : List gm_entry)
    (start stop pos : Nat) (hp : gm_entries_packed game 0 start es stop)
    (hstop : stop ≤ game.length) :
    ∃ pos1, gm_write_each (gm_write_txtr_entry game)
        (es.map fun e => { offset := e.offset, size := e.size, patch := none, entry := e })
        { data := game.take start, pos := pos, fault := none } =
      some { data := game.take stop, pos := pos1, fault := none } := by
  induction es generalizing start pos with
  | nil =>
    simp only [gm_entries_packed] at hp
    subst hp
    exact ⟨pos, rfl⟩
  | cons e rest ih =>
    simp only [gm_entries_packed] at hp
    obtain ⟨h1, h2, h3, h4, h5⟩ := hp
    have hle := gm_entries_packed_le _ _ _ _ _ h5
    obtain ⟨p, hpe⟩ : ∃ p : Nat, e.offset = (p : Int) := ⟨e.offset.toNat, by omega⟩
    have hp0 : (e.offset - ((0 : Nat) : Int)).toNat = p := by omega
    rw [hp0] at h2 h4 h5 hle
    simp only [List.map_cons, gm_write_each, gm_write_txtr_entry]
    rw [hpe, gm_copydata_sync game start p e.size pos (by omega) (by omega)
      (by intro i hi1 hi2; exact h4 i hi2 hi1)]
    simp only
    have e1 : (if e.size = 0 then start else max start (p + e.size)) = p + 0 + e.size := by
      split <;> omega
    rw [e1]
    exact ih _ _ h5

theorem gm_write_audo_payloads_sync (game : List Nat) (es : List gm_entry)
    (start stop pos : Nat) (hp : gm_entries_packed game 4 start es stop)
    (hstop : stop ≤ game.length) (hbound : stop < 18446744073709551616) :
    ∃ pos1, gm_write_each (gm_write_audo_entry game)
        (es.map fun e => { offset := e.offset, size := e.size, patch := none, entry := e })
        { data := game.take start, pos := pos, fault := none } =
      some { data := game.take stop, pos := pos1, fault := none } := by
  induction es generalizing start pos with
  | nil =>
    simp only [gm_entries_packed] at hp
    subst hp
    exact ⟨pos, rfl⟩
  | cons e rest ih =>
    simp only [gm_entries_packed] at hp
    obtain ⟨h1, h2, h3, h4, h5⟩ := hp
    have hle := gm_entries_packed_le _ _ _ _ _ h5
    obtain ⟨p, hpe⟩ : ∃ p : Nat, e.offset - 4 = (p : Int) := ⟨(e.offset - 4).toNat, by omega⟩
    have hp0 : (e.offset - ((4 : Nat) : Int)).toNat = p := by omega
    rw [hp0] at h2 h4 h5 hle
    have hsz : size_wrap ((e.size : Int) + 4) = e.size + 4 := by
      rw [size_wrap_eq]; omega
    simp only [List.map_cons, gm_write_each, gm_write_audo_entry]
    rw [hpe, hsz, gm_copydata_sync game start p (e.size + 4) pos (by omega) (by omega)
      (by intro i hi1 hi2; exact h4 i hi2 hi1)]
    simp only
    have e1 : (if e.size + 4 = 0 then start else max start (p + (e.size + 4))) =
        p + 4 + e.size := by
      split <;> omega
    rw [e1]
    exact ih _ _ h5

theorem gm_read_txtr_entry_spec (png : png_sniffer) (game : List Nat) (o : Nat) (e : gm_entry)
    (h : gm_read_txtr_entry png game o = some e) :
    o + 12 ≤ game.length ∧ e.unknown1 = U32LE_FROM_BUF game o ∧
      e.unknown2 = U32LE_FROM_BUF game (o + 4) ∧
      e.offset = (U32LE_FROM_BUF game (o + 8) : Int) ∧ e.unknown1 ≤ 1 ∧ e.unknown2 = 0 ∧
      U32LE_FROM_BUF game (o + 8) ≤ INT32_MAX ∧ e.type = GM_PNG ∧
      ∃ info, png game (U32LE_FROM_BUF game (o + 8)) = some info ∧ e.size = info.filesize ∧
        e.width = info.width ∧ e.height = info.height := by
  unfold gm_read_txtr_entry at h
  split at h
  · cases h
  · rename_i buffer hb
    obtain ⟨-, hlen, -, -⟩ := gm_fread_eq game o 12 buffer hb
    have h0 := gm_u32_of_fread game o 12 0 buffer hb (by omega)
    have h4 := gm_u32_of_fread game o 12 4 buffer hb (by omega)
    have h8 := gm_u32_of_fread game o 12 8 buffer hb (by omega)
    rw [Nat.add_zero] at h0
    rw [h0, h4, h8] at h
    split at h
    · cases h
    · split at h
      · cases h
      · split at h
        · cases h
        · split at h
          · cases h
          · rename_i info hinfo
            simp only [Option.some.injEq] at h
            subst h
            exact ⟨hlen, rfl, rfl, rfl, by simp only; omega, by simp only; omega, by omega, rfl,
              info, hinfo, rfl, rfl, rfl⟩

theorem gm_take12 (file : List Nat) (o : Nat) :
    (file.drop o).take 4 ++ ((file.drop (o + 4)).take 4 ++ (file.drop (o + 8)).take 4) =
      (file.drop o).take 12 := by
  have e1 : (12 : Nat) = 4 + (4 + 4) := rfl
  rw [e1, List.take_add, List.take_add, List.drop_drop, List.drop_drop,
    show o + 4 + 4 = o + 8 from by omega]

theorem gm_txtr_descriptor_bytes (png : png_sniffer) (game : List Nat) (hb : gm_bytes_ok game)
    (o : Nat) (e : gm_entry) (h : gm_read_txtr_entry png game o = some e) :
    WRITE_U32LE (e.unknown1 : Int) ++ WRITE_U32LE (e.unknown2 : Int) ++ WRITE_U32LE e.offset =
      (game.drop o).take 12 := by
  obtain ⟨hlen, h1, h2, h3, -⟩ := gm_read_txtr_entry_spec png game o e h
  rw [h1, h2, h3, gm_write_u32_read game hb o (by omega),
    gm_write_u32_read game hb (o + 4) (by omega), gm_write_u32_read game hb (o + 8) (by omega),
    List.append_assoc, gm_take12]

theorem gm_read_audo_entry_spec (game : List Nat) (o : Nat) (e : gm_entry)
    (h : gm_read_audo_entry game o = some e) :
    o + 4 ≤ game.length ∧ e.offset = ((o + 4 : Nat) : Int) ∧ e.size = U32LE_FROM_BUF game o ∧
      0 < e.size ∧
      e.type = gm_audo_type ((game.drop (o + 4)).take (if e.size < 12 then e.size else 12))
        (if e.size < 12 then e.size else 12) := by
  unfold gm_read_audo_entry at h
  split at h
  · cases h
  · rename_i buffer hb
    obtain ⟨-, hlen, -, -⟩ := gm_fread_eq game o 4 buffer hb
    have h0 := gm_u32_of_fread game o 4 0 buffer hb (by omega)
    rw [Nat.add_zero] at h0
    rw [h0] at h
    split at h
    · cases h
    · rename_i hdr hh
      obtain ⟨hpos, -, hhdr, -⟩ := gm_fread_eq _ _ _ _ hh
      simp only [Option.some.injEq] at h
      subst h
      refine ⟨hlen, rfl, rfl, ?_, ?_⟩
      · simp only
        split at hpos <;> omega
      · simp only
        rw [hhdr]

theorem gm_read_entries_get (read : Nat → Option gm_entry) (offs : List Nat)
    (es : List gm_entry) (h : gm_read_entries read offs = some es) :
    es.length = offs.length ∧
      ∀ (i : Nat) (e : gm_entry), es[i]? = some e → ∃ o, offs[i]? = some o ∧ read o = some e := by
  induction offs generalizing es with
  | nil =>
    simp only [gm_read_entries, Option.some.injEq] at h
    subst h
    exact ⟨rfl, fun i e he => by simp at he⟩
  | cons o rest ih =>
    unfold gm_read_entries at h
    split at h
    · cases h
    · rename_i e0 he0
      split at h
      · cases h
      · rename_i es0 hes0
        simp only [Option.some.injEq] at h
        subst h
        obtain ⟨hl, hg⟩ := ih es0 hes0
        refine ⟨by simp only [List.length_cons, hl], ?_⟩
        intro i e he
        cases i with
        | zero =>
          simp only [List.getElem?_cons_zero, Option.some.injEq] at he
          subst he
          exact ⟨o, by simp, he0⟩
        | succ j =>
          simp only [List.getElem?_cons_succ] at he ⊢
          exact hg j e he

theorem gm_write_txtr_sync (png : png_sniffer) (game : List Nat) (hb : gm_bytes_ok game)
    (ptr : gm_patched_index) (C : Nat) (es : List gm_entry) (size : Nat)
    (hsect : ptr.sect = GM_TXTR) (hoff : ptr.offset = (C : Int))
    (hes : ptr.entries =
      es.map fun e => { offset := e.offset, size := e.size, patch := none, entry := e })
    (hent : gm_read_index_txtr png game (C + 8) = some es)
    (htab : ∀ i < es.length,
      U32LE_FROM_BUF game (C + 12 + 4 * i) = C + 12 + 4 * es.length + 12 * i)
    (hpk : gm_entries_packed game 0 (C + 12 + 16 * es.length) es (C + 8 + size))
    (hfit : C + 8 + size ≤ game.length) (hint : C + 8 + size ≤ INT32_MAX) :
    ∃ pos1, gm_write_section game ptr { data := game.take (C + 8), pos := C + 8, fault := none } =
      some { data := game.take (C + 8 + size), pos := pos1, fault := none } := by
  have hle := gm_entries_packed_le _ _ _ _ _ hpk
  have hI : INT32_MAX = 2147483647 := rfl
  unfold gm_read_index_txtr at hent
  split at hent
  · cases hent
  rename_i buffer hbuf
  have hc := gm_u32_of_fread game (C + 8) 4 0 buffer hbuf (by omega)
  rw [Nat.add_zero] at hc
  rw [hc] at hent
  split at hent
  · cases hent
  rename_i offs hoffs
  obtain ⟨hol, hog⟩ := gm_read_offsets_spec _ _ _ _ hoffs
  obtain ⟨hel, heg⟩ := gm_read_entries_get _ _ _ hent
  have hn : es.length = U32LE_FROM_BUF game (C + 8) := by omega
  have e1 : WRITE_U32LE (es.length : Int) = (game.drop (C + 8)).take 4 := by
    rw [hn]; exact gm_write_u32_read game hb (C + 8) (by omega)
  have htable := gm_write_records_sync game
    (fun i => WRITE_U32LE (gm_fileinfo_offset ptr i)) 4 (by omega) (List.range es.length)
    (C + 12) (by omega) (by
      intro i x hx
      obtain ⟨hi, hx⟩ := List.getElem?_eq_some_iff.mp hx
      rw [List.length_range] at hi
      rw [List.getElem_range] at hx
      subst hx
      beta_reduce
      obtain ⟨-, -, hbound⟩ := hog i (by omega)
      refine ⟨?_, by omega⟩
      have e : gm_fileinfo_offset ptr i = (U32LE_FROM_BUF game (C + 12 + 4 * i) : Int) := by
        unfold gm_fileinfo_offset
        rw [hoff, hes, List.length_map, htab i hi, u32_wrap_eq, u32_wrap_eq]
        omega
      simp only [e]
      exact gm_write_u32_read game hb _ (by omega))
  have hdesc := gm_write_records_sync game
    (fun (entry : gm_patched_entry) =>
      WRITE_U32LE (entry.entry.unknown1 : Int) ++ WRITE_U32LE (entry.entry.unknown2 : Int) ++
        WRITE_U32LE entry.offset) 12 (by omega)
    (es.map fun e => { offset := e.offset, size := e.size, patch := none, entry := e })
    (C + 12 + 4 * es.length) (by omega) (by
      intro i x hx
      rw [List.getElem?_map] at hx
      cases hei : es[i]? with
      | none => rw [hei] at hx; cases hx
      | some e =>
        rw [hei] at hx
        simp only [Option.map_some', Option.some.injEq] at hx
        subst hx
        beta_reduce
        obtain ⟨o, ho, hread⟩ := heg i e hei
        have hi : i < es.length := (List.getElem?_eq_some_iff.mp hei).1
        obtain ⟨ho1, -, -⟩ := hog i (by omega)
        rw [ho1] at ho
        simp only [Option.some.injEq] at ho
        have ho2 : o = C + 12 + 4 * es.length + 12 * i := by
          have := htab i hi
          have e : C + 8 + 4 + 4 * i = C + 12 + 4 * i := by omega
          rw [e] at ho
          omega
        subst ho2
        obtain ⟨hlen, -⟩ := gm_read_txtr_entry_spec png game _ e hread
        exact ⟨gm_txtr_descriptor_bytes png game hb _ e hread, hlen⟩)
  obtain ⟨pos1, hpay⟩ := gm_write_txtr_payloads_sync game es (C + 12 + 16 * es.length)
    (C + 8 + size) (C + 12 + 16 * es.length) hpk hfit
  refine ⟨pos1, ?_⟩
  unfold gm_write_section
  simp only [hsect]
  rw [hes, List.length_map, e1, gm_fwrite_sync game (C + 8) (C + 8) 4 (by omega) (by omega) (by omega)
    (by intro i h1 h2; omega)]
  simp only
  have e2 : max (C + 8) (C + 8 + 4) = C + 12 := by omega
  have e3 : C + 8 + 4 = C + 12 := by omega
  rw [e2, e3]
  rw [List.length_range] at htable
  beta_reduce at htable hdesc
  rw [htable]
  simp only
  rw [List.length_map] at hdesc
  rw [hdesc]
  simp only
  have e4 : C + 12 + 4 * es.length + 12 * es.length = C + 12 + 16 * es.length := by omega
  rw [e4]
  exact hpay

theorem gm_write_audo_sync (game : List Nat) (hb : gm_bytes_ok game)
    (ptr : gm_patched_index) (C : Nat) (es : List gm_entry) (size : Nat)
    (hsect : ptr.sect = GM_AUDO)
    (hes : ptr.entries =
      es.map fun e => { offset := e.offset, size := e.size, patch := none, entry := e })
    (hent : gm_read_index_audo game (C + 8) = some es)
    (hpk : gm_entries_packed game 4 (C + 12 + 4 * es.length) es (C + 8 + size))
    (hfit : C + 8 + size ≤ game.length) (hint : C + 8 + size ≤ INT32_MAX) :
    ∃ pos1, gm_write_section game ptr { data := game.take (C + 8), pos := C + 8, fault := none } =
      some { data := game.take (C + 8 + size), pos := pos1, fault := none } := by
  have hle := gm_entries_packed_le _ _ _ _ _ hpk
  have hI : INT32_MAX = 2147483647 := rfl
  unfold gm_read_index_audo at hent
  split at hent
  · cases hent
  rename_i buffer hbuf
  have hc := gm_u32_of_fread game (C + 8) 4 0 buffer hbuf (by omega)
  rw [Nat.add_zero] at hc
  rw [hc] at hent
  split at hent
  · cases hent
  rename_i offs hoffs
  obtain ⟨hol, hog⟩ := gm_read_offsets_spec _ _ _ _ hoffs
  obtain ⟨hel, heg⟩ := gm_read_entries_get _ _ _ hent
  have hn : es.length = U32LE_FROM_BUF game (C + 8) := by omega
  have e1 : WRITE_U32LE (es.length : Int) = (game.drop (C + 8)).take 4 := by
    rw [hn]; exact gm_write_u32_read game hb (C + 8) (by omega)
  have htable := gm_write_records_sync game
    (fun (entry : gm_patched_entry) => WRITE_U32LE (entry.offset - 4)) 4 (by omega)
    (es.map fun e => { offset := e.offset, size := e.size, patch := none, entry := e })
    (C + 12) (by omega) (by
      intro i x hx
      rw [List.getElem?_map] at hx
      cases hei : es[i]? with
      | none => rw [hei] at hx; cases hx
      | some e =>
        rw [hei] at hx
        simp only [Option.map_some', Option.some.injEq] at hx
        subst hx
        beta_reduce
        obtain ⟨o, ho, hread⟩ := heg i e hei
        have hi : i < es.length := (List.getElem?_eq_some_iff.mp hei).1
        obtain ⟨ho1, -, hbound⟩ := hog i (by omega)
        rw [ho1] at ho
        simp only [Option.some.injEq] at ho
        have e0 : C + 8 + 4 + 4 * i = C + 12 + 4 * i := by omega
        rw [e0] at ho hbound
        obtain ⟨-, hoff, -⟩ := gm_read_audo_entry_spec game o e hread
        have e5 : e.offset - 4 = (U32LE_FROM_BUF game (C + 12 + 4 * i) : Int) := by
          rw [hoff, ho]; omega
        simp only [e5]
        exact ⟨gm_write_u32_read game hb _ (by omega), hbound⟩)
  obtain ⟨pos1, hpay⟩ := gm_write_audo_payloads_sync game es (C + 12 + 4 * es.length)
    (C + 8 + size) (C + 12 + 4 * es.length) hpk hfit (by omega)
  refine ⟨pos1, ?_⟩
  unfold gm_write_section
  simp only [hsect]
  rw [hes, List.length_map, e1, gm_fwrite_sync game (C + 8) (C + 8) 4 (by omega) (by omega)
    (by omega) (by intro i h1 h2; omega)]
  simp only
  have e2 : max (C + 8) (C + 8 + 4) = C + 12 := by omega
  have e3 : C + 8 + 4 = C + 12 := by omega
  rw [e2, e3]
  rw [List.length_map] at htable
  beta_reduce at htable
  rw [htable]
  simp only
  exact hpay

theorem gm_write_opaque_sync (game : List Nat) (ptr : gm_patched_index) (C : Nat)
    (hs1 : ptr.sect ≠ GM_TXTR) (hs2 : ptr.sect ≠ GM_AUDO)
    (hoff : ptr.offset = (C : Int)) (hioff : ptr.index.offset = (C : Int))
    (hfit : C + 8 + ptr.size ≤ game.length) (hint : C + 8 + ptr.size ≤ INT32_MAX) :
    ∃ pos1, gm_write_section game ptr { data := game.take (C + 8), pos := C + 8, fault := none } =
      some { data := game.take (C + 8 + ptr.size), pos := pos1, fault := none } := by
  have hI : INT32_MAX = 2147483647 := rfl
  have hw : size_wrap ((ptr.size : Int) + 8) = ptr.size + 8 := by
    rw [size_wrap_eq]; omega
  have hcopy := gm_copydata_sync game (C + 8) C (ptr.size + 8) (C + 8) (by omega) (by omega)
    (by intro i h1 h2; omega)
  have e1 : (if ptr.size + 8 = 0 then C + 8 else max (C + 8) (C + (ptr.size + 8))) =
      C + 8 + ptr.size := by
    split <;> omega
  rw [e1] at hcopy
  refine ⟨C + (ptr.size + 8), ?_⟩
  unfold gm_write_section
  split
  · rename_i h; exact absurd h hs1
  · rename_i h; exact absurd h hs2
  · rw [hoff, hioff, hw]
    exact hcopy

theorem gm_write_chunk_sync (png : png_sniffer) (game : List Nat) (hb : gm_bytes_ok game)
    (c : gm_index) (C pos : Nat) (buffer : List Nat)
    (hread : gm_fread game C 8 = some buffer) (hsec : gm_parse_section buffer ≠ GM_END)
    (hs : c.sect = gm_parse_section buffer) (hoff : c.offset = (C : Int))
    (hsize : c.size = U32LE_FROM_BUF buffer 4)
    (hint : C + c.size + 8 ≤ INT32_MAX) (hfit : C + c.size + 8 ≤ game.length)
    (hent : gm_read_section png game c.sect (C + 8) = some c.entries)
    (hpk : gm_chunk_packed game c) :
    ∃ pos1, gm_write_chunk game
        { sect := c.sect, offset := c.offset, size := c.size,
          entries := c.entries.map fun e =>
            { offset := e.offset, size := e.size, patch := none, entry := e },
          index := c }
        { data := game.take C, pos := pos, fault := none } =
      some { data := game.take (C + (c.size + 8)), pos := pos1, fault := none } := by
  obtain ⟨-, hlen, hbuf, -⟩ := gm_fread_eq _ _ _ _ hread
  have h4 := gm_u32_of_fread game C 8 4 buffer hread (by omega)
  have hname : gm_section_name c.sect = some ((game.drop C).take 4) := by
    rw [hs, gm_section_name_parse buffer hsec, hbuf, List.take_take]
    rfl
  have hhdr := gm_write_hdr_sync game hb C C ((game.drop C).take 4) c.size rfl
    (by rw [hsize, h4]) (by omega) hlen (by intro i h1 h2; omega)
  have e1 : max C (C + 8) = C + 8 := by omega
  have e2 : C + (c.size + 8) = C + 8 + c.size := by omega
  rw [e1] at hhdr
  rw [e2]
  have hto : c.offset.toNat = C := by rw [hoff]; exact Int.toNat_ofNat C
  unfold gm_write_chunk
  simp only
  rw [hoff, gm_fseeko_nofault _ _ _ (by omega)]
  simp only [Int.toNat_ofNat]
  rw [hname, hhdr]
  simp only
  by_cases ht : c.sect = GM_TXTR
  · unfold gm_chunk_packed at hpk
    rw [ht] at hent
    simp only [ht, hto] at hpk
    exact gm_write_txtr_sync png game hb _ C c.entries c.size ht (by simp only [hoff]) rfl
      hent hpk.1 hpk.2 (by omega) (by omega)
  · by_cases ha : c.sect = GM_AUDO
    · unfold gm_chunk_packed at hpk
      rw [ha] at hent
      simp only [ha, hto] at hpk
      exact gm_write_audo_sync game hb _ C c.entries c.size ha rfl hent hpk (by omega)
        (by omega)
    · exact gm_write_opaque_sync game _ C ht ha (by simp only [hoff]) hoff (by simp only; omega)
        (by simp only; omega)

theorem gm_write_chunks_sync (png : png_sniffer) (game : List Nat) (hb : gm_bytes_ok game)
    (stop : Nat) (hstop : stop ≤ game.length) (fuel : Nat) :
    ∀ (offset count : Nat) (index : List gm_index) (pos : Nat),
      gm_read_index_loop png game stop fuel offset count = some index →
      gm_packed game index →
      ∃ pos1, gm_write_each (gm_write_chunk game) (gm_build_patched index)
          { data := game.take offset, pos := pos, fault := none } =
        some { data := game.take (max offset stop), pos := pos1, fault := none } := by
  induction fuel with
  | zero =>
    intro offset count index pos h hpk
    cases index with
    | nil =>
      have := gm_read_index_loop_nil _ _ _ _ _ _ h
      rw [max_eq_left this]
      exact ⟨pos, rfl⟩
    | cons c rest =>
      obtain ⟨fuel1, -, hf, -⟩ := gm_read_index_loop_step _ _ _ _ _ _ _ _ h
      omega
  | succ n ih =>
    intro offset count index pos h hpk
    cases index with
    | nil =>
      have := gm_read_index_loop_nil _ _ _ _ _ _ h
      rw [max_eq_left this]
      exact ⟨pos, rfl⟩
    | cons c rest =>
      obtain ⟨fuel1, buffer, hf, -, hlt, hread, hsec, hs, hoff, hsize, -, hint, hfit, hent,
        hrest⟩ := gm_read_index_loop_step _ _ _ _ _ _ _ _ h
      have hfe : fuel1 = n := by omega
      subst hfe
      have hpc : gm_chunk_packed game c := hpk c (List.mem_cons_self _ _)
      have hpr : gm_packed game rest := fun d hd => hpk d (List.mem_cons_of_mem _ hd)
      obtain ⟨p1, hc⟩ := gm_write_chunk_sync png game hb c offset pos buffer hread hsec hs hoff
        hsize hint (by omega) hent hpc
      obtain ⟨p2, hr⟩ := ih _ _ rest p1 hrest hpr
      refine ⟨p2, ?_⟩
      have e1 : max (offset + (c.size + 8)) stop = max offset stop := by omega
      rw [e1] at hr
      simp only [gm_build_patched, List.map_cons, gm_write_each]
      rw [hc]
      exact hr

theorem gm_write_archive_sync (png : png_sniffer) (game : List Nat) (index : List gm_index)
    (hb : gm_bytes_ok game) (hidx : gm_read_index png game = some index)
    (hlen : game.length = U32LE_FROM_BUF game 4 + 8) (hpk : gm_packed game index) :
    ∃ pos1, gm_write_archive game (gm_build_patched index)
        { data := [], pos := 0, fault := none } =
      some { data := game, pos := pos1, fault := none } := by
  obtain ⟨buffer, hread, htiles⟩ := gm_read_index_tiles png game index hidx
  have h4 := gm_u32_of_fread game 0 8 4 buffer hread (by omega)
  rw [Nat.zero_add] at h4
  rw [h4] at htiles
  obtain ⟨-, -, hbuf, -⟩ := gm_fread_eq _ _ _ _ hread
  have hlt := gm_u32_lt game hb 4
  have hform : gm_form_size (gm_build_patched index) = U32LE_FROM_BUF game 4 := by
    rw [gm_form_size_eq, gm_size_sum_build 8 _ index htiles (by omega), size_wrap_eq]
    omega
  unfold gm_read_index at hidx
  rw [hread] at hidx
  simp only at hidx
  split at hidx
  · cases hidx
  rename_i hmagic
  rw [h4] at hidx
  have hm : gm_magic 'F' 'O' 'R' 'M' = (game.drop 0).take 4 := by
    have := not_not.mp hmagic
    rw [← this, hbuf, List.take_take]
    rfl
  have hhdr := gm_write_hdr_sync game hb 0 0 (gm_magic 'F' 'O' 'R' 'M')
    (gm_form_size (gm_build_patched index)) hm (by rw [hform]) (by omega) (by omega)
    (by intro i h1 h2; omega)
  obtain ⟨p1, hch⟩ := gm_write_chunks_sync png game hb (U32LE_FROM_BUF game 4 + 8) (by omega)
    _ 8 0 index 8 hidx hpk
  have e1 : max 8 (U32LE_FROM_BUF game 4 + 8) = game.length := by omega
  rw [e1, List.take_length] at hch
  refine ⟨p1, ?_⟩
  unfold gm_write_archive
  have e0 : ([] : List Nat) = game.take 0 := by simp
  rw [e0, hhdr]
  exact hch

/-- C1 (counterexample). `ex_archive_gap` parses, and `gm_patch_archive` with an empty patch
list succeeds on it, but the byte between the offset table and the blob, 255 in the input, is
0 in the file that is written: the writer seeks over it and never copies it. -/
theorem gm_round_trip_gap_lost :
    (gm_read_index ex_sniffer ex_archive_gap).isSome = true ∧
      gm_patch_archive ex_sniffer none { target := some ex_archive_gap, tmp := none } [] =
        (gm_status.ok, { target := some ex_archive_gap_zeroed, tmp := none }) ∧
      ex_archive_gap_zeroed ≠ ex_archive_gap := by
  decide

/-! ## What a successful write leaves untouched -/

theorem gm_file_write_keep (d : List Nat) (E p : Nat) (bytes : List Nat) (hE : E ≤ d.length)
    (hp : E ≤ p) : (gm_file_write d p bytes).take E = d.take E := by
  unfold gm_file_write
  have hl : E ≤ (d.take p).length := by rw [List.length_take]; omega
  rw [List.append_assoc, List.append_assoc, List.take_append_of_le_length hl, List.take_take,
    min_eq_left hp]

theorem gm_take_length_le {α : Type} (a b : List α) (E : Nat) (h : a.take E = b.take E)
    (hb : E ≤ b.length) : E ≤ a.length := by
  have := congrArg List.length h
  rw [List.length_take, List.length_take] at this
  omega

theorem gm_io_keep (E : Nat) (s s1 : gm_out) (hE : E ≤ s.data.length) (hp : E ≤ s.pos)
    (h : gm_io s = some s1) :
    s1.data.take E = s.data.take E ∧ E ≤ s1.data.length ∧ E ≤ s1.pos := by
  obtain ⟨h1, h2⟩ := gm_io_data s s1 h
  rw [h1, h2]
  exact ⟨rfl, hE, hp⟩

theorem gm_fseeko_keep (E : Nat) (offset : Int) (s s1 : gm_out) (hE : E ≤ s.data.length)
    (ho : (E : Int) ≤ offset) (h : gm_fseeko offset s = some s1) :
    s1.data.take E = s.data.take E ∧ E ≤ s1.data.length ∧ E ≤ s1.pos := by
  unfold gm_fseeko at h
  split at h
  · cases h
  · split at h
    · cases h
    · rename_i s2 hs2
      obtain ⟨h1, -⟩ := gm_io_data s s2 hs2
      simp only [Option.some.injEq] at h
      subst h
      simp only [h1]
      exact ⟨trivial, hE, by omega⟩

theorem gm_fwrite_keep (E : Nat) (bytes : List Nat) (s s1 : gm_out) (hE : E ≤ s.data.length)
    (hp : E ≤ s.pos) (h : gm_fwrite bytes s = some s1) :
    s1.data.take E = s.data.take E ∧ E ≤ s1.data.length ∧ E ≤ s1.pos := by
  obtain ⟨h1, h2⟩ := gm_fwrite_data bytes s s1 h
  have hk : s1.data.take E = s.data.take E := by
    rw [h1]; exact gm_file_write_keep _ _ _ _ hE hp
  exact ⟨hk, gm_take_length_le _ _ _ hk hE, by omega⟩

theorem gm_write_each_keep {α : Type} (E : Nat) (step : α → gm_out → Option gm_out)
    (xs : List α)
    (hstep : ∀ x ∈ xs, ∀ (s s1 : gm_out), E ≤ s.data.length → E ≤ s.pos → step x s = some s1 →
      s1.data.take E = s.data.take E ∧ E ≤ s1.data.length ∧ E ≤ s1.pos)
    (s s1 : gm_out) (hE : E ≤ s.data.length) (hp : E ≤ s.pos)
    (h : gm_write_each step xs s = some s1) :
    s1.data.take E = s.data.take E ∧ E ≤ s1.data.length ∧ E ≤ s1.pos := by
  induction xs generalizing s with
  | nil =>
    simp only [gm_write_each, Option.some.injEq] at h
    subst h
    exact ⟨rfl, hE, hp⟩
  | cons x rest ih =>
    unfold gm_write_each at h
    split at h
    · cases h
    · rename_i s2 hs2
      obtain ⟨a1, a2, a3⟩ := hstep x (List.mem_cons_self _ _) s s2 hE hp hs2
      obtain ⟨b1, b2, b3⟩ := ih (fun y hy => hstep y (List.mem_cons_of_mem _ hy)) s2 a2 a3 h
      exact ⟨b1.trans a1, b2, b3⟩

theorem gm_copy_loop_keep (E : Nat) (src : List Nat) (fuel : Nat) :
    ∀ (srcpos size : Nat) (s s1 : gm_out), E ≤ s.data.length → E ≤ s.pos →
      gm_copy_loop src fuel srcpos size s = some s1 →
      s1.data.take E = s.data.take E ∧ E ≤ s1.data.length ∧ E ≤ s1.pos := by
  induction fuel with
  | zero =>
    intro srcpos size s s1 hE hp h
    unfold gm_copy_loop at h
    split at h
    · cases h
    · simp only [Option.some.injEq] at h; subst h; exact ⟨rfl, hE, hp⟩
  | succ n ih =>
    intro srcpos size s s1 hE hp h
    unfold gm_copy_loop at h
    split at h
    · split at h
      · cases h
      · rename_i s2 hs2
        obtain ⟨a1, a2, a3⟩ := gm_io_keep E s s2 hE hp hs2
        split at h
        · cases h
        · split at h
          · cases h
          · rename_i s3 hs3
            obtain ⟨b1, b2, b3⟩ := gm_fwrite_keep E _ s2 s3 a2 a3 hs3
            obtain ⟨c1, c2, c3⟩ := ih _ _ s3 s1 b2 b3 h
            exact ⟨c1.trans (b1.trans a1), c2, c3⟩
    · simp only [Option.some.injEq] at h; subst h; exact ⟨rfl, hE, hp⟩

theorem gm_copydata_keep (E : Nat) (src : List Nat) (srcoff dstoff : Int) (size : Nat)
    (s s1 : gm_out) (hE : E ≤ s.data.length) (ho : (E : Int) ≤ dstoff)
    (h : gm_copydata src srcoff dstoff size s = some s1) :
    s1.data.take E = s.data.take E ∧ E ≤ s1.data.length ∧ E ≤ s1.pos := by
  unfold gm_copydata at h
  split at h
  · cases h
  · split at h
    · cases h
    · rename_i s2 hs2
      obtain ⟨d1, -⟩ := gm_io_data s s2 hs2
      split at h
      · cases h
      · rename_i s3 hs3
        obtain ⟨a1, a2, a3⟩ := gm_fseeko_keep E dstoff s2 s3 (by rw [d1]; exact hE) ho hs3
        obtain ⟨b1, b2, b3⟩ := gm_copy_loop_keep E src size _ size s3 s1 a2 a3 h
        exact ⟨by rw [b1, a1, d1], b2, b3⟩

theorem gm_write_patch_data_keep (E : Nat) (patch : gm_patch) (s s1 : gm_out)
    (hE : E ≤ s.data.length) (hp : E ≤ s.pos) (h : gm_write_patch_data patch s = some s1) :
    s1.data.take E = s.data.take E ∧ E ≤ s1.data.length ∧ E ≤ s1.pos := by
  unfold gm_write_patch_data at h
  split at h
  · split at h
    · cases h
    · exact gm_fwrite_keep E _ s s1 hE hp h
  · split at h
    · cases h
    · rename_i s2 hs2
      obtain ⟨a1, a2, a3⟩ := gm_io_keep E s s2 hE hp hs2
      obtain ⟨b1, b2, b3⟩ := gm_copydata_keep E _ _ _ _ s2 s1 a2 (by omega) h
      exact ⟨b1.trans a1, b2, b3⟩

theorem gm_write_hdr_keep (E : Nat) (magic : Option (List Nat)) (size : Nat) (s s1 : gm_out)
    (hE : E ≤ s.data.length) (hp : E ≤ s.pos) (h : gm_write_hdr magic size s = some s1) :
    s1.data.take E = s.data.take E ∧ E ≤ s1.data.length ∧ E ≤ s1.pos := by
  unfold gm_write_hdr at h
  split at h
  · cases h
  · split at h
    · cases h
    · exact gm_fwrite_keep E _ s s1 hE hp h

theorem gm_write_txtr_entry_keep (E : Nat) (game : List Nat) (entry : gm_patched_entry)
    (s s1 : gm_out) (hE : E ≤ s.data.length) (ho : (E : Int) ≤ entry.offset)
    (h : gm_write_txtr_entry game entry s = some s1) :
    s1.data.take E = s.data.take E ∧ E ≤ s1.data.length ∧ E ≤ s1.pos := by
  unfold gm_write_txtr_entry at h
  split at h
  · split at h
    · cases h
    · rename_i s2 hs2
      obtain ⟨a1, a2, a3⟩ := gm_fseeko_keep E _ s s2 hE ho hs2
      obtain ⟨b1, b2, b3⟩ := gm_write_patch_data_keep E _ s2 s1 a2 a3 h
      exact ⟨b1.trans a1, b2, b3⟩
  · exact gm_copydata_keep E _ _ _ _ s s1 hE ho h

theorem gm_write_audo_entry_keep (E : Nat) (game : List Nat) (entry : gm_patched_entry)
    (s s1 : gm_out) (hE : E ≤ s.data.length) (ho : (E : Int) ≤ entry.offset - 4)
    (h : gm_write_audo_entry game entry s = some s1) :
    s1.data.take E = s.data.take E ∧ E ≤ s1.data.length ∧ E ≤ s1.pos := by
  unfold gm_write_audo_entry at h
  split at h
  · split at h
    · cases h
    · rename_i s2 hs2
      obtain ⟨a1, a2, a3⟩ := gm_fseeko_keep E _ s s2 hE ho hs2
      split at h
      · cases h
      · rename_i s3 hs3
        obtain ⟨b1, b2, b3⟩ := gm_fwrite_keep E _ s2 s3 a2 a3 hs3
        obtain ⟨c1, c2, c3⟩ := gm_write_patch_data_keep E _ s3 s1 b2 b3 h
        exact ⟨c1.trans (b1.trans a1), c2, c3⟩
  · exact gm_copydata_keep E _ _ _ _ s s1 hE ho h

theorem gm_write_section_keep (E : Nat) (game : List Nat) (d : gm_patched_index)
    (s s1 : gm_out) (hE : E ≤ s.data.length) (hp : E ≤ s.pos) (hoff : (E : Int) ≤ d.offset)
    (ht : d.sect = GM_TXTR → ∀ e ∈ d.entries, (E : Int) ≤ e.offset)
    (ha : d.sect = GM_AUDO → ∀ e ∈ d.entries, (E : Int) ≤ e.offset - 4)
    (h : gm_write_section game d s = some s1) :
    s1.data.take E = s.data.take E ∧ E ≤ s1.data.length ∧ E ≤ s1.pos := by
  unfold gm_write_section at h
  split at h
  · rename_i hs
    split at h
    · cases h
    · rename_i s2 hs2
      obtain ⟨a1, a2, a3⟩ := gm_fwrite_keep E _ s s2 hE hp hs2
      split at h
      · cases h
      · rename_i s3 hs3
        obtain ⟨b1, b2, b3⟩ := gm_write_each_keep E _ _
          (fun x _ t t1 h1 h2 h3 => gm_fwrite_keep E _ t t1 h1 h2 h3) s2 s3 a2 a3 hs3
        split at h
        · cases h
        · rename_i s4 hs4
          obtain ⟨c1, c2, c3⟩ := gm_write_each_keep E _ _
            (fun x _ t t1 h1 h2 h3 => gm_fwrite_keep E _ t t1 h1 h2 h3) s3 s4 b2 b3 hs4
          obtain ⟨e1, e2, e3⟩ := gm_write_each_keep E _ _
            (fun x hx t t1 h1 _ h3 => gm_write_txtr_entry_keep E game x t t1 h1 (ht hs x hx) h3)
            s4 s1 c2 c3 h
          exact ⟨e1.trans (c1.trans (b1.trans a1)), e2, e3⟩
  · rename_i hs
    split at h
    · cases h
    · rename_i s2 hs2
      obtain ⟨a1, a2, a3⟩ := gm_fwrite_keep E _ s s2 hE hp hs2
      split at h
      · cases h
      · rename_i s3 hs3
        obtain ⟨b1, b2, b3⟩ := gm_write_each_keep E _ _
          (fun x _ t t1 h1 h2 h3 => gm_fwrite_keep E _ t t1 h1 h2 h3) s2 s3 a2 a3 hs3
        obtain ⟨e1, e2, e3⟩ := gm_write_each_keep E _ _
          (fun x hx t t1 h1 _ h3 => gm_write_audo_entry_keep E game x t t1 h1 (ha hs x hx) h3)
          s3 s1 b2 b3 h
        exact ⟨e1.trans (b1.trans a1), e2, e3⟩
  · exact gm_copydata_keep E _ _ _ _ s s1 hE hoff h

theorem gm_write_chunk_keep (E : Nat) (game : List Nat) (d : gm_patched_index)
    (s s1 : gm_out) (hE : E ≤ s.data.length) (hoff : (E : Int) ≤ d.offset)
    (ht : d.sect = GM_TXTR → ∀ e ∈ d.entries, (E : Int) ≤ e.offset)
    (ha : d.sect = GM_AUDO → ∀ e ∈ d.entries, (E : Int) ≤ e.offset - 4)
    (h : gm_write_chunk game d s = some s1) :
    s1.data.take E = s.data.take E ∧ E ≤ s1.data.length ∧ E ≤ s1.pos := by
  unfold gm_write_chunk at h
  split at h
  · cases h
  · rename_i s2 hs2
    obtain ⟨a1, a2, a3⟩ := gm_fseeko_keep E _ s s2 hE hoff hs2
    split at h
    · cases h
    · rename_i s3 hs3
      obtain ⟨b1, b2, b3⟩ := gm_write_hdr_keep E _ _ s2 s3 a2 a3 hs3
      obtain ⟨c1, c2, c3⟩ := gm_write_section_keep E game d s3 s1 b2 b3 hoff ht ha h
      exact ⟨c1.trans (b1.trans a1), c2, c3⟩

/-! ## What a successful copy writes -/

theorem gm_file_write_region (d : List Nat) (P : Nat) (buf : List Nat) :
    ((gm_file_write d P buf).drop P).take buf.length = buf ∧
      P + buf.length ≤ (gm_file_write d P buf).length := by
  unfold gm_file_write
  have hl : (d.take P ++ List.replicate (P - d.length) 0).length = P := by
    rw [List.length_append, List.length_take, List.length_replicate]; omega
  constructor
  · rw [List.append_assoc (d.take P ++ List.replicate (P - d.length) 0), List.drop_left' hl,
      List.take_left' rfl]
  · simp only [List.length_append, List.length_take, List.length_replicate, List.length_drop]
    omega

theorem gm_take_split (l : List Nat) (P n m : Nat) :
    (l.drop P).take (n + m) = (l.take (P + n)).drop P ++ (l.drop (P + n)).take m := by
  rw [List.take_add, List.drop_drop, List.drop_take, Nat.add_sub_cancel_left]

theorem gm_copy_loop_region (src : List Nat) (fuel : Nat) :
    ∀ (srcpos size : Nat) (s s1 : gm_out), gm_copy_loop src fuel srcpos size s = some s1 →
      (s1.data.drop s.pos).take size = (src.drop srcpos).take size ∧ s1.pos = s.pos + size ∧
        (0 < size → srcpos + size ≤ src.length ∧ s.pos + size ≤ s1.data.length) := by
  induction fuel with
  | zero =>
    intro srcpos size s s1 h
    unfold gm_copy_loop at h
    split at h
    · cases h
    · rename_i hz
      have : size = 0 := by omega
      subst this
      simp only [Option.some.injEq] at h; subst h
      simp
  | succ k ih =>
    intro srcpos size s s1 h
    unfold gm_copy_loop at h
    split at h
    · rename_i hpos
      split at h
      · cases h
      · rename_i s2 hs2
        obtain ⟨d1, d2⟩ := gm_io_data s s2 hs2
        split at h
        · cases h
        · rename_i buf hbuf
          split at h
          · cases h
          · rename_i s3 hs3
            obtain ⟨f1, f2, f3, f4⟩ := gm_fread_eq _ _ _ _ hbuf
            obtain ⟨w1, w2⟩ := gm_fwrite_data _ _ _ hs3
            rw [d1, d2] at w1
            rw [d2] at w2
            obtain ⟨r1, r2⟩ := gm_file_write_region s.data s.pos buf
            rw [← w1] at r1 r2
            generalize hn : (if size ≥ BUFSIZ then BUFSIZ else size) = n at *
            have hnle : n ≤ size := by rw [← hn]; split <;> omega
            obtain ⟨i1, i2, i3⟩ := ih _ _ s3 s1 h
            obtain ⟨k1, k2, -⟩ := gm_copy_loop_keep (s.pos + n) src k _ _ s3 s1 (by omega)
              (by omega) h
            have hsz : size = n + (size - n) := by omega
            rw [w2, f4] at i1 i2
            refine ⟨?_, by omega, fun _ => ⟨?_, ?_⟩⟩
            · rw [hsz, gm_take_split, gm_take_split, k1, i1, List.drop_take, List.drop_take,
                Nat.add_sub_cancel_left, Nat.add_sub_cancel_left]
              rw [f4] at r1
              rw [r1, f3]
            · by_cases hm : 0 < size - n
              · have := (i3 hm).1; omega
              · omega
            · by_cases hm : 0 < size - n
              · have := (i3 hm).2; omega
              · omega
    · rename_i hz
      have : size = 0 := by omega
      subst this
      simp only [Option.some.injEq] at h; subst h
      simp

theorem gm_fseeko_data (offset : Int) (s s1 : gm_out) (h : gm_fseeko offset s = some s1) :
    0 ≤ offset ∧ s1.data = s.data ∧ s1.pos = offset.toNat := by
  unfold gm_fseeko at h
  split at h
  · cases h
  · split at h
    · cases h
    · rename_i s2 hs2
      obtain ⟨h1, -⟩ := gm_io_data s s2 hs2
      simp only [Option.some.injEq] at h
      subst h
      exact ⟨by omega, h1, rfl⟩

theorem gm_copydata_region (src : List Nat) (P : Nat) (dstoff : Int) (size : Nat)
    (s s1 : gm_out) (hsize : 0 < size) (hd : dstoff = (P : Int))
    (h : gm_copydata src (P : Int) dstoff size s = some s1) :
    (s1.data.drop P).take size = (src.drop P).take size ∧ s1.pos = P + size ∧
      P + size ≤ src.length ∧ P + size ≤ s1.data.length := by
  unfold gm_copydata at h
  split at h
  · cases h
  · split at h
    · cases h
    · split at h
      · cases h
      · rename_i s3 hs3
        obtain ⟨-, -, a3⟩ := gm_fseeko_data _ _ _ hs3
        rw [hd, Int.toNat_ofNat] at a3
        obtain ⟨b1, b2, b3⟩ := gm_copy_loop_region src size _ size s3 s1 h
        rw [Int.toNat_ofNat, a3] at b1
        rw [a3] at b2 b3
        rw [Int.toNat_ofNat] at b3
        exact ⟨b1, b2, (b3 hsize).1, (b3 hsize).2⟩

theorem gm_write_opaque_region (game : List Nat) (d : gm_patched_index) (C : Nat)
    (s s1 : gm_out) (hs1 : d.sect ≠ GM_TXTR) (hs2 : d.sect ≠ GM_AUDO)
    (hoff : d.offset = (C : Int)) (hioff : d.index.offset = (C : Int))
    (hsz : d.size ≤ INT32_MAX) (h : gm_write_chunk game d s = some s1) :
    (s1.data.drop C).take (d.size + 8) = (game.drop C).take (d.size + 8) ∧
      s1.pos = C + (d.size + 8) ∧ C + (d.size + 8) ≤ game.length ∧
      C + (d.size + 8) ≤ s1.data.length := by
  have hI : INT32_MAX = 2147483647 := rfl
  have hw : size_wrap ((d.size : Int) + 8) = d.size + 8 := by
    rw [size_wrap_eq]; omega
  unfold gm_write_chunk at h
  split at h
  · cases h
  · split at h
    · cases h
    · rename_i s3 hs3
      unfold gm_write_section at h
      split at h
      · rename_i hc; exact absurd hc hs1
      · rename_i hc; exact absurd hc hs2
      · rw [hw, hioff] at h
        exact gm_copydata_region game C _ _ s3 s1 (by omega) hoff h

theorem gm_write_each_append {α : Type} (step : α → gm_out → Option gm_out) (a b : List α)
    (s s1 : gm_out) (h : gm_write_each step (a ++ b) s = some s1) :
    ∃ m, gm_write_each step a s = some m ∧ gm_write_each step b m = some s1 := by
  induction a generalizing s with
  | nil => exact ⟨s, rfl, h⟩
  | cons x rest ih =>
    simp only [List.cons_append, gm_write_each] at h ⊢
    split at h
    · cases h
    · rename_i s2 hs2
      exact ih s2 h

/-! ## Chunks that are neither TXTR nor AUDO -/

theorem gm_patch_at_keeps (st : List gm_patched_index) (j : Nat) (patch : gm_patch) (k : Nat)
    (p : gm_patched_index) (hk : st[k]? = some p) (hm : ¬ gm_movable p.sect = true)
    (hok : (gm_patch_at st j patch).1 = gm_status.ok) :
    (gm_patch_at st j patch).2[k]? = some p := by
  cases hj : st[j]? with
  | none =>
    have hlen : st.length ≤ j := by
      rcases Nat.lt_or_ge j st.length with h | h
      · rw [List.getElem?_eq_getElem h] at hj; cases hj
      · exact h
    have hd : st.drop j = [] := List.drop_of_length_le hlen
    simp only [gm_patch_at, hd, gm_patch_entry] at hok
    cases hok
  | some c =>
    by_cases hc : gm_movable c.sect = true
    · obtain ⟨entry, -, -, -, -, hall, heq⟩ := gm_patch_at_ok st j patch c hj hc hok
      rw [heq]
      have hlt : k < j := by
        rcases Nat.lt_trichotomy k j with h | h | h
        · exact h
        · subst h
          rw [hj] at hk
          simp only [Option.some.injEq] at hk
          subst hk
          exact absurd hc hm
        · exfalso
          apply hm
          apply hall p
          obtain ⟨i, rfl⟩ : ∃ i, k = j + 1 + i := ⟨k - (j + 1), by omega⟩
          have : (st.drop (j + 1))[i]? = some p := by
            rw [List.getElem?_drop]; exact hk
          exact List.getElem?_mem this
      have hjl : j ≤ st.length := by
        have := (List.getElem?_eq_some_iff.mp hj).1
        omega
      rw [List.getElem?_append_left (by rw [List.length_take]; omega), List.getElem?_take_of_lt hlt]
      exact hk
    · rw [gm_patch_at_unmovable st j patch c hj hc]
      exact hk

theorem gm_apply_patches_keeps (patches : List gm_patch) (st st1 : List gm_patched_index)
    (k : Nat) (p : gm_patched_index) (hk : st[k]? = some p) (hm : ¬ gm_movable p.sect = true)
    (h : gm_apply_patches st patches = (gm_status.ok, st1)) : st1[k]? = some p := by
  induction patches generalizing st with
  | nil =>
    simp only [gm_apply_patches, Prod.mk.injEq, true_and] at h
    subst h
    exact hk
  | cons patch rest ih =>
    unfold gm_apply_patches at h
    split at h
    · cases h
    · rename_i j hj
      split at h
      · rename_i st2 hst2
        have hk2 := gm_patch_at_keeps st j patch k p hk hm (by rw [hst2])
        rw [hst2] at hk2
        exact ih st2 hk2 h
      · cases h

theorem gm_tiles_get (start stop : Nat) (index : List gm_index) (h : gm_tiles start index stop)
    (k : Nat) (c : gm_index) (hk : index[k]? = some c) :
    ∃ C : Nat, c.offset = (C : Int) ∧ C + c.size + 8 ≤ INT32_MAX := by
  induction index generalizing start k with
  | nil => simp at hk
  | cons d rest ih =>
    obtain ⟨h1, -, h3, h4⟩ := h
    cases k with
    | zero =>
      simp only [List.getElem?_cons_zero, Option.some.injEq] at hk
      subst hk
      exact ⟨start, h1, h3⟩
    | succ i =>
      simp only [List.getElem?_cons_succ] at hk
      exact ih _ h4 i hk

theorem gm_patch_archive_ok (png : png_sniffer) (fault : Option Nat) (game : List Nat)
    (tmp : Option (List Nat)) (patches : List gm_patch) (index : List gm_index)
    (fs1 : gm_fs) (hidx : gm_read_index png game = some index)
    (hrun : gm_patch_archive png fault { target := some game, tmp := tmp } patches =
      (gm_status.ok, fs1)) :
    ∃ planned s0 s1, gm_apply_patches (gm_build_patched index) patches =
        (gm_status.ok, planned) ∧
      gm_write_archive game planned s0 = some s1 ∧
      fs1 = { target := some s1.data, tmp := none } := by
  unfold gm_patch_archive at hrun
  simp only [hidx] at hrun
  split at hrun
  · cases hrun
  · rename_i planned hplan
    split at hrun
    · cases hrun
    · rename_i s0 _
      split at hrun
      · cases hrun
      · rename_i s1 hw
        refine ⟨planned, s0, s1, hplan, hw, ?_⟩
        unfold gm_commit at hrun
        split at hrun
        · cases hrun
        · split at hrun
          · cases hrun
          · split at hrun
            · cases hrun
            · split at hrun
              · cases hrun
              · simp only [Prod.mk.injEq, true_and] at hrun
                exact hrun.symm

/-- Claim C5, amended: whenever `gm_patch_archive` succeeds, every chunk whose tag is neither
TXTR nor AUDO has the planned offset and payload size of the parsed index; and the
`payload_size + 8` bytes of the output at that offset are those of the input at that offset,
provided every later chunk, and every entry of a later TXTR or AUDO chunk, is planned at or
behind the end of that chunk. -/
theorem gm_opaque_preserved (png : png_sniffer) (fault : Option Nat) (game : List Nat)
    (tmp : Option (List Nat)) (patches : List gm_patch) (index : List gm_index)
    (out : List Nat) (k : Nat) (c : gm_index)
    (hidx : gm_read_index png game = some index)
    (hrun : gm_patch_archive png fault { target := some game, tmp := tmp } patches =
      (gm_status.ok, { target := some out, tmp := none }))
    (hk : index[k]? = some c) (hs1 : c.sect ≠ GM_TXTR) (hs2 : c.sect ≠ GM_AUDO) :
    (∃ p, (gm_apply_patches (gm_build_patched index) patches).2[k]? = some p ∧
      p.sect = c.sect ∧ p.offset = c.offset ∧ p.size = c.size) ∧
    (gm_planned_behind (c.offset.toNat + (c.size + 8))
        ((gm_apply_patches (gm_build_patched index) patches).2.drop (k + 1)) →
      (out.drop c.offset.toNat).take (c.size + 8) =
          (game.drop c.offset.toNat).take (c.size + 8) ∧
        c.offset.toNat + (c.size + 8) ≤ game.length) := by
  obtain ⟨planned, s0, s1, hplan, hw, hfs⟩ :=
    gm_patch_archive_ok png fault game tmp patches index _ hidx hrun
  simp only [gm_fs.mk.injEq, Option.some.injEq, and_true] at hfs
  obtain ⟨buffer, -, htiles⟩ := gm_read_index_tiles png game index hidx
  obtain ⟨C, hC, hCsz⟩ := gm_tiles_get _ _ _ htiles k c hk
  have hbk : (gm_build_patched index)[k]? = some
      { sect := c.sect, offset := c.offset, size := c.size,
        entries := c.entries.map fun e =>
          { offset := e.offset, size := e.size, patch := none, entry := e },
        index := c } := by
    simp only [gm_build_patched, List.getElem?_map, hk, Option.map_some']
  have hmov : ¬ gm_movable c.sect = true := by
    intro hm
    unfold gm_movable at hm
    split at hm
    · rename_i h; exact hs1 h
    · rename_i h; exact hs2 h
    · cases hm
  have hpk := gm_apply_patches_keeps patches _ planned k _ hbk hmov hplan
  rw [hplan]
  refine ⟨⟨_, hpk, rfl, rfl, rfl⟩, ?_⟩
  intro hbehind
  simp only at hbehind
  rw [hC, Int.toNat_ofNat] at hbehind ⊢
  unfold gm_write_archive at hw
  split at hw
  · cases hw
  rename_i sh _
  rw [gm_split_at planned k _ hpk] at hw
  obtain ⟨m, -, hm2⟩ := gm_write_each_append _ _ _ _ _ hw
  unfold gm_write_each at hm2
  split at hm2
  · cases hm2
  rename_i s3 hs3
  obtain ⟨r1, r2, r3, r4⟩ := gm_write_opaque_region game _ C m s3 hs1 hs2 hC hC
    (by simp only; omega) hs3
  simp only at r1 r2 r3 r4
  obtain ⟨q1, -, -⟩ := gm_write_each_keep (C + (c.size + 8)) (gm_write_chunk game) _
    (fun x hx t t1 h1 _ h3 =>
      gm_write_chunk_keep _ game x t t1 h1 (hbehind x hx).1 (hbehind x hx).2.1
        (hbehind x hx).2.2 h3)
    s3 s1 r4 (by omega) hm2
  refine ⟨?_, r3⟩
  have e1 : ∀ l : List Nat, (l.drop C).take (c.size + 8) = (l.take (C + (c.size + 8))).drop C := by
    intro l
    rw [List.drop_take, Nat.add_sub_cancel_left]
  rw [hfs, e1, q1, ← e1, r1]

/-- C5 (counterexample). In `ex_archive_alias` the AUDO table lists a blob inside the STRG
chunk.  The patch `ex_patch_alias` replaces that blob, `gm_patch_archive` succeeds, and the
16 bytes of the STRG chunk at offset 8 differ between the input and the output. -/
theorem gm_opaque_overwritten :
    gm_read_index ex_sniffer ex_archive_alias = some ex_alias_index ∧
      ex_alias_index[0]? = some ex_alias_strg ∧
      gm_patch_archive ex_sniffer none { target := some ex_archive_alias, tmp := none }
          [ex_patch_alias] =
        (gm_status.ok, { target := some ex_archive_alias_patched, tmp := none }) ∧
      (ex_archive_alias_patched.drop 8).take (ex_alias_strg.size + 8) ≠
        (ex_archive_alias.drop 8).take (ex_alias_strg.size + 8) := by
  decide

set_option maxRecDepth 4000 in
/-- C5 (witness). The image of `ex_archive` is replaced by a larger one; the STRG chunk before
the TXTR chunk keeps its place and its 12 bytes. -/
theorem gm_opaque_preserved_witness :
    (gm_read_index ex_sniffer ex_archive = some ex_archive_index ∧
      gm_patch_archive ex_sniffer none { target := some ex_archive, tmp := none }
          [ex_patch_image] =
        (gm_status.ok, { target := some ex_archive_patched, tmp := none }) ∧
      ex_archive_index[0]? = some ex_archive_strg ∧
      ex_archive_strg.sect ≠ GM_TXTR ∧ ex_archive_strg.sect ≠ GM_AUDO ∧
      gm_planned_behind (ex_archive_strg.offset.toNat + (ex_archive_strg.size + 8))
        ((gm_apply_patches (gm_build_patched ex_archive_index) [ex_patch_image]).2.drop
          (0 + 1))) ∧
    ((∃ p, (gm_apply_patches (gm_build_patched ex_archive_index) [ex_patch_image]).2[0]? =
        some p ∧
      p.sect = ex_archive_strg.sect ∧ p.offset = ex_archive_strg.offset ∧
      p.size = ex_archive_strg.size) ∧
    (gm_planned_behind (ex_archive_strg.offset.toNat + (ex_archive_strg.size + 8))
        ((gm_apply_patches (gm_build_patched ex_archive_index) [ex_patch_image]).2.drop
          (0 + 1)) →
      (ex_archive_patched.drop ex_archive_strg.offset.toNat).take (ex_archive_strg.size + 8) =
          (ex_archive.drop ex_archive_strg.offset.toNat).take (ex_archive_strg.size + 8) ∧
        ex_archive_strg.offset.toNat + (ex_archive_strg.size + 8) ≤ ex_archive.length)) :=
  ⟨⟨by decide, by decide, by decide, by decide, by decide,
      by unfold gm_planned_behind; decide⟩,
    gm_opaque_preserved ex_sniffer none ex_archive none [ex_patch_image] ex_archive_index
      ex_archive_patched 0 ex_archive_strg (by decide) (by decide) (by decide) (by decide)
      (by decide)⟩

/-! ## SPRT patches and unsupported sections -/

theorem gm_sprt_check_iff (entry : gm_entry) (ps : List gm_patch_sprt_entry) :
    gm_sprt_check entry ps = true ↔
      ∀ p ∈ ps, p.tpag_index < entry.tpag.length ∧
        ∀ t, entry.tpag[p.tpag_index]? = some t → gm_tpag_agrees t p := by
  induction ps with
  | nil => simp [gm_sprt_check]
  | cons p rest ih =>
    unfold gm_sprt_check
    rw [List.forall_mem_cons, ← ih, List.get?_eq_getElem?]
    cases ht : entry.tpag[p.tpag_index]? with
    | none =>
      have hlen : entry.tpag.length ≤ p.tpag_index := List.getElem?_eq_none_iff.mp ht
      simp only [Bool.false_eq_true, false_iff, not_and]
      intro h
      omega
    | some t =>
      have hlen : p.tpag_index < entry.tpag.length := (List.getElem?_eq_some_iff.mp ht).1
      simp only [Option.some.injEq, forall_eq']
      by_cases hag : gm_tpag_agrees t p
      · have hn : ¬ (t.x ≠ p.x ∨ t.y ≠ p.y ∨ t.width ≠ p.width ∨ t.height ≠ p.height ∨
            t.txtr_index ≠ p.txtr_index) := by
          unfold gm_tpag_agrees at hag
          simp only [ne_eq, hag, not_true_eq_false, or_self, not_false_eq_true]
        simp only [hn, if_false, hlen, hag, and_self, true_and]
      · have hn : (t.x ≠ p.x ∨ t.y ≠ p.y ∨ t.width ≠ p.width ∨ t.height ≠ p.height ∨
            t.txtr_index ≠ p.txtr_index) := by
          unfold gm_tpag_agrees at hag
          by_contra hcon
          apply hag
          simp only [ne_eq, not_or, not_not] at hcon
          exact hcon
        simp only [hn, if_true, Bool.false_eq_true, hag, and_false, false_and]

theorem gm_patch_sprt_iff (patch : gm_patch) (es : List gm_patched_entry) (found : Bool) :
    (gm_patch_sprt patch es found = gm_status.ok ↔
      (found = true ∨ ∃ e ∈ es, gm_streq e.entry.name patch.name = true) ∧
        ∀ e ∈ es, gm_streq e.entry.name patch.name = true →
          gm_sprt_check e.entry patch.entries = true) ∧
    (gm_patch_sprt patch es found ≠ gm_status.ok →
      gm_patch_sprt patch es found = gm_status.error EINVAL) := by
  induction es generalizing found with
  | nil =>
    unfold gm_patch_sprt
    cases found <;> simp
  | cons e rest ih =>
    unfold gm_patch_sprt
    by_cases hn : gm_streq e.entry.name patch.name = true
    · by_cases hc : gm_sprt_check e.entry patch.entries = true
      · simp only [hn, hc, if_true]
        refine ⟨?_, (ih true).2⟩
        rw [(ih true).1]
        simp only [true_or, true_and, List.mem_cons, exists_eq_or_imp, hn, forall_eq_or_imp, hc,
          forall_const, or_true]
      · simp only [hn, hc, if_true, if_false, Bool.false_eq_true]
        refine ⟨?_, fun _ => trivial⟩
        constructor
        · intro hcon
          cases hcon
        · intro hcon
          exact absurd (hcon.2 e (List.mem_cons_self _ _) hn) hc
    · simp only [hn, if_false, Bool.false_eq_true]
      refine ⟨?_, (ih found).2⟩
      rw [(ih found).1]
      simp only [List.mem_cons, exists_eq_or_imp, hn, false_or, forall_eq_or_imp,
        false_implies, true_and, Bool.false_eq_true]

theorem gm_patch_entry_sprt (c : gm_patched_index) (rest : List gm_patched_index)
    (patch : gm_patch) (hs : c.sect = GM_SPRT) :
    gm_patch_entry (c :: rest) patch = (gm_patch_sprt patch c.entries false, c :: rest) := by
  simp [gm_patch_entry, hs, gm_movable]

/-- Claim C12. SPRT validation is exact: `gm_patch_entry` on a SPRT chunk returns 0 if and
only if some sprite of the chunk has the name of the patch (`strcmp` equality) and, for every
sprite with that name, every tuple of the patch names a TPAG index below the sprite's
`tpag_count` and agrees with the stored TPAG in all five components; every other call fails
with `EINVAL`. -/
theorem gm_sprt_validation_exact (c : gm_patched_index) (rest : List gm_patched_index)
    (patch : gm_patch) (hs : c.sect = GM_SPRT) :
    ((gm_patch_entry (c :: rest) patch).1 = gm_status.ok ↔
      (∃ e ∈ c.entries, gm_streq e.entry.name patch.name = true) ∧
        ∀ e ∈ c.entries, gm_streq e.entry.name patch.name = true →
          gm_sprite_agrees e.entry patch) ∧
    ((gm_patch_entry (c :: rest) patch).1 ≠ gm_status.ok →
      (gm_patch_entry (c :: rest) patch).1 = gm_status.error EINVAL) := by
  rw [gm_patch_entry_sprt c rest patch hs]
  simp only
  refine ⟨?_, (gm_patch_sprt_iff patch c.entries false).2⟩
  rw [(gm_patch_sprt_iff patch c.entries false).1]
  simp only [Bool.false_eq_true, false_or, gm_sprt_check_iff, gm_sprite_agrees]

/-- C12 (witness). The sprite stores TPAG 0 as `(10, 20, 32, 32, 0)`; the patch that names it
as `(10, 20, 32, 16, 0)` fails with `EINVAL`, the patch with the stored coordinates returns
0. -/
theorem gm_sprt_validation_exact_witness :
    (ex_planned_sprt.sect = GM_SPRT ∧
      (gm_patch_entry [ex_planned_sprt] ex_patch_sprt_other).1 = gm_status.error EINVAL ∧
      (gm_patch_entry [ex_planned_sprt] ex_patch_sprt_same).1 = gm_status.ok) ∧
    (((gm_patch_entry (ex_planned_sprt :: []) ex_patch_sprt_other).1 = gm_status.ok ↔
      (∃ e ∈ ex_planned_sprt.entries,
          gm_streq e.entry.name ex_patch_sprt_other.name = true) ∧
        ∀ e ∈ ex_planned_sprt.entries, gm_streq e.entry.name ex_patch_sprt_other.name = true →
          gm_sprite_agrees e.entry ex_patch_sprt_other) ∧
    ((gm_patch_entry (ex_planned_sprt :: []) ex_patch_sprt_other).1 ≠ gm_status.ok →
      (gm_patch_entry (ex_planned_sprt :: []) ex_patch_sprt_other).1 =
        gm_status.error EINVAL)) :=
  ⟨⟨by decide, by decide, by decide⟩,
    gm_sprt_validation_exact ex_planned_sprt [] ex_patch_sprt_other (by decide)⟩

/-- Claim C13. SPRT patches are validation-only: whatever `gm_patch_entry` returns for a
patch applied to a SPRT chunk, the planned index after the call is the one before the call. -/
theorem gm_sprt_patch_frame (st : List gm_patched_index) (k : Nat) (patch : gm_patch)
    (c : gm_patched_index) (hc : st[k]? = some c) (hs : c.sect = GM_SPRT) :
    (gm_patch_entry (c :: st.drop (k + 1)) patch).2 = c :: st.drop (k + 1) ∧
      (gm_patch_at st k patch).2 = st := by
  refine ⟨?_, gm_patch_at_unmovable st k patch c hc (by rw [hs]; decide)⟩
  rw [gm_patch_entry_sprt c _ patch hs]

/-- C13 (witness). The failing patch and the passing patch both leave the index as it is. -/
theorem gm_sprt_patch_frame_witness :
    ([ex_planned_strg, ex_planned_sprt][1]? = some ex_planned_sprt ∧
      ex_planned_sprt.sect = GM_SPRT ∧
      (gm_patch_at [ex_planned_strg, ex_planned_sprt] 1 ex_patch_sprt_other).1 =
        gm_status.error EINVAL ∧
      gm_patch_at [ex_planned_strg, ex_planned_sprt] 1 ex_patch_sprt_same =
        (gm_status.ok, [ex_planned_strg, ex_planned_sprt])) ∧
    ((gm_patch_entry (ex_planned_sprt :: [ex_planned_strg, ex_planned_sprt].drop (1 + 1))
        ex_patch_sprt_other).2 =
        ex_planned_sprt :: [ex_planned_strg, ex_planned_sprt].drop (1 + 1) ∧
      (gm_patch_at [ex_planned_strg, ex_planned_sprt] 1 ex_patch_sprt_other).2 =
        [ex_planned_strg, ex_planned_sprt]) :=
  ⟨⟨by decide, by decide, by decide, by decide⟩,
    gm_sprt_patch_frame [ex_planned_strg, ex_planned_sprt] 1 ex_patch_sprt_other
      ex_planned_sprt (by decide) (by decide)⟩

/-- Claim C14. Unsupported patch targets: for a chunk that is not TXTR, AUDO or SPRT,
`gm_patch_entry` fails with `ENOSYS` for every patch and leaves the planned index as it was;
`ENOSYS` is not the `EINVAL` of a patch conflict. -/
theorem gm_patch_unsupported (st : List gm_patched_index) (k : Nat) (patch : gm_patch)
    (c : gm_patched_index) (hc : st[k]? = some c) (h1 : c.sect ≠ GM_TXTR)
    (h2 : c.sect ≠ GM_AUDO) (h3 : c.sect ≠ GM_SPRT) :
    gm_patch_entry (c :: st.drop (k + 1)) patch =
        (gm_status.error ENOSYS, c :: st.drop (k + 1)) ∧
      gm_patch_at st k patch = (gm_status.error ENOSYS, st) ∧
      gm_status.error ENOSYS ≠ gm_status.error EINVAL := by
  have hmov : ¬ gm_movable c.sect = true := by
    intro hm
    unfold gm_movable at hm
    split at hm
    · rename_i h; exact h1 h
    · rename_i h; exact h2 h
    · cases hm
  have he : gm_patch_entry (c :: st.drop (k + 1)) patch =
      (gm_status.error ENOSYS, c :: st.drop (k + 1)) := by
    simp only [gm_patch_entry, hmov, Bool.false_eq_true, if_false, h3]
  refine ⟨he, ?_, by decide⟩
  rw [gm_patch_at_eq st k patch c hc, he]
  simp only
  rw [← gm_split_at st k c hc]

/-- C14 (witness). A TXTR patch handed to a STRG chunk. -/
theorem gm_patch_unsupported_witness :
    ([ex_planned_sprt, ex_planned_strg][1]? = some ex_planned_strg ∧
      ex_planned_strg.sect ≠ GM_TXTR ∧ ex_planned_strg.sect ≠ GM_AUDO ∧
      ex_planned_strg.sect ≠ GM_SPRT) ∧
    (gm_patch_entry (ex_planned_strg :: [ex_planned_sprt, ex_planned_strg].drop (1 + 1))
        ex_patch_image =
        (gm_status.error ENOSYS,
          ex_planned_strg :: [ex_planned_sprt, ex_planned_strg].drop (1 + 1)) ∧
      gm_patch_at [ex_planned_sprt, ex_planned_strg] 1 ex_patch_image =
        (gm_status.error ENOSYS, [ex_planned_sprt, ex_planned_strg]) ∧
      gm_status.error ENOSYS ≠ gm_status.error EINVAL) :=
  ⟨⟨by decide, by decide, by decide, by decide⟩,
    gm_patch_unsupported [ex_planned_sprt, ex_planned_strg] 1 ex_patch_image ex_planned_strg
      (by decide) (by decide) (by decide) (by decide)⟩

/-! ## Missing sections -/

theorem gm_get_section_spec (l : List gm_patched_index) (s : gm_section) :
    (gm_get_section l s = none ↔ ∀ c ∈ l, c.sect ≠ s) ∧
      ∀ k, gm_get_section l s = some k →
        (∃ c, l[k]? = some c ∧ c.sect = s) ∧ ∀ j < k, ∀ d, l[j]? = some d → d.sect ≠ s := by
  induction l with
  | nil =>
    refine ⟨by simp [gm_get_section], ?_⟩
    intro k hk
    simp [gm_get_section] at hk
  | cons c rest ih =>
    obtain ⟨ih1, ih2⟩ := ih
    unfold gm_get_section
    by_cases hc : c.sect = s
    · simp only [hc, if_true]
      refine ⟨by simp [hc], ?_⟩
      intro k hk
      simp only [Option.some.injEq] at hk
      subst hk
      exact ⟨⟨c, by simp, hc⟩, fun j hj => absurd hj (Nat.not_lt_zero j)⟩
    · simp only [hc, if_false]
      constructor
      · rw [Option.map_eq_none', ih1, List.forall_mem_cons]
        exact ⟨fun h => ⟨hc, h⟩, fun h => h.2⟩
      · intro k hk
        rw [Option.map_eq_some'] at hk
        obtain ⟨i, hi, rfl⟩ := hk
        obtain ⟨⟨d, hd, hds⟩, hbefore⟩ := ih2 i hi
        refine ⟨⟨d, by simpa using hd, hds⟩, ?_⟩
        intro j hj e he
        cases j with
        | zero =>
          simp only [List.getElem?_cons_zero, Option.some.injEq] at he
          subst he
          exact hc
        | succ j1 =>
          simp only [List.getElem?_cons_succ] at he
          exact hbefore j1 (by omega) e he

theorem gm_mirrors_sects (index : List gm_index) (st : List gm_patched_index)
    (h : gm_mirrors index st) : st.map (fun c => c.sect) = index.map fun c => c.sect := by
  unfold gm_mirrors at h
  have := congrArg (List.map Prod.fst) h
  simpa [List.map_map, Function.comp] using this

theorem gm_mirrors_missing (index : List gm_index) (st : List gm_patched_index)
    (s : gm_section) (h : gm_mirrors index st) (hmiss : ∀ c ∈ index, c.sect ≠ s) :
    gm_get_section st s = none := by
  rw [(gm_get_section_spec st s).1]
  intro c hc hcs
  have hmem : s ∈ st.map fun c => c.sect := List.mem_map.mpr ⟨c, hc, hcs⟩
  rw [gm_mirrors_sects index st h] at hmem
  obtain ⟨d, hd, hds⟩ := List.mem_map.mp hmem
  exact hmiss d hd hds

theorem gm_apply_patches_missing (index : List gm_index) (patches : List gm_patch)
    (st : List gm_patched_index) (p : gm_patch) (hm : gm_mirrors index st)
    (hp : p ∈ patches) (hmiss : ∀ c ∈ index, c.sect ≠ p.sect) :
    ∃ e, (gm_apply_patches st patches).1 = gm_status.error e := by
  induction patches generalizing st with
  | nil => simp at hp
  | cons q rest ih =>
    unfold gm_apply_patches
    cases hk : gm_get_section st q.sect with
    | none => exact ⟨EINVAL, rfl⟩
    | some k =>
      simp only
      have hm1 := gm_mirrors_patch_at index st k q hm
      cases hr : gm_patch_at st k q with
      | mk r1 r2 =>
        rw [hr] at hm1
        cases r1 with
        | error e => exact ⟨e, rfl⟩
        | ok =>
          simp only
          rcases List.mem_cons.mp hp with h | h
          · subst h
            rw [gm_mirrors_missing index st p.sect hm hmiss] at hk
            cases hk
          · exact ih r2 hm1 h

/-- Claim C15. Missing section: `gm_get_section` returns the first chunk of the planned index
with the requested tag, and no chunk exactly when no chunk has that tag.  When a patch names
a section that the archive does not contain, `gm_patch_archive` fails, the archive file is
what it was and no temporary file is left; the failure is the `EINVAL` of the missing
section when the patches before it were applied. -/
theorem gm_missing_section (png : png_sniffer) (fault : Option Nat) (fs : gm_fs)
    (game : List Nat) (index : List gm_index) (p : gm_patch)
    (hfs : fs.target = some game) (hparse : gm_read_index png game = some index)
    (hmiss : ∀ c ∈ index, c.sect ≠ p.sect) :
    (∀ (l : List gm_patched_index) (s : gm_section),
      (gm_get_section l s = none ↔ ∀ c ∈ l, c.sect ≠ s) ∧
        ∀ k, gm_get_section l s = some k →
          (∃ c, l[k]? = some c ∧ c.sect = s) ∧
            ∀ j < k, ∀ d, l[j]? = some d → d.sect ≠ s) ∧
    (∀ patches, p ∈ patches →
      ∃ e, gm_patch_archive png fault fs patches =
        (gm_status.error e, { target := fs.target, tmp := none })) ∧
    (∀ ps qs st, gm_apply_patches (gm_build_patched index) ps = (gm_status.ok, st) →
      gm_get_section st p.sect = none ∧
        gm_patch_archive png fault fs (ps ++ p :: qs) =
          (gm_status.error EINVAL, { target := fs.target, tmp := none })) := by
  refine ⟨gm_get_section_spec, ?_, ?_⟩
  · intro patches hp
    obtain ⟨e, he⟩ := gm_apply_patches_missing index patches _ p (gm_mirrors_build index) hp
      hmiss
    rw [hfs]
    exact ⟨e, gm_patch_archive_plan_error png fault fs game index patches e hfs hparse he⟩
  · intro ps qs st hps
    have hm : gm_mirrors index st := by
      have := gm_mirrors_apply index ps _ (gm_mirrors_build index)
      rw [hps] at this
      exact this
    have hnone := gm_mirrors_missing index st p.sect hm hmiss
    refine ⟨hnone, ?_⟩
    rw [hfs]
    apply gm_patch_archive_plan_error png fault fs game index _ EINVAL hfs hparse
    rw [gm_apply_patches_append ps (p :: qs) _ st hps]
    unfold gm_apply_patches
    rw [hnone]

/-- C15 (witness). The archive `ex_archive` has no SPRT chunk; a SPRT patch is refused. -/
theorem gm_missing_section_witness :
    (ex_fs.target = some ex_archive ∧
      gm_read_index ex_sniffer ex_archive = some ex_archive_index ∧
      (∀ c ∈ ex_archive_index, c.sect ≠ ex_patch_sprt_same.sect) ∧
      gm_patch_archive ex_sniffer none ex_fs [ex_patch_sprt_same] =
        (gm_status.error EINVAL, ex_fs)) ∧
    ((∀ (l : List gm_patched_index) (s : gm_section),
      (gm_get_section l s = none ↔ ∀ c ∈ l, c.sect ≠ s) ∧
        ∀ k, gm_get_section l s = some k →
          (∃ c, l[k]? = some c ∧ c.sect = s) ∧
            ∀ j < k, ∀ d, l[j]? = some d → d.sect ≠ s) ∧
    (∀ patches, ex_patch_sprt_same ∈ patches →
      ∃ e, gm_patch_archive ex_sniffer none ex_fs patches =
        (gm_status.error e, { target := ex_fs.target, tmp := none })) ∧
    (∀ ps qs st, gm_apply_patches (gm_build_patched ex_archive_index) ps =
        (gm_status.ok, st) →
      gm_get_section st ex_patch_sprt_same.sect = none ∧
        gm_patch_archive ex_sniffer none ex_fs (ps ++ ex_patch_sprt_same :: qs) =
          (gm_status.error EINVAL, { target := ex_fs.target, tmp := none }))) :=
  ⟨⟨by decide, by decide, by decide, by decide⟩,
    gm_missing_section ex_sniffer none ex_fs ex_archive ex_archive_index ex_patch_sprt_same
      (by decide) (by decide) (by decide)⟩

/-! ## The parsed chunks -/

theorem gm_tiles_facts (start stop : Nat) (index : List gm_index)
    (h : gm_tiles start index stop) :
    (∀ c, index[0]? = some c → c.offset = (start : Int)) ∧
      (∀ k a b, index[k]? = some a → index[k + 1]? = some b →
        b.offset = a.offset + 8 + (a.size : Int)) ∧
      (∀ c ∈ index, (start : Int) ≤ c.offset ∧ c.offset + 8 + (c.size : Int) ≤ (stop : Int)) ∧
      (∀ c, index.getLast? = some c → c.offset + 8 + (c.size : Int) = (stop : Int)) ∧
      (index.map fun c => c.size + 8).sum + start = max start stop := by
  induction index generalizing start with
  | nil =>
    have hs : stop ≤ start := h
    refine ⟨by simp, by simp, by simp, by simp, ?_⟩
    simp only [List.map_nil, List.sum_nil]
    omega
  | cons c rest ih =>
    obtain ⟨h1, h2, h3, h4⟩ := h
    obtain ⟨i1, i2, i3, i4, i5⟩ := ih _ h4
    refine ⟨?_, ?_, ?_, ?_, ?_⟩
    · intro d hd
      simp only [List.getElem?_cons_zero, Option.some.injEq] at hd
      subst hd
      exact h1
    · intro k a b ha hb
      cases k with
      | zero =>
        simp only [List.getElem?_cons_zero, Option.some.injEq] at ha
        subst ha
        simp only [Nat.zero_add, List.getElem?_cons_succ] at hb
        rw [i1 b hb, h1]
        push_cast
        omega
      | succ j =>
        simp only [List.getElem?_cons_succ] at ha hb
        exact i2 j a b ha hb
    · intro d hd
      rcases List.mem_cons.mp hd with hd | hd
      · subst hd
        rw [h1]
        constructor <;> omega
      · obtain ⟨a1, a2⟩ := i3 d hd
        exact ⟨by omega, a2⟩
    · intro d hd
      cases rest with
      | nil =>
        simp only [List.getLast?_singleton, Option.some.injEq] at hd
        subst hd
        have hs : stop ≤ start + c.size + 8 := h4
        rw [h1]
        omega
      | cons e rest1 =>
        rw [List.getLast?_cons_cons] at hd
        exact i4 d hd
    · simp only [List.map_cons, List.sum_cons]
      omega

theorem gm_tiles_ordered (index : List gm_index)
    (hadj : ∀ k a b, index[k]? = some a → index[k + 1]? = some b →
      b.offset = a.offset + 8 + (a.size : Int)) (j d : Nat) :
    ∀ a b, index[j]? = some a → index[j + 1 + d]? = some b →
      a.offset + 8 + (a.size : Int) ≤ b.offset := by
  induction d with
  | zero =>
    intro a b ha hb
    rw [hadj j a b ha hb]
  | succ d ih =>
    intro a b ha hb
    have hlt : j + 1 + d < index.length := by
      have := (List.getElem?_eq_some_iff.mp hb).1
      omega
    have hm := ih a index[j + 1 + d] ha (List.getElem?_eq_getElem hlt)
    have hn := hadj (j + 1 + d) index[j + 1 + d] b (List.getElem?_eq_getElem hlt) hb
    omega

/-- Claim C16. Parsed chunks tile the FORM payload exactly: when `gm_read_index` succeeds on
a file whose FORM size field is `form_size`, the first chunk has offset 8, every next chunk
begins at the previous chunk's offset + 8 + payload size, so offsets increase strictly and
chunks do not overlap, every chunk ends at or before `form_size + 8`, the last chunk ends at
`form_size + 8`, and the sum of `payload_size + 8` over the chunks is `form_size`. -/
theorem gm_parsed_chunks_tile (png : png_sniffer) (game : List Nat) (index : List gm_index)
    (h : gm_read_index png game = some index) :
    (∀ c, index[0]? = some c → c.offset = 8) ∧
      (∀ k a b, index[k]? = some a → index[k + 1]? = some b →
        b.offset = a.offset + 8 + (a.size : Int) ∧ a.offset < b.offset) ∧
      (∀ (j k : Nat) (a b : gm_index), j < k → index[j]? = some a → index[k]? = some b →
        a.offset + 8 + (a.size : Int) ≤ b.offset) ∧
      (∀ c ∈ index, c.offset + 8 + (c.size : Int) ≤ (U32LE_FROM_BUF game 4 : Int) + 8) ∧
      (∀ c, index.getLast? = some c →
        c.offset + 8 + (c.size : Int) = (U32LE_FROM_BUF game 4 : Int) + 8) ∧
      (index.map fun c => c.size + 8).sum = U32LE_FROM_BUF game 4 := by
  obtain ⟨buffer, hread, htiles⟩ := gm_read_index_tiles png game index h
  have h4 := gm_u32_of_fread game 0 8 4 buffer hread (by omega)
  rw [Nat.zero_add] at h4
  rw [h4] at htiles
  obtain ⟨t1, t2, t3, t4, t5⟩ := gm_tiles_facts _ _ _ htiles
  refine ⟨?_, ?_, ?_, ?_, ?_, ?_⟩
  · intro c hc
    rw [t1 c hc]
    rfl
  · intro k a b ha hb
    have := t2 k a b ha hb
    exact ⟨this, by omega⟩
  · intro j k a b hjk ha hb
    obtain ⟨d, rfl⟩ : ∃ d, k = j + 1 + d := ⟨k - (j + 1), by omega⟩
    exact gm_tiles_ordered index t2 j d a b ha hb
  · intro c hc
    have := (t3 c hc).2
    push_cast at this
    exact this
  · intro c hc
    have := t4 c hc
    push_cast at this
    exact this
  · have hm : max 8 (U32LE_FROM_BUF game 4 + 8) = U32LE_FROM_BUF game 4 + 8 := by omega
    rw [hm] at t5
    omega

/-! ## A patch, once attached, stays attached -/

theorem gm_keeps_patches_refl (d : gm_patched_index) : gm_keeps_patches d d :=
  ⟨rfl, fun _ e _ he hp => ⟨e, he, hp⟩⟩

theorem gm_keeps_patches_trans (a b c : gm_patched_index) (h1 : gm_keeps_patches a b)
    (h2 : gm_keeps_patches b c) : gm_keeps_patches a c := by
  refine ⟨h2.1.trans h1.1, ?_⟩
  intro i e p he hp
  obtain ⟨e1, he1, hp1⟩ := h1.2 i e p he hp
  exact h2.2 i e1 p he1 hp1

theorem gm_keeps_patches_shift (d : gm_patched_index) (offset : Int) :
    gm_keeps_patches d (gm_shift_chunk d offset) := by
  refine ⟨gm_shift_chunk_sect d offset, ?_⟩
  intro i e p he hp
  rw [gm_shift_chunk_entries, List.getElem?_map, he]
  exact ⟨_, rfl, hp⟩

theorem gm_keeps_patches_patched (c : gm_patched_index) (q : gm_patch)
    (entry : gm_patched_entry) (hq : c.entries[q.index]? = some entry)
    (hnone : entry.patch = none) : gm_keeps_patches c (gm_patched_chunk c q entry) := by
  refine ⟨gm_patched_chunk_sect c q entry, ?_⟩
  intro i e p he hp
  have hne : q.index ≠ i := by
    intro h
    subst h
    rw [hq] at he
    simp only [Option.some.injEq] at he
    subst he
    rw [hnone] at hp
    cases hp
  rw [gm_patched_chunk_entries]
  unfold gm_shift_siblings
  rw [List.getElem?_map, List.getElem?_set_ne hne, he]
  simp only [Option.map_some']
  split
  · exact ⟨_, rfl, hp⟩
  · exact ⟨_, rfl, hp⟩

theorem gm_shift_tail_persist (l : List gm_patched_index) (offset : Int) (i : Nat)
    (d : gm_patched_index) (hd : l[i]? = some d) :
    ∃ d1, (gm_shift_tail l offset).2[i]? = some d1 ∧ gm_keeps_patches d d1 := by
  induction l generalizing i with
  | nil => simp at hd
  | cons c rest ih =>
    unfold gm_shift_tail
    split
    · cases i with
      | zero =>
        simp only [List.getElem?_cons_zero, Option.some.injEq] at hd ⊢
        subst hd
        exact ⟨_, rfl, gm_keeps_patches_shift c offset⟩
      | succ j =>
        simp only [List.getElem?_cons_succ] at hd ⊢
        exact ih j hd
    · exact ⟨d, hd, gm_keeps_patches_refl d⟩

theorem gm_patch_entry_shape (c : gm_patched_index) (rest : List gm_patched_index)
    (q : gm_patch) :
    (gm_patch_entry (c :: rest) q).2 = c :: rest ∨
      ∃ entry, c.entries[q.index]? = some entry ∧ entry.patch = none ∧
        (gm_patch_entry (c :: rest) q).2 =
          gm_patched_chunk c q entry :: (gm_shift_tail rest (gm_delta q entry)).2 := by
  by_cases hmov : gm_movable c.sect = true
  · unfold gm_patch_entry
    simp only [hmov, if_true]
    rw [List.get?_eq_getElem?]
    cases he : c.entries[q.index]? with
    | none => exact Or.inl rfl
    | some entry =>
      dsimp only
      by_cases h1 : entry.patch.isSome = true
      · rw [if_pos h1]
        exact Or.inl rfl
      · rw [if_neg h1]
        by_cases h2 : entry.entry.type ≠ q.type
        · rw [if_pos h2]
          exact Or.inl rfl
        · rw [if_neg h2]
          by_cases h3 : c.sect = GM_TXTR ∧
              (entry.entry.width ≠ q.width ∨ entry.entry.height ≠ q.height)
          · rw [if_pos h3]
            exact Or.inl rfl
          · rw [if_neg h3]
            exact Or.inr ⟨entry, rfl, by simpa using h1, rfl⟩
  · unfold gm_patch_entry
    simp only [hmov, Bool.false_eq_true, if_false]
    split
    · exact Or.inl rfl
    · exact Or.inl rfl

theorem gm_patch_at_persist (st : List gm_patched_index) (j : Nat) (q : gm_patch) (k : Nat)
    (d : gm_patched_index) (hd : st[k]? = some d) :
    ∃ d1, (gm_patch_at st j q).2[k]? = some d1 ∧ gm_keeps_patches d d1 := by
  cases hj : st[j]? with
  | none =>
    have hlen : st.length ≤ j := List.getElem?_eq_none_iff.mp hj
    have hdrop : st.drop j = [] := List.drop_of_length_le hlen
    have htake : st.take j = st := List.take_of_length_le hlen
    refine ⟨d, ?_, gm_keeps_patches_refl d⟩
    simp only [gm_patch_at, hdrop, gm_patch_entry, htake, List.append_nil]
    exact hd
  | some c =>
    rw [gm_patch_at_eq st j q c hj]
    simp only
    have hjl : j < st.length := (List.getElem?_eq_some_iff.mp hj).1
    rcases Nat.lt_or_ge k j with hlt | hge
    · refine ⟨d, ?_, gm_keeps_patches_refl d⟩
      rw [List.getElem?_append_left (by rw [List.length_take]; omega),
        List.getElem?_take_of_lt hlt]
      exact hd
    · have hlen : (st.take j).length = j := by rw [List.length_take]; omega
      rw [List.getElem?_append_right (by omega), hlen]
      rcases gm_patch_entry_shape c (st.drop (j + 1)) q with hsame | ⟨entry, he, hnone, hshape⟩
      · rw [hsame, ← gm_drop_eq_cons st j c hj, List.getElem?_drop]
        refine ⟨d, ?_, gm_keeps_patches_refl d⟩
        rw [← hd]
        congr 1
        omega
      · rw [hshape]
        rcases Nat.eq_or_lt_of_le hge with heq | hgt
        · subst heq
          rw [hj] at hd
          simp only [Option.some.injEq] at hd
          subst hd
          rw [Nat.sub_self, List.getElem?_cons_zero]
          exact ⟨_, rfl, gm_keeps_patches_patched c q entry he hnone⟩
        · obtain ⟨i, hi⟩ : ∃ i, k - j = i + 1 := ⟨k - j - 1, by omega⟩
          rw [hi, List.getElem?_cons_succ]
          apply gm_shift_tail_persist
          rw [List.getElem?_drop, ← hd]
          congr 1
          omega

theorem gm_patch_run_persist (calls : List (Nat × gm_patch)) (st : List gm_patched_index)
    (k : Nat) (d : gm_patched_index) (hd : st[k]? = some d) :
    ∃ d1, (gm_patch_run st calls)[k]? = some d1 ∧ gm_keeps_patches d d1 := by
  induction calls generalizing st d with
  | nil => exact ⟨d, hd, gm_keeps_patches_refl d⟩
  | cons call rest ih =>
    obtain ⟨d1, h1, k1⟩ := gm_patch_at_persist st call.1 call.2 k d hd
    obtain ⟨d2, h2, k2⟩ := ih _ d1 h1
    exact ⟨d2, h2, gm_keeps_patches_trans d d1 d2 k1 k2⟩

theorem gm_patch_at_patched (st : List gm_patched_index) (k : Nat) (again : gm_patch)
    (d : gm_patched_index) (e : gm_patched_entry) (hd : st[k]? = some d)
    (hmov : gm_movable d.sect = true) (he : d.entries[again.index]? = some e)
    (hp : e.patch.isSome = true) :
    gm_patch_at st k again = (gm_status.error EINVAL, st) := by
  rw [gm_patch_at_eq st k again d hd]
  have h : gm_patch_entry (d :: st.drop (k + 1)) again =
      (gm_status.error EINVAL, d :: st.drop (k + 1)) := by
    unfold gm_patch_entry
    simp only [hmov, if_true]
    rw [List.get?_eq_getElem?, he]
    dsimp only
    rw [if_pos hp]
  rw [h]
  simp only
  rw [← gm_split_at st k d hd]

/-- Claim C11. No double patch: once `gm_patch_entry` has succeeded for entry `i` of a TXTR
or AUDO chunk, the entry carries that patch in every planned index reached by further calls,
whatever they target and return, and every later call that targets entry `i` of the same
chunk fails with `EINVAL` and changes nothing. -/
theorem gm_no_double_patch (st : List gm_patched_index) (k : Nat) (patch : gm_patch)
    (c : gm_patched_index) (calls : List (Nat × gm_patch)) (again : gm_patch)
    (hc : st[k]? = some c) (hmov : gm_movable c.sect = true)
    (hok : (gm_patch_at st k patch).1 = gm_status.ok) (hidx : again.index = patch.index) :
    (∃ d e, (gm_patch_run (gm_patch_at st k patch).2 calls)[k]? = some d ∧
      d.entries[patch.index]? = some e ∧ e.patch = some patch) ∧
    gm_patch_at (gm_patch_run (gm_patch_at st k patch).2 calls) k again =
      (gm_status.error EINVAL, gm_patch_run (gm_patch_at st k patch).2 calls) := by
  obtain ⟨entry, he, hnone, -, -, -, heq⟩ := gm_patch_at_ok st k patch c hc hmov hok
  have hkl : k < st.length := (List.getElem?_eq_some_iff.mp hc).1
  have hil : patch.index < c.entries.length := (List.getElem?_eq_some_iff.mp he).1
  have h1 : (gm_patch_at st k patch).2[k]? = some (gm_patched_chunk c patch entry) := by
    rw [heq, List.getElem?_append_right (by rw [List.length_take]; omega), List.length_take,
      Nat.min_eq_left (by omega), Nat.sub_self, List.getElem?_cons_zero]
  have h2 : ∃ e1, (gm_patched_chunk c patch entry).entries[patch.index]? = some e1 ∧
      e1.patch = some patch := by
    rw [gm_patched_chunk_entries]
    unfold gm_shift_siblings
    rw [List.getElem?_map, List.getElem?_set_eq_of_lt _ hil]
    simp only [Option.map_some']
    split
    · exact ⟨_, rfl, rfl⟩
    · exact ⟨_, rfl, rfl⟩
  obtain ⟨e1, he1, hp1⟩ := h2
  obtain ⟨d, hd, hsect, hkeep⟩ := gm_patch_run_persist calls _ k _ h1
  obtain ⟨e2, he2, hp2⟩ := hkeep patch.index e1 patch he1 hp1
  refine ⟨⟨d, e2, hd, he2, hp2⟩, ?_⟩
  apply gm_patch_at_patched _ k again d e2 hd
  · rw [hsect, gm_patched_chunk_sect]; exact hmov
  · rw [hidx]; exact he2
  · rw [hp2]; rfl

/-- C11 (witness). The image of `ex_archive` is patched; after two more calls, one of them the
same patch again, a third attempt on the image fails with `EINVAL`. -/
theorem gm_no_double_patch_witness :
    ((gm_build_patched ex_archive_index)[1]? =
        some { sect := GM_TXTR, offset := 20, size := 24,
               entries := [{ offset := 48, size := 4, patch := none,
                             entry := ex_archive_image }],
               index := { sect := GM_TXTR, offset := 20, size := 24,
                          entries := [ex_archive_image] } } ∧
      (gm_patch_at (gm_build_patched ex_archive_index) 1 ex_patch_image).1 = gm_status.ok) ∧
    ((∃ d e, (gm_patch_run (gm_patch_at (gm_build_patched ex_archive_index) 1
          ex_patch_image).2 [(0, ex_patch_sprt_same), (1, ex_patch_image)])[1]? = some d ∧
        d.entries[ex_patch_image.index]? = some e ∧ e.patch = some ex_patch_image) ∧
      gm_patch_at (gm_patch_run (gm_patch_at (gm_build_patched ex_archive_index) 1
          ex_patch_image).2 [(0, ex_patch_sprt_same), (1, ex_patch_image)]) 1 ex_patch_image =
        (gm_status.error EINVAL,
          gm_patch_run (gm_patch_at (gm_build_patched ex_archive_index) 1 ex_patch_image).2
            [(0, ex_patch_sprt_same), (1, ex_patch_image)])) :=
  ⟨⟨by decide, by decide⟩,
    gm_no_double_patch (gm_build_patched ex_archive_index) 1 ex_patch_image
      { sect := GM_TXTR, offset := 20, size := 24,
        entries := [{ offset := 48, size := 4, patch := none, entry := ex_archive_image }],
        index := { sect := GM_TXTR, offset := 20, size := 24,
                   entries := [ex_archive_image] } }
      [(0, ex_patch_sprt_same), (1, ex_patch_image)] ex_patch_image (by decide) (by decide)
      (by decide) rfl⟩

/-! ## Where the parsed entries lie -/

theorem gm_read_index_loop_mem (png : png_sniffer) (game : List Nat) (stop : Nat)
    (fuel : Nat) :
    ∀ (offset count : Nat) (l : List gm_index),
      gm_read_index_loop png game stop fuel offset count = some l →
      ∀ c ∈ l, ∃ o : Nat, c.offset = (o : Int) ∧
        gm_read_section png game c.sect (o + 8) = some c.entries := by
  induction fuel with
  | zero =>
    intro offset count l h c hc
    cases l with
    | nil => simp at hc
    | cons d rest =>
      obtain ⟨fuel1, -, hf, -⟩ := gm_read_index_loop_step _ _ _ _ _ _ _ _ h
      omega
  | succ n ih =>
    intro offset count l h c hc
    cases l with
    | nil => simp at hc
    | cons d rest =>
      obtain ⟨fuel1, buffer, hf, -, -, -, -, -, hoff, -, -, -, -, hent, hrest⟩ :=
        gm_read_index_loop_step _ _ _ _ _ _ _ _ h
      have hfe : fuel1 = n := by omega
      subst hfe
      rcases List.mem_cons.mp hc with hcd | hcr
      · subst hcd
        exact ⟨offset, hoff, hent⟩
      · exact ih _ _ rest hrest c hcr

theorem gm_read_index_mem (png : png_sniffer) (game : List Nat) (index : List gm_index)
    (h : gm_read_index png game = some index) :
    ∀ c ∈ index, ∃ o : Nat, c.offset = (o : Int) ∧
      gm_read_section png game c.sect (o + 8) = some c.entries := by
  unfold gm_read_index at h
  split at h
  · cases h
  · split at h
    · cases h
    · exact gm_read_index_loop_mem png game _ _ _ _ index h

theorem gm_read_audo_entry_fits (game : List Nat) (o : Nat) (e : gm_entry)
    (h : gm_read_audo_entry game o = some e) :
    o + 4 + min e.size 12 ≤ game.length := by
  unfold gm_read_audo_entry at h
  split at h
  · cases h
  · rename_i buffer hb
    split at h
    · cases h
    · rename_i hdr hh
      obtain ⟨-, hlen, -, -⟩ := gm_fread_eq _ _ _ _ hh
      simp only [Option.some.injEq] at h
      subst h
      simp only
      split at hlen <;> omega

theorem gm_read_index_txtr_entries (png : png_sniffer) (game : List Nat) (pos : Nat)
    (es : List gm_entry) (h : gm_read_index_txtr png game pos = some es) :
    ∀ e ∈ es, 0 ≤ e.offset ∧ e.offset ≤ (INT32_MAX : Int) := by
  unfold gm_read_index_txtr at h
  split at h
  · cases h
  · split at h
    · cases h
    · obtain ⟨-, hget⟩ := gm_read_entries_get _ _ _ h
      intro e he
      obtain ⟨i, hi⟩ := List.mem_iff_getElem?.mp he
      obtain ⟨o, -, hread⟩ := hget i e hi
      obtain ⟨-, -, -, hoff, -, -, hmax, -⟩ := gm_read_txtr_entry_spec png game o e hread
      rw [hoff]
      constructor <;> omega

theorem gm_read_index_audo_entries (game : List Nat) (pos : Nat) (es : List gm_entry)
    (h : gm_read_index_audo game pos = some es) :
    ∀ e ∈ es, 4 ≤ e.offset ∧ e.offset ≤ (INT32_MAX : Int) + 4 ∧ 0 < e.size ∧
      e.offset + (min e.size 12 : Nat) ≤ (game.length : Int) := by
  unfold gm_read_index_audo at h
  split at h
  · cases h
  · split at h
    · cases h
    · rename_i offs hoffs
      obtain ⟨hlen, hget⟩ := gm_read_entries_get _ _ _ h
      obtain ⟨hol, hog⟩ := gm_read_offsets_spec _ _ _ _ hoffs
      intro e he
      obtain ⟨i, hi⟩ := List.mem_iff_getElem?.mp he
      obtain ⟨o, ho, hread⟩ := hget i e hi
      have hil : i < es.length := (List.getElem?_eq_some_iff.mp hi).1
      obtain ⟨ho1, hmax, -⟩ := hog i (by omega)
      rw [ho1] at ho
      simp only [Option.some.injEq] at ho
      obtain ⟨-, hoff, -, hpos, -⟩ := gm_read_audo_entry_spec game o e hread
      have hfit := gm_read_audo_entry_fits game o e hread
      rw [hoff]
      refine ⟨by omega, by omega, hpos, by omega⟩

/-- Claim C17, amended: whenever `gm_read_index` succeeds, every entry of a TXTR chunk has an
offset between 0 and `INT32_MAX`, and every entry of an AUDO chunk has an offset between 4
and `INT32_MAX + 4` (table value + 4) and its first `min(size, 12)` bytes inside the file.
Nothing relates the offset to the bounds of the chunk. -/
theorem gm_entry_offsets_parsed (png : png_sniffer) (game : List Nat) (index : List gm_index)
    (h : gm_read_index png game = some index) :
    ∀ c ∈ index,
      (c.sect = GM_TXTR → ∀ e ∈ c.entries, 0 ≤ e.offset ∧ e.offset ≤ (INT32_MAX : Int)) ∧
      (c.sect = GM_AUDO → ∀ e ∈ c.entries, 4 ≤ e.offset ∧ e.offset ≤ (INT32_MAX : Int) + 4 ∧
        e.offset + (min e.size 12 : Nat) ≤ (game.length : Int)) := by
  intro c hc
  obtain ⟨o, -, hent⟩ := gm_read_index_mem png game index h c hc
  constructor
  · intro hs
    rw [hs] at hent
    exact gm_read_index_txtr_entries png game _ _ hent
  · intro hs e he
    rw [hs] at hent
    obtain ⟨h1, h2, -, h4⟩ := gm_read_index_audo_entries game _ _ hent e he
    exact ⟨h1, h2, h4⟩

/-- C17 (witness). The entries of `ex_archive`. -/
theorem gm_entry_offsets_parsed_witness :
    gm_read_index ex_sniffer ex_archive = some ex_archive_index ∧
    ∀ c ∈ ex_archive_index,
      (c.sect = GM_TXTR → ∀ e ∈ c.entries, 0 ≤ e.offset ∧ e.offset ≤ (INT32_MAX : Int)) ∧
      (c.sect = GM_AUDO → ∀ e ∈ c.entries, 4 ≤ e.offset ∧ e.offset ≤ (INT32_MAX : Int) + 4 ∧
        e.offset + (min e.size 12 : Nat) ≤ (ex_archive.length : Int)) :=
  ⟨by decide, gm_entry_offsets_parsed ex_sniffer ex_archive ex_archive_index (by decide)⟩

/-- C17 (counterexample). `gm_read_index` succeeds on `ex_archive_alias`; the entry of its
AUDO chunk, which begins at offset 24, has offset 20, before the chunk. -/
theorem gm_entry_outside_chunk :
    gm_read_index ex_sniffer ex_archive_alias = some ex_alias_index ∧
      ∃ c ∈ ex_alias_index, c.sect = GM_AUDO ∧ ∃ e ∈ c.entries,
        ¬ (c.offset + 8 ≤ e.offset ∧ e.offset < c.offset + 8 + (c.size : Int)) := by
  decide

/-! ## Entry regions under planning -/

theorem gm_entries_disjoint_single (c : gm_patched_index) (h : c.entries.length ≤ 1) :
    gm_entries_disjoint c := by
  intro i j a b hij ha hb
  have h1 := (List.getElem?_eq_some_iff.mp ha).1
  have h2 := (List.getElem?_eq_some_iff.mp hb).1
  omega

/-- C18 (counterexample). In the planned index of `ex_archive` every entry offset lies inside
its chunk and no two regions overlap.  The call that replaces the image by a patch of size 0
returns 0; afterwards the TXTR chunk ends at 48, the offset of its entry. -/
theorem gm_empty_patch_leaves_chunk :
    (∀ c ∈ gm_build_patched ex_archive_index, gm_movable c.sect = true →
        gm_entries_inside c ∧ gm_entries_disjoint c) ∧
      (gm_patch_at (gm_build_patched ex_archive_index) 1 ex_patch_image_empty).1 =
        gm_status.ok ∧
      ∃ c ∈ (gm_patch_at (gm_build_patched ex_archive_index) 1 ex_patch_image_empty).2,
        gm_movable c.sect = true ∧ ¬ gm_entries_inside c := by
  refine ⟨?_, by decide, ?_⟩
  · intro c hc hm
    refine ⟨?_, gm_entries_disjoint_single c ?_⟩
    · revert c
      unfold gm_entries_inside
      decide
    · revert c
      decide
  · unfold gm_entries_inside
    decide

theorem gm_delta_exact (patch : gm_patch) (entry : gm_patched_entry)
    (h1 : patch.size < 9223372036854775808) (h2 : entry.entry.size < 9223372036854775808) :
    gm_delta patch entry = (patch.size : Int) - (entry.entry.size : Int) := by
  unfold gm_delta
  rw [off_wrap_eq, size_wrap_eq]
  omega

theorem gm_region_start_lead (s : gm_section) :
    ∃ L : Int, 0 ≤ L ∧ L ≤ 4 ∧ ∀ e : gm_patched_entry, gm_region_start s e = e.offset - L := by
  by_cases h : s = GM_AUDO
  · exact ⟨4, by omega, by omega, fun e => by simp only [gm_region_start, h, if_true]⟩
  · exact ⟨0, by omega, by omega, fun e => by simp only [gm_region_start, h, if_false]; omega⟩

theorem gm_regions_shift_chunk (x : gm_patched_index) (delta : Int)
    (hx : gm_regions_inside x ∧ gm_entries_disjoint x) (h0 : 0 ≤ x.offset)
    (hlo : -9223372036854775808 ≤ delta)
    (hhi : x.offset + 8 + (x.size : Int) + delta < 9223372036854775808) :
    gm_regions_inside (gm_shift_chunk x delta) ∧ gm_entries_disjoint (gm_shift_chunk x delta) := by
  obtain ⟨hin, hdis⟩ := hx
  obtain ⟨L, hL0, hL4, hL⟩ := gm_region_start_lead x.sect
  unfold gm_regions_inside gm_entries_disjoint at *
  simp only [hL, gm_region_end] at hin hdis
  have hwrap : ∀ e ∈ x.entries, off_wrap (e.offset + delta) = e.offset + delta := by
    intro e he
    obtain ⟨a1, a2, a3, -⟩ := hin e he
    rw [off_wrap_eq]
    omega
  have hoff : off_wrap (x.offset + delta) = x.offset + delta := by
    rw [off_wrap_eq]; omega
  rw [gm_shift_chunk_sect, gm_shift_chunk_offset, gm_shift_chunk_size, gm_shift_chunk_entries,
    hoff]
  simp only [hL, gm_region_end]
  constructor
  · intro e1 he1
    obtain ⟨e, he, rfl⟩ := List.mem_map.mp he1
    obtain ⟨a1, a2, a3, a4⟩ := hin e he
    simp only
    rw [hwrap e he]
    exact ⟨by omega, by omega, a3, a4⟩
  · intro i j a1 b1 hij ha hb
    rw [List.getElem?_map] at ha hb
    cases hai : x.entries[i]? with
    | none => rw [hai] at ha; cases ha
    | some a =>
      cases hbj : x.entries[j]? with
      | none => rw [hbj] at hb; cases hb
      | some b =>
        rw [hai] at ha
        rw [hbj] at hb
        simp only [Option.map_some', Option.some.injEq] at ha hb
        subst ha
        subst hb
        have hd := hdis i j a b hij hai hbj
        simp only
        rw [hwrap a (List.getElem?_mem hai), hwrap b (List.getElem?_mem hbj)]
        omega

theorem gm_patched_entries_get (c : gm_patched_index) (patch : gm_patch)
    (entry : gm_patched_entry) (hq : c.entries[patch.index]? = some entry) (j : Nat)
    (e1 : gm_patched_entry)
    (h : (gm_patched_chunk c patch entry).entries[j]? = some e1) :
    (j = patch.index ∧
        e1 = { entry with size := patch.size, patch := some patch }) ∨
      (j ≠ patch.index ∧ ∃ e, c.entries[j]? = some e ∧
        ((e.offset > entry.offset ∧
            e1 = { e with offset := off_wrap (e.offset + gm_delta patch entry) }) ∨
          (¬ e.offset > entry.offset ∧ e1 = e))) := by
  have hil : patch.index < c.entries.length := (List.getElem?_eq_some_iff.mp hq).1
  rw [gm_patched_chunk_entries] at h
  unfold gm_shift_siblings at h
  rw [List.getElem?_map] at h
  by_cases hj : j = patch.index
  · left
    subst hj
    rw [List.getElem?_set_eq_of_lt _ hil] at h
    simp only [Option.map_some', Option.some.injEq, gt_iff_lt, lt_self_iff_false,
      if_false] at h
    exact ⟨rfl, h.symm⟩
  · right
    rw [List.getElem?_set_ne (Ne.symm hj)] at h
    cases he : c.entries[j]? with
    | none => rw [he] at h; cases h
    | some e =>
      rw [he] at h
      simp only [Option.map_some', Option.some.injEq] at h
      refine ⟨hj, e, rfl, ?_⟩
      by_cases hgt : e.offset > entry.offset
      · rw [if_pos hgt] at h
        exact Or.inl ⟨hgt, h.symm⟩
      · rw [if_neg hgt] at h
        exact Or.inr ⟨hgt, h.symm⟩

theorem gm_regions_patched_chunk (c : gm_patched_index) (patch : gm_patch)
    (entry : gm_patched_entry) (hc : gm_regions_inside c ∧ gm_entries_disjoint c)
    (hq : c.entries[patch.index]? = some entry) (hnone : entry.patch = none)
    (hps : 0 < patch.size) (h0 : 0 ≤ c.offset)
    (hhi : c.offset + 8 + (c.size : Int) + (patch.size : Int) < 9223372036854775808) :
    (gm_regions_inside (gm_patched_chunk c patch entry) ∧
      gm_entries_disjoint (gm_patched_chunk c patch entry)) ∧
    gm_delta patch entry = (patch.size : Int) - (entry.entry.size : Int) ∧
    entry.entry.size ≤ c.size := by
  obtain ⟨hin, hdis⟩ := hc
  obtain ⟨L, hL0, hL4, hL⟩ := gm_region_start_lead c.sect
  unfold gm_regions_inside gm_entries_disjoint at *
  simp only [hL, gm_region_end] at hin hdis
  obtain ⟨p1, p2, p3, p4⟩ := hin entry (List.getElem?_mem hq)
  have hes := p4 hnone
  have hd : gm_delta patch entry = (patch.size : Int) - (entry.entry.size : Int) :=
    gm_delta_exact patch entry (by omega) (by omega)
  have hsz : ((gm_patched_chunk c patch entry).size : Int) =
      (c.size : Int) + ((patch.size : Int) - (entry.entry.size : Int)) := by
    rw [gm_patched_chunk_size, hd]
    exact size_wrap_exact _ (by omega) (by omega)
  have key : ∀ (j : Nat) (e1 : gm_patched_entry),
      (gm_patched_chunk c patch entry).entries[j]? = some e1 →
      ∃ e, c.entries[j]? = some e ∧
        ((j = patch.index ∧ e1.offset = entry.offset ∧ e1.size = patch.size ∧
            e1.patch ≠ none) ∨
          (j ≠ patch.index ∧ e.offset > entry.offset ∧
            e1.offset = e.offset + ((patch.size : Int) - (entry.entry.size : Int)) ∧
            e1.size = e.size ∧ (e1.patch = none → e1.size = e1.entry.size)) ∨
          (j ≠ patch.index ∧ e.offset ≤ entry.offset ∧ e1.offset = e.offset ∧
            e1.size = e.size ∧ (e1.patch = none → e1.size = e1.entry.size))) := by
    intro j e1 h
    rcases gm_patched_entries_get c patch entry hq j e1 h with ⟨hj, he1⟩ | ⟨hj, e, he, hcase⟩
    · subst hj
      subst he1
      exact ⟨entry, hq, Or.inl ⟨rfl, rfl, rfl, by simp⟩⟩
    · obtain ⟨a1, a2, a3, a4⟩ := hin e (List.getElem?_mem he)
      rcases hcase with ⟨hgt, he1⟩ | ⟨hle, he1⟩
      · subst he1
        refine ⟨e, he, Or.inr (Or.inl ⟨hj, hgt, ?_, rfl, a4⟩)⟩
        simp only
        rw [hd, off_wrap_eq]
        omega
      · rw [he1]
        exact ⟨e, he, Or.inr (Or.inr ⟨hj, by omega, rfl, rfl, a4⟩)⟩
  refine ⟨⟨?_, ?_⟩, hd, by omega⟩
  · intro e1 hmem
    obtain ⟨j, hj⟩ := List.mem_iff_getElem?.mp hmem
    obtain ⟨e, he, hcase⟩ := key j e1 hj
    obtain ⟨a1, a2, a3, a4⟩ := hin e (List.getElem?_mem he)
    rw [gm_patched_chunk_sect, gm_patched_chunk_offset, hsz]
    simp only [hL, gm_region_end]
    rcases hcase with ⟨hji, b1, b2, b3⟩ | ⟨hji, b0, b1, b2, b3⟩ | ⟨hji, b0, b1, b2, b3⟩
    · refine ⟨by omega, by omega, by omega, fun h => absurd h b3⟩
    · have hdj := hdis j patch.index e entry hji he hq
      refine ⟨by omega, by omega, by omega, b3⟩
    · have hdj := hdis j patch.index e entry hji he hq
      refine ⟨by omega, by omega, by omega, b3⟩
  · intro i j a1 b1 hij ha hb
    obtain ⟨a, hae, hca⟩ := key i a1 ha
    obtain ⟨b, hbe, hcb⟩ := key j b1 hb
    obtain ⟨x1, x2, x3, -⟩ := hin a (List.getElem?_mem hae)
    obtain ⟨y1, y2, y3, -⟩ := hin b (List.getElem?_mem hbe)
    have hab := hdis i j a b hij hae hbe
    rw [gm_patched_chunk_sect]
    simp only [hL, gm_region_end]
    rcases hca with ⟨hi, c1, c2, -⟩ | ⟨hi, c0, c1, c2, -⟩ | ⟨hi, c0, c1, c2, -⟩ <;>
      rcases hcb with ⟨hj, d1, d2, -⟩ | ⟨hj, d0, d1, d2, -⟩ | ⟨hj, d0, d1, d2, -⟩
    · omega
    · have hbp := hdis j patch.index b entry hj hbe hq
      omega
    · have hbp := hdis j patch.index b entry hj hbe hq
      omega
    · have hap := hdis i patch.index a entry hi hae hq
      omega
    · omega
    · have hap := hdis i patch.index a entry hi hae hq
      have hbp := hdis j patch.index b entry hj hbe hq
      omega
    · have hap := hdis i patch.index a entry hi hae hq
      omega
    · have hap := hdis i patch.index a entry hi hae hq
      have hbp := hdis j patch.index b entry hj hbe hq
      omega
    · omega

theorem gm_regions_inside_entries (d : gm_patched_index) (h : gm_regions_inside d) :
    gm_entries_inside d := by
  obtain ⟨L, hL0, hL4, hL⟩ := gm_region_start_lead d.sect
  intro e he
  obtain ⟨a1, a2, a3, -⟩ := h e he
  simp only [hL, gm_region_end] at a1 a2
  constructor <;> omega

/-- Claim C18, amended: if in a planned index every entry region of every TXTR and AUDO chunk
(TXTR: `[offset, offset + size)`; AUDO: `[offset − 4, offset + size)`) lies inside the payload
of its chunk, no entry is empty, unpatched entries have their parsed size, the regions of each
chunk are pairwise non-overlapping and no position comes near the end of the `off_t` range,
then after a `gm_patch_entry` call that returns 0 for a patch whose size is not 0 (smaller or
larger than the original) the same holds; in particular every entry offset lies between its
chunk's offset and the end of its chunk, and the regions do not overlap. -/
theorem gm_regions_preserved (st : List gm_patched_index) (k : Nat) (patch : gm_patch)
    (c : gm_patched_index) (hc : st[k]? = some c) (hmov : gm_movable c.sect = true)
    (hok : (gm_patch_at st k patch).1 = gm_status.ok) (hinv : gm_regions_ok st)
    (hps : 0 < patch.size)
    (hbound : ∀ d ∈ st, 0 ≤ d.offset ∧
      d.offset + 8 + (d.size : Int) + (patch.size : Int) < 9223372036854775808) :
    gm_regions_ok (gm_patch_at st k patch).2 ∧
      ∀ d ∈ (gm_patch_at st k patch).2, gm_movable d.sect = true →
        gm_entries_inside d ∧ gm_entries_disjoint d := by
  have hmain : gm_regions_ok (gm_patch_at st k patch).2 := by
    obtain ⟨entry, he, hnone, -, -, hall, heq⟩ := gm_patch_at_ok st k patch c hc hmov hok
    have hcm : c ∈ st := List.getElem?_mem hc
    obtain ⟨hA, hd, hsz⟩ := gm_regions_patched_chunk c patch entry (hinv c hcm hmov) he hnone
      hps (hbound c hcm).1 (hbound c hcm).2
    have hcb := hbound c hcm
    rw [heq]
    intro d hdm _
    rcases List.mem_append.mp hdm with h1 | h1
    · exact hinv d (List.mem_of_mem_take h1) (by assumption)
    · rcases List.mem_cons.mp h1 with h2 | h2
      · rw [h2]
        exact hA
      · obtain ⟨x, hx, rfl⟩ := List.mem_map.mp h2
        have hxs : x ∈ st := List.mem_of_mem_drop hx
        have hxb := hbound x hxs
        apply gm_regions_shift_chunk x _ (hinv x hxs (hall x hx)) hxb.1
        · rw [hd]; omega
        · rw [hd]; omega
  refine ⟨hmain, ?_⟩
  intro d hd hm
  exact ⟨gm_regions_inside_entries d (hmain d hd hm).1, (hmain d hd hm).2⟩

/-- C18 (witness). The image of `ex_archive` is replaced by one of 5 bytes. -/
theorem gm_regions_preserved_witness :
    ((gm_build_patched ex_archive_index)[1]? =
        some { sect := GM_TXTR, offset := 20, size := 24,
               entries := [{ offset := 48, size := 4, patch := none,
                             entry := ex_archive_image }],
               index := { sect := GM_TXTR, offset := 20, size := 24,
                          entries := [ex_archive_image] } } ∧
      (gm_patch_at (gm_build_patched ex_archive_index) 1 ex_patch_image).1 = gm_status.ok ∧
      gm_regions_ok (gm_build_patched ex_archive_index) ∧ 0 < ex_patch_image.size ∧
      ∀ d ∈ gm_build_patched ex_archive_index, 0 ≤ d.offset ∧
        d.offset + 8 + (d.size : Int) + (ex_patch_image.size : Int) < 9223372036854775808) ∧
    (gm_regions_ok (gm_patch_at (gm_build_patched ex_archive_index) 1 ex_patch_image).2 ∧
      ∀ d ∈ (gm_patch_at (gm_build_patched ex_archive_index) 1 ex_patch_image).2,
        gm_movable d.sect = true → gm_entries_inside d ∧ gm_entries_disjoint d) :=
  have hinv : gm_regions_ok (gm_build_patched ex_archive_index) := by
    intro c hc hm
    refine ⟨?_, gm_entries_disjoint_single c ?_⟩
    · revert c
      unfold gm_regions_inside
      decide
    · revert c
      decide
  have hb : ∀ d ∈ gm_build_patched ex_archive_index, 0 ≤ d.offset ∧
      d.offset + 8 + (d.size : Int) + (ex_patch_image.size : Int) < 9223372036854775808 := by
    decide
  ⟨⟨by decide, by decide, hinv, by decide, hb⟩,
    gm_regions_preserved (gm_build_patched ex_archive_index) 1 ex_patch_image
      { sect := GM_TXTR, offset := 20, size := 24,
        entries := [{ offset := 48, size := 4, patch := none, entry := ex_archive_image }],
        index := { sect := GM_TXTR, offset := 20, size := 24,
                   entries := [ex_archive_image] } }
      (by decide) (by decide) (by decide) hinv (by decide) hb⟩

/-! ## What the writer leaves in the output -/

theorem gm_holds_length (d : List Nat) (P : Nat) (B : List Nat) (h : gm_holds d P B)
    (hB : 0 < B.length) : P + B.length ≤ d.length := by
  unfold gm_holds at h
  have := congrArg List.length h
  rw [List.length_take, List.length_drop] at this
  omega

theorem gm_holds_keep (d d1 : List Nat) (P : Nat) (B : List Nat) (E : Nat)
    (h : gm_holds d P B) (hE : B.length = 0 ∨ P + B.length ≤ E)
    (ht : d1.take E = d.take E) : gm_holds d1 P B := by
  rcases hE with h0 | hle
  · unfold gm_holds
    rw [h0, List.take_zero]
    exact (List.length_eq_zero.mp h0).symm
  · unfold gm_holds at *
    have e1 : ∀ l : List Nat, (l.drop P).take B.length = ((l.take E).drop P).take B.length := by
      intro l
      rw [List.drop_take, List.take_take, Nat.min_eq_left (by omega)]
    rw [e1 d1, ht, ← e1 d]
    exact h

theorem gm_fwrite_holds (bytes : List Nat) (s s1 : gm_out) (h : gm_fwrite bytes s = some s1) :
    gm_holds s1.data s.pos bytes ∧ s1.pos = s.pos + bytes.length ∧
      s1.pos ≤ s1.data.length ∧ 0 < bytes.length := by
  obtain ⟨h1, h2⟩ := gm_fwrite_data bytes s s1 h
  obtain ⟨r1, r2⟩ := gm_file_write_region s.data s.pos bytes
  have hpos : 0 < bytes.length := by
    unfold gm_fwrite at h
    split at h
    · cases h
    · omega
  rw [← h1] at r1 r2
  exact ⟨r1, h2, by omega, hpos⟩

theorem gm_take_of_take (a b : List Nat) (E F : Nat) (h : a.take E = b.take E) (hF : F ≤ E) :
    a.take F = b.take F := by
  have := congrArg (List.take F) h
  rw [List.take_take, List.take_take, Nat.min_eq_left hF] at this
  exact this

theorem gm_write_records_region {α : Type} (g : α → List Nat) (r : Nat) (xs : List α)
    (hr : ∀ x ∈ xs, (g x).length = r) (s s1 : gm_out) (hp : s.pos ≤ s.data.length)
    (h : gm_write_each (fun x => gm_fwrite (g x)) xs s = some s1) :
    s1.pos = s.pos + r * xs.length ∧ s1.pos ≤ s1.data.length ∧
      s1.data.take s.pos = s.data.take s.pos ∧
      ∀ (i : Nat) (x : α), xs[i]? = some x → gm_holds s1.data (s.pos + r * i) (g x) := by
  induction xs generalizing s with
  | nil =>
    simp only [gm_write_each, Option.some.injEq] at h
    subst h
    exact ⟨by simp, hp, rfl, fun i x hx => by simp at hx⟩
  | cons x rest ih =>
    unfold gm_write_each at h
    split at h
    · cases h
    · rename_i s2 hs2
      obtain ⟨w1, w2, w3, w4⟩ := gm_fwrite_holds (g x) s s2 hs2
      obtain ⟨k1, -, -⟩ := gm_fwrite_keep s.pos (g x) s s2 hp (le_refl _) hs2
      have hrx := hr x (List.mem_cons_self _ _)
      obtain ⟨i1, i2, i3, i4⟩ := ih (fun y hy => hr y (List.mem_cons_of_mem _ hy)) s2 w3 h
      refine ⟨?_, i2, ?_, ?_⟩
      · rw [i1, w2, hrx, List.length_cons]
        ring
      · rw [gm_take_of_take _ _ _ _ i3 (by omega), k1]
      · intro i y hy
        cases i with
        | zero =>
          simp only [List.getElem?_cons_zero, Option.some.injEq] at hy
          subst hy
          rw [Nat.mul_zero, Nat.add_zero]
          exact gm_holds_keep s2.data s1.data s.pos (g x) s2.pos w1 (Or.inr (by omega)) i3
        | succ j =>
          simp only [List.getElem?_cons_succ] at hy
          have := i4 j y hy
          rw [w2, hrx] at this
          have e : s.pos + r + r * j = s.pos + r * (j + 1) := by ring
          rw [e] at this
          exact this

theorem gm_holds_append (d : List Nat) (P : Nat) (A B : List Nat) (hA : gm_holds d P A)
    (hB : gm_holds d (P + A.length) B) : gm_holds d P (A ++ B) := by
  unfold gm_holds at *
  rw [List.length_append, List.take_add, List.drop_drop, hA, hB]

theorem gm_copydata_holds (src : List Nat) (srcoff dstoff : Int) (size : Nat) (s s1 : gm_out)
    (h : gm_copydata src srcoff dstoff size s = some s1) :
    0 ≤ dstoff ∧ gm_holds s1.data dstoff.toNat ((src.drop srcoff.toNat).take size) ∧
      ((src.drop srcoff.toNat).take size).length = size ∧ s1.pos = dstoff.toNat + size ∧
      (0 < size → dstoff.toNat + size ≤ s1.data.length) := by
  unfold gm_copydata at h
  split at h
  · cases h
  · split at h
    · cases h
    · split at h
      · cases h
      · rename_i s3 hs3
        obtain ⟨a1, -, a3⟩ := gm_fseeko_data _ _ _ hs3
        obtain ⟨b1, b2, b3⟩ := gm_copy_loop_region src size _ size s3 s1 h
        rw [a3] at b1 b2 b3
        have hlen : ((src.drop srcoff.toNat).take size).length = size := by
          rw [List.length_take, List.length_drop]
          rcases Nat.eq_zero_or_pos size with h0 | hp
          · omega
          · have := (b3 hp).1
            omega
        refine ⟨a1, ?_, hlen, b2, fun hp => (b3 hp).2⟩
        unfold gm_holds
        rw [hlen]
        exact b1

theorem gm_write_patch_data_holds (q : gm_patch) (s s1 : gm_out)
    (h : gm_write_patch_data q s = some s1) :
    gm_holds s1.data s.pos (q.data.take q.size) ∧ (q.data.take q.size).length = q.size ∧
      s1.pos = s.pos + q.size ∧ (0 < q.size → s.pos + q.size ≤ s1.data.length) := by
  unfold gm_write_patch_data at h
  split at h
  · split at h
    · cases h
    · rename_i hlen
      obtain ⟨w1, w2, w3, w4⟩ := gm_fwrite_holds _ s s1 h
      have hl : (q.data.take q.size).length = q.size := by
        rw [List.length_take]; omega
      rw [hl] at w2
      exact ⟨w1, hl, w2, fun _ => by omega⟩
  · split at h
    · cases h
    · rename_i s2 hs2
      obtain ⟨d1, d2⟩ := gm_io_data s s2 hs2
      obtain ⟨c1, c2, c3, c4, c5⟩ := gm_copydata_holds _ _ _ _ _ _ h
      rw [d2, Int.toNat_ofNat] at c2 c4 c5
      simp only [Int.toNat_zero, List.drop_zero] at c2 c3
      exact ⟨c2, c3, c4, c5⟩

theorem gm_write_txtr_entry_holds (game : List Nat) (e : gm_patched_entry) (s s1 : gm_out)
    (hinv : ∀ q, e.patch = some q → e.size = q.size)
    (h : gm_write_txtr_entry game e s = some s1) :
    0 ≤ e.offset - ((0 : Nat) : Int) ∧
      gm_holds s1.data (e.offset - ((0 : Nat) : Int)).toNat (gm_txtr_payload game e) ∧
      (gm_txtr_payload game e).length = e.size + 0 ∧
      s1.pos = (e.offset - ((0 : Nat) : Int)).toNat + (e.size + 0) ∧
      (0 < e.size + 0 →
        (e.offset - ((0 : Nat) : Int)).toNat + (e.size + 0) ≤ s1.data.length) := by
  have e0 : e.offset - ((0 : Nat) : Int) = e.offset := by omega
  rw [e0, Nat.add_zero]
  unfold gm_write_txtr_entry at h
  unfold gm_txtr_payload
  split at h
  · rename_i q hq
    split at h
    · cases h
    · rename_i s2 hs2
      obtain ⟨a1, a2, a3⟩ := gm_fseeko_data _ _ _ hs2
      obtain ⟨b1, b2, b3, b4⟩ := gm_write_patch_data_holds q s2 s1 h
      rw [a3] at b1 b3 b4
      rw [hinv q hq]
      exact ⟨a1, b1, b2, b3, b4⟩
  · exact gm_copydata_holds _ _ _ _ _ _ h

theorem gm_write_payloads_region (lead : Nat) (step : gm_patched_entry → gm_out → Option gm_out)
    (B : gm_patched_entry → List Nat) (es : List gm_patched_entry)
    (hstep : ∀ e ∈ es, ∀ (s s1 : gm_out), step e s = some s1 →
      0 ≤ e.offset - (lead : Int) ∧ gm_holds s1.data (e.offset - (lead : Int)).toNat (B e) ∧
        (B e).length = e.size + lead ∧
        s1.pos = (e.offset - (lead : Int)).toNat + (e.size + lead) ∧
        (0 < e.size + lead →
          (e.offset - (lead : Int)).toNat + (e.size + lead) ≤ s1.data.length))
    (hkeep : ∀ e ∈ es, ∀ (E : Nat) (s s1 : gm_out), E ≤ s.data.length →
      (E : Int) ≤ e.offset - (lead : Int) → step e s = some s1 →
      s1.data.take E = s.data.take E ∧ E ≤ s1.data.length ∧ E ≤ s1.pos) :
    ∀ (start stop : Int) (s s1 : gm_out) (E : Nat),
      gm_entries_ordered (lead : Int) start es stop → E ≤ s.data.length → (E : Int) ≤ start →
      E ≤ s.pos → gm_write_each step es s = some s1 →
      s1.data.take E = s.data.take E ∧
        ∃ E1, E ≤ E1 ∧ E1 ≤ s1.data.length ∧ E1 ≤ s1.pos ∧ (E1 : Int) ≤ stop ∧
          ∀ (i : Nat) (e : gm_patched_entry), es[i]? = some e →
            gm_holds s1.data (e.offset - (lead : Int)).toNat (B e) ∧
              ((B e).length = 0 ∨ (e.offset - (lead : Int)).toNat + (B e).length ≤ E1) := by
  induction es with
  | nil =>
    intro start stop s s1 E hord hE hstart hpos h
    simp only [gm_write_each, Option.some.injEq] at h
    subst h
    have : start ≤ stop := hord
    exact ⟨rfl, E, le_refl _, hE, hpos, by omega, fun i e he => by simp at he⟩
  | cons e rest ih =>
    intro start stop s s1 E hord hE hstart hpos h
    obtain ⟨o1, o2⟩ := hord
    unfold gm_write_each at h
    split at h
    · cases h
    · rename_i s2 hs2
      have hmem : e ∈ e :: rest := List.mem_cons_self _ _
      obtain ⟨f1, f2, f3, f4, f5⟩ := hstep e hmem s s2 hs2
      obtain ⟨k1, k2, k3⟩ := hkeep e hmem E s s2 hE (by omega) hs2
      obtain ⟨P, hP⟩ : ∃ P : Nat, e.offset - (lead : Int) = (P : Int) :=
        ⟨(e.offset - (lead : Int)).toNat, by omega⟩
      rw [hP, Int.toNat_ofNat] at f2 f4 f5
      by_cases hz : 0 < e.size + lead
      · have hlen := f5 hz
        obtain ⟨i1, E1, i2, i3, i4, i5, i6⟩ := ih
          (fun x hx => hstep x (List.mem_cons_of_mem _ hx))
          (fun x hx => hkeep x (List.mem_cons_of_mem _ hx))
          _ stop s2 s1 (P + (e.size + lead)) o2 hlen (by omega) (by omega) h
        refine ⟨?_, E1, by omega, i3, i4, i5, ?_⟩
        · rw [gm_take_of_take _ _ _ _ i1 (by omega), k1]
        · intro i x hx
          cases i with
          | zero =>
            simp only [List.getElem?_cons_zero, Option.some.injEq] at hx
            subst hx
            rw [hP, Int.toNat_ofNat, f3]
            exact ⟨gm_holds_keep s2.data s1.data P _ _ f2 (Or.inr (by omega)) i1,
              Or.inr (by omega)⟩
          | succ j =>
            simp only [List.getElem?_cons_succ] at hx
            exact i6 j x hx
      · obtain ⟨i1, E1, i2, i3, i4, i5, i6⟩ := ih
          (fun x hx => hstep x (List.mem_cons_of_mem _ hx))
          (fun x hx => hkeep x (List.mem_cons_of_mem _ hx))
          _ stop s2 s1 E o2 k2 (by omega) k3 h
        refine ⟨i1.trans k1, E1, i2, i3, i4, i5, ?_⟩
        intro i x hx
        cases i with
        | zero =>
          simp only [List.getElem?_cons_zero, Option.some.injEq] at hx
          subst hx
          rw [hP, Int.toNat_ofNat, f3]
          exact ⟨gm_holds_keep s2.data s1.data P _ E f2 (Or.inl (by omega)) i1,
            Or.inl (by omega)⟩
        | succ j =>
          simp only [List.getElem?_cons_succ] at hx
          exact i6 j x hx

/-! ## Planned sizes -/

theorem gm_sizes_inv_build (index : List gm_index) : gm_sizes_inv (gm_build_patched index) := by
  intro c hc e he
  unfold gm_build_patched at hc
  obtain ⟨d, -, rfl⟩ := List.mem_map.mp hc
  obtain ⟨x, -, rfl⟩ := List.mem_map.mp he
  exact ⟨fun q hq => (by cases hq), fun _ => rfl⟩

theorem gm_sizes_inv_shift_tail (l : List gm_patched_index) (offset : Int)
    (h : gm_sizes_inv l) : gm_sizes_inv (gm_shift_tail l offset).2 := by
  induction l with
  | nil => exact h
  | cons c rest ih =>
    unfold gm_shift_tail
    split
    · intro d hd e he
      rcases List.mem_cons.mp hd with h1 | h1
      · subst h1
        rw [gm_shift_chunk_entries] at he
        obtain ⟨x, hx, rfl⟩ := List.mem_map.mp he
        exact h c (List.mem_cons_self _ _) x hx
      · exact ih (fun d hd => h d (List.mem_cons_of_mem _ hd)) d h1 e he
    · exact h

theorem gm_sizes_inv_patch_entry (c : gm_patched_index) (rest : List gm_patched_index)
    (q : gm_patch) (h : gm_sizes_inv (c :: rest)) :
    gm_sizes_inv (gm_patch_entry (c :: rest) q).2 := by
  rcases gm_patch_entry_shape c rest q with hsame | ⟨entry, he, -, hshape⟩
  · rw [hsame]; exact h
  · rw [hshape]
    intro d hd e1 he1
    rcases List.mem_cons.mp hd with h1 | h1
    · subst h1
      obtain ⟨j, hj⟩ := List.mem_iff_getElem?.mp he1
      rcases gm_patched_entries_get c q entry he j e1 hj with ⟨-, hp⟩ | ⟨-, e, hej, hcase⟩
      · rw [hp]
        refine ⟨?_, ?_⟩
        · intro p hp1
          simp only [Option.some.injEq] at hp1
          rw [← hp1]
        · intro hn
          cases hn
      · have hc := h c (List.mem_cons_self _ _) e (List.getElem?_mem hej)
        rcases hcase with ⟨-, hp⟩ | ⟨-, hp⟩
        · rw [hp]; exact hc
        · rw [hp]; exact hc
    · exact gm_sizes_inv_shift_tail rest _ (fun d hd => h d (List.mem_cons_of_mem _ hd)) d h1
        e1 he1

theorem gm_sizes_inv_patch_at (st : List gm_patched_index) (k : Nat) (q : gm_patch)
    (h : gm_sizes_inv st) : gm_sizes_inv (gm_patch_at st k q).2 := by
  cases hk : st[k]? with
  | none =>
    have hlen : st.length ≤ k := List.getElem?_eq_none_iff.mp hk
    simp only [gm_patch_at, List.drop_of_length_le hlen, gm_patch_entry,
      List.take_of_length_le hlen, List.append_nil]
    exact h
  | some c =>
    rw [gm_patch_at_eq st k q c hk]
    simp only
    have hsplit := gm_split_at st k c hk
    have h2 : gm_sizes_inv (c :: st.drop (k + 1)) := by
      intro d hd
      apply h d
      rw [hsplit]
      exact List.mem_append_right _ hd
    have h3 := gm_sizes_inv_patch_entry c _ q h2
    intro d hd
    rcases List.mem_append.mp hd with h4 | h4
    · exact h d (List.mem_of_mem_take h4)
    · exact h3 d h4

theorem gm_sizes_inv_apply (patches : List gm_patch) (st : List gm_patched_index)
    (h : gm_sizes_inv st) : gm_sizes_inv (gm_apply_patches st patches).2 := by
  induction patches generalizing st with
  | nil => exact h
  | cons q rest ih =>
    unfold gm_apply_patches
    cases hk : gm_get_section st q.sect with
    | none => exact h
    | some k =>
      simp only
      have h1 := gm_sizes_inv_patch_at st k q h
      cases hr : gm_patch_at st k q with
      | mk r1 r2 =>
        rw [hr] at h1
        cases r1 with
        | error e => exact h1
        | ok => exact ih r2 h1

theorem gm_planned_behind_mono (E stop : Nat) (l : List gm_patched_index) (hE : E ≤ stop)
    (h : gm_planned_behind stop l) : gm_planned_behind E l := by
  intro d hd
  obtain ⟨a, b, c⟩ := h d hd
  refine ⟨by omega, fun hs e he => ?_, fun hs e he => ?_⟩
  · have := b hs e he; omega
  · have := c hs e he; omega

/-! ## The TXTR chunk as written -/

theorem gm_u32_add (x y : Int) : u32_wrap ((u32_wrap x : Int) + y) = u32_wrap (x + y) := by
  rw [u32_wrap_eq, u32_wrap_eq, u32_wrap_eq,
    Int.toNat_of_nonneg (Int.emod_nonneg x (by omega)), Int.emod_add_emod]

theorem gm_fileinfo_bytes (p : gm_patched_index) (i : Nat) :
    WRITE_U32LE (gm_fileinfo_offset p i) =
      WRITE_U32LE (p.offset + 12 + 4 * (p.entries.length : Int) + 12 * (i : Int)) := by
  have h : u32_wrap (gm_fileinfo_offset p i) =
      u32_wrap (p.offset + 12 + 4 * (p.entries.length : Int) + 12 * (i : Int)) := by
    unfold gm_fileinfo_offset
    rw [gm_u32_add]
    have e1 : (u32_wrap p.offset : Int) + 12 + 4 * (p.entries.length : Int) + (i : Int) * 12 =
        (u32_wrap p.offset : Int) + (12 + 4 * (p.entries.length : Int) + (i : Int) * 12) := by
      ring
    have e2 : p.offset + 12 + 4 * (p.entries.length : Int) + 12 * (i : Int) =
        p.offset + (12 + 4 * (p.entries.length : Int) + (i : Int) * 12) := by
      ring
    rw [e1, gm_u32_add, e2]
  unfold WRITE_U32LE
  rw [h]

theorem gm_write_hdr_holds (m : List Nat) (size : Nat) (s s1 : gm_out) (hm : m.length = 4)
    (h : gm_write_hdr (some m) size s = some s1) :
    gm_holds s1.data s.pos (m ++ WRITE_U32LE (size : Int)) ∧ s1.pos = s.pos + 8 ∧
      s1.pos ≤ s1.data.length := by
  unfold gm_write_hdr at h
  simp only at h
  split at h
  · cases h
  · rw [List.take_of_length_le (by omega)] at h
    obtain ⟨w1, w2, w3, -⟩ := gm_fwrite_holds _ s s1 h
    have hl : (m ++ WRITE_U32LE (size : Int)).length = 8 := by
      rw [List.length_append, hm]; rfl
    rw [hl] at w2
    exact ⟨w1, w2, w3⟩

theorem gm_write_txtr_chunk_region (game : List Nat) (p : gm_patched_index) (m s3 : gm_out)
    (stop : Int) (hs : p.sect = GM_TXTR)
    (hinv : ∀ e ∈ p.entries, ∀ q, e.patch = some q → e.size = q.size)
    (hord : gm_entries_ordered ((0 : Nat) : Int)
      (p.offset + 12 + 16 * (p.entries.length : Int)) p.entries stop)
    (h : gm_write_chunk game p m = some s3) :
    ∃ (C E1 : Nat), p.offset = (C : Int) ∧ E1 ≤ s3.data.length ∧ E1 ≤ s3.pos ∧
      (E1 : Int) ≤ stop ∧
      ∀ d1 : List Nat, d1.take E1 = s3.data.take E1 →
        gm_holds d1 C (gm_magic 'T' 'X' 'T' 'R' ++ WRITE_U32LE (p.size : Int)) ∧
        gm_holds d1 (C + 8) (WRITE_U32LE (p.entries.length : Int)) ∧
        (∀ i, i < p.entries.length →
          gm_holds d1 (C + 12 + 4 * i) (WRITE_U32LE (gm_fileinfo_offset p i))) ∧
        (∀ (i : Nat) (e : gm_patched_entry), p.entries[i]? = some e →
          gm_holds d1 (C + 12 + 4 * p.entries.length + 12 * i)
            (WRITE_U32LE (e.entry.unknown1 : Int) ++ WRITE_U32LE (e.entry.unknown2 : Int) ++
              WRITE_U32LE e.offset)) ∧
        (∀ (i : Nat) (e : gm_patched_entry), p.entries[i]? = some e →
          gm_holds d1 e.offset.toNat (gm_txtr_payload game e)) := by
  unfold gm_write_chunk at h
  split at h
  · cases h
  rename_i t0 ht0
  obtain ⟨a1, a2, a3⟩ := gm_fseeko_data _ _ _ ht0
  obtain ⟨C, hC⟩ : ∃ C : Nat, p.offset = (C : Int) := ⟨p.offset.toNat, by omega⟩
  rw [hC, Int.toNat_ofNat] at a3
  split at h
  · cases h
  rename_i t1 ht1
  have hname : gm_section_name p.sect = some (gm_magic 'T' 'X' 'T' 'R') := by rw [hs]; rfl
  rw [hname] at ht1
  obtain ⟨b1, b2, b3⟩ := gm_write_hdr_holds _ _ t0 t1 (by simp [gm_magic]) ht1
  rw [a3] at b1 b2
  unfold gm_write_section at h
  simp only [hs] at h
  split at h
  · cases h
  rename_i t2 ht2
  obtain ⟨c1, c2, c3, -⟩ := gm_fwrite_holds _ t1 t2 ht2
  obtain ⟨k1, -, -⟩ := gm_fwrite_keep t1.pos _ t1 t2 b3 (le_refl _) ht2
  have hw4 : ∀ x : Int, (WRITE_U32LE x).length = 4 := fun _ => rfl
  rw [b2] at c1 k1
  rw [hw4, b2] at c2
  split at h
  · cases h
  rename_i t3 ht3
  obtain ⟨d1, d2, d3, d4⟩ := gm_write_records_region
    (fun i => WRITE_U32LE (gm_fileinfo_offset p i)) 4 _ (fun x _ => rfl) t2 t3 c3 ht3
  rw [List.length_range, c2] at d1
  rw [c2] at d3 d4
  split at h
  · cases h
  rename_i t4 ht4
  obtain ⟨e1, e2, e3, e4⟩ := gm_write_records_region
    (fun (entry : gm_patched_entry) =>
      WRITE_U32LE (entry.entry.unknown1 : Int) ++ WRITE_U32LE (entry.entry.unknown2 : Int) ++
        WRITE_U32LE entry.offset) 12 _ (fun x _ => rfl) t3 t4 d2 ht4
  rw [d1] at e1 e3 e4
  have hF : (C : Int) + 12 + 16 * (p.entries.length : Int) =
      ((C + 8 + 4 + 4 * p.entries.length + 12 * p.entries.length : Nat) : Int) := by
    push_cast; ring
  rw [hC, hF] at hord
  obtain ⟨f1, E1, f2, f3, f4, f5, f6⟩ := gm_write_payloads_region 0 (gm_write_txtr_entry game)
    (gm_txtr_payload game) p.entries
    (fun e he s s1 hw => gm_write_txtr_entry_holds game e s s1 (hinv e he) hw)
    (fun e _ E s s1 hE ho hw => gm_write_txtr_entry_keep E game e s s1 hE (by omega) hw)
    _ stop t4 s3 (C + 8 + 4 + 4 * p.entries.length + 12 * p.entries.length) hord
    (by omega) (le_refl _) (by omega) h
  refine ⟨C, E1, hC, f3, f4, f5, ?_⟩
  intro out hout
  have g4 := gm_take_of_take _ _ _ _ hout f2
  rw [f1] at g4
  have g3 := gm_take_of_take _ _ _ (C + 8 + 4 + 4 * p.entries.length) g4 (by omega)
  rw [e3] at g3
  have g2 := gm_take_of_take _ _ _ (C + 8 + 4) g3 (by omega)
  rw [d3] at g2
  have g1 := gm_take_of_take _ _ _ (C + 8) g2 (by omega)
  rw [k1] at g1
  refine ⟨?_, ?_, ?_, ?_, ?_⟩
  · exact gm_holds_keep _ _ _ _ _ b1 (Or.inr (by simp [gm_magic, WRITE_U32LE])) g1
  · exact gm_holds_keep _ _ _ _ _ c1 (Or.inr (by rw [hw4])) g2
  · intro i hi
    have := d4 i i (by rw [List.getElem?_range hi])
    have e : C + 12 + 4 * i = C + 8 + 4 + 4 * i := by omega
    rw [e]
    exact gm_holds_keep _ _ _ _ _ this (Or.inr (by rw [hw4]; omega)) g3
  · intro i e he
    have hi : i < p.entries.length := (List.getElem?_eq_some_iff.mp he).1
    have := e4 i e he
    have e0 : C + 12 + 4 * p.entries.length + 12 * i =
        C + 8 + 4 + 4 * p.entries.length + 12 * i := by omega
    rw [e0]
    refine gm_holds_keep _ _ _ _ _ this (Or.inr ?_) g4
    simp only [List.length_append, hw4]
    omega
  · intro i e he
    obtain ⟨h1, h2⟩ := f6 i e he
    have e0 : e.offset - ((0 : Nat) : Int) = e.offset := by omega
    rw [e0] at h1 h2
    exact gm_holds_keep _ _ _ _ _ h1 h2 hout

theorem gm_write_archive_split (game : List Nat) (planned : List gm_patched_index)
    (s0 s1 : gm_out) (k : Nat) (p : gm_patched_index) (hk : planned[k]? = some p)
    (h : gm_write_archive game planned s0 = some s1) :
    ∃ m s3, gm_write_chunk game p m = some s3 ∧
      gm_write_each (gm_write_chunk game) (planned.drop (k + 1)) s3 = some s1 := by
  unfold gm_write_archive at h
  split at h
  · cases h
  rw [gm_split_at planned k p hk] at h
  obtain ⟨m, -, hm2⟩ := gm_write_each_append _ _ _ _ _ h
  unfold gm_write_each at hm2
  split at hm2
  · cases hm2
  rename_i s3 hs3
  exact ⟨m, s3, hs3, hm2⟩

theorem gm_write_later_keep (game : List Nat) (E : Nat) (post : List gm_patched_index)
    (s3 s1 : gm_out) (hb : gm_planned_behind E post) (hE : E ≤ s3.data.length)
    (hp : E ≤ s3.pos) (h : gm_write_each (gm_write_chunk game) post s3 = some s1) :
    s1.data.take E = s3.data.take E :=
  (gm_write_each_keep E (gm_write_chunk game) post
    (fun x hx t t1 h1 _ h3 =>
      gm_write_chunk_keep E game x t t1 h1 (hb x hx).1 (hb x hx).2.1 (hb x hx).2.2 h3)
    s3 s1 hE hp h).1

/-- Claim C19, amended: when `gm_patch_archive` succeeds, for every planned TXTR chunk with
`count` entries at planned offset `C` whose entry payloads follow each other in table order
from `C + 12 + 16·count` on without overlap, and behind whose last payload every later chunk
and every entry of a later TXTR or AUDO chunk is planned, the output holds at `C` the magic
"TXTR" and the payload size, at `C + 8` the count, then the values
`C + 12 + 4·count + 12·i`, then the descriptors (parsed `unknown1`, parsed `unknown2`, planned
offset), and at each entry's planned offset the patch bytes if the entry is patched, else
the entry's `size` bytes of the input at the parsed offset. -/
theorem gm_txtr_layout_written (png : png_sniffer) (fault : Option Nat) (game : List Nat)
    (tmp : Option (List Nat)) (patches : List gm_patch) (index : List gm_index)
    (out : List Nat) (k : Nat) (p : gm_patched_index) (stop : Nat)
    (hidx : gm_read_index png game = some index)
    (hrun : gm_patch_archive png fault { target := some game, tmp := tmp } patches =
      (gm_status.ok, { target := some out, tmp := none }))
    (hk : (gm_apply_patches (gm_build_patched index) patches).2[k]? = some p)
    (hs : p.sect = GM_TXTR)
    (hord : gm_entries_ordered ((0 : Nat) : Int)
      (p.offset + 12 + 16 * (p.entries.length : Int)) p.entries (stop : Int))
    (hlater : gm_planned_behind stop
      ((gm_apply_patches (gm_build_patched index) patches).2.drop (k + 1))) :
    0 ≤ p.offset ∧
      gm_holds out p.offset.toNat
        (gm_magic 'T' 'X' 'T' 'R' ++ WRITE_U32LE (p.size : Int)) ∧
      gm_holds out (p.offset.toNat + 8) (WRITE_U32LE (p.entries.length : Int)) ∧
      (∀ i, i < p.entries.length →
        gm_holds out (p.offset.toNat + 12 + 4 * i)
          (WRITE_U32LE (p.offset + 12 + 4 * (p.entries.length : Int) + 12 * (i : Int)))) ∧
      (∀ (i : Nat) (e : gm_patched_entry), p.entries[i]? = some e →
        gm_holds out (p.offset.toNat + 12 + 4 * p.entries.length + 12 * i)
          (WRITE_U32LE (e.entry.unknown1 : Int) ++ WRITE_U32LE (e.entry.unknown2 : Int) ++
            WRITE_U32LE e.offset)) ∧
      (∀ (i : Nat) (e : gm_patched_entry), p.entries[i]? = some e →
        gm_holds out e.offset.toNat (gm_txtr_payload game e)) := by
  obtain ⟨planned, s0, s1, hplan, hw, hfs⟩ :=
    gm_patch_archive_ok png fault game tmp patches index _ hidx hrun
  simp only [gm_fs.mk.injEq, Option.some.injEq, and_true] at hfs
  have hsz := gm_sizes_inv_apply patches _ (gm_sizes_inv_build index)
  rw [hplan] at hk hlater hsz
  simp only at hk hlater hsz
  obtain ⟨m, s3, hchunk, hpost⟩ := gm_write_archive_split game planned s0 s1 k p hk hw
  obtain ⟨C, E1, hC, f1, f2, f3, hfacts⟩ := gm_write_txtr_chunk_region game p m s3 stop hs
    (fun e he q hq => ((hsz p (List.getElem?_mem hk) e he).1 q hq)) hord hchunk
  have hkeep := gm_write_later_keep game E1 _ s3 s1
    (gm_planned_behind_mono E1 stop _ (by omega) hlater) f1 f2 hpost
  obtain ⟨g1, g2, g3, g4, g5⟩ := hfacts s1.data hkeep
  rw [hfs, hC, Int.toNat_ofNat]
  refine ⟨by omega, g1, g2, ?_, g4, g5⟩
  intro i hi
  have := g3 i hi
  rw [gm_fileinfo_bytes, hC] at this
  exact this

/-- C19 (counterexample). `ex_archive_txtr_alias` has a TXTR chunk without entries at offset
8; the patch of the AUDO blob that lies on the TXTR count is applied, `gm_patch_archive`
succeeds, and the output holds `9 9 9 9` at offset 16, not the count 0. -/
theorem gm_txtr_count_overwritten :
    gm_patch_archive ex_sniffer none { target := some ex_archive_txtr_alias, tmp := none }
        [ex_patch_txtr_alias] =
      (gm_status.ok, { target := some ex_archive_txtr_alias_patched, tmp := none }) ∧
    (gm_read_index ex_sniffer ex_archive_txtr_alias).map (fun index =>
        (gm_apply_patches (gm_build_patched index) [ex_patch_txtr_alias]).2.map
          fun c => (c.sect, c.offset, c.entries.length)) =
      some [(GM_TXTR, 8, 0), (GM_AUDO, 20, 1)] ∧
    ¬ gm_holds ex_archive_txtr_alias_patched (8 + 8) (WRITE_U32LE ((0 : Nat) : Int)) := by
  refine ⟨by decide, by decide, ?_⟩
  unfold gm_holds
  decide

set_option maxRecDepth 4000 in
/-- C19 (witness). The TXTR chunk of `ex_archive` after its image was replaced by 5 bytes. -/
theorem gm_txtr_layout_written_witness :
    (gm_read_index ex_sniffer ex_archive = some ex_archive_index ∧
      gm_patch_archive ex_sniffer none { target := some ex_archive, tmp := none }
          [ex_patch_image] =
        (gm_status.ok, { target := some ex_archive_patched, tmp := none }) ∧
      (gm_apply_patches (gm_build_patched ex_archive_index) [ex_patch_image]).2[1]? =
        some ex_archive_txtr_planned ∧
      ex_archive_txtr_planned.sect = GM_TXTR ∧
      gm_entries_ordered ((0 : Nat) : Int)
        (ex_archive_txtr_planned.offset + 12 +
          16 * (ex_archive_txtr_planned.entries.length : Int))
        ex_archive_txtr_planned.entries ((53 : Nat) : Int) ∧
      gm_planned_behind 53
        ((gm_apply_patches (gm_build_patched ex_archive_index) [ex_patch_image]).2.drop
          (1 + 1))) ∧
    (0 ≤ ex_archive_txtr_planned.offset ∧
      gm_holds ex_archive_patched ex_archive_txtr_planned.offset.toNat
        (gm_magic 'T' 'X' 'T' 'R' ++ WRITE_U32LE (ex_archive_txtr_planned.size : Int)) ∧
      gm_holds ex_archive_patched (ex_archive_txtr_planned.offset.toNat + 8)
        (WRITE_U32LE (ex_archive_txtr_planned.entries.length : Int)) ∧
      (∀ i, i < ex_archive_txtr_planned.entries.length →
        gm_holds ex_archive_patched (ex_archive_txtr_planned.offset.toNat + 12 + 4 * i)
          (WRITE_U32LE (ex_archive_txtr_planned.offset + 12 +
            4 * (ex_archive_txtr_planned.entries.length : Int) + 12 * (i : Int)))) ∧
      (∀ (i : Nat) (e : gm_patched_entry), ex_archive_txtr_planned.entries[i]? = some e →
        gm_holds ex_archive_patched
          (ex_archive_txtr_planned.offset.toNat + 12 +
            4 * ex_archive_txtr_planned.entries.length + 12 * i)
          (WRITE_U32LE (e.entry.unknown1 : Int) ++ WRITE_U32LE (e.entry.unknown2 : Int) ++
            WRITE_U32LE e.offset)) ∧
      (∀ (i : Nat) (e : gm_patched_entry), ex_archive_txtr_planned.entries[i]? = some e →
        gm_holds ex_archive_patched e.offset.toNat (gm_txtr_payload ex_archive e))) :=
  have hord : gm_entries_ordered ((0 : Nat) : Int)
      (ex_archive_txtr_planned.offset + 12 +
        16 * (ex_archive_txtr_planned.entries.length : Int))
      ex_archive_txtr_planned.entries ((53 : Nat) : Int) := by
    simp [gm_entries_ordered, ex_archive_txtr_planned]
  have hlater : gm_planned_behind 53
      ((gm_apply_patches (gm_build_patched ex_archive_index) [ex_patch_image]).2.drop
        (1 + 1)) := by
    unfold gm_planned_behind
    decide
  ⟨⟨by decide, by decide, by decide, by decide, hord, hlater⟩,
    gm_txtr_layout_written ex_sniffer none ex_archive none [ex_patch_image] ex_archive_index
      ex_archive_patched 1 ex_archive_txtr_planned 53 (by decide) (by decide) (by decide)
      (by decide) hord hlater⟩

/-! ## The AUDO chunk as written -/

theorem gm_write_audo_entry_holds (game : List Nat) (e : gm_patched_entry) (s s1 : gm_out)
    (hinv : ∀ q, e.patch = some q → e.size = q.size)
    (hsmall : e.patch = none → e.size < 4294967296)
    (h : gm_write_audo_entry game e s = some s1) :
    0 ≤ e.offset - ((4 : Nat) : Int) ∧
      gm_holds s1.data (e.offset - ((4 : Nat) : Int)).toNat (gm_audo_payload game e) ∧
      (gm_audo_payload game e).length = e.size + 4 ∧
      s1.pos = (e.offset - ((4 : Nat) : Int)).toNat + (e.size + 4) ∧
      (0 < e.size + 4 →
        (e.offset - ((4 : Nat) : Int)).toNat + (e.size + 4) ≤ s1.data.length) := by
  have e4 : ((4 : Nat) : Int) = 4 := rfl
  rw [e4]
  unfold gm_write_audo_entry at h
  unfold gm_audo_payload
  split at h
  · rename_i q hq
    split at h
    · cases h
    · rename_i s2 hs2
      obtain ⟨a1, a2, a3⟩ := gm_fseeko_data _ _ _ hs2
      split at h
      · cases h
      · rename_i s3 hs3
        obtain ⟨w1, w2, w3, -⟩ := gm_fwrite_holds _ s2 s3 hs3
        have hw4 : (WRITE_U32LE (q.size : Int)).length = 4 := rfl
        rw [hw4] at w2
        obtain ⟨b1, b2, b3, b4⟩ := gm_write_patch_data_holds q s3 s1 h
        obtain ⟨k1, -, -⟩ := gm_write_patch_data_keep s3.pos q s3 s1 w3 (le_refl _) h
        rw [a3] at w1 w2
        rw [w2] at b1 b3 b4 k1 w3
        rw [hinv q hq]
        refine ⟨a1, ?_, ?_, by omega, fun _ => ?_⟩
        · apply gm_holds_append
          · exact gm_holds_keep _ _ _ _ _ w1 (Or.inr (by rw [hw4])) k1
          · rw [hw4]; exact b1
        · rw [List.length_append, hw4, b2]; omega
        · have := gm_take_length_le _ _ _ k1 w3
          rcases Nat.eq_zero_or_pos q.size with h0 | hp
          · omega
          · have := b4 hp; omega
  · rename_i hq
    have hw : size_wrap ((e.size : Int) + 4) = e.size + 4 := by
      have := hsmall hq
      rw [size_wrap_eq]; omega
    rw [hw] at h
    exact gm_copydata_holds _ _ _ _ _ _ h

theorem gm_write_audo_chunk_region (game : List Nat) (p : gm_patched_index) (m s3 : gm_out)
    (stop : Int) (hs : p.sect = GM_AUDO)
    (hinv : ∀ e ∈ p.entries, ∀ q, e.patch = some q → e.size = q.size)
    (hsmall : ∀ e ∈ p.entries, e.patch = none → e.size < 4294967296)
    (hord : gm_entries_ordered ((4 : Nat) : Int)
      (p.offset + 12 + 4 * (p.entries.length : Int)) p.entries stop)
    (h : gm_write_chunk game p m = some s3) :
    ∃ (C E1 : Nat), p.offset = (C : Int) ∧ E1 ≤ s3.data.length ∧ E1 ≤ s3.pos ∧
      (E1 : Int) ≤ stop ∧
      ∀ d1 : List Nat, d1.take E1 = s3.data.take E1 →
        gm_holds d1 C (gm_magic 'A' 'U' 'D' 'O' ++ WRITE_U32LE (p.size : Int)) ∧
        gm_holds d1 (C + 8) (WRITE_U32LE (p.entries.length : Int)) ∧
        (∀ (i : Nat) (e : gm_patched_entry), p.entries[i]? = some e →
          gm_holds d1 (C + 12 + 4 * i) (WRITE_U32LE (e.offset - 4))) ∧
        (∀ (i : Nat) (e : gm_patched_entry), p.entries[i]? = some e →
          gm_holds d1 (e.offset - 4).toNat (gm_audo_payload game e)) := by
  unfold gm_write_chunk at h
  split at h
  · cases h
  rename_i t0 ht0
  obtain ⟨a1, a2, a3⟩ := gm_fseeko_data _ _ _ ht0
  obtain ⟨C, hC⟩ : ∃ C : Nat, p.offset = (C : Int) := ⟨p.offset.toNat, by omega⟩
  rw [hC, Int.toNat_ofNat] at a3
  split at h
  · cases h
  rename_i t1 ht1
  have hname : gm_section_name p.sect = some (gm_magic 'A' 'U' 'D' 'O') := by rw [hs]; rfl
  rw [hname] at ht1
  obtain ⟨b1, b2, b3⟩ := gm_write_hdr_holds _ _ t0 t1 (by simp [gm_magic]) ht1
  rw [a3] at b1 b2
  unfold gm_write_section at h
  simp only [hs] at h
  split at h
  · cases h
  rename_i t2 ht2
  obtain ⟨c1, c2, c3, -⟩ := gm_fwrite_holds _ t1 t2 ht2
  obtain ⟨k1, -, -⟩ := gm_fwrite_keep t1.pos _ t1 t2 b3 (le_refl _) ht2
  have hw4 : ∀ x : Int, (WRITE_U32LE x).length = 4 := fun _ => rfl
  rw [b2] at c1 k1
  rw [hw4, b2] at c2
  split at h
  · cases h
  rename_i t3 ht3
  obtain ⟨d1, d2, d3, d4⟩ := gm_write_records_region
    (fun (entry : gm_patched_entry) => WRITE_U32LE (entry.offset - 4)) 4 _ (fun x _ => rfl)
    t2 t3 c3 ht3
  rw [c2] at d1 d3 d4
  have hF : (C : Int) + 12 + 4 * (p.entries.length : Int) =
      ((C + 8 + 4 + 4 * p.entries.length : Nat) : Int) := by
    push_cast; ring
  rw [hC, hF] at hord
  obtain ⟨f1, E1, f2, f3, f4, f5, f6⟩ := gm_write_payloads_region 4 (gm_write_audo_entry game)
    (gm_audo_payload game) p.entries
    (fun e he s s1 hw =>
      gm_write_audo_entry_holds game e s s1 (hinv e he) (hsmall e he) hw)
    (fun e _ E s s1 hE ho hw => gm_write_audo_entry_keep E game e s s1 hE (by omega) hw)
    _ stop t3 s3 (C + 8 + 4 + 4 * p.entries.length) hord
    (by omega) (le_refl _) (by omega) h
  refine ⟨C, E1, hC, f3, f4, f5, ?_⟩
  intro out hout
  have g3 := gm_take_of_take _ _ _ _ hout f2
  rw [f1] at g3
  have g2 := gm_take_of_take _ _ _ (C + 8 + 4) g3 (by omega)
  rw [d3] at g2
  have g1 := gm_take_of_take _ _ _ (C + 8) g2 (by omega)
  rw [k1] at g1
  refine ⟨?_, ?_, ?_, ?_⟩
  · exact gm_holds_keep _ _ _ _ _ b1 (Or.inr (by simp [gm_magic, WRITE_U32LE])) g1
  · exact gm_holds_keep _ _ _ _ _ c1 (Or.inr (by rw [hw4])) g2
  · intro i e he
    have hi : i < p.entries.length := (List.getElem?_eq_some_iff.mp he).1
    have := d4 i e he
    have e0 : C + 12 + 4 * i = C + 8 + 4 + 4 * i := by omega
    rw [e0]
    exact gm_holds_keep _ _ _ _ _ this (Or.inr (by rw [hw4]; omega)) g3
  · intro i e he
    obtain ⟨h1, h2⟩ := f6 i e he
    exact gm_holds_keep _ _ _ _ _ h1 h2 hout

theorem gm_read_index_audo_sizes (game : List Nat) (hb : gm_bytes_ok game) (pos : Nat)
    (es : List gm_entry) (h : gm_read_index_audo game pos = some es) :
    ∀ e ∈ es, e.size < 4294967296 := by
  unfold gm_read_index_audo at h
  split at h
  · cases h
  · split at h
    · cases h
    · obtain ⟨-, hget⟩ := gm_read_entries_get _ _ _ h
      intro e he
      obtain ⟨i, hi⟩ := List.mem_iff_getElem?.mp he
      obtain ⟨o, -, hread⟩ := hget i e hi
      obtain ⟨-, -, hsize, -⟩ := gm_read_audo_entry_spec game o e hread
      rw [hsize]
      exact gm_u32_lt game hb o

theorem gm_mirrors_get (index : List gm_index) (planned : List gm_patched_index)
    (h : gm_mirrors index planned) (k : Nat) (p : gm_patched_index)
    (hk : planned[k]? = some p) :
    ∃ c, index[k]? = some c ∧ p.sect = c.sect ∧
      (p.entries.map fun e => e.entry) = c.entries := by
  unfold gm_mirrors at h
  have := congrArg (fun l => l[k]?) h
  simp only [List.getElem?_map, hk, Option.map_some'] at this
  cases hc : index[k]? with
  | none => rw [hc] at this; cases this
  | some c =>
    rw [hc] at this
    simp only [Option.map_some', Option.some.injEq, Prod.mk.injEq] at this
    exact ⟨c, rfl, this.1, this.2.2⟩

theorem gm_planned_audo_small (png : png_sniffer) (game : List Nat) (hb : gm_bytes_ok game)
    (index : List gm_index) (planned : List gm_patched_index)
    (hidx : gm_read_index png game = some index) (hm : gm_mirrors index planned)
    (hsz : gm_sizes_inv planned) (k : Nat) (p : gm_patched_index)
    (hk : planned[k]? = some p) (hs : p.sect = GM_AUDO) :
    ∀ e ∈ p.entries, e.patch = none → e.size < 4294967296 := by
  obtain ⟨c, hc, hcs, hce⟩ := gm_mirrors_get index planned hm k p hk
  obtain ⟨o, -, hent⟩ := gm_read_index_mem png game index hidx c (List.getElem?_mem hc)
  rw [← hcs, hs] at hent
  have hsizes := gm_read_index_audo_sizes game hb _ _ hent
  intro e he hnone
  rw [(hsz p (List.getElem?_mem hk) e he).2 hnone]
  apply hsizes
  rw [← hce]
  exact List.mem_map_of_mem _ he

/-- Claim C20, amended: when `gm_patch_archive` succeeds on a file of bytes, for every planned
AUDO chunk with `count` entries at planned offset `C` whose blobs (size field and payload)
follow each other in table order behind the offset table without overlap, and behind whose
last blob every later chunk and every entry of a later TXTR or AUDO chunk is planned, the
output holds at `C + 8` the count followed by the values `entry.offset − 4`; for a patched
entry the 4 bytes at `entry.offset − 4` are the patch size, followed by the patch bytes; for
an unpatched entry the `entry.size + 4` bytes at `entry.offset − 4` are the input's bytes from
4 bytes before the parsed offset. -/
theorem gm_audo_layout_written (png : png_sniffer) (fault : Option Nat) (game : List Nat)
    (tmp : Option (List Nat)) (patches : List gm_patch) (index : List gm_index)
    (out : List Nat) (k : Nat) (p : gm_patched_index) (stop : Nat)
    (hb : gm_bytes_ok game) (hidx : gm_read_index png game = some index)
    (hrun : gm_patch_archive png fault { target := some game, tmp := tmp } patches =
      (gm_status.ok, { target := some out, tmp := none }))
    (hk : (gm_apply_patches (gm_build_patched index) patches).2[k]? = some p)
    (hs : p.sect = GM_AUDO)
    (hord : gm_entries_ordered ((4 : Nat) : Int)
      (p.offset + 12 + 4 * (p.entries.length : Int)) p.entries (stop : Int))
    (hlater : gm_planned_behind stop
      ((gm_apply_patches (gm_build_patched index) patches).2.drop (k + 1))) :
    0 ≤ p.offset ∧
      gm_holds out (p.offset.toNat + 8) (WRITE_U32LE (p.entries.length : Int)) ∧
      (∀ (i : Nat) (e : gm_patched_entry), p.entries[i]? = some e →
        gm_holds out (p.offset.toNat + 12 + 4 * i) (WRITE_U32LE (e.offset - 4))) ∧
      (∀ (i : Nat) (e : gm_patched_entry), p.entries[i]? = some e →
        gm_holds out (e.offset - 4).toNat (gm_audo_payload game e)) := by
  obtain ⟨planned, s0, s1, hplan, hw, hfs⟩ :=
    gm_patch_archive_ok png fault game tmp patches index _ hidx hrun
  simp only [gm_fs.mk.injEq, Option.some.injEq, and_true] at hfs
  have hsz := gm_sizes_inv_apply patches _ (gm_sizes_inv_build index)
  have hm := gm_mirrors_apply index patches _ (gm_mirrors_build index)
  rw [hplan] at hk hlater hsz hm
  simp only at hk hlater hsz hm
  obtain ⟨m, s3, hchunk, hpost⟩ := gm_write_archive_split game planned s0 s1 k p hk hw
  obtain ⟨C, E1, hC, f1, f2, f3, hfacts⟩ := gm_write_audo_chunk_region game p m s3 stop hs
    (fun e he q hq => ((hsz p (List.getElem?_mem hk) e he).1 q hq))
    (gm_planned_audo_small png game hb index planned hidx hm hsz k p hk hs) hord hchunk
  have hkeep := gm_write_later_keep game E1 _ s3 s1
    (gm_planned_behind_mono E1 stop _ (by omega) hlater) f1 f2 hpost
  obtain ⟨-, g2, g3, g4⟩ := hfacts s1.data hkeep
  rw [hfs, hC, Int.toNat_ofNat]
  exact ⟨by omega, g2, g3, g4⟩

/-- C20 (counterexample). The table of `ex_archive_audo_twice` lists one blob twice.  The
patch of entry 0 is applied and `gm_patch_archive` succeeds, but entry 1, which is not
patched, is copied over it from the input: the output is the input, and the bytes behind the
size field at offset 28 are `1 2 3 4`, not the patch bytes `9 9 9 9`. -/
theorem gm_audo_patch_overwritten :
    gm_patch_archive ex_sniffer none { target := some ex_archive_audo_twice, tmp := none }
        [ex_patch_txtr_alias] =
      (gm_status.ok, { target := some ex_archive_audo_twice, tmp := none }) ∧
    (gm_read_index ex_sniffer ex_archive_audo_twice).map (fun index =>
        (gm_apply_patches (gm_build_patched index) [ex_patch_txtr_alias]).2.map
          fun c => (c.sect, c.offset, c.entries.map fun e => (e.offset, e.patch.isSome))) =
      some [(GM_AUDO, 8, [(32, true), (32, false)])] ∧
    ¬ gm_holds ex_archive_audo_twice (32 - 4)
      (WRITE_U32LE (ex_patch_txtr_alias.size : Int) ++
        ex_patch_txtr_alias.data.take ex_patch_txtr_alias.size) := by
  refine ⟨by decide, by decide, ?_⟩
  unfold gm_holds
  decide

set_option maxRecDepth 4000 in
/-- C20 (witness). The AUDO chunk of `ex_archive` after the image before it grew by one
byte. -/
theorem gm_audo_layout_written_witness :
    (gm_bytes_ok ex_archive ∧ gm_read_index ex_sniffer ex_archive = some ex_archive_index ∧
      gm_patch_archive ex_sniffer none { target := some ex_archive, tmp := none }
          [ex_patch_image] =
        (gm_status.ok, { target := some ex_archive_patched, tmp := none }) ∧
      (gm_apply_patches (gm_build_patched ex_archive_index) [ex_patch_image]).2[2]? =
        some ex_archive_audo_planned ∧
      ex_archive_audo_planned.sect = GM_AUDO ∧
      gm_entries_ordered ((4 : Nat) : Int)
        (ex_archive_audo_planned.offset + 12 +
          4 * (ex_archive_audo_planned.entries.length : Int))
        ex_archive_audo_planned.entries ((77 : Nat) : Int) ∧
      gm_planned_behind 77
        ((gm_apply_patches (gm_build_patched ex_archive_index) [ex_patch_image]).2.drop
          (2 + 1))) ∧
    (0 ≤ ex_archive_audo_planned.offset ∧
      gm_holds ex_archive_patched (ex_archive_audo_planned.offset.toNat + 8)
        (WRITE_U32LE (ex_archive_audo_planned.entries.length : Int)) ∧
      (∀ (i : Nat) (e : gm_patched_entry), ex_archive_audo_planned.entries[i]? = some e →
        gm_holds ex_archive_patched (ex_archive_audo_planned.offset.toNat + 12 + 4 * i)
          (WRITE_U32LE (e.offset - 4))) ∧
      (∀ (i : Nat) (e : gm_patched_entry), ex_archive_audo_planned.entries[i]? = some e →
        gm_holds ex_archive_patched (e.offset - 4).toNat (gm_audo_payload ex_archive e))) :=
  have hb : gm_bytes_ok ex_archive := by unfold gm_bytes_ok; decide
  have hord : gm_entries_ordered ((4 : Nat) : Int)
      (ex_archive_audo_planned.offset + 12 +
        4 * (ex_archive_audo_planned.entries.length : Int))
      ex_archive_audo_planned.entries ((77 : Nat) : Int) := by
    simp [gm_entries_ordered, ex_archive_audo_planned]
  have hlater : gm_planned_behind 77
      ((gm_apply_patches (gm_build_patched ex_archive_index) [ex_patch_image]).2.drop
        (2 + 1)) := by
    unfold gm_planned_behind
    decide
  ⟨⟨hb, by decide, by decide, by decide, by decide, hord, hlater⟩,
    gm_audo_layout_written ex_sniffer none ex_archive none [ex_patch_image] ex_archive_index
      ex_archive_patched 2 ex_archive_audo_planned 77 hb (by decide) (by decide) (by decide)
      (by decide) hord hlater⟩

/-! ## Patching an archive that already holds the replacement bytes -/

theorem gm_copy_loop_sync_src (src game : List Nat) (fuel size L P srcpos : Nat)
    (hf : size ≤ fuel) (hL : L ≤ game.length) (hn : P + size ≤ game.length)
    (hsl : srcpos + size ≤ src.length)
    (hsrc : (src.drop srcpos).take size = (game.drop P).take size)
    (hz : ∀ i, L ≤ i → i < P → game[i]? = some 0) :
    gm_copy_loop src fuel srcpos size { data := game.take L, pos := P, fault := none } =
      some { data := game.take (if size = 0 then L else max L (P + size)), pos := P + size,
             fault := none } := by
  induction fuel generalizing size L P srcpos with
  | zero =>
    have : size = 0 := by omega
    subst this
    simp [gm_copy_loop]
  | succ fuel ih =>
    unfold gm_copy_loop
    by_cases hs : size > 0
    · have hB : 0 < BUFSIZ := by unfold BUFSIZ; omega
      rw [if_pos hs, gm_io_nofault]
      simp only
      generalize hc : (if size ≥ BUFSIZ then BUFSIZ else size) = chunk
      have hc1 : 0 < chunk ∧ chunk ≤ size := by
        rw [← hc]; split <;> omega
      have hhead : (src.drop srcpos).take chunk = (game.drop P).take chunk := by
        have := congrArg (List.take chunk) hsrc
        rw [List.take_take, List.take_take, Nat.min_eq_left hc1.2] at this
        exact this
      have htail : (src.drop (srcpos + chunk)).take (size - chunk) =
          (game.drop (P + chunk)).take (size - chunk) := by
        have := congrArg (List.drop chunk) hsrc
        rw [List.drop_take, List.drop_take, List.drop_drop, List.drop_drop] at this
        exact this
      rw [gm_fread_some src srcpos chunk hc1.1 (by omega), hhead]
      simp only
      rw [gm_fwrite_sync game L P chunk hc1.1 hL (by omega) hz]
      simp only
      rw [ih (size - chunk) (max L (P + chunk)) (P + chunk) (srcpos + chunk) (by omega)
        (by omega) (by omega) (by omega) htail (by intro i h1 h2; omega)]
      have e1 : P + chunk + (size - chunk) = P + size := by omega
      have e2 : (if size - chunk = 0 then max L (P + chunk)
          else max (max L (P + chunk)) (P + chunk + (size - chunk))) =
          (if size = 0 then L else max L (P + size)) := by
        split <;> split <;> omega
      rw [e1] at e2 ⊢
      rw [e2]
    · have : size = 0 := by omega
      subst this
      simp

theorem gm_write_patch_data_sync (game : List Nat) (q : gm_patch) (L P : Nat)
    (hq0 : 0 < q.size) (hql : q.size ≤ q.data.length)
    (hbytes : q.data.take q.size = (game.drop P).take q.size) (hL : L ≤ game.length)
    (hn : P + q.size ≤ game.length) (hz : ∀ i, L ≤ i → i < P → game[i]? = some 0) :
    gm_write_patch_data q { data := game.take L, pos := P, fault := none } =
      some { data := game.take (max L (P + q.size)), pos := P + q.size, fault := none } := by
  unfold gm_write_patch_data
  split
  · rw [if_neg (by omega), hbytes]
    exact gm_fwrite_sync game L P q.size hq0 hL hn hz
  · rw [gm_io_nofault]
    simp only
    unfold gm_copydata
    rw [if_neg (by omega), gm_io_nofault]
    simp only
    rw [gm_fseeko_nofault _ _ _ (by omega)]
    simp only [Int.toNat_ofNat, Int.toNat_zero]
    rw [gm_copy_loop_sync_src q.data game q.size q.size L P 0 (le_refl _) hL hn (by omega)
      (by rw [List.drop_zero]; exact hbytes) hz, if_neg (by omega)]

theorem gm_write_txtr_payloads_settled (game : List Nat) (pes : List gm_patched_entry)
    (start stop pos : Nat)
    (hp : gm_entries_packed game 0 start (pes.map fun pe => pe.entry) stop)
    (hset : ∀ pe ∈ pes, gm_entry_settled game pe) (hstop : stop ≤ game.length) :
    ∃ pos1, gm_write_each (gm_write_txtr_entry game) pes
        { data := game.take start, pos := pos, fault := none } =
      some { data := game.take stop, pos := pos1, fault := none } := by
  induction pes generalizing start pos with
  | nil =>
    simp only [List.map_nil, gm_entries_packed] at hp
    subst hp
    exact ⟨pos, rfl⟩
  | cons pe rest ih =>
    simp only [List.map_cons, gm_entries_packed] at hp
    obtain ⟨h1, h2, h3, h4, h5⟩ := hp
    have hle := gm_entries_packed_le _ _ _ _ _ h5
    obtain ⟨s1, s2, s3⟩ := hset pe (List.mem_cons_self _ _)
    obtain ⟨p, hpe⟩ : ∃ p : Nat, pe.entry.offset = (p : Int) := ⟨pe.entry.offset.toNat, by omega⟩
    have hp0 : (pe.entry.offset - ((0 : Nat) : Int)).toNat = p := by omega
    rw [hp0] at h2 h4 h5 hle
    have hrest := fun pos1 => ih (p + 0 + pe.entry.size) pos1 h5
      (fun x hx => hset x (List.mem_cons_of_mem _ hx))
    simp only [gm_write_each]
    unfold gm_write_txtr_entry
    cases hq : pe.patch with
    | some q =>
      obtain ⟨q1, q2, q3⟩ := s3 q hq
      rw [hpe, Int.toNat_ofNat] at q3
      simp only
      rw [s1, hpe, gm_fseeko_nofault _ _ _ (by omega)]
      simp only [Int.toNat_ofNat]
      rw [gm_write_patch_data_sync game q start p (by omega) q2 q3 (by omega) (by omega)
        (by intro i hi1 hi2; exact h4 i hi2 hi1)]
      simp only
      have e1 : max start (p + q.size) = p + 0 + pe.entry.size := by omega
      rw [e1]
      exact hrest _
    | none =>
      simp only
      rw [s1, s2, hpe, gm_copydata_sync game start p pe.entry.size pos (by omega) (by omega)
        (by intro i hi1 hi2; exact h4 i hi2 hi1)]
      simp only
      have e1 : (if pe.entry.size = 0 then start else max start (p + pe.entry.size)) =
          p + 0 + pe.entry.size := by
        split <;> omega
      rw [e1]
      exact hrest _

theorem gm_write_audo_payloads_settled (game : List Nat) (hb : gm_bytes_ok game)
    (pes : List gm_patched_entry) (start stop pos : Nat)
    (hp : gm_entries_packed game 4 start (pes.map fun pe => pe.entry) stop)
    (hset : ∀ pe ∈ pes, gm_entry_settled game pe)
    (hsize : ∀ pe ∈ pes, 0 < pe.entry.size ∧
      pe.entry.size = U32LE_FROM_BUF game (pe.entry.offset - 4).toNat)
    (hstop : stop ≤ game.length) (hbound : stop < 18446744073709551616) :
    ∃ pos1, gm_write_each (gm_write_audo_entry game) pes
        { data := game.take start, pos := pos, fault := none } =
      some { data := game.take stop, pos := pos1, fault := none } := by
  induction pes generalizing start pos with
  | nil =>
    simp only [List.map_nil, gm_entries_packed] at hp
    subst hp
    exact ⟨pos, rfl⟩
  | cons pe rest ih =>
    simp only [List.map_cons, gm_entries_packed] at hp
    obtain ⟨h1, h2, h3, h4, h5⟩ := hp
    have hle := gm_entries_packed_le _ _ _ _ _ h5
    obtain ⟨s1, s2, s3⟩ := hset pe (List.mem_cons_self _ _)
    obtain ⟨hsz0, hsz⟩ := hsize pe (List.mem_cons_self _ _)
    obtain ⟨p, hpe⟩ : ∃ p : Nat, pe.entry.offset = ((p + 4 : Nat) : Int) :=
      ⟨(pe.entry.offset - 4).toNat, by omega⟩
    have hp0 : (pe.entry.offset - ((4 : Nat) : Int)).toNat = p := by omega
    have hp1 : (pe.entry.offset - 4).toNat = p := by omega
    have hp2 : pe.entry.offset - 4 = (p : Int) := by omega
    rw [hp0] at h2 h4 h5 hle
    rw [hp1] at hsz
    have hrest := fun pos1 => ih (p + 4 + pe.entry.size) pos1 h5
      (fun x hx => hset x (List.mem_cons_of_mem _ hx))
      (fun x hx => hsize x (List.mem_cons_of_mem _ hx))
    simp only [gm_write_each]
    unfold gm_write_audo_entry
    cases hq : pe.patch with
    | some q =>
      obtain ⟨q1, q2, q3⟩ := s3 q hq
      have hq3 : q.data.take q.size = (game.drop (p + 4)).take q.size := by
        rw [q3, hpe, Int.toNat_ofNat]
      have hw : WRITE_U32LE (q.size : Int) = (game.drop p).take 4 := by
        rw [q1, hsz]
        exact gm_write_u32_read game hb p (by omega)
      simp only
      rw [s1, hp2, gm_fseeko_nofault _ _ _ (by omega)]
      simp only [Int.toNat_ofNat]
      rw [hw, gm_fwrite_sync game start p 4 (by omega) (by omega) (by omega)
        (by intro i hi1 hi2; exact h4 i hi2 hi1)]
      simp only
      by_cases hq0 : 0 < q.size
      · rw [gm_write_patch_data_sync game q (max start (p + 4)) (p + 4) hq0 q2 hq3 (by omega)
          (by omega) (by intro i hi1 hi2; omega)]
        simp only
        have e1 : max (max start (p + 4)) (p + 4 + q.size) = p + 4 + pe.entry.size := by omega
        rw [e1]
        exact hrest _
      · omega
    | none =>
      have hsw : size_wrap ((pe.entry.size : Int) + 4) = pe.entry.size + 4 := by
        rw [size_wrap_eq]; omega
      simp only
      rw [s1, s2, hp2, hsw, gm_copydata_sync game start p (pe.entry.size + 4) pos (by omega)
        (by omega) (by intro i hi1 hi2; exact h4 i hi2 hi1)]
      simp only
      have e1 : (if pe.entry.size + 4 = 0 then start else max start (p + (pe.entry.size + 4))) =
          p + 4 + pe.entry.size := by
        split <;> omega
      rw [e1]
      exact hrest _

theorem gm_map_entry_get (pes : List gm_patched_entry) (es : List gm_entry)
    (h : (pes.map fun pe => pe.entry) = es) (i : Nat) (x : gm_patched_entry)
    (hx : pes[i]? = some x) : es[i]? = some x.entry := by
  rw [← h, List.getElem?_map, hx]
  rfl

theorem gm_write_txtr_settled (png : png_sniffer) (game : List Nat) (hb : gm_bytes_ok game)
    (ptr : gm_patched_index) (C : Nat) (es : List gm_entry) (size : Nat)
    (hsect : ptr.sect = GM_TXTR) (hoff : ptr.offset = (C : Int))
    (hes : (ptr.entries.map fun pe => pe.entry) = es)
    (hset : ∀ pe ∈ ptr.entries, gm_entry_settled game pe)
    (hent : gm_read_index_txtr png game (C + 8) = some es)
    (htab : ∀ i < es.length,
      U32LE_FROM_BUF game (C + 12 + 4 * i) = C + 12 + 4 * es.length + 12 * i)
    (hpk : gm_entries_packed game 0 (C + 12 + 16 * es.length) es (C + 8 + size))
    (hfit : C + 8 + size ≤ game.length) (hint : C + 8 + size ≤ INT32_MAX) :
    ∃ pos1, gm_write_section game ptr { data := game.take (C + 8), pos := C + 8, fault := none } =
      some { data := game.take (C + 8 + size), pos := pos1, fault := none } := by
  have hle := gm_entries_packed_le _ _ _ _ _ hpk
  have hI : INT32_MAX = 2147483647 := rfl
  have hlen : ptr.entries.length = es.length := by rw [← hes, List.length_map]
  unfold gm_read_index_txtr at hent
  split at hent
  · cases hent
  rename_i buffer hbuf
  have hc := gm_u32_of_fread game (C + 8) 4 0 buffer hbuf (by omega)
  rw [Nat.add_zero] at hc
  rw [hc] at hent
  split at hent
  · cases hent
  rename_i offs hoffs
  obtain ⟨hol, hog⟩ := gm_read_offsets_spec _ _ _ _ hoffs
  obtain ⟨hel, heg⟩ := gm_read_entries_get _ _ _ hent
  have hn : es.length = U32LE_FROM_BUF game (C + 8) := by omega
  have e1 : WRITE_U32LE (es.length : Int) = (game.drop (C + 8)).take 4 := by
    rw [hn]; exact gm_write_u32_read game hb (C + 8) (by omega)
  have htable := gm_write_records_sync game
    (fun i => WRITE_U32LE (gm_fileinfo_offset ptr i)) 4 (by omega) (List.range es.length)
    (C + 12) (by omega) (by
      intro i x hx
      obtain ⟨hi, hx⟩ := List.getElem?_eq_some_iff.mp hx
      rw [List.length_range] at hi
      rw [List.getElem_range] at hx
      subst hx
      beta_reduce
      obtain ⟨-, -, hbound⟩ := hog i (by omega)
      refine ⟨?_, by omega⟩
      have e : gm_fileinfo_offset ptr i = (U32LE_FROM_BUF game (C + 12 + 4 * i) : Int) := by
        unfold gm_fileinfo_offset
        rw [hoff, hlen, htab i hi, u32_wrap_eq, u32_wrap_eq]
        omega
      simp only [e]
      exact gm_write_u32_read game hb _ (by omega))
  have hdesc := gm_write_records_sync game
    (fun (entry : gm_patched_entry) =>
      WRITE_U32LE (entry.entry.unknown1 : Int) ++ WRITE_U32LE (entry.entry.unknown2 : Int) ++
        WRITE_U32LE entry.offset) 12 (by omega) ptr.entries
    (C + 12 + 4 * es.length) (by omega) (by
      intro i x hx
      have hei := gm_map_entry_get ptr.entries es hes i x hx
      beta_reduce
      obtain ⟨o, ho, hread⟩ := heg i x.entry hei
      have hi : i < es.length := (List.getElem?_eq_some_iff.mp hei).1
      obtain ⟨ho1, -, -⟩ := hog i (by omega)
      rw [ho1] at ho
      simp only [Option.some.injEq] at ho
      have ho2 : o = C + 12 + 4 * es.length + 12 * i := by
        have := htab i hi
        have e : C + 8 + 4 + 4 * i = C + 12 + 4 * i := by omega
        rw [e] at ho
        omega
      subst ho2
      obtain ⟨hlen1, -⟩ := gm_read_txtr_entry_spec png game _ x.entry hread
      rw [(hset x (List.getElem?_mem hx)).1]
      exact ⟨gm_txtr_descriptor_bytes png game hb _ x.entry hread, hlen1⟩)
  rw [← hes] at hpk
  obtain ⟨pos1, hpay⟩ := gm_write_txtr_payloads_settled game ptr.entries
    (C + 12 + 16 * es.length) (C + 8 + size) (C + 12 + 16 * es.length)
    (by rw [← hes]; exact hpk) hset hfit
  refine ⟨pos1, ?_⟩
  unfold gm_write_section
  simp only [hsect]
  rw [hlen, e1, gm_fwrite_sync game (C + 8) (C + 8) 4 (by omega) (by omega) (by omega)
    (by intro i h1 h2; omega)]
  simp only
  have e2 : max (C + 8) (C + 8 + 4) = C + 12 := by omega
  have e3 : C + 8 + 4 = C + 12 := by omega
  rw [e2, e3]
  rw [List.length_range] at htable
  beta_reduce at htable hdesc
  rw [htable]
  simp only
  rw [hlen] at hdesc
  rw [hdesc]
  simp only
  have e4 : C + 12 + 4 * es.length + 12 * es.length = C + 12 + 16 * es.length := by omega
  rw [e4]
  exact hpay

theorem gm_write_audo_settled (game : List Nat) (hb : gm_bytes_ok game)
    (ptr : gm_patched_index) (C : Nat) (es : List gm_entry) (size : Nat)
    (hsect : ptr.sect = GM_AUDO)
    (hes : (ptr.entries.map fun pe => pe.entry) = es)
    (hset : ∀ pe ∈ ptr.entries, gm_entry_settled game pe)
    (hent : gm_read_index_audo game (C + 8) = some es)
    (hpk : gm_entries_packed game 4 (C + 12 + 4 * es.length) es (C + 8 + size))
    (hfit : C + 8 + size ≤ game.length) (hint : C + 8 + size ≤ INT32_MAX) :
    ∃ pos1, gm_write_section game ptr { data := game.take (C + 8), pos := C + 8, fault := none } =
      some { data := game.take (C + 8 + size), pos := pos1, fault := none } := by
  have hle := gm_entries_packed_le _ _ _ _ _ hpk
  have hI : INT32_MAX = 2147483647 := rfl
  have hlen : ptr.entries.length = es.length := by rw [← hes, List.length_map]
  unfold gm_read_index_audo at hent
  split at hent
  · cases hent
  rename_i buffer hbuf
  have hc := gm_u32_of_fread game (C + 8) 4 0 buffer hbuf (by omega)
  rw [Nat.add_zero] at hc
  rw [hc] at hent
  split at hent
  · cases hent
  rename_i offs hoffs
  obtain ⟨hol, hog⟩ := gm_read_offsets_spec _ _ _ _ hoffs
  obtain ⟨hel, heg⟩ := gm_read_entries_get _ _ _ hent
  have hn : es.length = U32LE_FROM_BUF game (C + 8) := by omega
  have e1 : WRITE_U32LE (es.length : Int) = (game.drop (C + 8)).take 4 := by
    rw [hn]; exact gm_write_u32_read game hb (C + 8) (by omega)
  have htable := gm_write_records_sync game
    (fun (entry : gm_patched_entry) => WRITE_U32LE (entry.offset - 4)) 4 (by omega)
    ptr.entries (C + 12) (by omega) (by
      intro i x hx
      have hei := gm_map_entry_get ptr.entries es hes i x hx
      beta_reduce
      obtain ⟨o, ho, hread⟩ := heg i x.entry hei
      have hi : i < es.length := (List.getElem?_eq_some_iff.mp hei).1
      obtain ⟨ho1, -, hbound⟩ := hog i (by omega)
      rw [ho1] at ho
      simp only [Option.some.injEq] at ho
      have e0 : C + 8 + 4 + 4 * i = C + 12 + 4 * i := by omega
      rw [e0] at ho hbound
      obtain ⟨-, hoff, -⟩ := gm_read_audo_entry_spec game o x.entry hread
      have e5 : x.offset - 4 = (U32LE_FROM_BUF game (C + 12 + 4 * i) : Int) := by
        rw [(hset x (List.getElem?_mem hx)).1, hoff, ho]; omega
      simp only [e5]
      exact ⟨gm_write_u32_read game hb _ (by omega), hbound⟩)
  have hsize : ∀ pe ∈ ptr.entries, 0 < pe.entry.size ∧
      pe.entry.size = U32LE_FROM_BUF game (pe.entry.offset - 4).toNat := by
    intro pe hpe
    obtain ⟨i, hi⟩ := List.mem_iff_getElem?.mp hpe
    have hei := gm_map_entry_get ptr.entries es hes i pe hi
    obtain ⟨o, -, hread⟩ := heg i pe.entry hei
    obtain ⟨-, hoff, hsz, hpos, -⟩ := gm_read_audo_entry_spec game o pe.entry hread
    refine ⟨hpos, ?_⟩
    rw [hsz, hoff]
    congr 1
    omega
  obtain ⟨pos1, hpay⟩ := gm_write_audo_payloads_settled game hb ptr.entries
    (C + 12 + 4 * es.length) (C + 8 + size) (C + 12 + 4 * es.length)
    (by rw [hes]; exact hpk) hset hsize hfit (by omega)
  refine ⟨pos1, ?_⟩
  unfold gm_write_section
  simp only [hsect]
  rw [hlen, e1, gm_fwrite_sync game (C + 8) (C + 8) 4 (by omega) (by omega)
    (by omega) (by intro i h1 h2; omega)]
  simp only
  have e2 : max (C + 8) (C + 8 + 4) = C + 12 := by omega
  have e3 : C + 8 + 4 = C + 12 := by omega
  rw [e2, e3]
  rw [hlen] at htable
  beta_reduce at htable
  rw [htable]
  simp only
  exact hpay

theorem gm_write_chunk_settled (png : png_sniffer) (game : List Nat) (hb : gm_bytes_ok game)
    (c : gm_index) (p : gm_patched_index) (C pos : Nat) (buffer : List Nat)
    (hps : p.sect = c.sect) (hpi : p.index = c)
    (hpe : (p.entries.map fun pe => pe.entry) = c.entries)
    (hpo : p.offset = p.index.offset) (hpz : p.size = p.index.size)
    (hset : ∀ pe ∈ p.entries, gm_entry_settled game pe)
    (hread : gm_fread game C 8 = some buffer) (hsec : gm_parse_section buffer ≠ GM_END)
    (hs : c.sect = gm_parse_section buffer) (hoff : c.offset = (C : Int))
    (hsize : c.size = U32LE_FROM_BUF buffer 4)
    (hint : C + c.size + 8 ≤ INT32_MAX) (hfit : C + c.size + 8 ≤ game.length)
    (hent : gm_read_section png game c.sect (C + 8) = some c.entries)
    (hpk : gm_chunk_packed game c) :
    ∃ pos1, gm_write_chunk game p { data := game.take C, pos := pos, fault := none } =
      some { data := game.take (C + (c.size + 8)), pos := pos1, fault := none } := by
  obtain ⟨-, hlen, hbuf, -⟩ := gm_fread_eq _ _ _ _ hread
  have h4 := gm_u32_of_fread game C 8 4 buffer hread (by omega)
  have hname : gm_section_name c.sect = some ((game.drop C).take 4) := by
    rw [hs, gm_section_name_parse buffer hsec, hbuf, List.take_take]
    rfl
  have hhdr := gm_write_hdr_sync game hb C C ((game.drop C).take 4) c.size rfl
    (by rw [hsize, h4]) (by omega) hlen (by intro i h1 h2; omega)
  have e1 : max C (C + 8) = C + 8 := by omega
  have e2 : C + (c.size + 8) = C + 8 + c.size := by omega
  rw [e1] at hhdr
  rw [e2]
  have hto : c.offset.toNat = C := by rw [hoff]; exact Int.toNat_ofNat C
  have hpoC : p.offset = (C : Int) := by rw [hpo, hpi, hoff]
  have hpzc : p.size = c.size := by rw [hpz, hpi]
  unfold gm_write_chunk
  rw [hpoC, gm_fseeko_nofault _ _ _ (by omega)]
  simp only [Int.toNat_ofNat]
  rw [hps, hpzc, hname, hhdr]
  simp only
  by_cases ht : c.sect = GM_TXTR
  · unfold gm_chunk_packed at hpk
    rw [ht] at hent
    simp only [ht, hto] at hpk
    exact gm_write_txtr_settled png game hb p C c.entries c.size (by rw [hps, ht]) hpoC hpe
      hset hent hpk.1 hpk.2 (by omega) (by omega)
  · by_cases ha : c.sect = GM_AUDO
    · unfold gm_chunk_packed at hpk
      rw [ha] at hent
      simp only [ha, hto] at hpk
      exact gm_write_audo_settled game hb p C c.entries c.size (by rw [hps, ha]) hpe hset
        hent hpk (by omega) (by omega)
    · have := gm_write_opaque_sync game p C (by rw [hps]; exact ht) (by rw [hps]; exact ha)
        hpoC (by rw [hpi]; exact hoff) (by rw [hpzc]; omega) (by rw [hpzc]; omega)
      rw [hpzc] at this
      exact this

theorem gm_mirrors_nil (planned : List gm_patched_index) (h : gm_mirrors [] planned) :
    planned = [] := by
  unfold gm_mirrors at h
  simpa using h

theorem gm_mirrors_cons (c : gm_index) (rest : List gm_index)
    (planned : List gm_patched_index) (h : gm_mirrors (c :: rest) planned) :
    ∃ p prest, planned = p :: prest ∧ p.sect = c.sect ∧ p.index = c ∧
      (p.entries.map fun pe => pe.entry) = c.entries ∧ gm_mirrors rest prest := by
  unfold gm_mirrors at h
  cases planned with
  | nil => simp at h
  | cons p prest =>
    simp only [List.map_cons, List.cons.injEq, Prod.mk.injEq] at h
    exact ⟨p, prest, rfl, h.1.1, h.1.2.1, h.1.2.2, h.2⟩

theorem gm_write_chunks_settled (png : png_sniffer) (game : List Nat) (hb : gm_bytes_ok game)
    (stop : Nat) (hstop : stop ≤ game.length) (fuel : Nat) :
    ∀ (offset count : Nat) (index : List gm_index) (planned : List gm_patched_index)
      (pos : Nat),
      gm_read_index_loop png game stop fuel offset count = some index →
      gm_packed game index → gm_mirrors index planned → gm_settled game planned →
      ∃ pos1, gm_write_each (gm_write_chunk game) planned
          { data := game.take offset, pos := pos, fault := none } =
        some { data := game.take (max offset stop), pos := pos1, fault := none } := by
  induction fuel with
  | zero =>
    intro offset count index planned pos h hpk hm hset
    cases index with
    | nil =>
      have := gm_read_index_loop_nil _ _ _ _ _ _ h
      rw [max_eq_left this, gm_mirrors_nil planned hm]
      exact ⟨pos, rfl⟩
    | cons c rest =>
      obtain ⟨fuel1, -, hf, -⟩ := gm_read_index_loop_step _ _ _ _ _ _ _ _ h
      omega
  | succ n ih =>
    intro offset count index planned pos h hpk hm hset
    cases index with
    | nil =>
      have := gm_read_index_loop_nil _ _ _ _ _ _ h
      rw [max_eq_left this, gm_mirrors_nil planned hm]
      exact ⟨pos, rfl⟩
    | cons c rest =>
      obtain ⟨fuel1, buffer, hf, -, hlt, hread, hsec, hs, hoff, hsize, -, hint, hfit, hent,
        hrest⟩ := gm_read_index_loop_step _ _ _ _ _ _ _ _ h
      have hfe : fuel1 = n := by omega
      subst hfe
      obtain ⟨p, prest, rfl, m1, m2, m3, m4⟩ := gm_mirrors_cons c rest planned hm
      have hpc : gm_chunk_packed game c := hpk c (List.mem_cons_self _ _)
      have hpr : gm_packed game rest := fun d hd => hpk d (List.mem_cons_of_mem _ hd)
      obtain ⟨q1, q2, q3⟩ := hset p (List.mem_cons_self _ _)
      obtain ⟨p1, hc⟩ := gm_write_chunk_settled png game hb c p offset pos buffer m1 m2 m3 q1
        q2 q3 hread hsec hs hoff hsize hint (by omega) hent hpc
      obtain ⟨p2, hr⟩ := ih _ _ rest prest p1 hrest hpr m4
        (fun d hd => hset d (List.mem_cons_of_mem _ hd))
      refine ⟨p2, ?_⟩
      have e1 : max (offset + (c.size + 8)) stop = max offset stop := by omega
      rw [e1] at hr
      simp only [gm_write_each]
      rw [hc]
      exact hr

theorem gm_size_sum_settled (game : List Nat) (index : List gm_index)
    (planned : List gm_patched_index) (hm : gm_mirrors index planned)
    (hset : gm_settled game planned) :
    gm_size_sum planned = gm_size_sum (gm_build_patched index) := by
  induction index generalizing planned with
  | nil =>
    rw [gm_mirrors_nil planned hm]
    rfl
  | cons c rest ih =>
    obtain ⟨p, prest, rfl, -, m2, -, m4⟩ := gm_mirrors_cons c rest planned hm
    obtain ⟨-, q2, -⟩ := hset p (List.mem_cons_self _ _)
    have hrest := ih prest m4 (fun d hd => hset d (List.mem_cons_of_mem _ hd))
    have hb : gm_build_patched (c :: rest) =
        { sect := c.sect, offset := c.offset, size := c.size,
          entries := c.entries.map fun e =>
            { offset := e.offset, size := e.size, patch := none, entry := e },
          index := c } :: gm_build_patched rest := rfl
    rw [hb, gm_size_sum_cons, gm_size_sum_cons, hrest, q2, m2]

theorem gm_write_archive_settled (png : png_sniffer) (game : List Nat)
    (index : List gm_index) (planned : List gm_patched_index)
    (hb : gm_bytes_ok game) (hidx : gm_read_index png game = some index)
    (hlen : game.length = U32LE_FROM_BUF game 4 + 8) (hpk : gm_packed game index)
    (hm : gm_mirrors index planned) (hset : gm_settled game planned) :
    ∃ pos1, gm_write_archive game planned { data := [], pos := 0, fault := none } =
      some { data := game, pos := pos1, fault := none } := by
  obtain ⟨buffer, hread, htiles⟩ := gm_read_index_tiles png game index hidx
  have h4 := gm_u32_of_fread game 0 8 4 buffer hread (by omega)
  rw [Nat.zero_add] at h4
  rw [h4] at htiles
  obtain ⟨-, -, hbuf, -⟩ := gm_fread_eq _ _ _ _ hread
  have hlt := gm_u32_lt game hb 4
  have hform : gm_form_size planned = U32LE_FROM_BUF game 4 := by
    rw [gm_form_size_eq, gm_size_sum_settled game index planned hm hset,
      gm_size_sum_build 8 _ index htiles (by omega), size_wrap_eq]
    omega
  unfold gm_read_index at hidx
  rw [hread] at hidx
  simp only at hidx
  split at hidx
  · cases hidx
  rename_i hmagic
  rw [h4] at hidx
  have hmg : gm_magic 'F' 'O' 'R' 'M' = (game.drop 0).take 4 := by
    have := not_not.mp hmagic
    rw [← this, hbuf, List.take_take]
    rfl
  have hhdr := gm_write_hdr_sync game hb 0 0 (gm_magic 'F' 'O' 'R' 'M')
    (gm_form_size planned) hmg (by rw [hform]) (by omega) (by omega)
    (by intro i h1 h2; omega)
  obtain ⟨p1, hch⟩ := gm_write_chunks_settled png game hb (U32LE_FROM_BUF game 4 + 8)
    (by omega) _ 8 0 index planned 8 hidx hpk hm hset
  have e1 : max 8 (U32LE_FROM_BUF game 4 + 8) = game.length := by omega
  rw [e1, List.take_length] at hch
  refine ⟨p1, ?_⟩
  unfold gm_write_archive
  have e0 : ([] : List Nat) = game.take 0 := by simp
  rw [e0, hhdr]
  exact hch

/-- An archive of bytes that `gm_read_index` parses, that ends where its FORM header says and
has the layout the writer produces, is written back byte for byte by `gm_patch_archive` for
every patch list whose planning on it succeeds, moves nothing and names, for every entry it
patches, bytes of the entry's size that the archive holds at that entry. -/
theorem gm_patch_archive_settled (png : png_sniffer) (game : List Nat) (index : List gm_index)
    (patches : List gm_patch) (planned : List gm_patched_index) (tmp : Option (List Nat))
    (hb : gm_bytes_ok game) (hidx : gm_read_index png game = some index)
    (hlen : game.length = U32LE_FROM_BUF game 4 + 8) (hpk : gm_packed game index)
    (hplan : gm_apply_patches (gm_build_patched index) patches = (gm_status.ok, planned))
    (hset : gm_settled game planned) :
    gm_patch_archive png none { target := some game, tmp := tmp } patches =
      (gm_status.ok, { target := some game, tmp := none }) := by
  have hm : gm_mirrors index planned := by
    have := gm_mirrors_apply index patches _ (gm_mirrors_build index)
    rw [hplan] at this
    exact this
  obtain ⟨p1, hw⟩ := gm_write_archive_settled png game index planned hb hidx hlen hpk hm hset
  unfold gm_patch_archive
  simp only [hidx, hplan, gm_io_nofault, hw, gm_commit]

set_option maxRecDepth 4000 in
/-- C7 (counterexample). The patch `ex_patch_ogg_other` is declared as Ogg, which is the type
of the blob of `ex_archive`, so the first run succeeds and writes `ex_archive_ogg_other`.  In
that archive the blob no longer begins with "OggS"; the second run with the same patch fails
with `EINVAL`. -/
theorem gm_second_run_refused :
    gm_patch_archive ex_sniffer none { target := some ex_archive, tmp := none }
        [ex_patch_ogg_other] =
      (gm_status.ok, { target := some ex_archive_ogg_other, tmp := none }) ∧
    gm_patch_archive ex_sniffer none { target := some ex_archive_ogg_other, tmp := none }
        [ex_patch_ogg_other] =
      (gm_status.error EINVAL, { target := some ex_archive_ogg_other, tmp := none }) := by
  decide

/-! ## Section tags -/

theorem gm_parse_section_name (s : gm_section) (hs : s ≠ GM_END) :
    ∃ m, gm_section_name s = some m ∧ m.length = 4 ∧ gm_parse_section m = s := by
  cases s <;> first
    | exact absurd rfl hs
    | exact ⟨_, rfl, by decide, by decide⟩

theorem gm_parse_chain_end (name : List Nat) (l : List gm_section) :
    gm_parse_chain name l = GM_END ↔
      ∀ s ∈ l, gm_section_name s ≠ some (name.take 4) := by
  induction l with
  | nil => simp [gm_parse_chain]
  | cons s rest ih =>
    unfold gm_parse_chain
    by_cases h : gm_section_name s = some (name.take 4)
    · rw [if_pos h]
      constructor
      · intro hs
        rw [hs] at h
        cases h
      · intro hall
        exact absurd h (hall s (List.mem_cons_self _ _))
    · rw [if_neg h, ih]
      constructor
      · intro hall t ht
        rcases List.mem_cons.mp ht with rfl | ht
        · exact h
        · exact hall t ht
      · intro hall t ht
        exact hall t (List.mem_cons_of_mem _ ht)

theorem gm_section_order_mem (s : gm_section) (hs : s ≠ GM_END) : s ∈ gm_section_order := by
  cases s <;> first
    | exact absurd rfl hs
    | decide

theorem gm_parse_section_end (m : List Nat) :
    gm_parse_section m = GM_END ↔ ∀ s, gm_section_name s ≠ some (m.take 4) := by
  unfold gm_parse_section
  rw [gm_parse_chain_end]
  constructor
  · intro h s
    by_cases hs : s = GM_END
    · subst hs
      intro hn
      cases hn
    · exact h s (gm_section_order_mem s hs)
  · intro h s _
    exact h s

theorem gm_read_index_loop_headers (png : png_sniffer) (game : List Nat) (stop : Nat)
    (fuel : Nat) :
    ∀ (offset count : Nat) (l : List gm_index),
      gm_read_index_loop png game stop fuel offset count = some l →
      ∀ c ∈ l, ∃ (o : Nat) (buffer : List Nat), c.offset = (o : Int) ∧
        gm_fread game o 8 = some buffer ∧ gm_parse_section buffer ≠ GM_END ∧
        c.sect = gm_parse_section buffer ∧ c.size = U32LE_FROM_BUF buffer 4 := by
  induction fuel with
  | zero =>
    intro offset count l h c hc
    cases l with
    | nil => simp at hc
    | cons d rest =>
      obtain ⟨fuel1, -, hf, -⟩ := gm_read_index_loop_step _ _ _ _ _ _ _ _ h
      omega
  | succ n ih =>
    intro offset count l h c hc
    cases l with
    | nil => simp at hc
    | cons d rest =>
      obtain ⟨fuel1, buffer, hf, -, -, hb, hne, hsect, hoff, hsize, -, -, -, -, hrest⟩ :=
        gm_read_index_loop_step _ _ _ _ _ _ _ _ h
      have hfe : fuel1 = n := by omega
      subst hfe
      rcases List.mem_cons.mp hc with hcd | hcr
      · subst hcd
        exact ⟨offset, buffer, hoff, hb, hne, hsect, hsize⟩
      · exact ih _ _ rest hrest c hcr

theorem gm_read_index_headers (png : png_sniffer) (game : List Nat) (index : List gm_index)
    (h : gm_read_index png game = some index) :
    ∀ c ∈ index, ∃ (o : Nat) (buffer : List Nat), c.offset = (o : Int) ∧
      gm_fread game o 8 = some buffer ∧ gm_parse_section buffer ≠ GM_END ∧
      c.sect = gm_parse_section buffer ∧ c.size = U32LE_FROM_BUF buffer 4 := by
  unfold gm_read_index at h
  split at h
  · cases h
  · split at h
    · cases h
    · exact gm_read_index_loop_headers png game _ _ _ _ index h

theorem gm_parse_section_take (buffer : List Nat) :
    gm_parse_section (buffer.take 4) = gm_parse_section buffer := by
  have h : ∀ l, gm_parse_chain (buffer.take 4) l = gm_parse_chain buffer l := by
    intro l
    induction l with
    | nil => rfl
    | cons s rest ih =>
      unfold gm_parse_chain
      rw [List.take_take, ih]
      rfl
  exact h _

theorem gm_write_section_keep_own (E : Nat) (game : List Nat) (d : gm_patched_index)
    (s s1 : gm_out) (hE : E ≤ s.data.length) (hp : E ≤ s.pos)
    (hmov : gm_movable d.sect = true)
    (ht : d.sect = GM_TXTR → ∀ e ∈ d.entries, (E : Int) ≤ e.offset)
    (ha : d.sect = GM_AUDO → ∀ e ∈ d.entries, (E : Int) ≤ e.offset - 4)
    (h : gm_write_section game d s = some s1) :
    s1.data.take E = s.data.take E ∧ E ≤ s1.data.length ∧ E ≤ s1.pos := by
  unfold gm_write_section at h
  split at h
  · rename_i hs
    split at h
    · cases h
    · rename_i s2 hs2
      obtain ⟨a1, a2, a3⟩ := gm_fwrite_keep E _ s s2 hE hp hs2
      split at h
      · cases h
      · rename_i s3 hs3
        obtain ⟨b1, b2, b3⟩ := gm_write_each_keep E _ _
          (fun x _ t t1 h1 h2 h3 => gm_fwrite_keep E _ t t1 h1 h2 h3) s2 s3 a2 a3 hs3
        split at h
        · cases h
        · rename_i s4 hs4
          obtain ⟨c1, c2, c3⟩ := gm_write_each_keep E _ _
            (fun x _ t t1 h1 h2 h3 => gm_fwrite_keep E _ t t1 h1 h2 h3) s3 s4 b2 b3 hs4
          obtain ⟨e1, e2, e3⟩ := gm_write_each_keep E _ _
            (fun x hx t t1 h1 _ h3 => gm_write_txtr_entry_keep E game x t t1 h1 (ht hs x hx) h3)
            s4 s1 c2 c3 h
          exact ⟨e1.trans (c1.trans (b1.trans a1)), e2, e3⟩
  · rename_i hs
    split at h
    · cases h
    · rename_i s2 hs2
      obtain ⟨a1, a2, a3⟩ := gm_fwrite_keep E _ s s2 hE hp hs2
      split at h
      · cases h
      · rename_i s3 hs3
        obtain ⟨b1, b2, b3⟩ := gm_write_each_keep E _ _
          (fun x _ t t1 h1 h2 h3 => gm_fwrite_keep E _ t t1 h1 h2 h3) s2 s3 a2 a3 hs3
        obtain ⟨e1, e2, e3⟩ := gm_write_each_keep E _ _
          (fun x hx t t1 h1 _ h3 => gm_write_audo_entry_keep E game x t t1 h1 (ha hs x hx) h3)
          s3 s1 b2 b3 h
        exact ⟨e1.trans (b1.trans a1), e2, e3⟩
  · rename_i h1 h2
    exfalso
    revert hmov
    cases hd : d.sect <;> simp [gm_movable] <;> simp_all

theorem gm_write_section_opaque (game : List Nat) (d : gm_patched_index) (s s1 : gm_out)
    (hmov : gm_movable d.sect = false) (h : gm_write_section game d s = some s1) :
    gm_copydata game d.index.offset d.offset (size_wrap ((d.size : Int) + 8)) s = some s1 := by
  unfold gm_write_section at h
  split at h
  · rename_i hs
    rw [hs] at hmov
    cases hmov
  · rename_i hs
    rw [hs] at hmov
    cases hmov
  · exact h

theorem gm_mirrors_index (index : List gm_index) (planned : List gm_patched_index)
    (h : gm_mirrors index planned) (k : Nat) (p : gm_patched_index)
    (hk : planned[k]? = some p) : index[k]? = some p.index := by
  unfold gm_mirrors at h
  have := congrArg (fun l => l[k]?) h
  simp only [List.getElem?_map, hk, Option.map_some'] at this
  cases hc : index[k]? with
  | none => rw [hc] at this; cases this
  | some c =>
    rw [hc] at this
    simp only [Option.map_some', Option.some.injEq, Prod.mk.injEq] at this
    rw [this.2.1]

theorem gm_holds_left (d : List Nat) (P : Nat) (A B : List Nat) (h : gm_holds d P (A ++ B)) :
    gm_holds d P A := by
  unfold gm_holds at *
  have := congrArg (List.take A.length) h
  rw [List.take_take, List.length_append, Nat.min_eq_left (by omega),
    List.take_left' rfl] at this
  exact this

theorem gm_holds_take (d : List Nat) (P n : Nat) (B : List Nat) (h : gm_holds d P B)
    (hn : n ≤ B.length) : gm_holds d P (B.take n) := by
  have e : B = B.take n ++ B.drop n := (List.take_append_drop n B).symm
  rw [e] at h
  exact gm_holds_left d P _ _ h

/-- The steps of the chunk loop for the planned chunk at position `k` of a successful
`gm_write_archive`: the seek to the planned offset, the header write with the name of the
section, the section body, and the chunks behind it. -/
theorem gm_write_archive_steps (game : List Nat) (planned : List gm_patched_index)
    (s0 s1 : gm_out) (k : Nat) (p : gm_patched_index) (hk : planned[k]? = some p)
    (h : gm_write_archive game planned s0 = some s1) :
    ∃ m s2 s3 s4, gm_fseeko p.offset m = some s2 ∧
      gm_write_hdr (gm_section_name p.sect) p.size s2 = some s3 ∧
      gm_write_section game p s3 = some s4 ∧
      gm_write_each (gm_write_chunk game) (planned.drop (k + 1)) s4 = some s1 := by
  obtain ⟨m, s4, hchunk, hpost⟩ := gm_write_archive_split game planned s0 s1 k p hk h
  unfold gm_write_chunk at hchunk
  split at hchunk
  · cases hchunk
  rename_i s2 hs2
  split at hchunk
  · cases hchunk
  rename_i s3 hs3
  exact ⟨m, s2, s3, s4, hs2, hs3, hchunk, hpost⟩

/-- C27. Section tag round trip: every section other than `GM_END` has a 4-byte name that
`gm_parse_section` maps back to the section; for every magic that `gm_parse_section` does not
map to `GM_END`, `gm_section_name` of the parsed section is the four bytes of the magic; for
an archive that was read and planned, the name of the section of the planned chunk at position
`k` is the four bytes the parser read at the offset of the parsed chunk at position `k`; and
when the archive is written, the chunk loop seeks to the planned offset of that chunk and its
header write (`gm_write_hdr`) emits these four bytes there, followed by the planned size.
They are still there in the finished output when the entries of the chunk itself (for a TXTR
or AUDO chunk) and the chunks behind it with their entries are planned behind the header. -/
theorem gm_section_tag_round_trip :
    (∀ s, s ≠ GM_END →
      ∃ m, gm_section_name s = some m ∧ m.length = 4 ∧ gm_parse_section m = s) ∧
    (∀ m : List Nat, gm_parse_section m ≠ GM_END →
      gm_section_name (gm_parse_section m) = some (m.take 4)) ∧
    (∀ (png : png_sniffer) (game : List Nat) (index : List gm_index) (patches : List gm_patch)
      (k : Nat) (p : gm_patched_index),
      gm_read_index png game = some index →
      (gm_apply_patches (gm_build_patched index) patches).2[k]? = some p →
      ∃ (c : gm_index) (o : Nat), index[k]? = some c ∧ c.offset = (o : Int) ∧
        p.sect = gm_parse_section ((game.drop o).take 4) ∧
        gm_section_name p.sect = some ((game.drop o).take 4)) ∧
    (∀ (png : png_sniffer) (game : List Nat) (index : List gm_index) (patches : List gm_patch)
      (k : Nat) (p : gm_patched_index) (s0 s1 : gm_out),
      gm_read_index png game = some index →
      (gm_apply_patches (gm_build_patched index) patches).2[k]? = some p →
      gm_write_archive game (gm_apply_patches (gm_build_patched index) patches).2 s0 =
        some s1 →
      ∃ (c : gm_index) (o : Nat) (m s2 s3 s4 : gm_out), index[k]? = some c ∧
        c.offset = (o : Int) ∧ gm_fseeko p.offset m = some s2 ∧
        gm_write_hdr (gm_section_name p.sect) p.size s2 = some s3 ∧
        gm_write_section game p s3 = some s4 ∧
        gm_write_each (gm_write_chunk game)
          ((gm_apply_patches (gm_build_patched index) patches).2.drop (k + 1)) s4 = some s1 ∧
        0 ≤ p.offset ∧ s2.pos = p.offset.toNat ∧
        gm_holds s3.data p.offset.toNat ((game.drop o).take 4 ++ WRITE_U32LE (p.size : Int)) ∧
        ((p.sect = GM_TXTR → ∀ e ∈ p.entries, p.offset + 8 ≤ e.offset) →
          (p.sect = GM_AUDO → ∀ e ∈ p.entries, p.offset + 8 ≤ e.offset - 4) →
          gm_planned_behind (p.offset.toNat + 8)
            ((gm_apply_patches (gm_build_patched index) patches).2.drop (k + 1)) →
          gm_holds s1.data p.offset.toNat ((game.drop o).take 4))) := by
  have part3 : ∀ (png : png_sniffer) (game : List Nat) (index : List gm_index)
      (patches : List gm_patch) (k : Nat) (p : gm_patched_index),
      gm_read_index png game = some index →
      (gm_apply_patches (gm_build_patched index) patches).2[k]? = some p →
      ∃ (c : gm_index) (o : Nat), index[k]? = some c ∧ c.offset = (o : Int) ∧
        p.sect = gm_parse_section ((game.drop o).take 4) ∧
        gm_section_name p.sect = some ((game.drop o).take 4) ∧ p.index = c ∧
        o + 8 ≤ game.length := by
    intro png game index patches k p hread hk
    have hm := gm_mirrors_apply index patches _ (gm_mirrors_build index)
    obtain ⟨c, hc, hsect, -⟩ := gm_mirrors_get index _ hm k p hk
    have hpi := gm_mirrors_index index _ hm k p hk
    rw [hc] at hpi
    simp only [Option.some.injEq] at hpi
    obtain ⟨o, buffer, hoff, hb, hne, hcs, -⟩ :=
      gm_read_index_headers png game index hread c (List.getElem?_mem hc)
    obtain ⟨-, hfit, hbuf, -⟩ := gm_fread_eq _ _ _ _ hb
    have ht : buffer.take 4 = (game.drop o).take 4 := by
      rw [hbuf, List.take_take]
      rfl
    refine ⟨c, o, hc, hoff, ?_, ?_, hpi.symm, hfit⟩
    · rw [hsect, hcs, ← ht, gm_parse_section_take]
    · rw [hsect, hcs, gm_section_name_parse buffer hne, ht]
  refine ⟨gm_parse_section_name, gm_section_name_parse, ?_, ?_⟩
  · intro png game index patches k p hread hk
    obtain ⟨c, o, h1, h2, h3, h4, -, -⟩ := part3 png game index patches k p hread hk
    exact ⟨c, o, h1, h2, h3, h4⟩
  · intro png game index patches k p s0 s1 hread hk hw
    obtain ⟨c, o, h1, h2, h3, h4, hpi, hfit⟩ := part3 png game index patches k p hread hk
    obtain ⟨m, s2, s3, s4, hs2, hs3, hsec, hpost⟩ :=
      gm_write_archive_steps game _ s0 s1 k p hk hw
    obtain ⟨a1, a2, a3⟩ := gm_fseeko_data _ _ _ hs2
    have hlen4 : ((game.drop o).take 4).length = 4 := by
      rw [List.length_take, List.length_drop]
      omega
    have hs3n := hs3
    rw [h4] at hs3n
    obtain ⟨hle, -, -⟩ := gm_write_hdr_data _ _ _ _ hlen4 hs3n
    obtain ⟨w1, w2, w3⟩ := gm_write_hdr_holds _ _ s2 s3 hlen4 hs3n
    rw [a3] at w1 w2
    refine ⟨c, o, m, s2, s3, s4, h1, h2, hs2, hs3, hsec, hpost, a1, a3, w1, ?_⟩
    intro ht ha hlater
    have hkeep := fun hE hp => gm_write_later_keep game (p.offset.toNat + 8) _ s4 s1 hlater
      hE hp hpost
    have hC : ((p.offset.toNat + 8 : Nat) : Int) = p.offset + 8 := by omega
    by_cases hmov : gm_movable p.sect = true
    · obtain ⟨k1, k2, k3⟩ := gm_write_section_keep_own (p.offset.toNat + 8) game p s3 s4
        (by omega) (by omega) hmov
        (fun hs e he => by rw [hC]; exact ht hs e he)
        (fun hs e he => by rw [hC]; exact ha hs e he) hsec
      have hk1 := hkeep k2 k3
      apply gm_holds_keep s3.data s1.data _ _ (p.offset.toNat + 8)
        (gm_holds_left _ _ _ _ w1) (Or.inr (by omega)) (hk1.trans k1)
    · have hmf : gm_movable p.sect = false := by
        cases hg : gm_movable p.sect
        · rfl
        · exact absurd hg hmov
      have hcopy := gm_write_section_opaque game p s3 s4 hmf hsec
      obtain ⟨-, c2, c3, c4, c5⟩ := gm_copydata_holds _ _ _ _ _ _ hcopy
      have hw8 : size_wrap ((p.size : Int) + 8) = p.size + 8 := by
        unfold UINT32_MAX at hle
        rw [size_wrap_eq]
        omega
      rw [hw8] at c2 c3 c4 c5
      rw [hpi, h2, Int.toNat_ofNat] at c2 c3
      have hk1 := hkeep (by have := c5 (by omega); omega) (by omega)
      have h44 := gm_holds_take _ _ 4 _ c2 (by omega)
      rw [List.take_take, Nat.min_eq_left (by omega)] at h44
      exact gm_holds_keep s4.data s1.data _ _ (p.offset.toNat + 8) h44 (Or.inr (by omega)) hk1

set_option maxRecDepth 8000 in
/-- C27 (witness). The planned TXTR chunk of `ex_archive` carries the tag read at offset 20,
and the output written for `ex_patch_image` holds it at the planned offset 20. -/
theorem gm_section_tag_round_trip_witness :
    (gm_read_index ex_sniffer ex_archive = some ex_archive_index ∧
      (gm_apply_patches (gm_build_patched ex_archive_index) [ex_patch_image]).2[1]? =
        some ex_archive_txtr_planned ∧
      (gm_write_archive ex_archive
        (gm_apply_patches (gm_build_patched ex_archive_index) [ex_patch_image]).2
        { data := [], pos := 0, fault := none }).map (fun s => s.data) =
          some ex_archive_patched) ∧
    ∃ (c : gm_index) (o : Nat), ex_archive_index[1]? = some c ∧ c.offset = (o : Int) ∧
      ex_archive_txtr_planned.sect = gm_parse_section ((ex_archive.drop o).take 4) ∧
      gm_section_name ex_archive_txtr_planned.sect = some ((ex_archive.drop o).take 4) :=
  ⟨⟨by decide, by decide, by decide⟩,
    gm_section_tag_round_trip.2.2.1 ex_sniffer ex_archive ex_archive_index [ex_patch_image] 1
      ex_archive_txtr_planned (by decide) (by decide)⟩

theorem gm_scan_offsets_unknown (png : png_sniffer) (game : List Nat) (stop : Nat)
    (fuel : Nat) :
    ∀ (offset count o : Nat), o ∈ gm_scan_offsets png game stop fuel offset count →
      gm_parse_section ((game.drop o).take 8) = GM_END →
      gm_read_index_loop png game stop fuel offset count = none := by
  induction fuel with
  | zero =>
    intro offset count o _ _
    rfl
  | succ n ih =>
    intro offset count o ho hend
    unfold gm_scan_offsets at ho
    unfold gm_read_index_loop
    by_cases hlt : offset < stop
    · rw [if_pos hlt] at ho ⊢
      cases hb : gm_fread game offset 8 with
      | none => rfl
      | some buffer =>
        rw [hb] at ho
        dsimp only at ho ⊢
        obtain ⟨-, -, hbuf, -⟩ := gm_fread_eq _ _ _ _ hb
        by_cases hp : gm_parse_section buffer = GM_END
        · rw [if_pos hp]
        · rw [if_neg hp] at ho ⊢
          have hne : o ≠ offset := by
            intro he
            rw [he, ← hbuf] at hend
            exact hp hend
          by_cases hr : U32LE_FROM_BUF buffer 4 > INT32_MAX - 8 ∨
              offset > INT32_MAX - 8 - U32LE_FROM_BUF buffer 4
          · rw [if_pos hr]
          · rw [if_neg hr] at ho ⊢
            by_cases hf : offset + U32LE_FROM_BUF buffer 4 + 8 > stop
            · rw [if_pos hf]
            · rw [if_neg hf] at ho ⊢
              by_cases hcap : count ≥ gm_index_capacity
              · rw [if_pos hcap]
              · rw [if_neg hcap] at ho ⊢
                cases hs : gm_read_section png game (gm_parse_section buffer) (offset + 8) with
                | none => rfl
                | some entries =>
                  rw [hs] at ho
                  dsimp only at ho ⊢
                  rcases List.mem_cons.mp ho with h1 | h1
                  · exact absurd h1 hne
                  · rw [ih _ _ o h1 hend]
    · rw [if_neg hlt] at ho
      simp at ho

/-- C28. Unknown tags are rejected: `gm_parse_section` yields `GM_END` exactly for the magics
whose first four bytes are not the name of one of the 26 sections (the comparison is that of
the bytes, so a tag in another case is unknown); and `gm_read_index` fails on every archive in
which the header at one of the positions where its loop reads a chunk header carries such a
magic. -/
theorem gm_unknown_tag_rejected :
    (∀ m : List Nat,
      gm_parse_section m = GM_END ↔ ∀ s, gm_section_name s ≠ some (m.take 4)) ∧
    (∀ (png : png_sniffer) (game : List Nat) (o : Nat), o ∈ gm_scan png game →
      gm_parse_section ((game.drop o).take 8) = GM_END → gm_read_index png game = none) := by
  refine ⟨gm_parse_section_end, ?_⟩
  intro png game o ho hend
  unfold gm_scan at ho
  unfold gm_read_index
  cases hb : gm_fread game 0 8 with
  | none => rfl
  | some buffer =>
    rw [hb] at ho
    dsimp only at ho ⊢
    by_cases hm : buffer.take 4 ≠ gm_magic 'F' 'O' 'R' 'M'
    · rw [if_pos hm]
    · rw [if_neg hm] at ho ⊢
      exact gm_scan_offsets_unknown png game _ _ _ _ o ho hend

/-- C28 (witness). The archive `ex_archive_lower`, whose second chunk is tagged `txtr`, is
rejected: the scan reads the header at offset 20. -/
theorem gm_unknown_tag_rejected_witness :
    20 ∈ gm_scan ex_sniffer ex_archive_lower ∧
    gm_parse_section ((ex_archive_lower.drop 20).take 8) = GM_END ∧
    gm_read_index ex_sniffer ex_archive_lower = none :=
  ⟨by decide, by decide,
    gm_unknown_tag_rejected.2 ex_sniffer ex_archive_lower 20 (by decide) (by decide)⟩

/-! ## The TXTR and AUDO readers -/

theorem gm_read_index_txtr_get (png : png_sniffer) (game : List Nat) (pos : Nat)
    (es : List gm_entry) (h : gm_read_index_txtr png game pos = some es) :
    es.length = U32LE_FROM_BUF game pos ∧
      ∀ (i : Nat) (e : gm_entry), es[i]? = some e →
        gm_read_txtr_entry png game (U32LE_FROM_BUF game (pos + 4 + 4 * i)) = some e := by
  unfold gm_read_index_txtr at h
  split at h
  · cases h
  · rename_i buffer hb
    have h0 := gm_u32_of_fread game pos 4 0 buffer hb (by omega)
    rw [Nat.add_zero] at h0
    rw [h0] at h
    split at h
    · cases h
    · rename_i offs hoffs
      obtain ⟨hlen, hget⟩ := gm_read_entries_get _ _ _ h
      obtain ⟨hol, hog⟩ := gm_read_offsets_spec _ _ _ _ hoffs
      refine ⟨by omega, ?_⟩
      intro i e hi
      obtain ⟨o, ho, hread⟩ := hget i e hi
      have hil : i < es.length := (List.getElem?_eq_some_iff.mp hi).1
      obtain ⟨ho1, -, -⟩ := hog i (by omega)
      rw [ho1] at ho
      simp only [Option.some.injEq] at ho
      rw [ho]
      exact hread

theorem gm_read_index_audo_get (game : List Nat) (pos : Nat)
    (es : List gm_entry) (h : gm_read_index_audo game pos = some es) :
    es.length = U32LE_FROM_BUF game pos ∧
      ∀ (i : Nat) (e : gm_entry), es[i]? = some e →
        U32LE_FROM_BUF game (pos + 4 + 4 * i) ≤ INT32_MAX ∧
        gm_read_audo_entry game (U32LE_FROM_BUF game (pos + 4 + 4 * i)) = some e := by
  unfold gm_read_index_audo at h
  split at h
  · cases h
  · rename_i buffer hb
    have h0 := gm_u32_of_fread game pos 4 0 buffer hb (by omega)
    rw [Nat.add_zero] at h0
    rw [h0] at h
    split at h
    · cases h
    · rename_i offs hoffs
      obtain ⟨hlen, hget⟩ := gm_read_entries_get _ _ _ h
      obtain ⟨hol, hog⟩ := gm_read_offsets_spec _ _ _ _ hoffs
      refine ⟨by omega, ?_⟩
      intro i e hi
      obtain ⟨o, ho, hread⟩ := hget i e hi
      have hil : i < es.length := (List.getElem?_eq_some_iff.mp hi).1
      obtain ⟨ho1, hmax, -⟩ := hog i (by omega)
      rw [ho1] at ho
      simp only [Option.some.injEq] at ho
      rw [← ho] at hread
      exact ⟨hmax, hread⟩

/-- C21. TXTR unknown fields: when `gm_read_index_txtr` succeeds, the entry at position `i`
has the `unknown1` and `unknown2` of the info descriptor that the `i`-th table slot points to,
`unknown1` is 0 or 1 and `unknown2` is 0; and when the descriptor of some slot `i` below the
count has `unknown1 > 1` or `unknown2 ≠ 0`, the reader fails, and the step for that descriptor
fails whatever PNG sniffer it is given, so the sniffer is not consulted for it. -/
theorem gm_txtr_unknown_fields (png : png_sniffer) (game : List Nat) (pos : Nat) :
    (∀ es, gm_read_index_txtr png game pos = some es →
      es.length = U32LE_FROM_BUF game pos ∧
      ∀ (i : Nat) (e : gm_entry), es[i]? = some e →
        e.unknown1 = U32LE_FROM_BUF game (U32LE_FROM_BUF game (pos + 4 + 4 * i)) ∧
        e.unknown2 = U32LE_FROM_BUF game (U32LE_FROM_BUF game (pos + 4 + 4 * i) + 4) ∧
        (e.unknown1 = 0 ∨ e.unknown1 = 1) ∧ e.unknown2 = 0) ∧
    (∀ i, i < U32LE_FROM_BUF game pos →
      (U32LE_FROM_BUF game (U32LE_FROM_BUF game (pos + 4 + 4 * i)) > 1 ∨
        U32LE_FROM_BUF game (U32LE_FROM_BUF game (pos + 4 + 4 * i) + 4) ≠ 0) →
      gm_read_index_txtr png game pos = none ∧
      ∀ png1 : png_sniffer,
        gm_read_txtr_entry png1 game (U32LE_FROM_BUF game (pos + 4 + 4 * i)) = none) := by
  have hent : ∀ (png1 : png_sniffer) (o : Nat) (e : gm_entry),
      gm_read_txtr_entry png1 game o = some e →
      e.unknown1 = U32LE_FROM_BUF game o ∧ e.unknown2 = U32LE_FROM_BUF game (o + 4) ∧
        (e.unknown1 = 0 ∨ e.unknown1 = 1) ∧ e.unknown2 = 0 := by
    intro png1 o e he
    obtain ⟨-, h1, h2, -, h3, h4, -⟩ := gm_read_txtr_entry_spec png1 game o e he
    exact ⟨h1, h2, by omega, h4⟩
  constructor
  · intro es h
    obtain ⟨hlen, hget⟩ := gm_read_index_txtr_get png game pos es h
    exact ⟨hlen, fun i e hi => hent png _ e (hget i e hi)⟩
  · intro i hi hbad
    have hstep : ∀ png1 : png_sniffer,
        gm_read_txtr_entry png1 game (U32LE_FROM_BUF game (pos + 4 + 4 * i)) = none := by
      intro png1
      cases he : gm_read_txtr_entry png1 game (U32LE_FROM_BUF game (pos + 4 + 4 * i)) with
      | none => rfl
      | some e =>
        obtain ⟨h1, h2, h3, h4⟩ := hent png1 _ e he
        omega
    refine ⟨?_, hstep⟩
    cases h : gm_read_index_txtr png game pos with
    | none => rfl
    | some es =>
      obtain ⟨hlen, hget⟩ := gm_read_index_txtr_get png game pos es h
      have hil : i < es.length := by omega
      have := hget i es[i] (List.getElem?_eq_getElem hil)
      rw [hstep png] at this
      cases this

/-- C21 (witness). The image of `ex_archive` is read with `unknown1 = unknown2 = 0`; with
`unknown1 = 2` in its descriptor (`ex_archive_unknown1`) the reader fails. -/
theorem gm_txtr_unknown_fields_witness :
    (gm_read_index_txtr ex_sniffer ex_archive 28 = some [ex_archive_image] ∧
      ([ex_archive_image].length = U32LE_FROM_BUF ex_archive 28 ∧
      ∀ (i : Nat) (e : gm_entry), [ex_archive_image][i]? = some e →
        e.unknown1 = U32LE_FROM_BUF ex_archive (U32LE_FROM_BUF ex_archive (28 + 4 + 4 * i)) ∧
        e.unknown2 =
          U32LE_FROM_BUF ex_archive (U32LE_FROM_BUF ex_archive (28 + 4 + 4 * i) + 4) ∧
        (e.unknown1 = 0 ∨ e.unknown1 = 1) ∧ e.unknown2 = 0)) ∧
    (0 < U32LE_FROM_BUF ex_archive_unknown1 28 ∧
      U32LE_FROM_BUF ex_archive_unknown1
        (U32LE_FROM_BUF ex_archive_unknown1 (28 + 4 + 4 * 0)) = 2 ∧
      gm_read_index_txtr ex_sniffer ex_archive_unknown1 28 = none ∧
      ∀ png1 : png_sniffer,
        gm_read_txtr_entry png1 ex_archive_unknown1
          (U32LE_FROM_BUF ex_archive_unknown1 (28 + 4 + 4 * 0)) = none) :=
  ⟨⟨by decide, (gm_txtr_unknown_fields ex_sniffer ex_archive 28).1 _ (by decide)⟩,
    by decide, by decide,
    (gm_txtr_unknown_fields ex_sniffer ex_archive_unknown1 28).2 0 (by decide)
      (Or.inl (by decide))⟩

/-- C22. AUDO reader result: when `gm_read_index_audo` succeeds on a payload whose count
field holds `count`, it yields `count` entries, and the entry at position `i` has as offset
the `i`-th table offset plus 4 and as size the 32-bit value stored at that table offset. -/
theorem gm_audo_reader_result (game : List Nat) (pos : Nat) (es : List gm_entry)
    (h : gm_read_index_audo game pos = some es) :
    es.length = U32LE_FROM_BUF game pos ∧
    ∀ i, i < U32LE_FROM_BUF game pos →
      ∃ e, es[i]? = some e ∧
        e.offset = (U32LE_FROM_BUF game (pos + 4 + 4 * i) : Int) + 4 ∧
        e.size = U32LE_FROM_BUF game (U32LE_FROM_BUF game (pos + 4 + 4 * i)) := by
  obtain ⟨hlen, hget⟩ := gm_read_index_audo_get game pos es h
  refine ⟨hlen, ?_⟩
  intro i hi
  have hil : i < es.length := by omega
  refine ⟨es[i], List.getElem?_eq_getElem hil, ?_⟩
  obtain ⟨-, hread⟩ := hget i es[i] (List.getElem?_eq_getElem hil)
  obtain ⟨-, hoff, hsize, -⟩ := gm_read_audo_entry_spec game _ _ hread
  refine ⟨?_, hsize⟩
  rw [hoff]
  push_cast
  rfl

/-- C22 (witness). The AUDO payload of `ex_archive` at position 60 holds one blob. -/
theorem gm_audo_reader_result_witness :
    gm_read_index_audo ex_archive 60 = some [ex_archive_ogg] ∧
    ([ex_archive_ogg].length = U32LE_FROM_BUF ex_archive 60 ∧
    ∀ i, i < U32LE_FROM_BUF ex_archive 60 →
      ∃ e, [ex_archive_ogg][i]? = some e ∧
        e.offset = (U32LE_FROM_BUF ex_archive (60 + 4 + 4 * i) : Int) + 4 ∧
        e.size = U32LE_FROM_BUF ex_archive (U32LE_FROM_BUF ex_archive (60 + 4 + 4 * i))) :=
  ⟨by decide, gm_audo_reader_result ex_archive 60 [ex_archive_ogg] (by decide)⟩

/-! ## Audio classification -/

theorem gm_audo_type_take (b : List Nat) (n : Nat) :
    gm_audo_type (b.take (if n < 12 then n else 12)) (if n < 12 then n else 12) =
      if n ≥ 12 ∧ b.take 4 = gm_magic 'R' 'I' 'F' 'F' ∧
          (b.drop 8).take 4 = gm_magic 'W' 'A' 'V' 'E' then GM_WAVE
      else if n ≥ 4 ∧ b.take 4 = gm_magic 'O' 'g' 'g' 'S' then GM_OGG
      else GM_UNKNOWN := by
  unfold gm_audo_type
  by_cases h12 : n < 12
  · rw [if_pos h12]
    rw [if_neg (by omega : ¬ (n ≥ 12 ∧ _)), if_neg (by omega : ¬ (n ≥ 12 ∧ _))]
    by_cases h4 : n ≥ 4
    · rw [List.take_take, Nat.min_eq_left h4]
    · rw [if_neg (by omega : ¬ (n ≥ 4 ∧ _)), if_neg (by omega : ¬ (n ≥ 4 ∧ _))]
  · rw [if_neg h12]
    have e1 : (b.take 12).take 4 = b.take 4 := by
      rw [List.take_take]
      rfl
    have e2 : ((b.take 12).drop 8).take 4 = (b.drop 8).take 4 := by
      rw [List.drop_take, List.take_take]
      rfl
    rw [e1, e2]
    simp only [ge_iff_le, Nat.le_refl, show 12 ≤ n from by omega, show 4 ≤ n from by omega,
      show 4 ≤ 12 from by omega, true_and]

theorem gm_classified_of (W O : Prop) [Decidable W] [Decidable O] :
    ((if W then GM_WAVE else if O then GM_OGG else GM_UNKNOWN) = GM_WAVE ↔ W) ∧
    ((if W then GM_WAVE else if O then GM_OGG else GM_UNKNOWN) = GM_OGG ↔ ¬ W ∧ O) ∧
    ((if W then GM_WAVE else if O then GM_OGG else GM_UNKNOWN) = GM_UNKNOWN ↔ ¬ W ∧ ¬ O) := by
  by_cases hw : W <;> by_cases ho : O <;> simp [hw, ho]

theorem gm_audo_classified_ite (b : List Nat) (n : Nat) :
    gm_audo_classified b n
      (if n ≥ 12 ∧ b.take 4 = gm_magic 'R' 'I' 'F' 'F' ∧
          (b.drop 8).take 4 = gm_magic 'W' 'A' 'V' 'E' then GM_WAVE
      else if n ≥ 4 ∧ b.take 4 = gm_magic 'O' 'g' 'g' 'S' then GM_OGG
      else GM_UNKNOWN) :=
  gm_classified_of _ _

/-- C23. Audio classification: the type that `gm_read_index_audo` gives the blob at a table
offset and the type that `gm_read_audo_info` gives a patch file are WAVE exactly when the blob
has at least 12 bytes, bytes 0..3 are `RIFF` and bytes 8..11 are `WAVE`; otherwise OGG exactly
when the blob has at least 4 bytes and bytes 0..3 are `OggS`; otherwise UNKNOWN.  Two patch
files that agree in bytes 0..3, in bytes 8..11 and in their length up to 12 get the same
type. -/
theorem gm_audo_classification :
    (∀ (game : List Nat) (o : Nat) (e : gm_entry), gm_read_audo_entry game o = some e →
      gm_audo_classified (game.drop (o + 4)) e.size e.type) ∧
    (∀ (data : List Nat) (patch : gm_patch),
      ∃ p, gm_read_audo_info false data patch = some p ∧ p.size = data.length ∧
        gm_audo_classified data data.length p.type) ∧
    (∀ (d1 d2 : List Nat) (patch : gm_patch) (p1 p2 : gm_patch),
      d1.take 4 = d2.take 4 → (d1.drop 8).take 4 = (d2.drop 8).take 4 →
      min d1.length 12 = min d2.length 12 →
      gm_read_audo_info false d1 patch = some p1 →
      gm_read_audo_info false d2 patch = some p2 → p1.type = p2.type) := by
  have hinfo : ∀ (data : List Nat) (patch : gm_patch) (p : gm_patch),
      gm_read_audo_info false data patch = some p →
      p.type = (if data.length ≥ 12 ∧ data.take 4 = gm_magic 'R' 'I' 'F' 'F' ∧
          (data.drop 8).take 4 = gm_magic 'W' 'A' 'V' 'E' then GM_WAVE
        else if data.length ≥ 4 ∧ data.take 4 = gm_magic 'O' 'g' 'g' 'S' then GM_OGG
        else GM_UNKNOWN) ∧ p.size = data.length := by
    intro data patch p hp
    unfold gm_read_audo_info at hp
    simp only [Bool.false_eq_true, if_false, Option.some.injEq] at hp
    subst hp
    refine ⟨?_, rfl⟩
    have := gm_audo_type_take data data.length
    by_cases h12 : data.length < 12
    · rw [if_pos h12, List.take_of_length_le (Nat.le_refl _)] at this
      simp only
      rw [if_pos h12, List.take_of_length_le (by omega), this]
    · rw [if_neg h12] at this
      simp only
      rw [if_neg h12, this]
  refine ⟨?_, ?_, ?_⟩
  · intro game o e he
    obtain ⟨-, -, -, -, htype⟩ := gm_read_audo_entry_spec game o e he
    rw [htype, gm_audo_type_take]
    exact gm_audo_classified_ite _ _
  · intro data patch
    refine ⟨_, rfl, rfl, ?_⟩
    rw [(hinfo data patch _ rfl).1]
    exact gm_audo_classified_ite _ _
  · intro d1 d2 patch p1 p2 h4 h8 hlen hp1 hp2
    rw [(hinfo d1 patch p1 hp1).1, (hinfo d2 patch p2 hp2).1, h4, h8]
    have e12 : (d1.length ≥ 12) = (d2.length ≥ 12) := by
      apply propext
      constructor <;> intro h <;> omega
    have e4 : (d1.length ≥ 4) = (d2.length ≥ 4) := by
      apply propext
      constructor <;> intro h <;> omega
    simp only [e12, e4]

/-- C23 (witness). The Ogg blob of `ex_archive` (at table offset 68) is classified as OGG; the
patch file `ex_blob_wave` is classified as WAVE, and so is `ex_blob_wave_other`, which differs
in bytes 4..7 and after byte 11. -/
theorem gm_audo_classification_witness :
    (gm_read_audo_entry ex_archive 68 = some ex_archive_ogg ∧
      gm_audo_classified (ex_archive.drop (68 + 4)) ex_archive_ogg.size ex_archive_ogg.type) ∧
    (∃ p, gm_read_audo_info false ex_blob_wave ex_patch_blank = some p ∧
      p.size = ex_blob_wave.length ∧
      gm_audo_classified ex_blob_wave ex_blob_wave.length p.type) ∧
    (gm_read_audo_info false ex_blob_wave ex_patch_blank = some ex_patch_wave ∧
      gm_read_audo_info false ex_blob_wave_other ex_patch_blank = some ex_patch_wave_other ∧
      ex_patch_wave.type = ex_patch_wave_other.type) :=
  ⟨⟨by decide, gm_audo_classification.1 ex_archive 68 ex_archive_ogg (by decide)⟩,
    gm_audo_classification.2.1 ex_blob_wave ex_patch_blank,
    by decide, by decide,
    gm_audo_classification.2.2 ex_blob_wave ex_blob_wave_other ex_patch_blank ex_patch_wave
      ex_patch_wave_other (by decide) (by decide) (by decide) (by decide) (by decide)⟩

/-! ## The exact success condition of a TXTR/AUDO patch -/

theorem gm_movable_iff (s : gm_section) :
    gm_movable s = true ↔ s = GM_TXTR ∨ s = GM_AUDO := by
  cases s <;> simp [gm_movable]

/-- C30. Exact success condition of a TXTR/AUDO patch: for a TXTR or AUDO chunk `c` followed
by the chunks `rest` and a patch `p`, `gm_patch_entry` returns 0 if and only if `p.index` is
below the number of entries of `c`, the entry at `p.index` carries no patch yet, the type of
its parsed entry is `p.type`, for a TXTR chunk the parsed width and height are those of `p`,
and every chunk after `c` is TXTR or AUDO. -/
theorem gm_patch_entry_success_iff (c : gm_patched_index) (rest : List gm_patched_index)
    (p : gm_patch) (hc : c.sect = GM_TXTR ∨ c.sect = GM_AUDO) :
    (gm_patch_entry (c :: rest) p).1 = gm_status.ok ↔
      p.index < c.entries.length ∧
      (∀ e, c.entries[p.index]? = some e →
        e.patch = none ∧ e.entry.type = p.type ∧
        (c.sect = GM_TXTR → e.entry.width = p.width ∧ e.entry.height = p.height)) ∧
      (∀ x ∈ rest, x.sect = GM_TXTR ∨ x.sect = GM_AUDO) := by
  have hmov : gm_movable c.sect = true := (gm_movable_iff c.sect).mpr hc
  constructor
  · intro h
    obtain ⟨entry, h1, h2, h3, h4, h5, -⟩ := gm_patch_entry_ok c rest p hmov h
    refine ⟨(List.getElem?_eq_some_iff.mp h1).1, ?_, ?_⟩
    · intro e he
      rw [h1] at he
      simp only [Option.some.injEq] at he
      subst he
      exact ⟨h2, h3, h4⟩
    · intro x hx
      exact (gm_movable_iff x.sect).mp (h5 x hx)
  · rintro ⟨hlt, hval, hrest⟩
    obtain ⟨h2, h3, h4⟩ := hval _ (List.getElem?_eq_getElem hlt)
    rw [gm_patch_entry_valid c rest p _ hmov (List.getElem?_eq_getElem hlt) h2 h3 h4]
    exact (gm_shift_tail_ok_iff rest _).mpr fun x hx => (gm_movable_iff x.sect).mpr (hrest x hx)

/-- C30 (witness). The patch `ex_patch_larger` is accepted on `ex_txtr` followed by `ex_audo`,
and the conditions hold there. -/
theorem gm_patch_entry_success_iff_witness :
    (ex_txtr.sect = GM_TXTR ∨ ex_txtr.sect = GM_AUDO) ∧
    (gm_patch_entry [ex_txtr, ex_audo] ex_patch_larger).1 = gm_status.ok ∧
    (ex_patch_larger.index < ex_txtr.entries.length ∧
      (∀ e, ex_txtr.entries[ex_patch_larger.index]? = some e →
        e.patch = none ∧ e.entry.type = ex_patch_larger.type ∧
        (ex_txtr.sect = GM_TXTR →
          e.entry.width = ex_patch_larger.width ∧ e.entry.height = ex_patch_larger.height)) ∧
      (∀ x ∈ [ex_audo], x.sect = GM_TXTR ∨ x.sect = GM_AUDO)) :=
  ⟨Or.inl rfl, by decide,
    (gm_patch_entry_success_iff ex_txtr [ex_audo] ex_patch_larger (Or.inl rfl)).mp (by decide)⟩

/-! ## The SPRT reader -/

theorem gm_u16_of_fread (file : List Nat) (pos n k : Nat) (b : List Nat)
    (h : gm_fread file pos n = some b) (hk : k + 2 ≤ n) :
    U16LE_FROM_BUF b k = U16LE_FROM_BUF file (pos + k) := by
  obtain ⟨-, -, rfl, -⟩ := gm_fread_eq file pos n b h
  unfold U16LE_FROM_BUF
  rw [gm_getD_take _ _ _ (by omega), gm_getD_take _ _ _ (by omega), gm_getD_drop, gm_getD_drop]
  simp only [Nat.add_assoc]

theorem gm_u16_lt (file : List Nat) (hb : gm_bytes_ok file) (p : Nat) :
    U16LE_FROM_BUF file p < 65536 := by
  unfold U16LE_FROM_BUF
  have h0 := gm_getD_lt file hb p
  have h1 := gm_getD_lt file hb (p + 1)
  omega

theorem gm_read_tpag_spec (game : List Nat) (o : Nat) (t : gm_tpag)
    (h : gm_read_tpag game o = some t) :
    o + 22 ≤ game.length ∧ t.x = U16LE_FROM_BUF game o ∧ t.y = U16LE_FROM_BUF game (o + 2) ∧
      t.width = U16LE_FROM_BUF game (o + 4) ∧ t.height = U16LE_FROM_BUF game (o + 6) ∧
      t.txtr_index = U16LE_FROM_BUF game (o + 20) := by
  unfold gm_read_tpag at h
  split at h
  · cases h
  · rename_i buffer hb
    obtain ⟨-, hlen, -, -⟩ := gm_fread_eq _ _ _ _ hb
    simp only [Option.some.injEq] at h
    subst h
    have h0 := gm_u16_of_fread game o 22 0 buffer hb (by omega)
    rw [Nat.add_zero] at h0
    exact ⟨hlen, h0, gm_u16_of_fread game o 22 2 buffer hb (by omega),
      gm_u16_of_fread game o 22 4 buffer hb (by omega),
      gm_u16_of_fread game o 22 6 buffer hb (by omega),
      gm_u16_of_fread game o 22 20 buffer hb (by omega)⟩

theorem gm_read_tpags_spec (game buffer : List Nat) (n : Nat) :
    ∀ (idx : Nat) (ts : List gm_tpag), gm_read_tpags game buffer idx n = some ts →
      ts.length = n ∧
      ∀ j, j < n → ∃ t, ts[j]? = some t ∧
        gm_read_tpag game (U32LE_FROM_BUF buffer ((idx + j) * 4)) = some t := by
  induction n with
  | zero =>
    intro idx ts h
    simp only [gm_read_tpags, Option.some.injEq] at h
    subst h
    exact ⟨rfl, fun j hj => absurd hj (by omega)⟩
  | succ n ih =>
    intro idx ts h
    unfold gm_read_tpags at h
    split at h
    · cases h
    · split at h
      · cases h
      · rename_i t ht
        split at h
        · cases h
        · rename_i ts1 hts
          simp only [Option.some.injEq] at h
          subst h
          obtain ⟨hl, hg⟩ := ih _ _ hts
          refine ⟨by simp only [List.length_cons, hl], ?_⟩
          intro j hj
          cases j with
          | zero =>
            refine ⟨t, by rw [List.getElem?_cons_zero], ?_⟩
            rw [Nat.add_zero]
            exact ht
          | succ j =>
            obtain ⟨t1, h1, h2⟩ := hg j (by omega)
            refine ⟨t1, by rw [List.getElem?_cons_succ]; exact h1, ?_⟩
            rw [show idx + (j + 1) = idx + 1 + j from by omega]
            exact h2

theorem gm_read_tpags_fits (game buffer : List Nat) (n : Nat) :
    ∀ (idx : Nat) (ts : List gm_tpag), gm_read_tpags game buffer idx n = some ts →
      0 < n → (idx + n) * 4 ≤ buffer.length := by
  induction n with
  | zero =>
    intro idx ts _ h0
    omega
  | succ n ih =>
    intro idx ts h _
    unfold gm_read_tpags at h
    split at h
    · cases h
    · rename_i hfit
      split at h
      · cases h
      · split at h
        · cases h
        · rename_i ts1 hts
          by_cases hn : 0 < n
          · have := ih _ _ hts hn
            omega
          · have hn0 : n = 0 := by omega
            subst hn0
            omega

theorem gm_tpag_table_size (game : List Nat) (pos c : Nat) (offs : List Nat)
    (ts : List gm_tpag) (hoffs : gm_fread game pos (u32_wrap ((c : Int) * 4)) = some offs)
    (hts : gm_read_tpags game offs 0 c = some ts) :
    u32_wrap ((c : Int) * 4) = c * 4 ∧ 0 < c := by
  obtain ⟨hpos, -, -, hlen⟩ := gm_fread_eq _ _ _ _ hoffs
  have hlt : u32_wrap ((c : Int) * 4) < 4294967296 := by
    rw [u32_wrap_eq]
    omega
  have hc : 0 < c := by
    rcases Nat.eq_zero_or_pos c with h0 | h0
    · subst h0
      simp [u32_wrap_eq] at hpos
    · exact h0
  have hfit := gm_read_tpags_fits game offs c 0 ts hts hc
  rw [hlen] at hfit
  refine ⟨?_, hc⟩
  rw [u32_wrap_eq] at hlt hfit ⊢
  omega

theorem gm_read_sprt_entry_spec (game : List Nat) (r : Nat) (e : gm_entry)
    (h : gm_read_sprt_entry game r = some e) :
    r + 80 ≤ game.length ∧
      U32LE_FROM_BUF game r ≤ INT32_MAX ∧
      U32LE_FROM_BUF game (r + 76) ≤ INT32_MAX ∧ 0 < U32LE_FROM_BUF game (r + 76) ∧
      e.tpag.length = U32LE_FROM_BUF game (r + 76) ∧
      (∀ j, j < U32LE_FROM_BUF game (r + 76) → ∃ t, e.tpag[j]? = some t ∧
        gm_read_tpag game (U32LE_FROM_BUF game (r + 80 + 4 * j)) = some t) ∧
      u32_wrap ((U32LE_FROM_BUF game r : Int) - 4) + 4 +
          U32LE_FROM_BUF game (u32_wrap ((U32LE_FROM_BUF game r : Int) - 4)) ≤ game.length ∧
      0 < U32LE_FROM_BUF game (u32_wrap ((U32LE_FROM_BUF game r : Int) - 4)) ∧
      e.name = (game.drop (u32_wrap ((U32LE_FROM_BUF game r : Int) - 4) + 4)).take
        (U32LE_FROM_BUF game (u32_wrap ((U32LE_FROM_BUF game r : Int) - 4))) := by
  unfold gm_read_sprt_entry at h
  split at h
  · cases h
  · rename_i buffer hb
    obtain ⟨-, hlen, -, -⟩ := gm_fread_eq _ _ _ _ hb
    have h0 := gm_u32_of_fread game r 80 0 buffer hb (by omega)
    have h76 := gm_u32_of_fread game r 80 76 buffer hb (by omega)
    rw [Nat.add_zero] at h0
    rw [h0, h76] at h
    split at h
    · cases h
    · rename_i hrange
      split at h
      · cases h
      · rename_i hcount
        split at h
        · cases h
        · rename_i offs hoffs
          split at h
          · cases h
          · rename_i tpag htpag
            obtain ⟨hw, hpos⟩ := gm_tpag_table_size game _ _ offs tpag hoffs htpag
            rw [hw] at hoffs
            split at h
            · cases h
            · rename_i lenbuf hlb
              have hl0 := gm_u32_of_fread game _ 4 0 lenbuf hlb (by omega)
              rw [Nat.add_zero] at hl0
              rw [hl0] at h
              split at h
              · cases h
              · split at h
                · cases h
                · rename_i str hstr
                  obtain ⟨hspos, hslen, hseq, -⟩ := gm_fread_eq _ _ _ _ hstr
                  simp only [Option.some.injEq] at h
                  subst h
                  obtain ⟨htl, htg⟩ := gm_read_tpags_spec game offs _ 0 tpag htpag
                  refine ⟨hlen, ?_, by omega, by omega, htl, ?_, hslen, hspos, hseq⟩
                  · unfold INT32_MAX at hrange ⊢
                    omega
                  · intro j hj
                    obtain ⟨t, h1, h2⟩ := htg j hj
                    refine ⟨t, h1, ?_⟩
                    have := gm_u32_of_fread game (r + 80) _ (j * 4) offs hoffs (by omega)
                    rw [Nat.zero_add, this] at h2
                    rw [show r + 80 + 4 * j = r + 80 + j * 4 from by omega]
                    exact h2

theorem gm_read_sprt_loop_get (game : List Nat) (count : Nat) :
    ∀ (pos : Nat) (es : List gm_entry), gm_read_sprt_loop game pos count = some es →
      es.length = count ∧
      ∀ i, i < count → ∃ e, es[i]? = some e ∧
        gm_read_sprt_entry game (U32LE_FROM_BUF game (pos + 4 * i)) = some e := by
  induction count with
  | zero =>
    intro pos es h
    simp only [gm_read_sprt_loop, Option.some.injEq] at h
    subst h
    exact ⟨rfl, fun i hi => absurd hi (by omega)⟩
  | succ n ih =>
    intro pos es h
    unfold gm_read_sprt_loop at h
    split at h
    · cases h
    · rename_i buffer hb
      have h0 := gm_u32_of_fread game pos 4 0 buffer hb (by omega)
      rw [Nat.add_zero] at h0
      rw [h0] at h
      split at h
      · cases h
      · rename_i e he
        split at h
        · cases h
        · rename_i es1 hes
          simp only [Option.some.injEq] at h
          subst h
          obtain ⟨hl, hg⟩ := ih _ _ hes
          refine ⟨by simp only [List.length_cons, hl], ?_⟩
          intro i hi
          cases i with
          | zero =>
            refine ⟨e, by rw [List.getElem?_cons_zero], ?_⟩
            rw [Nat.mul_zero, Nat.add_zero]
            exact he
          | succ i =>
            obtain ⟨e1, h1, h2⟩ := hg i (by omega)
            refine ⟨e1, by rw [List.getElem?_cons_succ]; exact h1, ?_⟩
            rw [show pos + 4 * (i + 1) = pos + 4 + 4 * i from by omega]
            exact h2

theorem gm_read_index_sprt_get (game : List Nat) (pos : Nat) (es : List gm_entry)
    (h : gm_read_index_sprt game pos = some es) :
    es.length = U32LE_FROM_BUF game pos ∧
      ∀ i, i < U32LE_FROM_BUF game pos → ∃ e, es[i]? = some e ∧
        gm_read_sprt_entry game (U32LE_FROM_BUF game (pos + 4 + 4 * i)) = some e := by
  unfold gm_read_index_sprt at h
  split at h
  · cases h
  · rename_i buffer hb
    have h0 := gm_u32_of_fread game pos 4 0 buffer hb (by omega)
    rw [Nat.add_zero] at h0
    rw [h0] at h
    exact gm_read_sprt_loop_get game _ _ _ h

/-- C24. SPRT reader result: when `gm_read_index_sprt` succeeds on a file of bytes, it yields
as many entries as the count field says, and for the sprite record at the offset `r` of table
slot `i` the entry has as TPAG count the 32-bit value at `r + 76`; its `j`-th TPAG holds the
16-bit values at `t + 0`, `t + 2`, `t + 4`, `t + 6` and `t + 20`, where `t` is the 32-bit value
at `r + 80 + 4 j`, so all five fields are below 65536; and its name is the `L` bytes behind the
length field `L` that is read at `name_string_offset − 4` in 32-bit arithmetic, where
`name_string_offset` is the 32-bit value at `r`: for `name_string_offset ≥ 4` these are the `L`
bytes at `name_string_offset` with `L` the 32-bit value at `name_string_offset − 4`, and a
smaller `name_string_offset` is read successfully only in a file of 4 GiB or more. -/
theorem gm_sprt_reader_result (game : List Nat) (pos : Nat) (es : List gm_entry)
    (hb : gm_bytes_ok game) (h : gm_read_index_sprt game pos = some es) :
    es.length = U32LE_FROM_BUF game pos ∧
    ∀ (i r : Nat), i < U32LE_FROM_BUF game pos → r = U32LE_FROM_BUF game (pos + 4 + 4 * i) →
      ∃ e, es[i]? = some e ∧
        e.tpag.length = U32LE_FROM_BUF game (r + 76) ∧
        (∀ j, j < U32LE_FROM_BUF game (r + 76) →
          ∃ t, e.tpag[j]? = some t ∧
            t = gm_tpag_at game (U32LE_FROM_BUF game (r + 80 + 4 * j)) ∧
            t.x < 65536 ∧ t.y < 65536 ∧ t.width < 65536 ∧ t.height < 65536 ∧
            t.txtr_index < 65536) ∧
        e.name = (game.drop (gm_sprt_name_pos game r + 4)).take
          (U32LE_FROM_BUF game (gm_sprt_name_pos game r)) ∧
        (4 ≤ U32LE_FROM_BUF game r →
          e.name = (game.drop (U32LE_FROM_BUF game r)).take
            (U32LE_FROM_BUF game (U32LE_FROM_BUF game r - 4))) ∧
        (U32LE_FROM_BUF game r < 4 → 4294967296 ≤ game.length) := by
  obtain ⟨hlen, hget⟩ := gm_read_index_sprt_get game pos es h
  refine ⟨hlen, ?_⟩
  intro i r hi hr
  obtain ⟨e, he, hread⟩ := hget i hi
  rw [← hr] at hread
  obtain ⟨-, hmax, -, -, htl, htg, hfit, hpos, hname⟩ := gm_read_sprt_entry_spec game r e hread
  refine ⟨e, he, htl, ?_, hname, ?_, ?_⟩
  · intro j hj
    obtain ⟨t, h1, h2⟩ := htg j hj
    obtain ⟨-, hx, hy, hw, hh, hi⟩ := gm_read_tpag_spec game _ t h2
    refine ⟨t, h1, ?_, ?_, ?_, ?_, ?_, ?_⟩
    · cases t
      simp only [gm_tpag_at] at hx hy hw hh hi ⊢
      rw [hx, hy, hw, hh, hi]
    · rw [hx]
      exact gm_u16_lt game hb _
    · rw [hy]
      exact gm_u16_lt game hb _
    · rw [hw]
      exact gm_u16_lt game hb _
    · rw [hh]
      exact gm_u16_lt game hb _
    · rw [hi]
      exact gm_u16_lt game hb _
  · intro h4
    have hlt := gm_u32_lt game hb r
    have e1 : gm_sprt_name_pos game r = U32LE_FROM_BUF game r - 4 := by
      unfold gm_sprt_name_pos u32_wrap
      rw [if_pos (by omega)]
      omega
    rw [hname]
    change (game.drop (gm_sprt_name_pos game r + 4)).take
      (U32LE_FROM_BUF game (gm_sprt_name_pos game r)) = _
    rw [e1, show U32LE_FROM_BUF game r - 4 + 4 = U32LE_FROM_BUF game r from by omega]
  · intro h4
    have e1 : u32_wrap ((U32LE_FROM_BUF game r : Int) - 4) =
        4294967292 + U32LE_FROM_BUF game r := by
      unfold u32_wrap
      rw [if_neg (by omega)]
      omega
    rw [e1] at hfit
    omega

set_option maxRecDepth 8000 in
/-- C24 (witness). The SPRT payload of `ex_archive_sprt` at position 16 holds the sprite
`ex_sprite`. -/
theorem gm_sprt_reader_result_witness :
    gm_bytes_ok ex_archive_sprt ∧
    gm_read_index_sprt ex_archive_sprt 16 = some [ex_sprite] ∧
    ([ex_sprite].length = U32LE_FROM_BUF ex_archive_sprt 16 ∧
    ∀ (i r : Nat), i < U32LE_FROM_BUF ex_archive_sprt 16 →
      r = U32LE_FROM_BUF ex_archive_sprt (16 + 4 + 4 * i) →
      ∃ e, [ex_sprite][i]? = some e ∧
        e.tpag.length = U32LE_FROM_BUF ex_archive_sprt (r + 76) ∧
        (∀ j, j < U32LE_FROM_BUF ex_archive_sprt (r + 76) →
          ∃ t, e.tpag[j]? = some t ∧
            t = gm_tpag_at ex_archive_sprt (U32LE_FROM_BUF ex_archive_sprt (r + 80 + 4 * j)) ∧
            t.x < 65536 ∧ t.y < 65536 ∧ t.width < 65536 ∧ t.height < 65536 ∧
            t.txtr_index < 65536) ∧
        e.name = (ex_archive_sprt.drop (gm_sprt_name_pos ex_archive_sprt r + 4)).take
          (U32LE_FROM_BUF ex_archive_sprt (gm_sprt_name_pos ex_archive_sprt r)) ∧
        (4 ≤ U32LE_FROM_BUF ex_archive_sprt r →
          e.name = (ex_archive_sprt.drop (U32LE_FROM_BUF ex_archive_sprt r)).take
            (U32LE_FROM_BUF ex_archive_sprt (U32LE_FROM_BUF ex_archive_sprt r - 4))) ∧
        (U32LE_FROM_BUF ex_archive_sprt r < 4 → 4294967296 ≤ ex_archive_sprt.length)) :=
  ⟨by unfold gm_bytes_ok; decide, by decide,
    gm_sprt_reader_result ex_archive_sprt 16 [ex_sprite] (by unfold gm_bytes_ok; decide)
      (by decide)⟩

/-! ## Reading a file that is longer than 4 GiB -/

theorem gm_fread_append_left (a b : List Nat) (p n : Nat) (h : p + n ≤ a.length) :
    gm_fread (a ++ b) p n = gm_fread a p n := by
  unfold gm_fread
  by_cases hn : n = 0
  · rw [if_pos hn, if_pos hn]
  · rw [if_neg hn, if_neg hn, if_pos h, if_pos (by rw [List.length_append]; omega),
      List.drop_append_of_le_length (by omega),
      List.take_append_of_le_length (by rw [List.length_drop]; omega)]

theorem gm_fread_append_right (a b : List Nat) (p q n : Nat) (h : p = a.length + q) :
    gm_fread (a ++ b) p n = gm_fread b q n := by
  subst h
  unfold gm_fread
  rw [List.drop_append, List.length_append]
  by_cases hn : n = 0
  · rw [if_pos hn, if_pos hn]
  · rw [if_neg hn, if_neg hn]
    by_cases hl : q + n ≤ b.length
    · rw [if_pos hl, if_pos (by omega)]
    · rw [if_neg hl, if_neg (by omega)]

theorem gm_read_index_sprt_one (game : List Nat) (pos r : Nat) (b1 b2 : List Nat)
    (e : gm_entry) (h1 : gm_fread game pos 4 = some b1) (hc : U32LE_FROM_BUF b1 0 = 1)
    (h2 : gm_fread game (pos + 4) 4 = some b2) (hr : U32LE_FROM_BUF b2 0 = r)
    (h9 : gm_read_sprt_entry game r = some e) :
    gm_read_index_sprt game pos = some [e] := by
  unfold gm_read_index_sprt
  rw [h1]
  dsimp only
  rw [hc, gm_read_sprt_loop, h2]
  dsimp only
  rw [hr, h9]
  rfl

set_option maxRecDepth 8000 in
theorem gm_read_sprt_big (z : List Nat) (hz : z.length = 4294967162) :
    gm_read_index_sprt (ex_sprt_big_head ++ (z ++ [1, 0, 0, 0, 65])) 16 =
      some [ex_sprite_big] := by
  have hl : ex_sprt_big_head.length = 130 := by decide
  have h1 : gm_fread (ex_sprt_big_head ++ (z ++ [1, 0, 0, 0, 65])) 16 4 = some [1, 0, 0, 0] := by
    rw [gm_fread_append_left _ _ _ _ (by omega)]
    decide
  have h2 : gm_fread (ex_sprt_big_head ++ (z ++ [1, 0, 0, 0, 65])) 20 4 =
      some [24, 0, 0, 0] := by
    rw [gm_fread_append_left _ _ _ _ (by omega)]
    decide
  have h3 : gm_fread (ex_sprt_big_head ++ (z ++ [1, 0, 0, 0, 65])) 24 80 =
      some ((ex_sprt_big_head.drop 24).take 80) := by
    rw [gm_fread_append_left _ _ _ _ (by omega)]
    decide
  have h4 : gm_fread (ex_sprt_big_head ++ (z ++ [1, 0, 0, 0, 65])) 104 4 =
      some [108, 0, 0, 0] := by
    rw [gm_fread_append_left _ _ _ _ (by omega)]
    decide
  have h5 : gm_fread (ex_sprt_big_head ++ (z ++ [1, 0, 0, 0, 65])) 108 22 =
      some ((ex_sprt_big_head.drop 108).take 22) := by
    rw [gm_fread_append_left _ _ _ _ (by omega)]
    decide
  have h6 : gm_fread (ex_sprt_big_head ++ (z ++ [1, 0, 0, 0, 65])) 4294967292 4 =
      some [1, 0, 0, 0] := by
    rw [gm_fread_append_right _ _ 4294967292 4294967162 _ (by omega),
      gm_fread_append_right _ _ 4294967162 0 _ (by omega)]
    decide
  have h7 : gm_fread (ex_sprt_big_head ++ (z ++ [1, 0, 0, 0, 65])) 4294967296 1 =
      some [65] := by
    rw [gm_fread_append_right _ _ 4294967296 4294967166 _ (by omega),
      gm_fread_append_right _ _ 4294967166 4 _ (by omega)]
    decide
  have h8 : gm_read_tpag (ex_sprt_big_head ++ (z ++ [1, 0, 0, 0, 65])) 108 =
      some { x := 10, y := 20, width := 32, height := 32, txtr_index := 0 } := by
    unfold gm_read_tpag
    rw [h5]
    decide
  have h9 : gm_read_sprt_entry (ex_sprt_big_head ++ (z ++ [1, 0, 0, 0, 65])) 24 =
      some ex_sprite_big := by
    have hb0 : U32LE_FROM_BUF ((ex_sprt_big_head.drop 24).take 80) 0 = 0 := by decide
    have hb76 : U32LE_FROM_BUF ((ex_sprt_big_head.drop 24).take 80) 76 = 1 := by decide
    have hw : u32_wrap (((0 : Nat) : Int) - 4) = 4294967292 := by decide
    have ht : gm_read_tpags (ex_sprt_big_head ++ (z ++ [1, 0, 0, 0, 65])) [108, 0, 0, 0] 0 1 =
        some [{ x := 10, y := 20, width := 32, height := 32, txtr_index := 0 }] := by
      unfold gm_read_tpags
      rw [if_neg (by decide), show U32LE_FROM_BUF [108, 0, 0, 0] (0 * 4) = 108 from by decide, h8]
      rfl
    unfold gm_read_sprt_entry
    rw [h3]
    dsimp only
    rw [hb0, hb76, if_neg (by decide), if_neg (by decide),
      show u32_wrap (((1 : Nat) : Int) * 4) = 4 from by decide, h4]
    dsimp only
    rw [ht]
    dsimp only
    rw [hw, h6]
    dsimp only
    rw [show U32LE_FROM_BUF [1, 0, 0, 0] 0 = 1 from by decide, if_neg (by decide), h7]
    rfl
  exact gm_read_index_sprt_one _ 16 24 _ _ _ h1 (by decide) h2 (by decide) h9

theorem gm_u32_append_left (a b : List Nat) (p : Nat) (h : p + 4 ≤ a.length) :
    U32LE_FROM_BUF (a ++ b) p = U32LE_FROM_BUF a p := by
  unfold U32LE_FROM_BUF
  rw [List.getD_append _ _ _ _ (by omega), List.getD_append _ _ _ _ (by omega),
    List.getD_append _ _ _ _ (by omega), List.getD_append _ _ _ _ (by omega)]

theorem gm_read_sprt_entry_range (game : List Nat) (r : Nat)
    (h : U32LE_FROM_BUF game r > INT32_MAX) : gm_read_sprt_entry game r = none := by
  cases he : gm_read_sprt_entry game r with
  | none => rfl
  | some e =>
    obtain ⟨-, hmax, -⟩ := gm_read_sprt_entry_spec game r e he
    omega

theorem gm_read_sprt_entry_short (game : List Nat) (r : Nat)
    (h : U32LE_FROM_BUF game r < 4) (hlen : game.length < 4294967296) :
    gm_read_sprt_entry game r = none := by
  cases he : gm_read_sprt_entry game r with
  | none => rfl
  | some e =>
    obtain ⟨-, -, -, -, -, -, hfit, -⟩ := gm_read_sprt_entry_spec game r e he
    have e1 : u32_wrap ((U32LE_FROM_BUF game r : Int) - 4) =
        4294967292 + U32LE_FROM_BUF game r := by
      unfold u32_wrap
      rw [if_neg (by omega)]
      omega
    rw [e1] at hfit
    omega

set_option maxRecDepth 8000 in
/-- C25. Sprite name offset below 4 is read: in the file `ex_archive_sprt_big` (4 GiB + 1
byte) the sprite record at offset 24, which the table slot at offset 20 points to, has
`name_string_offset = 0`, and `gm_read_index_sprt` succeeds on the SPRT payload at offset 16:
the test `str_offset > INT32_MAX && str_offset >= 4` lets the offset pass, the length is read
at `(uint32_t)(0 - 4) = 4294967292` and the name, the byte 65, at offset 4294967296. -/
theorem gm_sprt_name_offset_below_four :
    U32LE_FROM_BUF ex_archive_sprt_big 20 = 24 ∧
    U32LE_FROM_BUF ex_archive_sprt_big 24 = 0 ∧
    gm_read_index_sprt ex_archive_sprt_big 16 = some [ex_sprite_big] := by
  refine ⟨?_, ?_, ?_⟩
  · unfold ex_archive_sprt_big
    rw [gm_u32_append_left _ _ _ (by decide)]
    decide
  · unfold ex_archive_sprt_big
    rw [gm_u32_append_left _ _ _ (by decide)]
    decide
  · exact gm_read_sprt_big _ (List.length_replicate _ _)

set_option maxRecDepth 8000 in
/-- The name clause of C24 on `ex_archive_sprt_big`: the sprite record at offset 24 has
`name_string_offset = 0`; the reader succeeds and the name it stores is the byte 65, read at
offset 4294967296 behind the length field at 4294967292, while the byte at the offset
`name_string_offset` itself is 70, the `F` of the FORM magic. -/
theorem gm_sprt_name_not_at_offset :
    U32LE_FROM_BUF ex_archive_sprt_big 20 = 24 ∧
    U32LE_FROM_BUF ex_archive_sprt_big 24 = 0 ∧
    gm_read_index_sprt ex_archive_sprt_big 16 = some [ex_sprite_big] ∧
    ex_sprite_big.name = [65] ∧
    (ex_archive_sprt_big.drop 0).take 1 = [70] ∧
    (ex_archive_sprt_big.drop 4294967296).take 1 = [65] := by
  refine ⟨?_, ?_, gm_read_sprt_big _ (List.length_replicate _ _), by decide, ?_, ?_⟩
  · unfold ex_archive_sprt_big
    rw [gm_u32_append_left _ _ _ (by decide)]
    decide
  · unfold ex_archive_sprt_big
    rw [gm_u32_append_left _ _ _ (by decide)]
    decide
  · unfold ex_archive_sprt_big
    rw [List.drop_zero, List.take_append_of_le_length (by decide)]
    decide
  · have hl : ex_sprt_big_head.length = 130 := by decide
    unfold ex_archive_sprt_big
    rw [List.drop_append_eq_append_drop, List.drop_of_length_le (by omega), List.nil_append,
      hl, List.drop_append_eq_append_drop, List.drop_of_length_le
        (by rw [List.length_replicate]; omega), List.nil_append, List.length_replicate]
    decide

set_option maxRecDepth 8000 in
theorem gm_read_sprt_far (z : List Nat) (hz : z.length = 2147483594) :
    gm_read_index_sprt (ex_sprt_far_head ++ (z ++ ex_sprt_far_record)) 16 =
      some [ex_sprite] := by
  have hl : ex_sprt_far_head.length = 54 := by decide
  have h1 : gm_fread (ex_sprt_far_head ++ (z ++ ex_sprt_far_record)) 16 4 =
      some [1, 0, 0, 0] := by
    rw [gm_fread_append_left _ _ _ _ (by omega)]
    decide
  have h2 : gm_fread (ex_sprt_far_head ++ (z ++ ex_sprt_far_record)) 20 4 =
      some [0, 0, 0, 128] := by
    rw [gm_fread_append_left _ _ _ _ (by omega)]
    decide
  have h3 : gm_fread (ex_sprt_far_head ++ (z ++ ex_sprt_far_record)) 2147483648 80 =
      some (ex_sprt_far_record.take 80) := by
    rw [gm_fread_append_right _ _ 2147483648 2147483594 _ (by omega),
      gm_fread_append_right _ _ 2147483594 0 _ (by omega)]
    decide
  have h4 : gm_fread (ex_sprt_far_head ++ (z ++ ex_sprt_far_record)) 2147483728 4 =
      some [24, 0, 0, 0] := by
    rw [gm_fread_append_right _ _ 2147483728 2147483674 _ (by omega),
      gm_fread_append_right _ _ 2147483674 80 _ (by omega)]
    decide
  have h5 : gm_fread (ex_sprt_far_head ++ (z ++ ex_sprt_far_record)) 24 22 =
      some ((ex_sprt_far_head.drop 24).take 22) := by
    rw [gm_fread_append_left _ _ _ _ (by omega)]
    decide
  have h6 : gm_fread (ex_sprt_far_head ++ (z ++ ex_sprt_far_record)) 46 4 =
      some [3, 0, 0, 0] := by
    rw [gm_fread_append_left _ _ _ _ (by omega)]
    decide
  have h7 : gm_fread (ex_sprt_far_head ++ (z ++ ex_sprt_far_record)) 50 3 =
      some [115, 112, 114] := by
    rw [gm_fread_append_left _ _ _ _ (by omega)]
    decide
  have h8 : gm_read_tpag (ex_sprt_far_head ++ (z ++ ex_sprt_far_record)) 24 =
      some { x := 10, y := 20, width := 32, height := 32, txtr_index := 0 } := by
    unfold gm_read_tpag
    rw [h5]
    decide
  have h9 : gm_read_sprt_entry (ex_sprt_far_head ++ (z ++ ex_sprt_far_record)) 2147483648 =
      some ex_sprite := by
    have hb0 : U32LE_FROM_BUF (ex_sprt_far_record.take 80) 0 = 50 := by decide
    have hb76 : U32LE_FROM_BUF (ex_sprt_far_record.take 80) 76 = 1 := by decide
    have hw : u32_wrap (((50 : Nat) : Int) - 4) = 46 := by decide
    have ht : gm_read_tpags (ex_sprt_far_head ++ (z ++ ex_sprt_far_record)) [24, 0, 0, 0] 0 1 =
        some [{ x := 10, y := 20, width := 32, height := 32, txtr_index := 0 }] := by
      unfold gm_read_tpags
      rw [if_neg (by decide), show U32LE_FROM_BUF [24, 0, 0, 0] (0 * 4) = 24 from by decide, h8]
      rfl
    unfold gm_read_sprt_entry
    rw [h3]
    dsimp only
    rw [hb0, hb76, if_neg (by decide), if_neg (by decide),
      show u32_wrap (((1 : Nat) : Int) * 4) = 4 from by decide, h4]
    dsimp only
    rw [ht]
    dsimp only
    rw [hw, h6]
    dsimp only
    rw [show U32LE_FROM_BUF [3, 0, 0, 0] 0 = 3 from by decide, if_neg (by decide), h7]
    rfl
  exact gm_read_index_sprt_one _ 16 2147483648 _ _ _ h1 (by decide) h2 (by decide) h9

set_option maxRecDepth 8000 in
theorem gm_read_index_far (png : png_sniffer) (z : List Nat) (hz : z.length = 2147483594) :
    gm_read_index png (ex_sprt_far_head ++ (z ++ ex_sprt_far_record)) =
      some ex_index_sprt_far := by
  have hl : ex_sprt_far_head.length = 54 := by decide
  have h0 : gm_fread (ex_sprt_far_head ++ (z ++ ex_sprt_far_record)) 0 8 =
      some [70, 79, 82, 77, 46, 0, 0, 0] := by
    rw [gm_fread_append_left _ _ _ _ (by omega)]
    decide
  have h1 : gm_fread (ex_sprt_far_head ++ (z ++ ex_sprt_far_record)) 8 8 =
      some [83, 80, 82, 84, 38, 0, 0, 0] := by
    rw [gm_fread_append_left _ _ _ _ (by omega)]
    decide
  have hsec : gm_read_section png (ex_sprt_far_head ++ (z ++ ex_sprt_far_record)) GM_SPRT 16 =
      some [ex_sprite] := gm_read_sprt_far z hz
  unfold gm_read_index
  rw [h0]
  dsimp only
  rw [if_neg (by decide), show U32LE_FROM_BUF [70, 79, 82, 77, 46, 0, 0, 0] 4 = 46 from by decide]
  unfold gm_read_index_loop
  rw [if_pos (by decide), h1]
  dsimp only
  rw [show gm_parse_section [83, 80, 82, 84, 38, 0, 0, 0] = GM_SPRT from by decide,
    show U32LE_FROM_BUF [83, 80, 82, 84, 38, 0, 0, 0] 4 = 38 from by decide,
    if_neg (by decide), if_neg (by decide), if_neg (by decide), if_neg (by decide), hsec]
  dsimp only
  unfold gm_read_index_loop
  rw [if_neg (by decide)]
  rfl

/-! ## Dumping -/

theorem gm_join_path_two (a b : String) : gm_join_path [a, b] = a ++ "/" ++ b := rfl

theorem gm_dump_name_eq (i : Nat) (t : gm_filetype) :
    gm_dump_name i (gm_extension t) = gm_listing_name i t := by
  unfold gm_dump_name gm_listing_name
  have e1 : gm_extension t = (if t = GM_PNG then ".png" else if t = GM_WAVE then ".wav"
      else if t = GM_OGG then ".ogg" else ".bin") := by
    cases t <;> rfl
  rw [e1]
  congr 1

theorem gm_file_write_end (d bytes : List Nat) : gm_file_write d d.length bytes = d ++ bytes := by
  unfold gm_file_write
  rw [List.take_length, Nat.sub_self, List.drop_of_length_le (by omega)]
  simp

theorem gm_copy_loop_fresh (src : List Nat) (fuel : Nat) :
    ∀ (srcpos size : Nat) (s s1 : gm_out), s.pos = s.data.length →
      gm_copy_loop src fuel srcpos size s = some s1 →
      s1.data = s.data ++ (src.drop srcpos).take size ∧ s1.pos = s1.data.length ∧
        s1.data.length = s.data.length + size := by
  induction fuel with
  | zero =>
    intro srcpos size s s1 hp h
    unfold gm_copy_loop at h
    split at h
    · cases h
    · rename_i hz
      have : size = 0 := by omega
      subst this
      simp only [Option.some.injEq] at h
      subst h
      simp [hp]
  | succ n ih =>
    intro srcpos size s s1 hp h
    unfold gm_copy_loop at h
    split at h
    · rename_i hpos
      split at h
      · cases h
      · rename_i s2 hs2
        obtain ⟨d1, d2⟩ := gm_io_data s s2 hs2
        split at h
        · cases h
        · rename_i buf hbuf
          split at h
          · cases h
          · rename_i s3 hs3
            obtain ⟨f1, f2, f3, f4⟩ := gm_fread_eq _ _ _ _ hbuf
            obtain ⟨w1, w2⟩ := gm_fwrite_data _ _ _ hs3
            rw [d1, d2, hp, gm_file_write_end] at w1
            rw [d2, hp] at w2
            generalize hn : (if size ≥ BUFSIZ then BUFSIZ else size) = m at *
            have hnle : m ≤ size := by rw [← hn]; split <;> omega
            have h3p : s3.pos = s3.data.length := by
              rw [w2, w1, List.length_append]
            obtain ⟨i1, i2, i3⟩ := ih _ _ s3 s1 h3p h
            rw [w1] at i1 i3
            refine ⟨?_, i2, ?_⟩
            · rw [i1, List.append_assoc, f3]
              congr 1
              have hsz : size = m + (size - m) := by omega
              conv_rhs => rw [hsz]
              rw [List.take_add, List.drop_drop]
            · rw [i3, List.length_append, f4]
              omega
    · rename_i hz
      have : size = 0 := by omega
      subst this
      simp only [Option.some.injEq] at h
      subst h
      simp [hp]

theorem gm_copydata_fresh (src : List Nat) (srcoff : Int) (size : Nat) (s s1 : gm_out)
    (hs : s.data = []) (h : gm_copydata src srcoff 0 size s = some s1) :
    0 ≤ srcoff ∧ s1.data = (src.drop srcoff.toNat).take size ∧ s1.data.length = size := by
  unfold gm_copydata at h
  split at h
  · cases h
  · rename_i hoff
    split at h
    · cases h
    · rename_i s2 hs2
      obtain ⟨d1, -⟩ := gm_io_data s s2 hs2
      split at h
      · cases h
      · rename_i s3 hs3
        obtain ⟨-, k1, k2⟩ := gm_fseeko_data _ _ _ hs3
        rw [d1, hs] at k1
        have hp : s3.pos = s3.data.length := by
          rw [k2, k1]
          rfl
        obtain ⟨i1, -, i3⟩ := gm_copy_loop_fresh src size _ _ s3 s1 hp h
        rw [k1] at i1 i3
        refine ⟨by omega, ?_, ?_⟩
        · rw [i1, List.nil_append]
        · rw [i3]
          simp

theorem gm_copydata_fresh_ok (src : List Nat) (srcoff : Int) (size : Nat) (h0 : 0 ≤ srcoff)
    (hfit : srcoff + (size : Int) ≤ (src.length : Int)) :
    gm_copydata src srcoff 0 size { data := [], pos := 0, fault := none } =
      some { data := (src.drop srcoff.toNat).take size, pos := size, fault := none } := by
  unfold gm_copydata
  rw [if_neg (by omega), gm_io_nofault]
  simp only
  rw [gm_fseeko_nofault _ _ _ (by omega)]
  simp only [Int.toNat_zero]
  have hlen : ((src.drop srcoff.toNat).take size).length = size := by
    rw [List.length_take, List.length_drop]
    omega
  have := gm_copy_loop_sync_src src ((src.drop srcoff.toNat).take size) size size 0 0
    srcoff.toNat (Nat.le_refl _) (Nat.zero_le _) (by omega) (by omega)
    (by rw [List.drop_zero, List.take_take, Nat.min_self]) (fun i h1 h2 => absurd h2 (by omega))
  rw [List.take_zero, Nat.zero_add] at this
  rw [this]
  congr 2
  by_cases hz : size = 0
  · subst hz
    simp
  · rw [if_neg hz, Nat.max_eq_right (Nat.zero_le _), List.take_take, Nat.min_self]

theorem gm_dump_entry_spec (game : List Nat) (subdir : String) (i : Nat) (e : gm_entry)
    (fault fault1 : Option Nat) (file : String × List Nat)
    (h : gm_dump_entry game subdir i e fault = some (file, fault1)) :
    file = (subdir ++ "/" ++ gm_listing_name i e.type, (game.drop e.offset.toNat).take e.size) ∧
      0 ≤ e.offset ∧ file.2.length = e.size := by
  unfold gm_dump_entry at h
  split at h
  · cases h
  · split at h
    · cases h
    · rename_i s1 hs1
      obtain ⟨d1, -⟩ := gm_io_data _ s1 hs1
      split at h
      · cases h
      · rename_i s2 hs2
        obtain ⟨c1, c2, c3⟩ := gm_copydata_fresh game _ _ s1 s2 d1 hs2
        split at h
        · cases h
        · rename_i s3 hs3
          obtain ⟨d3, -⟩ := gm_io_data _ s3 hs3
          simp only [Option.some.injEq, Prod.mk.injEq] at h
          obtain ⟨hf, -⟩ := h
          subst hf
          rw [gm_join_path_two, gm_dump_name_eq, d3, c2]
          refine ⟨rfl, c1, ?_⟩
          simp only
          rw [← c2]
          exact c3

theorem gm_dump_entries_spec (game : List Nat) (subdir : String) (es : List gm_entry) :
    ∀ (i : Nat) (fault fault1 : Option Nat) (files : List (String × List Nat)),
      gm_dump_entries game subdir i es fault = some (files, fault1) →
      files = gm_listing_entries game subdir i es ∧
        ∀ e ∈ es, 0 ≤ e.offset ∧
          ((game.drop e.offset.toNat).take e.size).length = e.size := by
  induction es with
  | nil =>
    intro i fault fault1 files h
    simp only [gm_dump_entries, Option.some.injEq, Prod.mk.injEq] at h
    rw [← h.1]
    exact ⟨rfl, fun e he => by cases he⟩
  | cons e rest ih =>
    intro i fault fault1 files h
    unfold gm_dump_entries at h
    split at h
    · cases h
    · rename_i file fault2 hfile
      split at h
      · cases h
      · rename_i files1 fault3 hrest
        simp only [Option.some.injEq, Prod.mk.injEq] at h
        obtain ⟨hf, -⟩ := h
        subst hf
        obtain ⟨h1, h2, h3⟩ := gm_dump_entry_spec game subdir i e _ _ file hfile
        obtain ⟨h4, h5⟩ := ih _ _ _ _ hrest
        refine ⟨?_, ?_⟩
        · rw [h1, h4]
          rfl
        · intro x hx
          rcases List.mem_cons.mp hx with rfl | hx
          · refine ⟨h2, ?_⟩
            rw [h1] at h3
            exact h3
          · exact h5 x hx

theorem gm_dump_dir_cases (s : gm_section) :
    (s = GM_TXTR ∧ gm_dump_dir s = some "txtr") ∨ (s = GM_AUDO ∧ gm_dump_dir s = some "audo") ∨
      (s ≠ GM_TXTR ∧ s ≠ GM_AUDO ∧ gm_dump_dir s = none) := by
  cases s <;> simp [gm_dump_dir]

theorem gm_dump_files_spec (game : List Nat) (outdir : String) (index : List gm_index) :
    ∀ (fault : Option Nat) (files : List (String × List Nat)),
      gm_dump_files game outdir index fault = some files →
      files = gm_dump_listing game outdir index ∧
        ∀ c ∈ index, c.sect = GM_TXTR ∨ c.sect = GM_AUDO → ∀ e ∈ c.entries,
          0 ≤ e.offset ∧ ((game.drop e.offset.toNat).take e.size).length = e.size := by
  induction index with
  | nil =>
    intro fault files h
    simp only [gm_dump_files, Option.some.injEq] at h
    rw [← h]
    exact ⟨rfl, fun c hc => by cases hc⟩
  | cons c rest ih =>
    intro fault files h
    unfold gm_dump_files at h
    unfold gm_dump_listing
    rcases gm_dump_dir_cases c.sect with ⟨hs, hd⟩ | ⟨hs, hd⟩ | ⟨hs1, hs2, hd⟩
    · rw [hd] at h
      dsimp only at h
      split at h
      · cases h
      · rename_i s1 hs1
        split at h
        · cases h
        · rename_i files1 fault1 hent
          split at h
          · cases h
          · rename_i more hmore
            simp only [Option.some.injEq] at h
            obtain ⟨e1, e2⟩ := gm_dump_entries_spec game _ _ _ _ _ _ hent
            obtain ⟨e3, e4⟩ := ih _ _ hmore
            rw [gm_join_path_two] at e1
            rw [if_pos hs, ← h, e1, e3]
            refine ⟨rfl, ?_⟩
            intro d hd1 hd2
            rcases List.mem_cons.mp hd1 with rfl | hd1
            · exact e2
            · exact e4 d hd1 hd2
    · rw [hd] at h
      dsimp only at h
      split at h
      · cases h
      · rename_i s1 hs1
        split at h
        · cases h
        · rename_i files1 fault1 hent
          split at h
          · cases h
          · rename_i more hmore
            simp only [Option.some.injEq] at h
            obtain ⟨e1, e2⟩ := gm_dump_entries_spec game _ _ _ _ _ _ hent
            obtain ⟨e3, e4⟩ := ih _ _ hmore
            rw [gm_join_path_two] at e1
            rw [if_neg (by rw [hs]; decide), if_pos hs, ← h, e1, e3]
            refine ⟨rfl, ?_⟩
            intro d hd1 hd2
            rcases List.mem_cons.mp hd1 with rfl | hd1
            · exact e2
            · exact e4 d hd1 hd2
    · rw [hd] at h
      dsimp only at h
      obtain ⟨e3, e4⟩ := ih _ _ h
      rw [if_neg hs1, if_neg hs2, List.nil_append]
      refine ⟨e3, ?_⟩
      intro d hd1 hd2
      rcases List.mem_cons.mp hd1 with rfl | hd1
      · rcases hd2 with h1 | h1
        · exact absurd h1 hs1
        · exact absurd h1 hs2
      · exact e4 d hd1 hd2

theorem gm_dump_name_length (i : Nat) (t : gm_filetype) (hi : i ≤ 18446744073709551615) :
    (gm_dump_name i (gm_extension t)).length < gm_filename_size := by
  have hd : (Nat.toDigits 10 i).length ≤ 20 :=
    Nat.toDigitsCore_length 10 (by decide) (i + 1) i 20 (by omega) (by decide)
  have he : (gm_extension t).length = 4 := by cases t <;> rfl
  unfold gm_dump_name gm_filename_size
  rw [String.length_append, he, String.length_mk, List.length_append, List.length_replicate]
  omega

theorem gm_dump_entry_ok (game : List Nat) (subdir : String) (i : Nat) (e : gm_entry)
    (hi : i ≤ 18446744073709551615) (h0 : 0 ≤ e.offset)
    (hfit : e.offset + (e.size : Int) ≤ (game.length : Int)) :
    gm_dump_entry game subdir i e none =
      some ((subdir ++ "/" ++ gm_listing_name i e.type,
        (game.drop e.offset.toNat).take e.size), none) := by
  unfold gm_dump_entry
  rw [if_neg (by have := gm_dump_name_length i e.type hi; omega), gm_io_nofault]
  dsimp only
  rw [gm_copydata_fresh_ok game _ _ h0 hfit]
  dsimp only
  rw [gm_io_nofault, gm_join_path_two, gm_dump_name_eq]

theorem gm_dump_entries_ok (game : List Nat) (subdir : String) (es : List gm_entry) :
    ∀ (i : Nat), i + es.length ≤ 18446744073709551616 →
      (∀ e ∈ es, 0 ≤ e.offset ∧ e.offset + (e.size : Int) ≤ (game.length : Int)) →
      gm_dump_entries game subdir i es none =
        some (gm_listing_entries game subdir i es, none) := by
  induction es with
  | nil =>
    intro i _ _
    rfl
  | cons e rest ih =>
    intro i hi hfit
    unfold gm_dump_entries gm_listing_entries
    have hl : (e :: rest).length = rest.length + 1 := rfl
    obtain ⟨h0, h1⟩ := hfit e (List.mem_cons_self _ _)
    rw [gm_dump_entry_ok game subdir i e (by omega) h0 h1]
    dsimp only
    rw [ih (i + 1) (by omega) (fun x hx => hfit x (List.mem_cons_of_mem _ hx))]

theorem gm_dump_files_ok (game : List Nat) (outdir : String) (index : List gm_index)
    (h : gm_dumpable game index) :
    gm_dump_files game outdir index none = some (gm_dump_listing game outdir index) := by
  induction index with
  | nil => rfl
  | cons c rest ih =>
    have hrest : gm_dumpable game rest := fun d hd => h d (List.mem_cons_of_mem _ hd)
    unfold gm_dump_files gm_dump_listing
    rcases gm_dump_dir_cases c.sect with ⟨hs, hd⟩ | ⟨hs, hd⟩ | ⟨hs1, hs2, hd⟩
    · obtain ⟨hlen, hfit⟩ := h c (List.mem_cons_self _ _) (Or.inl hs)
      rw [hd]
      dsimp only
      rw [gm_io_nofault]
      dsimp only
      rw [gm_dump_entries_ok game _ _ 0 (by omega) hfit]
      dsimp only
      rw [ih hrest, if_pos hs, gm_join_path_two]
    · obtain ⟨hlen, hfit⟩ := h c (List.mem_cons_self _ _) (Or.inr hs)
      rw [hd]
      dsimp only
      rw [gm_io_nofault]
      dsimp only
      rw [gm_dump_entries_ok game _ _ 0 (by omega) hfit]
      dsimp only
      rw [ih hrest, if_neg (by rw [hs]; decide), if_pos hs, gm_join_path_two]
    · rw [hd]
      dsimp only
      rw [ih hrest, if_neg hs1, if_neg hs2, List.nil_append]

theorem gm_listing_entries_mem (game : List Nat) (subdir : String) (es : List gm_entry)
    (f : String × List Nat) :
    ∀ k, f ∈ gm_listing_entries game subdir k es ↔
      ∃ (i : Nat) (e : gm_entry), es[i]? = some e ∧
        f = (subdir ++ "/" ++ gm_listing_name (k + i) e.type,
          (game.drop e.offset.toNat).take e.size) := by
  induction es with
  | nil =>
    intro k
    simp [gm_listing_entries]
  | cons e rest ih =>
    intro k
    unfold gm_listing_entries
    rw [List.mem_cons, ih (k + 1)]
    constructor
    · rintro (h | ⟨i, x, hx, hf⟩)
      · exact ⟨0, e, by rw [List.getElem?_cons_zero], by rw [Nat.add_zero]; exact h⟩
      · refine ⟨i + 1, x, by rw [List.getElem?_cons_succ]; exact hx, ?_⟩
        rw [show k + (i + 1) = k + 1 + i from by omega]
        exact hf
    · rintro ⟨i, x, hx, hf⟩
      cases i with
      | zero =>
        rw [List.getElem?_cons_zero] at hx
        simp only [Option.some.injEq] at hx
        subst hx
        rw [Nat.add_zero] at hf
        exact Or.inl hf
      | succ i =>
        rw [List.getElem?_cons_succ] at hx
        refine Or.inr ⟨i, x, hx, ?_⟩
        rw [show k + 1 + i = k + (i + 1) from by omega]
        exact hf

theorem gm_dump_listing_mem (game : List Nat) (outdir : String) (index : List gm_index)
    (f : String × List Nat) :
    f ∈ gm_dump_listing game outdir index ↔
      ∃ c ∈ index, ∃ dir : String,
        ((c.sect = GM_TXTR ∧ dir = "txtr") ∨ (c.sect = GM_AUDO ∧ dir = "audo")) ∧
        ∃ (i : Nat) (e : gm_entry), c.entries[i]? = some e ∧
          f = (outdir ++ "/" ++ dir ++ "/" ++ gm_listing_name i e.type,
            (game.drop e.offset.toNat).take e.size) := by
  induction index with
  | nil => simp [gm_dump_listing]
  | cons c rest ih =>
    unfold gm_dump_listing
    rw [List.mem_append, ih]
    constructor
    · rintro (h | ⟨d, hd, dir, hdir, hrest⟩)
      · by_cases h1 : c.sect = GM_TXTR
        · rw [if_pos h1, gm_listing_entries_mem] at h
          obtain ⟨i, e, he, hf⟩ := h
          rw [Nat.zero_add] at hf
          exact ⟨c, List.mem_cons_self _ _, "txtr", Or.inl ⟨h1, rfl⟩, i, e, he, hf⟩
        · rw [if_neg h1] at h
          by_cases h2 : c.sect = GM_AUDO
          · rw [if_pos h2, gm_listing_entries_mem] at h
            obtain ⟨i, e, he, hf⟩ := h
            rw [Nat.zero_add] at hf
            exact ⟨c, List.mem_cons_self _ _, "audo", Or.inr ⟨h2, rfl⟩, i, e, he, hf⟩
          · rw [if_neg h2] at h
            cases h
      · exact ⟨d, List.mem_cons_of_mem _ hd, dir, hdir, hrest⟩
    · rintro ⟨d, hd, dir, hdir, i, e, he, hf⟩
      rcases List.mem_cons.mp hd with rfl | hd
      · left
        rcases hdir with ⟨h1, rfl⟩ | ⟨h2, rfl⟩
        · rw [if_pos h1, gm_listing_entries_mem]
          exact ⟨i, e, he, by rw [Nat.zero_add]; exact hf⟩
        · rw [if_neg (by rw [h2]; decide), if_pos h2, gm_listing_entries_mem]
          exact ⟨i, e, he, by rw [Nat.zero_add]; exact hf⟩
      · exact Or.inr ⟨d, hd, dir, hdir, i, e, he, hf⟩

/-- C29. Dump naming: when `gm_dump_files` succeeds, the files it wrote are those of
`gm_dump_listing`: a file is written exactly for every entry `i` of a TXTR chunk (under
`<outdir>/txtr`) and of an AUDO chunk (under `<outdir>/audo`), its name is the decimal
representation of `i` left-padded with `0` to at least 4 characters followed by `.png`,
`.wav`, `.ogg` or `.bin` according to the type of the entry, and its content is the
`entry.size` bytes of the archive that start at `entry.offset`.  It succeeds when no outside
call fails and the entries of the TXTR and AUDO chunks lie inside the file. -/
theorem gm_dump_naming (game : List Nat) (outdir : String) (index : List gm_index) :
    (∀ (fault : Option Nat) (files : List (String × List Nat)),
      gm_dump_files game outdir index fault = some files →
      files = gm_dump_listing game outdir index ∧
      ∀ f : String × List Nat, f ∈ files ↔
        ∃ c ∈ index, ∃ dir : String,
          ((c.sect = GM_TXTR ∧ dir = "txtr") ∨ (c.sect = GM_AUDO ∧ dir = "audo")) ∧
          ∃ (i : Nat) (e : gm_entry), c.entries[i]? = some e ∧
            f = (outdir ++ "/" ++ dir ++ "/" ++ gm_listing_name i e.type,
              (game.drop e.offset.toNat).take e.size) ∧
            0 ≤ e.offset ∧ f.2.length = e.size) ∧
    (gm_dumpable game index →
      gm_dump_files game outdir index none = some (gm_dump_listing game outdir index)) := by
  refine ⟨?_, gm_dump_files_ok game outdir index⟩
  intro fault files h
  obtain ⟨h1, h2⟩ := gm_dump_files_spec game outdir index fault files h
  refine ⟨h1, ?_⟩
  intro f
  rw [h1, gm_dump_listing_mem]
  constructor
  · rintro ⟨c, hc, dir, hdir, i, e, he, hf⟩
    have hsect : c.sect = GM_TXTR ∨ c.sect = GM_AUDO := by
      rcases hdir with ⟨h3, -⟩ | ⟨h3, -⟩
      · exact Or.inl h3
      · exact Or.inr h3
    obtain ⟨h4, h5⟩ := h2 c hc hsect e (List.getElem?_mem he)
    refine ⟨c, hc, dir, hdir, i, e, he, hf, h4, ?_⟩
    rw [hf]
    exact h5
  · rintro ⟨c, hc, dir, hdir, i, e, he, hf, -, -⟩
    exact ⟨c, hc, dir, hdir, i, e, he, hf⟩

set_option maxRecDepth 8000 in
/-- C29 (witness). The dump of `ex_archive` into `out` writes `out/txtr/0000.png` with the 4
bytes of the image and `out/audo/0000.ogg` with the 4 bytes of the Ogg blob. -/
theorem gm_dump_naming_witness :
    gm_dumpable ex_archive ex_archive_index ∧
    gm_dump_listing ex_archive "out" ex_archive_index =
      [("out/txtr/0000.png", [4, 64, 64, 9]), ("out/audo/0000.ogg", [79, 103, 103, 83])] ∧
    gm_dump_files ex_archive "out" ex_archive_index none =
      some (gm_dump_listing ex_archive "out" ex_archive_index) ∧
    (gm_dump_listing ex_archive "out" ex_archive_index =
        gm_dump_listing ex_archive "out" ex_archive_index ∧
      ∀ f : String × List Nat, f ∈ gm_dump_listing ex_archive "out" ex_archive_index ↔
        ∃ c ∈ ex_archive_index, ∃ dir : String,
          ((c.sect = GM_TXTR ∧ dir = "txtr") ∨ (c.sect = GM_AUDO ∧ dir = "audo")) ∧
          ∃ (i : Nat) (e : gm_entry), c.entries[i]? = some e ∧
            f = ("out" ++ "/" ++ dir ++ "/" ++ gm_listing_name i e.type,
              (ex_archive.drop e.offset.toNat).take e.size) ∧
            0 ≤ e.offset ∧ f.2.length = e.size) :=
  have hd : gm_dumpable ex_archive ex_archive_index := by
    intro c hc _
    simp only [ex_archive_index, List.mem_cons, List.mem_singleton, List.not_mem_nil,
      or_false] at hc
    rcases hc with rfl | rfl | rfl <;> decide
  ⟨hd, by decide, (gm_dump_naming ex_archive "out" ex_archive_index).2 hd,
    (gm_dump_naming ex_archive "out" ex_archive_index).1 none _
      ((gm_dump_naming ex_archive "out" ex_archive_index).2 hd)⟩

set_option maxRecDepth 8000 in
/-- C26. A sprite-record offset above `INT32_MAX` is accepted: in the file
`ex_archive_sprt_far` (2 GiB + 84 bytes) the only slot of the SPRT table, at offset 20, holds
the sprite-record offset 2147483648 = `INT32_MAX + 1`, and `gm_read_index` succeeds and yields
the sprite read from that offset: the offset goes to `fseeko` without a comparison with
`INT32_MAX`. -/
theorem gm_sprite_record_offset_unclamped :
    U32LE_FROM_BUF ex_archive_sprt_far 20 = 2147483648 ∧ 2147483648 > INT32_MAX ∧
    gm_read_index ex_sniffer ex_archive_sprt_far = some ex_index_sprt_far := by
  refine ⟨?_, by decide, ?_⟩
  · unfold ex_archive_sprt_far
    rw [gm_u32_append_left _ _ _ (by decide)]
    decide
  · exact gm_read_index_far ex_sniffer _ (List.length_replicate _ _)

/-! ## The signed-offset bound -/

theorem gm_read_index_loop_bound (png : png_sniffer) (game : List Nat) (stop : Nat)
    (fuel : Nat) :
    ∀ (offset count : Nat) (l : List gm_index),
      gm_read_index_loop png game stop fuel offset count = some l →
      ∀ c ∈ l, c.offset + 8 + (c.size : Int) ≤ (INT32_MAX : Int) := by
  induction fuel with
  | zero =>
    intro offset count l h c hc
    cases l with
    | nil => simp at hc
    | cons d rest =>
      obtain ⟨fuel1, -, hf, -⟩ := gm_read_index_loop_step _ _ _ _ _ _ _ _ h
      omega
  | succ n ih =>
    intro offset count l h c hc
    cases l with
    | nil => simp at hc
    | cons d rest =>
      obtain ⟨fuel1, buffer, hf, -, -, -, -, -, hoff, -, -, hmax, -, -, hrest⟩ :=
        gm_read_index_loop_step _ _ _ _ _ _ _ _ h
      have hfe : fuel1 = n := by omega
      subst hfe
      rcases List.mem_cons.mp hc with hcd | hcr
      · subst hcd
        rw [hoff]
        omega
      · exact ih _ _ rest hrest c hcr

/-- C40. Signed-offset bound on the whole archive: when `gm_read_index` succeeds, every chunk
satisfies `offset + 8 + payload_size ≤ INT32_MAX`; and `gm_read_index` fails on every archive
whose FORM size field is greater than `INT32_MAX - 8`, whatever follows the FORM header. -/
theorem gm_signed_offset_bound (png : png_sniffer) (game : List Nat) :
    (∀ index, gm_read_index png game = some index →
      ∀ c ∈ index, c.offset + 8 + (c.size : Int) ≤ (INT32_MAX : Int)) ∧
    (U32LE_FROM_BUF game 4 > INT32_MAX - 8 → gm_read_index png game = none) := by
  have hbound : ∀ index, gm_read_index png game = some index →
      ∀ c ∈ index, c.offset + 8 + (c.size : Int) ≤ (INT32_MAX : Int) := by
    intro index h
    unfold gm_read_index at h
    split at h
    · cases h
    · split at h
      · cases h
      · exact gm_read_index_loop_bound png game _ _ _ _ index h
  refine ⟨hbound, ?_⟩
  intro hbig
  cases h : gm_read_index png game with
  | none => rfl
  | some index =>
    exfalso
    obtain ⟨buffer, hread, htiles⟩ := gm_read_index_tiles png game index h
    have h4 := gm_u32_of_fread game 0 8 4 buffer hread (by omega)
    rw [Nat.zero_add] at h4
    rw [h4] at htiles
    obtain ⟨-, -, -, t4, -⟩ := gm_tiles_facts _ _ _ htiles
    cases hl : index.getLast? with
    | none =>
      rw [List.getLast?_eq_none_iff] at hl
      subst hl
      simp only [gm_tiles] at htiles
      unfold INT32_MAX at hbig
      omega
    | some c =>
      have h1 := t4 c hl
      have h2 := hbound index h c (List.mem_of_getLast?_eq_some hl)
      unfold INT32_MAX at hbig h2
      omega

set_option maxRecDepth 100000 in
/-- C40 (witness). The chunks of `ex_archive` end below `INT32_MAX`, and so do the 32 chunks
of `ex_archive_chunks 32`, which fill the chunk array; the archive `ex_archive_form_big`,
whose FORM size is `INT32_MAX - 7`, is rejected. -/
theorem gm_signed_offset_bound_witness :
    (gm_read_index ex_sniffer ex_archive = some ex_archive_index ∧
      ∀ c ∈ ex_archive_index, c.offset + 8 + (c.size : Int) ≤ (INT32_MAX : Int)) ∧
    (gm_read_index ex_sniffer (ex_archive_chunks 32) = some (ex_index_chunks 32) ∧
      (ex_index_chunks 32).length = 32 ∧
      ∀ c ∈ ex_index_chunks 32, c.offset + 8 + (c.size : Int) ≤ (INT32_MAX : Int)) ∧
    (U32LE_FROM_BUF ex_archive_form_big 4 > INT32_MAX - 8 ∧
      gm_read_index ex_sniffer ex_archive_form_big = none) :=
  ⟨⟨by decide, (gm_signed_offset_bound ex_sniffer ex_archive).1 ex_archive_index (by decide)⟩,
    ⟨by decide, by decide,
      (gm_signed_offset_bound ex_sniffer (ex_archive_chunks 32)).1 (ex_index_chunks 32)
        (by decide)⟩,
    by decide, (gm_signed_offset_bound ex_sniffer ex_archive_form_big).2 (by decide)⟩

/-! ## Failures of the planner -/

/-- C35. Validation failures are atomic: when `gm_patch_entry` is called on a TXTR or AUDO
chunk with a patch whose index is out of range, or whose entry is already patched, or whose
type differs from that of the parsed entry, or (for TXTR) whose dimensions differ, it fails
with `EINVAL` and the planned index after the call is the planned index before the call, for
the array from the chunk on and for the whole array. -/
theorem gm_validation_failure_atomic (patched : List gm_patched_index) (k : Nat)
    (c : gm_patched_index) (p : gm_patch)
    (hc : patched[k]? = some c) (hs : c.sect = GM_TXTR ∨ c.sect = GM_AUDO)
    (hbad : c.entries.length ≤ p.index ∨
      ∃ e, c.entries[p.index]? = some e ∧
        (e.patch ≠ none ∨ e.entry.type ≠ p.type ∨
          (c.sect = GM_TXTR ∧ (e.entry.width ≠ p.width ∨ e.entry.height ≠ p.height)))) :
    gm_patch_entry (c :: patched.drop (k + 1)) p =
      (gm_status.error EINVAL, c :: patched.drop (k + 1)) ∧
    gm_patch_at patched k p = (gm_status.error EINVAL, patched) := by
  have hmov : gm_movable c.sect = true := (gm_movable_iff c.sect).mpr hs
  have h1 : gm_patch_entry (c :: patched.drop (k + 1)) p =
      (gm_status.error EINVAL, c :: patched.drop (k + 1)) := by
    unfold gm_patch_entry
    simp only [hmov, if_true]
    rw [List.get?_eq_getElem?]
    rcases hbad with hlen | ⟨e, he, hcase⟩
    · rw [List.getElem?_eq_none hlen]
    · rw [he]
      dsimp only
      by_cases hp : e.patch.isSome = true
      · rw [if_pos hp]
      · rw [if_neg hp]
        by_cases ht : e.entry.type ≠ p.type
        · rw [if_pos ht]
        · rw [if_neg ht]
          rcases hcase with h | h | h
          · exfalso
            apply hp
            cases hq : e.patch with
            | none => exact absurd hq h
            | some q => rfl
          · exact absurd h ht
          · rw [if_pos h]
  refine ⟨h1, ?_⟩
  rw [gm_patch_at_eq patched k p c hc, h1]
  simp only
  rw [← gm_drop_eq_cons patched k c hc, List.take_append_drop]

/-- C35 (witness). The patch `ex_patch_dims` (64×32 for a 64×64 image) is refused on
`ex_txtr` and the planned index `[ex_txtr, ex_audo]` is as before. -/
theorem gm_validation_failure_atomic_witness :
    [ex_txtr, ex_audo][0]? = some ex_txtr ∧
    (ex_txtr.sect = GM_TXTR ∨ ex_txtr.sect = GM_AUDO) ∧
    gm_patch_entry (ex_txtr :: [ex_txtr, ex_audo].drop (0 + 1)) ex_patch_dims =
      (gm_status.error EINVAL, ex_txtr :: [ex_txtr, ex_audo].drop (0 + 1)) ∧
    gm_patch_at [ex_txtr, ex_audo] 0 ex_patch_dims =
      (gm_status.error EINVAL, [ex_txtr, ex_audo]) :=
  ⟨rfl, Or.inl rfl,
    gm_validation_failure_atomic [ex_txtr, ex_audo] 0 ex_txtr ex_patch_dims rfl (Or.inl rfl)
      (Or.inr ⟨ex_png_planned, rfl, Or.inr (Or.inr ⟨rfl, Or.inr (by decide)⟩)⟩)⟩

theorem gm_shift_tail_stops (pre post : List gm_patched_index) (u : gm_patched_index)
    (offset : Int) (hpre : ∀ x ∈ pre, gm_movable x.sect = true)
    (hu : gm_movable u.sect = false) :
    gm_shift_tail (pre ++ u :: post) offset =
      (gm_status.error ENOSYS, (pre.map fun x => gm_shift_chunk x offset) ++ u :: post) := by
  induction pre with
  | nil =>
    unfold gm_shift_tail
    simp only [List.nil_append, hu, Bool.false_eq_true, if_false, List.map_nil]
  | cons x rest ih =>
    have hx := hpre x (List.mem_cons_self _ _)
    rw [List.cons_append]
    unfold gm_shift_tail
    simp only [hx, if_true]
    rw [ih (fun y hy => hpre y (List.mem_cons_of_mem _ hy))]
    rfl

/-- C36. Cascade failures are not rolled back: when a TXTR/AUDO patch passes validation for
the entry `e` of chunk `c` and the chunks after `c` are `pre`, all TXTR or AUDO, followed by a
chunk `u` that is neither, `gm_patch_entry` fails with `ENOSYS` and leaves the planned index
modified: `c` has become `gm_patched_chunk` (entry `e` has the patch size and the patch
attached at its old offset, the payload size and the offsets of the siblings behind `e` are
changed by `delta`), every chunk of `pre` has its chunk offset and entry offsets changed by
`delta` (sums in `off_t` and `size_t`), and `u` and everything after it is unchanged. -/
theorem gm_cascade_not_rolled_back (c u : gm_patched_index) (pre post : List gm_patched_index)
    (p : gm_patch) (e : gm_patched_entry)
    (hs : c.sect = GM_TXTR ∨ c.sect = GM_AUDO)
    (he : c.entries[p.index]? = some e) (hp : e.patch = none) (ht : e.entry.type = p.type)
    (hd : c.sect = GM_TXTR → e.entry.width = p.width ∧ e.entry.height = p.height)
    (hpre : ∀ x ∈ pre, x.sect = GM_TXTR ∨ x.sect = GM_AUDO)
    (hu : u.sect ≠ GM_TXTR ∧ u.sect ≠ GM_AUDO) :
    gm_patch_entry (c :: (pre ++ u :: post)) p =
      (gm_status.error ENOSYS,
        gm_patched_chunk c p e ::
          ((pre.map fun x => gm_shift_chunk x (gm_delta p e)) ++ u :: post)) ∧
    (gm_patched_chunk c p e).offset = c.offset ∧
    (gm_patched_chunk c p e).size = size_wrap ((c.size : Int) + gm_delta p e) ∧
    (gm_patched_chunk c p e).entries[p.index]? =
      some { offset := e.offset, size := p.size, patch := some p, entry := e.entry } ∧
    (∀ (i : Nat) (o : gm_patched_entry), i ≠ p.index → c.entries[i]? = some o →
      (gm_patched_chunk c p e).entries[i]? = some
        (if o.offset > e.offset then { o with offset := off_wrap (o.offset + gm_delta p e) }
         else o)) ∧
    (∀ x ∈ pre, (gm_shift_chunk x (gm_delta p e)).offset = off_wrap (x.offset + gm_delta p e) ∧
      (gm_shift_chunk x (gm_delta p e)).size = x.size ∧
      (gm_shift_chunk x (gm_delta p e)).entries =
        x.entries.map fun o => { o with offset := off_wrap (o.offset + gm_delta p e) }) := by
  have hmov : gm_movable c.sect = true := (gm_movable_iff c.sect).mpr hs
  have hum : gm_movable u.sect = false := by
    cases hm : gm_movable u.sect with
    | false => rfl
    | true =>
      rcases (gm_movable_iff u.sect).mp hm with h | h
      · exact absurd h hu.1
      · exact absurd h hu.2
  have hil : p.index < c.entries.length := (List.getElem?_eq_some_iff.mp he).1
  refine ⟨?_, gm_patched_chunk_offset _ _ _, gm_patched_chunk_size _ _ _, ?_, ?_, ?_⟩
  · rw [gm_patch_entry_valid c _ p e hmov he hp ht hd,
      gm_shift_tail_stops pre post u _ (fun x hx => (gm_movable_iff x.sect).mpr (hpre x hx)) hum]
  · rw [gm_patched_chunk_entries]
    unfold gm_shift_siblings
    rw [List.getElem?_map, List.getElem?_set_self hil]
    simp
  · intro i o hi ho
    rw [gm_patched_chunk_entries]
    unfold gm_shift_siblings
    rw [List.getElem?_map, List.getElem?_set_ne (Ne.symm hi), ho]
    rfl
  · intro x _
    exact ⟨gm_shift_chunk_offset _ _, gm_shift_chunk_size _ _, gm_shift_chunk_entries _ _⟩

/-- C36 (witness). The patch `ex_patch_larger` (1500 bytes for 1234) on `ex_txtr`, followed by
the AUDO chunk `ex_audo` and the STRG chunk `ex_strg`: the call fails with `ENOSYS`, the TXTR
chunk is patched, the AUDO chunk has moved and the STRG chunk is as before. -/
theorem gm_cascade_not_rolled_back_witness :
    (ex_txtr.sect = GM_TXTR ∨ ex_txtr.sect = GM_AUDO) ∧
    ex_txtr.entries[ex_patch_larger.index]? = some ex_png_planned ∧
    ex_png_planned.patch = none ∧ ex_png_planned.entry.type = ex_patch_larger.type ∧
    (∀ x ∈ [ex_audo], x.sect = GM_TXTR ∨ x.sect = GM_AUDO) ∧
    (ex_strg.sect ≠ GM_TXTR ∧ ex_strg.sect ≠ GM_AUDO) ∧
    gm_patch_entry (ex_txtr :: ([ex_audo] ++ ex_strg :: [])) ex_patch_larger =
      (gm_status.error ENOSYS,
        gm_patched_chunk ex_txtr ex_patch_larger ex_png_planned ::
          (([ex_audo].map fun x => gm_shift_chunk x (gm_delta ex_patch_larger ex_png_planned)) ++
            ex_strg :: [])) :=
  ⟨Or.inl rfl, rfl, rfl, rfl, by decide, by decide,
    (gm_cascade_not_rolled_back ex_txtr ex_strg [ex_audo] [] ex_patch_larger ex_png_planned
      (Or.inl rfl) rfl rfl rfl (fun _ => ⟨rfl, rfl⟩) (by decide) (by decide)).1⟩

/-! ## The two audio classifiers -/

theorem gm_read_audo_info_spec (data : List Nat) (patch p : gm_patch)
    (h : gm_read_audo_info false data patch = some p) :
    p.type = gm_audo_type (data.take 12) (if data.length < 12 then data.length else 12) ∧
      p.sect = GM_AUDO ∧ p.size = data.length ∧ p.index = patch.index := by
  unfold gm_read_audo_info at h
  simp only [Bool.false_eq_true, if_false, Option.some.injEq] at h
  subst h
  exact ⟨rfl, rfl, rfl, rfl⟩

/-- C38. The two audio classifiers agree: when `gm_read_index_audo` has read the blob at table
offset `o` as entry `e` and the bytes of the blob are in the file, `gm_read_audo_info` gives a
replacement file with the content of the blob (the bytes that `gm_dump_files` writes for the
entry) the type and the size of `e`; and `gm_patch_entry` on an AUDO chunk whose entry at the
index of the patch is `e`, not yet patched, gets past the validation with that patch: its
status is that of `gm_shift_tail`, and nothing moves. -/
theorem gm_audo_classifiers_agree (game : List Nat) (o : Nat) (e : gm_entry)
    (patch p : gm_patch)
    (hread : gm_read_audo_entry game o = some e)
    (hfit : o + 4 + e.size ≤ game.length)
    (hinfo : gm_read_audo_info false ((game.drop e.offset.toNat).take e.size) patch = some p) :
    1 ≤ ((game.drop e.offset.toNat).take e.size).length ∧
    p.type = e.type ∧ p.size = e.size ∧ p.sect = GM_AUDO ∧
    ∀ (c : gm_patched_index) (rest : List gm_patched_index) (pe : gm_patched_entry),
      c.sect = GM_AUDO → c.entries[p.index]? = some pe → pe.entry = e → pe.patch = none →
      gm_delta p pe = 0 ∧
      gm_patch_entry (c :: rest) p =
        ((gm_shift_tail rest 0).1, gm_patched_chunk c p pe :: (gm_shift_tail rest 0).2) := by
  obtain ⟨-, hoff, -, hpos, htype⟩ := gm_read_audo_entry_spec game o e hread
  have hto : e.offset.toNat = o + 4 := by
    rw [hoff]
    exact Int.toNat_ofNat _
  rw [hto] at hinfo ⊢
  have hlen : ((game.drop (o + 4)).take e.size).length = e.size := by
    rw [List.length_take, List.length_drop]
    omega
  obtain ⟨h1, h2, h3, -⟩ := gm_read_audo_info_spec _ patch p hinfo
  rw [hlen] at h1 h3
  have htypes : p.type = e.type := by
    rw [h1, htype]
    by_cases h12 : e.size < 12
    · rw [if_pos h12, List.take_take, Nat.min_eq_right (by omega)]
    · rw [if_neg h12, List.take_take, Nat.min_eq_left (by omega)]
  refine ⟨by omega, htypes, h3, h2, ?_⟩
  intro c rest pe hc hpe hent hpatch
  have hdelta : gm_delta p pe = 0 := gm_delta_same_size p pe (by rw [h3, hent])
  refine ⟨hdelta, ?_⟩
  have hmov : gm_movable c.sect = true := by rw [hc]; rfl
  rw [gm_patch_entry_valid c rest p pe hmov hpe hpatch (by rw [hent, htypes])
    (fun h => by rw [hc] at h; cases h), hdelta]

/-- C38 (witness). The Ogg blob of `ex_archive`, fed back as a patch file, is classified as
OGG with size 4, as the entry `ex_archive_ogg`. -/
theorem gm_audo_classifiers_agree_witness :
    gm_read_audo_entry ex_archive 68 = some ex_archive_ogg ∧
    68 + 4 + ex_archive_ogg.size ≤ ex_archive.length ∧
    gm_read_audo_info false
        ((ex_archive.drop ex_archive_ogg.offset.toNat).take ex_archive_ogg.size)
        ex_patch_blank = some ex_patch_ogg_back ∧
    ex_patch_ogg_back.type = ex_archive_ogg.type ∧
    ex_patch_ogg_back.size = ex_archive_ogg.size :=
  ⟨by decide, by decide, by decide,
    (gm_audo_classifiers_agree ex_archive 68 ex_archive_ogg ex_patch_blank ex_patch_ogg_back
      (by decide) (by decide) (by decide)).2.1,
    (gm_audo_classifiers_agree ex_archive 68 ex_archive_ogg ex_patch_blank ex_patch_ogg_back
      (by decide) (by decide) (by decide)).2.2.1⟩

/-! ## Reads of zero bytes -/

theorem gm_read_audo_entry_ok (game : List Nat) (o : Nat)
    (h0 : 0 < U32LE_FROM_BUF game o)
    (hfit : o + 4 + min (U32LE_FROM_BUF game o) 12 ≤ game.length) :
    ∃ e, gm_read_audo_entry game o = some e := by
  unfold gm_read_audo_entry
  have hb := gm_fread_some game o 4 (by omega) (by omega)
  rw [hb]
  dsimp only
  have hu := gm_u32_of_fread game o 4 0 _ hb (by omega)
  rw [Nat.add_zero] at hu
  rw [hu]
  have hh := gm_fread_some game (o + 4)
    (if U32LE_FROM_BUF game o < 12 then U32LE_FROM_BUF game o else 12)
    (by split <;> omega) (by split <;> omega)
  rw [hh]
  exact ⟨_, rfl⟩

/-- C33. Audio blobs of size 0 are refused: `gm_read_index_audo` fails on every AUDO payload
in which the blob of some table slot has size 0 (the zero-byte header read does not return 1),
as on the blob of `ex_archive_audo_empty`; a blob of size 1, 2 or 3 whose bytes are in the file
is read, with type UNKNOWN and the stated size. -/
theorem gm_audo_short_blobs :
    (U32LE_FROM_BUF ex_archive_audo_empty 24 = 0 ∧
      gm_read_index_audo ex_archive_audo_empty 16 = none) ∧
    (∀ (game : List Nat) (pos i : Nat), i < U32LE_FROM_BUF game pos →
      U32LE_FROM_BUF game (U32LE_FROM_BUF game (pos + 4 + 4 * i)) = 0 →
      gm_read_index_audo game pos = none) ∧
    (∀ (game : List Nat) (o : Nat), 1 ≤ U32LE_FROM_BUF game o → U32LE_FROM_BUF game o ≤ 3 →
      o + 4 + U32LE_FROM_BUF game o ≤ game.length →
      ∃ e, gm_read_audo_entry game o = some e ∧ e.type = GM_UNKNOWN ∧
        e.size = U32LE_FROM_BUF game o) := by
  refine ⟨⟨by decide, by decide⟩, ?_, ?_⟩
  · intro game pos i hi hz
    cases h : gm_read_index_audo game pos with
    | none => rfl
    | some es =>
      obtain ⟨hlen, hget⟩ := gm_read_index_audo_get game pos es h
      have hil : i < es.length := by omega
      obtain ⟨-, hread⟩ := hget i es[i] (List.getElem?_eq_getElem hil)
      obtain ⟨-, -, hsize, hpos, -⟩ := gm_read_audo_entry_spec game _ _ hread
      omega
  · intro game o h1 h3 hfit
    obtain ⟨e, he⟩ := gm_read_audo_entry_ok game o (by omega) (by omega)
    obtain ⟨-, -, hsize, -, htype⟩ := gm_read_audo_entry_spec game o e he
    refine ⟨e, he, ?_, hsize⟩
    rw [htype, gm_audo_type_take, if_neg (by omega : ¬ (e.size ≥ 12 ∧ _)),
      if_neg (by omega : ¬ (e.size ≥ 4 ∧ _))]

/-- C33 (witness). The blob of size 0 of `ex_archive_audo_empty` makes the reader fail; the
blob of 3 bytes of `ex_archive_audo_short` is read as UNKNOWN. -/
theorem gm_audo_short_blobs_witness :
    (0 < U32LE_FROM_BUF ex_archive_audo_empty 16 ∧
      U32LE_FROM_BUF ex_archive_audo_empty
        (U32LE_FROM_BUF ex_archive_audo_empty (16 + 4 + 4 * 0)) = 0 ∧
      gm_read_index_audo ex_archive_audo_empty 16 = none) ∧
    (1 ≤ U32LE_FROM_BUF ex_archive_audo_short 24 ∧ U32LE_FROM_BUF ex_archive_audo_short 24 ≤ 3 ∧
      24 + 4 + U32LE_FROM_BUF ex_archive_audo_short 24 ≤ ex_archive_audo_short.length ∧
      ∃ e, gm_read_audo_entry ex_archive_audo_short 24 = some e ∧ e.type = GM_UNKNOWN ∧
        e.size = U32LE_FROM_BUF ex_archive_audo_short 24) :=
  ⟨⟨by decide, by decide,
      gm_audo_short_blobs.2.1 ex_archive_audo_empty 16 0 (by decide) (by decide)⟩,
    by decide, by decide, by decide,
    gm_audo_short_blobs.2.2 ex_archive_audo_short 24 (by decide) (by decide) (by decide)⟩

set_option maxRecDepth 8000 in
/-- C32. Sprites without texture pages are refused: `gm_read_index_sprt` fails on every SPRT
payload in which the sprite record of some table slot has `tpag_count = 0` (the zero-byte read
of the TPAG table does not return 1), as on `ex_archive_sprt_bare`, whose record, name length
and name bytes are in the file. -/
theorem gm_sprite_without_tpag :
    (U32LE_FROM_BUF ex_archive_sprt_bare (24 + 76) = 0 ∧
      gm_read_index_sprt ex_archive_sprt_bare 16 = none) ∧
    (∀ (game : List Nat) (pos i : Nat), i < U32LE_FROM_BUF game pos →
      U32LE_FROM_BUF game (U32LE_FROM_BUF game (pos + 4 + 4 * i) + 76) = 0 →
      gm_read_index_sprt game pos = none) := by
  refine ⟨⟨by decide, by decide⟩, ?_⟩
  intro game pos i hi hz
  cases h : gm_read_index_sprt game pos with
  | none => rfl
  | some es =>
    obtain ⟨hlen, hget⟩ := gm_read_index_sprt_get game pos es h
    obtain ⟨e, -, hread⟩ := hget i hi
    obtain ⟨-, -, -, hpos, -⟩ := gm_read_sprt_entry_spec game _ e hread
    omega

set_option maxRecDepth 8000 in
/-- C32 (witness). The record of `ex_archive_sprt_bare` has `tpag_count = 0`, and the reader
fails. -/
theorem gm_sprite_without_tpag_witness :
    0 < U32LE_FROM_BUF ex_archive_sprt_bare 16 ∧
    U32LE_FROM_BUF ex_archive_sprt_bare
      (U32LE_FROM_BUF ex_archive_sprt_bare (16 + 4 + 4 * 0) + 76) = 0 ∧
    gm_read_index_sprt ex_archive_sprt_bare 16 = none :=
  ⟨by decide, by decide,
    gm_sprite_without_tpag.2 ex_archive_sprt_bare 16 0 (by decide) (by decide)⟩

/-! ## The capacity of the chunk array -/

theorem gm_chunks_at_cons (png : png_sniffer) (game : List Nat) (stop offset : Nat)
    (c : gm_index) (rest : List gm_index)
    (h : gm_chunks_at png game stop offset (c :: rest) = true) :
    ∃ buffer, gm_fread game offset 8 = some buffer ∧ offset < stop ∧
      gm_parse_section buffer ≠ GM_END ∧ c.sect = gm_parse_section buffer ∧
      c.offset = (offset : Int) ∧ c.size = U32LE_FROM_BUF buffer 4 ∧ c.size ≤ INT32_MAX - 8 ∧
      offset ≤ INT32_MAX - 8 - c.size ∧ offset + c.size + 8 ≤ stop ∧
      gm_read_section png game c.sect (offset + 8) = some c.entries ∧
      gm_chunks_at png game stop (offset + (c.size + 8)) rest = true := by
  unfold gm_chunks_at at h
  split at h
  · cases h
  · rename_i buffer hb
    rw [Bool.and_eq_true, decide_eq_true_eq] at h
    obtain ⟨⟨h1, h2, h3, h4, h5, h6, h7, h8, h9⟩, h10⟩ := h
    exact ⟨buffer, hb, h1, h2, h3, h4, h5, h6, h7, h8, h9, h10⟩

theorem gm_chunks_at_length (png : png_sniffer) (game : List Nat) (stop : Nat)
    (l : List gm_index) :
    ∀ offset, gm_chunks_at png game stop offset l = true → l ≠ [] →
      offset + 8 * l.length ≤ stop := by
  induction l with
  | nil => intro offset _ h; exact absurd rfl h
  | cons c rest ih =>
    intro offset h _
    obtain ⟨buffer, -, -, -, -, -, -, -, -, hfit, -, hrest⟩ := gm_chunks_at_cons _ _ _ _ _ _ h
    cases rest with
    | nil => simp only [List.length_cons, List.length_nil]; omega
    | cons d rest1 =>
      have := ih _ hrest (by simp)
      simp only [List.length_cons] at this ⊢
      omega

theorem gm_read_index_loop_ok (png : png_sniffer) (game : List Nat) (stop : Nat)
    (l : List gm_index) :
    ∀ (fuel offset count : Nat), gm_chunks_at png game stop offset l = true →
      count + l.length ≤ gm_index_capacity → l.length < fuel →
      gm_read_index_loop png game stop fuel offset count = some l := by
  induction l with
  | nil =>
    intro fuel offset count h hcap hfuel
    obtain ⟨n, rfl⟩ : ∃ n, fuel = n + 1 := ⟨fuel - 1, by simp at hfuel; omega⟩
    unfold gm_chunks_at at h
    rw [decide_eq_true_eq] at h
    unfold gm_read_index_loop
    rw [if_neg (by omega)]
  | cons c rest ih =>
    intro fuel offset count h hcap hfuel
    simp only [List.length_cons] at hcap hfuel
    obtain ⟨n, rfl⟩ : ∃ n, fuel = n + 1 := ⟨fuel - 1, by omega⟩
    obtain ⟨buffer, hb, hlt, hne, hsect, hoff, hsize, hmax, hmax2, hfit, hent, hrest⟩ :=
      gm_chunks_at_cons _ _ _ _ _ _ h
    unfold gm_read_index_loop
    rw [if_pos hlt, hb]
    dsimp only
    rw [if_neg hne, ← hsize, if_neg (by omega), if_neg (by omega), if_neg (by omega), ← hsect,
      hent]
    dsimp only
    rw [ih n _ (count + 1) hrest (by omega) (by omega)]
    dsimp only
    congr 2
    cases c
    simp only at hsect hoff hsize ⊢
    rw [hoff]

theorem gm_read_index_loop_length (png : png_sniffer) (game : List Nat) (stop : Nat)
    (fuel : Nat) :
    ∀ (offset count : Nat) (l : List gm_index), count ≤ gm_index_capacity →
      gm_read_index_loop png game stop fuel offset count = some l →
      count + l.length ≤ gm_index_capacity := by
  induction fuel with
  | zero =>
    intro offset count l _ h
    simp [gm_read_index_loop] at h
  | succ n ih =>
    intro offset count l hc h
    cases l with
    | nil =>
      simp only [List.length_nil]
      omega
    | cons d rest =>
      obtain ⟨fuel1, -, hf, hcap, -, -, -, -, -, -, -, -, -, -, hrest⟩ :=
        gm_read_index_loop_step _ _ _ _ _ _ _ _ h
      have hfe : fuel1 = n := by omega
      subst hfe
      have := ih _ _ rest (by omega) hrest
      simp only [List.length_cons]
      omega

theorem gm_read_index_loop_unique (png : png_sniffer) (game : List Nat) (stop : Nat)
    (l : List gm_index) :
    ∀ (fuel offset count : Nat) (l1 : List gm_index),
      gm_chunks_at png game stop offset l = true →
      gm_read_index_loop png game stop fuel offset count = some l1 → l1 = l := by
  induction l with
  | nil =>
    intro fuel offset count l1 h hl
    unfold gm_chunks_at at h
    rw [decide_eq_true_eq] at h
    cases l1 with
    | nil => rfl
    | cons d rest =>
      obtain ⟨-, -, -, -, hlt, -⟩ := gm_read_index_loop_step _ _ _ _ _ _ _ _ hl
      omega
  | cons c rest ih =>
    intro fuel offset count l1 h hl
    obtain ⟨buffer, hb, hlt, hne, hsect, hoff, hsize, -, -, -, hent, hrest⟩ :=
      gm_chunks_at_cons _ _ _ _ _ _ h
    cases l1 with
    | nil =>
      have := gm_read_index_loop_nil _ _ _ _ _ _ hl
      omega
    | cons d rest1 =>
      obtain ⟨fuel1, buffer1, -, -, -, hb1, -, hsect1, hoff1, hsize1, -, -, -, hent1, hrest1⟩ :=
        gm_read_index_loop_step _ _ _ _ _ _ _ _ hl
      rw [hb] at hb1
      simp only [Option.some.injEq] at hb1
      subst hb1
      have hds : d.sect = c.sect := by rw [hsect1, hsect]
      have hdz : d.size = c.size := by rw [hsize1, hsize]
      rw [hds, hent] at hent1
      simp only [Option.some.injEq] at hent1
      have hcd : d = c := by
        cases c
        cases d
        simp only at hds hdz hoff hoff1 hent1
        rw [hds, hdz, hoff, hoff1, hent1]
      rw [hdz] at hrest1
      rw [hcd, ih _ _ _ rest1 hrest hrest1]

/-- C31. Parsed index content and the capacity of the chunk array: for an archive with the
FORM magic whose FORM payload consists of the valid chunks `index` (`gm_chunks_at`),
`gm_read_index` yields exactly these descriptors, in file order, as long as they fit the 32
elements of the array.  With fewer than 32 chunks the zeroed element behind them ends the
array and `gm_index_length` is their number.  With exactly 32 chunks the array is full, no END
element follows and `gm_index_length` reads behind the array (no value).  With more than 32
chunks the array has to grow, which the code does not survive: `gm_read_index` yields no
index. -/
theorem gm_parsed_index_capacity (png : png_sniffer) (game : List Nat)
    (index : List gm_index) (buffer : List Nat)
    (hb : gm_fread game 0 8 = some buffer)
    (hm : buffer.take 4 = gm_magic 'F' 'O' 'R' 'M')
    (hvalid : gm_chunks_at png game (U32LE_FROM_BUF buffer 4 + 8) 8 index = true) :
    (index.length < gm_index_capacity →
      gm_read_index png game = some index ∧ gm_index_length index = some index.length) ∧
    (index.length = gm_index_capacity →
      gm_read_index png game = some index ∧ gm_index_length index = none) ∧
    (gm_index_capacity < index.length → gm_read_index png game = none) := by
  have hread : index.length ≤ gm_index_capacity → gm_read_index png game = some index := by
    intro hlen
    unfold gm_read_index
    rw [hb]
    dsimp only
    rw [if_neg (by rw [hm]; exact fun h => h rfl)]
    apply gm_read_index_loop_ok png game _ index _ _ _ hvalid (by omega)
    cases index with
    | nil => simp
    | cons c rest =>
      have := gm_chunks_at_length png game _ (c :: rest) _ hvalid (by simp)
      omega
  refine ⟨?_, ?_, ?_⟩
  · intro hlen
    refine ⟨hread (by omega), ?_⟩
    unfold gm_index_length
    rw [if_pos hlen]
  · intro hlen
    refine ⟨hread (by omega), ?_⟩
    unfold gm_index_length
    rw [if_neg (by omega)]
  · intro hlen
    cases h : gm_read_index png game with
    | none => rfl
    | some l1 =>
      exfalso
      unfold gm_read_index at h
      rw [hb] at h
      dsimp only at h
      rw [if_neg (by rw [hm]; exact fun h => h rfl)] at h
      have h1 := gm_read_index_loop_unique png game _ index _ _ _ l1 hvalid h
      have h2 := gm_read_index_loop_length png game _ _ _ _ l1 (by omega) h
      rw [h1] at h2
      omega

set_option maxRecDepth 100000 in
/-- C31 (witness). The 3 chunks of `ex_archive` are read and counted; the 32 empty STRG chunks
of `ex_archive_chunks 32` are read but the array has no END element; the archive of 33 chunks
is not read. -/
theorem gm_parsed_index_capacity_witness :
    (gm_fread ex_archive 0 8 = some [70, 79, 82, 77, 68, 0, 0, 0] ∧
      gm_chunks_at ex_sniffer ex_archive
        (U32LE_FROM_BUF [70, 79, 82, 77, 68, 0, 0, 0] 4 + 8) 8 ex_archive_index = true ∧
      ex_archive_index.length < gm_index_capacity ∧
      gm_read_index ex_sniffer ex_archive = some ex_archive_index ∧
      gm_index_length ex_archive_index = some ex_archive_index.length) ∧
    (gm_fread (ex_archive_chunks 32) 0 8 = some [70, 79, 82, 77, 0, 1, 0, 0] ∧
      gm_chunks_at ex_sniffer (ex_archive_chunks 32)
        (U32LE_FROM_BUF [70, 79, 82, 77, 0, 1, 0, 0] 4 + 8) 8 (ex_index_chunks 32) = true ∧
      (ex_index_chunks 32).length = gm_index_capacity ∧
      gm_read_index ex_sniffer (ex_archive_chunks 32) = some (ex_index_chunks 32) ∧
      gm_index_length (ex_index_chunks 32) = none) ∧
    (gm_fread (ex_archive_chunks 33) 0 8 = some [70, 79, 82, 77, 8, 1, 0, 0] ∧
      gm_chunks_at ex_sniffer (ex_archive_chunks 33)
        (U32LE_FROM_BUF [70, 79, 82, 77, 8, 1, 0, 0] 4 + 8) 8 (ex_index_chunks 33) = true ∧
      gm_index_capacity < (ex_index_chunks 33).length ∧
      gm_read_index ex_sniffer (ex_archive_chunks 33) = none) :=
  ⟨⟨by decide, by decide, by decide,
      (gm_parsed_index_capacity ex_sniffer ex_archive ex_archive_index
        [70, 79, 82, 77, 68, 0, 0, 0] (by decide) (by decide) (by decide)).1 (by decide)⟩,
    ⟨by decide, by decide, by decide,
      (gm_parsed_index_capacity ex_sniffer (ex_archive_chunks 32) (ex_index_chunks 32)
        [70, 79, 82, 77, 0, 1, 0, 0] (by decide) (by decide) (by decide)).2.1 (by decide)⟩,
    by decide, by decide, by decide,
    (gm_parsed_index_capacity ex_sniffer (ex_archive_chunks 33) (ex_index_chunks 33)
      [70, 79, 82, 77, 8, 1, 0, 0] (by decide) (by decide) (by decide)).2.2 (by decide)⟩

/-! ## The name filter of `gm_patch_scan_dir` -/

theorem gm_digit_nat (c : Char) (h : c.isDigit = true) : 48 ≤ c.toNat ∧ c.toNat ≤ 57 := by
  unfold Char.isDigit at h
  simp only [Bool.and_eq_true, decide_eq_true_eq] at h
  obtain ⟨h1, h2⟩ := h
  exact ⟨h1, h2⟩

theorem gm_digit_facts (c : Char) (h : c.isDigit = true) :
    gm_isspace c = false ∧ c ≠ '-' ∧ c ≠ '+' ∧ c.toLower = c := by
  obtain ⟨h1, h2⟩ := gm_digit_nat c h
  refine ⟨?_, ?_, ?_, ?_⟩
  · unfold gm_isspace
    rw [decide_eq_false_iff_not]
    omega
  · rintro rfl
    revert h1
    decide
  · rintro rfl
    revert h1
    decide
  · unfold Char.toLower
    simp only
    rw [if_neg (by omega)]

theorem gm_strip_sign_digit (c : Char) (t : List Char) (h : c.isDigit = true) :
    gm_strip_sign (c :: t) = c :: t ∧ (c :: t).head? ≠ some '-' := by
  obtain ⟨-, h1, h2, -⟩ := gm_digit_facts c h
  constructor
  · unfold gm_strip_sign
    split
    · rename_i heq
      simp only [List.cons.injEq] at heq
      exact absurd heq.1 h1
    · rename_i heq
      simp only [List.cons.injEq] at heq
      exact absurd heq.1 h2
    · rfl
  · simp only [List.head?_cons, ne_eq, Option.some.injEq]
    exact h1

theorem gm_ext_head (e : List Char) (ext : String) (r : List Char) (hext : ext.data = '.' :: r)
    (h : e.map Char.toLower = ext.data.map Char.toLower) :
    e.takeWhile Char.isDigit = [] ∧ e.dropWhile Char.isDigit = e := by
  rw [hext] at h
  cases e with
  | nil => simp at h
  | cons c t =>
    simp only [List.map_cons, List.cons.injEq] at h
    have hc : c.isDigit = false := by
      cases hd : c.isDigit with
      | false => rfl
      | true =>
        obtain ⟨-, -, -, hl⟩ := gm_digit_facts c hd
        rw [hl] at h
        have h1 := h.1
        have : ('.' : Char).toLower = '.' := by decide
        rw [this] at h1
        subst h1
        revert hd
        decide
    constructor
    · rw [List.takeWhile_cons_of_neg (by rw [hc]; decide)]
    · rw [List.dropWhile_cons_of_neg (by rw [hc]; decide)]

theorem gm_strtol_parts (ws sg ds e : List Char) (ext : String) (r : List Char)
    (hws : ∀ c ∈ ws, gm_isspace c = true) (hsg : sg = [] ∨ sg = ['+'] ∨ sg = ['-'])
    (hds : ds ≠ []) (hdig : ∀ c ∈ ds, c.isDigit = true)
    (hmax : gm_digits_value ds ≤ UINT32_MAX) (hneg : sg = ['-'] → gm_digits_value ds = 0)
    (hext : ext.data = '.' :: r) (he : e.map Char.toLower = ext.data.map Char.toLower) :
    gm_strtol (ws ++ sg ++ ds ++ e) = ((gm_digits_value ds : Int), e) := by
  obtain ⟨d0, dt, rfl⟩ : ∃ d0 dt, ds = d0 :: dt := by
    cases ds with
    | nil => exact absurd rfl hds
    | cons a b => exact ⟨a, b, rfl⟩
  have hd0 := hdig d0 (List.mem_cons_self _ _)
  obtain ⟨hsp, -, -, -⟩ := gm_digit_facts d0 hd0
  have hbody : (ws ++ sg ++ (d0 :: dt) ++ e).dropWhile gm_isspace = sg ++ (d0 :: dt) ++ e := by
    rw [List.append_assoc, List.append_assoc, List.dropWhile_append_of_pos hws,
      ← List.append_assoc]
    rcases hsg with rfl | rfl | rfl
    · rw [List.nil_append, List.cons_append]
      exact List.dropWhile_cons_of_neg (by rw [hsp]; decide)
    · exact List.dropWhile_cons_of_neg (by decide)
    · exact List.dropWhile_cons_of_neg (by decide)
  have hstrip : gm_strip_sign (sg ++ (d0 :: dt) ++ e) = (d0 :: dt) ++ e := by
    rcases hsg with rfl | rfl | rfl
    · rw [List.nil_append, List.cons_append]
      exact (gm_strip_sign_digit d0 _ hd0).1
    · rfl
    · rfl
  obtain ⟨ht, hdr⟩ := gm_ext_head e ext r hext he
  have htake : ((d0 :: dt) ++ e).takeWhile Char.isDigit = d0 :: dt := by
    rw [List.takeWhile_append_of_pos hdig, ht, List.append_nil]
  have hdrop : ((d0 :: dt) ++ e).dropWhile Char.isDigit = e := by
    rw [List.dropWhile_append_of_pos hdig, hdr]
  unfold gm_strtol
  rw [hbody, hstrip, htake, hdrop, if_neg (by simp)]
  dsimp only
  unfold UINT32_MAX at hmax
  unfold LONG_MAX LONG_MIN
  by_cases hm : (sg ++ (d0 :: dt) ++ e).head? = some '-'
  · have hsgm : sg = ['-'] := by
      rcases hsg with rfl | rfl | rfl
      · rw [List.nil_append, List.cons_append] at hm
        exact absurd hm (gm_strip_sign_digit d0 _ hd0).2
      · simp at hm
      · rfl
    have hz := hneg hsgm
    rw [if_pos hm, hz]
    simp
  · rw [if_neg hm, if_neg (by omega), if_neg (by omega)]

theorem gm_strip_sign_minus (body : List Char) (h : body.head? = some '-') :
    body = ['-'] ++ gm_strip_sign body := by
  cases body with
  | nil => simp at h
  | cons c t =>
    simp only [List.head?_cons, Option.some.injEq] at h
    subst h
    rfl

theorem gm_strip_sign_other (body : List Char) (h : body.head? ≠ some '-') :
    ∃ sg, body = sg ++ gm_strip_sign body ∧ (sg = [] ∨ sg = ['+']) := by
  unfold gm_strip_sign
  split
  · simp at h
  · exact ⟨['+'], rfl, Or.inr rfl⟩
  · exact ⟨[], rfl, Or.inl rfl⟩

theorem gm_strtol_inv (s : List Char) (h : (gm_strtol s).2.length ≠ s.length) :
    ∃ ws sg ds : List Char, s = ws ++ sg ++ ds ++ (gm_strtol s).2 ∧
      (∀ c ∈ ws, gm_isspace c = true) ∧ (sg = [] ∨ sg = ['+'] ∨ sg = ['-']) ∧
      ds ≠ [] ∧ (∀ c ∈ ds, c.isDigit = true) ∧
      (sg = ['-'] →
        (gm_strtol s).1 = (if - (gm_digits_value ds : Int) < LONG_MIN then LONG_MIN
          else - (gm_digits_value ds : Int))) ∧
      (sg ≠ ['-'] →
        (gm_strtol s).1 = (if (gm_digits_value ds : Int) > LONG_MAX then LONG_MAX
          else (gm_digits_value ds : Int))) := by
  have hsplit : s = s.takeWhile gm_isspace ++ s.dropWhile gm_isspace :=
    (List.takeWhile_append_dropWhile _ _).symm
  have hws : ∀ c ∈ s.takeWhile gm_isspace, gm_isspace c = true :=
    fun c hc => List.mem_takeWhile_imp hc
  generalize s.takeWhile gm_isspace = ws at hsplit hws
  unfold gm_strtol at h ⊢
  generalize s.dropWhile gm_isspace = body at hsplit h ⊢
  have hus : gm_strip_sign body = (gm_strip_sign body).takeWhile Char.isDigit ++
      (gm_strip_sign body).dropWhile Char.isDigit :=
    (List.takeWhile_append_dropWhile _ _).symm
  have hdig : ∀ c ∈ (gm_strip_sign body).takeWhile Char.isDigit, c.isDigit = true :=
    fun c hc => List.mem_takeWhile_imp hc
  generalize (gm_strip_sign body).takeWhile Char.isDigit = ds at hus hdig h ⊢
  generalize (gm_strip_sign body).dropWhile Char.isDigit = e at hus h ⊢
  by_cases hds : ds = []
  · rw [if_pos hds] at h
    exact absurd rfl h
  · rw [if_neg hds]
    dsimp only
    have hv : (0 : Int) ≤ (gm_digits_value ds : Int) := Int.ofNat_nonneg _
    unfold LONG_MAX LONG_MIN
    by_cases hm : body.head? = some '-'
    · have hb := gm_strip_sign_minus body hm
      refine ⟨ws, ['-'], ds, ?_, hws, Or.inr (Or.inr rfl), hds, hdig, ?_, ?_⟩
      · rw [hsplit, hb, hus]
        simp only [List.append_assoc]
      · intro _
        rw [if_pos hm, if_neg (by omega)]
      · intro hne
        exact absurd rfl hne
    · obtain ⟨sg, hb, hsg⟩ := gm_strip_sign_other body hm
      refine ⟨ws, sg, ds, ?_, hws, ?_, hds, hdig, ?_, ?_⟩
      · rw [hsplit]
        conv_lhs => rw [hb, hus]
        simp only [List.append_assoc]
      · rcases hsg with h1 | h1
        · exact Or.inl h1
        · exact Or.inr (Or.inl h1)
      · intro h1
        rcases hsg with h2 | h2
        · rw [h2] at h1
          simp at h1
        · rw [h2] at h1
          simp at h1
      · intro _
        rw [if_neg hm]
        by_cases hbig : (gm_digits_value ds : Int) > 9223372036854775807
        · rw [if_pos hbig, if_pos hbig]
        · rw [if_neg hbig, if_neg hbig, if_neg (by omega)]

theorem gm_scan_name_some (name : String) (exts : List String) (i : Nat)
    (h : gm_scan_name name exts = some i) : gm_accepted_name name.data exts i := by
  unfold gm_scan_name at h
  split at h
  · cases h
  · rename_i hcond
    simp only [not_or, not_not, not_lt, Option.some.injEq] at hcond h
    obtain ⟨hany, hlen, h0, hmax⟩ := hcond
    obtain ⟨ws, sg, ds, hs, hws, hsg, hds, hdig, hneg, hpos⟩ := gm_strtol_inv name.data hlen
    rw [List.any_eq_true] at hany
    obtain ⟨ext, hext, hcmp⟩ := hany
    unfold gm_strcasecmp_eq at hcmp
    rw [decide_eq_true_eq] at hcmp
    have hv : (0 : Int) ≤ (gm_digits_value ds : Int) := Int.ofNat_nonneg _
    unfold UINT32_MAX at hmax
    unfold LONG_MIN at hneg
    unfold LONG_MAX at hpos
    by_cases hm : sg = ['-']
    · have hr := hneg hm
      by_cases hc : - (gm_digits_value ds : Int) < -9223372036854775808
      · rw [if_pos hc] at hr
        omega
      · rw [if_neg hc] at hr
        have hz : gm_digits_value ds = 0 := by omega
        refine ⟨ws, sg, ds, (gm_strtol name.data).2, hs, hws, hsg, hds, hdig, ?_, ?_, ?_,
          ext, hext, hcmp⟩
        · rw [← h, hr, hz]
          rfl
        · rw [← h, hr, hz]
          decide
        · intro _
          rw [← h, hr, hz]
          rfl
    · have hr := hpos hm
      by_cases hc : (gm_digits_value ds : Int) > 9223372036854775807
      · rw [if_pos hc] at hr
        omega
      · rw [if_neg hc] at hr
        refine ⟨ws, sg, ds, (gm_strtol name.data).2, hs, hws, hsg, hds, hdig, ?_, ?_, ?_,
          ext, hext, hcmp⟩
        · rw [← h, hr]
          rfl
        · rw [← h, hr]
          unfold UINT32_MAX
          omega
        · intro h1
          exact absurd h1 hm

theorem gm_scan_name_accepted (name : String) (exts : List String) (i : Nat)
    (hexts : ∀ ext ∈ exts, ∃ r, ext.data = '.' :: r)
    (h : gm_accepted_name name.data exts i) : gm_scan_name name exts = some i := by
  obtain ⟨ws, sg, ds, e, hs, hws, hsg, hds, hdig, hval, hmax, hneg, ext, hext, hcmp⟩ := h
  obtain ⟨r, hr⟩ := hexts ext hext
  have hst := gm_strtol_parts ws sg ds e ext r hws hsg hds hdig (by rw [hval]; exact hmax)
    (fun h1 => by rw [hval]; exact hneg h1) hr hcmp
  rw [← hs] at hst
  unfold gm_scan_name
  rw [hst]
  dsimp only
  have hany : (exts.any fun x => gm_strcasecmp_eq e x.data) = true := by
    rw [List.any_eq_true]
    refine ⟨ext, hext, ?_⟩
    unfold gm_strcasecmp_eq
    rw [decide_eq_true_eq]
    exact hcmp
  have hlen : e.length ≠ name.data.length := by
    rw [hs]
    simp only [List.length_append]
    have : 0 < ds.length := List.length_pos.mpr hds
    omega
  unfold UINT32_MAX at hmax ⊢
  rw [if_neg (by rw [hany]; simp only [not_true_eq_false, false_or]; omega)]
  rw [Int.toNat_ofNat, hval]

theorem gm_exts_dotted :
    (∀ ext ∈ gm_txtr_exts, ∃ r, ext.data = '.' :: r) ∧
      (∀ ext ∈ gm_audo_exts, ∃ r, ext.data = '.' :: r) := by
  constructor
  · intro ext hext
    simp only [gm_txtr_exts, List.mem_cons, List.mem_singleton, List.not_mem_nil,
      or_false] at hext
    rcases hext with rfl | rfl <;> exact ⟨_, rfl⟩
  · intro ext hext
    simp only [gm_audo_exts, List.mem_cons, List.mem_singleton, List.not_mem_nil,
      or_false] at hext
    rcases hext with rfl | rfl | rfl <;> exact ⟨_, rfl⟩

/-- C34 (counterexample). A name with a leading sign and a name with leading white space (and
an extension in upper case) are turned into patches: the `audo` directory with the file
`+5.ogg` yields a patch for entry 5, the one with the file ` 7.OGG` a patch for entry 7. -/
theorem gm_signed_name_accepted :
    gm_patch_scan_dir [] (some [("+5.ogg", [79, 103, 103, 83])]) gm_audo_exts
        (gm_read_audo_info false) = some [ex_patch_scanned 5] ∧
    gm_patch_scan_dir [] (some [(" 7.OGG", [79, 103, 103, 83])]) gm_audo_exts
        (gm_read_audo_info false) = some [ex_patch_scanned 7] := by
  constructor <;> decide

/-- C34. Replacement file-name filter, as the code has it: for a list of extensions that all
begin with a dot (as the lists for `txtr` and `audo` do), `gm_patch_scan_dir` accepts a name
with index `i` if and only if the name consists of optional white space, an optional sign, a
non-empty run of decimal digits of value `i ≤ UINT32_MAX` (behind a minus sign only the value
0) and a rest that equals one of the extensions up to the case of its letters; a name that is
not of this form is ignored, and an accepted name is handed to `read_info` with index `i` and
its patch is appended to the buffer. -/
theorem gm_name_filter (exts : List String)
    (read_info : List Nat → gm_patch → Option gm_patch)
    (hexts : ∀ ext ∈ exts, ∃ r, ext.data = '.' :: r) :
    (∀ (name : String) (i : Nat),
      gm_scan_name name exts = some i ↔ gm_accepted_name name.data exts i) ∧
    (∀ (pbuf : List gm_patch) (name : String) (data : List Nat)
      (rest : List (String × List Nat)),
      (∀ i, ¬ gm_accepted_name name.data exts i) →
      gm_scan_entries exts read_info pbuf ((name, data) :: rest) =
        gm_scan_entries exts read_info pbuf rest) ∧
    (∀ (pbuf : List gm_patch) (name : String) (data : List Nat)
      (rest : List (String × List Nat)) (i : Nat) (patch : gm_patch),
      gm_accepted_name name.data exts i →
      read_info data
        { gm_patch_zero with
          index := i, patch_src := gm_patch_src.GM_SRC_FILE, data := data } = some patch →
      gm_scan_entries exts read_info pbuf ((name, data) :: rest) =
        gm_scan_entries exts read_info (pbuf ++ [patch]) rest) := by
  have hiff : ∀ (name : String) (i : Nat),
      gm_scan_name name exts = some i ↔ gm_accepted_name name.data exts i :=
    fun name i => ⟨gm_scan_name_some name exts i, gm_scan_name_accepted name exts i hexts⟩
  refine ⟨hiff, ?_, ?_⟩
  · intro pbuf name data rest hno
    have hn : gm_scan_name name exts = none := by
      cases h : gm_scan_name name exts with
      | none => rfl
      | some i => exact absurd ((hiff name i).mp h) (hno i)
    conv_lhs => unfold gm_scan_entries
    rw [hn]
  · intro pbuf name data rest i patch hacc hinfo
    have hn := (hiff name i).mpr hacc
    conv_lhs => unfold gm_scan_entries
    rw [hn]
    dsimp only
    rw [hinfo]

/-- C34 (witness). In the `audo` directory the name `12.ogg` is accepted with index 12 and the
name `12.bin` is ignored. -/
theorem gm_name_filter_witness :
    (∀ ext ∈ gm_audo_exts, ∃ r, ext.data = '.' :: r) ∧
    gm_accepted_name "12.ogg".data gm_audo_exts 12 ∧
    gm_scan_name "12.ogg" gm_audo_exts = some 12 ∧
    gm_scan_name "12.bin" gm_audo_exts = none ∧
    ∀ i, ¬ gm_accepted_name "12.bin".data gm_audo_exts i :=
  have hacc : gm_accepted_name "12.ogg".data gm_audo_exts 12 :=
    ⟨[], [], ['1', '2'], ['.', 'o', 'g', 'g'], rfl, by decide, Or.inl rfl, by decide,
      by decide, by decide, by decide, by decide, ".ogg", by decide, by decide⟩
  ⟨gm_exts_dotted.2, hacc,
    ((gm_name_filter gm_audo_exts (gm_read_audo_info false) gm_exts_dotted.2).1
      "12.ogg" 12).mpr hacc,
    by decide,
    fun i hi => absurd
      (((gm_name_filter gm_audo_exts (gm_read_audo_info false) gm_exts_dotted.2).1
        "12.bin" i).mpr hi) (by rw [show gm_scan_name "12.bin" gm_audo_exts = none from by decide]; simp)⟩

/-! ## Dump names and the name filter -/

theorem gm_digit_char (k : Nat) (hk : k < 10) :
    (Nat.digitChar k).isDigit = true ∧ (Nat.digitChar k).toNat - 48 = k := by
  interval_cases k <;> exact ⟨by decide, by decide⟩

theorem gm_value_fold (l : List Char) :
    ∀ a : Nat, l.foldl (fun acc d => 10 * acc + (d.toNat - 48)) a =
      a * 10 ^ l.length + l.foldl (fun acc d => 10 * acc + (d.toNat - 48)) 0 := by
  induction l with
  | nil => intro a; simp
  | cons c t ih =>
    intro a
    simp only [List.foldl_cons, List.length_cons]
    rw [ih (10 * a + (c.toNat - 48)), ih (10 * 0 + (c.toNat - 48))]
    ring

theorem gm_digits_value_cons (c : Char) (t : List Char) :
    gm_digits_value (c :: t) = (c.toNat - 48) * 10 ^ t.length + gm_digits_value t := by
  unfold gm_digits_value
  rw [List.foldl_cons, gm_value_fold]
  simp

theorem gm_to_digits_core (fuel : Nat) :
    ∀ (n : Nat) (acc : List Char), n < fuel → (∀ c ∈ acc, c.isDigit = true) →
      (∀ c ∈ Nat.toDigitsCore 10 fuel n acc, c.isDigit = true) ∧
      Nat.toDigitsCore 10 fuel n acc ≠ [] ∧
      gm_digits_value (Nat.toDigitsCore 10 fuel n acc) =
        n * 10 ^ acc.length + gm_digits_value acc := by
  induction fuel with
  | zero => intro n acc h; omega
  | succ f ih =>
    intro n acc hn hacc
    obtain ⟨hd1, hd2⟩ := gm_digit_char (n % 10) (Nat.mod_lt _ (by omega))
    have hall : ∀ c ∈ Nat.digitChar (n % 10) :: acc, c.isDigit = true := by
      intro c hc
      rcases List.mem_cons.mp hc with rfl | hc
      · exact hd1
      · exact hacc c hc
    unfold Nat.toDigitsCore
    dsimp only
    by_cases hz : n / 10 = 0
    · rw [if_pos hz]
      refine ⟨hall, by simp, ?_⟩
      rw [gm_digits_value_cons, hd2]
      have : n % 10 = n := Nat.mod_eq_of_lt (by omega)
      rw [this]
    · rw [if_neg hz]
      obtain ⟨i1, i2, i3⟩ := ih (n / 10) (Nat.digitChar (n % 10) :: acc) (by omega) hall
      refine ⟨i1, i2, ?_⟩
      rw [i3, gm_digits_value_cons, hd2, List.length_cons]
      have hn10 : n = 10 * (n / 10) + n % 10 := (Nat.div_add_mod n 10).symm
      generalize n / 10 = q at hn10 ⊢
      generalize n % 10 = m at hn10 ⊢
      subst hn10
      ring

theorem gm_to_digits (n : Nat) :
    (∀ c ∈ Nat.toDigits 10 n, c.isDigit = true) ∧ Nat.toDigits 10 n ≠ [] ∧
      gm_digits_value (Nat.toDigits 10 n) = n := by
  obtain ⟨h1, h2, h3⟩ := gm_to_digits_core (n + 1) n [] (by omega) (by simp)
  refine ⟨h1, h2, ?_⟩
  unfold Nat.toDigits
  rw [h3]
  simp [gm_digits_value]

theorem gm_digits_value_zeros (k : Nat) (ds : List Char) :
    gm_digits_value (List.replicate k '0' ++ ds) = gm_digits_value ds := by
  induction k with
  | zero => simp
  | succ k ih =>
    rw [List.replicate_succ, List.cons_append, gm_digits_value_cons, ih]
    simp

theorem gm_scan_dump_name (i : Nat) (t : gm_filetype) (exts : List String)
    (hi : i ≤ UINT32_MAX) :
    gm_scan_name (gm_dump_name i (gm_extension t)) exts =
      if (exts.any fun x => gm_strcasecmp_eq (gm_extension t).data x.data) = true then some i
      else none := by
  obtain ⟨d1, d2, d3⟩ := gm_to_digits i
  have hdata : (gm_dump_name i (gm_extension t)).data =
      [] ++ [] ++ (List.replicate (4 - (Nat.toDigits 10 i).length) '0' ++ Nat.toDigits 10 i) ++
        (gm_extension t).data := by
    unfold gm_dump_name
    rw [String.data_append]
    rfl
  have hext : ∃ r, (gm_extension t).data = '.' :: r := by
    cases t <;> exact ⟨_, rfl⟩
  obtain ⟨r, hr⟩ := hext
  have hval : gm_digits_value
      (List.replicate (4 - (Nat.toDigits 10 i).length) '0' ++ Nat.toDigits 10 i) = i := by
    rw [gm_digits_value_zeros, d3]
  have hst := gm_strtol_parts [] []
    (List.replicate (4 - (Nat.toDigits 10 i).length) '0' ++ Nat.toDigits 10 i)
    (gm_extension t).data (gm_extension t) r (by simp) (Or.inl rfl)
    (by
      intro h
      rw [List.append_eq_nil] at h
      exact d2 h.2)
    (by
      intro c hc
      rcases List.mem_append.mp hc with h | h
      · rw [(List.mem_replicate.mp h).2]
        decide
      · exact d1 c h)
    (by rw [hval]; exact hi) (by intro h; cases h) hr rfl
  rw [← hdata, hval] at hst
  unfold gm_scan_name
  rw [hst]
  dsimp only
  have hlen : (gm_extension t).data.length ≠ (gm_dump_name i (gm_extension t)).data.length := by
    rw [hdata]
    simp only [List.length_append, List.length_nil, List.length_replicate]
    have : 0 < (Nat.toDigits 10 i).length := List.length_pos.mpr d2
    omega
  unfold UINT32_MAX at hi ⊢
  by_cases hany : (exts.any fun x => gm_strcasecmp_eq (gm_extension t).data x.data) = true
  · rw [if_pos hany, if_neg (by rw [hany]; simp only [not_true_eq_false, false_or]; omega),
      Int.toNat_ofNat]
  · rw [if_neg hany, if_pos (Or.inl hany)]

/-- C39. Dump names feed back into patching: for an entry index `i ≤ UINT32_MAX` and an entry
of type `t`, the name that `gm_dump_files` gives the file of the entry is accepted by the name
filter of `gm_patch_scan_dir` for the directory `txtr` exactly when `t` is PNG, and for the
directory `audo` exactly when `t` is WAVE or OGG, and it is then parsed back to the index `i`;
the name of an entry of any other type (extension `.bin`) is ignored in both directories. -/
theorem gm_dump_names_feed_back (i : Nat) (t : gm_filetype) (hi : i ≤ UINT32_MAX) :
    (∀ j, gm_scan_name (gm_dump_name i (gm_extension t)) gm_txtr_exts = some j ↔
      t = GM_PNG ∧ j = i) ∧
    (∀ j, gm_scan_name (gm_dump_name i (gm_extension t)) gm_audo_exts = some j ↔
      (t = GM_WAVE ∨ t = GM_OGG) ∧ j = i) ∧
    (gm_extension t = ".bin" →
      gm_scan_name (gm_dump_name i (gm_extension t)) gm_txtr_exts = none ∧
      gm_scan_name (gm_dump_name i (gm_extension t)) gm_audo_exts = none) := by
  rw [gm_scan_dump_name i t gm_txtr_exts hi, gm_scan_dump_name i t gm_audo_exts hi]
  have htx : (gm_txtr_exts.any fun x => gm_strcasecmp_eq (gm_extension t).data x.data) = true ↔
      t = GM_PNG := by
    cases t <;> decide
  have hau : (gm_audo_exts.any fun x => gm_strcasecmp_eq (gm_extension t).data x.data) = true ↔
      t = GM_WAVE ∨ t = GM_OGG := by
    cases t <;> decide
  refine ⟨?_, ?_, ?_⟩
  · intro j
    by_cases h : t = GM_PNG
    · rw [if_pos (htx.mpr h)]
      simp only [Option.some.injEq, h, true_and]
      exact eq_comm
    · rw [if_neg (fun h1 => h (htx.mp h1))]
      simp only [h, false_and, iff_false]
      exact fun h1 => by cases h1
  · intro j
    by_cases h : t = GM_WAVE ∨ t = GM_OGG
    · rw [if_pos (hau.mpr h)]
      simp only [Option.some.injEq, h, true_and]
      exact eq_comm
    · rw [if_neg (fun h1 => h (hau.mp h1))]
      simp only [h, false_and, iff_false]
      exact fun h1 => by cases h1
  · intro hbin
    have h1 : t ≠ GM_PNG := by
      rintro rfl
      revert hbin
      decide
    have h2 : ¬ (t = GM_WAVE ∨ t = GM_OGG) := by
      rintro (rfl | rfl) <;> revert hbin <;> decide
    rw [if_neg (fun h => h1 (htx.mp h)), if_neg (fun h => h2 (hau.mp h))]
    exact ⟨rfl, rfl⟩

/-- C39 (witness). The dump name of entry 12 of type OGG is `0012.ogg`; the `audo` filter
reads it back as 12 and the `txtr` filter ignores it. -/
theorem gm_dump_names_feed_back_witness :
    12 ≤ UINT32_MAX ∧ gm_dump_name 12 (gm_extension GM_OGG) = "0012.ogg" ∧
    (∀ j, gm_scan_name (gm_dump_name 12 (gm_extension GM_OGG)) gm_txtr_exts = some j ↔
      GM_OGG = GM_PNG ∧ j = 12) ∧
    (∀ j, gm_scan_name (gm_dump_name 12 (gm_extension GM_OGG)) gm_audo_exts = some j ↔
      (GM_OGG = GM_WAVE ∨ GM_OGG = GM_OGG) ∧ j = 12) :=
  ⟨by decide, by decide, (gm_dump_names_feed_back 12 GM_OGG (by decide)).1,
    (gm_dump_names_feed_back 12 GM_OGG (by decide)).2.1⟩

/-! ## The order of two patches -/

theorem off_wrap_add_comm (x a b : Int) :
    off_wrap (off_wrap (x + a) + b) = off_wrap (off_wrap (x + b) + a) := by
  simp only [off_wrap_eq]
  omega

theorem size_wrap_add_comm (s : Nat) (a b : Int) :
    size_wrap ((size_wrap ((s : Int) + a) : Int) + b) =
      size_wrap ((size_wrap ((s : Int) + b) : Int) + a) := by
  simp only [size_wrap_eq]
  omega

theorem gm_get_section_congr (l1 l2 : List gm_patched_index) (s : gm_section)
    (h : l1.map (fun c => c.sect) = l2.map fun c => c.sect) :
    gm_get_section l1 s = gm_get_section l2 s := by
  induction l1 generalizing l2 with
  | nil =>
    cases l2 with
    | nil => rfl
    | cons d t => simp at h
  | cons c t ih =>
    cases l2 with
    | nil => simp at h
    | cons d u =>
      simp only [List.map_cons, List.cons.injEq] at h
      unfold gm_get_section
      rw [h.1, ih u h.2]

theorem gm_patched_at_sects (patched : List gm_patched_index) (k : Nat)
    (c : gm_patched_index) (p : gm_patch) (e : gm_patched_entry)
    (hc : patched[k]? = some c) :
    (gm_patched_at patched k c p e).map (fun c => c.sect) = patched.map fun c => c.sect := by
  have hd := gm_drop_eq_cons patched k c hc
  conv_rhs => rw [← List.take_append_drop k patched, hd]
  unfold gm_patched_at
  simp only [List.map_append, List.map_cons, List.map_map, gm_patched_chunk_sect]
  congr 2

theorem gm_patched_at_get (patched : List gm_patched_index) (k : Nat)
    (c : gm_patched_index) (p : gm_patch) (e : gm_patched_entry)
    (hc : patched[k]? = some c) (n : Nat) :
    (gm_patched_at patched k c p e)[n]? =
      if n < k then patched[n]?
      else if n = k then some (gm_patched_chunk c p e)
      else patched[n]?.map fun x => gm_shift_chunk x (gm_delta p e) := by
  have hk : k < patched.length := (List.getElem?_eq_some_iff.mp hc).1
  have hlt : (patched.take k).length = k := by rw [List.length_take]; omega
  unfold gm_patched_at
  by_cases h1 : n < k
  · rw [if_pos h1, List.getElem?_append_left (by omega), List.getElem?_take_of_lt h1]
  · rw [if_neg h1, List.getElem?_append_right (by omega), hlt]
    by_cases h2 : n = k
    · rw [if_pos h2, h2, Nat.sub_self, List.getElem?_cons_zero]
    · rw [if_neg h2]
      obtain ⟨m, rfl⟩ : ∃ m, n = k + 1 + m := ⟨n - (k + 1), by omega⟩
      rw [show k + 1 + m - k = m + 1 from by omega, List.getElem?_cons_succ,
        List.getElem?_map, List.getElem?_drop]

theorem gm_patch_at_iff (patched : List gm_patched_index) (k : Nat) (c : gm_patched_index)
    (p : gm_patch) (S : List gm_patched_index)
    (hc : patched[k]? = some c) (hmov : gm_movable c.sect = true) :
    gm_patch_at patched k p = (gm_status.ok, S) ↔
      ∃ e, c.entries[p.index]? = some e ∧ e.patch = none ∧ e.entry.type = p.type ∧
        (c.sect = GM_TXTR → e.entry.width = p.width ∧ e.entry.height = p.height) ∧
        (∀ x ∈ patched.drop (k + 1), gm_movable x.sect = true) ∧
        S = gm_patched_at patched k c p e := by
  constructor
  · intro h
    have hok : (gm_patch_at patched k p).1 = gm_status.ok := by rw [h]
    obtain ⟨e, h1, h2, h3, h4, h5, h6⟩ := gm_patch_at_ok patched k p c hc hmov hok
    rw [h] at h6
    exact ⟨e, h1, h2, h3, h4, h5, h6⟩
  · rintro ⟨e, h1, h2, h3, h4, h5, h6⟩
    rw [gm_patch_at_eq patched k p c hc, gm_patch_entry_valid c _ p e hmov h1 h2 h3 h4,
      gm_shift_tail_movable _ _ h5, h6]
    rfl

theorem gm_chunk_ext (c d : gm_patched_index) (h1 : c.sect = d.sect) (h2 : c.offset = d.offset)
    (h3 : c.size = d.size) (h4 : c.entries = d.entries) (h5 : c.index = d.index) : c = d := by
  cases c
  cases d
  simp only at h1 h2 h3 h4 h5
  rw [h1, h2, h3, h4, h5]

theorem gm_pentry_ext (a b : gm_patched_entry) (h1 : a.offset = b.offset)
    (h2 : a.size = b.size) (h3 : a.patch = b.patch) (h4 : a.entry = b.entry) : a = b := by
  cases a
  cases b
  simp only at h1 h2 h3 h4
  rw [h1, h2, h3, h4]

theorem gm_delta_entry (p : gm_patch) (a b : gm_patched_entry) (h : a.entry = b.entry) :
    gm_delta p a = gm_delta p b := by
  unfold gm_delta
  rw [h]

theorem gm_shift_chunk_get (c : gm_patched_index) (d : Int) (n : Nat) :
    (gm_shift_chunk c d).entries[n]? =
      c.entries[n]?.map fun x => { x with offset := off_wrap (x.offset + d) } := by
  rw [gm_shift_chunk_entries, List.getElem?_map]

theorem gm_patched_chunk_get (c : gm_patched_index) (p : gm_patch) (e : gm_patched_entry)
    (he : c.entries[p.index]? = some e) (n : Nat) :
    (gm_patched_chunk c p e).entries[n]? =
      if n = p.index then some { e with size := p.size, patch := some p }
      else c.entries[n]?.map fun x =>
        if x.offset > e.offset then { x with offset := off_wrap (x.offset + gm_delta p e) }
        else x := by
  have hil : p.index < c.entries.length := (List.getElem?_eq_some_iff.mp he).1
  rw [gm_patched_chunk_entries]
  unfold gm_shift_siblings
  rw [List.getElem?_map]
  by_cases hn : n = p.index
  · rw [if_pos hn, hn, List.getElem?_set_self hil]
    simp
  · rw [if_neg hn, List.getElem?_set_ne (Ne.symm hn)]

theorem gm_shift_chunk_comm (x : gm_patched_index) (a b : Int) :
    gm_shift_chunk (gm_shift_chunk x a) b = gm_shift_chunk (gm_shift_chunk x b) a := by
  apply gm_chunk_ext
  · simp only [gm_shift_chunk_sect]
  · simp only [gm_shift_chunk_offset]
    exact off_wrap_add_comm _ _ _
  · simp only [gm_shift_chunk_size]
  · simp only [gm_shift_chunk_entries, List.map_map]
    apply List.map_congr_left
    intro e _
    simp only [Function.comp]
    rw [off_wrap_add_comm]
  · simp only [gm_shift_chunk_index]

theorem gm_patched_shift_comm (B : gm_patched_index) (q : gm_patch) (eb : gm_patched_entry)
    (da : Int) (heb : B.entries[q.index]? = some eb)
    (hsmall : ∀ x ∈ B.entries, 0 ≤ x.offset ∧ x.offset < 2305843009213693952)
    (hda : -2305843009213693952 < da ∧ da < 2305843009213693952) :
    gm_patched_chunk (gm_shift_chunk B da) q { eb with offset := off_wrap (eb.offset + da) } =
      gm_shift_chunk (gm_patched_chunk B q eb) da := by
  have hd : gm_delta q { eb with offset := off_wrap (eb.offset + da) } = gm_delta q eb :=
    gm_delta_entry q _ _ rfl
  have heb1 : (gm_shift_chunk B da).entries[q.index]? =
      some { eb with offset := off_wrap (eb.offset + da) } := by
    rw [gm_shift_chunk_get, heb]
    rfl
  have hb := hsmall eb (List.getElem?_mem heb)
  apply gm_chunk_ext
  · rw [gm_patched_chunk_sect, gm_shift_chunk_sect, gm_shift_chunk_sect, gm_patched_chunk_sect]
  · rw [gm_patched_chunk_offset, gm_shift_chunk_offset, gm_shift_chunk_offset,
      gm_patched_chunk_offset]
  · rw [gm_patched_chunk_size, gm_shift_chunk_size, gm_shift_chunk_size, gm_patched_chunk_size,
      hd]
  · apply List.ext_getElem?
    intro n
    rw [gm_shift_chunk_get (gm_patched_chunk B q eb), gm_patched_chunk_get _ _ _ heb,
      gm_patched_chunk_get _ _ _ heb1, gm_shift_chunk_get, hd]
    by_cases hn : n = q.index
    · rw [if_pos hn, if_pos hn]
      rfl
    · rw [if_neg hn, if_neg hn]
      cases hx : B.entries[n]? with
      | none => rfl
      | some x =>
        have hxs := hsmall x (List.getElem?_mem hx)
        simp only [Option.map_some']
        have e1 : off_wrap (x.offset + da) = x.offset + da := off_wrap_exact _ (by omega) (by omega)
        have e2 : off_wrap (eb.offset + da) = eb.offset + da :=
          off_wrap_exact _ (by omega) (by omega)
        by_cases hgt : x.offset > eb.offset
        · rw [if_pos (by rw [e1, e2]; omega), if_pos hgt]
          exact congrArg some (gm_pentry_ext _ _ (off_wrap_add_comm _ _ _) rfl rfl rfl)
        · rw [if_neg (by rw [e1, e2]; omega), if_neg hgt]
  · rw [gm_patched_chunk_index, gm_shift_chunk_index, gm_shift_chunk_index,
      gm_patched_chunk_index]

theorem gm_patched_at_comm (patched : List gm_patched_index) (k1 k2 : Nat)
    (A B : gm_patched_index) (P Q : gm_patch) (e1 e2 : gm_patched_entry)
    (hlt : k1 < k2) (hA : patched[k1]? = some A) (hB : patched[k2]? = some B)
    (he2 : B.entries[Q.index]? = some e2)
    (hsmall : ∀ x ∈ B.entries, 0 ≤ x.offset ∧ x.offset < 2305843009213693952)
    (hd : -2305843009213693952 < gm_delta P e1 ∧ gm_delta P e1 < 2305843009213693952) :
    gm_patched_at (gm_patched_at patched k1 A P e1) k2 (gm_shift_chunk B (gm_delta P e1)) Q
        { e2 with offset := off_wrap (e2.offset + gm_delta P e1) } =
      gm_patched_at (gm_patched_at patched k2 B Q e2) k1 A P e1 := by
  have h1 : (gm_patched_at patched k1 A P e1)[k2]? =
      some (gm_shift_chunk B (gm_delta P e1)) := by
    rw [gm_patched_at_get patched k1 A P e1 hA, if_neg (by omega), if_neg (by omega), hB]
    rfl
  have h2 : (gm_patched_at patched k2 B Q e2)[k1]? = some A := by
    rw [gm_patched_at_get patched k2 B Q e2 hB, if_pos hlt, hA]
  have hdq : gm_delta Q { e2 with offset := off_wrap (e2.offset + gm_delta P e1) } =
      gm_delta Q e2 := gm_delta_entry Q _ _ rfl
  apply List.ext_getElem?
  intro n
  rw [gm_patched_at_get _ k2 _ Q _ h1, gm_patched_at_get _ k1 _ P _ h2,
    gm_patched_at_get patched k1 A P e1 hA, gm_patched_at_get patched k2 B Q e2 hB, hdq]
  by_cases c1 : n < k1
  · rw [if_pos (by omega), if_pos c1, if_pos c1, if_pos (by omega)]
  · by_cases c2 : n = k1
    · rw [if_pos (by omega), if_neg c1, if_pos c2, if_neg c1, if_pos c2]
    · by_cases c3 : n < k2
      · rw [if_pos c3, if_neg c1, if_neg c2, if_neg c1, if_neg c2, if_pos c3]
      · by_cases c4 : n = k2
        · rw [if_neg c3, if_pos c4, if_neg c1, if_neg c2, if_neg c3, if_pos c4]
          simp only [Option.map_some']
          exact congrArg some (gm_patched_shift_comm B Q e2 _ he2 hsmall hd)
        · rw [if_neg c3, if_neg c4, if_neg c1, if_neg c2, if_neg c1, if_neg c2, if_neg c3,
            if_neg c4]
          cases patched[n]? with
          | none => simp only [Option.map_none']
          | some x =>
            simp only [Option.map_some']
            exact congrArg some (gm_shift_chunk_comm x _ _)

theorem gm_patched_chunk_comm (A : gm_patched_index) (p q : gm_patch)
    (ea eb : gm_patched_entry) (hij : p.index ≠ q.index)
    (hea : A.entries[p.index]? = some ea) (heb : A.entries[q.index]? = some eb)
    (hab : ea.offset < eb.offset) (hdis : gm_entries_disjoint A)
    (hfacts : ∀ e ∈ A.entries, 0 < e.size ∧ 0 ≤ e.offset ∧ e.offset < 2305843009213693952)
    (hda : -(ea.size : Int) ≤ gm_delta p ea ∧ gm_delta p ea < 2305843009213693952)
    (hdb : -(eb.size : Int) ≤ gm_delta q eb ∧ gm_delta q eb < 2305843009213693952)
    (hsa : ea.size < 2305843009213693952) (hsb : eb.size < 2305843009213693952) :
    gm_patched_chunk (gm_patched_chunk A p ea) q
        { eb with offset := off_wrap (eb.offset + gm_delta p ea) } =
      gm_patched_chunk (gm_patched_chunk A q eb) p ea := by
  obtain ⟨L, hL0, hL4, hL⟩ := gm_region_start_lead A.sect
  have hdq : gm_delta q { eb with offset := off_wrap (eb.offset + gm_delta p ea) } =
      gm_delta q eb := gm_delta_entry q _ _ rfl
  have hfa := hfacts ea (List.getElem?_mem hea)
  have hfb := hfacts eb (List.getElem?_mem heb)
  have hdab := hdis p.index q.index ea eb hij hea heb
  simp only [gm_region_end, hL] at hdab
  have hb1 : off_wrap (eb.offset + gm_delta p ea) = eb.offset + gm_delta p ea :=
    off_wrap_exact _ (by omega) (by omega)
  have heb1 : (gm_patched_chunk A p ea).entries[q.index]? =
      some { eb with offset := off_wrap (eb.offset + gm_delta p ea) } := by
    rw [gm_patched_chunk_get A p ea hea, if_neg (Ne.symm hij), heb]
    simp only [Option.map_some']
    rw [if_pos hab]
  have hea2 : (gm_patched_chunk A q eb).entries[p.index]? = some ea := by
    rw [gm_patched_chunk_get A q eb heb, if_neg hij, hea]
    simp only [Option.map_some']
    rw [if_neg (by omega)]
  apply gm_chunk_ext
  · simp only [gm_patched_chunk_sect]
  · simp only [gm_patched_chunk_offset]
  · rw [gm_patched_chunk_size, gm_patched_chunk_size, gm_patched_chunk_size,
      gm_patched_chunk_size, hdq]
    exact size_wrap_add_comm _ _ _
  · apply List.ext_getElem?
    intro n
    rw [gm_patched_chunk_get _ q _ heb1, gm_patched_chunk_get _ p _ hea2,
      gm_patched_chunk_get A p ea hea, gm_patched_chunk_get A q eb heb, hdq]
    by_cases hnj : n = q.index
    · have hni : n ≠ p.index := by omega
      rw [if_pos hnj, if_neg hni, if_pos hnj]
      simp only [Option.map_some']
      rw [if_pos hab]
    · rw [if_neg hnj, if_neg hnj]
      by_cases hni : n = p.index
      · rw [if_pos hni, if_pos hni]
        simp only [Option.map_some']
        rw [if_neg (by rw [hb1]; omega)]
      · rw [if_neg hni, if_neg hni]
        cases hx : A.entries[n]? with
        | none => simp only [Option.map_none']
        | some x =>
          have hfx := hfacts x (List.getElem?_mem hx)
          have hxa := hdis n p.index x ea hni hx hea
          have hxb := hdis n q.index x eb hnj hx heb
          simp only [gm_region_end, hL] at hxa hxb
          simp only [Option.map_some']
          rw [hb1]
          by_cases c1 : x.offset > ea.offset
          · have e1 : off_wrap (x.offset + gm_delta p ea) = x.offset + gm_delta p ea :=
              off_wrap_exact _ (by omega) (by omega)
            by_cases c2 : x.offset > eb.offset
            · have e2 : off_wrap (x.offset + gm_delta q eb) = x.offset + gm_delta q eb :=
                off_wrap_exact _ (by omega) (by omega)
              simp only [if_pos c1, if_pos c2]
              rw [if_pos (by simp only [e1]; omega), if_pos (by simp only [e2]; omega)]
              exact congrArg some (gm_pentry_ext _ _ (off_wrap_add_comm _ _ _) rfl rfl rfl)
            · simp only [if_pos c1, if_neg c2]
              rw [if_neg (by simp only [e1]; omega)]
          · have c2 : ¬ x.offset > eb.offset := by omega
            simp only [if_neg c1, if_neg c2]
            rw [if_neg (by omega)]
  · simp only [gm_patched_chunk_index]

theorem gm_tail_movable_congr (l1 l2 : List gm_patched_index) (n : Nat)
    (h : l1.map (fun c => c.sect) = l2.map fun c => c.sect)
    (h1 : ∀ x ∈ l1.drop n, gm_movable x.sect = true) :
    ∀ x ∈ l2.drop n, gm_movable x.sect = true := by
  have key : ∀ l : List gm_patched_index,
      (∀ x ∈ l.drop n, gm_movable x.sect = true) ↔
        ∀ s ∈ (l.map fun c => c.sect).drop n, gm_movable s = true := by
    intro l
    rw [← List.map_drop]
    simp only [List.mem_map, forall_exists_index, and_imp, forall_apply_eq_imp_iff₂]
  rw [key l2, ← h, ← key l1]
  exact h1

theorem gm_apply_cons (patched r : List gm_patched_index) (p : gm_patch)
    (rest : List gm_patch) :
    gm_apply_patches patched (p :: rest) = (gm_status.ok, r) ↔
      ∃ k S, gm_get_section patched p.sect = some k ∧
        gm_patch_at patched k p = (gm_status.ok, S) ∧
        gm_apply_patches S rest = (gm_status.ok, r) := by
  conv_lhs => rw [gm_apply_patches]
  cases hk : gm_get_section patched p.sect with
  | none => simp
  | some k =>
    cases hr : gm_patch_at patched k p with
    | mk st S =>
      cases st with
      | ok => simp [hr]
      | error e => simp [hr]

theorem gm_apply_two (patched r : List gm_patched_index) (p q : gm_patch) :
    gm_apply_patches patched [p, q] = (gm_status.ok, r) ↔
      ∃ kp S kq, gm_get_section patched p.sect = some kp ∧
        gm_patch_at patched kp p = (gm_status.ok, S) ∧
        gm_get_section S q.sect = some kq ∧
        gm_patch_at S kq q = (gm_status.ok, r) := by
  rw [gm_apply_cons]
  constructor
  · rintro ⟨kp, S, h1, h2, h3⟩
    rw [gm_apply_cons] at h3
    obtain ⟨kq, S2, h4, h5, h6⟩ := h3
    simp only [gm_apply_patches, Prod.mk.injEq, true_and] at h6
    subst h6
    exact ⟨kp, S, kq, h1, h2, h4, h5⟩
  · rintro ⟨kp, S, kq, h1, h2, h4, h5⟩
    refine ⟨kp, S, h1, h2, ?_⟩
    rw [gm_apply_cons]
    exact ⟨kq, r, h4, h5, by simp only [gm_apply_patches]⟩

theorem gm_patched_at_same (patched : List gm_patched_index) (k : Nat)
    (A : gm_patched_index) (p q : gm_patch) (ea eb eb1 ea2 : gm_patched_entry)
    (hA : patched[k]? = some A)
    (hb1 : eb1.entry = eb.entry) (ha2 : ea2.entry = ea.entry)
    (hc : gm_patched_chunk (gm_patched_chunk A p ea) q eb1 =
      gm_patched_chunk (gm_patched_chunk A q eb) p ea2) :
    gm_patched_at (gm_patched_at patched k A p ea) k (gm_patched_chunk A p ea) q eb1 =
      gm_patched_at (gm_patched_at patched k A q eb) k (gm_patched_chunk A q eb) p ea2 := by
  have h1 : (gm_patched_at patched k A p ea)[k]? = some (gm_patched_chunk A p ea) := by
    rw [gm_patched_at_get patched k A p ea hA, if_neg (by omega), if_pos rfl]
  have h2 : (gm_patched_at patched k A q eb)[k]? = some (gm_patched_chunk A q eb) := by
    rw [gm_patched_at_get patched k A q eb hA, if_neg (by omega), if_pos rfl]
  have hdq : gm_delta q eb1 = gm_delta q eb := gm_delta_entry q _ _ hb1
  have hdp : gm_delta p ea2 = gm_delta p ea := gm_delta_entry p _ _ ha2
  apply List.ext_getElem?
  intro n
  rw [gm_patched_at_get _ k _ q _ h1, gm_patched_at_get _ k _ p _ h2,
    gm_patched_at_get patched k A p ea hA, gm_patched_at_get patched k A q eb hA, hdq, hdp]
  by_cases c1 : n < k
  · rw [if_pos c1, if_pos c1, if_pos c1, if_pos c1]
  · by_cases c2 : n = k
    · rw [if_neg c1, if_pos c2, if_neg c1, if_pos c2, hc]
    · rw [if_neg c1, if_neg c2, if_neg c1, if_neg c2, if_neg c1, if_neg c2, if_neg c1,
        if_neg c2]
      cases patched[n]? with
      | none => simp only [Option.map_none']
      | some x =>
        simp only [Option.map_some']
        exact congrArg some (gm_shift_chunk_comm x _ _)

theorem gm_delta_bounds (p : gm_patch) (e : gm_patched_entry)
    (hp : p.size < 2305843009213693952) (hn : e.patch = none)
    (hs : e.patch = none → e.size = e.entry.size)
    (he : e.entry.size < 2305843009213693952) :
    -(e.size : Int) ≤ gm_delta p e ∧ gm_delta p e < 2305843009213693952 := by
  rw [gm_delta_exact p e (by omega) (by omega), hs hn]
  omega

theorem gm_delta_range (d : Int) (s : Nat)
    (h1 : -(s : Int) ≤ d ∧ d < 2305843009213693952) (h2 : s < 2305843009213693952) :
    -2305843009213693952 < d ∧ d < 2305843009213693952 := by
  omega

theorem gm_order_below (patched r : List gm_patched_index) (kp kq : Nat)
    (A B : gm_patched_index) (p q : gm_patch) (ea : gm_patched_entry) (hlt : kp < kq)
    (hA : patched[kp]? = some A) (hB : patched[kq]? = some B)
    (hAm : gm_movable A.sect = true) (hBm : gm_movable B.sect = true)
    (hea : A.entries[p.index]? = some ea) (hean : ea.patch = none)
    (heat : ea.entry.type = p.type)
    (head : A.sect = GM_TXTR → ea.entry.width = p.width ∧ ea.entry.height = p.height)
    (htail : ∀ x ∈ patched.drop (kp + 1), gm_movable x.sect = true)
    (hsmall : ∀ x ∈ B.entries, 0 ≤ x.offset ∧ x.offset < 2305843009213693952)
    (hd : -2305843009213693952 < gm_delta p ea ∧ gm_delta p ea < 2305843009213693952)
    (h4 : gm_patch_at (gm_patched_at patched kp A p ea) kq q = (gm_status.ok, r)) :
    ∃ eb, gm_patch_at patched kq q = (gm_status.ok, gm_patched_at patched kq B q eb) ∧
      gm_patch_at (gm_patched_at patched kq B q eb) kp p = (gm_status.ok, r) := by
  have hsS := gm_patched_at_sects patched kp A p ea hA
  have hSk : (gm_patched_at patched kp A p ea)[kq]? =
      some (gm_shift_chunk B (gm_delta p ea)) := by
    rw [gm_patched_at_get patched kp A p ea hA, if_neg (by omega), if_neg (by omega), hB]
    rfl
  obtain ⟨e1, he1, he1n, he1t, he1d, htq, hr⟩ :=
    (gm_patch_at_iff _ kq _ q r hSk (by rw [gm_shift_chunk_sect]; exact hBm)).mp h4
  rw [gm_shift_chunk_get] at he1
  cases heb : B.entries[q.index]? with
  | none =>
    rw [heb] at he1
    simp at he1
  | some eb =>
    rw [heb] at he1
    simp only [Option.map_some', Option.some.injEq] at he1
    subst he1
    have htq1 : ∀ x ∈ patched.drop (kq + 1), gm_movable x.sect = true :=
      gm_tail_movable_congr _ _ _ hsS htq
    have hS2 : (gm_patched_at patched kq B q eb)[kp]? = some A := by
      rw [gm_patched_at_get patched kq B q eb hB, if_pos hlt, hA]
    refine ⟨eb, ?_, ?_⟩
    · exact (gm_patch_at_iff patched kq B q _ hB hBm).mpr
        ⟨eb, heb, he1n, he1t, fun hs => he1d (by rw [gm_shift_chunk_sect]; exact hs), htq1, rfl⟩
    · refine (gm_patch_at_iff _ kp A p r hS2 hAm).mpr ⟨ea, hea, hean, heat, head, ?_, ?_⟩
      · exact gm_tail_movable_congr _ _ _ (gm_patched_at_sects patched kq B q eb hB).symm htail
      · rw [hr]
        exact gm_patched_at_comm patched kp kq A B p q ea eb hlt hA hB heb hsmall hd

theorem gm_order_above (patched r : List gm_patched_index) (kp kq : Nat)
    (A B : gm_patched_index) (p q : gm_patch) (ea : gm_patched_entry) (hlt : kq < kp)
    (hA : patched[kp]? = some A) (hB : patched[kq]? = some B)
    (hAm : gm_movable A.sect = true) (hBm : gm_movable B.sect = true)
    (hea : A.entries[p.index]? = some ea) (hean : ea.patch = none)
    (heat : ea.entry.type = p.type)
    (head : A.sect = GM_TXTR → ea.entry.width = p.width ∧ ea.entry.height = p.height)
    (hsmall : ∀ x ∈ A.entries, 0 ≤ x.offset ∧ x.offset < 2305843009213693952)
    (hd : ∀ eb, B.entries[q.index]? = some eb → eb.patch = none →
      -2305843009213693952 < gm_delta q eb ∧ gm_delta q eb < 2305843009213693952)
    (h4 : gm_patch_at (gm_patched_at patched kp A p ea) kq q = (gm_status.ok, r)) :
    ∃ eb, gm_patch_at patched kq q = (gm_status.ok, gm_patched_at patched kq B q eb) ∧
      gm_patch_at (gm_patched_at patched kq B q eb) kp p = (gm_status.ok, r) := by
  have hsS := gm_patched_at_sects patched kp A p ea hA
  have hSk : (gm_patched_at patched kp A p ea)[kq]? = some B := by
    rw [gm_patched_at_get patched kp A p ea hA, if_pos hlt, hB]
  obtain ⟨eb, heb, hebn, hebt, hebd, htq, hr⟩ := (gm_patch_at_iff _ kq B q r hSk hBm).mp h4
  have htq1 : ∀ x ∈ patched.drop (kq + 1), gm_movable x.sect = true :=
    gm_tail_movable_congr _ _ _ hsS htq
  have hS2 : (gm_patched_at patched kq B q eb)[kp]? =
      some (gm_shift_chunk A (gm_delta q eb)) := by
    rw [gm_patched_at_get patched kq B q eb hB, if_neg (by omega), if_neg (by omega), hA]
    rfl
  have hea2 : (gm_shift_chunk A (gm_delta q eb)).entries[p.index]? =
      some { ea with offset := off_wrap (ea.offset + gm_delta q eb) } := by
    rw [gm_shift_chunk_get, hea]
    rfl
  have htp : ∀ x ∈ (gm_patched_at patched kq B q eb).drop (kp + 1),
      gm_movable x.sect = true := by
    apply gm_tail_movable_congr (gm_patched_at patched kp A p ea) _ (kp + 1)
      (hsS.trans (gm_patched_at_sects patched kq B q eb hB).symm)
    intro x hx
    apply htq x
    rw [show kp + 1 = (kq + 1) + (kp - kq) from by omega, ← List.drop_drop] at hx
    exact List.mem_of_mem_drop hx
  refine ⟨eb, ?_, ?_⟩
  · exact (gm_patch_at_iff patched kq B q _ hB hBm).mpr ⟨eb, heb, hebn, hebt, hebd, htq1, rfl⟩
  · refine (gm_patch_at_iff _ kp _ p r hS2 (by rw [gm_shift_chunk_sect]; exact hAm)).mpr
      ⟨_, hea2, hean, heat, fun hs => head (by rw [gm_shift_chunk_sect] at hs; exact hs),
        htp, ?_⟩
    rw [hr]
    exact (gm_patched_at_comm patched kq kp B A q p eb ea hlt hB hA hea hsmall
      (hd eb heb hebn)).symm

theorem gm_order_same (patched r : List gm_patched_index) (k : Nat)
    (A : gm_patched_index) (p q : gm_patch) (ea : gm_patched_entry)
    (hij : p.index ≠ q.index) (hA : patched[k]? = some A)
    (hAm : gm_movable A.sect = true)
    (hea : A.entries[p.index]? = some ea) (hean : ea.patch = none)
    (heat : ea.entry.type = p.type)
    (head : A.sect = GM_TXTR → ea.entry.width = p.width ∧ ea.entry.height = p.height)
    (hdis : gm_entries_disjoint A)
    (hfacts : ∀ e ∈ A.entries, 0 < e.size ∧ (e.patch = none → e.size = e.entry.size) ∧
      0 ≤ e.offset ∧ e.offset < 2305843009213693952 ∧ e.size < 2305843009213693952 ∧
      e.entry.size < 2305843009213693952)
    (hp : p.size < 2305843009213693952) (hq : q.size < 2305843009213693952)
    (h4 : gm_patch_at (gm_patched_at patched k A p ea) k q = (gm_status.ok, r)) :
    ∃ eb, gm_patch_at patched k q = (gm_status.ok, gm_patched_at patched k A q eb) ∧
      gm_patch_at (gm_patched_at patched k A q eb) k p = (gm_status.ok, r) := by
  obtain ⟨L, hL0, hL4, hL⟩ := gm_region_start_lead A.sect
  have hsS := gm_patched_at_sects patched k A p ea hA
  have hSk : (gm_patched_at patched k A p ea)[k]? = some (gm_patched_chunk A p ea) := by
    rw [gm_patched_at_get patched k A p ea hA, if_neg (by omega), if_pos rfl]
  obtain ⟨e1, he1, he1n, he1t, he1d, htq, hr⟩ :=
    (gm_patch_at_iff _ k _ q r hSk (by rw [gm_patched_chunk_sect]; exact hAm)).mp h4
  have htq1 : ∀ x ∈ patched.drop (k + 1), gm_movable x.sect = true :=
    gm_tail_movable_congr _ _ _ hsS htq
  rw [gm_patched_chunk_get A p ea hea, if_neg (Ne.symm hij)] at he1
  cases heb : A.entries[q.index]? with
  | none =>
    rw [heb] at he1
    simp at he1
  | some eb =>
    rw [heb] at he1
    simp only [Option.map_some', Option.some.injEq] at he1
    have hfa := hfacts ea (List.getElem?_mem hea)
    have hfb := hfacts eb (List.getElem?_mem heb)
    have hdab := hdis p.index q.index ea eb hij hea heb
    simp only [gm_region_end, hL] at hdab
    have hS2 : (gm_patched_at patched k A q eb)[k]? = some (gm_patched_chunk A q eb) := by
      rw [gm_patched_at_get patched k A q eb hA, if_neg (by omega), if_pos rfl]
    have htp : ∀ x ∈ (gm_patched_at patched k A q eb).drop (k + 1),
        gm_movable x.sect = true :=
      gm_tail_movable_congr _ _ _ (gm_patched_at_sects patched k A q eb hA).symm htq1
    have hfs : ∀ e ∈ A.entries, 0 < e.size ∧ 0 ≤ e.offset ∧
        e.offset < 2305843009213693952 := fun e he =>
      ⟨(hfacts e he).1, (hfacts e he).2.2.1, (hfacts e he).2.2.2.1⟩
    have hda := gm_delta_bounds p ea hp hean hfa.2.1 hfa.2.2.2.2.2
    by_cases hgt : eb.offset > ea.offset
    · rw [if_pos hgt] at he1
      subst he1
      have hdb := gm_delta_bounds q eb hq he1n hfb.2.1 hfb.2.2.2.2.2
      have hea2 : (gm_patched_chunk A q eb).entries[p.index]? = some ea := by
        rw [gm_patched_chunk_get A q eb heb, if_neg hij, hea]
        simp only [Option.map_some']
        rw [if_neg (by omega)]
      refine ⟨eb, ?_, ?_⟩
      · exact (gm_patch_at_iff patched k A q _ hA hAm).mpr
          ⟨eb, heb, he1n, he1t,
            fun hs => he1d (by rw [gm_patched_chunk_sect]; exact hs), htq1, rfl⟩
      · refine (gm_patch_at_iff _ k _ p r hS2
          (by rw [gm_patched_chunk_sect]; exact hAm)).mpr
          ⟨ea, hea2, hean, heat,
            fun hs => head (by rw [gm_patched_chunk_sect] at hs; exact hs), htp, ?_⟩
        rw [hr]
        exact gm_patched_at_same patched k A p q ea eb _ ea hA rfl rfl
          (gm_patched_chunk_comm A p q ea eb hij hea heb hgt hdis hfs hda hdb
            hfa.2.2.2.2.1 hfb.2.2.2.2.1)
    · rw [if_neg hgt] at he1
      subst he1
      have hlt : eb.offset < ea.offset := by omega
      have hdb := gm_delta_bounds q eb hq he1n hfb.2.1 hfb.2.2.2.2.2
      have hea2 : (gm_patched_chunk A q eb).entries[p.index]? =
          some { ea with offset := off_wrap (ea.offset + gm_delta q eb) } := by
        rw [gm_patched_chunk_get A q eb heb, if_neg hij, hea]
        simp only [Option.map_some']
        rw [if_pos hlt]
      refine ⟨eb, ?_, ?_⟩
      · exact (gm_patch_at_iff patched k A q _ hA hAm).mpr
          ⟨eb, heb, he1n, he1t,
            fun hs => he1d (by rw [gm_patched_chunk_sect]; exact hs), htq1, rfl⟩
      · refine (gm_patch_at_iff _ k _ p r hS2
          (by rw [gm_patched_chunk_sect]; exact hAm)).mpr
          ⟨_, hea2, hean, heat,
            fun hs => head (by rw [gm_patched_chunk_sect] at hs; exact hs), htp, ?_⟩
        rw [hr]
        exact gm_patched_at_same patched k A p q ea eb eb _ hA rfl rfl
          (gm_patched_chunk_comm A q p eb ea (Ne.symm hij) heb hea hlt hdis hfs hdb hda
            hfb.2.2.2.2.1 hfa.2.2.2.2.1).symm

theorem gm_order_ready_pair : gm_order_ready [ex_txtr_pair] := by
  intro c hc _
  simp only [List.mem_singleton] at hc
  subst hc
  refine ⟨?_, ?_⟩
  · intro i j a b hij ha hb
    have hi : i < 2 := (List.getElem?_eq_some_iff.mp ha).1
    have hj : j < 2 := (List.getElem?_eq_some_iff.mp hb).1
    interval_cases i <;> interval_cases j <;>
      simp [ex_txtr_pair] at ha hb hij ⊢ <;> subst ha <;> subst hb <;>
      simp [gm_region_end, gm_region_start, GM_TXTR, GM_AUDO]
  · intro e he
    simp only [ex_txtr_pair, List.mem_cons, List.mem_singleton, List.not_mem_nil,
      or_false] at he
    rcases he with he | he <;> subst he <;> simp [ex_img]

/-- C37 (counterexample). With a patch whose size field is `2^64 - 90`, the order matters: on
the chunk `ex_txtr_pair` (images of 10 bytes at 100 and 110) the difference `2^64 - 100` is the
`off_t` value -100; applied first, it moves image 1 to offset 10, below image 0, so that the
patch for image 1 then moves image 0 to offset 110; applied second, image 0 stays at 100.  Both
orders succeed, and the regions of the chunk are non-empty and do not overlap. -/
theorem gm_patch_order_matters :
    gm_order_ready [ex_txtr_pair] ∧
    (gm_apply_patches [ex_txtr_pair] [ex_patch_huge, ex_patch_img 1]).1 = gm_status.ok ∧
    (gm_apply_patches [ex_txtr_pair] [ex_patch_img 1, ex_patch_huge]).1 = gm_status.ok ∧
    ((gm_apply_patches [ex_txtr_pair] [ex_patch_huge, ex_patch_img 1]).2.map fun c =>
      c.entries.map fun e => e.offset) = [[110, 10]] ∧
    ((gm_apply_patches [ex_txtr_pair] [ex_patch_img 1, ex_patch_huge]).2.map fun c =>
      c.entries.map fun e => e.offset) = [[100, 10]] := by
  exact ⟨gm_order_ready_pair, by decide⟩

/-- C37 (amended). For a planned index in which the entry regions of each TXTR/AUDO chunk are
non-empty and pairwise non-overlapping, every entry without a patch has the size of its parsed
entry, and entry offsets and sizes are below `2^61`: when two TXTR/AUDO patches of fewer than
`2^61` bytes target different entries and applying `p` then `q` succeeds, applying `q` then
`p` succeeds as well and yields exactly the same planned index. -/
theorem gm_patch_order_independent (patched r : List gm_patched_index) (p q : gm_patch)
    (hready : gm_order_ready patched)
    (hp : p.size < 2305843009213693952) (hq : q.size < 2305843009213693952)
    (hpm : gm_movable p.sect = true) (hqm : gm_movable q.sect = true)
    (hne : p.sect ≠ q.sect ∨ p.index ≠ q.index)
    (h : gm_apply_patches patched [p, q] = (gm_status.ok, r)) :
    gm_apply_patches patched [q, p] = (gm_status.ok, r) := by
  rw [gm_apply_two] at h ⊢
  obtain ⟨kp, S, kq, h1, h2, h3, h4⟩ := h
  obtain ⟨⟨A, hA, hAs⟩, _⟩ := (gm_get_section_spec patched p.sect).2 kp h1
  have hAm : gm_movable A.sect = true := by rw [hAs]; exact hpm
  obtain ⟨ea, hea, hean, heat, head, htailp, hS⟩ :=
    (gm_patch_at_iff patched kp A p S hA hAm).mp h2
  subst hS
  have hsS := gm_patched_at_sects patched kp A p ea hA
  have h3p : gm_get_section patched q.sect = some kq := by
    rw [← gm_get_section_congr _ patched q.sect hsS]
    exact h3
  obtain ⟨⟨B, hB, hBs⟩, _⟩ := (gm_get_section_spec patched q.sect).2 kq h3p
  have hBm : gm_movable B.sect = true := by rw [hBs]; exact hqm
  obtain ⟨hdisA, hfA⟩ := hready A (List.getElem?_mem hA) hAm
  obtain ⟨hdisB, hfB⟩ := hready B (List.getElem?_mem hB) hBm
  have hfa := hfA ea (List.getElem?_mem hea)
  have hda := gm_delta_bounds p ea hp hean hfa.2.1 hfa.2.2.2.2.2
  have key : ∃ eb, gm_patch_at patched kq q = (gm_status.ok, gm_patched_at patched kq B q eb) ∧
      gm_patch_at (gm_patched_at patched kq B q eb) kp p = (gm_status.ok, r) := by
    rcases Nat.lt_trichotomy kp kq with hlt | heq | hgt
    · exact gm_order_below patched r kp kq A B p q ea hlt hA hB hAm hBm hea hean heat
        head htailp (fun x hx => ⟨(hfB x hx).2.2.1, (hfB x hx).2.2.2.1⟩)
        (gm_delta_range _ _ hda hfa.2.2.2.2.1) h4
    · subst heq
      rw [hA] at hB
      simp only [Option.some.injEq] at hB
      subst hB
      have hij : p.index ≠ q.index := by
        rcases hne with hs | hi
        · exact absurd (hAs.symm.trans hBs) hs
        · exact hi
      exact gm_order_same patched r kp A p q ea hij hA hAm hea hean heat head hdisA hfA
        hp hq h4
    · refine gm_order_above patched r kp kq A B p q ea hgt hA hB hAm hBm hea hean heat
        head (fun x hx => ⟨(hfA x hx).2.2.1, (hfA x hx).2.2.2.1⟩) ?_ h4
      intro eb heb hebn
      have hfb := hfB eb (List.getElem?_mem heb)
      exact gm_delta_range _ _ (gm_delta_bounds q eb hq hebn hfb.2.1 hfb.2.2.2.2.2)
        hfb.2.2.2.2.1
  obtain ⟨eb, g1, g2⟩ := key
  refine ⟨kq, _, kp, h3p, g1, ?_, g2⟩
  rw [gm_get_section_congr _ patched p.sect (gm_patched_at_sects patched kq B q eb hB)]
  exact h1

/-- C37 (witness). Two patches of 20 bytes for the two images of a TXTR chunk: both orders
succeed and give the same planned index. -/
theorem gm_patch_order_independent_witness :
    gm_order_ready [ex_txtr_pair] ∧
      gm_apply_patches [ex_txtr_pair] [ex_patch_img 0, ex_patch_img 1] =
        (gm_status.ok, (gm_apply_patches [ex_txtr_pair] [ex_patch_img 0, ex_patch_img 1]).2) ∧
      gm_apply_patches [ex_txtr_pair] [ex_patch_img 1, ex_patch_img 0] =
        (gm_status.ok, (gm_apply_patches [ex_txtr_pair] [ex_patch_img 0, ex_patch_img 1]).2) :=
  have hrun : gm_apply_patches [ex_txtr_pair] [ex_patch_img 0, ex_patch_img 1] =
      (gm_status.ok, (gm_apply_patches [ex_txtr_pair] [ex_patch_img 0, ex_patch_img 1]).2) := by
    decide
  ⟨gm_order_ready_pair, hrun,
    gm_patch_order_independent [ex_txtr_pair] _ (ex_patch_img 0) (ex_patch_img 1)
      gm_order_ready_pair (by decide) (by decide) (by decide) (by decide) (Or.inr (by decide))
      hrun⟩
/-! ## The writer without faults, in any order of the pieces -/

theorem gm_ext_refl (game d : List Nat) : gm_ext game d d :=
  ⟨fun _ h => h, fun h => h⟩

theorem gm_ext_trans (game d d1 d2 : List Nat) (h1 : gm_ext game d d1)
    (h2 : gm_ext game d1 d2) : gm_ext game d d2 :=
  ⟨fun i h => h2.1 i (h1.1 i h), fun h => h2.2 (h1.2 h)⟩

theorem gm_file_write_length (d : List Nat) (p : Nat) (b : List Nat) :
    (gm_file_write d p b).length = max d.length (p + b.length) := by
  unfold gm_file_write
  simp only [List.length_append, List.length_take, List.length_replicate, List.length_drop]
  omega

theorem gm_file_write_get (d : List Nat) (p : Nat) (b : List Nat) (i : Nat) :
    (gm_file_write d p b)[i]? =
      if i < p then (if i < d.length then d[i]? else some 0)
      else if i < p + b.length then b[i - p]? else d[i]? := by
  unfold gm_file_write
  by_cases h1 : i < p
  · rw [if_pos h1, List.append_assoc, List.append_assoc]
    by_cases h2 : i < d.length
    · rw [if_pos h2, List.getElem?_append_left (by rw [List.length_take]; omega),
        List.getElem?_take, if_pos h1]
    · rw [if_neg h2, List.getElem?_append_right (by rw [List.length_take]; omega),
        List.getElem?_append_left (by rw [List.length_take, List.length_replicate]; omega),
        List.getElem?_replicate, if_pos (by rw [List.length_take]; omega)]
  · rw [if_neg h1]
    have hl : (d.take p ++ List.replicate (p - d.length) 0).length = p := by
      rw [List.length_append, List.length_take, List.length_replicate]; omega
    by_cases h2 : i < p + b.length
    · rw [if_pos h2, List.append_assoc (d.take p ++ List.replicate (p - d.length) 0),
        List.getElem?_append_right (by rw [hl]; omega), hl,
        List.getElem?_append_left (by omega)]
    · rw [if_neg h2, List.getElem?_append_right (by
          rw [List.length_append, hl]; omega),
        List.length_append, hl, List.getElem?_drop]
      congr 1
      omega

theorem gm_file_write_ext (game d : List Nat) (p n : Nat) (hn : p + n ≤ game.length) :
    gm_ext game d (gm_file_write d p ((game.drop p).take n)) ∧
      ∀ i, p ≤ i → i < p + n → gm_agree game (gm_file_write d p ((game.drop p).take n)) i := by
  have hlen : ((game.drop p).take n).length = n := by
    rw [List.length_take, List.length_drop]; omega
  have hreg : ∀ i, p ≤ i → i < p + n →
      (gm_file_write d p ((game.drop p).take n))[i]? = game[i]? := by
    intro i h1 h2
    rw [gm_file_write_get, if_neg (by omega), if_pos (by rw [hlen]; omega), List.getElem?_take,
      if_pos (by omega), List.getElem?_drop]
    congr 1
    omega
  refine ⟨⟨?_, ?_⟩, ?_⟩
  · intro i ⟨hi, he⟩
    refine ⟨by rw [gm_file_write_length]; omega, ?_⟩
    by_cases h1 : i < p
    · rw [gm_file_write_get, if_pos h1, if_pos hi, he]
    · by_cases h2 : i < p + n
      · exact hreg i (by omega) h2
      · rw [gm_file_write_get, if_neg h1, if_neg (by rw [hlen]; omega), he]
  · intro hs i hi
    rw [gm_file_write_length, hlen] at hi
    by_cases h1 : i < p
    · by_cases h0 : i < d.length
      · rw [gm_file_write_get, if_pos h1, if_pos h0]
        exact hs i h0
      · rw [gm_file_write_get, if_pos h1, if_neg h0]
        exact ⟨by omega, Or.inr rfl⟩
    · by_cases h2 : i < p + n
      · exact ⟨by omega, Or.inl (hreg i (by omega) h2)⟩
      · rw [gm_file_write_get, if_neg h1, if_neg (by rw [hlen]; omega)]
        exact hs i (by omega)
  · intro i h1 h2
    exact ⟨by rw [gm_file_write_length, hlen]; omega, hreg i h1 h2⟩

theorem gm_fwrite_ext (game : List Nat) (s : gm_out) (n : Nat) (hf : s.fault = none)
    (h0 : 0 < n) (hn : s.pos + n ≤ game.length) :
    ∃ s1, gm_fwrite ((game.drop s.pos).take n) s = some s1 ∧ s1.fault = none ∧
      s1.pos = s.pos + n ∧ gm_ext game s.data s1.data ∧
      ∀ i, s.pos ≤ i → i < s.pos + n → gm_agree game s1.data i := by
  obtain ⟨d, p, f⟩ := s
  simp only at hf hn ⊢
  subst hf
  have hlen : ((game.drop p).take n).length = n := by
    rw [List.length_take, List.length_drop]; omega
  obtain ⟨he, hr⟩ := gm_file_write_ext game d p n hn
  refine ⟨_, gm_fwrite_nofault _ d p (by omega), rfl, by simp only [hlen], he, hr⟩

theorem gm_copy_loop_ext (game : List Nat) (fuel : Nat) :
    ∀ (size srcpos : Nat) (s : gm_out), size ≤ fuel → s.fault = none → s.pos = srcpos →
      (size = 0 ∨ srcpos + size ≤ game.length) →
      ∃ s1, gm_copy_loop game fuel srcpos size s = some s1 ∧ s1.fault = none ∧
        gm_ext game s.data s1.data ∧
        ∀ i, srcpos ≤ i → i < srcpos + size → gm_agree game s1.data i := by
  induction fuel with
  | zero =>
    intro size srcpos s hf hfl hp hfit
    have : size = 0 := by omega
    subst this
    exact ⟨s, by simp [gm_copy_loop], hfl, gm_ext_refl _ _, fun i h1 h2 => by omega⟩
  | succ fuel ih =>
    intro size srcpos s hf hfl hp hfit
    by_cases hs : size > 0
    · have hB : 0 < BUFSIZ := by unfold BUFSIZ; omega
      have hfit2 : srcpos + size ≤ game.length := by omega
      generalize hc : (if size ≥ BUFSIZ then BUFSIZ else size) = chunk
      have hc1 : 0 < chunk ∧ chunk ≤ size := by
        rw [← hc]; split <;> omega
      obtain ⟨s1, hw, hf1, hp1, he1, hr1⟩ := gm_fwrite_ext game s chunk hfl hc1.1 (by omega)
      obtain ⟨s2, hl, hf2, he2, hr2⟩ := ih (size - chunk) (srcpos + chunk) s1 (by omega) hf1
        (by omega) (Or.inr (by omega))
      refine ⟨s2, ?_, hf2, gm_ext_trans _ _ _ _ he1 he2, ?_⟩
      · rw [gm_copy_loop, if_pos hs]
        have hio : gm_io s = some s := by
          unfold gm_io; rw [hfl]
        rw [hio]
        simp only [hc]
        rw [gm_fread_some game srcpos chunk hc1.1 (by omega), ← hp]
        simp only
        rw [hw]
        simp only
        rw [hp]
        exact hl
      · intro i h1 h2
        by_cases h3 : i < srcpos + chunk
        · exact he2.1 i (hr1 i (by omega) (by omega))
        · exact hr2 i (by omega) (by omega)
    · have : size = 0 := by omega
      subst this
      exact ⟨s, by simp [gm_copy_loop], hfl, gm_ext_refl _ _, fun i h1 h2 => by omega⟩

theorem gm_copydata_ext (game : List Nat) (off : Int) (size : Nat) (s : gm_out)
    (hoff : 0 ≤ off) (hf : s.fault = none)
    (hfit : size = 0 ∨ off + (size : Int) ≤ (game.length : Int)) :
    ∃ s1, gm_copydata game off off size s = some s1 ∧ s1.fault = none ∧
      gm_ext game s.data s1.data ∧
      ∀ i : Nat, off ≤ (i : Int) → (i : Int) < off + (size : Int) → gm_agree game s1.data i := by
  obtain ⟨d, p, f⟩ := s
  simp only at hf
  subst hf
  obtain ⟨P, rfl⟩ : ∃ P : Nat, off = (P : Int) := ⟨off.toNat, by omega⟩
  obtain ⟨s1, hl, hf1, he1, hr1⟩ := gm_copy_loop_ext game size size P
    { data := d, pos := P, fault := none } (Nat.le_refl _) rfl rfl (by omega)
  refine ⟨s1, ?_, hf1, he1, fun i h1 h2 => hr1 i (by omega) (by omega)⟩
  unfold gm_copydata
  rw [if_neg (by omega), gm_io_nofault]
  simp only
  rw [gm_fseeko_nofault _ _ _ (by omega)]
  simp only [Int.toNat_ofNat]
  exact hl

theorem gm_write_each_ext {α : Type} (game : List Nat) (step : α → gm_out → Option gm_out)
    (cov : α → Nat → Prop) (xs : List α)
    (hstep : ∀ x ∈ xs, ∀ s : gm_out, s.fault = none →
      ∃ s1, step x s = some s1 ∧ s1.fault = none ∧ gm_ext game s.data s1.data ∧
        ∀ i, cov x i → gm_agree game s1.data i) :
    ∀ s : gm_out, s.fault = none →
      ∃ s1, gm_write_each step xs s = some s1 ∧ s1.fault = none ∧ gm_ext game s.data s1.data ∧
        ∀ x ∈ xs, ∀ i, cov x i → gm_agree game s1.data i := by
  induction xs with
  | nil =>
    intro s hf
    exact ⟨s, rfl, hf, gm_ext_refl _ _, fun x hx => by simp at hx⟩
  | cons x rest ih =>
    intro s hf
    obtain ⟨s1, h1, hf1, he1, hr1⟩ := hstep x (List.mem_cons_self _ _) s hf
    obtain ⟨s2, h2, hf2, he2, hr2⟩ := ih (fun y hy => hstep y (List.mem_cons_of_mem _ hy)) s1 hf1
    refine ⟨s2, ?_, hf2, gm_ext_trans _ _ _ _ he1 he2, ?_⟩
    · simp only [gm_write_each, h1]
      exact h2
    · intro y hy i hi
      rcases List.mem_cons.mp hy with rfl | hy
      · exact he2.1 i (hr1 i hi)
      · exact hr2 y hy i hi

theorem gm_write_records_ext {α : Type} (game : List Nat) (g : α → List Nat) (r : Nat)
    (hr : 0 < r) (xs : List α) :
    ∀ (s : gm_out) (base : Nat), s.fault = none → s.pos = base →
      (∀ i x, xs[i]? = some x →
        g x = (game.drop (base + r * i)).take r ∧ base + r * i + r ≤ game.length) →
      ∃ s1, gm_write_each (fun x => gm_fwrite (g x)) xs s = some s1 ∧ s1.fault = none ∧
        s1.pos = base + r * xs.length ∧ gm_ext game s.data s1.data ∧
        ∀ i, base ≤ i → i < base + r * xs.length → gm_agree game s1.data i := by
  induction xs with
  | nil =>
    intro s base hf hp h
    exact ⟨s, rfl, hf, by simpa using hp, gm_ext_refl _ _, fun i h1 h2 => by
      simp at h2; omega⟩
  | cons x rest ih =>
    intro s base hf hp h
    obtain ⟨h1, h2⟩ := h 0 x (by simp)
    rw [Nat.mul_zero, Nat.add_zero] at h1 h2
    obtain ⟨s1, hw, hf1, hp1, he1, hr1⟩ := gm_fwrite_ext game s r hf hr (by omega)
    rw [hp] at hw hp1 hr1
    obtain ⟨s2, hl, hf2, hp2, he2, hr2⟩ := ih s1 (base + r) hf1 hp1 (by
      intro i y hy
      have := h (i + 1) y (by simpa using hy)
      have e3 : base + r * (i + 1) = base + r + r * i := by rw [Nat.mul_add]; omega
      rw [e3] at this
      exact this)
    have e2 : base + r + r * rest.length = base + r * (rest.length + 1) := by
      rw [Nat.mul_add]; omega
    refine ⟨s2, ?_, hf2, by rw [hp2, List.length_cons, e2], gm_ext_trans _ _ _ _ he1 he2, ?_⟩
    · simp only [gm_write_each]
      rw [h1, hw]
      exact hl
    · intro i hi1 hi2
      rw [List.length_cons, ← e2] at hi2
      by_cases h3 : i < base + r
      · exact he2.1 i (hr1 i hi1 h3)
      · exact hr2 i (by omega) hi2

theorem gm_write_hdr_ext (game : List Nat) (hb : gm_bytes_ok game) (C : Nat) (m : List Nat)
    (size : Nat) (s : gm_out) (hm : m = (game.drop C).take 4)
    (hs : size = U32LE_FROM_BUF game (C + 4)) (hC : C + 8 ≤ game.length)
    (hf : s.fault = none) (hp : s.pos = C) :
    ∃ s1, gm_write_hdr (some m) size s = some s1 ∧ s1.fault = none ∧ s1.pos = C + 8 ∧
      gm_ext game s.data s1.data ∧ ∀ i, C ≤ i → i < C + 8 → gm_agree game s1.data i := by
  have hlt := gm_u32_lt game hb (C + 4)
  have hm4 : m.take 4 = m := by
    rw [hm, List.take_take, Nat.min_self]
  have hbytes : m ++ WRITE_U32LE (size : Int) = (game.drop C).take (4 + 4) := by
    rw [List.take_add, List.drop_drop, hm, hs, gm_write_u32_read game hb (C + 4) (by omega)]
  obtain ⟨s1, hw, hf1, hp1, he1, hr1⟩ := gm_fwrite_ext game s 8 hf (by omega) (by omega)
  rw [hp] at hw hp1 hr1
  refine ⟨s1, ?_, hf1, hp1, he1, hr1⟩
  unfold gm_write_hdr
  simp only
  rw [if_neg (by unfold UINT32_MAX; omega), hm4, hbytes]
  exact hw
theorem gm_write_txtr_ext (png : png_sniffer) (game : List Nat) (hb : gm_bytes_ok game)
    (ptr : gm_patched_index) (C : Nat) (es : List gm_entry) (s : gm_out)
    (hsect : ptr.sect = GM_TXTR) (hoff : ptr.offset = (C : Int))
    (hes : ptr.entries =
      es.map fun e => { offset := e.offset, size := e.size, patch := none, entry := e })
    (hent : gm_read_index_txtr png game (C + 8) = some es)
    (htab : ∀ i < es.length,
      U32LE_FROM_BUF game (C + 12 + 4 * i) = C + 12 + 4 * es.length + 12 * i)
    (hfit : ∀ e ∈ es, 0 < e.size → e.offset + (e.size : Int) ≤ (game.length : Int))
    (hf : s.fault = none) (hp : s.pos = C + 8) :
    ∃ s1, gm_write_section game ptr s = some s1 ∧ s1.fault = none ∧
      gm_ext game s.data s1.data ∧
      (∀ i, C + 8 ≤ i → i < C + 12 + 16 * es.length → gm_agree game s1.data i) ∧
      ∀ e ∈ es, ∀ i : Nat, e.offset ≤ (i : Int) → (i : Int) < e.offset + (e.size : Int) →
        gm_agree game s1.data i := by
  have hI : INT32_MAX = 2147483647 := rfl
  unfold gm_read_index_txtr at hent
  split at hent
  · cases hent
  rename_i buffer hbuf
  have hc := gm_u32_of_fread game (C + 8) 4 0 buffer hbuf (by omega)
  obtain ⟨-, hclen, -, -⟩ := gm_fread_eq _ _ _ _ hbuf
  rw [Nat.add_zero] at hc
  rw [hc] at hent
  split at hent
  · cases hent
  rename_i offs hoffs
  obtain ⟨hol, hog⟩ := gm_read_offsets_spec _ _ _ _ hoffs
  obtain ⟨hel, heg⟩ := gm_read_entries_get _ _ _ hent
  have hn : es.length = U32LE_FROM_BUF game (C + 8) := by omega
  have e1 : WRITE_U32LE (es.length : Int) = (game.drop (C + 8)).take 4 := by
    rw [hn]; exact gm_write_u32_read game hb (C + 8) (by omega)
  obtain ⟨s1, hw1, hf1, hp1, he1, hr1⟩ := gm_fwrite_ext game s 4 hf (by omega) (by omega)
  rw [hp] at hw1 hp1 hr1
  have e3 : C + 8 + 4 = C + 12 := by omega
  rw [e3] at hp1 hr1
  obtain ⟨s2, hw2, hf2, hp2, he2, hr2⟩ := gm_write_records_ext game
    (fun i => WRITE_U32LE (gm_fileinfo_offset ptr i)) 4 (by omega) (List.range es.length)
    s1 (C + 12) hf1 hp1 (by
      intro i x hx
      obtain ⟨hi, hx⟩ := List.getElem?_eq_some_iff.mp hx
      rw [List.length_range] at hi
      rw [List.getElem_range] at hx
      subst hx
      beta_reduce
      obtain ⟨-, hb1, hbound⟩ := hog i (by omega)
      obtain ⟨-, hb0, -⟩ := hog 0 (by omega)
      have e0 : C + 8 + 4 + 4 * i = C + 12 + 4 * i := by omega
      rw [e0] at hb1 hbound
      have h0 := htab 0 (by omega)
      rw [show C + 8 + 4 + 4 * 0 = C + 12 + 4 * 0 from by omega, h0] at hb0
      have hi1 := htab i hi
      refine ⟨?_, by omega⟩
      have e : gm_fileinfo_offset ptr i = (U32LE_FROM_BUF game (C + 12 + 4 * i) : Int) := by
        unfold gm_fileinfo_offset
        rw [hoff, hes, List.length_map, hi1, u32_wrap_eq, u32_wrap_eq]
        omega
      simp only [e]
      exact gm_write_u32_read game hb _ (by omega))
  rw [List.length_range] at hp2 hr2
  obtain ⟨s3, hw3, hf3, hp3, he3, hr3⟩ := gm_write_records_ext game
    (fun (entry : gm_patched_entry) =>
      WRITE_U32LE (entry.entry.unknown1 : Int) ++ WRITE_U32LE (entry.entry.unknown2 : Int) ++
        WRITE_U32LE entry.offset) 12 (by omega)
    (es.map fun e => { offset := e.offset, size := e.size, patch := none, entry := e })
    s2 (C + 12 + 4 * es.length) hf2 hp2 (by
      intro i x hx
      rw [List.getElem?_map] at hx
      cases hei : es[i]? with
      | none => rw [hei] at hx; cases hx
      | some e =>
        rw [hei] at hx
        simp only [Option.map_some', Option.some.injEq] at hx
        subst hx
        beta_reduce
        obtain ⟨o, ho, hread⟩ := heg i e hei
        have hi : i < es.length := (List.getElem?_eq_some_iff.mp hei).1
        obtain ⟨ho1, -, -⟩ := hog i (by omega)
        rw [ho1] at ho
        simp only [Option.some.injEq] at ho
        have ho2 : o = C + 12 + 4 * es.length + 12 * i := by
          have := htab i hi
          have e : C + 8 + 4 + 4 * i = C + 12 + 4 * i := by omega
          rw [e] at ho
          omega
        subst ho2
        obtain ⟨hlen, -⟩ := gm_read_txtr_entry_spec png game _ e hread
        exact ⟨gm_txtr_descriptor_bytes png game hb _ e hread, hlen⟩)
  rw [List.length_map] at hp3 hr3
  obtain ⟨s4, hw4, hf4, he4, hr4⟩ := gm_write_each_ext game (gm_write_txtr_entry game)
    (fun (x : gm_patched_entry) i => x.offset ≤ (i : Int) ∧ (i : Int) < x.offset + (x.size : Int))
    (es.map fun e => { offset := e.offset, size := e.size, patch := none, entry := e })
    (by
      intro x hx t ht
      obtain ⟨e, he, rfl⟩ := List.mem_map.mp hx
      obtain ⟨j, hj⟩ := List.mem_iff_getElem?.mp he
      obtain ⟨o, -, hread⟩ := heg j e hj
      obtain ⟨-, -, -, heo, -⟩ := gm_read_txtr_entry_spec png game _ e hread
      obtain ⟨t1, hc1, hft, het, hrt⟩ := gm_copydata_ext game e.offset e.size t (by omega) ht
        (by
          by_cases h0 : e.size = 0
          · exact Or.inl h0
          · exact Or.inr (hfit e he (by omega)))
      exact ⟨t1, hc1, hft, het, fun i hi => hrt i hi.1 hi.2⟩) s3 hf3
  refine ⟨s4, ?_, hf4,
    gm_ext_trans _ _ _ _ he1 (gm_ext_trans _ _ _ _ he2 (gm_ext_trans _ _ _ _ he3 he4)), ?_, ?_⟩
  · unfold gm_write_section
    simp only [hsect]
    rw [hes, List.length_map, e1, hw1]
    simp only
    rw [hw2]
    simp only
    rw [hw3]
    simp only
    exact hw4
  · intro i h1 h2
    by_cases c1 : i < C + 12
    · exact he4.1 i (he3.1 i (he2.1 i (hr1 i h1 c1)))
    · by_cases c2 : i < C + 12 + 4 * es.length
      · exact he4.1 i (he3.1 i (hr2 i (by omega) c2))
      · exact he4.1 i (hr3 i (by omega) (by omega))
  · intro e he i h1 h2
    exact hr4 _ (List.mem_map.mpr ⟨e, he, rfl⟩) i ⟨h1, h2⟩

theorem gm_write_audo_ext (game : List Nat) (hb : gm_bytes_ok game)
    (ptr : gm_patched_index) (C : Nat) (es : List gm_entry) (s : gm_out)
    (hsect : ptr.sect = GM_AUDO)
    (hes : ptr.entries =
      es.map fun e => { offset := e.offset, size := e.size, patch := none, entry := e })
    (hent : gm_read_index_audo game (C + 8) = some es)
    (hfit : ∀ e ∈ es, e.offset + (e.size : Int) ≤ (game.length : Int))
    (hf : s.fault = none) (hp : s.pos = C + 8) :
    ∃ s1, gm_write_section game ptr s = some s1 ∧ s1.fault = none ∧
      gm_ext game s.data s1.data ∧
      (∀ i, C + 8 ≤ i → i < C + 12 + 4 * es.length → gm_agree game s1.data i) ∧
      ∀ e ∈ es, ∀ i : Nat, e.offset - 4 ≤ (i : Int) → (i : Int) < e.offset + (e.size : Int) →
        gm_agree game s1.data i := by
  have hI : INT32_MAX = 2147483647 := rfl
  unfold gm_read_index_audo at hent
  split at hent
  · cases hent
  rename_i buffer hbuf
  have hc := gm_u32_of_fread game (C + 8) 4 0 buffer hbuf (by omega)
  obtain ⟨-, hclen, -, -⟩ := gm_fread_eq _ _ _ _ hbuf
  rw [Nat.add_zero] at hc
  rw [hc] at hent
  split at hent
  · cases hent
  rename_i offs hoffs
  obtain ⟨hol, hog⟩ := gm_read_offsets_spec _ _ _ _ hoffs
  obtain ⟨hel, heg⟩ := gm_read_entries_get _ _ _ hent
  have hn : es.length = U32LE_FROM_BUF game (C + 8) := by omega
  have e1 : WRITE_U32LE (es.length : Int) = (game.drop (C + 8)).take 4 := by
    rw [hn]; exact gm_write_u32_read game hb (C + 8) (by omega)
  obtain ⟨s1, hw1, hf1, hp1, he1, hr1⟩ := gm_fwrite_ext game s 4 hf (by omega) (by omega)
  rw [hp] at hw1 hp1 hr1
  have e3 : C + 8 + 4 = C + 12 := by omega
  rw [e3] at hp1 hr1
  obtain ⟨s2, hw2, hf2, hp2, he2, hr2⟩ := gm_write_records_ext game
    (fun (entry : gm_patched_entry) => WRITE_U32LE (entry.offset - 4)) 4 (by omega)
    (es.map fun e => { offset := e.offset, size := e.size, patch := none, entry := e })
    s1 (C + 12) hf1 hp1 (by
      intro i x hx
      rw [List.getElem?_map] at hx
      cases hei : es[i]? with
      | none => rw [hei] at hx; cases hx
      | some e =>
        rw [hei] at hx
        simp only [Option.map_some', Option.some.injEq] at hx
        subst hx
        beta_reduce
        obtain ⟨o, ho, hread⟩ := heg i e hei
        have hi : i < es.length := (List.getElem?_eq_some_iff.mp hei).1
        obtain ⟨ho1, -, hbound⟩ := hog i (by omega)
        rw [ho1] at ho
        simp only [Option.some.injEq] at ho
        have e0 : C + 8 + 4 + 4 * i = C + 12 + 4 * i := by omega
        rw [e0] at ho hbound
        obtain ⟨-, hoff, -⟩ := gm_read_audo_entry_spec game o e hread
        have e5 : e.offset - 4 = (U32LE_FROM_BUF game (C + 12 + 4 * i) : Int) := by
          rw [hoff, ho]; omega
        simp only [e5]
        exact ⟨gm_write_u32_read game hb _ (by omega), hbound⟩)
  rw [List.length_map] at hp2 hr2
  obtain ⟨s4, hw4, hf4, he4, hr4⟩ := gm_write_each_ext game (gm_write_audo_entry game)
    (fun (x : gm_patched_entry) i =>
      x.offset - 4 ≤ (i : Int) ∧ (i : Int) < x.offset + (x.size : Int))
    (es.map fun e => { offset := e.offset, size := e.size, patch := none, entry := e })
    (by
      intro x hx t ht
      obtain ⟨e, he, rfl⟩ := List.mem_map.mp hx
      obtain ⟨j, hj⟩ := List.mem_iff_getElem?.mp he
      obtain ⟨o, -, hread⟩ := heg j e hj
      obtain ⟨-, heo, hsz, -⟩ := gm_read_audo_entry_spec game o e hread
      have hlt := gm_u32_lt game hb o
      have hw : size_wrap ((e.size : Int) + 4) = e.size + 4 := by
        rw [size_wrap_eq]; omega
      have hfe := hfit e he
      obtain ⟨t1, hc1, hft, het, hrt⟩ := gm_copydata_ext game (e.offset - 4) (e.size + 4) t
        (by omega) ht (Or.inr (by push_cast; omega))
      refine ⟨t1, ?_, hft, het, fun i hi => ?_⟩
      · simp only [gm_write_audo_entry]
        rw [hw]
        exact hc1
      · have h1 := hi.1
        have h2 := hi.2
        simp only at h1 h2
        exact hrt i h1 (by push_cast; omega)) s2 hf2
  refine ⟨s4, ?_, hf4,
    gm_ext_trans _ _ _ _ he1 (gm_ext_trans _ _ _ _ he2 he4), ?_, ?_⟩
  · unfold gm_write_section
    simp only [hsect]
    rw [hes, List.length_map, e1, hw1]
    simp only
    rw [hw2]
    simp only
    exact hw4
  · intro i h1 h2
    by_cases c1 : i < C + 12
    · exact he4.1 i (he2.1 i (hr1 i h1 c1))
    · exact he4.1 i (hr2 i (by omega) (by omega))
  · intro e he i h1 h2
    exact hr4 _ (List.mem_map.mpr ⟨e, he, rfl⟩) i ⟨h1, h2⟩

theorem gm_write_opaque_ext (game : List Nat) (ptr : gm_patched_index) (C : Nat) (s : gm_out)
    (hs1 : ptr.sect ≠ GM_TXTR) (hs2 : ptr.sect ≠ GM_AUDO)
    (hoff : ptr.offset = (C : Int)) (hioff : ptr.index.offset = (C : Int))
    (hlt : ptr.size < 4294967296) (hfit : C + 8 + ptr.size ≤ game.length)
    (hf : s.fault = none) :
    ∃ s1, gm_write_section game ptr s = some s1 ∧ s1.fault = none ∧
      gm_ext game s.data s1.data ∧
      ∀ i, C ≤ i → i < C + 8 + ptr.size → gm_agree game s1.data i := by
  have hw : size_wrap ((ptr.size : Int) + 8) = ptr.size + 8 := by
    rw [size_wrap_eq]; omega
  obtain ⟨s1, hc, hf1, he1, hr1⟩ := gm_copydata_ext game (C : Int) (ptr.size + 8) s (by omega) hf
    (Or.inr (by push_cast; omega))
  refine ⟨s1, ?_, hf1, he1, fun i h1 h2 => hr1 i (by omega) (by push_cast; omega)⟩
  unfold gm_write_section
  split
  · rename_i h; exact absurd h hs1
  · rename_i h; exact absurd h hs2
  · rw [hoff, hioff, hw]
    exact hc
theorem gm_write_chunk_ext (png : png_sniffer) (game : List Nat) (hb : gm_bytes_ok game)
    (c : gm_index) (C : Nat) (buffer : List Nat)
    (hread : gm_fread game C 8 = some buffer) (hsec : gm_parse_section buffer ≠ GM_END)
    (hs : c.sect = gm_parse_section buffer) (hoff : c.offset = (C : Int))
    (hsize : c.size = U32LE_FROM_BUF buffer 4)
    (hent : gm_read_section png game c.sect (C + 8) = some c.entries)
    (hfit : gm_chunk_fits game c) (hcan : gm_chunk_canonical game c)
    (s : gm_out) (hf : s.fault = none) :
    ∃ s1, gm_write_chunk game
        { sect := c.sect, offset := c.offset, size := c.size,
          entries := c.entries.map fun e =>
            { offset := e.offset, size := e.size, patch := none, entry := e },
          index := c } s = some s1 ∧
      s1.fault = none ∧ gm_ext game s.data s1.data ∧
      ∀ i, gm_chunk_covers c i → gm_agree game s1.data i := by
  obtain ⟨d, p, f⟩ := s
  simp only at hf
  subst hf
  obtain ⟨-, hlen, hbuf, -⟩ := gm_fread_eq _ _ _ _ hread
  have h4 := gm_u32_of_fread game C 8 4 buffer hread (by omega)
  have hlt := gm_u32_lt game hb (C + 4)
  have hname : gm_section_name c.sect = some ((game.drop C).take 4) := by
    rw [hs, gm_section_name_parse buffer hsec, hbuf, List.take_take]
    rfl
  obtain ⟨s1, hw1, hf1, hp1, he1, hr1⟩ := gm_write_hdr_ext game hb C ((game.drop C).take 4)
    c.size { data := d, pos := C, fault := none } rfl (by rw [hsize, h4]) hlen rfl rfl
  have hto : c.offset.toNat = C := by rw [hoff]; exact Int.toNat_ofNat C
  have hstart : gm_write_chunk game
      { sect := c.sect, offset := c.offset, size := c.size,
        entries := c.entries.map fun e =>
          { offset := e.offset, size := e.size, patch := none, entry := e },
        index := c } { data := d, pos := p, fault := none } =
      gm_write_section game
        { sect := c.sect, offset := c.offset, size := c.size,
          entries := c.entries.map fun e =>
            { offset := e.offset, size := e.size, patch := none, entry := e },
          index := c } s1 := by
    unfold gm_write_chunk
    simp only
    rw [hoff, gm_fseeko_nofault _ _ _ (by omega)]
    simp only [Int.toNat_ofNat]
    rw [hname, hw1]
  rw [hstart]
  by_cases ht : c.sect = GM_TXTR
  · unfold gm_chunk_fits at hfit
    have hcan1 := hcan ht
    rw [ht] at hent
    simp only [ht] at hfit
    rw [hto] at hcan1
    obtain ⟨s2, hw2, hf2, he2, hr2, hr3⟩ := gm_write_txtr_ext png game hb
      { sect := c.sect, offset := c.offset, size := c.size,
        entries := c.entries.map fun e =>
          { offset := e.offset, size := e.size, patch := none, entry := e },
        index := c } C c.entries s1 ht (by simp only [hoff]) rfl hent hcan1 hfit hf1 hp1
    refine ⟨s2, hw2, hf2, gm_ext_trans _ _ _ _ he1 he2, ?_⟩
    intro i hi
    unfold gm_chunk_covers at hi
    simp only [ht] at hi
    rcases hi with ⟨h1, h2⟩ | ⟨e, he, h1, h2⟩
    · by_cases c1 : i < C + 8
      · exact he2.1 i (hr1 i (by omega) c1)
      · exact hr2 i (by omega) (by omega)
    · exact hr3 e he i h1 h2
  · by_cases ha : c.sect = GM_AUDO
    · unfold gm_chunk_fits at hfit
      rw [ha] at hent
      simp only [ha] at hfit
      obtain ⟨s2, hw2, hf2, he2, hr2, hr3⟩ := gm_write_audo_ext game hb
        { sect := c.sect, offset := c.offset, size := c.size,
          entries := c.entries.map fun e =>
            { offset := e.offset, size := e.size, patch := none, entry := e },
          index := c } C c.entries s1 ha rfl hent hfit hf1 hp1
      refine ⟨s2, hw2, hf2, gm_ext_trans _ _ _ _ he1 he2, ?_⟩
      intro i hi
      unfold gm_chunk_covers at hi
      simp only [ha] at hi
      rcases hi with ⟨h1, h2⟩ | ⟨e, he, h1, h2⟩
      · by_cases c1 : i < C + 8
        · exact he2.1 i (hr1 i (by omega) c1)
        · exact hr2 i (by omega) (by omega)
      · exact hr3 e he i h1 h2
    · have hfit1 : c.offset + 8 + (c.size : Int) ≤ (game.length : Int) := by
        unfold gm_chunk_fits at hfit
        split at hfit
        · rename_i h; exact absurd h ht
        · rename_i h; exact absurd h ha
        · exact hfit
      obtain ⟨s2, hw2, hf2, he2, hr2⟩ := gm_write_opaque_ext game
        { sect := c.sect, offset := c.offset, size := c.size,
          entries := c.entries.map fun e =>
            { offset := e.offset, size := e.size, patch := none, entry := e },
          index := c } C s1 ht ha (by simp only [hoff]) hoff (by simp only; omega)
        (by simp only; omega) hf1
      refine ⟨s2, hw2, hf2, gm_ext_trans _ _ _ _ he1 he2, ?_⟩
      intro i hi
      have hi1 : c.offset ≤ (i : Int) ∧ (i : Int) < c.offset + 8 + (c.size : Int) := by
        unfold gm_chunk_covers at hi
        split at hi
        · rename_i h; exact absurd h ht
        · rename_i h; exact absurd h ha
        · exact hi
      exact hr2 i (by omega) (by simp only; omega)

theorem gm_write_archive_ext (png : png_sniffer) (game : List Nat) (index : List gm_index)
    (hb : gm_bytes_ok game) (hidx : gm_read_index png game = some index)
    (hfit : ∀ c ∈ index, gm_chunk_fits game c)
    (hcan : ∀ c ∈ index, gm_chunk_canonical game c) :
    ∃ s1, gm_write_archive game (gm_build_patched index)
        { data := [], pos := 0, fault := none } = some s1 ∧
      s1.fault = none ∧ 8 ≤ game.length ∧ gm_sound game s1.data ∧
      ∀ i, gm_covers index i → gm_agree game s1.data i := by
  obtain ⟨buffer, hread, htiles⟩ := gm_read_index_tiles png game index hidx
  have h4 := gm_u32_of_fread game 0 8 4 buffer hread (by omega)
  rw [Nat.zero_add] at h4
  rw [h4] at htiles
  obtain ⟨-, hlen, hbuf, -⟩ := gm_fread_eq _ _ _ _ hread
  have hlt := gm_u32_lt game hb 4
  have hform : gm_form_size (gm_build_patched index) = U32LE_FROM_BUF game 4 := by
    rw [gm_form_size_eq, gm_size_sum_build 8 _ index htiles (by omega), size_wrap_eq]
    omega
  have hm : gm_magic 'F' 'O' 'R' 'M' = (game.drop 0).take 4 := by
    unfold gm_read_index at hidx
    rw [hread] at hidx
    simp only at hidx
    split at hidx
    · cases hidx
    rename_i hmagic
    have := not_not.mp hmagic
    rw [← this, hbuf, List.take_take]
    rfl
  obtain ⟨s1, hw1, hf1, hp1, he1, hr1⟩ := gm_write_hdr_ext game hb 0 (gm_magic 'F' 'O' 'R' 'M')
    (gm_form_size (gm_build_patched index)) { data := [], pos := 0, fault := none } hm
    (by rw [hform]) (by omega) rfl rfl
  obtain ⟨s2, hw2, hf2, he2, hr2⟩ := gm_write_each_ext game (gm_write_chunk game)
    (fun (x : gm_patched_index) i => gm_chunk_covers x.index i) (gm_build_patched index)
    (by
      intro x hx t ht
      unfold gm_build_patched at hx
      obtain ⟨c, hc, rfl⟩ := List.mem_map.mp hx
      obtain ⟨o, buf, hoff, hrd, hsec, hs, hsize⟩ := gm_read_index_headers png game index hidx c hc
      obtain ⟨o1, hoff1, hent⟩ := gm_read_index_mem png game index hidx c hc
      have ho : o1 = o := by omega
      subst ho
      exact gm_write_chunk_ext png game hb c o1 buf hrd hsec hs hoff hsize hent
        (hfit c hc) (hcan c hc) t ht) s1 hf1
  refine ⟨s2, ?_, hf2, by omega, ?_, ?_⟩
  · unfold gm_write_archive
    rw [hw1]
    exact hw2
  · apply he2.2
    apply he1.2
    intro i hi
    simp at hi
  · intro i hi
    rcases hi with h8 | ⟨c, hc, hcov⟩
    · exact he2.1 i (hr1 i (by omega) (by omega))
    · refine hr2
        { sect := c.sect, offset := c.offset, size := c.size,
          entries := c.entries.map fun e =>
            { offset := e.offset, size := e.size, patch := none, entry := e },
          index := c } ?_ i hcov
      unfold gm_build_patched
      exact List.mem_map.mpr ⟨c, hc, rfl⟩

/-- Claim C1, amended: an archive of bytes with fewer than 32 chunks that `gm_read_index`
parses, which holds every byte the writer copies, whose TXTR info-offset tables point to the
descriptors right behind them, in which every byte the writer does not write is zero, and
whose last byte is one the writer writes, is written back byte-for-byte by `gm_patch_archive`
with an empty patch list, and the call succeeds.  The payloads may lie in any order, overlap
or be empty. -/
theorem gm_round_trip (png : png_sniffer) (game : List Nat) (index : List gm_index)
    (tmp : Option (List Nat)) (hb : gm_bytes_ok game)
    (hidx : gm_read_index png game = some index)
    (hcount : gm_index_length index = some index.length)
    (hfit : ∀ c ∈ index, gm_chunk_fits game c)
    (hcan : ∀ c ∈ index, gm_chunk_canonical game c)
    (hzero : ∀ i, i < game.length → ¬ gm_covers index i → game[i]? = some 0)
    (hend : gm_covers index (game.length - 1)) :
    gm_patch_archive png none { target := some game, tmp := tmp } [] =
      (gm_status.ok, { target := some game, tmp := none }) := by
  obtain ⟨s1, hw, hf1, h8, hsound, hcov⟩ := gm_write_archive_ext png game index hb hidx hfit hcan
  have hdata : s1.data = game := by
    have hlast := (hcov _ hend).1
    have hle : s1.data.length ≤ game.length := by
      by_contra hgt
      have := (hsound game.length (by omega)).1
      omega
    apply List.ext_getElem?
    intro i
    by_cases hi : i < game.length
    · by_cases hc : gm_covers index i
      · exact (hcov i hc).2
      · rcases (hsound i (by omega)).2 with h | h
        · exact h
        · rw [h, hzero i hi hc]
    · rw [List.getElem?_eq_none (by omega), List.getElem?_eq_none (by omega)]
  obtain ⟨d, p, f⟩ := s1
  simp only at hf1 hdata
  subst hf1 hdata
  unfold gm_patch_archive
  simp only [hidx, gm_apply_patches, gm_io_nofault, hw, gm_commit]

set_option maxRecDepth 100000 in
/-- C1 (further instances).  An archive whose TXTR info-offset table does not point right
behind itself is written with the table and the descriptors of the writer; a byte behind the
last chunk is not written; and with a chunk that ends behind the end of the file the call
fails. -/
theorem gm_round_trip_other_losses :
    ((gm_read_index ex_sniffer ex_archive_table).isSome = true ∧
      gm_patch_archive ex_sniffer none { target := some ex_archive_table, tmp := none } [] =
        (gm_status.ok, { target := some ex_archive_table_written, tmp := none }) ∧
      ex_archive_table_written ≠ ex_archive_table) ∧
    (gm_read_index ex_sniffer ex_archive_tail = some ex_archive_index ∧
      gm_patch_archive ex_sniffer none { target := some ex_archive_tail, tmp := none } [] =
        (gm_status.ok, { target := some ex_archive, tmp := none }) ∧
      ex_archive ≠ ex_archive_tail) ∧
    ((gm_read_index ex_sniffer ex_archive_short).isSome = true ∧
      (gm_patch_archive ex_sniffer none { target := some ex_archive_short, tmp := none } []).1 =
        gm_status.error EIO) := by
  decide

/-- C1 (witness).  The archive `ex_archive` is written back unchanged, and so is
`ex_archive_swapped`, whose blobs lie in the reverse order of the offset table. -/
theorem gm_round_trip_witness :
    ((gm_bytes_ok ex_archive ∧ gm_read_index ex_sniffer ex_archive = some ex_archive_index ∧
        gm_index_length ex_archive_index = some ex_archive_index.length ∧
        (∀ c ∈ ex_archive_index, gm_chunk_fits ex_archive c) ∧
        (∀ c ∈ ex_archive_index, gm_chunk_canonical ex_archive c) ∧
        (∀ i, i < ex_archive.length → ¬ gm_covers ex_archive_index i →
          ex_archive[i]? = some 0) ∧
        gm_covers ex_archive_index (ex_archive.length - 1)) ∧
      gm_patch_archive ex_sniffer none { target := some ex_archive, tmp := none } [] =
        (gm_status.ok, { target := some ex_archive, tmp := none })) ∧
    ((gm_bytes_ok ex_archive_swapped ∧
        gm_read_index ex_sniffer ex_archive_swapped = some ex_index_swapped ∧
        gm_index_length ex_index_swapped = some ex_index_swapped.length ∧
        (∀ c ∈ ex_index_swapped, gm_chunk_fits ex_archive_swapped c) ∧
        (∀ c ∈ ex_index_swapped, gm_chunk_canonical ex_archive_swapped c) ∧
        (∀ i, i < ex_archive_swapped.length → ¬ gm_covers ex_index_swapped i →
          ex_archive_swapped[i]? = some 0) ∧
        gm_covers ex_index_swapped (ex_archive_swapped.length - 1)) ∧
      gm_patch_archive ex_sniffer none { target := some ex_archive_swapped, tmp := none } [] =
        (gm_status.ok, { target := some ex_archive_swapped, tmp := none })) :=
  have hb : gm_bytes_ok ex_archive := by unfold gm_bytes_ok; decide
  have hfit : ∀ c ∈ ex_archive_index, gm_chunk_fits ex_archive c := by
    intro c hc
    simp only [ex_archive_index, List.mem_cons, List.mem_singleton, List.not_mem_nil,
      or_false] at hc
    rcases hc with rfl | rfl | rfl <;> simp only [gm_chunk_fits] <;> decide
  have hcan : ∀ c ∈ ex_archive_index, gm_chunk_canonical ex_archive c := by
    intro c hc
    simp only [ex_archive_index, List.mem_cons, List.mem_singleton, List.not_mem_nil,
      or_false] at hc
    rcases hc with rfl | rfl | rfl <;> unfold gm_chunk_canonical <;> decide
  have hcov : ∀ i, i < ex_archive.length → gm_covers ex_archive_index i := by
    intro i hi
    have hl : ex_archive.length = 76 := rfl
    rw [hl] at hi
    by_cases h1 : i < 8
    · exact Or.inl h1
    · refine Or.inr ?_
      by_cases h2 : i < 20
      · refine ⟨{ sect := GM_STRG, offset := 8, size := 4, entries := [] },
          by simp [ex_archive_index], ?_⟩
        simp only [gm_chunk_covers]
        omega
      · by_cases h3 : i < 52
        · refine ⟨{ sect := GM_TXTR, offset := 20, size := 24, entries := [ex_archive_image] },
            by simp [ex_archive_index], ?_⟩
          simp only [gm_chunk_covers, List.length_singleton, List.mem_singleton, exists_eq_left,
            ex_archive_image]
          omega
        · refine ⟨{ sect := GM_AUDO, offset := 52, size := 16, entries := [ex_archive_ogg] },
            by simp [ex_archive_index], ?_⟩
          simp only [gm_chunk_covers, List.length_singleton, List.mem_singleton, exists_eq_left,
            ex_archive_ogg]
          omega
  have hb2 : gm_bytes_ok ex_archive_swapped := by unfold gm_bytes_ok; decide
  have hfit2 : ∀ c ∈ ex_index_swapped, gm_chunk_fits ex_archive_swapped c := by
    intro c hc
    simp only [ex_index_swapped, List.mem_singleton] at hc
    subst hc
    simp only [gm_chunk_fits]
    decide
  have hcan2 : ∀ c ∈ ex_index_swapped, gm_chunk_canonical ex_archive_swapped c := by
    intro c hc
    simp only [ex_index_swapped, List.mem_singleton] at hc
    subst hc
    unfold gm_chunk_canonical
    decide
  have hcov2 : ∀ i, i < ex_archive_swapped.length → gm_covers ex_index_swapped i := by
    intro i hi
    have hl : ex_archive_swapped.length = 40 := rfl
    rw [hl] at hi
    by_cases h1 : i < 8
    · exact Or.inl h1
    · refine Or.inr ⟨_, List.mem_singleton.mpr rfl, ?_⟩
      simp only [gm_chunk_covers, List.length_cons, List.length_nil, List.mem_cons,
        List.mem_singleton, List.not_mem_nil, or_false, exists_eq_or_imp, exists_eq_left]
      omega
  ⟨⟨⟨hb, by decide, by decide, hfit, hcan, fun i hi hn => absurd (hcov i hi) hn,
      hcov _ (by decide)⟩,
    gm_round_trip ex_sniffer ex_archive ex_archive_index none hb (by decide) (by decide) hfit
      hcan (fun i hi hn => absurd (hcov i hi) hn) (hcov _ (by decide))⟩,
   ⟨hb2, by decide, by decide, hfit2, hcan2, fun i hi hn => absurd (hcov2 i hi) hn,
      hcov2 _ (by decide)⟩,
    gm_round_trip ex_sniffer ex_archive_swapped ex_index_swapped none hb2 (by decide)
      (by decide) hfit2 hcan2 (fun i hi hn => absurd (hcov2 i hi) hn) (hcov2 _ (by decide))⟩


/-! ## The FORM size field of the written archive -/

set_option maxRecDepth 8000 in
/-- C4 (counterexample). The first image of `ex_archive_form_alias` lies at offset 4, on the
FORM size field.  The second image is replaced by one that is a byte longer, so the planned
FORM size is 49, the input size 48 plus the growth 1.  `gm_patch_archive` succeeds; it writes
49 into the FORM header and then copies the 48 bytes of the first image to offset 4: the
output holds 48 in the size field. -/
theorem gm_form_size_overwritten :
    gm_patch_archive ex_sniffer none { target := some ex_archive_form_alias, tmp := none }
        [ex_patch_form_alias] =
      (gm_status.ok, { target := some ex_archive_form_alias_patched, tmp := none }) ∧
    (gm_read_index ex_sniffer ex_archive_form_alias).map (fun index =>
        gm_form_size (gm_apply_patches (gm_build_patched index) [ex_patch_form_alias]).2) =
      some 49 ∧
    (gm_read_index ex_sniffer ex_archive_form_alias).map (fun index =>
        (48 : Int) + gm_total_growth index [ex_patch_form_alias]) = some 49 ∧
    U32LE_FROM_BUF ex_archive_form_alias_patched 4 = 48 := by
  decide

theorem gm_patch_archive_ok_open (png : png_sniffer) (fault : Option Nat) (game : List Nat)
    (tmp : Option (List Nat)) (patches : List gm_patch) (index : List gm_index)
    (fs1 : gm_fs) (hidx : gm_read_index png game = some index)
    (hrun : gm_patch_archive png fault { target := some game, tmp := tmp } patches =
      (gm_status.ok, fs1)) :
    ∃ planned s0 s1, gm_apply_patches (gm_build_patched index) patches =
        (gm_status.ok, planned) ∧ s0.data = [] ∧ s0.pos = 0 ∧
      gm_write_archive game planned s0 = some s1 ∧
      fs1 = { target := some s1.data, tmp := none } := by
  have hrun1 := hrun
  unfold gm_patch_archive at hrun
  simp only [hidx] at hrun
  split at hrun
  · cases hrun
  · rename_i planned hplan
    split at hrun
    · cases hrun
    · rename_i s0 hs0
      obtain ⟨d0, p0⟩ := gm_io_data _ _ hs0
      split at hrun
      · cases hrun
      · rename_i s1 hw
        obtain ⟨planned1, s01, s11, hplan1, hw1, hfs1⟩ :=
          gm_patch_archive_ok png fault game tmp patches index fs1 hidx hrun1
        rw [hplan] at hplan1
        simp only [Prod.mk.injEq, true_and] at hplan1
        subst hplan1
        refine ⟨planned, s0, s1, hplan, d0, p0, hw, ?_⟩
        unfold gm_commit at hrun
        split at hrun
        · cases hrun
        · split at hrun
          · cases hrun
          · split at hrun
            · cases hrun
            · split at hrun
              · cases hrun
              · simp only [Prod.mk.injEq, true_and] at hrun
                exact hrun.symm

theorem gm_u32_of_holds (d : List Nat) (P k : Nat) (B : List Nat) (h : gm_holds d P B)
    (hk : k + 4 ≤ B.length) : U32LE_FROM_BUF d (P + k) = U32LE_FROM_BUF B k := by
  have hl := gm_holds_length d P B h (by omega)
  have hf : gm_fread d P B.length = some B := by
    unfold gm_fread
    rw [if_neg (by omega), if_pos hl]
    exact congrArg some h
  exact (gm_u32_of_fread d P B.length k B hf hk).symm

/-- C4 (amended). FORM size of the written archive: when `gm_patch_archive` succeeds on an
archive with fewer than 32 chunks (with 32 the chunk count `gm_index_length` of the code is
undefined) and every planned chunk and every entry of a planned TXTR or AUDO chunk (for AUDO
together with its 4-byte size field) lies at or behind offset 8, the output begins with the
magic `FORM` and the size field `gm_form_size` of the planned index.  `gm_form_size` is the sum of
`payload_size + 8` over the planned chunks and equals the FORM size field of the input plus
the sum of `patch.size − original entry size` over the applied TXTR/AUDO patches; the sums
are the ones of `size_t` (modulo `2^64`), the exact sums whenever those are `size_t`
values. -/
theorem gm_form_size_written (png : png_sniffer) (fault : Option Nat) (game : List Nat)
    (tmp : Option (List Nat)) (patches : List gm_patch) (index : List gm_index)
    (out buffer : List Nat)
    (hb : gm_fread game 0 8 = some buffer)
    (hidx : gm_read_index png game = some index)
    (hcount : gm_index_length index = some index.length)
    (hrun : gm_patch_archive png fault { target := some game, tmp := tmp } patches =
      (gm_status.ok, { target := some out, tmp := none }))
    (hbehind : gm_planned_behind 8 (gm_apply_patches (gm_build_patched index) patches).2) :
    gm_holds out 0 (gm_magic 'F' 'O' 'R' 'M' ++
        WRITE_U32LE (gm_form_size (gm_apply_patches (gm_build_patched index) patches).2 : Int)) ∧
      U32LE_FROM_BUF out 4 =
        gm_form_size (gm_apply_patches (gm_build_patched index) patches).2 ∧
      gm_form_size (gm_apply_patches (gm_build_patched index) patches).2 =
        size_wrap (gm_size_sum (gm_apply_patches (gm_build_patched index) patches).2) ∧
      (gm_size_sum (gm_apply_patches (gm_build_patched index) patches).2 <
          18446744073709551616 →
        (gm_form_size (gm_apply_patches (gm_build_patched index) patches).2 : Int) =
          gm_size_sum (gm_apply_patches (gm_build_patched index) patches).2) ∧
      ((gm_form_size (gm_apply_patches (gm_build_patched index) patches).2 : Int) -
          ((U32LE_FROM_BUF buffer 4 : Int) + gm_total_growth index patches)) %
        18446744073709551616 = 0 ∧
      (0 ≤ (U32LE_FROM_BUF buffer 4 : Int) + gm_total_growth index patches →
        (U32LE_FROM_BUF buffer 4 : Int) + gm_total_growth index patches <
          18446744073709551616 →
        (gm_form_size (gm_apply_patches (gm_build_patched index) patches).2 : Int) =
          (U32LE_FROM_BUF buffer 4 : Int) + gm_total_growth index patches) := by
  obtain ⟨planned, s0, s1, hplan, hd0, hp0, hw, hfs⟩ :=
    gm_patch_archive_ok_open png fault game tmp patches index _ hidx hrun
  simp only [gm_fs.mk.injEq, Option.some.injEq, and_true] at hfs
  rw [hplan] at hbehind ⊢
  simp only at hbehind ⊢
  obtain ⟨-, f2, f3, f4, f5⟩ := gm_form_size_facts png game index patches planned buffer hb
    hidx hplan
  have hlen : (gm_magic 'F' 'O' 'R' 'M').length = 4 := by simp [gm_magic]
  unfold gm_write_archive at hw
  split at hw
  · cases hw
  rename_i t1 ht1
  obtain ⟨hle, -, -⟩ := gm_write_hdr_data _ _ _ _ hlen ht1
  obtain ⟨w1, w2, w3⟩ := gm_write_hdr_holds _ _ s0 t1 hlen ht1
  rw [hp0] at w1 w2
  have hkeep := gm_write_later_keep game 8 planned t1 s1 hbehind (by omega) (by omega) hw
  have hl8 : (gm_magic 'F' 'O' 'R' 'M' ++ WRITE_U32LE (gm_form_size planned : Int)).length =
      8 := by
    rw [List.length_append, hlen]
    rfl
  have hout : gm_holds out 0
      (gm_magic 'F' 'O' 'R' 'M' ++ WRITE_U32LE (gm_form_size planned : Int)) := by
    rw [hfs]
    exact gm_holds_keep t1.data s1.data 0 _ 8 w1 (Or.inr (by omega)) hkeep
  refine ⟨hout, ?_, f2, f3, f4, f5⟩
  have := gm_u32_of_holds out 0 4 _ hout (by omega)
  rw [Nat.zero_add] at this
  rw [this]
  exact gm_u32_roundtrip _ hle _ hlen

set_option maxRecDepth 8000 in
/-- C4 (witness). The image of `ex_archive` is replaced by one of 5 bytes: the size field of
the output is 69, the input size 68 plus 1. -/
theorem gm_form_size_written_witness :
    (gm_fread ex_archive 0 8 = some [70, 79, 82, 77, 68, 0, 0, 0] ∧
      gm_read_index ex_sniffer ex_archive = some ex_archive_index ∧
      gm_index_length ex_archive_index = some ex_archive_index.length ∧
      gm_patch_archive ex_sniffer none { target := some ex_archive, tmp := none }
          [ex_patch_image] =
        (gm_status.ok, { target := some ex_archive_patched, tmp := none }) ∧
      gm_planned_behind 8
        (gm_apply_patches (gm_build_patched ex_archive_index) [ex_patch_image]).2 ∧
      gm_form_size (gm_apply_patches (gm_build_patched ex_archive_index) [ex_patch_image]).2 =
        69 ∧
      (68 : Int) + gm_total_growth ex_archive_index [ex_patch_image] = 69) ∧
    U32LE_FROM_BUF ex_archive_patched 4 =
      gm_form_size (gm_apply_patches (gm_build_patched ex_archive_index) [ex_patch_image]).2 :=
  have hbehind : gm_planned_behind 8
      (gm_apply_patches (gm_build_patched ex_archive_index) [ex_patch_image]).2 := by
    unfold gm_planned_behind
    decide
  ⟨⟨by decide, by decide, by decide, by decide, hbehind, by decide, by decide⟩,
    (gm_form_size_written ex_sniffer none ex_archive none [ex_patch_image] ex_archive_index
      ex_archive_patched [70, 79, 82, 77, 68, 0, 0, 0] (by decide) (by decide) (by decide)
      (by decide) hbehind).2.1⟩

/-! ## The writer on the archive that was written -/

theorem gm_copy_loop_fits (src : List Nat) (fuel : Nat) :
    ∀ (sp n : Nat) (s s1 : gm_out), gm_copy_loop src fuel sp n s = some s1 →
      n = 0 ∨ sp + n ≤ src.length := by
  induction fuel with
  | zero =>
    intro sp n s s1 h
    unfold gm_copy_loop at h
    split at h
    · cases h
    · left; omega
  | succ fuel ih =>
    intro sp n s s1 h
    unfold gm_copy_loop at h
    split at h
    · rename_i hn
      split at h
      · cases h
      split at h
      · cases h
      rename_i buf hbuf
      split at h
      · cases h
      obtain ⟨-, hlen, -, -⟩ := gm_fread_eq _ _ _ _ hbuf
      have hc : (if n ≥ BUFSIZ then BUFSIZ else n) ≤ n := by split <;> omega
      rcases ih _ _ _ _ h with h0 | h1
      · right; omega
      · right; omega
    · left; omega

theorem gm_fread_congr (src src1 : List Nat) (p p1 n c : Nat) (hc : c ≤ n)
    (hfit : p + n ≤ src.length)
    (h : (src1.drop p1).take n = (src.drop p).take n) :
    gm_fread src1 p1 c = gm_fread src p c := by
  have e : (src1.drop p1).take c = (src.drop p).take c := by
    have := congrArg (List.take c) h
    rw [List.take_take, List.take_take, Nat.min_eq_left hc] at this
    exact this
  unfold gm_fread
  split
  · rfl
  · rename_i hc0
    have hl : p1 + n ≤ src1.length := by
      have := congrArg List.length h
      rw [List.length_take, List.length_drop, List.length_take, List.length_drop,
        Nat.min_eq_left (show n ≤ src.length - p by omega)] at this
      have hn : 0 < n := by omega
      rw [Nat.min_def] at this
      split at this <;> omega
    rw [if_pos (by omega), if_pos (by omega), e]

theorem gm_copy_loop_congr (src src1 : List Nat) (fuel : Nat) :
    ∀ (sp sp1 n : Nat) (s s1 : gm_out), gm_copy_loop src fuel sp n s = some s1 →
      (src1.drop sp1).take n = (src.drop sp).take n →
      gm_copy_loop src1 fuel sp1 n s = some s1 := by
  induction fuel with
  | zero =>
    intro sp sp1 n s s1 h _
    unfold gm_copy_loop at h ⊢
    exact h
  | succ fuel ih =>
    intro sp sp1 n s s1 h hs
    have hfit := gm_copy_loop_fits src _ sp n s s1 h
    unfold gm_copy_loop at h ⊢
    by_cases hn : n > 0
    · rw [if_pos hn] at h ⊢
      have hc : (if n ≥ BUFSIZ then BUFSIZ else n) ≤ n := by split <;> omega
      rw [gm_fread_congr src src1 sp sp1 n _ hc (by omega) hs]
      split at h
      · cases h
      rename_i t ht
      split at h
      · cases h
      rename_i buf hbuf
      split at h
      · cases h
      rename_i t2 ht2
      apply ih _ _ _ _ _ h
      have := congrArg (List.drop (if n ≥ BUFSIZ then BUFSIZ else n)) hs
      rw [List.drop_take, List.drop_take, List.drop_drop, List.drop_drop] at this
      exact this
    · rw [if_neg hn] at h ⊢
      exact h

theorem gm_copydata_congr (src src1 : List Nat) (so dst : Int) (n : Nat) (s s1 : gm_out)
    (h : gm_copydata src so dst n s = some s1)
    (hs : (src1.drop dst.toNat).take n = (src.drop so.toNat).take n) :
    gm_copydata src1 dst dst n s = some s1 := by
  unfold gm_copydata at h ⊢
  split at h
  · cases h
  split at h
  · cases h
  rename_i t ht
  split at h
  · cases h
  rename_i t2 ht2
  have hd : ¬ dst < 0 := by
    intro hneg
    unfold gm_fseeko at ht2
    rw [if_pos hneg] at ht2
    cases ht2
  rw [if_neg hd]
  exact gm_copy_loop_congr src src1 n _ _ n t2 s1 h hs

theorem gm_write_each_sim {α β : Type} (f : α → gm_out → Option gm_out)
    (g : β → gm_out → Option gm_out) (m : α → β) (l : List α)
    (h : ∀ x ∈ l, ∀ s s1, f x s = some s1 → g (m x) s = some s1) :
    ∀ s s1, gm_write_each f l s = some s1 → gm_write_each g (l.map m) s = some s1 := by
  induction l with
  | nil => intro s s1 hw; exact hw
  | cons x rest ih =>
    intro s s1 hw
    unfold gm_write_each at hw
    split at hw
    · cases hw
    rename_i t ht
    simp only [List.map_cons, gm_write_each]
    rw [h x (List.mem_cons_self _ _) s t ht]
    exact ih (fun y hy => h y (List.mem_cons_of_mem _ hy)) t s1 hw

theorem gm_write_txtr_entry_sim (game out : List Nat) (e : gm_patched_entry) (s s1 : gm_out)
    (hc : e.patch = none →
      (out.drop e.offset.toNat).take e.size = (game.drop e.entry.offset.toNat).take e.size)
    (h : gm_write_txtr_entry game e s = some s1) :
    gm_write_txtr_entry out (gm_frozen_entry e) s = some s1 := by
  unfold gm_write_txtr_entry at h ⊢
  cases hp : e.patch with
  | some q =>
    rw [hp] at h
    simp only [gm_frozen_entry, hp]
    exact h
  | none =>
    rw [hp] at h
    simp only [gm_frozen_entry, gm_reindex_entry, hp]
    simp only at h
    exact gm_copydata_congr game out _ _ _ s s1 h (hc hp)

theorem gm_write_audo_entry_sim (game out : List Nat) (e : gm_patched_entry) (s s1 : gm_out)
    (hsz : e.size < 4294967296)
    (hc : e.patch = none →
      (out.drop (e.offset - 4).toNat).take (e.size + 4) =
        (game.drop (e.entry.offset - 4).toNat).take (e.size + 4))
    (h : gm_write_audo_entry game e s = some s1) :
    gm_write_audo_entry out (gm_frozen_entry e) s = some s1 := by
  have hw : size_wrap ((e.size : Int) + 4) = e.size + 4 := by
    rw [size_wrap_eq]; omega
  unfold gm_write_audo_entry at h ⊢
  cases hp : e.patch with
  | some q =>
    rw [hp] at h
    simp only [gm_frozen_entry, hp]
    exact h
  | none =>
    rw [hp] at h
    simp only [gm_frozen_entry, gm_reindex_entry, hp]
    simp only at h
    rw [hw] at h ⊢
    exact gm_copydata_congr game out _ _ _ s s1 h (hc hp)

theorem gm_write_each_map {α β : Type} (g : β → gm_out → Option gm_out) (m : α → β)
    (l : List α) (s : gm_out) :
    gm_write_each g (l.map m) s = gm_write_each (fun x => g (m x)) l s := by
  induction l generalizing s with
  | nil => rfl
  | cons x rest ih =>
    simp only [List.map_cons, gm_write_each]
    cases g (m x) s with
    | none => rfl
    | some t => exact ih t

theorem gm_write_section_sim (game out : List Nat) (p : gm_patched_index) (s s1 : gm_out)
    (hcp : gm_chunk_copied game out p)
    (hsmall : p.sect = GM_AUDO → ∀ e ∈ p.entries, e.size < 4294967296)
    (hps : p.size < 4294967296)
    (h : gm_write_section game p s = some s1) :
    gm_write_section out (gm_frozen_chunk p) s = some s1 := by
  have hsect : (gm_frozen_chunk p).sect = p.sect := rfl
  have hlen : (gm_frozen_chunk p).entries.length = p.entries.length := by
    simp only [gm_frozen_chunk, List.length_map]
  unfold gm_write_section at h ⊢
  rw [hsect, hlen]
  by_cases ht : p.sect = GM_TXTR
  · simp only [ht] at h ⊢
    unfold gm_chunk_copied at hcp
    simp only [ht] at hcp
    have e2 : (fun i => gm_fwrite (WRITE_U32LE (gm_fileinfo_offset (gm_frozen_chunk p) i))) =
        fun i => gm_fwrite (WRITE_U32LE (gm_fileinfo_offset p i)) := by
      funext i
      unfold gm_fileinfo_offset
      rw [hlen]
      rfl
    rw [e2]
    split at h
    · cases h
    rename_i t1 ht1
    split at h
    · cases h
    rename_i t2 ht2
    split at h
    · cases h
    rename_i t3 ht3
    have e3 : gm_write_each
        (fun (entry : gm_patched_entry) =>
          gm_fwrite (WRITE_U32LE (entry.entry.unknown1 : Int) ++
            WRITE_U32LE (entry.entry.unknown2 : Int) ++ WRITE_U32LE entry.offset))
        (gm_frozen_chunk p).entries t2 = some t3 := by
      simp only [gm_frozen_chunk]
      rw [gm_write_each_map]
      exact ht3
    rw [e3]
    simp only [gm_frozen_chunk]
    exact gm_write_each_sim (gm_write_txtr_entry game) (gm_write_txtr_entry out) gm_frozen_entry
      p.entries (fun e he u u1 hu => gm_write_txtr_entry_sim game out e u u1 (hcp e he) hu)
      t3 s1 h
  · by_cases ha : p.sect = GM_AUDO
    · simp only [ha] at h ⊢
      unfold gm_chunk_copied at hcp
      simp only [ha] at hcp
      split at h
      · cases h
      rename_i t1 ht1
      split at h
      · cases h
      rename_i t2 ht2
      have e3 : gm_write_each
          (fun (entry : gm_patched_entry) => gm_fwrite (WRITE_U32LE (entry.offset - 4)))
          (gm_frozen_chunk p).entries t1 = some t2 := by
        simp only [gm_frozen_chunk]
        rw [gm_write_each_map]
        exact ht2
      rw [e3]
      simp only [gm_frozen_chunk]
      exact gm_write_each_sim (gm_write_audo_entry game) (gm_write_audo_entry out)
        gm_frozen_entry p.entries
        (fun e he u u1 hu =>
          gm_write_audo_entry_sim game out e u u1 (hsmall ha e he) (hcp e he) hu)
        t2 s1 h
    · have hcp1 : (out.drop p.offset.toNat).take (p.size + 8) =
          (game.drop p.index.offset.toNat).take (p.size + 8) := by
        unfold gm_chunk_copied at hcp
        split at hcp
        · rename_i hx; exact absurd hx ht
        · rename_i hx; exact absurd hx ha
        · exact hcp
      have hw : size_wrap ((p.size : Int) + 8) = p.size + 8 := by
        rw [size_wrap_eq]; omega
      split at h
      · rename_i hx; exact absurd hx ht
      · rename_i hx; exact absurd hx ha
      · simp only [gm_frozen_chunk, gm_reindex_chunk]
        rw [hw] at h ⊢
        exact gm_copydata_congr game out _ _ _ s s1 h hcp1

theorem gm_write_chunk_sim (game out : List Nat) (p : gm_patched_index) (s s1 : gm_out)
    (hcp : gm_chunk_copied game out p)
    (hsmall : p.sect = GM_AUDO → ∀ e ∈ p.entries, e.size < 4294967296)
    (h : gm_write_chunk game p s = some s1) :
    gm_write_chunk out (gm_frozen_chunk p) s = some s1 := by
  unfold gm_write_chunk at h ⊢
  have h1 : (gm_frozen_chunk p).offset = p.offset := rfl
  have h2 : (gm_frozen_chunk p).sect = p.sect := rfl
  have h3 : (gm_frozen_chunk p).size = p.size := rfl
  rw [h1, h2, h3]
  split at h
  · cases h
  rename_i t1 ht1
  split at h
  · cases h
  rename_i t2 ht2
  have hps : p.size < 4294967296 := by
    unfold gm_write_hdr at ht2
    split at ht2
    · cases ht2
    · split at ht2
      · cases ht2
      · rename_i hle
        unfold UINT32_MAX at hle
        omega
  exact gm_write_section_sim game out p t2 s1 hcp hsmall hps h

theorem gm_form_size_frozen (fin : List gm_patched_index) :
    gm_form_size (gm_frozen fin) = gm_form_size fin := by
  rw [gm_form_size_eq, gm_form_size_eq]
  unfold gm_size_sum gm_frozen
  rw [List.map_map]
  rfl

theorem gm_write_archive_sim (game out : List Nat) (fin : List gm_patched_index)
    (s0 s1 : gm_out) (hcp : ∀ p ∈ fin, gm_chunk_copied game out p)
    (hsmall : ∀ p ∈ fin, p.sect = GM_AUDO → ∀ e ∈ p.entries, e.size < 4294967296)
    (h : gm_write_archive game fin s0 = some s1) :
    gm_write_archive out (gm_frozen fin) s0 = some s1 := by
  unfold gm_write_archive at h ⊢
  rw [gm_form_size_frozen]
  split at h
  · cases h
  rename_i t1 ht1
  unfold gm_frozen
  exact gm_write_each_sim (gm_write_chunk game) (gm_write_chunk out) gm_frozen_chunk fin
    (fun p hp u u1 hu => gm_write_chunk_sim game out p u u1 (hcp p hp) (hsmall p hp) hu)
    t1 s1 h

/-! ## Planning the same patches on the archive that was written -/

theorem gm_overlay_get (fin : List gm_patched_index) (M : Nat → Nat → Option gm_patch)
    (k : Nat) :
    (gm_overlay fin M)[k]? = fin[k]?.map fun pf =>
      { gm_frozen_chunk pf with
        entries := pf.entries.mapIdx fun i ef => { gm_frozen_entry ef with patch := M k i } } := by
  unfold gm_overlay
  rw [List.getElem?_mapIdx]

theorem gm_overlay_none (fin : List gm_patched_index) :
    gm_overlay fin (fun _ _ => none) = gm_build_patched (gm_reindex fin) := by
  apply List.ext_getElem?
  intro k
  rw [gm_overlay_get]
  unfold gm_build_patched gm_reindex
  rw [List.getElem?_map, List.getElem?_map]
  cases fin[k]? with
  | none => rfl
  | some pf =>
    simp only [Option.map_some', Option.some.injEq]
    simp only [gm_frozen_chunk, gm_reindex_chunk, gm_patched_index.mk.injEq, true_and,
      and_true]
    apply List.ext_getElem?
    intro i
    rw [List.getElem?_mapIdx, List.getElem?_map, List.getElem?_map]
    cases pf.entries[i]? with
    | none => rfl
    | some ef => rfl

theorem gm_overlay_marks (fin : List gm_patched_index) :
    gm_overlay fin (gm_marks fin) = gm_frozen fin := by
  apply List.ext_getElem?
  intro k
  rw [gm_overlay_get]
  unfold gm_frozen
  rw [List.getElem?_map]
  cases hk : fin[k]? with
  | none => rfl
  | some pf =>
    simp only [Option.map_some', Option.some.injEq]
    simp only [gm_frozen_chunk, gm_patched_index.mk.injEq, true_and, and_true]
    apply List.ext_getElem?
    intro i
    rw [List.getElem?_mapIdx, List.getElem?_map]
    cases hi : pf.entries[i]? with
    | none => rfl
    | some ef =>
      simp only [Option.map_some', Option.some.injEq]
      have : gm_marks fin k i = ef.patch := by
        unfold gm_marks
        rw [hk]
        simp only [Option.some_bind]
        rw [hi]
        rfl
      rw [this]
      rfl

theorem gm_marks_build (index : List gm_index) (k i : Nat) :
    gm_marks (gm_build_patched index) k i = none := by
  unfold gm_marks gm_build_patched
  rw [List.getElem?_map]
  cases index[k]? with
  | none => rfl
  | some c =>
    simp only [Option.map_some', Option.some_bind]
    rw [List.getElem?_map]
    cases c.entries[i]? with
    | none => rfl
    | some e => rfl

theorem gm_marks_patched_at (st : List gm_patched_index) (k : Nat) (c : gm_patched_index)
    (q : gm_patch) (e : gm_patched_entry) (hc : st[k]? = some c)
    (he : c.entries[q.index]? = some e) (n i : Nat) :
    gm_marks (gm_patched_at st k c q e) n i =
      if n = k ∧ i = q.index then some q else gm_marks st n i := by
  have hi : q.index < c.entries.length := (List.getElem?_eq_some_iff.mp he).1
  unfold gm_marks
  rw [gm_patched_at_get st k c q e hc n]
  by_cases h1 : n < k
  · rw [if_pos h1, if_neg (by omega)]
  · rw [if_neg h1]
    by_cases h2 : n = k
    · subst h2
      rw [if_pos rfl, hc]
      simp only [Option.some_bind, true_and]
      rw [gm_patched_chunk_entries]
      unfold gm_shift_siblings
      rw [List.getElem?_map, List.getElem?_set]
      by_cases h3 : q.index = i
      · subst h3
        rw [if_pos rfl, if_pos hi, if_pos rfl]
        simp only [Option.map_some', Option.some_bind]
        split <;> rfl
      · rw [if_neg h3, if_neg (fun h => h3 h.symm)]
        cases c.entries[i]? with
        | none => rfl
        | some x =>
          simp only [Option.map_some', Option.some_bind]
          split <;> rfl
    · rw [if_neg h2, if_neg (by omega)]
      cases st[n]? with
      | none => rfl
      | some x =>
        simp only [Option.map_some', Option.some_bind]
        rw [gm_shift_chunk_entries, List.getElem?_map]
        cases x.entries[i]? with
        | none => rfl
        | some y => rfl

theorem gm_shift_siblings_zero (entries : List gm_patched_entry) (pivot : Int)
    (h : ∀ e ∈ entries, gm_off_ok e.offset) : gm_shift_siblings entries pivot 0 = entries := by
  unfold gm_shift_siblings
  conv_rhs => rw [← List.map_id entries]
  apply List.map_congr_left
  intro e hm
  have := h e hm
  unfold gm_off_ok at this
  have h3 : off_wrap (e.offset + 0) = e.offset := by
    rw [off_wrap_eq]; omega
  split
  · rw [h3]; rfl
  · rfl

theorem gm_mirrors_entry (index : List gm_index) (st : List gm_patched_index)
    (h : gm_mirrors index st) (k : Nat) (p : gm_patched_index) (hk : st[k]? = some p) :
    ∃ c, index[k]? = some c ∧ p.sect = c.sect ∧ p.entries.length = c.entries.length ∧
      ∀ (i : Nat) (e : gm_patched_entry), p.entries[i]? = some e →
        c.entries[i]? = some e.entry := by
  obtain ⟨c, hc, hs, he⟩ := gm_mirrors_get index st h k p hk
  refine ⟨c, hc, hs, ?_, ?_⟩
  · rw [← he, List.length_map]
  · intro i e hi
    rw [← he, List.getElem?_map, hi]
    rfl

theorem gm_mirrors_length (index : List gm_index) (st : List gm_patched_index)
    (h : gm_mirrors index st) : st.length = index.length := by
  unfold gm_mirrors at h
  have := congrArg List.length h
  simpa using this

theorem gm_overlay_sects (fin : List gm_patched_index) (M : Nat → Nat → Option gm_patch) :
    (gm_overlay fin M).map (fun c => c.sect) = fin.map fun c => c.sect := by
  apply List.ext_getElem?
  intro k
  rw [List.getElem?_map, List.getElem?_map, gm_overlay_get]
  cases fin[k]? with
  | none => rfl
  | some pf => rfl

theorem gm_sprt_check_congr (a b : gm_entry) (h : a.tpag = b.tpag)
    (ps : List gm_patch_sprt_entry) : gm_sprt_check a ps = gm_sprt_check b ps := by
  induction ps with
  | nil => rfl
  | cons p rest ih =>
    unfold gm_sprt_check
    rw [h, ih]

theorem gm_patch_sprt_congr (q : gm_patch) (es es1 : List gm_patched_entry)
    (h : List.Forall₂ (fun e e1 : gm_patched_entry =>
      e.entry.name = e1.entry.name ∧ e.entry.tpag = e1.entry.tpag) es es1) (found : Bool) :
    gm_patch_sprt q es found = gm_patch_sprt q es1 found := by
  induction h generalizing found with
  | nil => rfl
  | cons hab _ ih =>
    unfold gm_patch_sprt
    rw [hab.1, gm_sprt_check_congr _ _ hab.2, ih, ih]

theorem gm_overlay_step (index : List gm_index) (fin st S : List gm_patched_index)
    (q : gm_patch) (k : Nat) (hmf : gm_mirrors index fin) (hms : gm_mirrors index st)
    (htyped : ∀ c ∈ fin, gm_movable c.sect = true →
      gm_off_ok c.offset ∧ c.size < 18446744073709551616 ∧ ∀ e ∈ c.entries, gm_off_ok e.offset)
    (hget : gm_get_section st q.sect = some k)
    (hstep : gm_patch_at st k q = (gm_status.ok, S))
    (hmark : ∀ pf ef, fin[k]? = some pf → gm_movable pf.sect = true →
      pf.entries[q.index]? = some ef → ef.size = q.size) :
    gm_get_section (gm_overlay fin (gm_marks st)) q.sect = some k ∧
      gm_patch_at (gm_overlay fin (gm_marks st)) k q =
        (gm_status.ok, gm_overlay fin (gm_marks S)) := by
  have hsects : (gm_overlay fin (gm_marks st)).map (fun c => c.sect) =
      st.map fun c => c.sect := by
    rw [gm_overlay_sects, gm_mirrors_sects index fin hmf, gm_mirrors_sects index st hms]
  refine ⟨by rw [gm_get_section_congr _ _ _ hsects]; exact hget, ?_⟩
  obtain ⟨⟨c, hc, hcs⟩, -⟩ := (gm_get_section_spec st q.sect).2 k hget
  obtain ⟨ci, hci, hsi, hli, hei⟩ := gm_mirrors_entry index st hms k c hc
  have hkf : k < fin.length := by
    rw [gm_mirrors_length index fin hmf, ← gm_mirrors_length index st hms]
    exact (List.getElem?_eq_some_iff.mp hc).1
  obtain ⟨pf, hpf⟩ : ∃ pf, fin[k]? = some pf := ⟨fin[k], List.getElem?_eq_getElem hkf⟩
  obtain ⟨ci1, hci1, hsf, hlf, hef⟩ := gm_mirrors_entry index fin hmf k pf hpf
  rw [hci] at hci1
  simp only [Option.some.injEq] at hci1
  subst hci1
  have hc1 : (gm_overlay fin (gm_marks st))[k]? = some
      { gm_frozen_chunk pf with
        entries := pf.entries.mapIdx fun i ef =>
          { gm_frozen_entry ef with patch := gm_marks st k i } } := by
    rw [gm_overlay_get, hpf]
    rfl
  have hpfs : pf.sect = c.sect := by rw [hsf, hsi]
  by_cases hmov : gm_movable c.sect = true
  · obtain ⟨e, he, hep, het, hed, htail, hS⟩ := (gm_patch_at_iff st k c q S hc hmov).mp hstep
    have hqi : q.index < pf.entries.length := by
      rw [hlf, ← hli]
      exact (List.getElem?_eq_some_iff.mp he).1
    obtain ⟨ef, hef1⟩ : ∃ ef, pf.entries[q.index]? = some ef :=
      ⟨pf.entries[q.index], List.getElem?_eq_getElem hqi⟩
    have hentry : ef.entry = e.entry := by
      have h1 := hef _ _ hef1
      have h2 := hei _ _ he
      rw [h1] at h2
      simp only [Option.some.injEq] at h2
      exact h2
    have hsize := hmark pf ef hpf (by rw [hpfs]; exact hmov) hef1
    have hm0 : gm_marks st k q.index = none := by
      unfold gm_marks
      rw [hc]
      simp only [Option.some_bind]
      rw [he]
      exact hep
    have htypedf := htyped pf (List.getElem?_mem hpf) (by rw [hpfs]; exact hmov)
    rw [hS]
    apply (gm_patch_at_iff _ k _ q _ hc1 (by simp only [gm_frozen_chunk]; rw [hpfs]; exact hmov)).mpr
    refine ⟨{ gm_frozen_entry ef with patch := none }, ?_, rfl, ?_, ?_, ?_, ?_⟩
    · simp only [List.getElem?_mapIdx, hef1, Option.map_some', hm0]
    · simp only [gm_frozen_entry, gm_reindex_entry]
      rw [hentry]
      exact het
    · intro hs
      simp only [gm_frozen_chunk] at hs
      simp only [gm_frozen_entry, gm_reindex_entry]
      rw [hentry]
      exact hed (by rw [← hpfs]; exact hs)
    · intro x hx
      obtain ⟨n, hn⟩ := List.mem_iff_getElem?.mp hx
      rw [List.getElem?_drop] at hn
      have h1 := congrArg (fun l => l[k + 1 + n]?) hsects
      simp only [List.getElem?_map, hn, Option.map_some'] at h1
      cases hy : st[k + 1 + n]? with
      | none => rw [hy] at h1; cases h1
      | some y =>
        rw [hy] at h1
        simp only [Option.map_some', Option.some.injEq] at h1
        rw [h1]
        apply htail y
        apply List.mem_iff_getElem?.mpr
        exact ⟨n, by rw [List.getElem?_drop]; exact hy⟩
    · have hdelta : gm_delta q { gm_frozen_entry ef with patch := none } = 0 := by
        apply gm_delta_same_size
        simp only [gm_frozen_entry, gm_reindex_entry]
        exact hsize.symm
      apply List.ext_getElem?
      intro n
      rw [gm_patched_at_get _ k _ q _ hc1 n, hdelta, gm_overlay_get]
      by_cases h1 : n < k
      · rw [if_pos h1, gm_overlay_get]
        cases fin[n]? with
        | none => rfl
        | some pn =>
          simp only [Option.map_some', Option.some.injEq, gm_patched_index.mk.injEq, true_and,
            and_true]
          apply List.ext_getElem?
          intro i
          rw [List.getElem?_mapIdx, List.getElem?_mapIdx,
            gm_marks_patched_at st k c q e hc he n i, if_neg (by omega)]
      · rw [if_neg h1]
        by_cases h2 : n = k
        · subst h2
          rw [if_pos rfl, hpf]
          simp only [Option.map_some', Option.some.injEq]
          unfold gm_patched_chunk
          rw [hdelta]
          have hsz : size_wrap ((pf.size : Int) + 0) = pf.size := by
            have := htypedf.2.1
            rw [size_wrap_eq]
            omega
          simp only [gm_frozen_chunk, gm_patched_index.mk.injEq, true_and, and_true]
          refine ⟨hsz.symm, ?_⟩
          rw [gm_shift_siblings_zero]
          · apply List.ext_getElem?
            intro i
            rw [List.getElem?_mapIdx, List.getElem?_set, List.getElem?_mapIdx,
              gm_marks_patched_at st n c q e hc he n i]
            by_cases h3 : q.index = i
            · subst h3
              simp only [List.length_mapIdx, hqi, if_true, and_self, hef1, Option.map_some',
                Option.some.injEq, gm_frozen_entry, gm_patched_entry.mk.injEq, and_true,
                true_and]
              exact hsize
            · rw [if_neg h3, if_neg (fun h => h3 h.2.symm)]
          · intro x hx
            obtain ⟨i, hi⟩ := List.mem_iff_getElem?.mp hx
            rw [List.getElem?_set, List.getElem?_mapIdx] at hi
            have hall : ∀ y ∈ pf.entries, gm_off_ok y.offset := htypedf.2.2
            split at hi
            · split at hi
              · simp only [Option.some.injEq] at hi
                rw [← hi]
                exact hall ef (List.getElem?_mem hef1)
              · cases hi
            · cases hy : pf.entries[i]? with
              | none => rw [hy] at hi; cases hi
              | some y =>
                rw [hy] at hi
                simp only [Option.map_some', Option.some.injEq] at hi
                rw [← hi]
                exact hall y (List.getElem?_mem hy)
        · rw [if_neg h2, gm_overlay_get]
          cases hn : fin[n]? with
          | none => rfl
          | some pn =>
            simp only [Option.map_some', Option.some.injEq]
            have hmn : gm_movable pn.sect = true := by
              have h5 := congrArg (fun l => l[n]?) hsects
              simp only [List.getElem?_map, gm_overlay_get, hn, Option.map_some'] at h5
              cases hy : st[n]? with
              | none => rw [hy] at h5; cases h5
              | some y =>
                rw [hy] at h5
                simp only [Option.map_some', Option.some.injEq, gm_frozen_chunk] at h5
                rw [h5]
                apply htail y
                apply List.mem_iff_getElem?.mpr
                refine ⟨n - (k + 1), ?_⟩
                rw [List.getElem?_drop]
                have e : k + 1 + (n - (k + 1)) = n := by omega
                rw [e]
                exact hy
            have htn := htyped pn (List.getElem?_mem hn) hmn
            rw [gm_shift_chunk_zero]
            · simp only [gm_patched_index.mk.injEq, true_and, and_true]
              apply List.ext_getElem?
              intro i
              rw [List.getElem?_mapIdx, List.getElem?_mapIdx,
                gm_marks_patched_at st k c q e hc he n i, if_neg (by omega)]
            · exact htn.1
            · intro x hx
              obtain ⟨i, hi⟩ := List.mem_iff_getElem?.mp hx
              simp only [List.getElem?_mapIdx] at hi
              cases hy : pn.entries[i]? with
              | none => rw [hy] at hi; cases hi
              | some y =>
                rw [hy] at hi
                simp only [Option.map_some', Option.some.injEq] at hi
                rw [← hi]
                exact htn.2.2 y (List.getElem?_mem hy)
  · have hSst : S = st := by
      have := gm_patch_at_unmovable st k q c hc hmov
      rw [hstep] at this
      exact this
    rw [hSst]
    by_cases hsp : c.sect = GM_SPRT
    · rw [gm_patch_at_eq st k q c hc, gm_patch_entry_sprt c _ q hsp] at hstep
      simp only [Prod.mk.injEq] at hstep
      rw [gm_patch_at_eq _ k q _ hc1,
        gm_patch_entry_sprt _ _ q (by simp only [gm_frozen_chunk]; rw [hpfs]; exact hsp)]
      simp only
      have hcong : gm_patch_sprt q (pf.entries.mapIdx fun i ef =>
          { gm_frozen_entry ef with patch := gm_marks st k i }) false =
          gm_patch_sprt q c.entries false := by
        apply gm_patch_sprt_congr
        apply List.forall₂_iff_get.mpr
        refine ⟨by rw [List.length_mapIdx, hlf, hli], ?_⟩
        intro i h1 h2
        rw [List.length_mapIdx] at h1
        have e1 : pf.entries[i]? = some pf.entries[i] := List.getElem?_eq_getElem h1
        have e2 : c.entries[i]? = some c.entries[i] := List.getElem?_eq_getElem h2
        have h3 := hef _ _ e1
        have h4 := hei _ _ e2
        rw [h3] at h4
        simp only [Option.some.injEq] at h4
        simp only [List.get_eq_getElem, List.getElem_mapIdx, gm_frozen_entry, gm_reindex_entry]
        rw [h4]
        exact ⟨rfl, rfl⟩
      rw [hcong, hstep.1]
      have := (gm_split_at (gm_overlay fin (gm_marks st)) k _ hc1).symm
      simp only [Prod.mk.injEq, true_and]
      exact this
    · exfalso
      rw [gm_patch_at_eq st k q c hc] at hstep
      simp only [gm_patch_entry, hmov, hsp, Bool.false_eq_true, if_false, Prod.mk.injEq,
        reduceCtorEq, false_and] at hstep

theorem gm_marks_keeps (st fin : List gm_patched_index) (k i : Nat) (q : gm_patch)
    (h : ∀ d, st[k]? = some d → ∃ d1, fin[k]? = some d1 ∧ gm_keeps_patches d d1)
    (hm : gm_marks st k i = some q) : gm_marks fin k i = some q := by
  unfold gm_marks at hm ⊢
  cases hd : st[k]? with
  | none => rw [hd] at hm; cases hm
  | some d =>
    rw [hd] at hm
    simp only [Option.some_bind] at hm
    cases he : d.entries[i]? with
    | none => rw [he] at hm; cases hm
    | some e =>
      rw [he] at hm
      simp only [Option.some_bind] at hm
      obtain ⟨d1, hd1, -, hk⟩ := h d hd
      obtain ⟨e1, he1, hp1⟩ := hk i e q he hm
      rw [hd1]
      simp only [Option.some_bind]
      rw [he1]
      exact hp1

theorem gm_apply_patches_persist (patches : List gm_patch) :
    ∀ (st fin : List gm_patched_index), gm_apply_patches st patches = (gm_status.ok, fin) →
      ∀ (k : Nat) (d : gm_patched_index), st[k]? = some d →
        ∃ d1, fin[k]? = some d1 ∧ gm_keeps_patches d d1 := by
  induction patches with
  | nil =>
    intro st fin h k d hd
    simp only [gm_apply_patches, Prod.mk.injEq, true_and] at h
    subst h
    exact ⟨d, hd, gm_keeps_patches_refl d⟩
  | cons q rest ih =>
    intro st fin h k d hd
    obtain ⟨j, S, -, hstep, hrest⟩ := (gm_apply_cons st fin q rest).mp h
    obtain ⟨d1, hd1, hk1⟩ := gm_patch_at_persist st j q k d hd
    rw [hstep] at hd1
    obtain ⟨d2, hd2, hk2⟩ := ih S fin hrest k d1 hd1
    exact ⟨d2, hd2, gm_keeps_patches_trans d d1 d2 hk1 hk2⟩

theorem gm_replan_overlay (index : List gm_index) (fin : List gm_patched_index)
    (hmf : gm_mirrors index fin)
    (htyped : ∀ c ∈ fin, gm_movable c.sect = true →
      gm_off_ok c.offset ∧ c.size < 18446744073709551616 ∧ ∀ e ∈ c.entries, gm_off_ok e.offset)
    (hsz : gm_sizes_inv fin)
    (patches : List gm_patch) :
    ∀ st, gm_mirrors index st → gm_apply_patches st patches = (gm_status.ok, fin) →
      gm_apply_patches (gm_overlay fin (gm_marks st)) patches =
        (gm_status.ok, gm_overlay fin (gm_marks fin)) := by
  induction patches with
  | nil =>
    intro st _ h
    simp only [gm_apply_patches, Prod.mk.injEq, true_and] at h
    subst h
    rfl
  | cons q rest ih =>
    intro st hms h
    obtain ⟨k, S, hget, hstep, hrest⟩ := (gm_apply_cons st fin q rest).mp h
    have hmS : gm_mirrors index S := by
      have := gm_mirrors_patch_at index st k q hms
      rw [hstep] at this
      exact this
    have hmark : ∀ pf ef, fin[k]? = some pf → gm_movable pf.sect = true →
        pf.entries[q.index]? = some ef → ef.size = q.size := by
      intro pf ef hpf hmov hef
      obtain ⟨⟨c, hc, -⟩, -⟩ := (gm_get_section_spec st q.sect).2 k hget
      obtain ⟨ci, hci, hsi, -, -⟩ := gm_mirrors_entry index st hms k c hc
      obtain ⟨ci1, hci1, hsf, -, -⟩ := gm_mirrors_entry index fin hmf k pf hpf
      rw [hci] at hci1
      simp only [Option.some.injEq] at hci1
      subst hci1
      have hmc : gm_movable c.sect = true := by rw [hsi, ← hsf]; exact hmov
      obtain ⟨e, he, -, -, -, -, hS⟩ := (gm_patch_at_iff st k c q S hc hmc).mp hstep
      have hm1 : gm_marks S k q.index = some q := by
        rw [hS, gm_marks_patched_at st k c q e hc he k q.index, if_pos ⟨rfl, rfl⟩]
      have hm2 := gm_marks_keeps S fin k q.index q
        (fun d hd => gm_apply_patches_persist rest S fin hrest k d hd) hm1
      unfold gm_marks at hm2
      rw [hpf] at hm2
      simp only [Option.some_bind] at hm2
      rw [hef] at hm2
      simp only [Option.some_bind] at hm2
      exact (hsz pf (List.getElem?_mem hpf) ef (List.getElem?_mem hef)).1 q hm2
    obtain ⟨hget1, hstep1⟩ := gm_overlay_step index fin st S q k hmf hms htyped hget hstep hmark
    exact (gm_apply_cons _ _ q rest).mpr ⟨k, _, hget1, hstep1, ih S hmS hrest⟩

theorem gm_replan (index : List gm_index) (fin : List gm_patched_index)
    (patches : List gm_patch)
    (htyped : ∀ c ∈ fin, gm_movable c.sect = true →
      gm_off_ok c.offset ∧ c.size < 18446744073709551616 ∧ ∀ e ∈ c.entries, gm_off_ok e.offset)
    (h : gm_apply_patches (gm_build_patched index) patches = (gm_status.ok, fin)) :
    gm_apply_patches (gm_build_patched (gm_reindex fin)) patches =
      (gm_status.ok, gm_frozen fin) := by
  have hmf : gm_mirrors index fin := by
    have := gm_mirrors_apply index patches _ (gm_mirrors_build index)
    rw [h] at this
    exact this
  have hsz : gm_sizes_inv fin := by
    have := gm_sizes_inv_apply patches _ (gm_sizes_inv_build index)
    rw [h] at this
    exact this
  have := gm_replan_overlay index fin hmf htyped hsz patches _ (gm_mirrors_build index) h
  have e : gm_marks (gm_build_patched index) = fun _ _ => none := by
    funext k i
    exact gm_marks_build index k i
  rw [e, gm_overlay_none, gm_overlay_marks] at this
  exact this

theorem gm_marks_ok_apply (index : List gm_index) (all : List gm_patch)
    (fin : List gm_patched_index) (patches : List gm_patch) :
    ∀ st, gm_mirrors index st → gm_marks_ok index all st → (∀ q ∈ patches, q ∈ all) →
      gm_apply_patches st patches = (gm_status.ok, fin) → gm_marks_ok index all fin := by
  induction patches with
  | nil =>
    intro st _ hinv _ h
    simp only [gm_apply_patches, Prod.mk.injEq, true_and] at h
    subst h
    exact hinv
  | cons q rest ih =>
    intro st hms hinv hall h
    obtain ⟨k, S, hget, hstep, hrest⟩ := (gm_apply_cons st fin q rest).mp h
    have hmS : gm_mirrors index S := by
      have := gm_mirrors_patch_at index st k q hms
      rw [hstep] at this
      exact this
    refine ih S hmS ?_ (fun x hx => hall x (List.mem_cons_of_mem _ hx)) hrest
    obtain ⟨⟨c, hc, hcs⟩, -⟩ := (gm_get_section_spec st q.sect).2 k hget
    obtain ⟨ci, hci, hsi, hli, hei⟩ := gm_mirrors_entry index st hms k c hc
    by_cases hmov : gm_movable c.sect = true
    · obtain ⟨e, he, hep, het, hed, -, hS⟩ := (gm_patch_at_iff st k c q S hc hmov).mp hstep
      intro n i x hx
      rw [hS, gm_marks_patched_at st k c q e hc he n i] at hx
      split at hx
      · rename_i hni
        simp only [Option.some.injEq] at hx
        subst hx
        obtain ⟨rfl, rfl⟩ := hni
        refine ⟨hall _ (List.mem_cons_self _ _), ci, e.entry, hci, by rw [← hsi]; exact hcs,
          by rw [← hsi]; exact hmov, hei _ _ he, het, ?_⟩
        intro ht
        exact hed (by rw [hsi]; exact ht)
      · exact hinv n i x hx
    · have hSst : S = st := by
        have := gm_patch_at_unmovable st k q c hc hmov
        rw [hstep] at this
        exact this
      rw [hSst]
      exact hinv

theorem gm_marks_ok_plan (index : List gm_index) (patches : List gm_patch)
    (fin : List gm_patched_index)
    (h : gm_apply_patches (gm_build_patched index) patches = (gm_status.ok, fin)) :
    gm_marks_ok index patches fin := by
  apply gm_marks_ok_apply index patches fin patches _ (gm_mirrors_build index) ?_
    (fun q hq => hq) h
  intro k i q hq
  rw [gm_marks_build] at hq
  cases hq

/-! ## Where the writer has put the planned chunks -/

theorem gm_entries_ordered_mem (lead : Nat) (es : List gm_patched_entry) :
    ∀ (start stop : Int), gm_entries_ordered (lead : Int) start es stop →
      start ≤ stop ∧
      ∀ e ∈ es, start ≤ e.offset - (lead : Int) ∧ e.offset + (e.size : Int) ≤ stop := by
  induction es with
  | nil =>
    intro start stop h
    simp only [gm_entries_ordered] at h
    exact ⟨h, fun e he => by simp at he⟩
  | cons x rest ih =>
    intro start stop h
    simp only [gm_entries_ordered] at h
    obtain ⟨h1, h2⟩ := h
    obtain ⟨h3, h4⟩ := ih _ _ h2
    refine ⟨by omega, ?_⟩
    intro e he
    rcases List.mem_cons.mp he with rfl | he
    · exact ⟨h1, h3⟩
    · obtain ⟨h5, h6⟩ := h4 e he
      exact ⟨by omega, h6⟩

theorem gm_xtiles_of_ptiles (l : List gm_patched_index) :
    ∀ s : Int, gm_ptiles s l → 0 ≤ s →
      (∀ p ∈ l, p.offset + 8 + (p.size : Int) ≤ (INT32_MAX : Int)) → gm_xtiles s l := by
  induction l with
  | nil => intro s _ _ _; trivial
  | cons p rest ih =>
    intro s h hs hsmall
    simp only [gm_ptiles] at h
    obtain ⟨h1, h2⟩ := h
    have hp := hsmall p (List.mem_cons_self _ _)
    have hI : (INT32_MAX : Int) = 2147483647 := rfl
    have e : off_wrap (s + 8 + (p.size : Int)) = s + 8 + (p.size : Int) := by
      rw [off_wrap_eq]; omega
    rw [e] at h2
    exact ⟨h1, ih _ h2 (by omega) (fun x hx => hsmall x (List.mem_cons_of_mem _ hx))⟩

theorem gm_xtiles_get (l : List gm_patched_index) :
    ∀ (s : Int) (k : Nat) (p : gm_patched_index), gm_xtiles s l → l[k]? = some p →
      s ≤ p.offset ∧ gm_xtiles (p.offset + 8 + (p.size : Int)) (l.drop (k + 1)) := by
  induction l with
  | nil => intro s k p _ hk; simp at hk
  | cons x rest ih =>
    intro s k p h hk
    simp only [gm_xtiles] at h
    obtain ⟨h1, h2⟩ := h
    cases k with
    | zero =>
      simp only [List.getElem?_cons_zero, Option.some.injEq] at hk
      subst hk
      rw [h1]
      exact ⟨by omega, by simpa using h2⟩
    | succ k =>
      simp only [List.getElem?_cons_succ] at hk
      obtain ⟨h3, h4⟩ := ih _ k p h2 hk
      exact ⟨by omega, by simpa using h4⟩

theorem gm_xtiles_behind (l : List gm_patched_index) :
    ∀ (s : Int) (E : Nat), gm_xtiles s l → (E : Int) ≤ s →
      (∀ p ∈ l, gm_chunk_orderly p) → gm_planned_behind E l := by
  induction l with
  | nil => intro s E _ _ _ d hd; simp at hd
  | cons x rest ih =>
    intro s E h hE hord d hd
    simp only [gm_xtiles] at h
    obtain ⟨h1, h2⟩ := h
    rcases List.mem_cons.mp hd with rfl | hd
    · have ho := hord d (List.mem_cons_self _ _)
      refine ⟨by omega, ?_, ?_⟩
      · intro ht e he
        unfold gm_chunk_orderly at ho
        simp only [ht] at ho
        have := (gm_entries_ordered_mem 0 _ _ _ ho).2 e he
        omega
      · intro ha e he
        unfold gm_chunk_orderly at ho
        simp only [ha] at ho
        have := (gm_entries_ordered_mem 4 _ _ _ ho).2 e he
        omega
    · exact ih _ E h2 (by omega) (fun p hp => hord p (List.mem_cons_of_mem _ hp)) d hd

/-! ## Reading what the writer has written -/

theorem gm_fread_of_holds (d : List Nat) (P : Nat) (B : List Nat) (h : gm_holds d P B)
    (hB : 0 < B.length) : gm_fread d P B.length = some B := by
  have hl := gm_holds_length d P B h hB
  unfold gm_holds at h
  unfold gm_fread
  rw [if_neg (by omega), if_pos hl, h]

theorem u32_wrap_lt (x : Int) : u32_wrap x < 4294967296 := by
  rw [u32_wrap_eq]
  omega

theorem gm_u32_write (x : Int) (b : List Nat) :
    U32LE_FROM_BUF (WRITE_U32LE x ++ b) 0 = u32_wrap x := by
  have := u32_wrap_lt x
  unfold U32LE_FROM_BUF WRITE_U32LE
  simp only [List.cons_append, List.getD_cons_zero, List.getD_cons_succ, Nat.zero_add]
  omega

theorem gm_u32_skip (a b : List Nat) (k : Nat) :
    U32LE_FROM_BUF (a ++ b) (a.length + k) = U32LE_FROM_BUF b k := by
  have e : ∀ j, (a ++ b).getD (a.length + j) 0 = b.getD j 0 := by
    intro j
    rw [List.getD_eq_getElem?_getD, List.getD_eq_getElem?_getD,
      List.getElem?_append_right (by omega), Nat.add_sub_cancel_left]
  unfold U32LE_FROM_BUF
  rw [e k, Nat.add_assoc a.length k 1, e (k + 1), Nat.add_assoc a.length k 2, e (k + 2),
    Nat.add_assoc a.length k 3, e (k + 3)]

theorem gm_write_u32_length (x : Int) : (WRITE_U32LE x).length = 4 := rfl

theorem gm_read_offsets_written (out : List Nat) (n : Nat) :
    ∀ (pos : Nat) (v : Nat → Nat),
      (∀ i, i < n → gm_holds out (pos + 4 * i) (WRITE_U32LE ((v i : Nat) : Int)) ∧
        v i ≤ INT32_MAX) →
      gm_read_offsets out pos n = some ((List.range n).map v) := by
  induction n with
  | zero => intro pos v _; rfl
  | succ n ih =>
    intro pos v h
    obtain ⟨h0, hv0⟩ := h 0 (by omega)
    rw [Nat.mul_zero, Nat.add_zero] at h0
    have hr := gm_fread_of_holds out pos _ h0 (by rw [gm_write_u32_length]; omega)
    rw [gm_write_u32_length] at hr
    have hI : INT32_MAX = 2147483647 := rfl
    have hval : U32LE_FROM_BUF (WRITE_U32LE ((v 0 : Nat) : Int)) 0 = v 0 := by
      have := gm_u32_write ((v 0 : Nat) : Int) []
      rw [List.append_nil] at this
      rw [this, u32_wrap_eq]
      omega
    unfold gm_read_offsets
    rw [hr]
    simp only [hval]
    rw [if_neg (by omega), ih (pos + 4) (fun i => v (i + 1)) (by
      intro i hi
      have := h (i + 1) (by omega)
      have e : pos + 4 * (i + 1) = pos + 4 + 4 * i := by omega
      rw [e] at this
      exact this)]
    simp only [List.range_succ_eq_map, List.map_cons, List.map_map]
    rfl

theorem gm_read_entries_of_get (read : Nat → Option gm_entry) (offs : List Nat) :
    ∀ es : List gm_entry, offs.length = es.length →
      (∀ (i o : Nat) (e : gm_entry), offs[i]? = some o → es[i]? = some e → read o = some e) →
      gm_read_entries read offs = some es := by
  induction offs with
  | nil =>
    intro es hl _
    cases es with
    | nil => rfl
    | cons e rest => simp at hl
  | cons o rest ih =>
    intro es hl h
    cases es with
    | nil => simp at hl
    | cons e es1 =>
      unfold gm_read_entries
      rw [h 0 o e (by simp) (by simp)]
      simp only
      rw [ih es1 (by simpa using hl)
        (fun i o1 e1 h1 h2 => h (i + 1) o1 e1 (by simpa using h1) (by simpa using h2))]

theorem gm_read_txtr_entry_written (png : png_sniffer) (out : List Nat) (o u1 u2 off : Nat)
    (info : png_info)
    (h : gm_holds out o
      (WRITE_U32LE (u1 : Int) ++ WRITE_U32LE (u2 : Int) ++ WRITE_U32LE (off : Int)))
    (h1 : u1 ≤ 1) (h2 : u2 = 0) (hoff : off ≤ INT32_MAX) (hp : png out off = some info) :
    gm_read_txtr_entry png out o =
      some { offset := (off : Int), size := info.filesize, type := GM_PNG, unknown1 := u1,
             unknown2 := u2, width := info.width, height := info.height, name := [],
             tpag := [] } := by
  have hI : INT32_MAX = 2147483647 := rfl
  have hr := gm_fread_of_holds out o _ h (by simp [gm_write_u32_length])
  have hl : (WRITE_U32LE (u1 : Int) ++ WRITE_U32LE (u2 : Int) ++ WRITE_U32LE (off : Int)).length
      = 12 := rfl
  rw [hl] at hr
  have e0 : U32LE_FROM_BUF
      (WRITE_U32LE (u1 : Int) ++ WRITE_U32LE (u2 : Int) ++ WRITE_U32LE (off : Int)) 0 = u1 := by
    rw [List.append_assoc, gm_u32_write, u32_wrap_eq]
    omega
  have e4 : U32LE_FROM_BUF
      (WRITE_U32LE (u1 : Int) ++ WRITE_U32LE (u2 : Int) ++ WRITE_U32LE (off : Int)) 4 = u2 := by
    rw [List.append_assoc]
    have := gm_u32_skip (WRITE_U32LE (u1 : Int))
      (WRITE_U32LE (u2 : Int) ++ WRITE_U32LE (off : Int)) 0
    rw [gm_write_u32_length] at this
    rw [this, gm_u32_write, u32_wrap_eq]
    omega
  have e8 : U32LE_FROM_BUF
      (WRITE_U32LE (u1 : Int) ++ WRITE_U32LE (u2 : Int) ++ WRITE_U32LE (off : Int)) 8 = off := by
    have := gm_u32_skip (WRITE_U32LE (u1 : Int) ++ WRITE_U32LE (u2 : Int))
      (WRITE_U32LE (off : Int)) 0
    have hl2 : (WRITE_U32LE (u1 : Int) ++ WRITE_U32LE (u2 : Int)).length = 8 := rfl
    rw [hl2] at this
    have e := gm_u32_write (off : Int) []
    rw [List.append_nil] at e
    rw [this, e, u32_wrap_eq]
    omega
  unfold gm_read_txtr_entry
  rw [hr]
  simp only [e0, e4, e8]
  rw [if_neg (by omega), if_neg (by omega), if_neg (by omega), hp]

theorem gm_read_index_txtr_of (png : png_sniffer) (game : List Nat) (pos : Nat)
    (buffer offs : List Nat) (es : List gm_entry) (h1 : gm_fread game pos 4 = some buffer)
    (h2 : gm_read_offsets game (pos + 4) (U32LE_FROM_BUF buffer 0) = some offs)
    (h3 : gm_read_entries (gm_read_txtr_entry png game) offs = some es) :
    gm_read_index_txtr png game pos = some es := by
  unfold gm_read_index_txtr
  rw [h1]
  simp only
  rw [h2]
  simp only
  exact h3

theorem gm_read_index_audo_of (game : List Nat) (pos : Nat)
    (buffer offs : List Nat) (es : List gm_entry) (h1 : gm_fread game pos 4 = some buffer)
    (h2 : gm_read_offsets game (pos + 4) (U32LE_FROM_BUF buffer 0) = some offs)
    (h3 : gm_read_entries (gm_read_audo_entry game) offs = some es) :
    gm_read_index_audo game pos = some es := by
  unfold gm_read_index_audo
  rw [h1]
  simp only
  rw [h2]
  simp only
  exact h3

theorem gm_read_index_txtr_written (png : png_sniffer) (out : List Nat)
    (p : gm_patched_index) (C : Nat) (hC : p.offset = (C : Int))
    (g2 : gm_holds out (C + 8) (WRITE_U32LE (p.entries.length : Int)))
    (g3 : ∀ i, i < p.entries.length →
      gm_holds out (C + 12 + 4 * i)
        (WRITE_U32LE (p.offset + 12 + 4 * (p.entries.length : Int) + 12 * (i : Int))))
    (g4 : ∀ (i : Nat) (e : gm_patched_entry), p.entries[i]? = some e →
      gm_holds out (C + 12 + 4 * p.entries.length + 12 * i)
        (WRITE_U32LE (e.entry.unknown1 : Int) ++ WRITE_U32LE (e.entry.unknown2 : Int) ++
          WRITE_U32LE e.offset))
    (hbound : C + 12 + 16 * p.entries.length ≤ INT32_MAX)
    (hent : ∀ e ∈ p.entries, e.entry.unknown1 ≤ 1 ∧ e.entry.unknown2 = 0 ∧
      e.entry.type = GM_PNG ∧ e.entry.name = [] ∧ e.entry.tpag = [] ∧ 0 ≤ e.offset ∧
      e.offset ≤ (INT32_MAX : Int) ∧
      png out e.offset.toNat =
        some { filesize := e.size, width := e.entry.width, height := e.entry.height }) :
    gm_read_index_txtr png out (C + 8) = some (p.entries.map gm_reindex_entry) := by
  have hI : INT32_MAX = 2147483647 := rfl
  have hr := gm_fread_of_holds out (C + 8) _ g2 (by rw [gm_write_u32_length]; omega)
  rw [gm_write_u32_length] at hr
  have hn : U32LE_FROM_BUF (WRITE_U32LE (p.entries.length : Int)) 0 = p.entries.length := by
    have e := gm_u32_write (p.entries.length : Int) []
    rw [List.append_nil] at e
    rw [e, u32_wrap_eq]
    omega
  have hoffs := gm_read_offsets_written out p.entries.length (C + 8 + 4)
    (fun i => C + 12 + 4 * p.entries.length + 12 * i) (by
      intro i hi
      have := g3 i hi
      have e1 : p.offset + 12 + 4 * (p.entries.length : Int) + 12 * (i : Int) =
          ((C + 12 + 4 * p.entries.length + 12 * i : Nat) : Int) := by
        rw [hC]; push_cast; ring
      have e2 : C + 8 + 4 + 4 * i = C + 12 + 4 * i := by omega
      rw [e1] at this
      rw [e2]
      refine ⟨this, ?_⟩
      show C + 12 + 4 * p.entries.length + 12 * i ≤ INT32_MAX
      omega)
  refine gm_read_index_txtr_of png out (C + 8) _ _ _ hr (by rw [hn]; exact hoffs) ?_
  apply gm_read_entries_of_get
  · simp only [List.length_map, List.length_range]
  · intro i o e1 ho he1
    rw [List.getElem?_map] at ho he1
    cases hi : (List.range p.entries.length)[i]? with
    | none => rw [hi] at ho; cases ho
    | some j =>
      rw [hi] at ho
      obtain ⟨hil, hj⟩ := List.getElem?_eq_some_iff.mp hi
      rw [List.getElem_range] at hj
      subst hj
      simp only [Option.map_some', Option.some.injEq] at ho
      subst ho
      cases hei : p.entries[i]? with
      | none => rw [hei] at he1; cases he1
      | some e =>
        rw [hei] at he1
        simp only [Option.map_some', Option.some.injEq] at he1
        subst he1
        obtain ⟨a1, a2, a3, a4, a5, a6, a7, a8⟩ := hent e (List.getElem?_mem hei)
        have hg := g4 i e hei
        have eo : e.offset = ((e.offset.toNat : Nat) : Int) := by omega
        rw [eo] at hg
        rw [gm_read_txtr_entry_written png out _ e.entry.unknown1 e.entry.unknown2
          e.offset.toNat _ hg a1 a2 (by omega) a8]
        simp only [gm_reindex_entry, Option.some.injEq]
        cases hee : e.entry with
        | mk o1 s1 t1 x1 x2 w1 hh1 n1 tp1 =>
          rw [hee] at a3 a4 a5
          simp only at a3 a4 a5
          subst a3 a4 a5
          simp only [gm_entry.mk.injEq, and_true, true_and]
          omega

theorem gm_holds_right (d : List Nat) (P : Nat) (A B : List Nat)
    (h : gm_holds d P (A ++ B)) : gm_holds d (P + A.length) B := by
  unfold gm_holds at h ⊢
  have := congrArg (List.drop A.length) h
  rw [List.drop_take, List.drop_drop, List.length_append, Nat.add_sub_cancel_left,
    List.drop_left] at this
  exact this

theorem gm_read_audo_entry_of (game : List Nat) (o : Nat) (buffer hdr : List Nat)
    (h1 : gm_fread game o 4 = some buffer)
    (h2 : gm_fread game (o + 4)
      (if U32LE_FROM_BUF buffer 0 < 12 then U32LE_FROM_BUF buffer 0 else 12) = some hdr) :
    gm_read_audo_entry game o =
      some { offset := ((o + 4 : Nat) : Int), size := U32LE_FROM_BUF buffer 0,
             type := gm_audo_type hdr
               (if U32LE_FROM_BUF buffer 0 < 12 then U32LE_FROM_BUF buffer 0 else 12),
             unknown1 := 0, unknown2 := 0, width := 0, height := 0, name := [], tpag := [] } := by
  unfold gm_read_audo_entry
  rw [h1]
  simp only
  rw [h2]

theorem gm_read_audo_entry_written (out : List Nat) (o size : Nat) (hdr : List Nat)
    (h : gm_holds out o (WRITE_U32LE (size : Int) ++ hdr)) (hs : size < 4294967296)
    (h0 : 0 < size) (hl : hdr.length = if size < 12 then size else 12) :
    gm_read_audo_entry out o =
      some { offset := ((o + 4 : Nat) : Int), size := size,
             type := gm_audo_type hdr (if size < 12 then size else 12),
             unknown1 := 0, unknown2 := 0, width := 0, height := 0, name := [], tpag := [] } := by
  have hr := gm_fread_of_holds out o _ (gm_holds_left out o _ _ h)
    (by rw [gm_write_u32_length]; omega)
  rw [gm_write_u32_length] at hr
  have hv : U32LE_FROM_BUF (WRITE_U32LE (size : Int)) 0 = size := by
    have e := gm_u32_write (size : Int) []
    rw [List.append_nil] at e
    rw [e, u32_wrap_eq]
    omega
  have h2 := gm_holds_right out o _ _ h
  rw [gm_write_u32_length] at h2
  have hr2 := gm_fread_of_holds out (o + 4) hdr h2 (by rw [hl]; split <;> omega)
  rw [hl] at hr2
  have := gm_read_audo_entry_of out o _ hdr hr (by rw [hv]; exact hr2)
  rw [hv] at this
  exact this

theorem gm_read_index_audo_written (out : List Nat) (p : gm_patched_index) (C : Nat)
    (g2 : gm_holds out (C + 8) (WRITE_U32LE (p.entries.length : Int)))
    (g3 : ∀ (i : Nat) (e : gm_patched_entry), p.entries[i]? = some e →
      gm_holds out (C + 12 + 4 * i) (WRITE_U32LE (e.offset - 4)))
    (hbound : p.entries.length < 4294967296)
    (hent : ∀ e ∈ p.entries, 4 ≤ e.offset ∧ e.offset - 4 ≤ (INT32_MAX : Int) ∧
      e.size < 4294967296 ∧ 0 < e.size ∧
      e.entry.unknown1 = 0 ∧ e.entry.unknown2 = 0 ∧ e.entry.width = 0 ∧ e.entry.height = 0 ∧
      e.entry.name = [] ∧ e.entry.tpag = [] ∧
      ∃ hdr, gm_holds out (e.offset - 4).toNat (WRITE_U32LE (e.size : Int) ++ hdr) ∧
        hdr.length = (if e.size < 12 then e.size else 12) ∧
        gm_audo_type hdr (if e.size < 12 then e.size else 12) = e.entry.type) :
    gm_read_index_audo out (C + 8) = some (p.entries.map gm_reindex_entry) := by
  have hI : INT32_MAX = 2147483647 := rfl
  have hr := gm_fread_of_holds out (C + 8) _ g2 (by rw [gm_write_u32_length]; omega)
  rw [gm_write_u32_length] at hr
  have hn : U32LE_FROM_BUF (WRITE_U32LE (p.entries.length : Int)) 0 = p.entries.length := by
    have e := gm_u32_write (p.entries.length : Int) []
    rw [List.append_nil] at e
    rw [e, u32_wrap_eq]
    omega
  have hoffs := gm_read_offsets_written out p.entries.length (C + 8 + 4)
    (fun i => ((p.entries[i]?).map fun e => (e.offset - 4).toNat).getD 0) (by
      intro i hi
      have hei : p.entries[i]? = some p.entries[i] := List.getElem?_eq_getElem hi
      have := g3 i _ hei
      obtain ⟨a1, a2, -⟩ := hent _ (List.getElem?_mem hei)
      have e1 : p.entries[i].offset - 4 = (((p.entries[i].offset - 4).toNat : Nat) : Int) := by
        omega
      have e2 : C + 8 + 4 + 4 * i = C + 12 + 4 * i := by omega
      rw [e1] at this
      rw [e2]
      simp only [hei, Option.map_some', Option.getD_some]
      exact ⟨this, by omega⟩)
  refine gm_read_index_audo_of out (C + 8) _ _ _ hr (by rw [hn]; exact hoffs) ?_
  apply gm_read_entries_of_get
  · simp only [List.length_map, List.length_range]
  · intro i o e1 ho he1
    rw [List.getElem?_map] at ho he1
    cases hi : (List.range p.entries.length)[i]? with
    | none => rw [hi] at ho; cases ho
    | some j =>
      rw [hi] at ho
      obtain ⟨hil, hj⟩ := List.getElem?_eq_some_iff.mp hi
      rw [List.getElem_range] at hj
      subst hj
      simp only [Option.map_some', Option.some.injEq] at ho
      cases hei : p.entries[i]? with
      | none => rw [hei] at he1; cases he1
      | some e =>
        rw [hei] at he1 ho
        simp only [Option.map_some', Option.some.injEq, Option.getD_some] at he1 ho
        subst he1 ho
        obtain ⟨a1, a2, a3, a4, b1, b2, b3, b4, b5, b6, hdr, c1, c2, c3⟩ :=
          hent e (List.getElem?_mem hei)
        rw [gm_read_audo_entry_written out _ e.size hdr c1 a3 a4 c2]
        simp only [gm_reindex_entry, Option.some.injEq]
        cases hee : e.entry with
        | mk o1 s1 t1 x1 x2 w1 hh1 n1 tp1 =>
          rw [hee] at b1 b2 b3 b4 b5 b6 c3
          simp only at b1 b2 b3 b4 b5 b6 c3
          subst b1 b2 b3 b4 b5 b6
          simp only [gm_entry.mk.injEq, and_true, true_and]
          refine ⟨?_, c3⟩
          have : ((e.offset - 4).toNat : Int) = e.offset - 4 := by omega
          push_cast
          omega

/-! ## What a successful run has read from the input -/

theorem gm_write_each_steps {α : Type} (f : α → gm_out → Option gm_out) (l : List α) :
    ∀ s s1, gm_write_each f l s = some s1 → ∀ x ∈ l, ∃ t t1, f x t = some t1 := by
  induction l with
  | nil => intro s s1 _ x hx; simp at hx
  | cons y rest ih =>
    intro s s1 h x hx
    unfold gm_write_each at h
    split at h
    · cases h
    rename_i t ht
    rcases List.mem_cons.mp hx with rfl | hx
    · exact ⟨s, t, ht⟩
    · exact ih t s1 h x hx

theorem gm_copydata_fits (src : List Nat) (so dst : Int) (n : Nat) (s s1 : gm_out)
    (h : gm_copydata src so dst n s = some s1) : n = 0 ∨ so.toNat + n ≤ src.length := by
  unfold gm_copydata at h
  split at h
  · cases h
  split at h
  · cases h
  split at h
  · cases h
  exact gm_copy_loop_fits src n _ n _ s1 h

theorem gm_write_chunk_txtr_fits (game : List Nat) (p : gm_patched_index) (m s3 : gm_out)
    (hs : p.sect = GM_TXTR) (h : gm_write_chunk game p m = some s3) :
    ∀ e ∈ p.entries, e.patch = none →
      e.size = 0 ∨ e.entry.offset.toNat + e.size ≤ game.length := by
  unfold gm_write_chunk at h
  split at h
  · cases h
  split at h
  · cases h
  unfold gm_write_section at h
  simp only [hs] at h
  split at h
  · cases h
  split at h
  · cases h
  split at h
  · cases h
  intro e he hp
  obtain ⟨t, t1, ht⟩ := gm_write_each_steps _ _ _ _ h e he
  unfold gm_write_txtr_entry at ht
  rw [hp] at ht
  exact gm_copydata_fits game _ _ _ t t1 ht

theorem gm_write_chunk_audo_fits (game : List Nat) (p : gm_patched_index) (m s3 : gm_out)
    (hs : p.sect = GM_AUDO) (h : gm_write_chunk game p m = some s3) :
    ∀ e ∈ p.entries, e.patch = none → e.size < 4294967296 →
      (e.entry.offset - 4).toNat + (e.size + 4) ≤ game.length := by
  unfold gm_write_chunk at h
  split at h
  · cases h
  split at h
  · cases h
  unfold gm_write_section at h
  simp only [hs] at h
  split at h
  · cases h
  split at h
  · cases h
  intro e he hp hsz
  obtain ⟨t, t1, ht⟩ := gm_write_each_steps _ _ _ _ h e he
  unfold gm_write_audo_entry at ht
  rw [hp] at ht
  have hw : size_wrap ((e.size : Int) + 4) = e.size + 4 := by
    rw [size_wrap_eq]; omega
  simp only at ht
  rw [hw] at ht
  have := gm_copydata_fits game _ _ _ t t1 ht
  omega

theorem gm_read_txtr_entry_shape (png : png_sniffer) (game : List Nat) (o : Nat)
    (e : gm_entry) (h : gm_read_txtr_entry png game o = some e) :
    e.unknown1 ≤ 1 ∧ e.unknown2 = 0 ∧ e.type = GM_PNG ∧ e.name = [] ∧ e.tpag = [] ∧
      0 ≤ e.offset ∧
      png game e.offset.toNat =
        some { filesize := e.size, width := e.width, height := e.height } := by
  unfold gm_read_txtr_entry at h
  split at h
  · cases h
  split at h
  · cases h
  split at h
  · cases h
  split at h
  · cases h
  split at h
  · cases h
  rename_i info hinfo
  simp only [Option.some.injEq] at h
  subst h
  refine ⟨?_, ?_, ?_, ?_, ?_, ?_, ?_⟩
  · simp only; omega
  · simp only; omega
  · rfl
  · rfl
  · rfl
  · simp only; omega
  · simp only [Int.toNat_ofNat]
    rw [hinfo]

theorem gm_read_audo_entry_shape (game : List Nat) (o : Nat) (e : gm_entry)
    (h : gm_read_audo_entry game o = some e) :
    e.unknown1 = 0 ∧ e.unknown2 = 0 ∧ e.width = 0 ∧ e.height = 0 ∧ e.name = [] ∧
      e.tpag = [] := by
  unfold gm_read_audo_entry at h
  split at h
  · cases h
  split at h
  · cases h
  simp only [Option.some.injEq] at h
  subst h
  exact ⟨rfl, rfl, rfl, rfl, rfl, rfl⟩

theorem gm_parsed_txtr_entry (png : png_sniffer) (game : List Nat) (index : List gm_index)
    (hidx : gm_read_index png game = some index) (c : gm_index) (hc : c ∈ index)
    (hs : c.sect = GM_TXTR) :
    ∀ e ∈ c.entries, e.unknown1 ≤ 1 ∧ e.unknown2 = 0 ∧ e.type = GM_PNG ∧ e.name = [] ∧
      e.tpag = [] ∧ 0 ≤ e.offset ∧
      png game e.offset.toNat =
        some { filesize := e.size, width := e.width, height := e.height } := by
  obtain ⟨o, -, hent⟩ := gm_read_index_mem png game index hidx c hc
  rw [hs] at hent
  have hent1 : gm_read_index_txtr png game (o + 8) = some c.entries := hent
  unfold gm_read_index_txtr at hent1
  split at hent1
  · cases hent1
  split at hent1
  · cases hent1
  obtain ⟨-, hget⟩ := gm_read_entries_get _ _ _ hent1
  intro e he
  obtain ⟨i, hi⟩ := List.mem_iff_getElem?.mp he
  obtain ⟨o1, -, hread⟩ := hget i e hi
  exact gm_read_txtr_entry_shape png game o1 e hread

theorem gm_parsed_audo_entry (png : png_sniffer) (game : List Nat) (index : List gm_index)
    (hidx : gm_read_index png game = some index) (c : gm_index) (hc : c ∈ index)
    (hs : c.sect = GM_AUDO) :
    ∀ e ∈ c.entries, (e.unknown1 = 0 ∧ e.unknown2 = 0 ∧ e.width = 0 ∧ e.height = 0 ∧
      e.name = [] ∧ e.tpag = []) ∧ 4 ≤ e.offset ∧
      gm_read_audo_entry game (e.offset - 4).toNat = some e := by
  obtain ⟨o, -, hent⟩ := gm_read_index_mem png game index hidx c hc
  rw [hs] at hent
  have hent1 : gm_read_index_audo game (o + 8) = some c.entries := hent
  unfold gm_read_index_audo at hent1
  split at hent1
  · cases hent1
  split at hent1
  · cases hent1
  obtain ⟨-, hget⟩ := gm_read_entries_get _ _ _ hent1
  intro e he
  obtain ⟨i, hi⟩ := List.mem_iff_getElem?.mp he
  obtain ⟨o1, -, hread⟩ := hget i e hi
  obtain ⟨-, hoff, -⟩ := gm_read_audo_entry_spec game o1 e hread
  have e1 : (e.offset - 4).toNat = o1 := by rw [hoff]; omega
  rw [e1]
  exact ⟨gm_read_audo_entry_shape game o1 e hread, by rw [hoff]; omega, hread⟩

/-! ## The chunks of the written archive, one by one -/

theorem gm_marks_of_get (fin : List gm_patched_index) (k i : Nat) (p : gm_patched_index)
    (e : gm_patched_entry) (hk : fin[k]? = some p) (hi : p.entries[i]? = some e) :
    gm_marks fin k i = e.patch := by
  unfold gm_marks
  rw [hk]
  simp only [Option.some_bind]
  rw [hi]
  rfl

theorem gm_holds_slice (d : List Nat) (P n : Nat) (B : List Nat) (h : gm_holds d P B)
    (hl : B.length = n) : (d.drop P).take n = B := by
  unfold gm_holds at h
  rw [← hl]
  exact h

theorem gm_take_length_of_fits (g : List Nat) (p n : Nat) (h : n = 0 ∨ p + n ≤ g.length) :
    ((g.drop p).take n).length = n := by
  rw [List.length_take, List.length_drop]
  omega

theorem gm_rewritten_txtr (png : png_sniffer) (game : List Nat) (index : List gm_index)
    (fin : List gm_patched_index) (patches : List gm_patch) (s0 s1 : gm_out)
    (hidx : gm_read_index png game = some index)
    (hplan : gm_apply_patches (gm_build_patched index) patches = (gm_status.ok, fin))
    (hw : gm_write_archive game fin s0 = some s1) (hx : gm_xtiles 8 fin)
    (hord : ∀ p ∈ fin, gm_chunk_orderly p)
    (hsmall : ∀ p ∈ fin, p.offset + 8 + (p.size : Int) ≤ (INT32_MAX : Int))
    (hpng : gm_png_local png) (hdecl : ∀ q ∈ patches, gm_patch_declared png q)
    (k : Nat) (p : gm_patched_index) (hk : fin[k]? = some p) (hs : p.sect = GM_TXTR) :
    gm_chunk_copied game s1.data p ∧
      (∃ buffer, gm_fread s1.data p.offset.toNat 8 = some buffer ∧
        gm_parse_section buffer = p.sect ∧ U32LE_FROM_BUF buffer 4 = p.size) ∧
      gm_read_section png s1.data p.sect (p.offset.toNat + 8) =
        some (p.entries.map gm_reindex_entry) := by
  have hI : (INT32_MAX : Int) = 2147483647 := rfl
  have hI2 : INT32_MAX = 2147483647 := rfl
  have hm : gm_mirrors index fin := by
    have := gm_mirrors_apply index patches _ (gm_mirrors_build index)
    rw [hplan] at this
    exact this
  have hsz : gm_sizes_inv fin := by
    have := gm_sizes_inv_apply patches _ (gm_sizes_inv_build index)
    rw [hplan] at this
    exact this
  have hmk := gm_marks_ok_plan index patches fin hplan
  have hpm : p ∈ fin := List.getElem?_mem hk
  obtain ⟨m, s3, hchunk, hpost⟩ := gm_write_archive_split game fin s0 s1 k p hk hw
  have hordp : gm_entries_ordered ((0 : Nat) : Int)
      (p.offset + 12 + 16 * (p.entries.length : Int)) p.entries
      (p.offset + 8 + (p.size : Int)) := by
    have := hord p hpm
    unfold gm_chunk_orderly at this
    simp only [hs] at this
    exact this
  obtain ⟨hstart, hmem⟩ := gm_entries_ordered_mem 0 _ _ _ hordp
  obtain ⟨C, E1, hC, f1, f2, f3, hfacts⟩ := gm_write_txtr_chunk_region game p m s3
    (p.offset + 8 + (p.size : Int)) hs
    (fun e he q hq => ((hsz p hpm e he).1 q hq)) hordp hchunk
  obtain ⟨hle, hxt⟩ := gm_xtiles_get fin 8 k p hx hk
  have hbehind : gm_planned_behind E1 (fin.drop (k + 1)) :=
    gm_xtiles_behind _ _ E1 hxt f3 (fun x hx1 => hord x (List.mem_of_mem_drop hx1))
  have hkeep := gm_write_later_keep game E1 _ s3 s1 hbehind f1 f2 hpost
  obtain ⟨g1, g2, g3, g4, g5⟩ := hfacts s1.data hkeep
  have hfits := gm_write_chunk_txtr_fits game p m s3 hs hchunk
  have hsm := hsmall p hpm
  obtain ⟨ci, hci, hsi, hli, hei⟩ := gm_mirrors_entry index fin hm k p hk
  have hgame := gm_parsed_txtr_entry png game index hidx ci (List.getElem?_mem hci)
    (by rw [← hsi]; exact hs)
  have hto : p.offset.toNat = C := by rw [hC]; exact Int.toNat_ofNat C
  have hcopied : ∀ e ∈ p.entries, e.patch = none →
      (s1.data.drop e.offset.toNat).take e.size =
        (game.drop e.entry.offset.toNat).take e.size := by
    intro e he hp
    obtain ⟨i, hi⟩ := List.mem_iff_getElem?.mp he
    have h5 := g5 i e hi
    unfold gm_txtr_payload at h5
    rw [hp] at h5
    exact gm_holds_slice _ _ _ _ h5 (gm_take_length_of_fits _ _ _ (hfits e he hp))
  refine ⟨?_, ?_, ?_⟩
  · unfold gm_chunk_copied
    simp only [hs]
    exact hcopied
  · refine ⟨gm_magic 'T' 'X' 'T' 'R' ++ WRITE_U32LE (p.size : Int), ?_, ?_, ?_⟩
    · have := gm_fread_of_holds s1.data C _ g1 (by simp [gm_write_u32_length, gm_magic])
      rw [hto]
      exact this
    · have e : (gm_magic 'T' 'X' 'T' 'R' ++ WRITE_U32LE (p.size : Int)).take 4 =
          gm_magic 'T' 'X' 'T' 'R' := rfl
      rw [← gm_parse_section_take, hs, e]
      decide
    · exact gm_u32_roundtrip p.size (by unfold UINT32_MAX; omega) _ rfl
  · rw [hs, hto]
    apply gm_read_index_txtr_written png s1.data p C hC g2
    · intro i hi
      have := g3 i hi
      rw [gm_fileinfo_bytes] at this
      exact this
    · exact g4
    · omega
    · intro e he
      obtain ⟨i, hi⟩ := List.mem_iff_getElem?.mp he
      obtain ⟨b1, b2, b3, b4, b5, b6, b7⟩ := hgame e.entry (List.getElem?_mem (hei i e hi))
      obtain ⟨c1, c2⟩ := hmem e he
      refine ⟨b1, b2, b3, b4, b5, by omega, by omega, ?_⟩
      cases hp : e.patch with
      | none =>
        have hsize := (hsz p hpm e he).2 hp
        have hsl := hcopied e he hp
        rw [hsize] at hsl ⊢
        refine hpng game s1.data e.entry.offset.toNat e.offset.toNat _ b7 ?_ hsl
        have := hfits e he hp
        rw [hsize] at this
        exact gm_take_length_of_fits _ _ _ this
      | some q =>
        have hsize := (hsz p hpm e he).1 q hp
        have hmq : gm_marks fin k i = some q := by
          rw [gm_marks_of_get fin k i p e hk hi, hp]
        obtain ⟨hq, c0, e0, hc0, hcs, -, he0, -, hdim⟩ := hmk k i q hmq
        rw [hci] at hc0
        simp only [Option.some.injEq] at hc0
        subst hc0
        rw [hei i e hi] at he0
        simp only [Option.some.injEq] at he0
        subst he0
        obtain ⟨d1, d2, -⟩ := hdecl q hq
        have hqs : q.sect = GM_TXTR := by rw [← hcs, ← hsi]; exact hs
        have hd := hdim (by rw [← hsi]; exact hs)
        have h5 := g5 i e hi
        unfold gm_txtr_payload at h5
        rw [hp] at h5
        simp only at h5
        have hl : (q.data.take q.size).length = q.size := by
          rw [List.length_take]; omega
        have := d2 hqs s1.data e.offset.toNat (gm_holds_slice _ _ _ _ h5 hl)
        rw [this, hsize, hd.1, hd.2]

theorem gm_rewritten_audo (png : png_sniffer) (game : List Nat) (index : List gm_index)
    (fin : List gm_patched_index) (patches : List gm_patch) (s0 s1 : gm_out)
    (hb : gm_bytes_ok game) (hidx : gm_read_index png game = some index)
    (hplan : gm_apply_patches (gm_build_patched index) patches = (gm_status.ok, fin))
    (hw : gm_write_archive game fin s0 = some s1) (hx : gm_xtiles 8 fin)
    (hord : ∀ p ∈ fin, gm_chunk_orderly p)
    (hsmall : ∀ p ∈ fin, p.offset + 8 + (p.size : Int) ≤ (INT32_MAX : Int))
    (hdecl : ∀ q ∈ patches, gm_patch_declared png q)
    (k : Nat) (p : gm_patched_index) (hk : fin[k]? = some p) (hs : p.sect = GM_AUDO) :
    gm_chunk_copied game s1.data p ∧
      (∃ buffer, gm_fread s1.data p.offset.toNat 8 = some buffer ∧
        gm_parse_section buffer = p.sect ∧ U32LE_FROM_BUF buffer 4 = p.size) ∧
      gm_read_section png s1.data p.sect (p.offset.toNat + 8) =
        some (p.entries.map gm_reindex_entry) ∧
      ∀ e ∈ p.entries, e.size < 4294967296 := by
  have hI : (INT32_MAX : Int) = 2147483647 := rfl
  have hI2 : INT32_MAX = 2147483647 := rfl
  have hm : gm_mirrors index fin := by
    have := gm_mirrors_apply index patches _ (gm_mirrors_build index)
    rw [hplan] at this
    exact this
  have hsz : gm_sizes_inv fin := by
    have := gm_sizes_inv_apply patches _ (gm_sizes_inv_build index)
    rw [hplan] at this
    exact this
  have hmk := gm_marks_ok_plan index patches fin hplan
  have hpm : p ∈ fin := List.getElem?_mem hk
  obtain ⟨m, s3, hchunk, hpost⟩ := gm_write_archive_split game fin s0 s1 k p hk hw
  have hordp : gm_entries_ordered ((4 : Nat) : Int)
      (p.offset + 12 + 4 * (p.entries.length : Int)) p.entries
      (p.offset + 8 + (p.size : Int)) := by
    have := hord p hpm
    unfold gm_chunk_orderly at this
    simp only [hs] at this
    exact this
  obtain ⟨hstart, hmem⟩ := gm_entries_ordered_mem 4 _ _ _ hordp
  obtain ⟨hle, hxt⟩ := gm_xtiles_get fin 8 k p hx hk
  have hsm := hsmall p hpm
  have hsizes : ∀ e ∈ p.entries, e.size < 4294967296 := by
    intro e he
    have := hmem e he
    omega
  obtain ⟨C, E1, hC, f1, f2, f3, hfacts⟩ := gm_write_audo_chunk_region game p m s3
    (p.offset + 8 + (p.size : Int)) hs
    (fun e he q hq => ((hsz p hpm e he).1 q hq)) (fun e he _ => hsizes e he) hordp hchunk
  have hbehind : gm_planned_behind E1 (fin.drop (k + 1)) :=
    gm_xtiles_behind _ _ E1 hxt f3 (fun x hx1 => hord x (List.mem_of_mem_drop hx1))
  have hkeep := gm_write_later_keep game E1 _ s3 s1 hbehind f1 f2 hpost
  obtain ⟨g1, g2, g3, g4⟩ := hfacts s1.data hkeep
  have hfits := gm_write_chunk_audo_fits game p m s3 hs hchunk
  obtain ⟨ci, hci, hsi, hli, hei⟩ := gm_mirrors_entry index fin hm k p hk
  have hgame := gm_parsed_audo_entry png game index hidx ci (List.getElem?_mem hci)
    (by rw [← hsi]; exact hs)
  have hto : p.offset.toNat = C := by rw [hC]; exact Int.toNat_ofNat C
  have hcopied : ∀ e ∈ p.entries, e.patch = none →
      (s1.data.drop (e.offset - 4).toNat).take (e.size + 4) =
        (game.drop (e.entry.offset - 4).toNat).take (e.size + 4) := by
    intro e he hp
    obtain ⟨i, hi⟩ := List.mem_iff_getElem?.mp he
    have h4 := g4 i e hi
    unfold gm_audo_payload at h4
    rw [hp] at h4
    exact gm_holds_slice _ _ _ _ h4
      (gm_take_length_of_fits _ _ _ (Or.inr (hfits e he hp (hsizes e he))))
  refine ⟨?_, ?_, ?_, hsizes⟩
  · unfold gm_chunk_copied
    simp only [hs]
    exact hcopied
  · refine ⟨gm_magic 'A' 'U' 'D' 'O' ++ WRITE_U32LE (p.size : Int), ?_, ?_, ?_⟩
    · have := gm_fread_of_holds s1.data C _ g1 (by simp [gm_write_u32_length, gm_magic])
      rw [hto]
      exact this
    · have e : (gm_magic 'A' 'U' 'D' 'O' ++ WRITE_U32LE (p.size : Int)).take 4 =
          gm_magic 'A' 'U' 'D' 'O' := rfl
      rw [← gm_parse_section_take, hs, e]
      decide
    · exact gm_u32_roundtrip p.size (by unfold UINT32_MAX; omega) _ rfl
  · rw [hs, hto]
    apply gm_read_index_audo_written s1.data p C g2 g3 (by omega)
    intro e he
    obtain ⟨i, hi⟩ := List.mem_iff_getElem?.mp he
    obtain ⟨⟨b1, b2, b3, b4, b5, b6⟩, b7, b8⟩ := hgame e.entry (List.getElem?_mem (hei i e hi))
    obtain ⟨c1, c2⟩ := hmem e he
    have h4 := g4 i e hi
    unfold gm_audo_payload at h4
    cases hp : e.patch with
    | none =>
      have hsize := (hsz p hpm e he).2 hp
      rw [hp] at h4
      simp only at h4
      obtain ⟨r1, r2, r3, r4, r5⟩ := gm_read_audo_entry_spec game _ e.entry b8
      have hfit := hfits e he hp (hsizes e he)
      have hmle : (if e.size < 12 then e.size else 12) ≤ e.size := by split <;> omega
      refine ⟨by omega, by omega, hsizes e he, by omega, b1, b2, b3, b4, b5, b6,
        (game.drop ((e.entry.offset - 4).toNat + 4)).take (if e.size < 12 then e.size else 12),
        ?_, ?_, ?_⟩
      · have hw := gm_write_u32_read game hb (e.entry.offset - 4).toNat (by omega)
        rw [← r3, ← hsize] at hw
        have hpre : ((game.drop (e.entry.offset - 4).toNat).take (e.size + 4)).take
            (4 + (if e.size < 12 then e.size else 12)) =
            WRITE_U32LE (e.size : Int) ++
              (game.drop ((e.entry.offset - 4).toNat + 4)).take
                (if e.size < 12 then e.size else 12) := by
          rw [List.take_take, Nat.min_eq_left (by omega), List.take_add, List.drop_drop, hw]
        have := gm_holds_take _ _ (4 + (if e.size < 12 then e.size else 12)) _ h4 (by
          rw [gm_take_length_of_fits _ _ _ (Or.inr hfit)]
          omega)
        rw [hpre] at this
        exact this
      · rw [List.length_take, List.length_drop]
        omega
      · rw [hsize]
        exact r5.symm
    | some q =>
      have hsize := (hsz p hpm e he).1 q hp
      rw [hp] at h4
      simp only at h4
      have hmq : gm_marks fin k i = some q := by
        rw [gm_marks_of_get fin k i p e hk hi, hp]
      obtain ⟨hq, c0, e0, hc0, hcs, -, he0, htype, -⟩ := hmk k i q hmq
      rw [hci] at hc0
      simp only [Option.some.injEq] at hc0
      subst hc0
      rw [hei i e hi] at he0
      simp only [Option.some.injEq] at he0
      subst he0
      obtain ⟨d1, -, d3⟩ := hdecl q hq
      have hqs : q.sect = GM_AUDO := by rw [← hcs, ← hsi]; exact hs
      obtain ⟨d4, d5⟩ := d3 hqs
      have hmle : (if q.size < 12 then q.size else 12) ≤ q.size := by split <;> omega
      rw [hsize]
      refine ⟨by omega, by omega, by rw [← hsize]; exact hsizes e he, d4, b1, b2, b3, b4, b5,
        b6, q.data.take (if q.size < 12 then q.size else 12), ?_, ?_, ?_⟩
      · have hpre : (WRITE_U32LE (q.size : Int) ++ q.data.take q.size).take
            (4 + (if q.size < 12 then q.size else 12)) =
            WRITE_U32LE (q.size : Int) ++ q.data.take (if q.size < 12 then q.size else 12) := by
          have := @List.take_append Nat (WRITE_U32LE (q.size : Int))
            (q.data.take q.size) (if q.size < 12 then q.size else 12)
          rw [gm_write_u32_length] at this
          rw [this, List.take_take, Nat.min_eq_left hmle]
        have := gm_holds_take _ _ (4 + (if q.size < 12 then q.size else 12)) _ h4 (by
          rw [List.length_append, gm_write_u32_length, List.length_take]
          omega)
        rw [hpre] at this
        exact this
      · rw [List.length_take]
        omega
      · rw [d5]
        exact htype.symm

theorem gm_slice_get (a b : List Nat) (P Q n i : Nat)
    (h : (a.drop P).take n = (b.drop Q).take n) (hi : i < n) : a[P + i]? = b[Q + i]? := by
  have := congrArg (fun l => l[i]?) h
  simp only [List.getElem?_take, hi, if_true, List.getElem?_drop] at this
  exact this

theorem gm_rewritten_opaque (png : png_sniffer) (game : List Nat) (index : List gm_index)
    (fin : List gm_patched_index) (patches : List gm_patch) (s0 s1 : gm_out)
    (hidx : gm_read_index png game = some index)
    (hplan : gm_apply_patches (gm_build_patched index) patches = (gm_status.ok, fin))
    (hw : gm_write_archive game fin s0 = some s1) (hx : gm_xtiles 8 fin)
    (hord : ∀ p ∈ fin, gm_chunk_orderly p)
    (k : Nat) (c : gm_index) (hk : index[k]? = some c) (hs1 : c.sect ≠ GM_TXTR)
    (hs2 : c.sect ≠ GM_AUDO) :
    fin[k]? = some
        { sect := c.sect, offset := c.offset, size := c.size,
          entries := c.entries.map fun e =>
            { offset := e.offset, size := e.size, patch := none, entry := e },
          index := c } ∧
      (s1.data.drop c.offset.toNat).take (c.size + 8) =
        (game.drop c.offset.toNat).take (c.size + 8) ∧
      c.offset.toNat + (c.size + 8) ≤ game.length ∧
      ∃ buffer, gm_fread s1.data c.offset.toNat 8 = some buffer ∧
        gm_parse_section buffer = c.sect ∧ U32LE_FROM_BUF buffer 4 = c.size := by
  have hI : INT32_MAX = 2147483647 := rfl
  obtain ⟨buffer0, -, htiles⟩ := gm_read_index_tiles png game index hidx
  obtain ⟨C, hC, hCsz⟩ := gm_tiles_get _ _ _ htiles k c hk
  have hbk : (gm_build_patched index)[k]? = some
      { sect := c.sect, offset := c.offset, size := c.size,
        entries := c.entries.map fun e =>
          { offset := e.offset, size := e.size, patch := none, entry := e },
        index := c } := by
    simp only [gm_build_patched, List.getElem?_map, hk, Option.map_some']
  have hmov : ¬ gm_movable c.sect = true := by
    intro hm
    unfold gm_movable at hm
    split at hm
    · rename_i h; exact hs1 h
    · rename_i h; exact hs2 h
    · cases hm
  have hpk := gm_apply_patches_keeps patches _ fin k _ hbk hmov hplan
  obtain ⟨m, s3, hchunk, hpost⟩ := gm_write_archive_split game fin s0 s1 k _ hpk hw
  obtain ⟨r1, r2, r3, r4⟩ := gm_write_opaque_region game _ C m s3 hs1 hs2 hC hC
    (by simp only; omega) hchunk
  simp only at r1 r2 r3 r4
  obtain ⟨-, hxt⟩ := gm_xtiles_get fin 8 k _ hx hpk
  simp only at hxt
  have hbehind : gm_planned_behind (C + (c.size + 8)) (fin.drop (k + 1)) :=
    gm_xtiles_behind _ _ _ hxt (by rw [hC]; push_cast; omega)
      (fun x hx1 => hord x (List.mem_of_mem_drop hx1))
  have hkeep := gm_write_later_keep game (C + (c.size + 8)) _ s3 s1 hbehind r4 (by omega) hpost
  have hto : c.offset.toNat = C := by rw [hC]; exact Int.toNat_ofNat C
  have e1 : ∀ l : List Nat, (l.drop C).take (c.size + 8) = (l.take (C + (c.size + 8))).drop C := by
    intro l
    rw [List.drop_take, Nat.add_sub_cancel_left]
  have hslice : (s1.data.drop C).take (c.size + 8) = (game.drop C).take (c.size + 8) := by
    rw [e1, hkeep, ← e1, r1]
  obtain ⟨o, buffer, hoff, hrd, hsec, hsect, hsize⟩ :=
    gm_read_index_headers png game index hidx c (List.getElem?_mem hk)
  have ho : o = C := by omega
  subst ho
  rw [hto]
  refine ⟨hpk, hslice, r3, buffer, ?_, hsect.symm, hsize.symm⟩
  rw [gm_fread_congr game s1.data o o (c.size + 8) 8 (by omega) r3 hslice]
  exact hrd

theorem gm_rewritten_plain (png : png_sniffer) (game : List Nat) (index : List gm_index)
    (hidx : gm_read_index png game = some index) (out : List Nat) (c : gm_index)
    (hc : c ∈ index) (hs1 : c.sect ≠ GM_TXTR) (hs2 : c.sect ≠ GM_AUDO)
    (hs3 : c.sect ≠ GM_SPRT) (pos : Nat) :
    gm_read_section png out c.sect pos =
      some ((c.entries.map fun e : gm_entry =>
        ({ offset := e.offset, size := e.size, patch := none, entry := e } :
          gm_patched_entry)).map gm_reindex_entry) := by
  obtain ⟨o, -, hent⟩ := gm_read_index_mem png game index hidx c hc
  have hnil : c.entries = [] := by
    unfold gm_read_section at hent
    split at hent
    · rename_i h; exact absurd h hs3
    · rename_i h; exact absurd h hs1
    · rename_i h; exact absurd h hs2
    · simp only [Option.some.injEq] at hent
      exact hent.symm
  rw [hnil]
  unfold gm_read_section
  split
  · rename_i h; exact absurd h hs3
  · rename_i h; exact absurd h hs1
  · rename_i h; exact absurd h hs2
  · rfl

theorem gm_reindex_build (es : List gm_entry) :
    (es.map fun e : gm_entry =>
      ({ offset := e.offset, size := e.size, patch := none, entry := e } :
        gm_patched_entry)).map gm_reindex_entry = es := by
  rw [List.map_map]
  conv_rhs => rw [← List.map_id es]
  apply List.map_congr_left
  intro e _
  cases e
  rfl

theorem gm_rewritten_sprt (png : png_sniffer) (game : List Nat) (index : List gm_index)
    (fin : List gm_patched_index) (patches : List gm_patch) (s0 s1 : gm_out)
    (hidx : gm_read_index png game = some index)
    (hplan : gm_apply_patches (gm_build_patched index) patches = (gm_status.ok, fin))
    (hw : gm_write_archive game fin s0 = some s1) (hx : gm_xtiles 8 fin)
    (hord : ∀ p ∈ fin, gm_chunk_orderly p) (hsprt : gm_sprites_outside game index)
    (c : gm_index) (hc : c ∈ index) (hs : c.sect = GM_SPRT) :
    gm_read_section png s1.data c.sect (c.offset.toNat + 8) =
      some ((c.entries.map fun e : gm_entry =>
        ({ offset := e.offset, size := e.size, patch := none, entry := e } :
          gm_patched_entry)).map gm_reindex_entry) := by
  obtain ⟨o, hoff, hent⟩ := gm_read_index_mem png game index hidx c hc
  have hto : c.offset.toNat = o := by rw [hoff]; exact Int.toNat_ofNat o
  rw [gm_reindex_build, hs, hto]
  rw [hs] at hent
  have hent1 : gm_read_index_sprt game (o + 8) = some c.entries := hent
  have := hsprt c hc hs s1.data (by
    intro d hd hd1 hd2 i hi1 hi2
    obtain ⟨j, hj⟩ := List.mem_iff_getElem?.mp hd
    obtain ⟨-, hslice, -, -⟩ := gm_rewritten_opaque png game index fin patches s0 s1 hidx
      hplan hw hx hord j d hj hd1 hd2
    have h0 : 0 ≤ d.offset := by
      obtain ⟨o1, ho1, -⟩ := gm_read_index_mem png game index hidx d hd
      omega
    have := gm_slice_get s1.data game d.offset.toNat d.offset.toNat (d.size + 8)
      (i - d.offset.toNat) hslice (by omega)
    have e : d.offset.toNat + (i - d.offset.toNat) = i := by omega
    rw [e] at this
    exact this)
  rw [hto] at this
  show gm_read_index_sprt s1.data (o + 8) = some c.entries
  rw [this]
  exact hent1

/-! ## The second run -/

theorem gm_size_sum_xtiles (l : List gm_patched_index) :
    ∀ s : Int, gm_xtiles s l → s ≤ (INT32_MAX : Int) →
      (∀ p ∈ l, p.offset + 8 + (p.size : Int) ≤ (INT32_MAX : Int)) →
      0 ≤ gm_size_sum l ∧ s + gm_size_sum l ≤ (INT32_MAX : Int) := by
  induction l with
  | nil =>
    intro s _ hs _
    simp only [gm_size_sum, List.map_nil, List.sum_nil]
    omega
  | cons p rest ih =>
    intro s h hs hsmall
    simp only [gm_xtiles] at h
    obtain ⟨h1, h2⟩ := h
    have hp := hsmall p (List.mem_cons_self _ _)
    obtain ⟨h3, h4⟩ := ih _ h2 (by omega) (fun x hx => hsmall x (List.mem_cons_of_mem _ hx))
    rw [gm_size_sum_cons]
    omega

theorem gm_chunks_at_written (png : png_sniffer) (out : List Nat)
    (l : List gm_patched_index) :
    ∀ (s stop : Nat), gm_xtiles (s : Int) l → (stop : Int) = (s : Int) + gm_size_sum l →
      (∀ p ∈ l, (∃ buffer, gm_fread out p.offset.toNat 8 = some buffer ∧
          gm_parse_section buffer = p.sect ∧ U32LE_FROM_BUF buffer 4 = p.size) ∧
        p.sect ≠ GM_END ∧
        gm_read_section png out p.sect (p.offset.toNat + 8) =
          some (p.entries.map gm_reindex_entry) ∧
        p.offset + 8 + (p.size : Int) ≤ (INT32_MAX : Int)) →
      gm_chunks_at png out stop s (l.map gm_reindex_chunk) = true := by
  induction l with
  | nil =>
    intro s stop _ hstop _
    simp only [gm_size_sum, List.map_nil, List.sum_nil] at hstop
    simp only [List.map_nil, gm_chunks_at, decide_eq_true_eq]
    omega
  | cons p rest ih =>
    intro s stop h hstop hP
    simp only [gm_xtiles] at h
    obtain ⟨h1, h2⟩ := h
    obtain ⟨⟨buffer, hr, hsec, hsize⟩, hne, hent, hsm⟩ := hP p (List.mem_cons_self _ _)
    have hI : (INT32_MAX : Int) = 2147483647 := rfl
    have hI2 : INT32_MAX = 2147483647 := rfl
    have hto : p.offset.toNat = s := by rw [h1]; exact Int.toNat_ofNat s
    rw [hto] at hr hent
    rw [gm_size_sum_cons] at hstop
    have hrest : 0 ≤ gm_size_sum rest := by
      unfold gm_size_sum
      apply List.sum_nonneg
      intro x hx
      obtain ⟨y, -, rfl⟩ := List.mem_map.mp hx
      omega
    have e2 : ((s + (p.size + 8) : Nat) : Int) = (s : Int) + 8 + (p.size : Int) := by
      push_cast; omega
    have hnext := ih (s + (p.size + 8)) stop (by rw [e2]; exact h2) (by rw [e2]; omega)
      (fun x hx => hP x (List.mem_cons_of_mem _ hx))
    simp only [List.map_cons, gm_chunks_at, hr, Bool.and_eq_true, decide_eq_true_eq]
    refine ⟨⟨by omega, by rw [hsec]; exact hne, ?_, ?_, ?_, ?_, ?_, ?_, ?_⟩, ?_⟩
    · simp only [gm_reindex_chunk]; exact hsec.symm
    · simp only [gm_reindex_chunk]; exact h1
    · simp only [gm_reindex_chunk]; exact hsize.symm
    · simp only [gm_reindex_chunk]; omega
    · simp only [gm_reindex_chunk]; omega
    · simp only [gm_reindex_chunk]; omega
    · simp only [gm_reindex_chunk]; exact hent
    · exact hnext

theorem gm_patch_archive_ok_run (png : png_sniffer) (fault : Option Nat) (game : List Nat)
    (tmp : Option (List Nat)) (patches : List gm_patch) (index : List gm_index)
    (fs1 : gm_fs) (hidx : gm_read_index png game = some index)
    (hrun : gm_patch_archive png fault { target := some game, tmp := tmp } patches =
      (gm_status.ok, fs1)) :
    ∃ planned s0 s1, gm_apply_patches (gm_build_patched index) patches =
        (gm_status.ok, planned) ∧
      gm_io { data := [], pos := 0, fault := fault } = some s0 ∧
      gm_write_archive game planned s0 = some s1 ∧
      gm_commit game s1 = (gm_status.ok, fs1) := by
  unfold gm_patch_archive at hrun
  simp only [hidx] at hrun
  split at hrun
  · cases hrun
  · rename_i planned hplan
    split at hrun
    · cases hrun
    · rename_i s0 hio
      split at hrun
      · cases hrun
      · rename_i s1 hw
        exact ⟨planned, s0, s1, hplan, hio, hw, hrun⟩

theorem gm_commit_ok (game out : List Nat) (s : gm_out) (fs1 : gm_fs)
    (h : gm_commit game s = (gm_status.ok, fs1)) :
    fs1 = { target := some s.data, tmp := none } ∧
      gm_commit out s = (gm_status.ok, { target := some s.data, tmp := none }) := by
  unfold gm_commit at h ⊢
  split at h
  · cases h
  · split at h
    · cases h
    · split at h
      · cases h
      · split at h
        · cases h
        · simp only [Prod.mk.injEq, true_and] at h
          exact ⟨h.symm, rfl⟩

/-- Claim C7, amended: when `gm_patch_archive` has written the archive `out` for the archive
`game` and the patches `patches`, a second run with the same patches on `out` succeeds and
writes `out` back byte for byte (under the same outcome of the I/O calls), provided that
`game` is a file of bytes with fewer than 32 chunks, that the plan of the first run keeps the
entry regions of every TXTR and AUDO chunk in table order between the tables and the end of
the chunk and lets no chunk end behind `INT32_MAX`, that the sprite data lies in chunks other
than TXTR and AUDO, that the PNG sniffer judges an image by its bytes alone, and that the
replacement bytes of every patch are what the patch declares. -/
theorem gm_repatch_fixed (png : png_sniffer) (fault : Option Nat) (game out : List Nat)
    (index : List gm_index) (patches : List gm_patch) (tmp tmp1 : Option (List Nat))
    (hb : gm_bytes_ok game) (hidx : gm_read_index png game = some index)
    (hcount : gm_index_length index = some index.length)
    (hrun : gm_patch_archive png fault { target := some game, tmp := tmp } patches =
      (gm_status.ok, { target := some out, tmp := none }))
    (hord : ∀ p ∈ (gm_apply_patches (gm_build_patched index) patches).2, gm_chunk_orderly p)
    (hsmall : ∀ p ∈ (gm_apply_patches (gm_build_patched index) patches).2,
      p.offset + 8 + (p.size : Int) ≤ (INT32_MAX : Int))
    (hsprt : gm_sprites_outside game index) (hpng : gm_png_local png)
    (hdecl : ∀ q ∈ patches, gm_patch_declared png q) :
    gm_patch_archive png fault { target := some out, tmp := tmp1 } patches =
      (gm_status.ok, { target := some out, tmp := none }) := by
  have hI : (INT32_MAX : Int) = 2147483647 := rfl
  obtain ⟨fin, s0, s1, hplan, hio, hw, hcommit⟩ :=
    gm_patch_archive_ok_run png fault game tmp patches index _ hidx hrun
  obtain ⟨hfs, hcommit1⟩ := gm_commit_ok game out s1 _ hcommit
  simp only [gm_fs.mk.injEq, Option.some.injEq, and_true] at hfs
  rw [hplan] at hord hsmall
  simp only at hord hsmall
  obtain ⟨hd0, hp0⟩ := gm_io_data _ _ hio
  simp only at hd0 hp0
  have hm : gm_mirrors index fin := by
    have := gm_mirrors_apply index patches _ (gm_mirrors_build index)
    rw [hplan] at this
    exact this
  -- the planned chunks follow each other from offset 8 on
  obtain ⟨buffer0, -, htiles⟩ := gm_read_index_tiles png game index hidx
  obtain ⟨calls, hcalls⟩ := gm_apply_patches_seq patches _ fin hplan
  have hpt := gm_ptiles_patch_seq calls _ fin _ (gm_ptiles_build 8 _ index htiles) hcalls
  have hx : gm_xtiles 8 fin := gm_xtiles_of_ptiles fin _ hpt (by omega) hsmall
  -- every chunk of the plan is in the output and reads back
  have hall : ∀ p ∈ fin, gm_chunk_copied game s1.data p ∧
      ((∃ buffer, gm_fread s1.data p.offset.toNat 8 = some buffer ∧
          gm_parse_section buffer = p.sect ∧ U32LE_FROM_BUF buffer 4 = p.size) ∧
        p.sect ≠ GM_END ∧
        gm_read_section png s1.data p.sect (p.offset.toNat + 8) =
          some (p.entries.map gm_reindex_entry) ∧
        p.offset + 8 + (p.size : Int) ≤ (INT32_MAX : Int)) ∧
      (p.sect = GM_AUDO → ∀ e ∈ p.entries, e.size < 4294967296) := by
    intro p hp
    obtain ⟨k, hk⟩ := List.mem_iff_getElem?.mp hp
    by_cases ht : p.sect = GM_TXTR
    · obtain ⟨a1, a2, a3⟩ := gm_rewritten_txtr png game index fin patches s0 s1 hidx hplan hw
        hx hord hsmall hpng hdecl k p hk ht
      exact ⟨a1, ⟨a2, by rw [ht]; decide, a3, hsmall p hp⟩, fun h => by rw [ht] at h; cases h⟩
    · by_cases ha : p.sect = GM_AUDO
      · obtain ⟨a1, a2, a3, a4⟩ := gm_rewritten_audo png game index fin patches s0 s1 hb hidx
          hplan hw hx hord hsmall hdecl k p hk ha
        exact ⟨a1, ⟨a2, by rw [ha]; decide, a3, hsmall p hp⟩, fun _ => a4⟩
      · have hic := gm_mirrors_index index fin hm k p hk
        obtain ⟨ci, hci, hsi, -, -⟩ := gm_mirrors_entry index fin hm k p hk
        rw [hic] at hci
        simp only [Option.some.injEq] at hci
        subst hci
        have hcm : p.index ∈ index := List.getElem?_mem hic
        obtain ⟨b1, b2, b3, b4⟩ := gm_rewritten_opaque png game index fin patches s0 s1 hidx
          hplan hw hx hord k p.index hic (by rw [← hsi]; exact ht) (by rw [← hsi]; exact ha)
        rw [hk] at b1
        simp only [Option.some.injEq] at b1
        obtain ⟨o, buf, -, -, hsec, hsect, -⟩ :=
          gm_read_index_headers png game index hidx p.index hcm
        have hne : p.sect ≠ GM_END := by rw [hsi, hsect]; exact hsec
        have hoff : p.offset = p.index.offset := by rw [b1]
        have hsize : p.size = p.index.size := by rw [b1]
        have hentries : p.entries = p.index.entries.map fun e : gm_entry =>
            ({ offset := e.offset, size := e.size, patch := none, entry := e } :
              gm_patched_entry) := by rw [b1]
        refine ⟨?_, ⟨?_, hne, ?_, hsmall p hp⟩, fun h => absurd h ha⟩
        · unfold gm_chunk_copied
          split
          · rename_i h; exact absurd h ht
          · rename_i h; exact absurd h ha
          · rw [hoff, hsize]
            exact b2
        · rw [hoff, hsi, hsize]
          exact b4
        · rw [hentries, hoff, hsi]
          by_cases hsp : p.index.sect = GM_SPRT
          · exact gm_rewritten_sprt png game index fin patches s0 s1 hidx hplan hw hx hord
              hsprt p.index hcm hsp
          · exact gm_rewritten_plain png game index hidx s1.data p.index hcm
              (by rw [← hsi]; exact ht) (by rw [← hsi]; exact ha) hsp _
  -- the FORM header of the output
  obtain ⟨hsum0, hsum1⟩ := gm_size_sum_xtiles fin 8 hx (by omega) hsmall
  have hform : (gm_form_size fin : Int) = gm_size_sum fin := by
    rw [gm_form_size_eq, size_wrap_eq]
    omega
  have hlenm : (gm_magic 'F' 'O' 'R' 'M').length = 4 := by simp [gm_magic]
  have hhdr : gm_holds s1.data 0
      (gm_magic 'F' 'O' 'R' 'M' ++ WRITE_U32LE (gm_form_size fin : Int)) := by
    have hw1 := hw
    unfold gm_write_archive at hw1
    split at hw1
    · cases hw1
    rename_i t1 ht1
    obtain ⟨w1, w2, w3⟩ := gm_write_hdr_holds _ _ s0 t1 hlenm ht1
    rw [hp0] at w1 w2
    have hkeep := gm_write_later_keep game 8 fin t1 s1
      (gm_xtiles_behind fin 8 8 hx (by omega) hord) (by omega) (by omega) hw1
    exact gm_holds_keep t1.data s1.data 0 _ 8 w1 (Or.inr (by
      rw [List.length_append, hlenm, gm_write_u32_length])) hkeep
  have hread0 := gm_fread_of_holds s1.data 0 _ hhdr (by
    rw [List.length_append, hlenm, gm_write_u32_length]; omega)
  have hl8 : (gm_magic 'F' 'O' 'R' 'M' ++ WRITE_U32LE (gm_form_size fin : Int)).length = 8 := by
    rw [List.length_append, hlenm, gm_write_u32_length]
  rw [hl8] at hread0
  have hfsz : U32LE_FROM_BUF
      (gm_magic 'F' 'O' 'R' 'M' ++ WRITE_U32LE (gm_form_size fin : Int)) 4 =
      gm_form_size fin :=
    gm_u32_roundtrip _ (by unfold UINT32_MAX; omega) _ hlenm
  -- the output parses to the planned index
  have hchunks : gm_chunks_at png s1.data (gm_form_size fin + 8) 8 (gm_reindex fin) = true :=
    gm_chunks_at_written png s1.data fin 8 (gm_form_size fin + 8) hx
      (by push_cast; omega) (fun p hp => (hall p hp).2.1)
  have hlenf : fin.length = index.length := gm_mirrors_length index fin hm
  have hcap : index.length < gm_index_capacity := by
    unfold gm_index_length at hcount
    split at hcount
    · assumption
    · cases hcount
  have hparse : gm_read_index png s1.data = some (gm_reindex fin) := by
    unfold gm_read_index
    rw [hread0]
    simp only
    rw [if_neg (by
      intro hne
      apply hne
      rfl), hfsz]
    apply gm_read_index_loop_ok png s1.data _ (gm_reindex fin) _ _ _ hchunks
    · unfold gm_reindex
      rw [List.length_map]
      omega
    · cases hfin : fin with
      | nil => simp [gm_reindex]
      | cons c rest =>
        have := gm_chunks_at_length png s1.data _ (gm_reindex fin) _ hchunks (by
          rw [hfin]; simp [gm_reindex])
        rw [← hfin]
        omega
  -- the second run plans and writes as the first one does
  have hplan2 := gm_replan index fin patches (by
      intro c hc hmov
      obtain ⟨k, hk⟩ := List.mem_iff_getElem?.mp hc
      obtain ⟨hle, -⟩ := gm_xtiles_get fin 8 k c hx hk
      have hsm := hsmall c hc
      have ho := hord c hc
      refine ⟨by unfold gm_off_ok; omega, by omega, ?_⟩
      intro e he
      unfold gm_chunk_orderly at ho
      unfold gm_movable at hmov
      split at hmov
      · rename_i ht
        simp only [ht] at ho
        have := (gm_entries_ordered_mem 0 _ _ _ ho).2 e he
        unfold gm_off_ok
        omega
      · rename_i ha
        simp only [ha] at ho
        have := (gm_entries_ordered_mem 4 _ _ _ ho).2 e he
        unfold gm_off_ok
        omega
      · cases hmov) hplan
  have hw2 := gm_write_archive_sim game s1.data fin s0 s1 (fun p hp => (hall p hp).1)
    (fun p hp => (hall p hp).2.2) hw
  rw [hfs]
  unfold gm_patch_archive
  simp only [hparse, hplan2, hio, hw2]
  rw [hfs] at hcommit1
  exact hcommit1

theorem ex_sniffer_sized_local : gm_png_local ex_sniffer_sized := by
  intro g g1 p p1 info h hl he
  unfold ex_sniffer_sized at h ⊢
  split at h
  · rename_i size width height rest hg
    split at h
    · rename_i h3
      simp only [Option.some.injEq] at h
      subst h
      simp only at hl he
      rw [hg] at he hl
      match hg1 : g1.drop p1, he with
      | [], he =>
        match size, h3, he with
        | n + 3, _, he => simp at he
      | [a], he =>
        match size, h3, he with
        | n + 3, _, he => simp at he
      | [a, b], he =>
        match size, h3, he with
        | n + 3, _, he => simp at he
      | a :: b :: c :: r, he =>
        match size, h3, he with
        | n + 3, _, he =>
          simp only [List.take_succ_cons, List.cons.injEq] at he
          obtain ⟨rfl, rfl, rfl, -⟩ := he
          simp
    · cases h
  · cases h

theorem ex_patch_image_declared : gm_patch_declared ex_sniffer_sized ex_patch_image := by
  refine ⟨by decide, ?_, fun h => by cases h⟩
  intro _ g p he
  unfold ex_sniffer_sized
  match hg : g.drop p, he with
  | [], he => simp [ex_patch_image] at he
  | [a], he => simp [ex_patch_image] at he
  | [a, b], he => simp [ex_patch_image] at he
  | a :: b :: c :: r, he =>
    simp only [ex_patch_image, List.take_succ_cons, List.cons.injEq] at he
    obtain ⟨rfl, rfl, rfl, -⟩ := he
    simp [ex_patch_image]

theorem ex_patch_ogg_longer_declared :
    gm_patch_declared ex_sniffer_sized ex_patch_ogg_longer := by
  refine ⟨by decide, ?_, ?_⟩
  · intro h
    cases h
  · intro _
    exact ⟨by decide, by decide⟩

theorem gm_fread_agree (out game : List Nat) (p n : Nat) (b : List Nat)
    (hag : ∀ i : Nat, p ≤ i → i < p + n → out[i]? = game[i]?)
    (h : gm_fread game p n = some b) : gm_fread out p n = some b := by
  unfold gm_fread at h ⊢
  split at h
  · cases h
  split at h
  · rename_i hn hl
    have hlo : p + n ≤ out.length := by
      have e := hag (p + n - 1) (by omega) (by omega)
      have : (p + n - 1) < game.length := by omega
      rw [List.getElem?_eq_getElem this] at e
      by_contra hc
      rw [List.getElem?_eq_none (by omega)] at e
      cases e
    rw [if_neg hn, if_pos hlo]
    rw [← h]
    congr 1
    apply List.ext_getElem?
    intro i
    by_cases hi : i < n
    · simp only [List.getElem?_take, hi, if_true, List.getElem?_drop]
      exact hag (p + i) (by omega) (by omega)
    · simp only [List.getElem?_take, hi, if_false]
  · cases h

set_option maxRecDepth 100000 in
theorem ex_sprt_audo_outside : gm_sprites_outside ex_archive_sprt_audo ex_index_sprt_audo := by
  intro c hc hs out hag
  simp only [ex_index_sprt_audo, List.mem_cons, List.mem_singleton, List.not_mem_nil,
    or_false] at hc
  rcases hc with rfl | rfl
  swap
  · cases hs
  have hR : ∀ (p n : Nat), 8 ≤ p → p + n ≤ 138 → 0 < n →
      gm_fread out p n = some ((ex_archive_sprt_audo.drop p).take n) := by
    intro p n h1 h2 h3
    apply gm_fread_agree out ex_archive_sprt_audo p n
    · intro i hi1 hi2
      exact hag { sect := GM_SPRT, offset := 8, size := 122, entries := [ex_sprite] }
        (by simp [ex_index_sprt_audo]) (by decide) (by decide) i
        (by simp only; omega) (by simp only; omega)
    · unfold gm_fread
      rw [if_neg (by omega), if_pos (by
        have : ex_archive_sprt_audo.length = 162 := rfl
        omega)]
  have hgame : gm_read_index_sprt ex_archive_sprt_audo 16 = some [ex_sprite] := by decide
  show gm_read_index_sprt out 16 = gm_read_index_sprt ex_archive_sprt_audo 16
  rw [hgame]
  have htpag : gm_read_tpag out 108 =
      some { x := 10, y := 20, width := 32, height := 32, txtr_index := 0 } := by
    unfold gm_read_tpag
    rw [hR 108 22 (by decide) (by decide) (by decide)]
    rfl
  have e0 : U32LE_FROM_BUF ((ex_archive_sprt_audo.drop 24).take 80) 0 = 134 := by decide
  have e76 : U32LE_FROM_BUF ((ex_archive_sprt_audo.drop 24).take 80) 76 = 1 := by decide
  have et : U32LE_FROM_BUF ((ex_archive_sprt_audo.drop 104).take 4) (0 * 4) = 108 := by decide
  have el : U32LE_FROM_BUF ((ex_archive_sprt_audo.drop 130).take 4) 0 = 3 := by decide
  have es : U32LE_FROM_BUF ((ex_archive_sprt_audo.drop 20).take 4) 0 = 24 := by decide
  have ec : U32LE_FROM_BUF ((ex_archive_sprt_audo.drop 16).take 4) 0 = 1 := by decide
  have w1 : u32_wrap (((1 : Nat) : Int) * 4) = 4 := by decide
  have w2 : u32_wrap (((134 : Nat) : Int) - 4) = 130 := by decide
  have hentry : gm_read_sprt_entry out 24 = some ex_sprite := by
    unfold gm_read_sprt_entry
    rw [hR 24 80 (by decide) (by decide) (by decide)]
    simp only
    rw [e0, e76, w1, w2, if_neg (by decide), if_neg (by decide),
      hR (24 + 80) 4 (by decide) (by decide) (by decide)]
    simp only
    unfold gm_read_tpags
    rw [if_neg (by decide), et, htpag]
    simp only
    unfold gm_read_tpags
    simp only
    rw [hR 130 4 (by decide) (by decide) (by decide)]
    simp only
    rw [el, if_neg (by decide), hR (130 + 4) 3 (by decide) (by decide) (by decide)]
    rfl
  unfold gm_read_index_sprt
  rw [hR 16 4 (by decide) (by decide) (by decide)]
  simp only
  rw [ec]
  unfold gm_read_sprt_loop
  rw [hR (16 + 4) 4 (by decide) (by decide) (by decide)]
  simp only
  rw [es, hentry]
  simp only
  unfold gm_read_sprt_loop
  rfl

set_option maxRecDepth 100000 in
/-- C7 (witness). Two instances.  The first run replaces the image and the blob of
`ex_archive` by 5 bytes each and writes `ex_archive_repatched`, with the AUDO chunk one byte
further back; the second run with the same patches writes that archive back.  The first run
replaces the blob of `ex_archive_sprt_audo`, an archive with a sprite, by 5 bytes and writes
`ex_archive_sprt_audo_patched`; the second run writes that archive back. -/
theorem gm_repatch_fixed_witness :
    ((gm_bytes_ok ex_archive ∧
        gm_read_index ex_sniffer_sized ex_archive = some ex_archive_index ∧
        gm_index_length ex_archive_index = some ex_archive_index.length ∧
        gm_patch_archive ex_sniffer_sized none { target := some ex_archive, tmp := none }
            [ex_patch_image, ex_patch_ogg_longer] =
          (gm_status.ok, { target := some ex_archive_repatched, tmp := none }) ∧
        gm_apply_patches (gm_build_patched ex_archive_index)
            [ex_patch_image, ex_patch_ogg_longer] = (gm_status.ok, ex_planned_repatched) ∧
        (∀ p ∈ ex_planned_repatched, gm_chunk_orderly p) ∧
        (∀ p ∈ ex_planned_repatched, p.offset + 8 + (p.size : Int) ≤ (INT32_MAX : Int)) ∧
        gm_sprites_outside ex_archive ex_archive_index ∧ gm_png_local ex_sniffer_sized ∧
        ∀ q ∈ [ex_patch_image, ex_patch_ogg_longer], gm_patch_declared ex_sniffer_sized q) ∧
      gm_patch_archive ex_sniffer_sized none
          { target := some ex_archive_repatched, tmp := none }
          [ex_patch_image, ex_patch_ogg_longer] =
        (gm_status.ok, { target := some ex_archive_repatched, tmp := none })) ∧
    ((gm_bytes_ok ex_archive_sprt_audo ∧
        gm_read_index ex_sniffer_sized ex_archive_sprt_audo = some ex_index_sprt_audo ∧
        gm_index_length ex_index_sprt_audo = some ex_index_sprt_audo.length ∧
        gm_patch_archive ex_sniffer_sized none
            { target := some ex_archive_sprt_audo, tmp := none } [ex_patch_ogg_longer] =
          (gm_status.ok, { target := some ex_archive_sprt_audo_patched, tmp := none }) ∧
        gm_apply_patches (gm_build_patched ex_index_sprt_audo) [ex_patch_ogg_longer] =
          (gm_status.ok, ex_planned_sprt_audo) ∧
        (∀ p ∈ ex_planned_sprt_audo, gm_chunk_orderly p) ∧
        (∀ p ∈ ex_planned_sprt_audo, p.offset + 8 + (p.size : Int) ≤ (INT32_MAX : Int)) ∧
        gm_sprites_outside ex_archive_sprt_audo ex_index_sprt_audo ∧
        ∀ q ∈ [ex_patch_ogg_longer], gm_patch_declared ex_sniffer_sized q) ∧
      gm_patch_archive ex_sniffer_sized none
          { target := some ex_archive_sprt_audo_patched, tmp := none } [ex_patch_ogg_longer] =
        (gm_status.ok, { target := some ex_archive_sprt_audo_patched, tmp := none })) :=
  have hb : gm_bytes_ok ex_archive := by unfold gm_bytes_ok; decide
  have hplan : gm_apply_patches (gm_build_patched ex_archive_index)
      [ex_patch_image, ex_patch_ogg_longer] = (gm_status.ok, ex_planned_repatched) := by decide
  have hord : ∀ p ∈ ex_planned_repatched, gm_chunk_orderly p := by
    intro p hp
    simp only [ex_planned_repatched, List.mem_cons, List.mem_singleton, List.not_mem_nil,
      or_false] at hp
    rcases hp with rfl | rfl | rfl
    · trivial
    · simp only [gm_chunk_orderly, gm_entries_ordered]
      decide
    · simp only [gm_chunk_orderly, gm_entries_ordered]
      decide
  have hsmall : ∀ p ∈ ex_planned_repatched,
      p.offset + 8 + (p.size : Int) ≤ (INT32_MAX : Int) := by
    intro p hp
    simp only [ex_planned_repatched, List.mem_cons, List.mem_singleton, List.not_mem_nil,
      or_false] at hp
    rcases hp with rfl | rfl | rfl <;> decide
  have hsprt : gm_sprites_outside ex_archive ex_archive_index := by
    intro c hc hs
    simp only [ex_archive_index, List.mem_cons, List.mem_singleton, List.not_mem_nil,
      or_false] at hc
    rcases hc with rfl | rfl | rfl <;> cases hs
  have hdecl : ∀ q ∈ [ex_patch_image, ex_patch_ogg_longer],
      gm_patch_declared ex_sniffer_sized q := by
    intro q hq
    simp only [List.mem_cons, List.mem_singleton, List.not_mem_nil, or_false] at hq
    rcases hq with rfl | rfl
    · exact ex_patch_image_declared
    · exact ex_patch_ogg_longer_declared
  have hb2 : gm_bytes_ok ex_archive_sprt_audo := by unfold gm_bytes_ok; decide
  have hplan2 : gm_apply_patches (gm_build_patched ex_index_sprt_audo)
      [ex_patch_ogg_longer] = (gm_status.ok, ex_planned_sprt_audo) := by decide
  have hord2 : ∀ p ∈ ex_planned_sprt_audo, gm_chunk_orderly p := by
    intro p hp
    simp only [ex_planned_sprt_audo, List.mem_cons, List.mem_singleton, List.not_mem_nil,
      or_false] at hp
    rcases hp with rfl | rfl
    · trivial
    · simp only [gm_chunk_orderly, gm_entries_ordered]
      decide
  have hsmall2 : ∀ p ∈ ex_planned_sprt_audo,
      p.offset + 8 + (p.size : Int) ≤ (INT32_MAX : Int) := by
    intro p hp
    simp only [ex_planned_sprt_audo, List.mem_cons, List.mem_singleton, List.not_mem_nil,
      or_false] at hp
    rcases hp with rfl | rfl <;> decide
  have hdecl2 : ∀ q ∈ [ex_patch_ogg_longer], gm_patch_declared ex_sniffer_sized q := by
    intro q hq
    simp only [List.mem_singleton] at hq
    subst hq
    exact ex_patch_ogg_longer_declared
  ⟨⟨⟨hb, by decide, by decide, by decide, hplan, hord, hsmall, hsprt, ex_sniffer_sized_local,
        hdecl⟩,
      gm_repatch_fixed ex_sniffer_sized none ex_archive ex_archive_repatched ex_archive_index
        [ex_patch_image, ex_patch_ogg_longer] none none hb (by decide) (by decide) (by decide)
        (by rw [hplan]; exact hord) (by rw [hplan]; exact hsmall) hsprt ex_sniffer_sized_local
        hdecl⟩,
    ⟨⟨hb2, by decide, by decide, by decide, hplan2, hord2, hsmall2, ex_sprt_audo_outside,
        hdecl2⟩,
      gm_repatch_fixed ex_sniffer_sized none ex_archive_sprt_audo ex_archive_sprt_audo_patched
        ex_index_sprt_audo [ex_patch_ogg_longer] none none hb2 (by decide) (by decide)
        (by decide) (by rw [hplan2]; exact hord2) (by rw [hplan2]; exact hsmall2)
        ex_sprt_audo_outside ex_sniffer_sized_local hdecl2⟩⟩

set_option maxRecDepth 100000 in
/-- C7 (further counterexamples). Four more first runs that succeed and whose output the
second run with the same patch does not leave as it is.  The blob of `ex_archive_txtr_alias`
lies in the TXTR chunk, outside its own chunk: the second run cannot parse the output.  The
sniffer counts 4 of the 5 bytes of `ex_patch_image_short` as the image: the second run
succeeds and writes a longer archive.  The bytes of `ex_patch_image_wide` are not of the
declared width: the second run fails with `EINVAL`.  `ex_patch_ogg_none` leaves an empty
blob, and the sprite name of `ex_archive_sprt_named` lies in the blob that `ex_patch_name`
replaces: the second run cannot parse the output. -/
theorem gm_second_run_other_failures :
    (gm_patch_archive ex_sniffer_sized none
          { target := some ex_archive_txtr_alias, tmp := none } [ex_patch_txtr_alias] =
        (gm_status.ok, { target := some ex_archive_txtr_alias_patched, tmp := none }) ∧
      gm_patch_archive ex_sniffer_sized none
          { target := some ex_archive_txtr_alias_patched, tmp := none } [ex_patch_txtr_alias] =
        (gm_status.error EIO, { target := some ex_archive_txtr_alias_patched, tmp := none })) ∧
    (gm_patch_archive ex_sniffer_sized none { target := some ex_archive, tmp := none }
          [ex_patch_image_short] =
        (gm_status.ok, { target := some ex_archive_image_short, tmp := none }) ∧
      gm_patch_archive ex_sniffer_sized none
          { target := some ex_archive_image_short, tmp := none } [ex_patch_image_short] =
        (gm_status.ok, { target := some ex_archive_image_short_twice, tmp := none }) ∧
      ex_archive_image_short_twice ≠ ex_archive_image_short) ∧
    (gm_patch_archive ex_sniffer_sized none { target := some ex_archive, tmp := none }
          [ex_patch_image_wide] =
        (gm_status.ok, { target := some ex_archive_image_wide, tmp := none }) ∧
      gm_patch_archive ex_sniffer_sized none
          { target := some ex_archive_image_wide, tmp := none } [ex_patch_image_wide] =
        (gm_status.error EINVAL, { target := some ex_archive_image_wide, tmp := none })) ∧
    (gm_patch_archive ex_sniffer_sized none { target := some ex_archive, tmp := none }
          [ex_patch_ogg_none] =
        (gm_status.ok, { target := some ex_archive_ogg_none, tmp := none }) ∧
      gm_patch_archive ex_sniffer_sized none
          { target := some ex_archive_ogg_none, tmp := none } [ex_patch_ogg_none] =
        (gm_status.error EIO, { target := some ex_archive_ogg_none, tmp := none })) ∧
    (gm_patch_archive ex_sniffer_sized none
          { target := some ex_archive_sprt_named, tmp := none } [ex_patch_name] =
        (gm_status.ok, { target := some ex_archive_sprt_renamed, tmp := none }) ∧
      gm_patch_archive ex_sniffer_sized none
          { target := some ex_archive_sprt_renamed, tmp := none } [ex_patch_name] =
        (gm_status.error EIO, { target := some ex_archive_sprt_renamed, tmp := none })) := by
  refine ⟨⟨?_, ?_⟩, ⟨?_, ?_, ?_⟩, ⟨?_, ?_⟩, ⟨?_, ?_⟩, ⟨?_, ?_⟩⟩ <;> decide

/-! ## Archives that fill the chunk array -/

set_option maxRecDepth 100000 in
/-- C16 (witness). The three chunks of `ex_archive` tile the 68 bytes of its FORM payload, and
the 32 chunks of `ex_archive_chunks 32`, which fill the chunk array, tile the 256 bytes of
its FORM payload. -/
theorem gm_parsed_chunks_tile_witness :
    (gm_read_index ex_sniffer ex_archive = some ex_archive_index ∧
      ((∀ c, ex_archive_index[0]? = some c → c.offset = 8) ∧
        (∀ k a b, ex_archive_index[k]? = some a → ex_archive_index[k + 1]? = some b →
          b.offset = a.offset + 8 + (a.size : Int) ∧ a.offset < b.offset) ∧
        (∀ (j k : Nat) (a b : gm_index), j < k → ex_archive_index[j]? = some a →
          ex_archive_index[k]? = some b → a.offset + 8 + (a.size : Int) ≤ b.offset) ∧
        (∀ c ∈ ex_archive_index,
          c.offset + 8 + (c.size : Int) ≤ (U32LE_FROM_BUF ex_archive 4 : Int) + 8) ∧
        (∀ c, ex_archive_index.getLast? = some c →
          c.offset + 8 + (c.size : Int) = (U32LE_FROM_BUF ex_archive 4 : Int) + 8) ∧
        (ex_archive_index.map fun c => c.size + 8).sum = U32LE_FROM_BUF ex_archive 4)) ∧
    (gm_read_index ex_sniffer (ex_archive_chunks 32) = some (ex_index_chunks 32) ∧
      (ex_index_chunks 32).length = 32 ∧
      ((∀ c, (ex_index_chunks 32)[0]? = some c → c.offset = 8) ∧
        (∀ k a b, (ex_index_chunks 32)[k]? = some a → (ex_index_chunks 32)[k + 1]? = some b →
          b.offset = a.offset + 8 + (a.size : Int) ∧ a.offset < b.offset) ∧
        (∀ (j k : Nat) (a b : gm_index), j < k → (ex_index_chunks 32)[j]? = some a →
          (ex_index_chunks 32)[k]? = some b → a.offset + 8 + (a.size : Int) ≤ b.offset) ∧
        (∀ c ∈ ex_index_chunks 32,
          c.offset + 8 + (c.size : Int) ≤
            (U32LE_FROM_BUF (ex_archive_chunks 32) 4 : Int) + 8) ∧
        (∀ c, (ex_index_chunks 32).getLast? = some c →
          c.offset + 8 + (c.size : Int) =
            (U32LE_FROM_BUF (ex_archive_chunks 32) 4 : Int) + 8) ∧
        ((ex_index_chunks 32).map fun c => c.size + 8).sum =
          U32LE_FROM_BUF (ex_archive_chunks 32) 4)) :=
  ⟨⟨by decide, gm_parsed_chunks_tile ex_sniffer ex_archive ex_archive_index (by decide)⟩,
    by decide, by decide,
    gm_parsed_chunks_tile ex_sniffer (ex_archive_chunks 32) (ex_index_chunks 32) (by decide)⟩
